import Mathlib

/-!
# Verification of `bptree.hh` (B+ tree)

Shallow embedding of `src/bptree.hh`.  Nodes live in an explicit heap
(a list indexed by address); a pointer is an address, the null pointer is
`none`.  Every function of the source that touches memory is a function on
the heap returning `Option`: `none` stands for a run that does not complete
normally (an out-of-range vector access, a null or dangling dereference, a
failed `assert`, a `.at()` that throws, or a loop that does not terminate).

Integer model: `num_keys` is an `int16_t` in the source and is stored here as
an `Int` reduced by `wrap16` after every arithmetic update.  `depth` and
`count` (C `int`) are kept as unbounded integers, so the model agrees with the
source only on runs in which they stay in the 32-bit range; an overflow needs
2^31 stored keys.  The statements about the value of `count` are therefore made
for runs that keep it in that range (`run_ops_int`, `ReachableInt`).
The fanout `m` is a natural number.
-/

set_option linter.all false

namespace BPlus

/-- Node kind, `enum bpnode_type`. -/
inductive bpnode_type where
  | NODE_NONE
  | NODE_LEAF
  | NODE_INNER
deriving DecidableEq, Repr

/-- A node: the fields of `bpnode` together with those of `bpnode_leaf`
(`values`, `next`) and of `bpnode_inner` (`children`); `type` is the dynamic
class of the object (what `get_type()` returns). -/
structure bpnode (K V : Type) where
  type : bpnode_type
  num_keys : Int
  keys : List K
  parent : Option Nat
  values : List V
  next : Option Nat
  children : List Nat
deriving DecidableEq, Repr

/-- The tree object `bptree` together with the memory its nodes live in. -/
structure bptree (K V : Type) where
  heap : List (Option (bpnode K V))
  root : Option Nat
  depth : Int
  count : Int
  m : Nat
deriving DecidableEq, Repr

/-- Conversion of an `int` result to `int16_t` (two's complement). -/
def wrap16 (x : Int) : Int := (x + 32768) % 65536 - 32768

section heap
variable {K V : Type}

/-- Read the node at address `a`; `none` when `a` is unallocated or freed. -/
def heap_get (h : List (Option (bpnode K V))) (a : Nat) : Option (bpnode K V) :=
  h.getD a none

/-- Overwrite the node at address `a`. -/
def heap_set (h : List (Option (bpnode K V))) (a : Nat) (n : bpnode K V) :
    List (Option (bpnode K V)) :=
  h.set a (some n)

/-- The `delete` expression: the cell at `a` becomes unusable. -/
def heap_free (h : List (Option (bpnode K V))) (a : Nat) : List (Option (bpnode K V)) :=
  h.set a none

/-- The `new` expression: the fresh address is the current heap size. -/
def heap_alloc (h : List (Option (bpnode K V))) (n : bpnode K V) :
    List (Option (bpnode K V)) × Nat :=
  (h ++ [some n], h.length)

/-- Result of `dynamic_cast<bpnode_inner*>(p)`: `some none` is the null pointer,
`none` a dangling pointer. -/
def dyn_inner (h : List (Option (bpnode K V))) : Option Nat → Option (Option Nat)
  | none => some none
  | some a =>
    match heap_get h a with
    | none => none
    | some nd => if nd.type = bpnode_type.NODE_INNER then some (some a) else some none

/-- Result of `dynamic_cast<bpnode_leaf*>(p)`. -/
def dyn_leaf (h : List (Option (bpnode K V))) : Option Nat → Option (Option Nat)
  | none => some none
  | some a =>
    match heap_get h a with
    | none => none
    | some nd => if nd.type = bpnode_type.NODE_LEAF then some (some a) else some none

/-- Bounds-checked write `v.at(i) = x`. -/
def set_at {A : Type} (l : List A) (i : Nat) (x : A) : Option (List A) :=
  if i < l.length then some (l.set i x) else none

/-- Vector insertion `v.insert(v.begin() + i, x)`. -/
def insert_at {A : Type} (l : List A) (i : Nat) (x : A) : List A :=
  l.take i ++ x :: l.drop i

/-- Loop `for (i = 0; i <= p->num_keys; i++) if (n == p->children[i]) break;`
with `fuel` iterations left. -/
def child_index_loop (cs : List Nat) (n : Nat) : Nat → Nat → Option Nat
  | 0, i => some i
  | fuel + 1, i =>
    match cs[i]? with
    | none => none
    | some c => if c = n then some i else child_index_loop cs n fuel (i + 1)

/-- Index of `n` among the children of `p`, scanning indices `0 .. num_keys`. -/
def child_index (p : bpnode K V) (n : Nat) : Option Nat :=
  child_index_loop p.children n (p.num_keys + 1).toNat 0

/-- Position at which an iterator scan for `x` stops (`length` when absent). -/
def index_of {A : Type} [DecidableEq A] (x : A) : List A → Nat
  | [] => 0
  | y :: ys => if y = x then 0 else index_of x ys + 1

/-- The loop `for (auto &c : cs) c->parent = p;`. -/
def set_parents (h : List (Option (bpnode K V))) : List Nat → Option Nat →
    Option (List (Option (bpnode K V)))
  | [], _ => some h
  | c :: cs, p =>
    match heap_get h c with
    | none => none
    | some cd => set_parents (heap_set h c { cd with parent := p }) cs p

/-- `(x == nullptr) ? 0 : x->num_keys`. -/
def node_count (h : List (Option (bpnode K V))) : Option Nat → Option Int
  | none => some 0
  | some a => (heap_get h a).map (fun nd => nd.num_keys)

/-- `get_sibling`: left and right neighbours of `n` under its parent. -/
def get_sibling (h : List (Option (bpnode K V))) (n : Nat) :
    Option (Option Nat × Option Nat) :=
  match heap_get h n with
  | none => none
  | some nd =>
  match nd.parent with
  | none => none
  | some pa =>
  match dyn_inner h (some pa) with
  | some (some p) =>
    match heap_get h p with
    | none => none
    | some pd =>
    match child_index pd n with
    | none => none
    | some i =>
    if pd.num_keys < (i : Int) then none else
    let left : Option (Option Nat) :=
      if i = 0 then some none else (pd.children[i - 1]?).map some
    let right : Option (Option Nat) :=
      if (i : Int) = pd.num_keys then some none else (pd.children[i + 1]?).map some
    match left, right with
    | some l, some r => some (l, r)
    | _, _ => none
  | _ => none

end heap

section ops
variable {K V : Type} [LinearOrder K]

/-- `bptree(int m_)`. -/
def bptree_new (m : Nat) : bptree K V :=
  { heap := [], root := none, depth := 0, count := 0, m := m }

/-- `get_count()`. -/
def get_count (t : bptree K V) : Int := t.count

/-- `get_depth()`. -/
def get_depth (t : bptree K V) : Int := t.depth

/-- The `while (index < num_keys)` loop of `check_children_index_by_key`,
with `fuel` iterations left. -/
def check_children_index_loop (keys : List K) (key : K) : Nat → Nat → Option Nat
  | 0, index => some index
  | fuel + 1, index =>
    match keys[index]? with
    | none => none
    | some x => if key < x then some index else check_children_index_loop keys key fuel (index + 1)

/-- `bpnode::check_children_index_by_key`. -/
def check_children_index_by_key (n : bpnode K V) (key : K) : Option Nat :=
  check_children_index_loop n.keys key n.num_keys.toNat 0

/-- The descent `while (!n->is_leaf())` of `find_leaf`; `fuel` bounds the
number of nodes visited. -/
def find_leaf_descend (h : List (Option (bpnode K V))) (key : K) : Nat → Nat → Option Nat
  | 0, _ => none
  | fuel + 1, n =>
    match heap_get h n with
    | none => none
    | some nd =>
      if nd.type = bpnode_type.NODE_LEAF then some n
      else if nd.type = bpnode_type.NODE_INNER then
        match check_children_index_by_key nd key with
        | none => none
        | some i =>
          match nd.children[i]? with
          | none => none
          | some c => find_leaf_descend h key fuel c
      else none

/-- The scan `for (i = 0; i < n->num_keys; i++)` of `find_leaf`. -/
def find_leaf_scan (keys : List K) (key : K) : Nat → Nat → Option (Option Nat)
  | 0, _ => some none
  | fuel + 1, i =>
    match keys[i]? with
    | none => none
    | some x => if x = key then some (some i) else find_leaf_scan keys key fuel (i + 1)

/-- `find_leaf`: the pair (`idx` when the key was found, `node`). -/
def find_leaf (t : bptree K V) (key : K) : Option (Option Nat × Option Nat) :=
  match t.root with
  | none => some (none, none)
  | some r =>
    match find_leaf_descend t.heap key t.heap.length r with
    | none => none
    | some n =>
      match heap_get t.heap n with
      | none => none
      | some nd =>
        match find_leaf_scan nd.keys key nd.num_keys.toNat 0 with
        | none => none
        | some idx => some (idx, some n)

/-- `find_key`: `some (some v)` found with value `v`, `some none` not found. -/
def find_key (t : bptree K V) (k : K) : Option (Option V) :=
  match find_leaf t k with
  | none => none
  | some (none, _) => some none
  | some (some idx, n) =>
    match n with
    | none => none
    | some a =>
      match heap_get t.heap a with
      | none => none
      | some nd => (nd.values[idx]?).map some

/-- Position of the first key greater than `key` (iterator scan `key < *it`). -/
def upper_pos (key : K) : List K → Nat
  | [] => 0
  | x :: xs => if key < x then 0 else upper_pos key xs + 1

/-- `inner_split_if_full`, with the recursive call to `insert_inner_node`
passed as `ins`. -/
def inner_split_if_full
    (ins : bptree K V → Option Nat → K → Nat → Nat → Option (bptree K V))
    (t : bptree K V) (n : Nat) : Option (bptree K V) :=
  match heap_get t.heap n with
  | none => none
  | some nd =>
    if nd.num_keys < (t.m : Int) then some t else
    let new_inner := t.heap.length
    let k := t.m / 2
    match nd.keys[k]? with
    | none => none
    | some up_key =>
      if nd.children.length < k + 1 then none else
      let nkeys := nd.keys.drop (k + 1)
      let nchildren := nd.children.drop (k + 1)
      let h1 := t.heap ++ [some
        { type := bpnode_type.NODE_INNER, num_keys := 0, keys := nkeys, parent := none,
          values := [], next := none, children := nchildren }]
      match set_parents h1 nchildren (some new_inner) with
      | none => none
      | some h2 =>
        match heap_get h2 new_inner, heap_get h2 n with
        | some wd, some nd2 =>
          let h3 := heap_set h2 new_inner
            { wd with num_keys := wrap16 (nd2.num_keys - k - 1), parent := nd2.parent }
          match heap_get h3 n with
          | none => none
          | some nd3 =>
            let h4 := heap_set h3 n
              { nd3 with keys := nd3.keys.take k, children := nd3.children.take (k + 1),
                         num_keys := wrap16 k }
            match dyn_inner h4 nd3.parent with
            | none => none
            | some p => ins { t with heap := h4 } p up_key n new_inner
        | _, _ => none

/-- The creation of a new root by `insert_inner_node` (case `n == NULL`). -/
def new_root (t : bptree K V) (key : K) (child1 child2 : Nat) : Option (bptree K V) :=
  let new_inner := t.heap.length
  let h1 := t.heap ++ [some
    { type := bpnode_type.NODE_INNER, num_keys := 1, keys := [key], parent := none,
      values := [], next := none, children := [child1, child2] }]
  match heap_get h1 child1 with
  | none => none
  | some c1 =>
    let h2 := heap_set h1 child1 { c1 with parent := some new_inner }
    match heap_get h2 child2 with
    | none => none
    | some c2 =>
      let h3 := heap_set h2 child2 { c2 with parent := some new_inner }
      some { t with heap := h3, root := some new_inner, depth := t.depth + 1 }

/-- The update of node `n` by `insert_inner_node` (case `n != NULL`): `key`
goes in front of the first greater key, the child at that position is
overwritten by `child1` and `child2` is inserted after it. -/
def inner_insert_entry (nd : bpnode K V) (key : K) (child1 child2 : Nat) :
    Option (bpnode K V) :=
  let p := upper_pos key nd.keys
  if p < nd.keys.length then
    if nd.children.length ≤ p then none else
    some { nd with keys := insert_at nd.keys p key,
                   children := insert_at (nd.children.set p child1) (p + 1) child2,
                   num_keys := wrap16 (nd.num_keys + 1) }
  else
    if nd.children.length = 0 then none else
    some { nd with keys := nd.keys ++ [key],
                   children := nd.children.dropLast ++ [child1, child2],
                   num_keys := wrap16 (nd.num_keys + 1) }

/-- `insert_inner_node`; `fuel` bounds the number of levels climbed. -/
def insert_inner_node : Nat → bptree K V → Option Nat → K → Nat → Nat → Option (bptree K V)
  | 0, _, _, _, _, _ => none
  | _ + 1, t, none, key, child1, child2 => new_root t key child1 child2
  | fuel + 1, t, some n, key, child1, child2 =>
    match heap_get t.heap n with
    | none => none
    | some nd =>
      match inner_insert_entry nd key child1 child2 with
      | none => none
      | some nd1 =>
        inner_split_if_full (insert_inner_node fuel) { t with heap := heap_set t.heap n nd1 } n

/-- `leaf_split_if_full`. -/
def leaf_split_if_full (t : bptree K V) (n : Nat) : Option (bptree K V) :=
  match heap_get t.heap n with
  | none => none
  | some nd =>
    if nd.num_keys < (t.m : Int) then some t else
    let new_leaf := t.heap.length
    let k := t.m / 2
    if nd.keys.length < k ∨ nd.values.length < k then none else
    let wd : bpnode K V :=
      { type := bpnode_type.NODE_LEAF, num_keys := wrap16 (nd.num_keys - k),
        keys := nd.keys.drop k, parent := nd.parent, values := nd.values.drop k,
        next := nd.next, children := [] }
    let nd1 := { nd with keys := nd.keys.take k, values := nd.values.take k,
                         num_keys := wrap16 k, next := some new_leaf }
    let h1 := heap_set (t.heap ++ [some wd]) n nd1
    match dyn_inner h1 nd1.parent, wd.keys[0]? with
    | some p, some k0 => insert_inner_node (t.heap.length + 1) { t with heap := h1 } p k0 n new_leaf
    | _, _ => none

/-- `insert_leaf_node`. -/
def insert_leaf_node (t : bptree K V) (n : Nat) (key : K) (value : V) : Option (bptree K V) :=
  match heap_get t.heap n with
  | none => none
  | some nd =>
    let p := upper_pos key nd.keys
    if p < nd.keys.length ∧ nd.values.length < p then none else
    let vals := if p < nd.keys.length then insert_at nd.values p value else nd.values ++ [value]
    let nd1 := { nd with keys := insert_at nd.keys p key, values := vals,
                         num_keys := wrap16 (nd.num_keys + 1) }
    leaf_split_if_full { t with heap := heap_set t.heap n nd1 } n

/-- `insert_key`. -/
def insert_key (t : bptree K V) (key : K) (value : V) : Option (bptree K V) :=
  match t.root with
  | none =>
    let n := t.heap.length
    some { t with
      heap := t.heap ++ [some
        { type := bpnode_type.NODE_LEAF, num_keys := 1, keys := [key], parent := none,
          values := [value], next := none, children := [] }],
      root := some n, depth := 1, count := 1 }
  | some _ =>
    match find_leaf t key with
    | none => none
    | some (some idx, n) =>
      match n with
      | none => none
      | some a =>
        match heap_get t.heap a with
        | none => none
        | some nd =>
          if idx < nd.values.length then
            some { t with heap := heap_set t.heap a { nd with values := nd.values.set idx value } }
          else none
    | some (none, n) =>
      match n with
      | none => none
      | some a =>
        match insert_leaf_node t a key value with
        | none => none
        | some t1 => some { t1 with count := t1.count + 1 }

/-- `leaf_borrow_left`. -/
def leaf_borrow_left (h : List (Option (bpnode K V))) (n s : Nat) :
    Option (List (Option (bpnode K V))) :=
  match heap_get h s, heap_get h n with
  | some sd, some nd =>
    match sd.keys.getLast?, sd.values.getLast? with
    | some kb, some vb =>
      let h1 := heap_set h n { nd with keys := kb :: nd.keys, values := vb :: nd.values,
                                       num_keys := wrap16 (nd.num_keys + 1) }
      match heap_get h1 s with
      | none => none
      | some sd1 =>
        some (heap_set h1 s { sd1 with keys := sd1.keys.dropLast, values := sd1.values.dropLast,
                                       num_keys := wrap16 (sd1.num_keys - 1) })
    | _, _ => none
  | _, _ => none

/-- `leaf_borrow_right`. -/
def leaf_borrow_right (h : List (Option (bpnode K V))) (n s : Nat) :
    Option (List (Option (bpnode K V))) :=
  match heap_get h s, heap_get h n with
  | some sd, some nd =>
    match sd.keys[0]?, sd.values[0]? with
    | some k0, some v0 =>
      let h1 := heap_set h n { nd with keys := nd.keys ++ [k0], values := nd.values ++ [v0],
                                       num_keys := wrap16 (nd.num_keys + 1) }
      match heap_get h1 s with
      | none => none
      | some sd1 =>
        if sd1.keys.length = 0 ∨ sd1.values.length = 0 then none else
        some (heap_set h1 s { sd1 with keys := sd1.keys.tail, values := sd1.values.tail,
                                       num_keys := wrap16 (sd1.num_keys - 1) })
    | _, _ => none
  | _, _ => none

/-- `leaf_merge_left`: `n` is absorbed by its left sibling `s`; returns the
heap and the parent. -/
def leaf_merge_left (h : List (Option (bpnode K V))) (n s : Nat) :
    Option (List (Option (bpnode K V)) × Nat) :=
  match heap_get h n with
  | none => none
  | some nd =>
  match dyn_inner h nd.parent, heap_get h s with
  | some (some p), some sd =>
    let h1 := heap_set h s { sd with keys := sd.keys ++ nd.keys, values := sd.values ++ nd.values,
                                     num_keys := wrap16 (sd.num_keys + nd.num_keys) }
    match heap_get h1 p with
    | none => none
    | some pd =>
    let j := index_of n pd.children
    if j = 0 ∨ pd.children.length ≤ j ∨ pd.keys.length ≤ j - 1 then none else
    let h2 := heap_set h1 p { pd with children := pd.children.eraseIdx j,
                                      keys := pd.keys.eraseIdx (j - 1),
                                      num_keys := wrap16 (pd.num_keys - 1) }
    match heap_get h2 s, heap_get h2 n with
    | some sd2, some nd2 =>
      some (heap_free (heap_set h2 s { sd2 with next := nd2.next }) n, p)
    | _, _ => none
  | _, _ => none

/-- `leaf_merge_right`: `n` absorbs its right sibling `s`; returns the heap and
the parent. -/
def leaf_merge_right (h : List (Option (bpnode K V))) (n s : Nat) :
    Option (List (Option (bpnode K V)) × Nat) :=
  match heap_get h n with
  | none => none
  | some nd =>
  match dyn_inner h nd.parent with
  | none => none
  | some none => none
  | some (some p) =>
  match heap_get h p with
  | none => none
  | some pd =>
  match child_index pd n with
  | none => none
  | some i =>
  if pd.num_keys ≤ (i : Int) then none else
  match heap_get h s with
  | none => none
  | some sd =>
  let h1 := heap_set h n { nd with keys := nd.keys ++ sd.keys, values := nd.values ++ sd.values,
                                   num_keys := wrap16 (nd.num_keys + sd.num_keys) }
  match heap_get h1 p with
  | none => none
  | some pd1 =>
  if pd1.children.length ≤ i + 1 ∨ pd1.keys.length ≤ i then none else
  let h2 := heap_set h1 p { pd1 with children := pd1.children.eraseIdx (i + 1),
                                     keys := pd1.keys.eraseIdx i,
                                     num_keys := wrap16 (pd1.num_keys - 1) }
  let h3 : Option (List (Option (bpnode K V))) :=
    if 0 < i then
      match heap_get h2 n, heap_get h2 p with
      | some nd2, some pd2 =>
        match nd2.keys[0]? with
        | none => none
        | some k0 =>
          match set_at pd2.keys (i - 1) k0 with
          | none => none
          | some ks => some (heap_set h2 p { pd2 with keys := ks })
      | _, _ => none
    else some h2
  match h3 with
  | none => none
  | some h3 =>
  match heap_get h3 n, heap_get h3 s with
  | some nd3, some sd3 =>
    some (heap_free (heap_set h3 n { nd3 with next := sd3.next }) s, p)
  | _, _ => none

/-- `inner_borrow_left`. -/
def inner_borrow_left (h : List (Option (bpnode K V))) (n s : Nat) :
    Option (List (Option (bpnode K V))) :=
  match heap_get h n with
  | none => none
  | some nd =>
  match dyn_inner h nd.parent with
  | none => none
  | some none => none
  | some (some p) =>
  match heap_get h p with
  | none => none
  | some pd =>
  match child_index pd n with
  | none => none
  | some i =>
  if i = 0 then none else
  match pd.keys[i - 1]?, heap_get h s with
  | some kp, some sd =>
    match sd.children.getLast? with
    | none => none
    | some cb =>
    let h1 := heap_set h n { nd with keys := kp :: nd.keys, children := cb :: nd.children }
    match heap_get h1 cb with
    | none => none
    | some cd =>
    let h2 := heap_set h1 cb { cd with parent := some n }
    match heap_get h2 n with
    | none => none
    | some nd2 =>
    let h3 := heap_set h2 n { nd2 with num_keys := wrap16 (nd2.num_keys + 1) }
    match heap_get h3 s, heap_get h3 p with
    | some sd3, some pd3 =>
      match sd3.keys.getLast? with
      | none => none
      | some kb =>
      if pd3.keys.length ≤ i - 1 then none else
      let h4 := heap_set h3 p { pd3 with keys := pd3.keys.set (i - 1) kb }
      match heap_get h4 s with
      | none => none
      | some sd4 =>
      if sd4.keys.length = 0 ∨ sd4.children.length = 0 then none else
      some (heap_set h4 s { sd4 with keys := sd4.keys.dropLast, children := sd4.children.dropLast,
                                     num_keys := wrap16 (sd4.num_keys - 1) })
    | _, _ => none
  | _, _ => none

/-- `inner_borrow_right`. -/
def inner_borrow_right (h : List (Option (bpnode K V))) (n s : Nat) :
    Option (List (Option (bpnode K V))) :=
  match heap_get h n with
  | none => none
  | some nd =>
  match dyn_inner h nd.parent with
  | none => none
  | some none => none
  | some (some p) =>
  match heap_get h p with
  | none => none
  | some pd =>
  match child_index pd n with
  | none => none
  | some i =>
  if pd.num_keys ≤ (i : Int) then none else
  match pd.keys[i]?, heap_get h s with
  | some kp, some sd =>
    match sd.children[0]? with
    | none => none
    | some c0 =>
    let h1 := heap_set h n { nd with keys := nd.keys ++ [kp], children := nd.children ++ [c0] }
    match heap_get h1 c0 with
    | none => none
    | some cd =>
    let h2 := heap_set h1 c0 { cd with parent := some n }
    match heap_get h2 n with
    | none => none
    | some nd2 =>
    let h3 := heap_set h2 n { nd2 with num_keys := wrap16 (nd2.num_keys + 1) }
    match heap_get h3 s, heap_get h3 p with
    | some sd3, some pd3 =>
      match sd3.keys[0]? with
      | none => none
      | some k0 =>
      if pd3.keys.length ≤ i then none else
      let h4 := heap_set h3 p { pd3 with keys := pd3.keys.set i k0 }
      match heap_get h4 s with
      | none => none
      | some sd4 =>
      if sd4.keys.length = 0 ∨ sd4.children.length = 0 then none else
      some (heap_set h4 s { sd4 with keys := sd4.keys.tail, children := sd4.children.tail,
                                     num_keys := wrap16 (sd4.num_keys - 1) })
    | _, _ => none
  | _, _ => none

/-- `inner_merge_left`: `n` (with the separating parent key) is absorbed by its
left sibling `s`; returns the heap and the parent. -/
def inner_merge_left (h : List (Option (bpnode K V))) (n s : Nat) :
    Option (List (Option (bpnode K V)) × Nat) :=
  match heap_get h n with
  | none => none
  | some nd =>
  match dyn_inner h nd.parent with
  | none => none
  | some none => none
  | some (some p) =>
  match heap_get h p with
  | none => none
  | some pd =>
  if pd.num_keys ≤ 0 then none else
  match child_index pd n with
  | none => none
  | some i =>
  if pd.num_keys < (i : Int) ∨ i = 0 then none else
  match pd.keys[i - 1]?, heap_get h s with
  | some kp, some sd =>
    let h1 := heap_set h s { sd with keys := sd.keys ++ [kp] }
    match heap_get h1 s, heap_get h1 n with
    | some sd1, some nd1 =>
      let h2 := heap_set h1 s { sd1 with keys := sd1.keys ++ nd1.keys,
                                         children := sd1.children ++ nd1.children }
      match set_parents h2 (sd1.children ++ nd1.children) (some s) with
      | none => none
      | some h3 =>
      match heap_get h3 s, heap_get h3 n with
      | some sd3, some nd3 =>
        let h4 := heap_set h3 s { sd3 with num_keys := wrap16 (sd3.num_keys + (nd3.num_keys + 1)) }
        match heap_get h4 p with
        | none => none
        | some pd4 =>
        if pd4.keys.length ≤ i - 1 ∨ pd4.children.length ≤ i then none else
        let h5 := heap_set h4 p { pd4 with keys := pd4.keys.eraseIdx (i - 1),
                                           children := pd4.children.eraseIdx i,
                                           num_keys := wrap16 (pd4.num_keys - 1) }
        some (heap_free h5 n, p)
      | _, _ => none
    | _, _ => none
  | _, _ => none

/-- The borrow-or-merge repair of `check_inner_node_size` for a non-root node
`n`, with the recursive call passed as `chk`. -/
def inner_repair (chk : bptree K V → Nat → Option (bptree K V))
    (t : bptree K V) (n : Nat) : Option (bptree K V) :=
  let min_limits : Int := ((t.m - 1) / 2 : Nat)
  match get_sibling t.heap n with
  | none => none
  | some (left, right) =>
  match node_count t.heap left, node_count t.heap right with
  | some left_count, some right_count =>
    if min_limits < left_count ∨ min_limits < right_count then
      if left_count ≤ right_count then
        match dyn_inner t.heap right with
        | some (some s) =>
          match inner_borrow_right t.heap n s with
          | none => none
          | some h => some { t with heap := h }
        | _ => none
      else
        match dyn_inner t.heap left with
        | some (some s) =>
          match inner_borrow_left t.heap n s with
          | none => none
          | some h => some { t with heap := h }
        | _ => none
    else if right_count < left_count then
      match dyn_inner t.heap left with
      | some (some s) =>
        match inner_merge_left t.heap n s with
        | none => none
        | some (h, p) => chk { t with heap := h } p
      | _ => none
    else
      match dyn_inner t.heap right with
      | some (some s) =>
        match inner_merge_left t.heap s n with
        | none => none
        | some (h, p) => chk { t with heap := h } p
      | _ => none
  | _, _ => none

/-- `check_inner_node_size`; `fuel` bounds the number of levels climbed. -/
def check_inner_node_size : Nat → bptree K V → Nat → Option (bptree K V)
  | 0, _, _ => none
  | fuel + 1, t, n =>
    let min_limits : Int := ((t.m - 1) / 2 : Nat)
    match heap_get t.heap n with
    | none => none
    | some nd =>
    if min_limits ≤ nd.num_keys then some t else
    if nd.num_keys = 0 ∧ nd.parent = none then
      match nd.children[0]? with
      | none => none
      | some c0 =>
        match heap_get t.heap c0 with
        | none => none
        | some cd =>
          some { t with heap := heap_set t.heap c0 { cd with parent := none },
                        root := some c0, depth := t.depth - 1 }
    else if nd.parent = none then some t
    else inner_repair (check_inner_node_size fuel) t n

/-- The borrow-or-merge repair of `remove_leaf_key` for the underflowing leaf
`n`, child number `i` of `p`. -/
def leaf_repair (t : bptree K V) (n p i : Nat) : Option (bptree K V) :=
  let min_limits : Int := ((t.m - 1) / 2 : Nat)
  match get_sibling t.heap n with
  | none => none
  | some (left, right) =>
  match node_count t.heap left, node_count t.heap right with
  | some left_count, some right_count =>
    if min_limits < left_count ∨ min_limits < right_count then
      if right_count ≤ left_count then
        match dyn_leaf t.heap left with
        | some (some s) =>
          match leaf_borrow_left t.heap n s with
          | none => none
          | some h2 =>
            match heap_get h2 n, heap_get h2 p with
            | some nd2, some pd2 =>
              match nd2.keys[0]? with
              | none => none
              | some k0 =>
                if i = 0 then none else
                match set_at pd2.keys (i - 1) k0 with
                | none => none
                | some ks => some { t with heap := heap_set h2 p { pd2 with keys := ks } }
            | _, _ => none
        | _ => none
      else
        match dyn_leaf t.heap right with
        | some (some s) =>
          match leaf_borrow_right t.heap n s with
          | none => none
          | some h2 =>
            match heap_get h2 s, heap_get h2 p with
            | some rd, some pd2 =>
              match rd.keys[0]? with
              | none => none
              | some k0 =>
                match set_at pd2.keys i k0 with
                | none => none
                | some ks => some { t with heap := heap_set h2 p { pd2 with keys := ks } }
            | _, _ => none
        | _ => none
    else if right_count < left_count then
      match dyn_leaf t.heap left with
      | some (some s) =>
        match leaf_merge_left t.heap n s with
        | none => none
        | some (h2, p2) => check_inner_node_size (t.heap.length + 1) { t with heap := h2 } p2
      | _ => none
    else
      match dyn_leaf t.heap right with
      | some (some s) =>
        match leaf_merge_right t.heap n s with
        | none => none
        | some (h2, p2) => check_inner_node_size (t.heap.length + 1) { t with heap := h2 } p2
      | _ => none
  | _, _ => none

/-- `remove_leaf_key`. -/
def remove_leaf_key (t : bptree K V) (n : Nat) (key : K) : Option (bptree K V) :=
  let min_limits : Int := ((t.m - 1) / 2 : Nat)
  match heap_get t.heap n with
  | none => none
  | some nd =>
  let pos := index_of key nd.keys
  if nd.keys.length ≤ pos ∨ nd.values.length ≤ pos then none else
  let nd1 := { nd with keys := nd.keys.eraseIdx pos, values := nd.values.eraseIdx pos,
                       num_keys := wrap16 (nd.num_keys - 1) }
  let h1 := heap_set t.heap n nd1
  match dyn_inner h1 nd1.parent with
  | none => none
  | some none => some { t with heap := h1 }
  | some (some p) =>
  match heap_get h1 p with
  | none => none
  | some pd =>
  match child_index pd n with
  | none => none
  | some i =>
  if min_limits ≤ nd1.num_keys then
    if 0 < i then
      match nd1.keys[0]? with
      | none => none
      | some k0 =>
        match set_at pd.keys (i - 1) k0 with
        | none => none
        | some ks => some { t with heap := heap_set h1 p { pd with keys := ks } }
    else some { t with heap := h1 }
  else leaf_repair { t with heap := h1 } n p i

/-- `delete_key`: the returned flag and the tree after the call. -/
def delete_key (t : bptree K V) (key : K) : Option (Bool × bptree K V) :=
  match find_leaf t key with
  | none => none
  | some (none, _) => some (false, t)
  | some (some _, n) =>
    if t.count = 1 then
      match t.root with
      | none => some (true, { t with root := none, count := 0, depth := 0 })
      | some r =>
        match heap_get t.heap r with
        | none => none
        | some _ => some (true, { t with heap := heap_free t.heap r, root := none,
                                         count := 0, depth := 0 })
    else
      match n with
      | none => none
      | some a =>
        match remove_leaf_key t a key with
        | none => none
        | some t1 => some (true, { t1 with count := t1.count - 1 })

end ops

end BPlus

/-!
## Representation invariant

The invariant is stated node by node against ghost data: every live address
carries its height above the leaves and the half-open key interval it is
responsible for.  The leaves are additionally listed, left to right, in a
ghost list; the abstract content of the tree is the list of key/value pairs
read off the leaves in that order.
-/

namespace BPlus

section inv
variable {K V : Type} [LinearOrder K]

/-- Interval end points: a key, or one of the two infinities. -/
abbrev Bound (K : Type) := WithBot (WithTop K)

/-- A key as an interval end point. -/
def bnd (k : K) : Bound K := ((k : WithTop K) : WithBot (WithTop K))

/-- Ghost data of a live node: its height (1 for a leaf) and its key interval
`[lo, hi)`. -/
structure Info (K : Type) where
  ht : Nat
  lo : Bound K
  hi : Bound K

/-- Child `c` of `a` is live with height `d` and interval `[lo, hi)`, and its
parent pointer is `a`. -/
def ChildOK (h : List (Option (bpnode K V))) (g : Nat → Option (Info K))
    (a d c : Nat) (lo hi : Bound K) : Prop :=
  g c = some ⟨d, lo, hi⟩ ∧ ∃ cd, heap_get h c = some cd ∧ cd.parent = some a

/-- The children `cs` of `a`, separated by the keys `ks`, tile `[lo, hi)`. -/
def ChildrenOK (h : List (Option (bpnode K V))) (g : Nat → Option (Info K))
    (a d : Nat) : Bound K → List K → List Nat → Bound K → Prop
  | lo, [], [c], hi => ChildOK h g a d c lo hi
  | lo, k :: ks, c :: cs, hi =>
    ChildOK h g a d c lo (bnd k) ∧ ChildrenOK h g a d (bnd k) ks cs hi
  | _, _, _, _ => False

/-- Upper end of the interval of child number `j` under separators `ks`. -/
def slot_hi (ks : List K) (hi : Bound K) (j : Nat) : Bound K :=
  match ks[j]? with
  | some k => bnd k
  | none => hi

/-- Lower end of the interval of child number `j` under separators `ks`. -/
def slot_lo (lo : Bound K) : List K → Nat → Bound K
  | _, 0 => lo
  | [], _ + 1 => lo
  | k :: ks, j + 1 => slot_lo (bnd k) ks j

/-- Local well-formedness of the live node `nd` at address `a` with ghost data
`i`.  `r` is the root pointer; `e` is an optional exception node whose
occupancy bounds are relaxed by `sl` below and `sh` above. -/
structure NodeOK (h : List (Option (bpnode K V))) (g : Nat → Option (Info K))
    (m : Nat) (r e : Option Nat) (sl sh : Nat) (a : Nat) (i : Info K)
    (nd : bpnode K V) : Prop where
  nk : nd.num_keys = (nd.keys.length : Int)
  lohi : i.lo < i.hi
  sorted : nd.keys.Pairwise (fun x y => x < y)
  lob : ∀ k ∈ nd.keys, i.lo ≤ bnd k
  hib : ∀ k ∈ nd.keys, bnd k < i.hi
  kind : nd.type = bpnode_type.NODE_LEAF ∨ nd.type = bpnode_type.NODE_INNER
  leaf : nd.type = bpnode_type.NODE_LEAF → i.ht = 1 ∧ nd.values.length = nd.keys.length
  down : nd.type = bpnode_type.NODE_INNER →
    ∃ d, i.ht = d + 1 ∧ ChildrenOK h g a d i.lo nd.keys nd.children i.hi
  up : some a ≠ r → ∃ p ip pd, g p = some ip ∧ heap_get h p = some pd ∧
    pd.type = bpnode_type.NODE_INNER ∧ a ∈ pd.children
  uproot : some a = r → nd.parent = none
  occ_hi : nd.keys.length < m + (if e = some a then sh else 0)
  occ_lo : some a ≠ r → (m - 1) / 2 ≤ nd.keys.length + (if e = some a then sl else 0)
  occ_in : 1 ≤ nd.keys.length + (if e = some a then sl else 0)

/-- Leaf `a` is followed by leaf `b`: the forward link of `a` is `b` and their
intervals touch. -/
def Linked (h : List (Option (bpnode K V))) (g : Nat → Option (Info K)) (a b : Nat) : Prop :=
  ∃ nd ia ib, heap_get h a = some nd ∧ nd.next = some b ∧ g a = some ia ∧ g b = some ib ∧
    ia.hi = ib.lo

/-- Key/value pairs stored at address `a`. -/
def leaf_pairs (h : List (Option (bpnode K V))) (a : Nat) : List (K × V) :=
  match heap_get h a with
  | some nd => nd.keys.zip nd.values
  | none => []

/-- The invariant with ghost data `g` (live nodes), `L` (leaves, left to right)
and abstract content `kv`; node `e` may be over- or underfull. -/
structure InvX (t : bptree K V) (g : Nat → Option (Info K)) (L : List Nat)
    (kv : List (K × V)) (e : Option Nat) (sl sh : Nat) : Prop where
  m3 : 3 ≤ t.m
  m16 : t.m ≤ 32767
  nodes : ∀ a i, g a = some i →
    ∃ nd, heap_get t.heap a = some nd ∧ NodeOK t.heap g t.m t.root e sl sh a i nd
  root_none : t.root = none → (∀ a, g a = none) ∧ t.depth = 0
  root_some : ∀ r, t.root = some r → ∃ d : Nat, g r = some ⟨d, ⊥, ⊤⟩ ∧ t.depth = d
  depth_le : t.depth ≤ t.heap.length
  chain : L.Chain' (Linked t.heap g)
  last : ∀ a, L.getLast? = some a → ∃ nd, heap_get t.heap a = some nd ∧ nd.next = none
  leaves : ∀ a, a ∈ L ↔
    ∃ i nd, g a = some i ∧ heap_get t.heap a = some nd ∧ nd.type = bpnode_type.NODE_LEAF
  kv_eq : kv = L.flatMap (leaf_pairs t.heap)

/-- The invariant of a tree between two public calls, with abstract content `kv`. -/
def Inv (t : bptree K V) (kv : List (K × V)) : Prop :=
  ∃ g L, InvX t g L kv none 0 0 ∧ t.count = kv.length

/-- State in which the pair (`key`, `c2`) still has to be entered into the
parent `pp` of `c1`: entering it yields a tree that is well formed up to the
occupancy of `pp`. -/
def Pending (t : bptree K V) (pp : Option Nat) (key : K) (c1 c2 : Nat)
    (g : Nat → Option (Info K)) (L : List Nat) (kv : List (K × V)) : Prop :=
  match pp with
  | none => ∃ t1, new_root t key c1 c2 = some t1 ∧ InvX t1 g L kv none 0 0
  | some p => ∃ nd nd1, heap_get t.heap p = some nd ∧
      inner_insert_entry nd key c1 c2 = some nd1 ∧
      InvX { t with heap := heap_set t.heap p nd1 } g L kv (some p) 0 1

/-- Abstract insertion into a key-sorted association list (overwrites). -/
def kv_insert (k : K) (v : V) : List (K × V) → List (K × V)
  | [] => [(k, v)]
  | (k1, v1) :: l =>
    if k < k1 then (k, v) :: (k1, v1) :: l
    else if k = k1 then (k, v) :: l
    else (k1, v1) :: kv_insert k v l

/-- Abstract deletion from an association list. -/
def kv_erase (k : K) (l : List (K × V)) : List (K × V) :=
  l.filter (fun p => decide (p.1 ≠ k))

/-- Abstract lookup in an association list. -/
def kv_lookup (k : K) : List (K × V) → Option V
  | [] => none
  | (k1, v1) :: l => if k1 = k then some v1 else kv_lookup k l

end inv

end BPlus

namespace BPlus

section defs2
variable {K V : Type} [LinearOrder K]

/-- Node `n` (record `nd`) is child number `i` of the inner node `p`
(record `pd`) in heap `h`, and `p` keeps its counter and child list in step
with its keys. -/
structure SibCtx (h : List (Option (bpnode K V))) (n p i : Nat)
    (nd pd : bpnode K V) : Prop where
  hn : heap_get h n = some nd
  hpar : nd.parent = some p
  hp : heap_get h p = some pd
  hpt : pd.type = bpnode_type.NODE_INNER
  hk : pd.num_keys = (pd.keys.length : Int)
  hl : pd.children.length = pd.keys.length + 1
  hi : pd.children[i]? = some n
  hidx : index_of n pd.children = i
  hnp : n ≠ p

/-- Left neighbour of child number `i` (absent for the first child). -/
def left_of (pd : bpnode K V) (i : Nat) : Option Nat :=
  if i = 0 then none else pd.children[i - 1]?

/-- Right neighbour of child number `i` (absent for the last child). -/
def right_of (pd : bpnode K V) (i : Nat) : Option Nat :=
  if i = pd.keys.length then none else pd.children[i + 1]?

/-- The `min_limits` of the source. -/
def min_limits (m : Nat) : Int := (((m - 1) / 2 : Nat) : Int)

/-- The conditions of the invariant that concern the leaf level only. -/
structure LeafLevel (h : List (Option (bpnode K V))) (g : Nat → Option (Info K))
    (L : List Nat) (kv : List (K × V)) : Prop where
  chain : L.Chain' (Linked h g)
  last : ∀ a, L.getLast? = some a → ∃ nd, heap_get h a = some nd ∧ nd.next = none
  leaves : ∀ a, a ∈ L ↔
    ∃ i nd, g a = some i ∧ heap_get h a = some nd ∧ nd.type = bpnode_type.NODE_LEAF
  kv_eq : kv = L.flatMap (leaf_pairs h)

/-- One call of the public interface. -/
inductive Op (K V : Type) where
  | insert (k : K) (v : V)
  | delete (k : K)

/-- The tree after one call. -/
def apply_op (t : bptree K V) : Op K V → Option (bptree K V)
  | Op.insert k v => insert_key t k v
  | Op.delete k => (delete_key t k).map (fun r => r.2)

/-- The tree after a sequence of calls. -/
def run_ops (t : bptree K V) : List (Op K V) → Option (bptree K V)
  | [] => some t
  | op :: ops =>
    match apply_op t op with
    | none => none
    | some t1 => run_ops t1 ops

/-- Trees obtained from the empty tree of fanout `m` by insertions and
deletions. -/
def Reachable (m : Nat) (t : bptree K V) : Prop :=
  ∃ ops : List (Op K V), run_ops (bptree_new m) ops = some t

end defs2

end BPlus

namespace BPlus

section defs3
variable {K V : Type} [LinearOrder K]

/-- Ghost data after node `n` (height `d`, interval `[lo, hi)`) has been split
at `sep` into `n` and the new node `w`, both children of `P`. -/
def split_ghost (g : Nat → Option (Info K)) (n w d : Nat) (lo hi : Bound K) (sep : K)
    (P : Nat) (iP : Info K) : Nat → Option (Info K) :=
  fun x => if x = w then some ⟨d, bnd sep, hi⟩
    else if x = n then some ⟨d, lo, bnd sep⟩
    else if x = P then some iP
    else g x

/-- Node `n` (record `nd`, height `d`, interval `[lo, hi)`) has been split at
`sep`: heap `h1` holds the left half `N1` at `n` and the right half `W` at the
fresh address; the children `X` have moved to the right half. -/
structure SplitOK (t : bptree K V) (g : Nat → Option (Info K)) (n d : Nat) (lo hi : Bound K)
    (nd : bpnode K V) (sep : K) (N1 W : bpnode K V) (X : List Nat)
    (h1 : List (Option (bpnode K V))) : Prop where
  hlen : h1.length = t.heap.length + 1
  h1n : heap_get h1 n = some N1
  h1w : heap_get h1 t.heap.length = some W
  h1x : ∀ x, x ≠ n → x ≠ t.heap.length →
    heap_get h1 x = (heap_get t.heap x).map
      (fun cd => if x ∈ X then { cd with parent := some t.heap.length } else cd)
  hp1 : N1.parent = nd.parent
  hp2 : W.parent = nd.parent
  hty1 : N1.type = nd.type
  hty2 : W.type = nd.type
  hs1 : lo < bnd sep
  hs2 : bnd sep < hi
  hN_nk : N1.num_keys = (N1.keys.length : Int)
  hN_sorted : N1.keys.Pairwise (fun x y => x < y)
  hN_lob : ∀ k ∈ N1.keys, lo ≤ bnd k
  hN_hib : ∀ k ∈ N1.keys, bnd k < bnd sep
  hN_leaf : nd.type = bpnode_type.NODE_LEAF → N1.values.length = N1.keys.length
  hN_occ : N1.keys.length < t.m
  hN_min : (t.m - 1) / 2 ≤ N1.keys.length
  hN_one : 1 ≤ N1.keys.length
  hW_nk : W.num_keys = (W.keys.length : Int)
  hW_sorted : W.keys.Pairwise (fun x y => x < y)
  hW_lob : ∀ k ∈ W.keys, bnd sep ≤ bnd k
  hW_hib : ∀ k ∈ W.keys, bnd k < hi
  hW_leaf : nd.type = bpnode_type.NODE_LEAF → W.values.length = W.keys.length
  hW_occ : W.keys.length < t.m
  hW_min : (t.m - 1) / 2 ≤ W.keys.length
  hW_one : 1 ≤ W.keys.length
  hX : nd.type = bpnode_type.NODE_LEAF → X = []
  hXW : nd.type = bpnode_type.NODE_INNER → X = W.children
  hNc : ∀ d1, d = d1 + 1 → nd.type = bpnode_type.NODE_INNER →
    ChildrenOK t.heap g n d1 lo N1.keys N1.children (bnd sep)
  hWc : ∀ d1, d = d1 + 1 → nd.type = bpnode_type.NODE_INNER →
    ChildrenOK t.heap g n d1 (bnd sep) W.keys W.children hi
  hdisj : ∀ c ∈ N1.children, c ∉ X
  hcover : ∀ c ∈ nd.children, c ∈ N1.children ∨ c ∈ X

/-- Ghost data after the separator between the neighbouring children `a`
(left) and `c` (right) of height `d` has been replaced by `s`. -/
def rebal_ghost (g : Nat → Option (Info K)) (a c d : Nat) (lo hi : Bound K) (s : K) :
    Nat → Option (Info K) :=
  fun x => if x = a then some ⟨d, lo, bnd s⟩
    else if x = c then some ⟨d, bnd s, hi⟩
    else g x

/-- Ghost data after the right neighbour `c` has been merged into `a`. -/
def merge_ghost (g : Nat → Option (Info K)) (a c d : Nat) (lo hi : Bound K) :
    Nat → Option (Info K) :=
  fun x => if x = c then none
    else if x = a then some ⟨d, lo, hi⟩
    else g x

/-- The root of `t1` is a fresh inner node with a single separator, placed
above the root of `t` and a fresh right neighbour of it. -/
def RootSplit (t t1 : bptree K V) : Prop :=
  ∃ r nr sep c2, t.root = some r ∧ t1.root = some nr ∧ t.heap.length ≤ c2 ∧
    t.heap.length ≤ nr ∧
    heap_get t1.heap nr = some
      { type := bpnode_type.NODE_INNER, num_keys := 1, keys := [sep], parent := none,
        values := [], next := none, children := [r, c2] }

/-- What the splits of one insertion may change apart from the content:
the root and the depth stay, or the old root was split and the depth grew
by one. -/
def Grow (t t1 : bptree K V) : Prop :=
  t1.m = t.m ∧ t1.count = t.count ∧ t.heap.length ≤ t1.heap.length ∧
  ((t1.root = t.root ∧ t1.depth = t.depth) ∨ (t1.depth = t.depth + 1 ∧ RootSplit t t1))

/-- The root of `t` has lost its last key and has been replaced by its only
child. -/
def RootCollapse (t t1 : bptree K V) : Prop :=
  ∃ r rd c0, t.root = some r ∧ heap_get t1.heap r = some rd ∧
    rd.type = bpnode_type.NODE_INNER ∧ rd.num_keys = 0 ∧ rd.keys = [] ∧
    rd.children = [c0] ∧ t1.root = some c0

/-- What the repairs of one deletion may change apart from the content: the
root and the depth stay, or the root was emptied by a merge and the depth
shrank by one. -/
def Shrink (t t1 : bptree K V) : Prop :=
  t1.m = t.m ∧ t1.count = t.count ∧ t1.heap.length = t.heap.length ∧
  ((t1.root = t.root ∧ t1.depth = t.depth) ∨ (t1.depth = t.depth - 1 ∧ RootCollapse t t1))

end defs3

end BPlus

namespace BPlus

section defs4
variable {K V : Type} [LinearOrder K]

/-! ### The diagnostic `check()` -/

/-- The loop `for (c : children) check_node(n, c)`; the run exits at the first
violation. -/
def check_list (chk : Nat → Option Bool) : List Nat → Option Bool
  | [] => some true
  | c :: cs =>
    match chk c with
    | none => none
    | some false => some false
    | some true => check_list chk cs

/-- The recursive `check_node(p, n)`: `some false` when the run exits with a
reported violation, `some true` when the call returns; `fuel` bounds the depth
of the recursion. -/
def check_node (h : List (Option (bpnode K V))) (m : Nat) :
    Nat → Option Nat → Nat → Option Bool
  | 0, _, _ => none
  | fuel + 1, p, n =>
    match heap_get h n with
    | none => none
    | some nd =>
      if nd.parent ≠ p then some false
      else if (m : Int) ≤ nd.num_keys then some false
      else if nd.type = bpnode_type.NODE_INNER then
        if (nd.keys.length : Int) ≠ nd.num_keys ∨
            (nd.children.length : Int) ≠ nd.num_keys + 1 then some false
        else check_list (check_node h m fuel (some n)) nd.children
      else if nd.type = bpnode_type.NODE_LEAF then
        if (nd.keys.length : Int) ≠ nd.num_keys then some false else some true
      else none

/-- The diagnostic `check()`: `some true` when it returns, `some false` when it
exits with a reported violation. -/
def check (t : bptree K V) : Option Bool :=
  match t.root with
  | none => some true
  | some r =>
    if t.depth = 1 then
      match heap_get t.heap r with
      | none => none
      | some rd =>
        if rd.type = bpnode_type.NODE_INNER then some false
        else check_node t.heap t.m (t.heap.length + 1) none r
    else check_node t.heap t.m (t.heap.length + 1) none r

/-! ### The walk along the leaf chain (`dump_leaf_keys`) -/

/-- The descent `while (n->is_inner()) n = children[0]`. -/
def leftmost (h : List (Option (bpnode K V))) : Nat → Nat → Option Nat
  | 0, _ => none
  | fuel + 1, n =>
    match heap_get h n with
    | none => none
    | some nd =>
      if nd.type = bpnode_type.NODE_INNER then
        match nd.children[0]? with
        | none => none
        | some c => leftmost h fuel c
      else some n

/-- The loop `for (i = 1; i < n->num_keys; i++)` printing `keys[i]`. -/
def line_rest (keys : List K) : Nat → Nat → Option (List K)
  | 0, _ => some []
  | fuel + 1, i =>
    match keys[i]? with
    | none => none
    | some k =>
      match line_rest keys fuel (i + 1) with
      | none => none
      | some ks => some (k :: ks)

/-- The keys printed for one leaf: `keys[0]`, then `keys[i]` for
`1 ≤ i < num_keys`. -/
def line_keys (nd : bpnode K V) : Option (List K) :=
  match nd.keys[0]? with
  | none => none
  | some k0 =>
    match line_rest nd.keys (nd.num_keys.toNat - 1) 1 with
    | none => none
    | some ks => some (k0 :: ks)

/-- The loop `while (n != nullptr)` over the forward links: the leaves visited,
each with the keys printed for it. -/
def leaf_walk (h : List (Option (bpnode K V))) : Nat → Option Nat → Option (List (Nat × List K))
  | _, none => some []
  | 0, some _ => none
  | fuel + 1, some n =>
    match heap_get h n with
    | none => none
    | some nd =>
      if nd.type = bpnode_type.NODE_LEAF then
        match line_keys nd with
        | none => none
        | some ks =>
          match leaf_walk h fuel nd.next with
          | none => none
          | some rest => some ((n, ks) :: rest)
      else none

/-- The walk of `dump_leaf_keys`: the leaves met from the leftmost one on, each
with the keys printed for it. -/
def dump_leaf_keys (t : bptree K V) : Option (List (Nat × List K)) :=
  match t.root with
  | none => some []
  | some r =>
    match leftmost t.heap (t.heap.length + 1) r with
    | none => none
    | some n => leaf_walk t.heap (t.heap.length + 1) (some n)

/-! ### Notions used to state the properties of the tree -/

/-- Concatenation of the results of `f` on a list of children. -/
def collect (f : Nat → Option (List Nat)) : List Nat → Option (List Nat)
  | [] => some []
  | c :: cs =>
    match f c, collect f cs with
    | some a, some b => some (a ++ b)
    | _, _ => none

/-- The leaves below `a`, from left to right in the order of the child
lists. -/
def inorder_leaves (h : List (Option (bpnode K V))) : Nat → Nat → Option (List Nat)
  | 0, _ => none
  | fuel + 1, a =>
    match heap_get h a with
    | none => none
    | some nd =>
      if nd.type = bpnode_type.NODE_LEAF then some [a]
      else if nd.type = bpnode_type.NODE_INNER then collect (inorder_leaves h fuel) nd.children
      else none

/-- Node `b` lies in the subtree of node `a`. -/
inductive Desc (h : List (Option (bpnode K V))) : Nat → Nat → Prop where
  | here (a : Nat) : Desc h a a
  | down {a c b : Nat} {nd : bpnode K V} : heap_get h a = some nd →
      nd.type = bpnode_type.NODE_INNER → c ∈ nd.children → Desc h c b → Desc h a b

/-- A path of `n` nodes leads from `a` down to a leaf. -/
inductive LeafPath (h : List (Option (bpnode K V))) : Nat → Nat → Prop where
  | leaf {a : Nat} {nd : bpnode K V} : heap_get h a = some nd →
      nd.type = bpnode_type.NODE_LEAF → LeafPath h a 1
  | inner {a c n : Nat} {nd : bpnode K V} : heap_get h a = some nd →
      nd.type = bpnode_type.NODE_INNER → c ∈ nd.children → LeafPath h c n →
      LeafPath h a (n + 1)

/-- Node `a` is a node of the tree `t`. -/
def InTree (t : bptree K V) (a : Nat) : Prop :=
  ∃ r, t.root = some r ∧ Desc t.heap r a

/-- The reference container after one call: `insert` is put, `delete` is
erase. -/
def ref_apply (f : K → Option V) : Op K V → K → Option V
  | Op.insert k v => fun x => if x = k then some v else f x
  | Op.delete k => fun x => if x = k then none else f x

/-- The reference container after a sequence of calls. -/
def ref_run (f : K → Option V) : List (Op K V) → K → Option V
  | [] => f
  | op :: ops => ref_run (ref_apply f op) ops

/-- The empty reference container. -/
def ref_empty : K → Option V := fun _ => none

/-- The abstract content after one call. -/
def kv_apply (kv : List (K × V)) : Op K V → List (K × V)
  | Op.insert k v => kv_insert k v kv
  | Op.delete k => kv_erase k kv

/-- The abstract content after a sequence of calls. -/
def kv_run (kv : List (K × V)) : List (Op K V) → List (K × V)
  | [] => kv
  | op :: ops => kv_run (kv_apply kv op) ops

/-- The trees met for a fanout beyond the range of the key counter: empty, or
one root leaf whose counter is the wrapped number of its keys. -/
def Inv2 (t : bptree K V) : Prop :=
  32768 ≤ t.m ∧
  ((t.root = none ∧ t.depth = 0 ∧ t.count = 0) ∨
    ∃ r nd, t.root = some r ∧ heap_get t.heap r = some nd ∧
      nd.type = bpnode_type.NODE_LEAF ∧ nd.parent = none ∧
      nd.values.length = nd.keys.length ∧ nd.num_keys = wrap16 nd.keys.length ∧
      1 ≤ nd.keys.length ∧ t.count = nd.keys.length ∧ t.depth = 1)

/-- The flags returned by a sequence of deletions, and the tree after them. -/
def delete_all (t : bptree K V) : List K → Option (List Bool × bptree K V)
  | [] => some ([], t)
  | k :: ks =>
    match delete_key t k with
    | none => none
    | some (b, t1) =>
      match delete_all t1 ks with
      | none => none
      | some (bs, t2) => some (b :: bs, t2)

/-- The tree after a sequence of insertions. -/
def insert_all (t : bptree K V) : List (K × V) → Option (bptree K V)
  | [] => some t
  | (k, v) :: l =>
    match insert_key t k v with
    | none => none
    | some t1 => insert_all t1 l

end defs4

/-! ### Example trees -/

/-- A tree that consists of one root leaf with keys `ks` and values `vs`. -/
def leaf_tree (m : Nat) (ks vs : List Nat) : bptree Nat Nat :=
  { heap := [some { type := bpnode_type.NODE_LEAF, num_keys := wrap16 ks.length,
                    keys := ks, parent := none, values := vs, next := none,
                    children := [] }],
    root := some 0, depth := 1, count := ks.length, m := m }

/-- A single root leaf holding the keys `0, …, n - 1`, as built by inserting
them in this order into the empty tree of fanout `m` when no split occurs. -/
def big (m n : Nat) : bptree Nat Nat :=
  leaf_tree m (List.range n) (List.replicate n 0)

/-- The insertions of the keys `0, …, n - 1`, each with value `0`. -/
def ins_ops (n : Nat) : List (Op Nat Nat) :=
  (List.range n).map (fun i => Op.insert i 0)

/-- A single root leaf holding `z` copies of the key `0` followed by the keys
`1, …, 32767`. -/
def dup (m z : Nat) : bptree Nat Nat :=
  leaf_tree m (List.replicate z 0 ++ List.range' 1 32767) (List.replicate (z + 32767) 0)

/-- The leaf of `dup` with the key `40000` added at the end. -/
def dup_end (m z : Nat) : bptree Nat Nat :=
  leaf_tree m (List.replicate z 0 ++ List.range' 1 32767 ++ [40000])
    (List.replicate (z + 32767 + 1) 0)

end BPlus

namespace BPlus

section defs5
variable {K V : Type} [LinearOrder K]

/-- The keys stored at address `a`. -/
def node_keys (h : List (Option (bpnode K V))) (a : Nat) : List K :=
  match heap_get h a with
  | some nd => nd.keys
  | none => []

/-- The node record without its values. -/
def strip_values (nd : bpnode K V) : bpnode K V := { nd with values := [] }

/-- The record of a leaf after `remove_leaf_key` has erased `key` and its value
from it and lowered the counter (`keys.erase`, `values.erase`, `num_keys--`). -/
def leaf_erase (nd : bpnode K V) (key : K) : bpnode K V :=
  { nd with keys := nd.keys.eraseIdx (index_of key nd.keys),
            values := nd.values.eraseIdx (index_of key nd.keys),
            num_keys := wrap16 (nd.num_keys - 1) }

/-- The tree after a sequence of calls during which the counter `count` stays
in the range of the C type `int` (32 bits): `none` when a call does not return
or leaves the counter outside that range, where `count++` of the source would
overflow. -/
def run_ops_int (t : bptree K V) : List (Op K V) → Option (bptree K V)
  | [] => some t
  | op :: ops =>
    match apply_op t op with
    | none => none
    | some t1 =>
      if -2147483648 ≤ t1.count ∧ t1.count ≤ 2147483647 then run_ops_int t1 ops else none

/-- Trees obtained from the empty tree of fanout `m` by insertions and
deletions that keep the counter `count` in the range of `int`. -/
def ReachableInt (m : Nat) (t : bptree K V) : Prop :=
  ∃ ops : List (Op K V), run_ops_int (bptree_new m) ops = some t

end defs5

/-! ### Small example trees of fanout 4 -/

/-- The calls `insert(1, 10)`, …, `insert(4, 40)`. -/
def ops_a : List (Op Nat Nat) :=
  [Op.insert 1 10, Op.insert 2 20, Op.insert 3 30, Op.insert 4 40]

/-- The tree of fanout 4 after `ops_a`: the leaves `{1, 2}` and `{3, 4}` under a
root with the separator `3`. -/
def tree_a : bptree Nat Nat :=
  { heap := [some { type := bpnode_type.NODE_LEAF, num_keys := 2, keys := [1, 2],
                    parent := some 2, values := [10, 20], next := some 1, children := [] },
             some { type := bpnode_type.NODE_LEAF, num_keys := 2, keys := [3, 4],
                    parent := some 2, values := [30, 40], next := none, children := [] },
             some { type := bpnode_type.NODE_INNER, num_keys := 1, keys := [3],
                    parent := none, values := [], next := none, children := [0, 1] }],
    root := some 2, depth := 2, count := 4, m := 4 }

/-- A tree of fanout 4 with one key. -/
def tree_one : bptree Nat Nat :=
  { heap := [some { type := bpnode_type.NODE_LEAF, num_keys := 1, keys := [1],
                    parent := none, values := [10], next := none, children := [] }],
    root := some 0, depth := 1, count := 1, m := 4 }

/-- The tree with one key and a recorded depth of 2. -/
def tree_deep : bptree Nat Nat :=
  { heap := [some { type := bpnode_type.NODE_LEAF, num_keys := 1, keys := [1],
                    parent := none, values := [10], next := none, children := [] }],
    root := some 0, depth := 2, count := 1, m := 4 }

/-- The tree `tree_a` with a recorded depth of 1. -/
def tree_flat : bptree Nat Nat :=
  { heap := [some { type := bpnode_type.NODE_LEAF, num_keys := 2, keys := [1, 2],
                    parent := some 2, values := [10, 20], next := some 1, children := [] },
             some { type := bpnode_type.NODE_LEAF, num_keys := 2, keys := [3, 4],
                    parent := some 2, values := [30, 40], next := none, children := [] },
             some { type := bpnode_type.NODE_INNER, num_keys := 1, keys := [3],
                    parent := none, values := [], next := none, children := [0, 1] }],
    root := some 2, depth := 1, count := 4, m := 4 }

/-- The tree of fanout 2 after `insert(1, 10)` and `insert(2, 20)`: the leaves
`{1}` and `{2}` under a root with the separator `2`. -/
def tree_two : bptree Nat Nat :=
  { heap := [some { type := bpnode_type.NODE_LEAF, num_keys := 1, keys := [1],
                    parent := some 2, values := [10], next := some 1, children := [] },
             some { type := bpnode_type.NODE_LEAF, num_keys := 1, keys := [2],
                    parent := some 2, values := [20], next := none, children := [] },
             some { type := bpnode_type.NODE_INNER, num_keys := 1, keys := [2],
                    parent := none, values := [], next := none, children := [0, 1] }],
    root := some 2, depth := 2, count := 2, m := 2 }

/-- The state inside `insert_key(4, 40)` on the tree with the keys 1, 2, 3, right
before `leaf_split_if_full`: the root leaf holds 4 keys (the count is raised
after the split only). -/
def tree_full : bptree Nat Nat :=
  { heap := [some { type := bpnode_type.NODE_LEAF, num_keys := 4, keys := [1, 2, 3, 4],
                    parent := none, values := [10, 20, 30, 40], next := none,
                    children := [] }],
    root := some 0, depth := 1, count := 3, m := 4 }

/-- A state inside a deletion (fanout 4): the inner node at address 4 is left
with no key and one child after a merge below it, its right neighbour holds the
keys 5, 7. -/
def tree_ir : bptree Nat Nat :=
  { heap := [some { type := bpnode_type.NODE_LEAF, num_keys := 1, keys := [1],
                    parent := some 4, values := [10], next := some 1, children := [] },
             some { type := bpnode_type.NODE_LEAF, num_keys := 1, keys := [3],
                    parent := some 5, values := [30], next := some 2, children := [] },
             some { type := bpnode_type.NODE_LEAF, num_keys := 1, keys := [5],
                    parent := some 5, values := [50], next := some 3, children := [] },
             some { type := bpnode_type.NODE_LEAF, num_keys := 1, keys := [7],
                    parent := some 5, values := [70], next := none, children := [] },
             some { type := bpnode_type.NODE_INNER, num_keys := 0, keys := [],
                    parent := some 6, values := [], next := none, children := [0] },
             some { type := bpnode_type.NODE_INNER, num_keys := 2, keys := [5, 7],
                    parent := some 6, values := [], next := none, children := [1, 2, 3] },
             some { type := bpnode_type.NODE_INNER, num_keys := 1, keys := [3],
                    parent := none, values := [], next := none, children := [4, 5] }],
    root := some 6, depth := 3, count := 4, m := 4 }

/-- A state inside a deletion (fanout 4): the inner node at address 5 is left
with no key and one child after a merge below it, its left neighbour holds the
keys 3, 5. -/
def tree_il : bptree Nat Nat :=
  { heap := [some { type := bpnode_type.NODE_LEAF, num_keys := 1, keys := [1],
                    parent := some 4, values := [10], next := some 1, children := [] },
             some { type := bpnode_type.NODE_LEAF, num_keys := 1, keys := [3],
                    parent := some 4, values := [30], next := some 2, children := [] },
             some { type := bpnode_type.NODE_LEAF, num_keys := 1, keys := [5],
                    parent := some 4, values := [50], next := some 3, children := [] },
             some { type := bpnode_type.NODE_LEAF, num_keys := 1, keys := [7],
                    parent := some 5, values := [70], next := none, children := [] },
             some { type := bpnode_type.NODE_INNER, num_keys := 2, keys := [3, 5],
                    parent := some 6, values := [], next := none, children := [0, 1, 2] },
             some { type := bpnode_type.NODE_INNER, num_keys := 0, keys := [],
                    parent := some 6, values := [], next := none, children := [3] },
             some { type := bpnode_type.NODE_INNER, num_keys := 1, keys := [7],
                    parent := none, values := [], next := none, children := [4, 5] }],
    root := some 6, depth := 3, count := 4, m := 4 }

/-- The calls that build the tree `tree_tie`. -/
def ops_tie : List (Op Nat Nat) :=
  [Op.insert 1 10, Op.insert 2 20, Op.insert 3 30, Op.insert 4 40, Op.insert 5 50,
   Op.insert 6 60, Op.delete 2, Op.delete 6, Op.delete 4]

/-- The tree of fanout 4 after `ops_tie`: the leaves `{1}`, `{3}`, `{5}` under a
root with the separators 3, 5. -/
def tree_tie : bptree Nat Nat :=
  { heap := [some { type := bpnode_type.NODE_LEAF, num_keys := 1, keys := [1],
                    parent := some 2, values := [10], next := some 1, children := [] },
             some { type := bpnode_type.NODE_LEAF, num_keys := 1, keys := [3],
                    parent := some 2, values := [30], next := some 3, children := [] },
             some { type := bpnode_type.NODE_INNER, num_keys := 2, keys := [3, 5],
                    parent := none, values := [], next := none, children := [0, 1, 3] },
             some { type := bpnode_type.NODE_LEAF, num_keys := 1, keys := [5],
                    parent := some 2, values := [50], next := none, children := [] }],
    root := some 2, depth := 2, count := 3, m := 4 }

/-- The tree `tree_tie` after `delete(3)`. -/
def tree_tie_after : bptree Nat Nat :=
  { heap := [some { type := bpnode_type.NODE_LEAF, num_keys := 1, keys := [1],
                    parent := some 2, values := [10], next := some 1, children := [] },
             some { type := bpnode_type.NODE_LEAF, num_keys := 1, keys := [5],
                    parent := some 2, values := [50], next := none, children := [] },
             some { type := bpnode_type.NODE_INNER, num_keys := 1, keys := [5],
                    parent := none, values := [], next := none, children := [0, 1] },
             none],
    root := some 2, depth := 2, count := 2, m := 4 }

/-- A state inside a deletion (fanout 4): the inner node at address 4 is left
without keys, its left neighbour at address 3 holds one key. -/
def tree_ml : bptree Nat Nat :=
  { heap := [some { type := bpnode_type.NODE_LEAF, num_keys := 1, keys := [1],
                    parent := some 3, values := [10], next := some 1, children := [] },
             some { type := bpnode_type.NODE_LEAF, num_keys := 1, keys := [3],
                    parent := some 3, values := [30], next := some 2, children := [] },
             some { type := bpnode_type.NODE_LEAF, num_keys := 1, keys := [7],
                    parent := some 4, values := [70], next := none, children := [] },
             some { type := bpnode_type.NODE_INNER, num_keys := 1, keys := [3],
                    parent := some 5, values := [], next := none, children := [0, 1] },
             some { type := bpnode_type.NODE_INNER, num_keys := 0, keys := [],
                    parent := some 5, values := [], next := none, children := [2] },
             some { type := bpnode_type.NODE_INNER, num_keys := 1, keys := [7],
                    parent := none, values := [], next := none, children := [3, 4] }],
    root := some 5, depth := 3, count := 3, m := 4 }

/-- A state inside a deletion (fanout 4): the inner node at address 3 is left
without keys, its right neighbour at address 4 holds one key. -/
def tree_mr : bptree Nat Nat :=
  { heap := [some { type := bpnode_type.NODE_LEAF, num_keys := 1, keys := [1],
                    parent := some 3, values := [10], next := some 1, children := [] },
             some { type := bpnode_type.NODE_LEAF, num_keys := 1, keys := [5],
                    parent := some 4, values := [50], next := some 2, children := [] },
             some { type := bpnode_type.NODE_LEAF, num_keys := 1, keys := [7],
                    parent := some 4, values := [70], next := none, children := [] },
             some { type := bpnode_type.NODE_INNER, num_keys := 0, keys := [],
                    parent := some 5, values := [], next := none, children := [0] },
             some { type := bpnode_type.NODE_INNER, num_keys := 1, keys := [7],
                    parent := some 5, values := [], next := none, children := [1, 2] },
             some { type := bpnode_type.NODE_INNER, num_keys := 1, keys := [5],
                    parent := none, values := [], next := none, children := [3, 4] }],
    root := some 5, depth := 3, count := 3, m := 4 }

/-- The tree of fanout 4 after `ops_a` and `delete(4)`: the leaves `{1, 2}` and
`{3}` under a root with the separator 3. -/
def tree_left_rich : bptree Nat Nat :=
  { heap := [some { type := bpnode_type.NODE_LEAF, num_keys := 2, keys := [1, 2],
                    parent := some 2, values := [10, 20], next := some 1, children := [] },
             some { type := bpnode_type.NODE_LEAF, num_keys := 1, keys := [3],
                    parent := some 2, values := [30], next := none, children := [] },
             some { type := bpnode_type.NODE_INNER, num_keys := 1, keys := [3],
                    parent := none, values := [], next := none, children := [0, 1] }],
    root := some 2, depth := 2, count := 3, m := 4 }

/-- The tree of fanout 4 after `ops_a` and `delete(2)`: the leaves `{1}` and
`{3, 4}` under a root with the separator 3. -/
def tree_right_rich : bptree Nat Nat :=
  { heap := [some { type := bpnode_type.NODE_LEAF, num_keys := 1, keys := [1],
                    parent := some 2, values := [10], next := some 1, children := [] },
             some { type := bpnode_type.NODE_LEAF, num_keys := 2, keys := [3, 4],
                    parent := some 2, values := [30, 40], next := none, children := [] },
             some { type := bpnode_type.NODE_INNER, num_keys := 1, keys := [3],
                    parent := none, values := [], next := none, children := [0, 1] }],
    root := some 2, depth := 2, count := 3, m := 4 }

/-- The tree of fanout 4 after `ops_a`, `delete(4)` and `delete(2)`: the leaves
`{1}` and `{3}` under a root with the separator 3. -/
def tree_pair : bptree Nat Nat :=
  { heap := [some { type := bpnode_type.NODE_LEAF, num_keys := 1, keys := [1],
                    parent := some 2, values := [10], next := some 1, children := [] },
             some { type := bpnode_type.NODE_LEAF, num_keys := 1, keys := [3],
                    parent := some 2, values := [30], next := none, children := [] },
             some { type := bpnode_type.NODE_INNER, num_keys := 1, keys := [3],
                    parent := none, values := [], next := none, children := [0, 1] }],
    root := some 2, depth := 2, count := 2, m := 4 }

/-- A state inside a deletion (fanout 4): the inner node at address 6 is left
without keys after a merge below it; its left neighbour at address 5 and its
right neighbour at address 7 hold one key each. -/
def tree_mid : bptree Nat Nat :=
  { heap := [some { type := bpnode_type.NODE_LEAF, num_keys := 1, keys := [1],
                    parent := some 5, values := [10], next := some 1, children := [] },
             some { type := bpnode_type.NODE_LEAF, num_keys := 1, keys := [3],
                    parent := some 5, values := [30], next := some 2, children := [] },
             some { type := bpnode_type.NODE_LEAF, num_keys := 1, keys := [5],
                    parent := some 6, values := [50], next := some 3, children := [] },
             some { type := bpnode_type.NODE_LEAF, num_keys := 1, keys := [9],
                    parent := some 7, values := [90], next := some 4, children := [] },
             some { type := bpnode_type.NODE_LEAF, num_keys := 1, keys := [11],
                    parent := some 7, values := [110], next := none, children := [] },
             some { type := bpnode_type.NODE_INNER, num_keys := 1, keys := [3],
                    parent := some 8, values := [], next := none, children := [0, 1] },
             some { type := bpnode_type.NODE_INNER, num_keys := 0, keys := [],
                    parent := some 8, values := [], next := none, children := [2] },
             some { type := bpnode_type.NODE_INNER, num_keys := 1, keys := [11],
                    parent := some 8, values := [], next := none, children := [3, 4] },
             some { type := bpnode_type.NODE_INNER, num_keys := 2, keys := [5, 9],
                    parent := none, values := [], next := none, children := [5, 6, 7] }],
    root := some 8, depth := 3, count := 5, m := 4 }

/-! ### An inner node of fanout 32768 -/

end BPlus

namespace BPlus

section basic
variable {K V : Type}

/-! ### Heap cells -/

theorem heap_get_lt {h : List (Option (bpnode K V))} {a : Nat} {x : bpnode K V}
    (e : heap_get h a = some x) : a < h.length := by
  unfold heap_get at e
  by_contra hc
  rw [List.getD_eq_getElem?_getD, List.getElem?_eq_none (by omega)] at e
  simp at e

theorem heap_get_eq_some {h : List (Option (bpnode K V))} {a : Nat} {x : bpnode K V} :
    heap_get h a = some x ↔ h[a]? = some (some x) := by
  unfold heap_get
  rw [List.getD_eq_getElem?_getD]
  cases h[a]? with
  | none => simp
  | some y => simp

theorem heap_get_set (h : List (Option (bpnode K V))) (a b : Nat) (x : bpnode K V) :
    heap_get (heap_set h a x) b = if a = b ∧ a < h.length then some x else heap_get h b := by
  unfold heap_get heap_set
  rw [List.getD_eq_getElem?_getD, List.getD_eq_getElem?_getD, List.getElem?_set]
  by_cases hab : a = b
  · subst hab
    by_cases hl : a < h.length
    · simp [hl]
    · simp [hl, List.getElem?_eq_none (Nat.le_of_not_lt hl)]
  · simp [hab]

theorem heap_get_set_ne {h : List (Option (bpnode K V))} {a b : Nat} (x : bpnode K V)
    (hab : a ≠ b) : heap_get (heap_set h a x) b = heap_get h b := by
  simp [heap_get_set, hab]

theorem heap_get_set_eq {h : List (Option (bpnode K V))} {a : Nat} {y : bpnode K V}
    (x : bpnode K V) (e : heap_get h a = some y) : heap_get (heap_set h a x) a = some x := by
  simp [heap_get_set, heap_get_lt e]

theorem heap_get_free (h : List (Option (bpnode K V))) (a b : Nat) :
    heap_get (heap_free h a) b = if a = b then none else heap_get h b := by
  unfold heap_get heap_free
  rw [List.getD_eq_getElem?_getD, List.getD_eq_getElem?_getD, List.getElem?_set]
  by_cases hab : a = b
  · subst hab
    by_cases hl : a < h.length
    · simp [hl]
    · simp [hl]
  · simp [hab]

theorem heap_get_append (h : List (Option (bpnode K V))) (x : bpnode K V) (b : Nat) :
    heap_get (h ++ [some x]) b = if b = h.length then some x else heap_get h b := by
  unfold heap_get
  rw [List.getD_eq_getElem?_getD, List.getD_eq_getElem?_getD]
  by_cases hb : b < h.length
  · rw [List.getElem?_append_left hb]
    simp [Nat.ne_of_lt hb]
  · by_cases hb2 : b = h.length
    · subst hb2
      simp
    · rw [List.getElem?_eq_none (by simp; omega), List.getElem?_eq_none (by omega)]
      simp [hb2]

@[simp] theorem heap_set_length (h : List (Option (bpnode K V))) (a : Nat) (x : bpnode K V) :
    (heap_set h a x).length = h.length := by
  simp [heap_set]

@[simp] theorem heap_free_length (h : List (Option (bpnode K V))) (a : Nat) :
    (heap_free h a).length = h.length := by
  simp [heap_free]

theorem heap_get_length_none (h : List (Option (bpnode K V))) {a : Nat} (ha : h.length ≤ a) :
    heap_get h a = none := by
  cases e : heap_get h a with
  | none => rfl
  | some x => exact absurd (heap_get_lt e) (by omega)

/-! ### 16-bit counters -/

theorem wrap16_id {x : Int} (h1 : -32768 ≤ x) (h2 : x < 32768) : wrap16 x = x := by
  unfold wrap16
  omega

/-! ### Positions in lists -/

theorem index_of_le {A : Type} [DecidableEq A] (x : A) (l : List A) :
    index_of x l ≤ l.length := by
  induction l with
  | nil => simp [index_of]
  | cons y ys ih =>
    simp only [index_of]
    split
    · simp
    · simpa using ih

theorem index_of_lt_iff {A : Type} [DecidableEq A] (x : A) (l : List A) :
    index_of x l < l.length ↔ x ∈ l := by
  induction l with
  | nil => simp [index_of]
  | cons y ys ih =>
    simp only [index_of]
    by_cases hy : y = x
    · simp [hy]
    · simp [hy, ih, Ne.symm hy]

theorem index_of_getElem? {A : Type} [DecidableEq A] {x : A} {l : List A} (hx : x ∈ l) :
    l[index_of x l]? = some x := by
  induction l with
  | nil => simp at hx
  | cons y ys ih =>
    simp only [index_of]
    by_cases hy : y = x
    · simp [hy]
    · have : x ∈ ys := by
        rcases List.mem_cons.1 hx with h | h
        · exact absurd h.symm hy
        · exact h
      simp [hy, ih this]

theorem index_of_first {A : Type} [DecidableEq A] {x : A} {l : List A} {j : Nat}
    (hj : j < index_of x l) : ∀ y, l[j]? = some y → y ≠ x := by
  induction l generalizing j with
  | nil => simp [index_of] at hj
  | cons z zs ih =>
    simp only [index_of] at hj
    by_cases hz : z = x
    · simp [hz] at hj
    · simp only [hz, if_false] at hj
      cases j with
      | zero => intro y hy; simp at hy; subst hy; exact hz
      | succ j => intro y hy; simp at hy; exact ih (by omega) y hy

/-- In a list without repetition the scan stops at the position of `x`. -/
theorem index_of_eq_of_getElem? {A : Type} [DecidableEq A] {x : A} {l : List A} {j : Nat}
    (hn : l.Nodup) (hj : l[j]? = some x) : index_of x l = j := by
  induction l generalizing j with
  | nil => simp at hj
  | cons z zs ih =>
    simp only [index_of]
    cases j with
    | zero => simp at hj; simp [hj]
    | succ j =>
      simp at hj
      have hx : x ∈ zs := by
        obtain ⟨hl, he⟩ := List.getElem?_eq_some.1 hj
        exact he ▸ List.getElem_mem hl
      have hz : z ≠ x := by
        intro hzx
        subst hzx
        exact (List.nodup_cons.1 hn).1 hx
      simp [hz, ih (List.nodup_cons.1 hn).2 hj]

theorem child_index_loop_eq (cs : List Nat) (n : Nat) :
    ∀ (fuel i : Nat), i + fuel = cs.length → n ∈ cs.drop i →
      child_index_loop cs n fuel i = some (i + index_of n (cs.drop i)) := by
  intro fuel
  induction fuel with
  | zero =>
    intro i hi hn
    have : cs.drop i = [] := List.drop_eq_nil_of_le (by omega)
    rw [this] at hn
    simp at hn
  | succ f ih =>
    intro i hi hn
    have hlt : i < cs.length := by omega
    have hd : cs.drop i = cs[i] :: cs.drop (i + 1) := by
      rw [List.drop_eq_getElem_cons hlt]
    simp only [child_index_loop, List.getElem?_eq_getElem hlt]
    rw [hd] at hn ⊢
    by_cases hc : cs[i] = n
    · simp [hc, index_of]
    · have hn2 : n ∈ cs.drop (i + 1) := by
        rcases List.mem_cons.1 hn with h | h
        · exact absurd h.symm hc
        · exact h
      simp only [hc, if_false, index_of]
      rw [ih (i + 1) (by omega) hn2]
      congr 1
      omega

theorem child_index_eq {p : bpnode K V} {n : Nat}
    (hk : p.num_keys + 1 = (p.children.length : Int)) (hn : n ∈ p.children) :
    child_index p n = some (index_of n p.children) := by
  unfold child_index
  have : (p.num_keys + 1).toNat = p.children.length := by omega
  rw [this, child_index_loop_eq p.children n p.children.length 0 (by simp) (by simpa using hn)]
  simp

end basic

section order
variable {K V : Type} [LinearOrder K]

/-! ### Interval end points -/

@[simp] theorem bnd_lt_bnd {a b : K} : (bnd a : Bound K) < bnd b ↔ a < b := by
  simp [bnd]

@[simp] theorem bnd_le_bnd {a b : K} : (bnd a : Bound K) ≤ bnd b ↔ a ≤ b := by
  simp [bnd]

@[simp] theorem bot_lt_bnd (a : K) : (⊥ : Bound K) < bnd a := by
  simp [bnd]

@[simp] theorem bnd_lt_top (a : K) : (bnd a : Bound K) < ⊤ := by
  simp only [bnd]
  exact WithBot.coe_lt_coe.2 (WithTop.coe_lt_top a)

/-! ### Scans over keys -/

theorem upper_pos_le (key : K) (l : List K) : upper_pos key l ≤ l.length := by
  induction l with
  | nil => simp [upper_pos]
  | cons y ys ih =>
    simp only [upper_pos]
    split
    · simp
    · simpa using ih

theorem check_children_index_loop_eq (keys : List K) (key : K) :
    ∀ (fuel i : Nat), i + fuel = keys.length →
      check_children_index_loop keys key fuel i = some (i + upper_pos key (keys.drop i)) := by
  intro fuel
  induction fuel with
  | zero =>
    intro i hi
    have : keys.drop i = [] := List.drop_eq_nil_of_le (by omega)
    simp [check_children_index_loop, this, upper_pos]
  | succ f ih =>
    intro i hi
    have hlt : i < keys.length := by omega
    have hd : keys.drop i = keys[i] :: keys.drop (i + 1) := by
      rw [List.drop_eq_getElem_cons hlt]
    simp only [check_children_index_loop, List.getElem?_eq_getElem hlt]
    rw [hd]
    by_cases hc : key < keys[i]
    · simp [hc, upper_pos]
    · simp only [hc, if_false, upper_pos]
      rw [ih (i + 1) (by omega)]
      congr 1
      omega

theorem check_children_index_by_key_eq {n : bpnode K V} (key : K)
    (hk : n.num_keys = (n.keys.length : Int)) :
    check_children_index_by_key n key = some (upper_pos key n.keys) := by
  unfold check_children_index_by_key
  have : n.num_keys.toNat = n.keys.length := by omega
  rw [this, check_children_index_loop_eq n.keys key n.keys.length 0 (by simp)]
  simp

theorem find_leaf_scan_eq (keys : List K) (key : K) :
    ∀ (fuel i : Nat), i + fuel = keys.length →
      find_leaf_scan keys key fuel i =
        some (if key ∈ keys.drop i then some (i + index_of key (keys.drop i)) else none) := by
  intro fuel
  induction fuel with
  | zero =>
    intro i hi
    have : keys.drop i = [] := List.drop_eq_nil_of_le (by omega)
    simp [find_leaf_scan, this]
  | succ f ih =>
    intro i hi
    have hlt : i < keys.length := by omega
    have hd : keys.drop i = keys[i] :: keys.drop (i + 1) := by
      rw [List.drop_eq_getElem_cons hlt]
    simp only [find_leaf_scan, List.getElem?_eq_getElem hlt]
    rw [hd]
    by_cases hc : keys[i] = key
    · simp [hc, index_of]
    · simp only [hc, if_false, index_of, List.mem_cons]
      rw [ih (i + 1) (by omega)]
      have : ¬ key = keys[i] := fun h => hc h.symm
      simp only [this, false_or]
      split
      · congr 2
        omega
      · rfl

theorem find_leaf_scan_eq0 {n : bpnode K V} (key : K)
    (hk : n.num_keys = (n.keys.length : Int)) :
    find_leaf_scan n.keys key n.num_keys.toNat 0 =
      some (if key ∈ n.keys then some (index_of key n.keys) else none) := by
  have : n.num_keys.toNat = n.keys.length := by omega
  rw [this, find_leaf_scan_eq n.keys key n.keys.length 0 (by simp)]
  simp

end order

end BPlus

namespace BPlus

section slots
variable {K V : Type} [LinearOrder K]

/-! ### Child slots -/

theorem slot_hi_lt {ks : List K} {hi : Bound K} {j : Nat} {k : K} (h : ks[j]? = some k) :
    slot_hi ks hi j = bnd k := by
  simp [slot_hi, h]

theorem slot_hi_ge {ks : List K} {hi : Bound K} {j : Nat} (h : ks.length ≤ j) :
    slot_hi ks hi j = hi := by
  simp [slot_hi, List.getElem?_eq_none h]

@[simp] theorem slot_lo_zero (lo : Bound K) (ks : List K) : slot_lo lo ks 0 = lo := by
  cases ks <;> rfl

theorem slot_lo_cons_succ (lo : Bound K) (k : K) (ks : List K) (j : Nat) :
    slot_lo lo (k :: ks) (j + 1) = slot_lo (bnd k) ks j := rfl

theorem slot_lo_succ (lo : Bound K) (ks : List K) (j : Nat) (hj : j < ks.length) :
    slot_lo lo ks (j + 1) = bnd ks[j] := by
  induction ks generalizing lo j with
  | nil => simp at hj
  | cons k ks ih =>
    rw [slot_lo_cons_succ]
    cases j with
    | zero => simp
    | succ j =>
      simp at hj
      simpa using ih (bnd k) j hj

@[simp] theorem slot_hi_cons_zero (k : K) (ks : List K) (hi : Bound K) :
    slot_hi (k :: ks) hi 0 = bnd k := by
  simp [slot_hi]

@[simp] theorem slot_hi_cons_succ (k : K) (ks : List K) (hi : Bound K) (j : Nat) :
    slot_hi (k :: ks) hi (j + 1) = slot_hi ks hi j := by
  simp [slot_hi]

@[simp] theorem slot_hi_nil (hi : Bound K) (j : Nat) : slot_hi ([] : List K) hi j = hi := by
  simp [slot_hi]

theorem ChildrenOK_iff (h : List (Option (bpnode K V))) (g : Nat → Option (Info K))
    (a d : Nat) (ks : List K) :
    ∀ (lo : Bound K) (cs : List Nat) (hi : Bound K),
      ChildrenOK h g a d lo ks cs hi ↔
        cs.length = ks.length + 1 ∧
        ∀ j c, cs[j]? = some c → ChildOK h g a d c (slot_lo lo ks j) (slot_hi ks hi j) := by
  induction ks with
  | nil =>
    intro lo cs hi
    match cs with
    | [] => simp [ChildrenOK]
    | [c] =>
      simp only [ChildrenOK, List.length_singleton, List.length_nil, zero_add, true_and]
      constructor
      · intro hc j c1 hj
        cases j with
        | zero => simp at hj; subst hj; simpa using hc
        | succ j => simp at hj
      · intro hc
        simpa using hc 0 c (by simp)
    | c :: c1 :: cs => simp [ChildrenOK]
  | cons k ks ih =>
    intro lo cs hi
    match cs with
    | [] => simp [ChildrenOK]
    | c :: cs =>
      simp only [ChildrenOK, ih, List.length_cons]
      constructor
      · rintro ⟨hc, hl, hr⟩
        refine ⟨by omega, ?_⟩
        intro j c1 hj
        cases j with
        | zero => simp at hj; subst hj; simpa using hc
        | succ j =>
          simp at hj
          rw [slot_lo_cons_succ, slot_hi_cons_succ]
          exact hr j c1 hj
      · rintro ⟨hl, hr⟩
        refine ⟨?_, by omega, ?_⟩
        · simpa using hr 0 c (by simp)
        · intro j c1 hj
          have := hr (j + 1) c1 (by simpa using hj)
          rwa [slot_lo_cons_succ, slot_hi_cons_succ] at this

theorem ChildrenOK.length {h : List (Option (bpnode K V))} {g : Nat → Option (Info K)}
    {a d : Nat} {lo hi : Bound K} {ks : List K} {cs : List Nat}
    (hc : ChildrenOK h g a d lo ks cs hi) : cs.length = ks.length + 1 :=
  ((ChildrenOK_iff h g a d ks lo cs hi).1 hc).1

theorem ChildrenOK.get {h : List (Option (bpnode K V))} {g : Nat → Option (Info K)}
    {a d : Nat} {lo hi : Bound K} {ks : List K} {cs : List Nat}
    (hc : ChildrenOK h g a d lo ks cs hi) {j c : Nat} (hj : cs[j]? = some c) :
    ChildOK h g a d c (slot_lo lo ks j) (slot_hi ks hi j) :=
  ((ChildrenOK_iff h g a d ks lo cs hi).1 hc).2 j c hj

theorem ChildrenOK.mem {h : List (Option (bpnode K V))} {g : Nat → Option (Info K)}
    {a d : Nat} {lo hi : Bound K} {ks : List K} {cs : List Nat}
    (hc : ChildrenOK h g a d lo ks cs hi) {c : Nat} (hm : c ∈ cs) :
    ∃ j, cs[j]? = some c ∧ ChildOK h g a d c (slot_lo lo ks j) (slot_hi ks hi j) := by
  obtain ⟨j, hj, he⟩ := List.mem_iff_getElem.1 hm
  have : cs[j]? = some c := by rw [List.getElem?_eq_getElem hj, he]
  exact ⟨j, this, hc.get this⟩

/-! ### Slots and the child-selection rule -/

theorem slot_lo_upper_pos (key : K) (ks : List K) :
    ∀ lo : Bound K, lo ≤ bnd key → slot_lo lo ks (upper_pos key ks) ≤ bnd key := by
  induction ks with
  | nil => intro lo hlo; simpa [upper_pos] using hlo
  | cons k ks ih =>
    intro lo hlo
    simp only [upper_pos]
    by_cases hk : key < k
    · simpa [hk] using hlo
    · simp only [hk, if_false, slot_lo_cons_succ]
      exact ih (bnd k) (by simpa using not_lt.1 hk)

theorem slot_hi_upper_pos (key : K) (ks : List K) (hi : Bound K) (hhi : bnd key < hi) :
    bnd key < slot_hi ks hi (upper_pos key ks) := by
  induction ks with
  | nil => simpa [upper_pos] using hhi
  | cons k ks ih =>
    simp only [upper_pos]
    by_cases hk : key < k
    · simpa [hk] using hk
    · simpa [hk] using ih

/-- With sorted separators the slot whose interval contains `key` is the one
the child-selection rule picks. -/
theorem upper_pos_unique (key : K) (ks : List K) (hs : ks.Pairwise (fun x y => x < y)) :
    ∀ (lo hi : Bound K) (j : Nat), j ≤ ks.length →
      slot_lo lo ks j ≤ bnd key → bnd key < slot_hi ks hi j → (j = 0 ∨ ks ≠ []) →
      upper_pos key ks = j := by
  induction ks with
  | nil =>
    intro lo hi j hj _ _ _
    simp at hj
    simp [upper_pos, hj]
  | cons k ks ih =>
    intro lo hi j hj h1 h2 _
    simp only [upper_pos]
    cases j with
    | zero =>
      simp at h2
      simp [h2]
    | succ j =>
      rw [slot_lo_cons_succ] at h1
      rw [slot_hi_cons_succ] at h2
      simp at hj
      have hk : ¬ key < k := by
        cases j with
        | zero => simpa using h1
        | succ j =>
          have hjl : j < ks.length := by omega
          rw [slot_lo_succ _ _ _ hjl] at h1
          have : k < ks[j] := List.rel_of_pairwise_cons hs (List.getElem_mem hjl)
          have := bnd_le_bnd.1 h1
          exact not_lt.2 (le_trans (le_of_lt ‹k < ks[j]›) this)
      simp only [hk, if_false]
      congr 1
      refine ih (List.Pairwise.of_cons hs) (bnd k) hi j hj h1 h2 ?_
      cases j with
      | zero => exact Or.inl rfl
      | succ j => right; intro hnil; simp [hnil] at hj

theorem slot_lo_lt_slot_hi {lo hi : Bound K} {ks : List K}
    (hs : ks.Pairwise (fun x y => x < y)) (hlo : ∀ k ∈ ks, lo < bnd k)
    (hhi : ∀ k ∈ ks, bnd k < hi) (hlh : lo < hi) {j : Nat} (hj : j ≤ ks.length) :
    slot_lo lo ks j < slot_hi ks hi j := by
  cases j with
  | zero =>
    cases ks with
    | nil => simpa using hlh
    | cons k ks => simpa using hlo k (by simp)
  | succ j =>
    have hjl : j < ks.length := by omega
    rw [slot_lo_succ _ _ _ hjl]
    by_cases hj2 : j + 1 < ks.length
    · rw [slot_hi_lt (List.getElem?_eq_getElem hj2), bnd_lt_bnd]
      exact List.pairwise_iff_getElem.1 hs j (j + 1) hjl hj2 (by omega)
    · rw [slot_hi_ge (by omega)]
      exact hhi _ (List.getElem_mem hjl)

/-- Lower slot ends grow with the slot number. -/
theorem slot_lo_mono {lo : Bound K} {ks : List K}
    (hs : ks.Pairwise (fun x y => x < y)) (hlo : ∀ k ∈ ks, lo < bnd k)
    {i j : Nat} (hij : i < j) (hj : j ≤ ks.length) :
    slot_lo lo ks i < slot_lo lo ks j := by
  cases j with
  | zero => omega
  | succ j =>
    have hjl : j < ks.length := by omega
    rw [slot_lo_succ _ _ _ hjl]
    cases i with
    | zero => simpa using hlo _ (List.getElem_mem hjl)
    | succ i =>
      have hil : i < ks.length := by omega
      rw [slot_lo_succ _ _ _ hil, bnd_lt_bnd]
      exact List.pairwise_iff_getElem.1 hs i j hil hjl (by omega)

end slots

end BPlus

namespace BPlus

section frame
variable {K V : Type} [LinearOrder K]

/-! ### Frame rules -/

theorem ChildrenOK.frame_children {h h1 : List (Option (bpnode K V))} {g g1 : Nat → Option (Info K)}
    {a d : Nat} {lo hi : Bound K} {ks : List K} {cs : List Nat}
    {a1 : Nat}
    (hc : ChildrenOK h g a d lo ks cs hi)
    (hstep : ∀ c lo1 hi1, c ∈ cs → ChildOK h g a d c lo1 hi1 → ChildOK h1 g1 a1 d c lo1 hi1) :
    ChildrenOK h1 g1 a1 d lo ks cs hi := by
  rw [ChildrenOK_iff] at hc ⊢
  refine ⟨hc.1, ?_⟩
  intro j c hj
  have hm : c ∈ cs := by
    obtain ⟨hl, he⟩ := List.getElem?_eq_some.1 hj
    exact he ▸ List.getElem_mem hl
  exact hstep c _ _ hm (hc.2 j c hj)

/-- A node whose record, ghost data, children and parent are untouched stays
well formed. -/
theorem NodeOK.frame_node {h h1 : List (Option (bpnode K V))} {g g1 : Nat → Option (Info K)}
    {m : Nat} {r r1 e e1 : Option Nat} {sl sh sl1 sh1 a : Nat} {i : Info K} {nd : bpnode K V}
    (ok : NodeOK h g m r e sl sh a i nd)
    (he : e ≠ some a)
    (hstep : ∀ d c lo1 hi1, c ∈ nd.children → ChildOK h g a d c lo1 hi1 →
      ChildOK h1 g1 a d c lo1 hi1)
    (hr : some a = r1 ↔ some a = r)
    (hu : ∀ p ip pd, g p = some ip → heap_get h p = some pd →
      pd.type = bpnode_type.NODE_INNER → a ∈ pd.children →
      ∃ ip1 pd1, g1 p = some ip1 ∧ heap_get h1 p = some pd1 ∧
        pd1.type = bpnode_type.NODE_INNER ∧ a ∈ pd1.children) :
    NodeOK h1 g1 m r1 e1 sl1 sh1 a i nd := by
  have hsh : (if e = some a then sh else 0) = 0 := by simp [he]
  have hsl : (if e = some a then sl else 0) = 0 := by simp [he]
  refine ⟨ok.nk, ok.lohi, ok.sorted, ok.lob, ok.hib, ok.kind, ok.leaf, ?_, ?_, ?_, ?_, ?_, ?_⟩
  · intro ht
    obtain ⟨d, hd, hc⟩ := ok.down ht
    exact ⟨d, hd, hc.frame_children (hstep d)⟩
  · intro hne
    obtain ⟨p, ip, pd, h1p, h2, h3, h4⟩ := ok.up (fun hh => hne (hr.2 hh))
    obtain ⟨ip1, pd1, q1, q2, q3, q4⟩ := hu p ip pd h1p h2 h3 h4
    exact ⟨p, ip1, pd1, q1, q2, q3, q4⟩
  · intro hh
    exact ok.uproot (hr.1 hh)
  · have := ok.occ_hi
    rw [hsh] at this
    omega
  · intro hne
    have := ok.occ_lo (fun hh => hne (hr.2 hh))
    rw [hsl] at this
    omega
  · have := ok.occ_in
    rw [hsl] at this
    omega

/-! ### Reading the invariant -/

theorem InvX.live_lt {t : bptree K V} {g : Nat → Option (Info K)} {L : List Nat}
    {kv : List (K × V)} {e : Option Nat} {sl sh : Nat} (hI : InvX t g L kv e sl sh)
    {a : Nat} {i : Info K} (ha : g a = some i) : a < t.heap.length := by
  obtain ⟨nd, h1, _⟩ := hI.nodes a i ha
  exact heap_get_lt h1

/-- A child of a live inner node is live one level below, with the slot
interval, and points back to the node. -/
theorem InvX.child {t : bptree K V} {g : Nat → Option (Info K)} {L : List Nat}
    {kv : List (K × V)} {e : Option Nat} {sl sh : Nat} (hI : InvX t g L kv e sl sh)
    {p : Nat} {ip : Info K} {pd : bpnode K V} (hp : g p = some ip)
    (hpd : heap_get t.heap p = some pd) (hty : pd.type = bpnode_type.NODE_INNER)
    {j c : Nat} (hj : pd.children[j]? = some c) :
    ∃ d cd, ip.ht = d + 1 ∧
      g c = some ⟨d, slot_lo ip.lo pd.keys j, slot_hi pd.keys ip.hi j⟩ ∧
      heap_get t.heap c = some cd ∧ cd.parent = some p ∧
      pd.children.length = pd.keys.length + 1 := by
  obtain ⟨nd, h1, ok⟩ := hI.nodes p ip hp
  rw [hpd] at h1
  cases h1
  obtain ⟨d, hd, hc⟩ := ok.down hty
  obtain ⟨h2, cd, h3, h4⟩ := hc.get hj
  exact ⟨d, cd, hd, h2, h3, h4, hc.length⟩

theorem InvX.keys_lt_hi {t : bptree K V} {g : Nat → Option (Info K)} {L : List Nat}
    {kv : List (K × V)} {e : Option Nat} {sl sh : Nat} (hI : InvX t g L kv e sl sh)
    {p : Nat} {ip : Info K} {pd : bpnode K V} (hp : g p = some ip)
    (hpd : heap_get t.heap p = some pd) : ∀ k ∈ pd.keys, bnd k < ip.hi := by
  obtain ⟨nd, h1, ok⟩ := hI.nodes p ip hp
  rw [hpd] at h1
  cases h1
  exact ok.hib

/-- The keys of a live inner node lie strictly above its lower end. -/
theorem InvX.lo_lt_keys {t : bptree K V} {g : Nat → Option (Info K)} {L : List Nat}
    {kv : List (K × V)} {e : Option Nat} {sl sh : Nat} (hI : InvX t g L kv e sl sh)
    {p : Nat} {ip : Info K} {pd : bpnode K V} (hp : g p = some ip)
    (hpd : heap_get t.heap p = some pd) (hty : pd.type = bpnode_type.NODE_INNER) :
    ∀ k ∈ pd.keys, ip.lo < bnd k := by
  obtain ⟨nd, h1, ok⟩ := hI.nodes p ip hp
  rw [hpd] at h1
  cases h1
  obtain ⟨d, hd, hc⟩ := ok.down hty
  intro k hk
  have hl := hc.length
  cases hks : pd.keys with
  | nil => rw [hks] at hk; simp at hk
  | cons k0 ks =>
    have h0 : 0 < pd.children.length := by omega
    obtain ⟨d1, cd, _, hg0, _, _, _⟩ :=
      hI.child hp hpd hty (List.getElem?_eq_getElem h0)
    obtain ⟨nd0, _, ok0⟩ := hI.nodes _ _ hg0
    have h01 := ok0.lohi
    simp only [slot_lo_zero, hks, slot_hi_cons_zero] at h01
    rw [hks] at hk
    rcases List.mem_cons.1 hk with h | h
    · rw [h]; exact h01
    · have hs := ok.sorted
      rw [hks] at hs
      exact lt_trans h01 (bnd_lt_bnd.2 (List.rel_of_pairwise_cons hs h))

/-- The children of a live inner node are pairwise distinct. -/
theorem InvX.children_inj {t : bptree K V} {g : Nat → Option (Info K)} {L : List Nat}
    {kv : List (K × V)} {e : Option Nat} {sl sh : Nat} (hI : InvX t g L kv e sl sh)
    {p : Nat} {ip : Info K} {pd : bpnode K V} (hp : g p = some ip)
    (hpd : heap_get t.heap p = some pd) (hty : pd.type = bpnode_type.NODE_INNER)
    {j1 j2 c : Nat} (h1 : pd.children[j1]? = some c) (h2 : pd.children[j2]? = some c) :
    j1 = j2 := by
  obtain ⟨d1, cd1, _, hg1, _, _, hl⟩ := hI.child hp hpd hty h1
  obtain ⟨d2, cd2, _, hg2, _, _, _⟩ := hI.child hp hpd hty h2
  obtain ⟨nd, hh, ok⟩ := hI.nodes p ip hp
  rw [hpd] at hh
  cases hh
  have hlo := hI.lo_lt_keys hp hpd hty
  rw [hg1] at hg2
  have hlo_eq : slot_lo ip.lo pd.keys j1 = slot_lo ip.lo pd.keys j2 := by
    have := congrArg Info.lo (Option.some.inj hg2)
    exact this
  have hj1 : j1 < pd.children.length := (List.getElem?_eq_some.1 h1).1
  have hj2 : j2 < pd.children.length := (List.getElem?_eq_some.1 h2).1
  by_contra hne
  rcases Nat.lt_or_gt_of_ne hne with hlt | hlt
  · have := slot_lo_mono ok.sorted hlo hlt (by omega)
    rw [hlo_eq] at this
    exact lt_irrefl _ this
  · have := slot_lo_mono ok.sorted hlo hlt (by omega)
    rw [hlo_eq] at this
    exact lt_irrefl _ this

theorem InvX.children_nodup {t : bptree K V} {g : Nat → Option (Info K)} {L : List Nat}
    {kv : List (K × V)} {e : Option Nat} {sl sh : Nat} (hI : InvX t g L kv e sl sh)
    {p : Nat} {ip : Info K} {pd : bpnode K V} (hp : g p = some ip)
    (hpd : heap_get t.heap p = some pd) (hty : pd.type = bpnode_type.NODE_INNER) :
    pd.children.Nodup := by
  rw [List.nodup_iff_getElem?_ne_getElem?]
  intro i j hij hj heq
  have hi : i < pd.children.length := by omega
  have h1 : pd.children[i]? = some pd.children[i] := List.getElem?_eq_getElem hi
  have h2 : pd.children[j]? = some pd.children[i] := by rw [← heq, h1]
  have := hI.children_inj hp hpd hty h1 h2
  omega

/-- Going up: a live node other than the root is child number `j` of its
parent pointer, which is a live inner node. -/
theorem InvX.parent {t : bptree K V} {g : Nat → Option (Info K)} {L : List Nat}
    {kv : List (K × V)} {e : Option Nat} {sl sh : Nat} (hI : InvX t g L kv e sl sh)
    {a : Nat} {i : Info K} {nd : bpnode K V} (ha : g a = some i)
    (hnd : heap_get t.heap a = some nd) (hr : some a ≠ t.root) :
    ∃ p ip pd j, nd.parent = some p ∧ g p = some ip ∧ heap_get t.heap p = some pd ∧
      pd.type = bpnode_type.NODE_INNER ∧ pd.children[j]? = some a ∧
      index_of a pd.children = j ∧ child_index pd a = some j ∧
      pd.children.length = pd.keys.length + 1 ∧
      pd.num_keys = (pd.keys.length : Int) ∧
      ip.ht = i.ht + 1 ∧ i.lo = slot_lo ip.lo pd.keys j ∧ i.hi = slot_hi pd.keys ip.hi j := by
  obtain ⟨nd1, h1, ok⟩ := hI.nodes a i ha
  rw [hnd] at h1
  cases h1
  obtain ⟨p, ip, pd, hp, hpd, hty, hmem⟩ := ok.up hr
  obtain ⟨j, hjl, hje⟩ := List.mem_iff_getElem.1 hmem
  have hj : pd.children[j]? = some a := by rw [List.getElem?_eq_getElem hjl, hje]
  obtain ⟨d, cd, hd, hg, hcd, hpar, hlen⟩ := hI.child hp hpd hty hj
  rw [hnd] at hcd
  cases hcd
  rw [ha] at hg
  have hi := Option.some.inj hg
  obtain ⟨pd1, hh, okp⟩ := hI.nodes p ip hp
  rw [hpd] at hh
  cases hh
  have hnodup := hI.children_nodup hp hpd hty
  have hidx := index_of_eq_of_getElem? hnodup hj
  refine ⟨p, ip, pd, j, hpar, hp, hpd, hty, hj, hidx, ?_, hlen, okp.nk, ?_, ?_, ?_⟩
  · rw [child_index_eq (by rw [okp.nk, hlen]; push_cast; ring) hmem, hidx]
  · rw [hd, hi]
  · rw [hi]
  · rw [hi]

end frame

end BPlus

namespace BPlus

section find
variable {K V : Type} [LinearOrder K]

/-! ### Descent -/

theorem InvX.ht_pos {t : bptree K V} {g : Nat → Option (Info K)} {L : List Nat}
    {kv : List (K × V)} {e : Option Nat} {sl sh : Nat} (hI : InvX t g L kv e sl sh)
    {a : Nat} {i : Info K} (ha : g a = some i) : 1 ≤ i.ht := by
  obtain ⟨nd, h1, ok⟩ := hI.nodes a i ha
  rcases ok.kind with h | h
  · rw [(ok.leaf h).1]
  · obtain ⟨d, hd, _⟩ := ok.down h
    omega

/-- The descent of `find_leaf` from a live node whose interval contains `key`
ends in the live leaf whose interval contains `key`. -/
theorem InvX.descend {t : bptree K V} {g : Nat → Option (Info K)} {L : List Nat}
    {kv : List (K × V)} {e : Option Nat} {sl sh : Nat} (hI : InvX t g L kv e sl sh)
    (key : K) :
    ∀ (fuel a : Nat) (i : Info K), g a = some i → i.lo ≤ bnd key → bnd key < i.hi →
      i.ht ≤ fuel →
      ∃ b ib nb, find_leaf_descend t.heap key fuel a = some b ∧ g b = some ib ∧
        heap_get t.heap b = some nb ∧ nb.type = bpnode_type.NODE_LEAF ∧
        ib.lo ≤ bnd key ∧ bnd key < ib.hi := by
  intro fuel
  induction fuel with
  | zero =>
    intro a i ha _ _ hf
    have := hI.ht_pos ha
    omega
  | succ f ih =>
    intro a i ha hlo hhi hf
    obtain ⟨nd, hnd, ok⟩ := hI.nodes a i ha
    simp only [find_leaf_descend, hnd]
    rcases ok.kind with hty | hty
    · simp only [hty, if_true]
      exact ⟨a, i, nd, rfl, ha, hnd, hty, hlo, hhi⟩
    · have hne : nd.type ≠ bpnode_type.NODE_LEAF := by rw [hty]; decide
      simp only [hne, hty, if_false, if_true, check_children_index_by_key_eq key ok.nk]
      obtain ⟨d, hd, hc⟩ := ok.down hty
      have hlen := hc.length
      have hpos := upper_pos_le key nd.keys
      have hj : upper_pos key nd.keys < nd.children.length := by omega
      have hget := List.getElem?_eq_getElem hj
      obtain ⟨hgc, cd, hcd, _⟩ := hc.get hget
      simp only [hget]
      exact ih _ _ hgc (slot_lo_upper_pos key nd.keys i.lo hlo)
        (slot_hi_upper_pos key nd.keys i.hi hhi) (by simp; omega)

/-! ### The leaf list -/

theorem InvX.leaf_info {t : bptree K V} {g : Nat → Option (Info K)} {L : List Nat}
    {kv : List (K × V)} {e : Option Nat} {sl sh : Nat} (hI : InvX t g L kv e sl sh)
    {a : Nat} (ha : a ∈ L) :
    ∃ i nd, g a = some i ∧ heap_get t.heap a = some nd ∧
      nd.type = bpnode_type.NODE_LEAF ∧ NodeOK t.heap g t.m t.root e sl sh a i nd := by
  obtain ⟨i, nd, h1, h2, h3⟩ := (hI.leaves a).1 ha
  obtain ⟨nd1, h4, ok⟩ := hI.nodes a i h1
  rw [h2] at h4
  cases h4
  exact ⟨i, nd, h1, h2, h3, ok⟩

/-- Along the leaf list the intervals are ordered. -/
theorem InvX.leaf_order {t : bptree K V} {g : Nat → Option (Info K)} {L : List Nat}
    {kv : List (K × V)} {e : Option Nat} {sl sh : Nat} (hI : InvX t g L kv e sl sh) :
    L.Pairwise (fun a b => ∃ ia ib, g a = some ia ∧ g b = some ib ∧ ia.hi ≤ ib.lo) := by
  have hch := hI.chain
  have hall : ∀ a ∈ L, ∃ i, g a = some i ∧ i.lo < i.hi := by
    intro a ha
    obtain ⟨i, nd, h1, _, _, ok⟩ := hI.leaf_info ha
    exact ⟨i, h1, ok.lohi⟩
  clear hI
  induction L with
  | nil => exact List.Pairwise.nil
  | cons a L ih =>
    have hch2 : L.Chain' (Linked t.heap g) := List.Chain'.tail hch
    have ih2 := ih hch2 (fun x hx => hall x (List.mem_cons_of_mem a hx))
    refine List.Pairwise.cons ?_ ih2
    intro c hc
    cases L with
    | nil => simp at hc
    | cons b L2 =>
      have hab : Linked t.heap g a b := by
        have := List.Chain'.rel_head hch
        exact this
      obtain ⟨nd, ia, ib, _, _, h3, h4, h5⟩ := hab
      rcases List.mem_cons.1 hc with h | h
      · subst h
        exact ⟨ia, ib, h3, h4, le_of_eq h5⟩
      · obtain ⟨ib1, ic, q1, q2, q3⟩ := List.rel_of_pairwise_cons ih2 h
        rw [h4] at q1
        cases q1
        obtain ⟨ib2, q4, q5⟩ := hall b (by simp)
        rw [h4] at q4
        cases q4
        exact ⟨ia, ic, h3, q2, le_trans (le_of_eq h5) (le_trans (le_of_lt q5) q3)⟩

theorem InvX.leaf_nodup {t : bptree K V} {g : Nat → Option (Info K)} {L : List Nat}
    {kv : List (K × V)} {e : Option Nat} {sl sh : Nat} (hI : InvX t g L kv e sl sh) :
    L.Nodup := by
  have hp := hI.leaf_order
  refine List.Pairwise.imp_of_mem ?_ hp
  intro a b ha hb hab hne
  subst hne
  obtain ⟨ia, ib, h1, h2, h3⟩ := hab
  rw [h1] at h2
  cases h2
  obtain ⟨i, nd, q1, _, _, ok⟩ := hI.leaf_info ha
  rw [h1] at q1
  cases q1
  exact absurd ok.lohi (not_lt.2 h3)

/-! ### Lookup in association lists -/

theorem kv_lookup_append (k : K) (l1 l2 : List (K × V)) :
    kv_lookup k (l1 ++ l2) = (kv_lookup k l1).orElse (fun _ => kv_lookup k l2) := by
  induction l1 with
  | nil => simp [kv_lookup]
  | cons x l ih =>
    obtain ⟨k1, v1⟩ := x
    simp only [List.cons_append, kv_lookup]
    by_cases h : k1 = k
    · simp [h]
    · simp [h, ih]

theorem kv_lookup_none {k : K} {l : List (K × V)} (h : ∀ x ∈ l, x.1 ≠ k) :
    kv_lookup k l = none := by
  induction l with
  | nil => rfl
  | cons x l ih =>
    obtain ⟨k1, v1⟩ := x
    have h1 : k1 ≠ k := h (k1, v1) (by simp)
    simp only [kv_lookup, h1, if_false]
    exact ih (fun y hy => h y (List.mem_cons_of_mem _ hy))

theorem kv_lookup_zip (k : K) :
    ∀ (ks : List K) (vs : List V), vs.length = ks.length →
      kv_lookup k (ks.zip vs) = if k ∈ ks then vs[index_of k ks]? else none := by
  intro ks
  induction ks with
  | nil => intro vs _; simp [kv_lookup]
  | cons k1 ks ih =>
    intro vs hl
    cases vs with
    | nil => simp at hl
    | cons v1 vs =>
      simp only [List.zip_cons_cons, kv_lookup, index_of]
      by_cases h : k1 = k
      · simp [h]
      · have h2 : ¬ k = k1 := fun hh => h hh.symm
        simp only [h, if_false, List.mem_cons, h2, false_or]
        have := ih vs (by simpa using hl)
        simp only [List.zip] at this
        rw [this]
        split
        · simp
        · rfl

theorem leaf_pairs_fst {h : List (Option (bpnode K V))} {a : Nat} {nd : bpnode K V}
    (hnd : heap_get h a = some nd) {x : K × V} (hx : x ∈ leaf_pairs h a) : x.1 ∈ nd.keys := by
  simp only [leaf_pairs, hnd] at hx
  exact (List.of_mem_zip hx).1

/-- The leaf whose interval contains `key` decides the lookup of `key`. -/
theorem InvX.lookup_leaf {t : bptree K V} {g : Nat → Option (Info K)} {L : List Nat}
    {kv : List (K × V)} {e : Option Nat} {sl sh : Nat} (hI : InvX t g L kv e sl sh)
    {key : K} {b : Nat} {ib : Info K} (hb : g b = some ib) (hbL : b ∈ L)
    (hlo : ib.lo ≤ bnd key) (hhi : bnd key < ib.hi) :
    kv_lookup key kv = kv_lookup key (leaf_pairs t.heap b) := by
  obtain ⟨L1, L2, hL⟩ := List.append_of_mem hbL
  have hord := hI.leaf_order
  rw [hL] at hord
  have hsplit := List.pairwise_append.1 hord
  have h1 : kv_lookup key (L1.flatMap (leaf_pairs t.heap)) = none := by
    apply kv_lookup_none
    intro x hx
    obtain ⟨a, haL, hxa⟩ := List.mem_flatMap.1 hx
    obtain ⟨ia, ib1, q1, q2, q3⟩ := hsplit.2.2 a haL b (by simp)
    rw [hb] at q2
    cases q2
    obtain ⟨i, nd, r1, r2, _, ok⟩ := hI.leaf_info (a := a) (by rw [hL]; simp [haL])
    rw [q1] at r1
    cases r1
    have := ok.hib _ (leaf_pairs_fst r2 hxa)
    intro hxk
    rw [hxk] at this
    exact absurd (lt_of_lt_of_le this (le_trans q3 hlo)) (lt_irrefl _)
  have h2 : kv_lookup key (L2.flatMap (leaf_pairs t.heap)) = none := by
    apply kv_lookup_none
    intro x hx
    obtain ⟨a, haL, hxa⟩ := List.mem_flatMap.1 hx
    have hp2 := List.pairwise_cons.1 hsplit.2.1
    obtain ⟨ib1, ia, q1, q2, q3⟩ := hp2.1 a haL
    rw [hb] at q1
    cases q1
    obtain ⟨i, nd, r1, r2, _, ok⟩ := hI.leaf_info (a := a) (by rw [hL]; simp [haL])
    rw [q2] at r1
    cases r1
    have := ok.lob _ (leaf_pairs_fst r2 hxa)
    intro hxk
    rw [hxk] at this
    exact absurd (lt_of_lt_of_le hhi (le_trans q3 this)) (lt_irrefl _)
  rw [hI.kv_eq, hL, List.flatMap_append, List.flatMap_cons, kv_lookup_append, kv_lookup_append,
    h1, h2]
  cases kv_lookup key (leaf_pairs t.heap b) <;> rfl

/-! ### `find_leaf` and `find_key` -/

/-- On a non-empty well-formed tree `find_leaf` returns the leaf whose interval
contains `key`, and the position of `key` in it when it is there. -/
theorem InvX.find_leaf_eq {t : bptree K V} {g : Nat → Option (Info K)} {L : List Nat}
    {kv : List (K × V)} {e : Option Nat} {sl sh : Nat} (hI : InvX t g L kv e sl sh)
    (key : K) {r : Nat} (hr : t.root = some r) :
    ∃ b ib nb, find_leaf t key =
        some (if key ∈ nb.keys then some (index_of key nb.keys) else none, some b) ∧
      g b = some ib ∧ heap_get t.heap b = some nb ∧ nb.type = bpnode_type.NODE_LEAF ∧
      ib.lo ≤ bnd key ∧ bnd key < ib.hi ∧ b ∈ L ∧
      NodeOK t.heap g t.m t.root e sl sh b ib nb := by
  obtain ⟨d, hg, hd⟩ := hI.root_some r hr
  have hfuel : d ≤ t.heap.length := by
    have := hI.depth_le
    rw [hd] at this
    exact_mod_cast this
  obtain ⟨b, ib, nb, h1, h2, h3, h4, h5, h6⟩ :=
    hI.descend key t.heap.length r ⟨d, ⊥, ⊤⟩ hg bot_le (bnd_lt_top key) hfuel
  obtain ⟨nb1, q1, ok⟩ := hI.nodes b ib h2
  rw [h3] at q1
  cases q1
  refine ⟨b, ib, nb, ?_, h2, h3, h4, h5, h6, (hI.leaves b).2 ⟨ib, nb, h2, h3, h4⟩, ok⟩
  simp only [find_leaf, hr, h1, h3, find_leaf_scan_eq0 key ok.nk]

theorem InvX.find_key_eq {t : bptree K V} {g : Nat → Option (Info K)} {L : List Nat}
    {kv : List (K × V)} {e : Option Nat} {sl sh : Nat} (hI : InvX t g L kv e sl sh)
    (key : K) : find_key t key = some (kv_lookup key kv) := by
  cases hr : t.root with
  | none =>
    have hL : L = [] := by
      cases L with
      | nil => rfl
      | cons a L =>
        obtain ⟨i, nd, h1, _⟩ := (hI.leaves a).1 (by simp)
        rw [(hI.root_none hr).1 a] at h1
        cases h1
    simp [find_key, find_leaf, hr, hI.kv_eq, hL, kv_lookup]
  | some r =>
    obtain ⟨b, ib, nb, h1, h2, h3, h4, h5, h6, h7, ok⟩ := hI.find_leaf_eq key hr
    have hlen := (ok.leaf h4).2
    rw [hI.lookup_leaf h2 h7 h5 h6]
    simp only [leaf_pairs, h3, kv_lookup_zip key nb.keys nb.values hlen]
    simp only [find_key, h1]
    by_cases hk : key ∈ nb.keys
    · simp only [hk, if_true, h3]
      have : index_of key nb.keys < nb.values.length := by
        rw [hlen]
        exact (index_of_lt_iff key nb.keys).2 hk
      simp [List.getElem?_eq_getElem this]
    · simp [hk]

end find

end BPlus

namespace BPlus

section rebuild
variable {K V : Type} [LinearOrder K]

/-! ### Re-establishing the node conditions after a local change -/

/-- After a change that touches only the addresses in `D`, the node conditions
hold everywhere as soon as they hold on `D`. -/
theorem InvX.rebuild {t : bptree K V} {g : Nat → Option (Info K)} {L : List Nat}
    {kv : List (K × V)} {e : Option Nat} {sl sh : Nat} (hI : InvX t g L kv e sl sh)
    (h1 : List (Option (bpnode K V))) (g1 : Nat → Option (Info K))
    (r1 e1 : Option Nat) (sl1 sh1 : Nat) (D : Nat → Prop)
    (hsame : ∀ a, ¬ D a → heap_get h1 a = heap_get t.heap a ∧ g1 a = g a)
    (hpar : ∀ c cd, D c → g c ≠ none → heap_get t.heap c = some cd →
      (g1 c = g c ∧ ∃ cd1, heap_get h1 c = some cd1 ∧ cd1.parent = cd.parent) ∨
      (∀ p, cd.parent = some p → D p))
    (hwit : ∀ p pd, D p → g p ≠ none → heap_get t.heap p = some pd →
      pd.type = bpnode_type.NODE_INNER → ∀ a ∈ pd.children, ¬ D a →
      ∃ ip1 pd1, g1 p = some ip1 ∧ heap_get h1 p = some pd1 ∧
        pd1.type = bpnode_type.NODE_INNER ∧ a ∈ pd1.children)
    (hroot : ∀ a, ¬ D a → (some a = r1 ↔ some a = t.root))
    (hexc : ∀ a, ¬ D a → e ≠ some a)
    (hdirty : ∀ a i, D a → g1 a = some i →
      ∃ nd, heap_get h1 a = some nd ∧ NodeOK h1 g1 t.m r1 e1 sl1 sh1 a i nd) :
    ∀ a i, g1 a = some i →
      ∃ nd, heap_get h1 a = some nd ∧ NodeOK h1 g1 t.m r1 e1 sl1 sh1 a i nd := by
  intro a i ha
  by_cases hD : D a
  · exact hdirty a i hD ha
  · obtain ⟨hh, hg⟩ := hsame a hD
    rw [hg] at ha
    obtain ⟨nd, hnd, ok⟩ := hI.nodes a i ha
    refine ⟨nd, by rw [hh, hnd], ?_⟩
    refine ok.frame_node (hexc a hD) ?_ (hroot a hD) ?_
    · intro d c lo1 hi1 hc hco
      obtain ⟨hgc, cd, hcd, hcp⟩ := hco
      by_cases hDc : D c
      · rcases hpar c cd hDc (by rw [hgc]; simp) hcd with ⟨q1, cd1, q2, q3⟩ | q
        · exact ⟨by rw [q1, hgc], cd1, q2, by rw [q3, hcp]⟩
        · exact absurd (q a hcp) hD
      · obtain ⟨q1, q2⟩ := hsame c hDc
        exact ⟨by rw [q2, hgc], cd, by rw [q1, hcd], hcp⟩
    · intro p ip pd hp hpd hty hmem
      by_cases hDp : D p
      · exact hwit p pd hDp (by rw [hp]; simp) hpd hty a hmem hD
      · obtain ⟨q1, q2⟩ := hsame p hDp
        exact ⟨ip, pd, by rw [q2, hp], by rw [q1, hpd], hty, hmem⟩

/-! ### The leaf level under changes that keep keys, values and links -/

theorem Linked.frame_link {h h1 : List (Option (bpnode K V))} {g g1 : Nat → Option (Info K)}
    {a b : Nat} (hl : Linked h g a b)
    (ha : g1 a = g a) (hb : g1 b = g b)
    (hn : ∀ nd, heap_get h a = some nd → ∃ nd1, heap_get h1 a = some nd1 ∧ nd1.next = nd.next) :
    Linked h1 g1 a b := by
  obtain ⟨nd, ia, ib, q1, q2, q3, q4, q5⟩ := hl
  obtain ⟨nd1, r1, r2⟩ := hn nd q1
  exact ⟨nd1, ia, ib, r1, by rw [r2, q2], by rw [ha, q3], by rw [hb, q4], q5⟩

theorem chain_frame {h h1 : List (Option (bpnode K V))} {g g1 : Nat → Option (Info K)}
    {L : List Nat} (hc : L.Chain' (Linked h g))
    (hg : ∀ a ∈ L, g1 a = g a)
    (hn : ∀ a ∈ L, ∀ nd, heap_get h a = some nd →
      ∃ nd1, heap_get h1 a = some nd1 ∧ nd1.next = nd.next) :
    L.Chain' (Linked h1 g1) := by
  induction L with
  | nil => exact List.chain'_nil
  | cons a L ih =>
    cases L with
    | nil => exact List.chain'_singleton a
    | cons b L =>
      rw [List.chain'_cons] at hc ⊢
      refine ⟨hc.1.frame_link (hg a (by simp)) (hg b (by simp)) (hn a (by simp)), ?_⟩
      exact ih hc.2 (fun x hx => hg x (List.mem_cons_of_mem _ hx))
        (fun x hx => hn x (List.mem_cons_of_mem _ hx))

theorem flatMap_pairs_frame {h h1 : List (Option (bpnode K V))} {L : List Nat}
    (hp : ∀ a ∈ L, leaf_pairs h1 a = leaf_pairs h a) :
    L.flatMap (leaf_pairs h1) = L.flatMap (leaf_pairs h) := by
  induction L with
  | nil => rfl
  | cons a L ih =>
    simp only [List.flatMap_cons]
    rw [hp a (by simp), ih (fun x hx => hp x (List.mem_cons_of_mem _ hx))]

end rebuild

end BPlus

namespace BPlus

section kv
variable {K V : Type} [LinearOrder K]

/-! ### Association lists -/

theorem kv_insert_append_lt (k : K) (v : V) (A B : List (K × V))
    (hA : ∀ x ∈ A, x.1 < k) : kv_insert k v (A ++ B) = A ++ kv_insert k v B := by
  induction A with
  | nil => rfl
  | cons x A ih =>
    obtain ⟨k1, v1⟩ := x
    have h1 : k1 < k := hA (k1, v1) (by simp)
    have h2 : ¬ k < k1 := not_lt.2 (le_of_lt h1)
    have h3 : ¬ k = k1 := fun h => (ne_of_lt h1) h.symm
    simp only [List.cons_append, kv_insert, h2, h3, if_false]
    rw [List.append_eq, ih (fun y hy => hA y (List.mem_cons_of_mem _ hy))]

theorem kv_insert_append_gt (k : K) (v : V) (P B : List (K × V))
    (hB : ∀ x ∈ B, k < x.1) : kv_insert k v (P ++ B) = kv_insert k v P ++ B := by
  induction P with
  | nil =>
    cases B with
    | nil => rfl
    | cons y B =>
      obtain ⟨k1, v1⟩ := y
      have : k < k1 := hB (k1, v1) (by simp)
      simp [kv_insert, this]
  | cons x P ih =>
    obtain ⟨k1, v1⟩ := x
    simp only [List.cons_append, kv_insert]
    by_cases h1 : k < k1
    · simp [h1]
    · by_cases h2 : k = k1
      · simp [h1, h2]
      · simp [h1, h2, ih]

theorem kv_insert_zip_new (k : K) (v : V) :
    ∀ (ks : List K) (vs : List V), vs.length = ks.length → k ∉ ks →
      kv_insert k v (ks.zip vs) =
        (insert_at ks (upper_pos k ks) k).zip (insert_at vs (upper_pos k ks) v) := by
  intro ks
  induction ks with
  | nil =>
    intro vs hl _
    cases vs with
    | nil => simp [kv_insert, upper_pos, insert_at]
    | cons _ _ => simp at hl
  | cons k1 ks ih =>
    intro vs hl hk
    cases vs with
    | nil => simp at hl
    | cons v1 vs =>
      have hne : ¬ k = k1 := fun h => hk (by simp [h])
      have hk2 : k ∉ ks := fun h => hk (List.mem_cons_of_mem _ h)
      simp only [List.zip_cons_cons, kv_insert, upper_pos]
      by_cases h1 : k < k1
      · simp [h1, insert_at, List.zip]
      · simp only [h1, hne, if_false, insert_at, List.take_succ_cons, List.drop_succ_cons,
          List.cons_append, List.zip_cons_cons]
        have := ih vs (by simpa using hl) hk2
        simp only [insert_at, List.zip] at this ⊢
        rw [this]

theorem kv_insert_zip_old (k : K) (v : V) :
    ∀ (ks : List K) (vs : List V), vs.length = ks.length → k ∈ ks →
      ks.Pairwise (fun x y => x < y) →
      kv_insert k v (ks.zip vs) = ks.zip (vs.set (index_of k ks) v) := by
  intro ks
  induction ks with
  | nil => intro vs _ hk; simp at hk
  | cons k1 ks ih =>
    intro vs hl hk hs
    cases vs with
    | nil => simp at hl
    | cons v1 vs =>
      simp only [List.zip_cons_cons, kv_insert, index_of]
      by_cases h2 : k = k1
      · subst h2
        simp [List.zip]
      · have hk2 : k ∈ ks := by
          rcases List.mem_cons.1 hk with h | h
          · exact absurd h h2
          · exact h
        have h3 : k1 < k := List.rel_of_pairwise_cons hs hk2
        have h1 : ¬ k < k1 := not_lt.2 (le_of_lt h3)
        have h4 : ¬ k1 = k := fun h => h2 h.symm
        simp only [h1, h2, h4, if_false, List.set_cons_succ, List.zip_cons_cons]
        have := ih vs (by simpa using hl) hk2 (List.Pairwise.of_cons hs)
        simp only [List.zip] at this ⊢
        rw [this]

theorem kv_erase_id {k : K} {l : List (K × V)} (h : ∀ x ∈ l, x.1 ≠ k) : kv_erase k l = l := by
  unfold kv_erase
  rw [List.filter_eq_self]
  intro x hx
  simpa using h x hx

theorem kv_erase_append (k : K) (A B : List (K × V)) :
    kv_erase k (A ++ B) = kv_erase k A ++ kv_erase k B := by
  simp [kv_erase]

theorem kv_erase_zip (k : K) :
    ∀ (ks : List K) (vs : List V), vs.length = ks.length → k ∈ ks →
      ks.Pairwise (fun x y => x < y) →
      kv_erase k (ks.zip vs) =
        (ks.eraseIdx (index_of k ks)).zip (vs.eraseIdx (index_of k ks)) := by
  intro ks
  induction ks with
  | nil => intro vs _ hk; simp at hk
  | cons k1 ks ih =>
    intro vs hl hk hs
    cases vs with
    | nil => simp at hl
    | cons v1 vs =>
      simp only [List.zip_cons_cons, index_of]
      by_cases h2 : k1 = k
      · subst h2
        simp only [if_true, List.eraseIdx_cons_zero]
        have : ∀ x ∈ ks.zip vs, x.1 ≠ k1 := by
          intro x hx hxe
          have hm := (List.of_mem_zip hx).1
          rw [hxe] at hm
          exact absurd (List.rel_of_pairwise_cons hs hm) (lt_irrefl _)
        simp only [kv_erase, List.filter_cons]
        simp only [ne_eq, not_true_eq_false, decide_False, Bool.false_eq_true, if_false]
        exact kv_erase_id this
      · have hk2 : k ∈ ks := by
          rcases List.mem_cons.1 hk with h | h
          · exact absurd h.symm h2
          · exact h
        simp only [h2, if_false, List.eraseIdx_cons_succ, List.zip_cons_cons]
        have := ih vs (by simpa using hl) hk2 (List.Pairwise.of_cons hs)
        simp only [kv_erase, List.filter_cons] at this ⊢
        simp only [ne_eq, h2, not_false_eq_true, decide_True, if_true]
        rw [this]

theorem kv_lookup_insert (k k1 : K) (v : V) (l : List (K × V)) :
    kv_lookup k1 (kv_insert k v l) = if k1 = k then some v else kv_lookup k1 l := by
  induction l with
  | nil =>
    simp only [kv_insert, kv_lookup]
    by_cases h : k = k1
    · simp [h]
    · have : ¬ k1 = k := fun hh => h hh.symm
      simp [h, this]
  | cons x l ih =>
    obtain ⟨k2, v2⟩ := x
    simp only [kv_insert]
    by_cases h1 : k < k2
    · simp only [h1, if_true, kv_lookup]
      by_cases h : k = k1
      · simp [h]
      · have : ¬ k1 = k := fun hh => h hh.symm
        simp [h, this]
    · by_cases h2 : k = k2
      · subst h2
        simp only [h1, if_false, if_true, kv_lookup]
        by_cases h : k = k1
        · simp [h]
        · have : ¬ k1 = k := fun hh => h hh.symm
          simp [h, this]
      · simp only [h1, h2, if_false, kv_lookup, ih]
        by_cases h : k2 = k1
        · have : ¬ k1 = k := fun hh => h2 (by rw [← hh, h])
          simp [h, this]
        · simp [h]

theorem kv_lookup_erase (k k1 : K) (l : List (K × V)) :
    kv_lookup k1 (kv_erase k l) = if k1 = k then none else kv_lookup k1 l := by
  induction l with
  | nil => simp [kv_erase, kv_lookup]
  | cons x l ih =>
    obtain ⟨k2, v2⟩ := x
    simp only [kv_erase, List.filter_cons] at ih ⊢
    by_cases h2 : k2 = k
    · subst h2
      simp only [ne_eq, not_true_eq_false, decide_False, Bool.false_eq_true, if_false, ih,
        kv_lookup]
      by_cases h : k1 = k2
      · simp [h]
      · have : ¬ k2 = k1 := fun hh => h hh.symm
        simp [h, this]
    · simp only [ne_eq, h2, not_false_eq_true, decide_True, if_true, kv_lookup, ih]
      by_cases h : k2 = k1
      · have : ¬ k1 = k := fun hh => h2 (by rw [h, hh])
        simp [h, this]
      · simp [h]

end kv

end BPlus

namespace BPlus

section leaf
variable {K V : Type} [LinearOrder K]

/-! ### Changing the content of one leaf -/

theorem leaf_pairs_congr {h h1 : List (Option (bpnode K V))} {a : Nat}
    (hh : heap_get h1 a = heap_get h a) : leaf_pairs h1 a = leaf_pairs h a := by
  simp only [leaf_pairs, hh]

/-- The abstract content splits around the pairs of a leaf `b`; what lies
before is below the interval of `b`, what lies after is above it. -/
theorem InvX.kv_split {t : bptree K V} {g : Nat → Option (Info K)} {L : List Nat}
    {kv : List (K × V)} {e : Option Nat} {sl sh : Nat} (hI : InvX t g L kv e sl sh)
    {b : Nat} {ib : Info K} (hb : g b = some ib) (hbL : b ∈ L) :
    ∃ A B, kv = A ++ leaf_pairs t.heap b ++ B ∧
      (∀ x ∈ A, bnd x.1 < ib.lo) ∧ (∀ x ∈ B, ib.hi ≤ bnd x.1) ∧
      ∀ h1 : List (Option (bpnode K V)),
        (∀ a, a ≠ b → heap_get h1 a = heap_get t.heap a) →
        L.flatMap (leaf_pairs h1) = A ++ leaf_pairs h1 b ++ B := by
  obtain ⟨L1, L2, hL⟩ := List.append_of_mem hbL
  have hord := hI.leaf_order
  have hnd := hI.leaf_nodup
  rw [hL] at hord hnd
  have hsplit := List.pairwise_append.1 hord
  have hb1 : b ∉ L1 := by
    intro hm
    have := (List.nodup_append.1 hnd).2.2
    exact this hm (by simp)
  have hb2 : b ∉ L2 := by
    have := (List.nodup_append.1 hnd).2.1
    exact (List.nodup_cons.1 this).1
  refine ⟨L1.flatMap (leaf_pairs t.heap), L2.flatMap (leaf_pairs t.heap), ?_, ?_, ?_, ?_⟩
  · rw [hI.kv_eq, hL]
    simp [List.flatMap_append]
  · intro x hx
    obtain ⟨a, haL, hxa⟩ := List.mem_flatMap.1 hx
    obtain ⟨ia, ib1, q1, q2, q3⟩ := hsplit.2.2 a haL b (by simp)
    rw [hb] at q2
    cases q2
    obtain ⟨i, nd, r1, r2, _, ok⟩ := hI.leaf_info (a := a) (by rw [hL]; simp [haL])
    rw [q1] at r1
    cases r1
    exact lt_of_lt_of_le (ok.hib _ (leaf_pairs_fst r2 hxa)) q3
  · intro x hx
    obtain ⟨a, haL, hxa⟩ := List.mem_flatMap.1 hx
    have hp2 := List.pairwise_cons.1 hsplit.2.1
    obtain ⟨ib1, ia, q1, q2, q3⟩ := hp2.1 a haL
    rw [hb] at q1
    cases q1
    obtain ⟨i, nd, r1, r2, _, ok⟩ := hI.leaf_info (a := a) (by rw [hL]; simp [haL])
    rw [q2] at r1
    cases r1
    exact le_trans q3 (ok.lob _ (leaf_pairs_fst r2 hxa))
  · intro h1 hh
    rw [hL]
    simp only [List.flatMap_append, List.flatMap_cons, List.append_assoc]
    rw [flatMap_pairs_frame (L := L1) (fun a ha => leaf_pairs_congr (hh a (fun h => hb1 (h ▸ ha)))),
      flatMap_pairs_frame (L := L2) (fun a ha => leaf_pairs_congr (hh a (fun h => hb2 (h ▸ ha))))]

/-- Replacing the keys and values of a live leaf keeps the invariant, with
the occupancy of that leaf judged afresh. -/
theorem InvX.update_leaf {t : bptree K V} {g : Nat → Option (Info K)} {L : List Nat}
    {kv : List (K × V)} {e : Option Nat} {sl sh : Nat} (hI : InvX t g L kv e sl sh)
    {b : Nat} {ib : Info K} {nb : bpnode K V} (hb : g b = some ib)
    (hnb : heap_get t.heap b = some nb) (hty : nb.type = bpnode_type.NODE_LEAF)
    (he : ∀ a, a ≠ b → e ≠ some a)
    (nb1 : bpnode K V) (ht1 : nb1.type = nb.type) (hp1 : nb1.parent = nb.parent)
    (hn1 : nb1.next = nb.next) (e1 : Option Nat) (sl1 sh1 : Nat)
    (hnk : nb1.num_keys = (nb1.keys.length : Int))
    (hsorted : nb1.keys.Pairwise (fun x y => x < y))
    (hlob : ∀ k ∈ nb1.keys, ib.lo ≤ bnd k) (hhib : ∀ k ∈ nb1.keys, bnd k < ib.hi)
    (hvals : nb1.values.length = nb1.keys.length)
    (hocc_hi : nb1.keys.length < t.m + (if e1 = some b then sh1 else 0))
    (hocc_lo : some b ≠ t.root →
      (t.m - 1) / 2 ≤ nb1.keys.length + (if e1 = some b then sl1 else 0))
    (hocc_in : 1 ≤ nb1.keys.length + (if e1 = some b then sl1 else 0)) :
    InvX { t with heap := heap_set t.heap b nb1 } g L
      (L.flatMap (leaf_pairs (heap_set t.heap b nb1))) e1 sl1 sh1 := by
  obtain ⟨nb0, q0, okb⟩ := hI.nodes b ib hb
  rw [hnb] at q0
  cases q0
  have hget : ∀ a, a ≠ b → heap_get (heap_set t.heap b nb1) a = heap_get t.heap a :=
    fun a ha => heap_get_set_ne nb1 (Ne.symm ha)
  have hgetb : heap_get (heap_set t.heap b nb1) b = some nb1 := heap_get_set_eq nb1 hnb
  have hnodes := hI.rebuild (heap_set t.heap b nb1) g t.root e1 sl1 sh1 (fun a => a = b)
    (fun a ha => ⟨hget a ha, rfl⟩)
    (by
      intro c cd hc _ hcd
      subst hc
      rw [hnb] at hcd
      cases hcd
      exact Or.inl ⟨rfl, nb1, hgetb, hp1⟩)
    (by
      intro p pd hp _ hpd hpty
      subst hp
      rw [hnb] at hpd
      cases hpd
      rw [hty] at hpty
      cases hpty)
    (fun a _ => Iff.rfl)
    (fun a ha => he a ha)
    (by
      intro a i ha hga
      subst ha
      rw [hb] at hga
      cases hga
      refine ⟨nb1, hgetb, ?_⟩
      refine ⟨hnk, okb.lohi, hsorted, hlob, hhib, Or.inl (by rw [ht1, hty]), ?_, ?_, ?_, ?_,
        hocc_hi, hocc_lo, hocc_in⟩
      · intro _
        exact ⟨(okb.leaf hty).1, hvals⟩
      · intro h
        rw [ht1, hty] at h
        cases h
      · intro hne
        obtain ⟨p, ip, pd, r1, r2, r3, r4⟩ := okb.up hne
        have hpb : p ≠ a := by
          intro hpa
          subst hpa
          rw [hnb] at r2
          cases r2
          rw [hty] at r3
          cases r3
        exact ⟨p, ip, pd, r1, by rw [hget p hpb, r2], r3, r4⟩
      · intro h
        rw [hp1]
        exact okb.uproot h)
  refine ⟨hI.m3, hI.m16, hnodes, hI.root_none, hI.root_some, ?_, ?_, ?_, ?_, rfl⟩
  · simpa using hI.depth_le
  · refine chain_frame hI.chain (fun _ _ => rfl) ?_
    intro a _ nd hnd
    by_cases hab : a = b
    · subst hab
      rw [hnb] at hnd
      cases hnd
      exact ⟨nb1, hgetb, hn1⟩
    · exact ⟨nd, by rw [hget a hab, hnd], rfl⟩
  · intro a ha
    obtain ⟨nd, r1, r2⟩ := hI.last a ha
    by_cases hab : a = b
    · subst hab
      rw [hnb] at r1
      cases r1
      exact ⟨nb1, hgetb, by rw [hn1, r2]⟩
    · exact ⟨nd, by rw [hget a hab, r1], r2⟩
  · intro a
    rw [hI.leaves a]
    by_cases hab : a = b
    · subst hab
      constructor
      · rintro ⟨i, nd, r1, r2, r3⟩
        exact ⟨i, nb1, r1, hgetb, by rw [ht1, hty]⟩
      · rintro ⟨i, nd, r1, r2, r3⟩
        exact ⟨i, nb, r1, hnb, hty⟩
    · simp only [heap_get_set_ne nb1 (Ne.symm hab)]

end leaf

end BPlus

namespace BPlus

section exec
variable {K V : Type} [LinearOrder K]

/-! ### What the node-level procedures compute -/

theorem dyn_inner_some {h : List (Option (bpnode K V))} {a : Nat} {nd : bpnode K V}
    (hn : heap_get h a = some nd) (ht : nd.type = bpnode_type.NODE_INNER) :
    dyn_inner h (some a) = some (some a) := by
  simp [dyn_inner, hn, ht]

theorem dyn_leaf_some {h : List (Option (bpnode K V))} {a : Nat} {nd : bpnode K V}
    (hn : heap_get h a = some nd) (ht : nd.type = bpnode_type.NODE_LEAF) :
    dyn_leaf h (some a) = some (some a) := by
  simp [dyn_leaf, hn, ht]

theorem SibCtx.mem_children {h : List (Option (bpnode K V))} {n p i : Nat} {nd pd : bpnode K V}
    (c : SibCtx h n p i nd pd) : n ∈ pd.children := by
  obtain ⟨hl, he⟩ := List.getElem?_eq_some.1 c.hi
  exact he ▸ List.getElem_mem hl

theorem SibCtx.lt {h : List (Option (bpnode K V))} {n p i : Nat} {nd pd : bpnode K V}
    (c : SibCtx h n p i nd pd) : i ≤ pd.keys.length := by
  have := (List.getElem?_eq_some.1 c.hi).1
  have := c.hl
  omega

theorem SibCtx.child_index {h : List (Option (bpnode K V))} {n p i : Nat} {nd pd : bpnode K V}
    (c : SibCtx h n p i nd pd) : child_index pd n = some i := by
  rw [child_index_eq (by rw [c.hk, c.hl]; push_cast; ring) c.mem_children, c.hidx]

theorem SibCtx.get_sibling {h : List (Option (bpnode K V))} {n p i : Nat} {nd pd : bpnode K V}
    (c : SibCtx h n p i nd pd) :
    get_sibling h n = some (left_of pd i, right_of pd i) := by
  have hil := c.lt
  have hl := c.hl
  have h1 : ¬ pd.num_keys < (i : Int) := by rw [c.hk]; push_cast; omega
  have hR : (if (i : Int) = pd.num_keys then (some none : Option (Option Nat))
      else (pd.children[i + 1]?).map some) = some (right_of pd i) := by
    unfold right_of
    by_cases hie : i = pd.keys.length
    · have : (i : Int) = pd.num_keys := by rw [c.hk, hie]
      rw [if_pos this, if_pos hie]
    · have : ¬ (i : Int) = pd.num_keys := by rw [c.hk]; exact_mod_cast hie
      have hlt : i + 1 < pd.children.length := by omega
      simp [this, hie, List.getElem?_eq_getElem hlt]
  have hL : (if i = 0 then (some none : Option (Option Nat))
      else (pd.children[i - 1]?).map some) = some (left_of pd i) := by
    unfold left_of
    by_cases hie : i = 0
    · simp [hie]
    · have hlt : i - 1 < pd.children.length := by omega
      simp [hie, List.getElem?_eq_getElem hlt]
  simp only [BPlus.get_sibling, c.hn, c.hpar, dyn_inner_some c.hp c.hpt, c.hp, c.child_index,
    h1, hL, hR, if_false]

/-- The loop that re-parents a list of allocated nodes. -/
theorem set_parents_spec (p : Option Nat) :
    ∀ (cs : List Nat) (h : List (Option (bpnode K V))),
      (∀ c ∈ cs, ∃ cd, heap_get h c = some cd) →
      ∃ h1, set_parents h cs p = some h1 ∧ h1.length = h.length ∧
        ∀ x, heap_get h1 x =
          (heap_get h x).map (fun nd => if x ∈ cs then { nd with parent := p } else nd) := by
  intro cs
  induction cs with
  | nil =>
    intro h _
    refine ⟨h, rfl, rfl, ?_⟩
    intro x
    cases heap_get h x <;> simp
  | cons c cs ih =>
    intro h hall
    obtain ⟨cd, hcd⟩ := hall c (by simp)
    have hall2 : ∀ c1 ∈ cs, ∃ cd1, heap_get (heap_set h c { cd with parent := p }) c1 = some cd1 := by
      intro c1 hc1
      obtain ⟨cd1, h1⟩ := hall c1 (List.mem_cons_of_mem _ hc1)
      by_cases hcc : c = c1
      · subst hcc
        exact ⟨_, heap_get_set_eq _ hcd⟩
      · exact ⟨cd1, by rw [heap_get_set_ne _ hcc, h1]⟩
    obtain ⟨h1, q1, q2, q3⟩ := ih _ hall2
    refine ⟨h1, by simp only [set_parents, hcd, q1], by rw [q2]; simp, ?_⟩
    intro x
    rw [q3 x]
    by_cases hxc : c = x
    · subst hxc
      rw [heap_get_set_eq _ hcd, hcd]
      by_cases hm : c ∈ cs <;> simp [hm]
    · rw [heap_get_set_ne _ hxc]
      have : x ≠ c := fun hh => hxc hh.symm
      cases heap_get h x <;> simp [this]

end exec

end BPlus

namespace BPlus

section execleaf
variable {K V : Type} [LinearOrder K]

theorem heap_get_set_if {h : List (Option (bpnode K V))} {a : Nat} (v : bpnode K V) (x : Nat)
    (ha : a < h.length) :
    heap_get (heap_set h a v) x = if x = a then some v else heap_get h x := by
  rw [heap_get_set]
  by_cases hx : x = a
  · subst hx; simp [ha]
  · have : ¬ a = x := fun hh => hx hh.symm
    simp [hx, this]

theorem heap_get_free_if (h : List (Option (bpnode K V))) (a x : Nat) :
    heap_get (heap_free h a) x = if x = a then none else heap_get h x := by
  rw [heap_get_free]
  by_cases hx : x = a
  · subst hx; simp
  · have : ¬ a = x := fun hh => hx hh.symm
    simp [hx, this]

theorem leaf_borrow_left_eq {h : List (Option (bpnode K V))} {n s : Nat} {nd sd : bpnode K V}
    {kb : K} {vb : V}
    (hn : heap_get h n = some nd) (hs : heap_get h s = some sd) (hne : n ≠ s)
    (hk : sd.keys.getLast? = some kb) (hv : sd.values.getLast? = some vb) :
    leaf_borrow_left h n s = some (heap_set (heap_set h n
        { nd with keys := kb :: nd.keys, values := vb :: nd.values,
                  num_keys := wrap16 (nd.num_keys + 1) }) s
        { sd with keys := sd.keys.dropLast, values := sd.values.dropLast,
                  num_keys := wrap16 (sd.num_keys - 1) }) := by
  simp only [leaf_borrow_left, hn, hs, hk, hv, heap_get_set_ne _ hne]

theorem leaf_borrow_right_eq {h : List (Option (bpnode K V))} {n s : Nat} {nd sd : bpnode K V}
    {k0 : K} {v0 : V}
    (hn : heap_get h n = some nd) (hs : heap_get h s = some sd) (hne : n ≠ s)
    (hk : sd.keys[0]? = some k0) (hv : sd.values[0]? = some v0) :
    leaf_borrow_right h n s = some (heap_set (heap_set h n
        { nd with keys := nd.keys ++ [k0], values := nd.values ++ [v0],
                  num_keys := wrap16 (nd.num_keys + 1) }) s
        { sd with keys := sd.keys.tail, values := sd.values.tail,
                  num_keys := wrap16 (sd.num_keys - 1) }) := by
  have h1 : ¬ (sd.keys.length = 0 ∨ sd.values.length = 0) := by
    have a1 := (List.getElem?_eq_some.1 hk).1
    have a2 := (List.getElem?_eq_some.1 hv).1
    omega
  simp only [leaf_borrow_right, hn, hs, hk, hv, heap_get_set_ne _ hne, h1, if_false]

/-- Borrow from the left leaf: the outcome of `leaf_repair`. -/
theorem leaf_repair_borrow_left {t : bptree K V} {n p i s : Nat} {nd pd sd : bpnode K V}
    {rc : Int} {kb : K} {vb : V}
    (c : SibCtx t.heap n p i nd pd)
    (hl : left_of pd i = some s) (hsd : heap_get t.heap s = some sd)
    (hst : sd.type = bpnode_type.NODE_LEAF) (hsn : s ≠ n) (hsp : s ≠ p)
    (hrc : node_count t.heap (right_of pd i) = some rc)
    (hcond : min_limits t.m < sd.num_keys ∨ min_limits t.m < rc) (hle : rc ≤ sd.num_keys)
    (hk : sd.keys.getLast? = some kb) (hv : sd.values.getLast? = some vb) :
    ∃ h1, leaf_repair t n p i = some { t with heap := h1 } ∧ h1.length = t.heap.length ∧
      ∀ x, heap_get h1 x =
        if x = p then some { pd with keys := pd.keys.set (i - 1) kb }
        else if x = s then some { sd with keys := sd.keys.dropLast,
                                          values := sd.values.dropLast,
                                          num_keys := wrap16 (sd.num_keys - 1) }
        else if x = n then some { nd with keys := kb :: nd.keys, values := vb :: nd.values,
                                          num_keys := wrap16 (nd.num_keys + 1) }
        else heap_get t.heap x := by
  have hi0 : i ≠ 0 := by
    intro h0
    simp [left_of, h0] at hl
  have hil := c.lt
  have hlt : i - 1 < pd.keys.length := by omega
  have hn := c.hn
  have hp := c.hp
  have hnp := c.hnp
  have e1 := leaf_borrow_left_eq hn hsd (Ne.symm hsn) hk hv
  refine ⟨heap_set (heap_set (heap_set t.heap n
        { nd with keys := kb :: nd.keys, values := vb :: nd.values,
                  num_keys := wrap16 (nd.num_keys + 1) }) s
        { sd with keys := sd.keys.dropLast, values := sd.values.dropLast,
                  num_keys := wrap16 (sd.num_keys - 1) }) p
        { pd with keys := pd.keys.set (i - 1) kb }, ?_, by simp, ?_⟩
  · have hlc : node_count t.heap (some s) = some sd.num_keys := by simp [node_count, hsd]
    simp only [leaf_repair, c.get_sibling, hl, hlc, hrc]
    have hc2 : ((((t.m - 1) / 2 : Nat) : Int) < sd.num_keys ∨ (((t.m - 1) / 2 : Nat) : Int) < rc) :=
      hcond
    simp only [hc2, hle, if_true, dyn_leaf_some hsd hst, e1]
    rw [heap_get_set_ne _ hsn, heap_get_set_eq _ hn,
      heap_get_set_ne _ hsp, heap_get_set_ne _ hnp, hp]
    simp only [List.getElem?_cons_zero, hi0, if_false, set_at, hlt, if_true]
  · intro x
    rw [heap_get_set_if _ _ (by simpa using heap_get_lt hp),
      heap_get_set_if _ _ (by simpa using heap_get_lt hsd),
      heap_get_set_if _ _ (heap_get_lt hn)]

/-- Borrow from the right leaf: the outcome of `leaf_repair`. -/
theorem leaf_repair_borrow_right {t : bptree K V} {n p i s : Nat} {nd pd sd : bpnode K V}
    {lc : Int} {k0 k1 : K} {v0 : V}
    (c : SibCtx t.heap n p i nd pd)
    (hr : right_of pd i = some s) (hsd : heap_get t.heap s = some sd)
    (hst : sd.type = bpnode_type.NODE_LEAF) (hsn : s ≠ n) (hsp : s ≠ p)
    (hlc : node_count t.heap (left_of pd i) = some lc)
    (hcond : min_limits t.m < lc ∨ min_limits t.m < sd.num_keys) (hlt : lc < sd.num_keys)
    (hk : sd.keys[0]? = some k0) (hv : sd.values[0]? = some v0)
    (hk1 : sd.keys[1]? = some k1) :
    ∃ h1, leaf_repair t n p i = some { t with heap := h1 } ∧ h1.length = t.heap.length ∧
      ∀ x, heap_get h1 x =
        if x = p then some { pd with keys := pd.keys.set i k1 }
        else if x = s then some { sd with keys := sd.keys.tail,
                                          values := sd.values.tail,
                                          num_keys := wrap16 (sd.num_keys - 1) }
        else if x = n then some { nd with keys := nd.keys ++ [k0], values := nd.values ++ [v0],
                                          num_keys := wrap16 (nd.num_keys + 1) }
        else heap_get t.heap x := by
  have hil := c.lt
  have hik : i < pd.keys.length := by
    by_contra hc
    have : i = pd.keys.length := by omega
    simp [right_of, this] at hr
  have hn := c.hn
  have hp := c.hp
  have hnp := c.hnp
  have e1 := leaf_borrow_right_eq hn hsd (Ne.symm hsn) hk hv
  refine ⟨heap_set (heap_set (heap_set t.heap n
        { nd with keys := nd.keys ++ [k0], values := nd.values ++ [v0],
                  num_keys := wrap16 (nd.num_keys + 1) }) s
        { sd with keys := sd.keys.tail, values := sd.values.tail,
                  num_keys := wrap16 (sd.num_keys - 1) }) p
        { pd with keys := pd.keys.set i k1 }, ?_, by simp, ?_⟩
  · have hrc : node_count t.heap (some s) = some sd.num_keys := by simp [node_count, hsd]
    simp only [leaf_repair, c.get_sibling, hr, hlc, hrc]
    have hc2 : ((((t.m - 1) / 2 : Nat) : Int) < lc ∨ (((t.m - 1) / 2 : Nat) : Int) < sd.num_keys) :=
      hcond
    have hle : ¬ sd.num_keys ≤ lc := not_le.2 hlt
    simp only [hc2, hle, if_true, if_false, dyn_leaf_some hsd hst, e1]
    rw [heap_get_set_eq _ (by rw [heap_get_set_ne _ (Ne.symm hsn), hsd]),
      heap_get_set_ne _ hsp, heap_get_set_ne _ hnp, hp]
    have : sd.keys.tail[0]? = some k1 := by
      rw [← List.drop_one, List.getElem?_drop]
      exact hk1
    simp only [this, set_at, hik, if_true]
  · intro x
    rw [heap_get_set_if _ _ (by simpa using heap_get_lt hp),
      heap_get_set_if _ _ (by simpa using heap_get_lt hsd),
      heap_get_set_if _ _ (heap_get_lt hn)]

/-- The outcome of `leaf_merge_left`: the left sibling `s` absorbs `n`. -/
theorem leaf_merge_left_eq {h : List (Option (bpnode K V))} {n p i s : Nat}
    {nd pd sd : bpnode K V}
    (c : SibCtx h n p i nd pd) (hi0 : 0 < i)
    (hsd : heap_get h s = some sd) (hsn : s ≠ n) (hsp : s ≠ p) :
    ∃ h1, leaf_merge_left h n s = some (h1, p) ∧ h1.length = h.length ∧
      ∀ x, heap_get h1 x =
        if x = n then none
        else if x = s then some { sd with keys := sd.keys ++ nd.keys,
                                          values := sd.values ++ nd.values,
                                          num_keys := wrap16 (sd.num_keys + nd.num_keys),
                                          next := nd.next }
        else if x = p then some { pd with children := pd.children.eraseIdx i,
                                          keys := pd.keys.eraseIdx (i - 1),
                                          num_keys := wrap16 (pd.num_keys - 1) }
        else heap_get h x := by
  have hil := c.lt
  have hl := c.hl
  have hn := c.hn
  have hp := c.hp
  have hnp := c.hnp
  have hcond : ¬ (i = 0 ∨ pd.children.length ≤ i ∨ pd.keys.length ≤ i - 1) := by omega
  refine ⟨heap_free (heap_set (heap_set (heap_set h s
        { sd with keys := sd.keys ++ nd.keys, values := sd.values ++ nd.values,
                  num_keys := wrap16 (sd.num_keys + nd.num_keys) }) p
        { pd with children := pd.children.eraseIdx i, keys := pd.keys.eraseIdx (i - 1),
                  num_keys := wrap16 (pd.num_keys - 1) }) s
        { sd with keys := sd.keys ++ nd.keys, values := sd.values ++ nd.values,
                  num_keys := wrap16 (sd.num_keys + nd.num_keys), next := nd.next }) n,
    ?_, by simp, ?_⟩
  · simp only [leaf_merge_left, hn, c.hpar, dyn_inner_some hp c.hpt, hsd]
    rw [heap_get_set_ne _ hsp, hp]
    simp only [c.hidx, hcond, if_false]
    rw [heap_get_set_ne _ (Ne.symm hsp), heap_get_set_eq _ hsd,
      heap_get_set_ne _ (Ne.symm hnp), heap_get_set_ne _ hsn, hn]
  · intro x
    rw [heap_get_free_if, heap_get_set_if _ _ (by simpa using heap_get_lt hsd),
      heap_get_set_if _ _ (by simpa using heap_get_lt hp),
      heap_get_set_if _ _ (heap_get_lt hsd)]
    by_cases hxn : x = n
    · simp [hxn]
    · by_cases hxs : x = s
      · simp [hxn, hxs]
      · simp [hxn, hxs]

/-- The outcome of `leaf_merge_right`: `n` absorbs its right sibling `s`. -/
theorem leaf_merge_right_eq {h : List (Option (bpnode K V))} {n p i s : Nat}
    {nd pd sd : bpnode K V} {k0 : K}
    (c : SibCtx h n p i nd pd) (hik : i < pd.keys.length)
    (hsd : heap_get h s = some sd) (hsn : s ≠ n) (hsp : s ≠ p)
    (hk0 : (nd.keys ++ sd.keys)[0]? = some k0) :
    ∃ h1, leaf_merge_right h n s = some (h1, p) ∧ h1.length = h.length ∧
      ∀ x, heap_get h1 x =
        if x = s then none
        else if x = n then some { nd with keys := nd.keys ++ sd.keys,
                                          values := nd.values ++ sd.values,
                                          num_keys := wrap16 (nd.num_keys + sd.num_keys),
                                          next := sd.next }
        else if x = p then some { pd with children := pd.children.eraseIdx (i + 1),
                                          keys := if 0 < i then (pd.keys.eraseIdx i).set (i - 1) k0
                                                  else pd.keys.eraseIdx i,
                                          num_keys := wrap16 (pd.num_keys - 1) }
        else heap_get h x := by
  have hl := c.hl
  have hn := c.hn
  have hp := c.hp
  have hnp := c.hnp
  have hc1 : ¬ pd.num_keys ≤ (i : Int) := by rw [c.hk]; push_cast; omega
  have hc2 : ¬ (pd.children.length ≤ i + 1 ∨ pd.keys.length ≤ i) := by omega
  by_cases hi0 : 0 < i
  · have hlen : i - 1 < (pd.keys.eraseIdx i).length := by
      rw [List.length_eraseIdx]; simp [hik]; omega
    refine ⟨heap_free (heap_set (heap_set (heap_set (heap_set h n
          { nd with keys := nd.keys ++ sd.keys, values := nd.values ++ sd.values,
                    num_keys := wrap16 (nd.num_keys + sd.num_keys) }) p
          { pd with children := pd.children.eraseIdx (i + 1), keys := pd.keys.eraseIdx i,
                    num_keys := wrap16 (pd.num_keys - 1) }) p
          { pd with children := pd.children.eraseIdx (i + 1),
                    keys := (pd.keys.eraseIdx i).set (i - 1) k0,
                    num_keys := wrap16 (pd.num_keys - 1) }) n
          { nd with keys := nd.keys ++ sd.keys, values := nd.values ++ sd.values,
                    num_keys := wrap16 (nd.num_keys + sd.num_keys), next := sd.next }) s,
      ?_, by simp, ?_⟩
    · simp only [leaf_merge_right, hn, c.hpar, dyn_inner_some hp c.hpt, hp, c.child_index,
        hc1, if_false, hsd]
      rw [heap_get_set_ne _ hnp, hp]
      simp only [hc2, if_false, hi0, if_true]
      rw [heap_get_set_ne _ (Ne.symm hnp), heap_get_set_eq _ hn,
        heap_get_set_eq _ (by rw [heap_get_set_ne _ hnp, hp])]
      simp only [hk0, set_at, hlen, if_true]
      rw [heap_get_set_ne _ (Ne.symm hnp), heap_get_set_ne _ (Ne.symm hnp),
        heap_get_set_eq _ hn, heap_get_set_ne _ (Ne.symm hsp), heap_get_set_ne _ (Ne.symm hsp),
        heap_get_set_ne _ (Ne.symm hsn), hsd]
    · intro x
      rw [heap_get_free_if, heap_get_set_if _ _ (by simpa using heap_get_lt hn),
        heap_get_set_if _ _ (by simpa using heap_get_lt hp),
        heap_get_set_if _ _ (by simpa using heap_get_lt hp),
        heap_get_set_if _ _ (heap_get_lt hn)]
      by_cases hxs : x = s
      · simp [hxs]
      · by_cases hxn : x = n
        · simp [hxs, hxn]
        · by_cases hxp : x = p
          · simp [hxs, hxn, hxp, hi0]
          · simp [hxs, hxn, hxp]
  · refine ⟨heap_free (heap_set (heap_set (heap_set h n
          { nd with keys := nd.keys ++ sd.keys, values := nd.values ++ sd.values,
                    num_keys := wrap16 (nd.num_keys + sd.num_keys) }) p
          { pd with children := pd.children.eraseIdx (i + 1), keys := pd.keys.eraseIdx i,
                    num_keys := wrap16 (pd.num_keys - 1) }) n
          { nd with keys := nd.keys ++ sd.keys, values := nd.values ++ sd.values,
                    num_keys := wrap16 (nd.num_keys + sd.num_keys), next := sd.next }) s,
      ?_, by simp, ?_⟩
    · simp only [leaf_merge_right, hn, c.hpar, dyn_inner_some hp c.hpt, hp, c.child_index,
        hc1, if_false, hsd]
      rw [heap_get_set_ne _ hnp, hp]
      simp only [hc2, if_false, hi0]
      rw [heap_get_set_ne _ (Ne.symm hnp), heap_get_set_eq _ hn,
        heap_get_set_ne _ (Ne.symm hsp), heap_get_set_ne _ (Ne.symm hsn), hsd]
    · intro x
      rw [heap_get_free_if, heap_get_set_if _ _ (by simpa using heap_get_lt hn),
        heap_get_set_if _ _ (by simpa using heap_get_lt hp),
        heap_get_set_if _ _ (heap_get_lt hn)]
      by_cases hxs : x = s
      · simp [hxs]
      · by_cases hxn : x = n
        · simp [hxs, hxn]
        · by_cases hxp : x = p
          · simp [hxs, hxn, hxp, hi0]
          · simp [hxs, hxn, hxp]

end execleaf

end BPlus

namespace BPlus

section execinner
variable {K V : Type} [LinearOrder K]

/-- Merge with the left leaf: `leaf_repair` continues with the parent. -/
theorem leaf_repair_merge_left {t : bptree K V} {n p i s : Nat} {nd pd sd : bpnode K V}
    {rc : Int}
    (c : SibCtx t.heap n p i nd pd)
    (hl : left_of pd i = some s) (hsd : heap_get t.heap s = some sd)
    (hst : sd.type = bpnode_type.NODE_LEAF) (hsn : s ≠ n) (hsp : s ≠ p)
    (hrc : node_count t.heap (right_of pd i) = some rc)
    (hcond : ¬ (min_limits t.m < sd.num_keys ∨ min_limits t.m < rc)) (hlt : rc < sd.num_keys) :
    ∃ h1, leaf_repair t n p i =
        check_inner_node_size (t.heap.length + 1) { t with heap := h1 } p ∧
      h1.length = t.heap.length ∧
      ∀ x, heap_get h1 x =
        if x = n then none
        else if x = s then some { sd with keys := sd.keys ++ nd.keys,
                                          values := sd.values ++ nd.values,
                                          num_keys := wrap16 (sd.num_keys + nd.num_keys),
                                          next := nd.next }
        else if x = p then some { pd with children := pd.children.eraseIdx i,
                                          keys := pd.keys.eraseIdx (i - 1),
                                          num_keys := wrap16 (pd.num_keys - 1) }
        else heap_get t.heap x := by
  have hi0 : 0 < i := by
    by_contra h0
    have : i = 0 := by omega
    simp [left_of, this] at hl
  obtain ⟨h1, e1, e2, e3⟩ := leaf_merge_left_eq c hi0 hsd hsn hsp
  refine ⟨h1, ?_, e2, e3⟩
  have hlc : node_count t.heap (some s) = some sd.num_keys := by simp [node_count, hsd]
  simp only [leaf_repair, c.get_sibling, hl, hlc, hrc]
  have hc2 : ¬ ((((t.m - 1) / 2 : Nat) : Int) < sd.num_keys ∨ (((t.m - 1) / 2 : Nat) : Int) < rc) :=
    hcond
  simp only [hc2, if_false, hlt, if_true, dyn_leaf_some hsd hst, e1]

/-- Merge with the right leaf: `leaf_repair` continues with the parent. -/
theorem leaf_repair_merge_right {t : bptree K V} {n p i s : Nat} {nd pd sd : bpnode K V}
    {lc : Int} {k0 : K}
    (c : SibCtx t.heap n p i nd pd)
    (hr : right_of pd i = some s) (hsd : heap_get t.heap s = some sd)
    (hst : sd.type = bpnode_type.NODE_LEAF) (hsn : s ≠ n) (hsp : s ≠ p)
    (hlc : node_count t.heap (left_of pd i) = some lc)
    (hcond : ¬ (min_limits t.m < lc ∨ min_limits t.m < sd.num_keys)) (hle : ¬ sd.num_keys < lc)
    (hk0 : (nd.keys ++ sd.keys)[0]? = some k0) :
    ∃ h1, leaf_repair t n p i =
        check_inner_node_size (t.heap.length + 1) { t with heap := h1 } p ∧
      h1.length = t.heap.length ∧
      ∀ x, heap_get h1 x =
        if x = s then none
        else if x = n then some { nd with keys := nd.keys ++ sd.keys,
                                          values := nd.values ++ sd.values,
                                          num_keys := wrap16 (nd.num_keys + sd.num_keys),
                                          next := sd.next }
        else if x = p then some { pd with children := pd.children.eraseIdx (i + 1),
                                          keys := if 0 < i then (pd.keys.eraseIdx i).set (i - 1) k0
                                                  else pd.keys.eraseIdx i,
                                          num_keys := wrap16 (pd.num_keys - 1) }
        else heap_get t.heap x := by
  have hil := c.lt
  have hik : i < pd.keys.length := by
    by_contra hc
    have : i = pd.keys.length := by omega
    simp [right_of, this] at hr
  obtain ⟨h1, e1, e2, e3⟩ := leaf_merge_right_eq c hik hsd hsn hsp hk0
  refine ⟨h1, ?_, e2, e3⟩
  have hrc : node_count t.heap (some s) = some sd.num_keys := by simp [node_count, hsd]
  simp only [leaf_repair, c.get_sibling, hr, hlc, hrc]
  have hc2 : ¬ ((((t.m - 1) / 2 : Nat) : Int) < lc ∨ (((t.m - 1) / 2 : Nat) : Int) < sd.num_keys) :=
    hcond
  simp only [hc2, if_false, hle, dyn_leaf_some hsd hst, e1]

/-- The outcome of `inner_borrow_left`: a rotation through the parent. -/
theorem inner_borrow_left_eq {h : List (Option (bpnode K V))} {n p i s cb : Nat}
    {nd pd sd cd : bpnode K V} {kp kb : K}
    (c : SibCtx h n p i nd pd) (hi0 : 0 < i)
    (hsd : heap_get h s = some sd) (hsn : s ≠ n) (hsp : s ≠ p)
    (hkp : pd.keys[i - 1]? = some kp)
    (hcb : sd.children.getLast? = some cb) (hkb : sd.keys.getLast? = some kb)
    (hcd : heap_get h cb = some cd) (hcn : cb ≠ n) (hcs : cb ≠ s) (hcp : cb ≠ p) :
    ∃ h1, inner_borrow_left h n s = some h1 ∧ h1.length = h.length ∧
      ∀ x, heap_get h1 x =
        if x = s then some { sd with keys := sd.keys.dropLast,
                                     children := sd.children.dropLast,
                                     num_keys := wrap16 (sd.num_keys - 1) }
        else if x = p then some { pd with keys := pd.keys.set (i - 1) kb }
        else if x = n then some { nd with keys := kp :: nd.keys, children := cb :: nd.children,
                                          num_keys := wrap16 (nd.num_keys + 1) }
        else if x = cb then some { cd with parent := some n }
        else heap_get h x := by
  have hn := c.hn
  have hp := c.hp
  have hnp := c.hnp
  have hi1 : ¬ i = 0 := by omega
  have hlt : ¬ pd.keys.length ≤ i - 1 := by
    have := (List.getElem?_eq_some.1 hkp).1
    omega
  have hne : ¬ (sd.keys.length = 0 ∨ sd.children.length = 0) := by
    have a1 : sd.keys ≠ [] := by intro hh; simp [hh] at hkb
    have a2 : sd.children ≠ [] := by intro hh; simp [hh] at hcb
    have := List.length_pos.2 a1
    have := List.length_pos.2 a2
    omega
  refine ⟨heap_set (heap_set (heap_set (heap_set (heap_set h n
        { nd with keys := kp :: nd.keys, children := cb :: nd.children }) cb
        { cd with parent := some n }) n
        { nd with keys := kp :: nd.keys, children := cb :: nd.children,
                  num_keys := wrap16 (nd.num_keys + 1) }) p
        { pd with keys := pd.keys.set (i - 1) kb }) s
        { sd with keys := sd.keys.dropLast, children := sd.children.dropLast,
                  num_keys := wrap16 (sd.num_keys - 1) }, ?_, by simp, ?_⟩
  · have hdyn : dyn_inner h nd.parent = some (some p) := by
      rw [c.hpar]; exact dyn_inner_some hp c.hpt
    have hnl := heap_get_lt hn
    have hsl := heap_get_lt hsd
    have hpl := heap_get_lt hp
    have hcl := heap_get_lt hcd
    simp only [inner_borrow_left, hn, hdyn, hp, c.child_index, hi1, if_false, hkp, hsd, hcb, hcd,
      hkb, hlt, hne, heap_get_set_if, heap_set_length, hnl, hsl, hpl, hcl, hsn, hsp, hcn, hcs,
      hcp, hnp, hsn.symm, hsp.symm, hcn.symm, hcs.symm, hcp.symm, hnp.symm, if_true]
  · intro x
    rw [heap_get_set_if _ _ (by simpa using heap_get_lt hsd),
      heap_get_set_if _ _ (by simpa using heap_get_lt hp),
      heap_get_set_if _ _ (by simpa using heap_get_lt hn),
      heap_get_set_if _ _ (by simpa using heap_get_lt hcd),
      heap_get_set_if _ _ (heap_get_lt hn)]
    by_cases hxs : x = s
    · simp [hxs]
    · by_cases hxp : x = p
      · simp [hxs, hxp]
      · by_cases hxn : x = n
        · simp [hxs, hxp, hxn]
        · simp [hxs, hxp, hxn]

/-- The outcome of `inner_borrow_right`: a rotation through the parent. -/
theorem inner_borrow_right_eq {h : List (Option (bpnode K V))} {n p i s c0 : Nat}
    {nd pd sd cd : bpnode K V} {kp k0 : K}
    (c : SibCtx h n p i nd pd)
    (hsd : heap_get h s = some sd) (hsn : s ≠ n) (hsp : s ≠ p)
    (hkp : pd.keys[i]? = some kp)
    (hc0 : sd.children[0]? = some c0) (hk0 : sd.keys[0]? = some k0)
    (hcd : heap_get h c0 = some cd) (hcn : c0 ≠ n) (hcs : c0 ≠ s) (hcp : c0 ≠ p) :
    ∃ h1, inner_borrow_right h n s = some h1 ∧ h1.length = h.length ∧
      ∀ x, heap_get h1 x =
        if x = s then some { sd with keys := sd.keys.tail,
                                     children := sd.children.tail,
                                     num_keys := wrap16 (sd.num_keys - 1) }
        else if x = p then some { pd with keys := pd.keys.set i k0 }
        else if x = n then some { nd with keys := nd.keys ++ [kp],
                                          children := nd.children ++ [c0],
                                          num_keys := wrap16 (nd.num_keys + 1) }
        else if x = c0 then some { cd with parent := some n }
        else heap_get h x := by
  have hn := c.hn
  have hp := c.hp
  have hnp := c.hnp
  have hik : i < pd.keys.length := (List.getElem?_eq_some.1 hkp).1
  have hi1 : ¬ pd.num_keys ≤ (i : Int) := by rw [c.hk]; push_cast; omega
  have hlt : ¬ pd.keys.length ≤ i := by omega
  have hne : ¬ (sd.keys.length = 0 ∨ sd.children.length = 0) := by
    have := (List.getElem?_eq_some.1 hk0).1
    have := (List.getElem?_eq_some.1 hc0).1
    omega
  refine ⟨heap_set (heap_set (heap_set (heap_set (heap_set h n
        { nd with keys := nd.keys ++ [kp], children := nd.children ++ [c0] }) c0
        { cd with parent := some n }) n
        { nd with keys := nd.keys ++ [kp], children := nd.children ++ [c0],
                  num_keys := wrap16 (nd.num_keys + 1) }) p
        { pd with keys := pd.keys.set i k0 }) s
        { sd with keys := sd.keys.tail, children := sd.children.tail,
                  num_keys := wrap16 (sd.num_keys - 1) }, ?_, by simp, ?_⟩
  · have hdyn : dyn_inner h nd.parent = some (some p) := by
      rw [c.hpar]; exact dyn_inner_some hp c.hpt
    have hnl := heap_get_lt hn
    have hsl := heap_get_lt hsd
    have hpl := heap_get_lt hp
    have hcl := heap_get_lt hcd
    simp only [inner_borrow_right, hn, hdyn, hp, c.child_index, hi1, if_false, hkp, hsd, hc0, hcd,
      hk0, hlt, hne, heap_get_set_if, heap_set_length, hnl, hsl, hpl, hcl, hsn, hsp, hcn, hcs,
      hcp, hnp, hsn.symm, hsp.symm, hcn.symm, hcs.symm, hcp.symm, hnp.symm, if_true]
  · intro x
    rw [heap_get_set_if _ _ (by simpa using heap_get_lt hsd),
      heap_get_set_if _ _ (by simpa using heap_get_lt hp),
      heap_get_set_if _ _ (by simpa using heap_get_lt hn),
      heap_get_set_if _ _ (by simpa using heap_get_lt hcd),
      heap_get_set_if _ _ (heap_get_lt hn)]
    by_cases hxs : x = s
    · simp [hxs]
    · by_cases hxp : x = p
      · simp [hxs, hxp]
      · by_cases hxn : x = n
        · simp [hxs, hxp, hxn]
        · simp [hxs, hxp, hxn]

end execinner

end BPlus

namespace BPlus

section execinner2
variable {K V : Type} [LinearOrder K]

/-- The outcome of `inner_merge_left`: the node `n`, child number `i` of `p`,
is absorbed together with the separator in front of it by its left neighbour
`s`. -/
theorem inner_merge_left_eq {h : List (Option (bpnode K V))} {n p i s : Nat}
    {nd pd sd : bpnode K V} {kp : K}
    (c : SibCtx h n p i nd pd) (hi0 : 0 < i)
    (hsd : heap_get h s = some sd) (hsn : s ≠ n) (hsp : s ≠ p)
    (hkp : pd.keys[i - 1]? = some kp)
    (hall : ∀ x ∈ sd.children ++ nd.children, ∃ cd, heap_get h x = some cd)
    (hn1 : n ∉ sd.children ++ nd.children) (hs1 : s ∉ sd.children ++ nd.children)
    (hp1 : p ∉ sd.children ++ nd.children) :
    ∃ h1, inner_merge_left h n s = some (h1, p) ∧ h1.length = h.length ∧
      ∀ x, heap_get h1 x =
        if x = n then none
        else if x = p then some { pd with keys := pd.keys.eraseIdx (i - 1),
                                          children := pd.children.eraseIdx i,
                                          num_keys := wrap16 (pd.num_keys - 1) }
        else if x = s then some { sd with keys := sd.keys ++ [kp] ++ nd.keys,
                                          children := sd.children ++ nd.children,
                                          num_keys := wrap16 (sd.num_keys + (nd.num_keys + 1)) }
        else (heap_get h x).map (fun cd =>
          if x ∈ sd.children ++ nd.children then { cd with parent := some s } else cd) := by
  have hn := c.hn
  have hp := c.hp
  have hnp := c.hnp
  have hl := c.hl
  have hil := c.lt
  have hdyn : dyn_inner h nd.parent = some (some p) := by
    rw [c.hpar]; exact dyn_inner_some hp c.hpt
  have hnl := heap_get_lt hn
  have hsl := heap_get_lt hsd
  have hpl := heap_get_lt hp
  have hc0 : ¬ pd.num_keys ≤ 0 := by
    rw [c.hk]
    have := (List.getElem?_eq_some.1 hkp).1
    push_cast
    omega
  have hc1 : ¬ (pd.num_keys < (i : Int) ∨ i = 0) := by
    rw [c.hk]; push_cast; omega
  have hc2 : ¬ (pd.keys.length ≤ i - 1 ∨ pd.children.length ≤ i) := by omega
  have hall2 : ∀ x ∈ sd.children ++ nd.children, ∃ cd,
      heap_get (heap_set (heap_set h s { sd with keys := sd.keys ++ [kp] }) s
        { sd with keys := sd.keys ++ [kp] ++ nd.keys,
                  children := sd.children ++ nd.children }) x = some cd := by
    intro x hx
    obtain ⟨cd, hcd⟩ := hall x hx
    have hxs : x ≠ s := fun hh => hs1 (hh ▸ hx)
    exact ⟨cd, by simp only [heap_get_set_if, heap_set_length, hsl, hxs, if_false, hcd]⟩
  obtain ⟨h3, q1, q2, q3⟩ := set_parents_spec (some s) _ _ hall2
  have q3s := q3 s
  have q3n := q3 n
  have q3p := q3 p
  simp only [heap_get_set_if, heap_set_length, hsl, hsn, hsp, hsn.symm, hsp.symm, hnp, hnp.symm,
    if_true, if_false, hn, hp, hs1, hn1, hp1, Option.map_some'] at q3s q3n q3p
  have h3l : s < h3.length := by rw [q2]; simpa using hsl
  have h3p : p < h3.length := by rw [q2]; simpa using hpl
  refine ⟨heap_free (heap_set (heap_set h3 s
        { sd with keys := sd.keys ++ [kp] ++ nd.keys, children := sd.children ++ nd.children,
                  num_keys := wrap16 (sd.num_keys + (nd.num_keys + 1)) }) p
        { pd with keys := pd.keys.eraseIdx (i - 1), children := pd.children.eraseIdx i,
                  num_keys := wrap16 (pd.num_keys - 1) }) n, ?_, by simp [q2], ?_⟩
  · simp only [inner_merge_left, hn, hdyn, hp, hc0, if_false, c.child_index, hc1, hkp, hsd,
      heap_get_set_if, heap_set_length, hsl, hsn, hsn.symm, if_true, q1, q3s, q3n, q3p, h3l, hsp,
      hsp.symm, hc2]
  · intro x
    rw [heap_get_free_if, heap_get_set_if _ _ (by simpa using h3p), heap_get_set_if _ _ h3l, q3 x]
    by_cases hxn : x = n
    · simp [hxn]
    · by_cases hxp : x = p
      · simp [hxn, hxp]
      · by_cases hxs : x = s
        · simp [hxn, hxp, hxs]
        · simp only [hxn, hxp, hxs, if_false, heap_get_set_if, heap_set_length, hsl]

/-- Inner borrow from the right: the outcome of `inner_repair`. -/
theorem inner_repair_borrow_right {t : bptree K V} {n p i s c0 : Nat}
    {nd pd sd cd : bpnode K V} {lc : Int} {kp k0 : K}
    (chk : bptree K V → Nat → Option (bptree K V))
    (c : SibCtx t.heap n p i nd pd)
    (hr : right_of pd i = some s) (hsd : heap_get t.heap s = some sd)
    (hst : sd.type = bpnode_type.NODE_INNER) (hsn : s ≠ n) (hsp : s ≠ p)
    (hlc : node_count t.heap (left_of pd i) = some lc)
    (hcond : min_limits t.m < lc ∨ min_limits t.m < sd.num_keys) (hle : lc ≤ sd.num_keys)
    (hkp : pd.keys[i]? = some kp)
    (hc0 : sd.children[0]? = some c0) (hk0 : sd.keys[0]? = some k0)
    (hcd : heap_get t.heap c0 = some cd) (hcn : c0 ≠ n) (hcs : c0 ≠ s) (hcp : c0 ≠ p) :
    ∃ h1, inner_repair chk t n = some { t with heap := h1 } ∧ h1.length = t.heap.length ∧
      ∀ x, heap_get h1 x =
        if x = s then some { sd with keys := sd.keys.tail,
                                     children := sd.children.tail,
                                     num_keys := wrap16 (sd.num_keys - 1) }
        else if x = p then some { pd with keys := pd.keys.set i k0 }
        else if x = n then some { nd with keys := nd.keys ++ [kp],
                                          children := nd.children ++ [c0],
                                          num_keys := wrap16 (nd.num_keys + 1) }
        else if x = c0 then some { cd with parent := some n }
        else heap_get t.heap x := by
  obtain ⟨h1, e1, e2, e3⟩ := inner_borrow_right_eq c hsd hsn hsp hkp hc0 hk0 hcd hcn hcs hcp
  refine ⟨h1, ?_, e2, e3⟩
  have hrc : node_count t.heap (some s) = some sd.num_keys := by simp [node_count, hsd]
  have hc2 : ((((t.m - 1) / 2 : Nat) : Int) < lc ∨ (((t.m - 1) / 2 : Nat) : Int) < sd.num_keys) :=
    hcond
  simp only [inner_repair, c.get_sibling, hr, hlc, hrc, hc2, hle, if_true,
    dyn_inner_some hsd hst, e1]

/-- Inner borrow from the left: the outcome of `inner_repair`. -/
theorem inner_repair_borrow_left {t : bptree K V} {n p i s cb : Nat}
    {nd pd sd cd : bpnode K V} {rc : Int} {kp kb : K}
    (chk : bptree K V → Nat → Option (bptree K V))
    (c : SibCtx t.heap n p i nd pd)
    (hl : left_of pd i = some s) (hsd : heap_get t.heap s = some sd)
    (hst : sd.type = bpnode_type.NODE_INNER) (hsn : s ≠ n) (hsp : s ≠ p)
    (hrc : node_count t.heap (right_of pd i) = some rc)
    (hcond : min_limits t.m < sd.num_keys ∨ min_limits t.m < rc) (hlt : rc < sd.num_keys)
    (hkp : pd.keys[i - 1]? = some kp)
    (hcb : sd.children.getLast? = some cb) (hkb : sd.keys.getLast? = some kb)
    (hcd : heap_get t.heap cb = some cd) (hcn : cb ≠ n) (hcs : cb ≠ s) (hcp : cb ≠ p) :
    ∃ h1, inner_repair chk t n = some { t with heap := h1 } ∧ h1.length = t.heap.length ∧
      ∀ x, heap_get h1 x =
        if x = s then some { sd with keys := sd.keys.dropLast,
                                     children := sd.children.dropLast,
                                     num_keys := wrap16 (sd.num_keys - 1) }
        else if x = p then some { pd with keys := pd.keys.set (i - 1) kb }
        else if x = n then some { nd with keys := kp :: nd.keys, children := cb :: nd.children,
                                          num_keys := wrap16 (nd.num_keys + 1) }
        else if x = cb then some { cd with parent := some n }
        else heap_get t.heap x := by
  have hi0 : 0 < i := by
    by_contra h0
    have : i = 0 := by omega
    simp [left_of, this] at hl
  obtain ⟨h1, e1, e2, e3⟩ := inner_borrow_left_eq c hi0 hsd hsn hsp hkp hcb hkb hcd hcn hcs hcp
  refine ⟨h1, ?_, e2, e3⟩
  have hlc : node_count t.heap (some s) = some sd.num_keys := by simp [node_count, hsd]
  have hc2 : ((((t.m - 1) / 2 : Nat) : Int) < sd.num_keys ∨ (((t.m - 1) / 2 : Nat) : Int) < rc) :=
    hcond
  have hle : ¬ sd.num_keys ≤ rc := not_le.2 hlt
  simp only [inner_repair, c.get_sibling, hl, hlc, hrc, hc2, hle, if_true, if_false,
    dyn_inner_some hsd hst, e1]

/-- Inner merge with the left neighbour: `inner_repair` continues with the
parent. -/
theorem inner_repair_merge_left {t : bptree K V} {n p i s : Nat}
    {nd pd sd : bpnode K V} {rc : Int} {kp : K}
    (chk : bptree K V → Nat → Option (bptree K V))
    (c : SibCtx t.heap n p i nd pd)
    (hl : left_of pd i = some s) (hsd : heap_get t.heap s = some sd)
    (hst : sd.type = bpnode_type.NODE_INNER) (hsn : s ≠ n) (hsp : s ≠ p)
    (hrc : node_count t.heap (right_of pd i) = some rc)
    (hcond : ¬ (min_limits t.m < sd.num_keys ∨ min_limits t.m < rc)) (hlt : rc < sd.num_keys)
    (hkp : pd.keys[i - 1]? = some kp)
    (hall : ∀ x ∈ sd.children ++ nd.children, ∃ cd, heap_get t.heap x = some cd)
    (hn1 : n ∉ sd.children ++ nd.children) (hs1 : s ∉ sd.children ++ nd.children)
    (hp1 : p ∉ sd.children ++ nd.children) :
    ∃ h1, inner_repair chk t n = chk { t with heap := h1 } p ∧ h1.length = t.heap.length ∧
      ∀ x, heap_get h1 x =
        if x = n then none
        else if x = p then some { pd with keys := pd.keys.eraseIdx (i - 1),
                                          children := pd.children.eraseIdx i,
                                          num_keys := wrap16 (pd.num_keys - 1) }
        else if x = s then some { sd with keys := sd.keys ++ [kp] ++ nd.keys,
                                          children := sd.children ++ nd.children,
                                          num_keys := wrap16 (sd.num_keys + (nd.num_keys + 1)) }
        else (heap_get t.heap x).map (fun cd =>
          if x ∈ sd.children ++ nd.children then { cd with parent := some s } else cd) := by
  have hi0 : 0 < i := by
    by_contra h0
    have : i = 0 := by omega
    simp [left_of, this] at hl
  obtain ⟨h1, e1, e2, e3⟩ := inner_merge_left_eq c hi0 hsd hsn hsp hkp hall hn1 hs1 hp1
  refine ⟨h1, ?_, e2, e3⟩
  have hlc : node_count t.heap (some s) = some sd.num_keys := by simp [node_count, hsd]
  have hc2 : ¬ ((((t.m - 1) / 2 : Nat) : Int) < sd.num_keys ∨ (((t.m - 1) / 2 : Nat) : Int) < rc) :=
    hcond
  simp only [inner_repair, c.get_sibling, hl, hlc, hrc, hc2, if_false, hlt, if_true,
    dyn_inner_some hsd hst, e1]

/-- Inner merge with the right neighbour `s`, which is absorbed by `n`:
`inner_repair` continues with the parent. -/
theorem inner_repair_merge_right {t : bptree K V} {n p i s : Nat}
    {nd pd sd : bpnode K V} {lc : Int} {kp : K}
    (chk : bptree K V → Nat → Option (bptree K V))
    (c : SibCtx t.heap n p i nd pd) (cs : SibCtx t.heap s p (i + 1) sd pd)
    (hr : right_of pd i = some s)
    (hst : sd.type = bpnode_type.NODE_INNER) (hsn : s ≠ n)
    (hlc : node_count t.heap (left_of pd i) = some lc)
    (hcond : ¬ (min_limits t.m < lc ∨ min_limits t.m < sd.num_keys)) (hle : ¬ sd.num_keys < lc)
    (hkp : pd.keys[i]? = some kp)
    (hall : ∀ x ∈ nd.children ++ sd.children, ∃ cd, heap_get t.heap x = some cd)
    (hn1 : n ∉ nd.children ++ sd.children) (hs1 : s ∉ nd.children ++ sd.children)
    (hp1 : p ∉ nd.children ++ sd.children) :
    ∃ h1, inner_repair chk t n = chk { t with heap := h1 } p ∧ h1.length = t.heap.length ∧
      ∀ x, heap_get h1 x =
        if x = s then none
        else if x = p then some { pd with keys := pd.keys.eraseIdx i,
                                          children := pd.children.eraseIdx (i + 1),
                                          num_keys := wrap16 (pd.num_keys - 1) }
        else if x = n then some { nd with keys := nd.keys ++ [kp] ++ sd.keys,
                                          children := nd.children ++ sd.children,
                                          num_keys := wrap16 (nd.num_keys + (sd.num_keys + 1)) }
        else (heap_get t.heap x).map (fun cd =>
          if x ∈ nd.children ++ sd.children then { cd with parent := some n } else cd) := by
  obtain ⟨h1, e1, e2, e3⟩ := inner_merge_left_eq cs (Nat.succ_pos i) c.hn (Ne.symm hsn) c.hnp
    (by simpa using hkp) hall hs1 hn1 hp1
  refine ⟨h1, ?_, e2, ?_⟩
  · have hrc : node_count t.heap (some s) = some sd.num_keys := by simp [node_count, cs.hn]
    have hc2 : ¬ ((((t.m - 1) / 2 : Nat) : Int) < lc ∨
        (((t.m - 1) / 2 : Nat) : Int) < sd.num_keys) := hcond
    simp only [inner_repair, c.get_sibling, hr, hlc, hrc, hc2, if_false, hle,
      dyn_inner_some cs.hn hst, e1]
  · intro x
    rw [e3 x]
    simp

end execinner2

end BPlus

namespace BPlus

section execins
variable {K V : Type} [LinearOrder K]

theorem heap_get_append_if (h : List (Option (bpnode K V))) (v : bpnode K V) (x : Nat) :
    heap_get (h ++ [some v]) x = if x = h.length then some v else heap_get h x :=
  heap_get_append h v x

/-- A cast to `bpnode_inner*` gives the same answer in a heap that keeps the
allocated nodes and their kinds. -/
theorem dyn_inner_mono {h h1 : List (Option (bpnode K V))} {q pp : Option Nat}
    (hd : dyn_inner h q = some pp)
    (hty : ∀ x nd, heap_get h x = some nd → ∃ nd1, heap_get h1 x = some nd1 ∧ nd1.type = nd.type) :
    dyn_inner h1 q = some pp := by
  cases q with
  | none => simpa [dyn_inner] using hd
  | some a =>
    simp only [dyn_inner] at hd ⊢
    cases hg : heap_get h a with
    | none => simp [hg] at hd
    | some nd =>
      obtain ⟨nd1, q1, q2⟩ := hty a nd hg
      simp only [hg] at hd
      simp only [q1, q2]
      exact hd

/-- The creation of a new root. -/
theorem new_root_eq {t : bptree K V} {c1 c2 : Nat} {cd1 cd2 : bpnode K V} (key : K)
    (h1 : heap_get t.heap c1 = some cd1) (h2 : heap_get t.heap c2 = some cd2) (hne : c1 ≠ c2) :
    ∃ hp, new_root t key c1 c2 =
        some { t with heap := hp, root := some t.heap.length, depth := t.depth + 1 } ∧
      hp.length = t.heap.length + 1 ∧
      ∀ x, heap_get hp x =
        if x = c2 then some { cd2 with parent := some t.heap.length }
        else if x = c1 then some { cd1 with parent := some t.heap.length }
        else if x = t.heap.length then some
          { type := bpnode_type.NODE_INNER, num_keys := 1, keys := [key], parent := none,
            values := [], next := none, children := [c1, c2] }
        else heap_get t.heap x := by
  have l1 := heap_get_lt h1
  have l2 := heap_get_lt h2
  have n1 : c1 ≠ t.heap.length := by omega
  have n2 : c2 ≠ t.heap.length := by omega
  refine ⟨heap_set (heap_set (t.heap ++ [some
          { type := bpnode_type.NODE_INNER, num_keys := 1, keys := [key], parent := none,
            values := [], next := none, children := [c1, c2] }]) c1
          { cd1 with parent := some t.heap.length }) c2
          { cd2 with parent := some t.heap.length }, ?_, by simp, ?_⟩
  · have l1a : c1 < t.heap.length + 1 := by omega
    simp only [new_root, heap_get_append_if, n1, n2, if_false, h1, h2, heap_get_set_if,
      heap_set_length, List.length_append, List.length_singleton, l1a, hne.symm]
  · intro x
    rw [heap_get_set_if _ _ (by simp; omega), heap_get_set_if _ _ (by simp; omega),
      heap_get_append_if]

/-- A leaf below the fanout is not split. -/
theorem leaf_split_if_full_small {t : bptree K V} {n : Nat} {nd : bpnode K V}
    (hn : heap_get t.heap n = some nd) (hlt : nd.num_keys < (t.m : Int)) :
    leaf_split_if_full t n = some t := by
  simp only [leaf_split_if_full, hn, hlt, if_true]

/-- A full leaf is split in two; the parent is told about the new leaf. -/
theorem leaf_split_if_full_eq {t : bptree K V} {n : Nat} {nd : bpnode K V} {pp : Option Nat}
    (hn : heap_get t.heap n = some nd) (hfull : nd.num_keys = (t.m : Int))
    (hkl : nd.keys.length = t.m) (hvl : nd.values.length = t.m) (hm : 1 ≤ t.m)
    (hdyn : dyn_inner t.heap nd.parent = some pp) :
    ∃ h1 k0, (nd.keys.drop (t.m / 2))[0]? = some k0 ∧
      leaf_split_if_full t n =
        insert_inner_node (t.heap.length + 1) { t with heap := h1 } pp k0 n t.heap.length ∧
      h1.length = t.heap.length + 1 ∧
      ∀ x, heap_get h1 x =
        if x = n then some { nd with keys := nd.keys.take (t.m / 2),
                                     values := nd.values.take (t.m / 2),
                                     num_keys := wrap16 ((t.m / 2 : Nat) : Int),
                                     next := some t.heap.length }
        else if x = t.heap.length then some
          { type := bpnode_type.NODE_LEAF,
            num_keys := wrap16 (nd.num_keys - ((t.m / 2 : Nat) : Int)),
            keys := nd.keys.drop (t.m / 2), parent := nd.parent,
            values := nd.values.drop (t.m / 2), next := nd.next, children := [] }
        else heap_get t.heap x := by
  have hnl := heap_get_lt hn
  have hk2 : t.m / 2 < nd.keys.length := by omega
  have hk0 : (nd.keys.drop (t.m / 2))[0]? = some nd.keys[t.m / 2] := by
    rw [List.getElem?_drop]
    simpa using List.getElem?_eq_getElem hk2
  have hc1 : ¬ nd.num_keys < (t.m : Int) := by omega
  have hc2 : ¬ (nd.keys.length < t.m / 2 ∨ nd.values.length < t.m / 2) := by omega
  refine ⟨heap_set (t.heap ++ [some
        { type := bpnode_type.NODE_LEAF,
          num_keys := wrap16 (nd.num_keys - ((t.m / 2 : Nat) : Int)),
          keys := nd.keys.drop (t.m / 2), parent := nd.parent,
          values := nd.values.drop (t.m / 2), next := nd.next, children := [] }]) n
        { nd with keys := nd.keys.take (t.m / 2), values := nd.values.take (t.m / 2),
                  num_keys := wrap16 ((t.m / 2 : Nat) : Int), next := some t.heap.length },
    nd.keys[t.m / 2], hk0, ?_, by simp, ?_⟩
  · have hd2 : dyn_inner (heap_set (t.heap ++ [some
        { type := bpnode_type.NODE_LEAF,
          num_keys := wrap16 (nd.num_keys - ((t.m / 2 : Nat) : Int)),
          keys := nd.keys.drop (t.m / 2), parent := nd.parent,
          values := nd.values.drop (t.m / 2), next := nd.next, children := [] }]) n
        { nd with keys := nd.keys.take (t.m / 2), values := nd.values.take (t.m / 2),
                  num_keys := wrap16 ((t.m / 2 : Nat) : Int), next := some t.heap.length })
        nd.parent = some pp := by
      refine dyn_inner_mono hdyn ?_
      intro x xd hx
      have hxl := heap_get_lt hx
      rw [heap_get_set_if _ _ (by simp; omega), heap_get_append_if]
      by_cases hxn : x = n
      · subst hxn
        rw [hn] at hx
        cases hx
        rw [if_pos rfl]
        exact ⟨_, rfl, rfl⟩
      · have : x ≠ t.heap.length := by omega
        exact ⟨xd, by simp [hxn, this, hx], rfl⟩
    simp only [leaf_split_if_full, hn, hc1, if_false, hc2, hd2, hk0]
  · intro x
    rw [heap_get_set_if _ _ (by simp; omega), heap_get_append_if]

/-- An inner node below the fanout is not split. -/
theorem inner_split_if_full_small {t : bptree K V} {n : Nat} {nd : bpnode K V}
    (ins : bptree K V → Option Nat → K → Nat → Nat → Option (bptree K V))
    (hn : heap_get t.heap n = some nd) (hlt : nd.num_keys < (t.m : Int)) :
    inner_split_if_full ins t n = some t := by
  simp only [inner_split_if_full, hn, hlt, if_true]

/-- A full inner node is split in two around its key number `m / 2`; the
parent is told about the new node. -/
theorem inner_split_if_full_eq {t : bptree K V} {n : Nat} {nd : bpnode K V} {pp : Option Nat}
    (ins : bptree K V → Option Nat → K → Nat → Nat → Option (bptree K V))
    (hn : heap_get t.heap n = some nd) (hfull : nd.num_keys = (t.m : Int))
    (hkl : nd.keys.length = t.m) (hcl : nd.children.length = t.m + 1) (hm : 1 ≤ t.m)
    (hall : ∀ x ∈ nd.children.drop (t.m / 2 + 1), ∃ cd, heap_get t.heap x = some cd)
    (hn1 : n ∉ nd.children.drop (t.m / 2 + 1))
    (hdyn : dyn_inner t.heap nd.parent = some pp) :
    ∃ h1 up, nd.keys[t.m / 2]? = some up ∧
      inner_split_if_full ins t n = ins { t with heap := h1 } pp up n t.heap.length ∧
      h1.length = t.heap.length + 1 ∧
      ∀ x, heap_get h1 x =
        if x = n then some { nd with keys := nd.keys.take (t.m / 2),
                                     children := nd.children.take (t.m / 2 + 1),
                                     num_keys := wrap16 ((t.m / 2 : Nat) : Int) }
        else if x = t.heap.length then some
          { type := bpnode_type.NODE_INNER,
            num_keys := wrap16 (nd.num_keys - ((t.m / 2 : Nat) : Int) - 1),
            keys := nd.keys.drop (t.m / 2 + 1), parent := nd.parent,
            values := [], next := none, children := nd.children.drop (t.m / 2 + 1) }
        else (heap_get t.heap x).map (fun cd =>
          if x ∈ nd.children.drop (t.m / 2 + 1) then { cd with parent := some t.heap.length }
          else cd) := by
  have hnl := heap_get_lt hn
  have hk2 : t.m / 2 < nd.keys.length := by omega
  have hup : nd.keys[t.m / 2]? = some nd.keys[t.m / 2] := List.getElem?_eq_getElem hk2
  have hc1 : ¬ nd.num_keys < (t.m : Int) := by omega
  have hc2 : ¬ nd.children.length < t.m / 2 + 1 := by omega
  have hallx : ∀ x ∈ nd.children.drop (t.m / 2 + 1), x < t.heap.length := by
    intro x hx
    obtain ⟨cd, hcd⟩ := hall x hx
    exact heap_get_lt hcd
  have hnew1 : t.heap.length ∉ nd.children.drop (t.m / 2 + 1) := by
    intro hx
    have := hallx _ hx
    omega
  have hall2 : ∀ x ∈ nd.children.drop (t.m / 2 + 1), ∃ cd,
      heap_get (t.heap ++ [some
        { type := bpnode_type.NODE_INNER, num_keys := 0, keys := nd.keys.drop (t.m / 2 + 1),
          parent := none, values := [], next := none,
          children := nd.children.drop (t.m / 2 + 1) }]) x = some cd := by
    intro x hx
    obtain ⟨cd, hcd⟩ := hall x hx
    have := hallx x hx
    exact ⟨cd, by rw [heap_get_append_if]; simp [Nat.ne_of_lt this, hcd]⟩
  obtain ⟨h2, q1, q2, q3⟩ := set_parents_spec (some t.heap.length) _ _ hall2
  have q3w := q3 t.heap.length
  have q3n := q3 n
  have hnn : n ≠ t.heap.length := by omega
  simp only [heap_get_append_if, if_true, hnn, if_false, hn, hnew1, hn1,
    Option.map_some'] at q3w q3n
  have h2l : h2.length = t.heap.length + 1 := by rw [q2]; simp
  have hwl : t.heap.length < h2.length := by omega
  have hnl2 : n < h2.length := by omega
  refine ⟨heap_set (heap_set h2 t.heap.length
        { type := bpnode_type.NODE_INNER,
          num_keys := wrap16 (nd.num_keys - ((t.m / 2 : Nat) : Int) - 1),
          keys := nd.keys.drop (t.m / 2 + 1), parent := nd.parent,
          values := [], next := none, children := nd.children.drop (t.m / 2 + 1) }) n
        { nd with keys := nd.keys.take (t.m / 2), children := nd.children.take (t.m / 2 + 1),
                  num_keys := wrap16 ((t.m / 2 : Nat) : Int) },
    nd.keys[t.m / 2], hup, ?_, by simp [h2l], ?_⟩
  · have hd2 : dyn_inner (heap_set (heap_set h2 t.heap.length
        { type := bpnode_type.NODE_INNER,
          num_keys := wrap16 (nd.num_keys - ((t.m / 2 : Nat) : Int) - 1),
          keys := nd.keys.drop (t.m / 2 + 1), parent := nd.parent,
          values := [], next := none, children := nd.children.drop (t.m / 2 + 1) }) n
        { nd with keys := nd.keys.take (t.m / 2), children := nd.children.take (t.m / 2 + 1),
                  num_keys := wrap16 ((t.m / 2 : Nat) : Int) })
        nd.parent = some pp := by
      refine dyn_inner_mono hdyn ?_
      intro x xd hx
      have hxl := heap_get_lt hx
      rw [heap_get_set_if _ _ (by simpa using hnl2), heap_get_set_if _ _ hwl, q3 x,
        heap_get_append_if]
      by_cases hxn : x = n
      · subst hxn
        rw [hn] at hx
        cases hx
        rw [if_pos rfl]
        exact ⟨_, rfl, rfl⟩
      · have : x ≠ t.heap.length := by omega
        simp only [hxn, this, if_false, hx, Option.map_some']
        by_cases hm : x ∈ nd.children.drop (t.m / 2 + 1)
        · rw [if_pos hm]
          exact ⟨_, rfl, rfl⟩
        · rw [if_neg hm]
          exact ⟨_, rfl, rfl⟩
    simp only [inner_split_if_full, hn, hc1, if_false, hup, hc2, q1, q3w, q3n,
      heap_get_set_if, heap_set_length, hwl, hnn, hd2]
  · intro x
    rw [heap_get_set_if _ _ (by simpa using hnl2), heap_get_set_if _ _ hwl, q3 x,
      heap_get_append_if]
    by_cases hxn : x = n
    · simp [hxn]
    · by_cases hxw : x = t.heap.length
      · simp [hxn, hxw]
      · simp [hxn, hxw]

end execins

end BPlus

namespace BPlus

section util
variable {K V : Type} [LinearOrder K]

/-! ### Occupancy bookkeeping -/

/-- The occupancy part of the node condition can be judged afresh. -/
theorem NodeOK.reocc {h : List (Option (bpnode K V))} {g : Nat → Option (Info K)}
    {m : Nat} {r e e1 : Option Nat} {sl sh sl1 sh1 a : Nat} {i : Info K} {nd : bpnode K V}
    (ok : NodeOK h g m r e sl sh a i nd)
    (h1 : nd.keys.length < m + (if e1 = some a then sh1 else 0))
    (h2 : some a ≠ r → (m - 1) / 2 ≤ nd.keys.length + (if e1 = some a then sl1 else 0))
    (h3 : 1 ≤ nd.keys.length + (if e1 = some a then sl1 else 0)) :
    NodeOK h g m r e1 sl1 sh1 a i nd :=
  ⟨ok.nk, ok.lohi, ok.sorted, ok.lob, ok.hib, ok.kind, ok.leaf, ok.down, ok.up, ok.uproot,
    h1, h2, h3⟩

/-- Once the exceptional node is within bounds the plain invariant holds. -/
theorem InvX.relax {t : bptree K V} {g : Nat → Option (Info K)} {L : List Nat}
    {kv : List (K × V)} {n sl sh : Nat} (hI : InvX t g L kv (some n) sl sh)
    (hn : ∀ i nd, g n = some i → heap_get t.heap n = some nd →
      nd.keys.length < t.m ∧ (some n ≠ t.root → (t.m - 1) / 2 ≤ nd.keys.length) ∧
      1 ≤ nd.keys.length) :
    InvX t g L kv none 0 0 := by
  refine ⟨hI.m3, hI.m16, ?_, hI.root_none, hI.root_some, hI.depth_le, hI.chain, hI.last,
    hI.leaves, hI.kv_eq⟩
  intro a i ha
  obtain ⟨nd, q1, ok⟩ := hI.nodes a i ha
  refine ⟨nd, q1, ?_⟩
  by_cases han : a = n
  · subst han
    obtain ⟨r1, r2, r3⟩ := hn i nd ha q1
    exact ok.reocc (by simpa using r1) (by simpa using r2) (by simpa using r3)
  · have hne : ¬ (some n = some a) := fun hh => han (Option.some.inj hh).symm
    have o1 := ok.occ_hi
    have o2 := ok.occ_lo
    have o3 := ok.occ_in
    simp only [hne, if_false] at o1 o2 o3
    exact ok.reocc (by simpa using o1) (by simpa using o2) (by simpa using o3)

theorem InvX.leafLevel {t : bptree K V} {g : Nat → Option (Info K)} {L : List Nat}
    {kv : List (K × V)} {e : Option Nat} {sl sh : Nat} (hI : InvX t g L kv e sl sh) :
    LeafLevel t.heap g L kv :=
  ⟨hI.chain, hI.last, hI.leaves, hI.kv_eq⟩

/-- The leaf level is untouched by a change that keeps the live leaves, their
keys, values and forward links. -/
theorem LeafLevel.frame_leaves {h h1 : List (Option (bpnode K V))}
    {g g1 : Nat → Option (Info K)} {L : List Nat} {kv : List (K × V)}
    (hL : LeafLevel h g L kv)
    (hl : ∀ x i nd, g x = some i → heap_get h x = some nd →
      nd.type = bpnode_type.NODE_LEAF →
      g1 x = g x ∧ ∃ nd1, heap_get h1 x = some nd1 ∧ nd1.type = bpnode_type.NODE_LEAF ∧
        nd1.keys = nd.keys ∧ nd1.values = nd.values ∧ nd1.next = nd.next)
    (hr : ∀ x i nd1, g1 x = some i → heap_get h1 x = some nd1 →
      nd1.type = bpnode_type.NODE_LEAF →
      ∃ i0 nd, g x = some i0 ∧ heap_get h x = some nd ∧ nd.type = bpnode_type.NODE_LEAF) :
    LeafLevel h1 g1 L kv := by
  have hmem : ∀ a ∈ L, ∃ i nd, g a = some i ∧ heap_get h a = some nd ∧
      nd.type = bpnode_type.NODE_LEAF := fun a ha => (hL.leaves a).1 ha
  refine ⟨?_, ?_, ?_, ?_⟩
  · refine chain_frame hL.chain ?_ ?_
    · intro a ha
      obtain ⟨i, nd, q1, q2, q3⟩ := hmem a ha
      exact (hl a i nd q1 q2 q3).1
    · intro a ha nd hnd
      obtain ⟨i, nd0, q1, q2, q3⟩ := hmem a ha
      rw [hnd] at q2
      cases q2
      obtain ⟨_, nd1, r1, _, _, _, r5⟩ := hl a i nd q1 hnd q3
      exact ⟨nd1, r1, r5⟩
  · intro a ha
    obtain ⟨nd, q1, q2⟩ := hL.last a ha
    obtain ⟨i, nd0, r1, r2, r3⟩ := hmem a (List.mem_of_mem_getLast? ha)
    rw [q1] at r2
    cases r2
    obtain ⟨_, nd1, s1, _, _, _, s5⟩ := hl a i nd r1 q1 r3
    exact ⟨nd1, s1, by rw [s5, q2]⟩
  · intro a
    constructor
    · intro ha
      obtain ⟨i, nd, q1, q2, q3⟩ := hmem a ha
      obtain ⟨s0, nd1, s1, s2, _, _, _⟩ := hl a i nd q1 q2 q3
      exact ⟨i, nd1, by rw [s0, q1], s1, s2⟩
    · rintro ⟨i, nd1, q1, q2, q3⟩
      obtain ⟨i0, nd, r1, r2, r3⟩ := hr a i nd1 q1 q2 q3
      exact (hL.leaves a).2 ⟨i0, nd, r1, r2, r3⟩
  · rw [hL.kv_eq]
    refine (flatMap_pairs_frame ?_).symm
    intro a ha
    obtain ⟨i, nd, q1, q2, q3⟩ := hmem a ha
    obtain ⟨_, nd1, s1, _, s3, s4, _⟩ := hl a i nd q1 q2 q3
    simp only [leaf_pairs, s1, q2, s3, s4]

/-! ### Sorted insertion -/

theorem mem_insert_at {A : Type} {l : List A} {p : Nat} {x y : A} :
    y ∈ insert_at l p x ↔ y = x ∨ y ∈ l.take p ∨ y ∈ l.drop p := by
  simp only [insert_at, List.mem_append, List.mem_cons]
  constructor
  · rintro (h | h | h)
    · exact Or.inr (Or.inl h)
    · exact Or.inl h
    · exact Or.inr (Or.inr h)
  · rintro (h | h | h)
    · exact Or.inr (Or.inl h)
    · exact Or.inl h
    · exact Or.inr (Or.inr h)

theorem mem_insert_at_imp {A : Type} {l : List A} {p : Nat} {x y : A}
    (h : y ∈ insert_at l p x) : y = x ∨ y ∈ l := by
  rcases mem_insert_at.1 h with h | h | h
  · exact Or.inl h
  · exact Or.inr (List.mem_of_mem_take h)
  · exact Or.inr (List.mem_of_mem_drop h)

theorem length_insert_at {A : Type} (l : List A) (p : Nat) (x : A) (hp : p ≤ l.length) :
    (insert_at l p x).length = l.length + 1 := by
  simp only [insert_at, List.length_append, List.length_cons, List.length_take,
    List.length_drop]
  omega

theorem take_upper_pos_le (key : K) (l : List K) :
    ∀ x ∈ l.take (upper_pos key l), x ≤ key := by
  induction l with
  | nil => simp [upper_pos]
  | cons y ys ih =>
    simp only [upper_pos]
    by_cases h : key < y
    · simp [h]
    · simp only [h, if_false, List.take_succ_cons, List.mem_cons]
      rintro x (hx | hx)
      · rw [hx]; exact not_lt.1 h
      · exact ih x hx

theorem drop_upper_pos_gt (key : K) (l : List K) (hs : l.Pairwise (fun x y => x < y)) :
    ∀ x ∈ l.drop (upper_pos key l), key < x := by
  induction l with
  | nil => simp [upper_pos]
  | cons y ys ih =>
    simp only [upper_pos]
    by_cases h : key < y
    · simp only [h, if_true, List.drop_zero, List.mem_cons]
      rintro x (hx | hx)
      · rw [hx]; exact h
      · exact lt_trans h (List.rel_of_pairwise_cons hs hx)
    · simp only [h, if_false, List.drop_succ_cons]
      exact ih (List.Pairwise.of_cons hs)

/-- Inserting a new key at the position chosen by the scan keeps the keys
sorted. -/
theorem insert_at_sorted (key : K) (l : List K) (hs : l.Pairwise (fun x y => x < y))
    (hk : key ∉ l) : (insert_at l (upper_pos key l) key).Pairwise (fun x y => x < y) := by
  simp only [insert_at]
  rw [List.pairwise_append]
  refine ⟨hs.sublist (List.take_sublist _ _), ?_, ?_⟩
  · rw [List.pairwise_cons]
    exact ⟨drop_upper_pos_gt key l hs, hs.sublist (List.drop_sublist _ _)⟩
  · intro x hx y hy
    have hxk : x ≤ key := take_upper_pos_le key l x hx
    have hxne : x ≠ key := fun hh => hk (hh ▸ List.mem_of_mem_take hx)
    have hxlt : x < key := lt_of_le_of_ne hxk hxne
    rcases List.mem_cons.1 hy with h | h
    · rw [h]; exact hxlt
    · exact lt_trans hxlt (drop_upper_pos_gt key l hs y h)

end util

end BPlus

namespace BPlus

section ins1
variable {K V : Type} [LinearOrder K]

/-! ### Insertion into a leaf -/

/-- Overwriting the value of a key that is present. -/
theorem InvX.upsert {t : bptree K V} {g : Nat → Option (Info K)} {L : List Nat}
    {kv : List (K × V)} (hI : InvX t g L kv none 0 0)
    {b : Nat} {ib : Info K} {nb : bpnode K V} (hb : g b = some ib)
    (hnb : heap_get t.heap b = some nb) (hty : nb.type = bpnode_type.NODE_LEAF)
    (hbL : b ∈ L) {key : K} (hk : key ∈ nb.keys) (value : V) :
    InvX { t with
          heap := heap_set t.heap b
              { nb with values := nb.values.set (index_of key nb.keys) value } } g L
      (kv_insert key value kv) none 0 0 := by
  obtain ⟨nb0, q0, okb⟩ := hI.nodes b ib hb
  rw [hnb] at q0
  cases q0
  have hvl := (okb.leaf hty).2
  have o1 := okb.occ_hi
  have o2 := okb.occ_lo
  have o3 := okb.occ_in
  simp only [reduceCtorEq, if_false] at o1 o2 o3
  have hU := hI.update_leaf hb hnb hty (fun a _ => by simp)
    { nb with values := nb.values.set (index_of key nb.keys) value } rfl rfl rfl none 0 0
    okb.nk okb.sorted okb.lob okb.hib (by simpa using hvl) (by simpa using o1)
    (by simpa using o2) (by simpa using o3)
  obtain ⟨A, B, e1, hA, hB, e2⟩ := hI.kv_split hb hbL
  have e3 := e2 (heap_set t.heap b { nb with values := nb.values.set (index_of key nb.keys) value })
    (fun a ha => heap_get_set_ne _ (Ne.symm ha))
  have hkin : ib.lo ≤ bnd key ∧ bnd key < ib.hi := ⟨okb.lob key hk, okb.hib key hk⟩
  have hkv : kv_insert key value kv =
      L.flatMap (leaf_pairs (heap_set t.heap b
        { nb with values := nb.values.set (index_of key nb.keys) value })) := by
    rw [e3, e1, List.append_assoc, kv_insert_append_lt, kv_insert_append_gt, List.append_assoc]
    · congr 2
      simp only [leaf_pairs, hnb, heap_get_set_eq _ hnb]
      exact kv_insert_zip_old key value nb.keys nb.values hvl hk okb.sorted
    · intro x hx
      exact bnd_lt_bnd.1 (lt_of_lt_of_le hkin.2 (hB x hx))
    · intro x hx
      exact bnd_lt_bnd.1 (lt_of_lt_of_le (hA x hx) hkin.1)
  rw [hkv]
  exact hU

theorem insert_at_values_eq {A : Type} (vs : List A) (p n : Nat) (v : A) (hl : vs.length = n)
    (hp : p ≤ n) :
    (if p < n then insert_at vs p v else vs ++ [v]) = insert_at vs p v := by
  by_cases h : p < n
  · simp [h]
  · have : p = vs.length := by omega
    simp [h, insert_at, this]

/-- Entering a new key into its leaf: the leaf may now be full. -/
theorem InvX.insert_leaf {t : bptree K V} {g : Nat → Option (Info K)} {L : List Nat}
    {kv : List (K × V)} (hI : InvX t g L kv none 0 0)
    {b : Nat} {ib : Info K} {nb : bpnode K V} (hb : g b = some ib)
    (hnb : heap_get t.heap b = some nb) (hty : nb.type = bpnode_type.NODE_LEAF)
    (hbL : b ∈ L) {key : K} (hlo : ib.lo ≤ bnd key) (hhi : bnd key < ib.hi)
    (hk : key ∉ nb.keys) (value : V) :
    insert_leaf_node t b key value =
      leaf_split_if_full { t with
            heap := heap_set t.heap b
                { nb with keys := insert_at nb.keys (upper_pos key nb.keys) key,
                          values := insert_at nb.values (upper_pos key nb.keys) value,
                          num_keys := wrap16 (nb.num_keys + 1) } } b ∧
    InvX { t with
          heap := heap_set t.heap b
              { nb with keys := insert_at nb.keys (upper_pos key nb.keys) key,
                        values := insert_at nb.values (upper_pos key nb.keys) value,
                        num_keys := wrap16 (nb.num_keys + 1) } } g L
      (kv_insert key value kv) (some b) 0 1 := by
  obtain ⟨nb0, q0, okb⟩ := hI.nodes b ib hb
  rw [hnb] at q0
  cases q0
  have hvl := (okb.leaf hty).2
  have o1 := okb.occ_hi
  have o2 := okb.occ_lo
  have o3 := okb.occ_in
  simp only [reduceCtorEq, if_false] at o1 o2 o3
  have hpos := upper_pos_le key nb.keys
  have hm16 := hI.m16
  constructor
  · have hc : ¬ (upper_pos key nb.keys < nb.keys.length ∧
        nb.values.length < upper_pos key nb.keys) := by omega
    simp only [insert_leaf_node, hnb, hc, if_false,
      insert_at_values_eq nb.values (upper_pos key nb.keys) nb.keys.length value hvl hpos]
  · have hlen := length_insert_at nb.keys (upper_pos key nb.keys) key hpos
    have hU := hI.update_leaf hb hnb hty (fun a _ => by simp)
      { nb with keys := insert_at nb.keys (upper_pos key nb.keys) key,
                values := insert_at nb.values (upper_pos key nb.keys) value,
                num_keys := wrap16 (nb.num_keys + 1) } rfl rfl rfl (some b) 0 1
      (by
        show wrap16 (nb.num_keys + 1) = _
        rw [okb.nk, hlen, wrap16_id (by omega) (by omega)]
        push_cast
        ring)
      (insert_at_sorted key nb.keys okb.sorted hk)
      (by
        intro k hkm
        rcases mem_insert_at_imp hkm with h | h
        · rw [h]; exact hlo
        · exact okb.lob k h)
      (by
        intro k hkm
        rcases mem_insert_at_imp hkm with h | h
        · rw [h]; exact hhi
        · exact okb.hib k h)
      (by
        show (insert_at nb.values _ value).length = (insert_at nb.keys _ key).length
        rw [hlen, length_insert_at _ _ _ (by omega), hvl])
      (by
        show (insert_at nb.keys _ key).length < _
        rw [hlen]; simp; omega)
      (by
        intro hr
        show _ ≤ (insert_at nb.keys _ key).length + _
        rw [hlen]
        have := o2 hr
        simp; omega)
      (by
        show _ ≤ (insert_at nb.keys _ key).length + _
        rw [hlen]; simp)
    obtain ⟨A, B, e1, hA, hB, e2⟩ := hI.kv_split hb hbL
    have e3 := e2 (heap_set t.heap b
      { nb with keys := insert_at nb.keys (upper_pos key nb.keys) key,
                values := insert_at nb.values (upper_pos key nb.keys) value,
                num_keys := wrap16 (nb.num_keys + 1) })
      (fun a ha => heap_get_set_ne _ (Ne.symm ha))
    have hkv : kv_insert key value kv =
        L.flatMap (leaf_pairs (heap_set t.heap b
          { nb with keys := insert_at nb.keys (upper_pos key nb.keys) key,
                    values := insert_at nb.values (upper_pos key nb.keys) value,
                    num_keys := wrap16 (nb.num_keys + 1) })) := by
      rw [e3, e1, List.append_assoc, kv_insert_append_lt, kv_insert_append_gt, List.append_assoc]
      · congr 2
        simp only [leaf_pairs, hnb, heap_get_set_eq _ hnb]
        exact kv_insert_zip_new key value nb.keys nb.values hvl hk
      · intro x hx
        exact bnd_lt_bnd.1 (lt_of_lt_of_le hhi (hB x hx))
      · intro x hx
        exact bnd_lt_bnd.1 (lt_of_lt_of_le (hA x hx) hlo)
    rw [hkv]
    exact hU

end ins1

end BPlus

namespace BPlus

section ins2
variable {K V : Type} [LinearOrder K]

/-! ### Entering a separator and a child into an inner node -/

theorem getElem?_insert_at {A : Type} (l : List A) (p : Nat) (x : A) (hp : p ≤ l.length)
    (j : Nat) :
    (insert_at l p x)[j]? = if j < p then l[j]? else if j = p then some x else l[j - 1]? := by
  simp only [insert_at]
  by_cases h1 : j < p
  · rw [List.getElem?_append_left (by simp; omega)]
    simp [h1, List.getElem?_take]
  · rw [List.getElem?_append_right (by simp; omega)]
    simp only [List.length_take, Nat.min_eq_left hp, h1, if_false]
    by_cases h2 : j = p
    · simp [h2]
    · have : j - p = (j - p - 1) + 1 := by omega
      rw [this, List.getElem?_cons_succ, List.getElem?_drop]
      simp only [h2, if_false]
      congr 1
      omega

theorem slot_hi_insert_at (ks : List K) (p : Nat) (x : K) (hi : Bound K) (hp : p ≤ ks.length)
    (j : Nat) :
    slot_hi (insert_at ks p x) hi j =
      if j < p then slot_hi ks hi j else if j = p then bnd x else slot_hi ks hi (j - 1) := by
  simp only [slot_hi, getElem?_insert_at ks p x hp j]
  by_cases h1 : j < p
  · simp [h1]
  · by_cases h2 : j = p
    · simp [h2]
    · simp [h1, h2]

theorem slot_lo_eq (lo : Bound K) (ks : List K) (q : Nat) (hq : q < ks.length) :
    slot_lo lo ks (q + 1) = slot_hi ks lo q := by
  rw [slot_lo_succ lo ks q hq, slot_hi_lt (List.getElem?_eq_getElem hq)]

theorem slot_lo_insert_at (lo : Bound K) (ks : List K) (p : Nat) (x : K) (hp : p ≤ ks.length)
    (j : Nat) (hj : j ≤ ks.length + 1) :
    slot_lo lo (insert_at ks p x) j =
      if j ≤ p then slot_lo lo ks j else if j = p + 1 then bnd x else slot_lo lo ks (j - 1) := by
  have hlen := length_insert_at ks p x hp
  cases j with
  | zero => simp
  | succ q =>
    rw [slot_lo_eq lo _ q (by rw [hlen]; omega)]
    rw [slot_hi_insert_at ks p x lo hp q]
    by_cases h1 : q < p
    · have : q + 1 ≤ p := by omega
      simp only [h1, this, if_true]
      rw [slot_lo_eq lo ks q (by omega)]
    · by_cases h2 : q = p
      · simp [h2]
      · have a1 : ¬ q + 1 ≤ p := by omega
        have a2 : ¬ q + 1 = p + 1 := by omega
        simp only [h1, h2, a1, a2, if_false]
        have : q + 1 - 1 = (q - 1) + 1 := by omega
        rw [this, slot_lo_eq lo ks (q - 1) (by omega)]

/-- A key strictly inside a slot is none of the separators. -/
theorem not_mem_of_slot {lo hi : Bound K} {ks : List K} {j : Nat} {x : K}
    (hs : ks.Pairwise (fun a b => a < b)) (hj : j ≤ ks.length)
    (h1 : slot_lo lo ks j < bnd x) (h2 : bnd x < slot_hi ks hi j) : x ∉ ks := by
  intro hx
  obtain ⟨q, hq, hqe⟩ := List.mem_iff_getElem.1 hx
  by_cases hqj : q < j
  · cases j with
    | zero => omega
    | succ j0 =>
      have hj0 : j0 < ks.length := by omega
      rw [slot_lo_succ lo ks j0 hj0, bnd_lt_bnd] at h1
      by_cases hq0 : q = j0
      · subst hq0
        rw [hqe] at h1
        exact lt_irrefl _ h1
      · have := List.pairwise_iff_getElem.1 hs q j0 hq hj0 (by omega)
        rw [hqe] at this
        exact lt_irrefl _ (lt_trans h1 this)
  · have hjl : j < ks.length := by omega
    rw [slot_hi_lt (List.getElem?_eq_getElem hjl), bnd_lt_bnd] at h2
    by_cases hq0 : q = j
    · subst hq0
      rw [hqe] at h2
      exact lt_irrefl _ h2
    · have := List.pairwise_iff_getElem.1 hs j q hjl hq (by omega)
      rw [hqe] at this
      exact lt_irrefl _ (lt_trans h2 this)

/-- What `inner_insert_entry` computes when the left child sits in the slot
that contains the new separator. -/
theorem inner_insert_entry_eq {pd : bpnode K V} {lo hi : Bound K} {j n : Nat} {sep : K}
    (w : Nat)
    (hs : pd.keys.Pairwise (fun a b => a < b))
    (hl : pd.children.length = pd.keys.length + 1)
    (hj : pd.children[j]? = some n)
    (h1 : slot_lo lo pd.keys j < bnd sep) (h2 : bnd sep < slot_hi pd.keys hi j) :
    upper_pos sep pd.keys = j ∧
    inner_insert_entry pd sep n w = some
      { pd with keys := insert_at pd.keys j sep, children := insert_at pd.children (j + 1) w,
                num_keys := wrap16 (pd.num_keys + 1) } := by
  have hjl : j < pd.children.length := (List.getElem?_eq_some.1 hj).1
  have hjk : j ≤ pd.keys.length := by omega
  have hup : upper_pos sep pd.keys = j := by
    refine upper_pos_unique sep pd.keys hs lo hi j hjk (le_of_lt h1) h2 ?_
    by_cases h0 : j = 0
    · exact Or.inl h0
    · right
      intro hnil
      rw [hnil] at hjk
      simp at hjk
      exact h0 hjk
  refine ⟨hup, ?_⟩
  have hset : pd.children.set j n = pd.children := by
    apply List.ext_getElem?
    intro q
    rw [List.getElem?_set]
    by_cases hq : j = q
    · subst hq
      simp [hjl, hj]
    · simp [hq]
  simp only [inner_insert_entry, hup]
  by_cases hlt : j < pd.keys.length
  · have : ¬ pd.children.length ≤ j := by omega
    simp only [hlt, if_true, this, if_false, hset]
  · have hje : j = pd.keys.length := by omega
    have hc0 : ¬ pd.children.length = 0 := by omega
    simp only [hlt, if_false, hc0]
    congr 2
    · simp [insert_at, hje]
    · have hlast : pd.children.getLast? = some n := by
        rw [List.getLast?_eq_getElem?, ← hj]
        congr 1
        omega
      have hd := List.dropLast_append_getLast? n hlast
      rw [← List.take_append_drop (j + 1) pd.children] at hd
      have hdrop : List.drop (j + 1) pd.children = [] := List.drop_eq_nil_of_le (by omega)
      have htake : List.take (j + 1) pd.children = pd.children := List.take_of_length_le (by omega)
      simp only [insert_at, hdrop, htake]
      rw [← List.dropLast_append_getLast? n hlast]
      simp

end ins2

end BPlus

namespace BPlus

section ins3
variable {K V : Type} [LinearOrder K]

/-! ### The nodes around a split -/

theorem NodeOK.reparent {h : List (Option (bpnode K V))} {g : Nat → Option (Info K)}
    {m : Nat} {r e : Option Nat} {sl sh a : Nat} {i : Info K} {nd : bpnode K V}
    (ok : NodeOK h g m r e sl sh a i nd) (q : Option Nat) (hq : some a = r → q = none) :
    NodeOK h g m r e sl sh a i { nd with parent := q } :=
  ⟨ok.nk, ok.lohi, ok.sorted, ok.lob, ok.hib, ok.kind, ok.leaf, ok.down, ok.up, hq,
    ok.occ_hi, ok.occ_lo, ok.occ_in⟩

theorem NodeOK.frame_up {h h1 : List (Option (bpnode K V))} {g g1 : Nat → Option (Info K)}
    {m : Nat} {r r1 e e1 : Option Nat} {sl sh sl1 sh1 a : Nat} {i : Info K} {nd : bpnode K V}
    (ok : NodeOK h g m r e sl sh a i nd)
    (he : e ≠ some a)
    (hstep : ∀ d c lo1 hi1, c ∈ nd.children → ChildOK h g a d c lo1 hi1 →
      ChildOK h1 g1 a d c lo1 hi1)
    (hr : some a = r1 ↔ some a = r)
    (hu : some a ≠ r1 → ∃ p ip pd, g1 p = some ip ∧ heap_get h1 p = some pd ∧
        pd.type = bpnode_type.NODE_INNER ∧ a ∈ pd.children) :
    NodeOK h1 g1 m r1 e1 sl1 sh1 a i nd := by
  have hsh : (if e = some a then sh else 0) = 0 := by simp [he]
  have hsl : (if e = some a then sl else 0) = 0 := by simp [he]
  refine ⟨ok.nk, ok.lohi, ok.sorted, ok.lob, ok.hib, ok.kind, ok.leaf, ?_, hu, ?_, ?_, ?_, ?_⟩
  · intro ht
    obtain ⟨d, hd, hc⟩ := ok.down ht
    exact ⟨d, hd, hc.frame_children (hstep d)⟩
  · intro hh
    exact ok.uproot (hr.1 hh)
  · have := ok.occ_hi
    rw [hsh] at this
    omega
  · intro hne
    have := ok.occ_lo (fun hh => hne (hr.2 hh))
    rw [hsl] at this
    omega
  · have := ok.occ_in
    rw [hsl] at this
    omega

theorem split_ghost_new (g : Nat → Option (Info K)) (n w d : Nat) (lo hi : Bound K) (sep : K)
    (P : Nat) (iP : Info K) :
    split_ghost g n w d lo hi sep P iP w = some ⟨d, bnd sep, hi⟩ := by
  simp [split_ghost]

theorem split_ghost_old (g : Nat → Option (Info K)) {n w : Nat} (d : Nat) (lo hi : Bound K)
    (sep : K) (P : Nat) (iP : Info K) (hnw : n ≠ w) :
    split_ghost g n w d lo hi sep P iP n = some ⟨d, lo, bnd sep⟩ := by
  simp [split_ghost, hnw]

theorem split_ghost_parent (g : Nat → Option (Info K)) {n w : Nat} (d : Nat) (lo hi : Bound K)
    (sep : K) {P : Nat} (iP : Info K) (hPn : P ≠ n) (hPw : P ≠ w) :
    split_ghost g n w d lo hi sep P iP P = some iP := by
  simp [split_ghost, hPn, hPw]

theorem split_ghost_other (g : Nat → Option (Info K)) {n w : Nat} (d : Nat) (lo hi : Bound K)
    (sep : K) {P : Nat} (iP : Info K) {x : Nat} (hxn : x ≠ n) (hxw : x ≠ w) (hxP : x ≠ P) :
    split_ghost g n w d lo hi sep P iP x = g x := by
  simp [split_ghost, hxn, hxw, hxP]

theorem option_map_id_if {A : Type} (o : Option A) (c : Prop) [Decidable c] (f : A → A)
    (hc : ¬ c) : o.map (fun x => if c then f x else x) = o := by
  cases o <;> simp [hc]

/-- After node `n` has been split at `sep` into `n` and the fresh node `w`
and both have been entered under `P`, every live node is well formed as soon
as `P` is. -/
theorem InvX.split_nodes {t : bptree K V} {g : Nat → Option (Info K)} {L : List Nat}
    {kv : List (K × V)} (n : Nat) (hI : InvX t g L kv (some n) 0 1)
    {d : Nat} {lo hi : Bound K} {nd : bpnode K V}
    (hgn : g n = some ⟨d, lo, hi⟩) (hnd : heap_get t.heap n = some nd)
    (sep : K) (N1 W : bpnode K V) (X : List Nat) (P : Nat) (PD : bpnode K V) (iP : Info K)
    (h2 : List (Option (bpnode K V))) (r2 e2 : Option Nat) (sh2 : Nat)
    (h2n : heap_get h2 n = some { N1 with parent := some P })
    (h2w : heap_get h2 t.heap.length = some { W with parent := some P })
    (h2P : heap_get h2 P = some PD)
    (h2x : ∀ x, x ≠ n → x ≠ t.heap.length → x ≠ P →
      heap_get h2 x = (heap_get t.heap x).map
        (fun cd => if x ∈ X then { cd with parent := some t.heap.length } else cd))
    (hPn : P ≠ n) (hPw : P ≠ t.heap.length) (hPX : P ∉ X)
    (hPty : PD.type = bpnode_type.NODE_INNER)
    (hPcn : n ∈ PD.children) (hPcw : t.heap.length ∈ PD.children)
    (hPok : NodeOK h2 (split_ghost g n t.heap.length d lo hi sep P iP) t.m r2 e2 0 sh2 P iP PD)
    (hPht : ∀ i, g P = some i → i = iP ∧ i.ht = d + 1)
    (hPold : ∀ i pd, g P = some i → heap_get t.heap P = some pd →
      PD.parent = pd.parent ∧ ∀ a ∈ pd.children, a ∈ PD.children)
    (hnpar : ∀ p, nd.parent = some p → p = P)
    (hr2 : ∀ a, a ≠ n → a ≠ P → (some a = r2 ↔ some a = t.root))
    (hnr : some n ≠ r2) (hwr : some t.heap.length ≠ r2)
    (he2 : ∀ a, e2 = some a → a = P)
    (hty1 : N1.type = nd.type) (hty2 : W.type = nd.type)
    (hs1 : lo < bnd sep) (hs2 : bnd sep < hi)
    (hN_nk : N1.num_keys = (N1.keys.length : Int))
    (hN_sorted : N1.keys.Pairwise (fun x y => x < y))
    (hN_lob : ∀ k ∈ N1.keys, lo ≤ bnd k) (hN_hib : ∀ k ∈ N1.keys, bnd k < bnd sep)
    (hN_leaf : nd.type = bpnode_type.NODE_LEAF → N1.values.length = N1.keys.length)
    (hN_occ : N1.keys.length < t.m) (hN_min : (t.m - 1) / 2 ≤ N1.keys.length)
    (hN_one : 1 ≤ N1.keys.length)
    (hW_nk : W.num_keys = (W.keys.length : Int))
    (hW_sorted : W.keys.Pairwise (fun x y => x < y))
    (hW_lob : ∀ k ∈ W.keys, bnd sep ≤ bnd k) (hW_hib : ∀ k ∈ W.keys, bnd k < hi)
    (hW_leaf : nd.type = bpnode_type.NODE_LEAF → W.values.length = W.keys.length)
    (hW_occ : W.keys.length < t.m) (hW_min : (t.m - 1) / 2 ≤ W.keys.length)
    (hW_one : 1 ≤ W.keys.length)
    (hX : nd.type = bpnode_type.NODE_LEAF → X = [])
    (hXW : nd.type = bpnode_type.NODE_INNER → X = W.children)
    (hNc : ∀ d1, d = d1 + 1 → nd.type = bpnode_type.NODE_INNER →
      ChildrenOK t.heap g n d1 lo N1.keys N1.children (bnd sep))
    (hWc : ∀ d1, d = d1 + 1 → nd.type = bpnode_type.NODE_INNER →
      ChildrenOK t.heap g n d1 (bnd sep) W.keys W.children hi)
    (hdisj : ∀ c ∈ N1.children, c ∉ X)
    (hcover : ∀ c ∈ nd.children, c ∈ N1.children ∨ c ∈ X) :
    ∀ a i, split_ghost g n t.heap.length d lo hi sep P iP a = some i →
      ∃ nd1, heap_get h2 a = some nd1 ∧
        NodeOK h2 (split_ghost g n t.heap.length d lo hi sep P iP) t.m r2 e2 0 sh2 a i nd1 := by
  obtain ⟨nd0, q0, okn⟩ := hI.nodes n _ hgn
  rw [hnd] at q0
  cases q0
  have hnl : n < t.heap.length := heap_get_lt hnd
  have hnw : n ≠ t.heap.length := by omega
  have hgw : g t.heap.length = none := by
    cases hgw : g t.heap.length with
    | none => rfl
    | some i => exact absurd (hI.live_lt hgw) (by omega)
  have hwnone : heap_get t.heap t.heap.length = none := heap_get_length_none _ (le_refl _)
  -- the moved children
  have hXinfo : ∀ x ∈ X, ∃ d1 lo1 hi1 xd, d = d1 + 1 ∧ nd.type = bpnode_type.NODE_INNER ∧
      g x = some ⟨d1, lo1, hi1⟩ ∧ heap_get t.heap x = some xd ∧ xd.parent = some n := by
    intro x hx
    rcases okn.kind with hk | hk
    · rw [hX hk] at hx
      simp at hx
    · obtain ⟨d1, hd1, _⟩ := okn.down hk
      simp only at hd1
      rw [hXW hk] at hx
      obtain ⟨j, _, hgx, xd, q1, q2⟩ := (hWc d1 hd1 hk).mem hx
      exact ⟨d1, _, _, xd, hd1, hk, hgx, q1, q2⟩
  have hXn : ∀ x ∈ X, x ≠ n := by
    intro x hx hxn
    obtain ⟨d1, lo1, hi1, xd, q1, _, q3, _, _⟩ := hXinfo x hx
    rw [hxn, hgn] at q3
    simp only [Option.some.injEq, Info.mk.injEq] at q3
    omega
  have hXw : ∀ x ∈ X, x ≠ t.heap.length := by
    intro x hx hxn
    obtain ⟨d1, lo1, hi1, xd, q1, _, q3, _, _⟩ := hXinfo x hx
    rw [hxn, hgw] at q3
    cases q3
  have hXP : ∀ x ∈ X, x ≠ P := fun x hx hxP => hPX (hxP ▸ hx)
  -- the kept children
  have hNinfo : ∀ c ∈ N1.children, nd.type = bpnode_type.NODE_INNER →
      ∃ d1 lo1 hi1, d = d1 + 1 ∧ g c = some ⟨d1, lo1, hi1⟩ := by
    intro c hc hk
    obtain ⟨d1, hd1, _⟩ := okn.down hk
    simp only at hd1
    obtain ⟨j, _, hgc, _⟩ := (hNc d1 hd1 hk).mem hc
    exact ⟨d1, _, _, hd1, hgc⟩
  have hclean : ∀ c d1 lo1 hi1, g c = some ⟨d1, lo1, hi1⟩ → d1 + 1 ≤ d → c ∉ X →
      c ≠ n ∧ c ≠ t.heap.length ∧ c ≠ P := by
    intro c d1 lo1 hi1 hgc hle hcX
    refine ⟨?_, ?_, ?_⟩
    · intro hcn
      rw [hcn, hgn] at hgc
      simp only [Option.some.injEq, Info.mk.injEq] at hgc
      omega
    · intro hcw
      rw [hcw, hgw] at hgc
      cases hgc
    · intro hcP
      rw [hcP] at hgc
      have := (hPht _ hgc).2
      simp only at this
      omega
  have hsame : ∀ a, a ≠ n → a ≠ t.heap.length → a ≠ P → a ∉ X →
      heap_get h2 a = heap_get t.heap a ∧
      split_ghost g n t.heap.length d lo hi sep P iP a = g a := by
    intro a h1 h2 h3 h4
    exact ⟨by rw [h2x a h1 h2 h3, option_map_id_if _ _ _ h4], split_ghost_other g d lo hi sep iP h1 h2 h3⟩
  have he2n : e2 ≠ some n := fun h => hPn (he2 n h).symm
  have he2w : e2 ≠ some t.heap.length := fun h => hPw (he2 _ h).symm
  have hupP : ∀ a, a ∈ PD.children → ∃ ip pd, split_ghost g n t.heap.length d lo hi sep P iP P = some ip ∧
      heap_get h2 P = some pd ∧ pd.type = bpnode_type.NODE_INNER ∧ a ∈ pd.children :=
    fun a ha => ⟨iP, PD, split_ghost_parent g d lo hi sep iP hPn hPw, h2P, hPty, ha⟩
  refine hI.rebuild h2 _ r2 e2 0 sh2
    (fun a => a = n ∨ a = t.heap.length ∨ a = P ∨ a ∈ X) ?_ ?_ ?_ ?_ ?_ ?_
  · intro a ha
    simp only [not_or] at ha
    exact hsame a ha.1 ha.2.1 ha.2.2.1 ha.2.2.2
  · intro c cd hD hgc hcd
    rcases hD with h | h | h | h
    · subst h
      rw [hnd] at hcd
      cases hcd
      right
      intro p hp
      exact Or.inr (Or.inr (Or.inl (hnpar p hp)))
    · subst h
      exact absurd hgw hgc
    · subst h
      left
      cases hgP : g c with
      | none => exact absurd hgP hgc
      | some i =>
        obtain ⟨q1, _⟩ := hPht i hgP
        refine ⟨by rw [split_ghost_parent g d lo hi sep iP hPn hPw, q1], PD, h2P, ?_⟩
        exact (hPold i cd hgP hcd).1
    · right
      intro p hp
      obtain ⟨d1, lo1, hi1, xd, _, _, _, q4, q5⟩ := hXinfo c h
      rw [hcd] at q4
      cases q4
      rw [hp] at q5
      cases q5
      exact Or.inl rfl
  · intro p pd hD hgp hpd hpty a ha hDa
    simp only [not_or] at hDa
    rcases hD with h | h | h | h
    · subst h
      rw [hnd] at hpd
      cases hpd
      rcases hcover a ha with hc | hc
      · exact ⟨_, _, split_ghost_old g d lo hi sep P iP hnw, h2n, by simpa [hty1] using hpty, hc⟩
      · exact absurd hc hDa.2.2.2
    · subst h
      exact absurd hgw hgp
    · subst h
      cases hgP : g p with
      | none => exact absurd hgP hgp
      | some i => exact hupP a ((hPold i pd hgP hpd).2 a ha)
    · have hs := hsame
      refine ⟨?_, { pd with parent := some t.heap.length }, ?_, ?_, hpty, ha⟩
      · exact (Option.ne_none_iff_exists.1 hgp).choose
      · rw [split_ghost_other g d lo hi sep iP (hXn p h) (hXw p h) (hXP p h)]
        exact (Option.ne_none_iff_exists.1 hgp).choose_spec.symm
      · rw [h2x p (hXn p h) (hXw p h) (hXP p h), hpd]
        simp [h]
  · intro a ha
    simp only [not_or] at ha
    exact hr2 a ha.1 ha.2.2.1
  · intro a ha
    simp only [not_or] at ha
    intro h
    cases h
    exact ha.1 rfl
  · intro a i hD hga
    rcases hD with h | h | h | h
    · -- the left half
      subst h
      rw [split_ghost_old g d lo hi sep P iP hnw] at hga
      cases hga
      refine ⟨_, h2n, ?_⟩
      refine ⟨hN_nk, hs1, hN_sorted, hN_lob, hN_hib, by simpa [hty1] using okn.kind, ?_, ?_, ?_, ?_,
        ?_, ?_, ?_⟩
      · intro hl
        have hl1 : nd.type = bpnode_type.NODE_LEAF := by simpa [hty1] using hl
        exact ⟨(okn.leaf hl1).1, hN_leaf hl1⟩
      · intro hin
        have hk : nd.type = bpnode_type.NODE_INNER := by simpa [hty1] using hin
        obtain ⟨d1, hd1, _⟩ := okn.down hk
        simp only at hd1
        refine ⟨d1, hd1, ?_⟩
        refine (hNc d1 hd1 hk).frame_children ?_
        intro c lo1 hi1 hc hco
        obtain ⟨hgc, cd, q1, q2⟩ := hco
        obtain ⟨c1, c2, c3⟩ := hclean c d1 _ _ hgc (by omega) (hdisj c hc)
        obtain ⟨s1, s2⟩ := hsame c c1 c2 c3 (hdisj c hc)
        exact ⟨by rw [s2, hgc], cd, by rw [s1, q1], q2⟩
      · intro _
        exact ⟨P, hupP a hPcn⟩
      · intro h
        exact absurd h hnr
      · simp only [if_neg he2n]
        exact hN_occ
      · intro _
        simp only [if_neg he2n]
        exact hN_min
      · simp only [if_neg he2n]
        exact hN_one
    · -- the new node
      subst h
      rw [split_ghost_new] at hga
      cases hga
      refine ⟨_, h2w, ?_⟩
      refine ⟨hW_nk, hs2, hW_sorted, hW_lob, hW_hib, by simpa [hty2] using okn.kind, ?_, ?_, ?_, ?_,
        ?_, ?_, ?_⟩
      · intro hl
        have hl1 : nd.type = bpnode_type.NODE_LEAF := by simpa [hty2] using hl
        exact ⟨(okn.leaf hl1).1, hW_leaf hl1⟩
      · intro hin
        have hk : nd.type = bpnode_type.NODE_INNER := by simpa [hty2] using hin
        obtain ⟨d1, hd1, _⟩ := okn.down hk
        simp only at hd1
        refine ⟨d1, hd1, ?_⟩
        refine (hWc d1 hd1 hk).frame_children ?_
        intro c lo1 hi1 hc hco
        obtain ⟨hgc, cd, q1, q2⟩ := hco
        have hcX : c ∈ X := by rw [hXW hk]; exact hc
        refine ⟨by rw [split_ghost_other g d lo hi sep iP (hXn c hcX) (hXw c hcX) (hXP c hcX), hgc],
          { cd with parent := some t.heap.length }, ?_, rfl⟩
        rw [h2x c (hXn c hcX) (hXw c hcX) (hXP c hcX), q1]
        simp [hcX]
      · intro _
        exact ⟨P, hupP _ hPcw⟩
      · intro h
        exact absurd h hwr
      · simp only [if_neg he2w]
        exact hW_occ
      · intro _
        simp only [if_neg he2w]
        exact hW_min
      · simp only [if_neg he2w]
        exact hW_one
    · -- the parent
      subst h
      rw [split_ghost_parent g d lo hi sep iP hPn hPw] at hga
      cases hga
      exact ⟨PD, h2P, hPok⟩
    · -- a moved child
      obtain ⟨d1, lo1, hi1, xd, q1, q2, q3, q4, q5⟩ := hXinfo a h
      rw [split_ghost_other g d lo hi sep iP (hXn a h) (hXw a h) (hXP a h)] at hga
      obtain ⟨xd0, r1, okx⟩ := hI.nodes a i hga
      rw [q4] at r1
      cases r1
      rw [q3] at hga
      cases hga
      have hxroot : some a ≠ t.root := by
        intro hr
        have := okx.uproot hr
        rw [q5] at this
        cases this
      have hxr2 : some a ≠ r2 := fun hr => hxroot ((hr2 a (hXn a h) (hXP a h)).1 hr)
      refine ⟨{ xd with parent := some t.heap.length }, ?_, ?_⟩
      · rw [h2x a (hXn a h) (hXw a h) (hXP a h), q4]
        simp [h]
      · refine NodeOK.reparent ?_ _ (fun hr => absurd hr hxr2)
        refine okx.frame_up (fun he => hXn a h (by cases he; rfl)) ?_ ?_ ?_
        · intro d2 c lo2 hi2 hc hco
          obtain ⟨hgc, cd, s1, s2⟩ := hco
          have hxin : xd.type = bpnode_type.NODE_INNER := by
            have hcroot : some c ≠ t.root := by
              intro hr
              obtain ⟨cd0, t1, okc⟩ := hI.nodes c _ hgc
              rw [s1] at t1
              cases t1
              have := okc.uproot hr
              rw [s2] at this
              cases this
            obtain ⟨p1, ip1, pd1, j, u1, u2, u3, u4, _⟩ := hI.parent hgc s1 hcroot
            rw [s2] at u1
            cases u1
            rw [q4] at u3
            cases u3
            exact u4
          obtain ⟨d3, hd3, hch⟩ := okx.down hxin
          simp only at hd3
          obtain ⟨j, _, hgc3, _⟩ := hch.mem hc
          have hcX : c ∉ X := by
            intro hcX
            obtain ⟨d4, _, _, _, u1, _, u3, _, _⟩ := hXinfo c hcX
            rw [hgc3] at u3
            simp only [Option.some.injEq, Info.mk.injEq] at u3
            omega
          obtain ⟨c1, c2, c3⟩ := hclean c d3 _ _ hgc3 (by omega) hcX
          obtain ⟨v1, v2⟩ := hsame c c1 c2 c3 hcX
          exact ⟨by rw [v2, hgc], cd, by rw [v1, s1], s2⟩
        · constructor
          · intro hr; exact absurd hr hxr2
          · intro hr; exact absurd hr hxroot
        · intro _
          have hk : nd.type = bpnode_type.NODE_INNER := q2
          exact ⟨_, _, _, split_ghost_new g n _ d lo hi sep P iP, h2w, by simpa [hty2] using hk,
            by simpa [hXW hk] using h⟩

end ins3

end BPlus

namespace BPlus

section ins4
variable {K V : Type} [LinearOrder K]

/-! ### Slots of a prefix and of a suffix of the separators -/

theorem slot_lo_ge {lo : Bound K} {ks : List K} (hlo : ∀ k ∈ ks, lo ≤ bnd k) (j : Nat)
    (hj : j ≤ ks.length) : lo ≤ slot_lo lo ks j := by
  cases j with
  | zero => simp
  | succ q =>
    rw [slot_lo_succ lo ks q (by omega)]
    exact hlo _ (List.getElem_mem _)

theorem slot_hi_le {hi : Bound K} {ks : List K} (hhi : ∀ k ∈ ks, bnd k ≤ hi) (j : Nat) :
    slot_hi ks hi j ≤ hi := by
  unfold slot_hi
  cases h : ks[j]? with
  | none => exact le_refl _
  | some k =>
    obtain ⟨hl, he⟩ := List.getElem?_eq_some.1 h
    exact hhi k (he ▸ List.getElem_mem hl)

theorem slot_lo_take (lo : Bound K) (ks : List K) (k j : Nat) (hk : k ≤ ks.length)
    (hj : j ≤ k) : slot_lo lo (ks.take k) j = slot_lo lo ks j := by
  cases j with
  | zero => simp
  | succ q =>
    rw [slot_lo_succ lo ks q (by omega), slot_lo_succ lo _ q (by simp; omega)]
    simp

theorem slot_hi_take (hi : Bound K) (ks : List K) (k j : Nat) (hk : k < ks.length)
    (hj : j ≤ k) : slot_hi (ks.take k) (bnd ks[k]) j = slot_hi ks hi j := by
  by_cases hjk : j < k
  · have h1 : (ks.take k)[j]? = some ks[j] := by
      rw [List.getElem?_take]
      simp [hjk, List.getElem?_eq_getElem (show j < ks.length by omega)]
    rw [slot_hi_lt h1, slot_hi_lt (List.getElem?_eq_getElem (show j < ks.length by omega))]
  · have hje : j = k := by omega
    subst hje
    rw [slot_hi_ge (by simp), slot_hi_lt (List.getElem?_eq_getElem hk)]

theorem slot_lo_drop (lo : Bound K) (ks : List K) (k j : Nat) (hk : k < ks.length)
    (hj : k + 1 + j ≤ ks.length) :
    slot_lo (bnd ks[k]) (ks.drop (k + 1)) j = slot_lo lo ks (k + 1 + j) := by
  cases j with
  | zero =>
    rw [slot_lo_zero]
    exact (slot_lo_succ lo ks k hk).symm
  | succ q =>
    have hq : k + 1 + q < ks.length := by omega
    rw [slot_lo_eq _ _ q (by simp; omega)]
    have : k + 1 + (q + 1) = (k + 1 + q) + 1 := by omega
    rw [this, slot_lo_eq lo ks (k + 1 + q) hq]
    simp only [slot_hi, List.getElem?_drop]
    rw [List.getElem?_eq_getElem hq]

theorem slot_hi_drop (hi : Bound K) (ks : List K) (k j : Nat) :
    slot_hi (ks.drop (k + 1)) hi j = slot_hi ks hi (k + 1 + j) := by
  simp only [slot_hi, List.getElem?_drop]

theorem ChildrenOK.take_left {h : List (Option (bpnode K V))} {g : Nat → Option (Info K)}
    {a d : Nat} {lo hi : Bound K} {ks : List K} {cs : List Nat}
    (hc : ChildrenOK h g a d lo ks cs hi) (k : Nat) (hk : k < ks.length) :
    ChildrenOK h g a d lo (ks.take k) (cs.take (k + 1)) (bnd ks[k]) := by
  have hl := hc.length
  rw [ChildrenOK_iff]
  refine ⟨by simp; omega, ?_⟩
  intro j c hj
  rw [List.getElem?_take] at hj
  by_cases hjk : j < k + 1
  · simp only [hjk, if_true] at hj
    rw [slot_lo_take lo ks k j (by omega) (by omega), slot_hi_take hi ks k j hk (by omega)]
    exact hc.get hj
  · simp [hjk] at hj

theorem ChildrenOK.drop_right {h : List (Option (bpnode K V))} {g : Nat → Option (Info K)}
    {a d : Nat} {lo hi : Bound K} {ks : List K} {cs : List Nat}
    (hc : ChildrenOK h g a d lo ks cs hi) (k : Nat) (hk : k < ks.length) :
    ChildrenOK h g a d (bnd ks[k]) (ks.drop (k + 1)) (cs.drop (k + 1)) hi := by
  have hl := hc.length
  rw [ChildrenOK_iff]
  refine ⟨by simp; omega, ?_⟩
  intro j c hj
  rw [List.getElem?_drop] at hj
  have hjl : k + 1 + j < cs.length := (List.getElem?_eq_some.1 hj).1
  rw [slot_lo_drop lo ks k j hk (by omega), slot_hi_drop]
  exact hc.get hj

/-! ### Heights are bounded by the depth -/

theorem InvX.ht_le {t : bptree K V} {g : Nat → Option (Info K)} {L : List Nat}
    {kv : List (K × V)} {e : Option Nat} {sl sh : Nat} (hI : InvX t g L kv e sl sh)
    {a : Nat} {i : Info K} (ha : g a = some i) : (i.ht : Int) ≤ t.depth := by
  cases hr : t.root with
  | none =>
    have := (hI.root_none hr).1 a
    rw [ha] at this
    cases this
  | some r =>
    obtain ⟨D, hgr, hD⟩ := hI.root_some r hr
    rw [hD]
    -- an upper bound of all heights
    let B : Nat := (Finset.range t.heap.length).sup (fun x => (g x).elim 0 (fun i => i.ht))
    have hB : ∀ x ix, g x = some ix → ix.ht ≤ B := by
      intro x ix hx
      have h1 : x ∈ Finset.range t.heap.length := Finset.mem_range.2 (hI.live_lt hx)
      have h2 := Finset.le_sup (f := fun x => (g x).elim 0 (fun i => i.ht)) h1
      simpa [hx] using h2
    have key : ∀ k x ix, g x = some ix → B - ix.ht ≤ k → ix.ht ≤ D := by
      intro k
      induction k with
      | zero =>
        intro x ix hx hk
        by_cases hxr : some x = t.root
        · rw [hr] at hxr
          cases hxr
          rw [hgr] at hx
          cases hx
          exact le_refl _
        · obtain ⟨nd, hnd, _⟩ := hI.nodes x ix hx
          obtain ⟨p, ip, pd, j, _, q2, _, _, _, _, _, _, _, q10, _⟩ := hI.parent hx hnd hxr
          have := hB p ip q2
          omega
      | succ k ih =>
        intro x ix hx hk
        by_cases hxr : some x = t.root
        · rw [hr] at hxr
          cases hxr
          rw [hgr] at hx
          cases hx
          exact le_refl _
        · obtain ⟨nd, hnd, _⟩ := hI.nodes x ix hx
          obtain ⟨p, ip, pd, j, _, q2, _, _, _, _, _, _, _, q10, _⟩ := hI.parent hx hnd hxr
          have := hB p ip q2
          have := ih p ip q2 (by omega)
          omega
    exact_mod_cast key B a i ha (by omega)

end ins4

end BPlus

namespace BPlus

section ins5
variable {K V : Type} [LinearOrder K]

/-! ### Entering the two halves of a split node into the parent -/

theorem bpnode_parent_eta (nd : bpnode K V) (q : Option Nat) (h : nd.parent = q) :
    ({ nd with parent := q } : bpnode K V) = nd := by
  cases nd
  simp only at h
  subst h
  rfl

theorem SplitOK.moved {t : bptree K V} {g : Nat → Option (Info K)} {L : List Nat}
    {kv : List (K × V)} {e : Option Nat} {sl sh : Nat} (hI : InvX t g L kv e sl sh)
    {n d : Nat} {lo hi : Bound K} {nd : bpnode K V} {sep : K} {N1 W : bpnode K V}
    {X : List Nat} {h1 : List (Option (bpnode K V))}
    (S : SplitOK t g n d lo hi nd sep N1 W X h1)
    (hgn : g n = some ⟨d, lo, hi⟩) (hnd : heap_get t.heap n = some nd) :
    ∀ x ∈ X, ∃ d1 lo1 hi1 xd, d = d1 + 1 ∧ nd.type = bpnode_type.NODE_INNER ∧
      g x = some ⟨d1, lo1, hi1⟩ ∧ heap_get t.heap x = some xd ∧ xd.parent = some n := by
  obtain ⟨nd0, q0, okn⟩ := hI.nodes n _ hgn
  rw [hnd] at q0
  cases q0
  intro x hx
  rcases okn.kind with hk | hk
  · rw [S.hX hk] at hx
    simp at hx
  · obtain ⟨d1, hd1, _⟩ := okn.down hk
    simp only at hd1
    rw [S.hXW hk] at hx
    obtain ⟨j, _, hgx, xd, q1, q2⟩ := (S.hWc d1 hd1 hk).mem hx
    exact ⟨d1, _, _, xd, hd1, hk, hgx, q1, q2⟩

/-- The split node is not the root: the separator and the new node are
entered into the parent, which may become overfull. -/
theorem InvX.commit_parent {t : bptree K V} {g : Nat → Option (Info K)} {L : List Nat}
    {kv : List (K × V)} {n : Nat} (hI : InvX t g L kv (some n) 0 1)
    {d : Nat} {lo hi : Bound K} {nd : bpnode K V}
    (hgn : g n = some ⟨d, lo, hi⟩) (hnd : heap_get t.heap n = some nd)
    {sep : K} {N1 W : bpnode K V} {X : List Nat} {h1 : List (Option (bpnode K V))}
    (S : SplitOK t g n d lo hi nd sep N1 W X h1)
    {p : Nat} (hpar : nd.parent = some p) (L1 : List Nat)
    (hLL : ∀ ip, g p = some ip →
      LeafLevel h1 (split_ghost g n t.heap.length d lo hi sep p ip) L1 kv) :
    ∃ ip pd pd1, g p = some ip ∧ ip.ht = d + 1 ∧ heap_get h1 p = some pd ∧
      pd.type = bpnode_type.NODE_INNER ∧
      inner_insert_entry pd sep n t.heap.length = some pd1 ∧
      split_ghost g n t.heap.length d lo hi sep p ip p = some ip ∧
      InvX { t with heap := heap_set h1 p pd1 }
        (split_ghost g n t.heap.length d lo hi sep p ip) L1 kv (some p) 0 1 := by
  obtain ⟨nd0, q0, okn⟩ := hI.nodes n _ hgn
  rw [hnd] at q0
  cases q0
  have hnroot : some n ≠ t.root := by
    intro hr
    have := okn.uproot hr
    rw [hpar] at this
    cases this
  obtain ⟨p0, ip, pd, j, u1, hgp, hpd, hpty, hj, _, _, hpl, hpk, hpht, hlo, hhi⟩ :=
    hI.parent hgn hnd hnroot
  rw [hpar] at u1
  cases u1
  simp only at hpht hlo hhi
  obtain ⟨pd0, q0, okp⟩ := hI.nodes p ip hgp
  rw [hpd] at q0
  cases q0
  have hnl : n < t.heap.length := heap_get_lt hnd
  have hpl2 : p < t.heap.length := heap_get_lt hpd
  have hnw : n ≠ t.heap.length := by omega
  have hpw : p ≠ t.heap.length := by omega
  have hpn : p ≠ n := by
    intro h
    rw [h, hgn] at hgp
    cases hgp
    simp only at hpht
    omega
  have hgw : g t.heap.length = none := by
    cases hgw : g t.heap.length with
    | none => rfl
    | some i => exact absurd (hI.live_lt hgw) (by omega)
  have hmoved := S.moved hI hgn hnd
  have hpX : p ∉ X := by
    intro hx
    obtain ⟨d1, lo1, hi1, xd, r1, _, r3, _, _⟩ := hmoved p hx
    rw [hgp] at r3
    cases r3
    simp only at hpht
    omega
  have hjl : j < pd.children.length := (List.getElem?_eq_some.1 hj).1
  have hjk : j ≤ pd.keys.length := by omega
  have hslo : slot_lo ip.lo pd.keys j < bnd sep := by rw [← hlo]; exact S.hs1
  have hshi : bnd sep < slot_hi pd.keys ip.hi j := by rw [← hhi]; exact S.hs2
  obtain ⟨hup, hins⟩ := inner_insert_entry_eq t.heap.length
    okp.sorted hpl hj hslo hshi
  have h1p : heap_get h1 p = some pd := by
    rw [S.h1x p hpn hpw, hpd]
    simp [hpX]
  have hpe : (some n : Option Nat) ≠ some p := fun h => hpn (by cases h; rfl)
  have hplen : pd.keys.length < t.m := by
    have := okp.occ_hi
    simpa [hpe] using this
  have hm16 := hI.m16
  -- the heap after the parent has been updated
  have g2p := split_ghost_parent g d lo hi sep ip hpn hpw
  have g2n := split_ghost_old g d lo hi sep p ip hnw
  have g2w := split_ghost_new g n t.heap.length d lo hi sep p ip
  have h2p : heap_get (heap_set h1 p
      { pd with keys := insert_at pd.keys j sep,
                children := insert_at pd.children (j + 1) t.heap.length,
                num_keys := wrap16 (pd.num_keys + 1) }) p = some
      { pd with keys := insert_at pd.keys j sep,
                children := insert_at pd.children (j + 1) t.heap.length,
                num_keys := wrap16 (pd.num_keys + 1) } := heap_get_set_eq _ h1p
  have h2o : ∀ x, x ≠ p → heap_get (heap_set h1 p
      { pd with keys := insert_at pd.keys j sep,
                children := insert_at pd.children (j + 1) t.heap.length,
                num_keys := wrap16 (pd.num_keys + 1) }) x = heap_get h1 x :=
    fun x hx => heap_get_set_ne _ (Ne.symm hx)
  have hsame : ∀ a, a ≠ n → a ≠ t.heap.length → a ≠ p → a ∉ X →
      heap_get (heap_set h1 p
      { pd with keys := insert_at pd.keys j sep,
                children := insert_at pd.children (j + 1) t.heap.length,
                num_keys := wrap16 (pd.num_keys + 1) }) a = heap_get t.heap a ∧
      split_ghost g n t.heap.length d lo hi sep p ip a = g a := by
    intro a a1 a2 a3 a4
    exact ⟨by rw [h2o a a3, S.h1x a a1 a2, option_map_id_if _ _ _ a4],
      split_ghost_other g d lo hi sep ip a1 a2 a3⟩
  have hklen := length_insert_at pd.keys j sep hjk
  have hclen := length_insert_at pd.children (j + 1) t.heap.length (by omega)
  -- the parent is well formed up to its occupancy
  have hPok : NodeOK (heap_set h1 p
      { pd with keys := insert_at pd.keys j sep,
                children := insert_at pd.children (j + 1) t.heap.length,
                num_keys := wrap16 (pd.num_keys + 1) })
      (split_ghost g n t.heap.length d lo hi sep p ip) t.m t.root (some p) 0 1 p ip
      { pd with keys := insert_at pd.keys j sep,
                children := insert_at pd.children (j + 1) t.heap.length,
                num_keys := wrap16 (pd.num_keys + 1) } := by
    have hlob : ∀ k ∈ pd.keys, ip.lo ≤ bnd k := okp.lob
    have hhib : ∀ k ∈ pd.keys, bnd k ≤ ip.hi := fun k hk => le_of_lt (okp.hib k hk)
    refine ⟨?_, okp.lohi, ?_, ?_, ?_, Or.inr hpty, ?_, ?_, ?_, ?_, ?_, ?_, ?_⟩
    · simp only [hklen, hpk]
      rw [wrap16_id (by omega) (by omega)]
      push_cast
      ring
    · have := insert_at_sorted sep pd.keys okp.sorted
        (not_mem_of_slot okp.sorted hjk hslo hshi)
      rw [hup] at this
      exact this
    · intro k hk
      rcases mem_insert_at_imp hk with h | h
      · rw [h]
        exact le_trans (slot_lo_ge hlob j hjk) (le_of_lt hslo)
      · exact okp.lob k h
    · intro k hk
      rcases mem_insert_at_imp hk with h | h
      · rw [h]
        exact lt_of_lt_of_le hshi (slot_hi_le hhib j)
      · exact okp.hib k h
    · intro hl
      simp only [hpty] at hl
      cases hl
    · intro _
      refine ⟨d, hpht, ?_⟩
      simp only
      rw [ChildrenOK_iff]
      refine ⟨by rw [hclen, hklen, hpl], ?_⟩
      intro q c hq
      have hql := (List.getElem?_eq_some.1 hq).1
      rw [hclen] at hql
      rw [getElem?_insert_at _ _ _ (by omega)] at hq
      rw [slot_lo_insert_at _ _ _ _ hjk q (by omega), slot_hi_insert_at _ _ _ _ hjk]
      -- an old child other than the split node keeps its description
      have hold : ∀ q0 c0, q0 ≠ j → pd.children[q0]? = some c0 →
          ChildOK (heap_set h1 p
            { pd with keys := insert_at pd.keys j sep,
                      children := insert_at pd.children (j + 1) t.heap.length,
                      num_keys := wrap16 (pd.num_keys + 1) })
            (split_ghost g n t.heap.length d lo hi sep p ip) p d c0
            (slot_lo ip.lo pd.keys q0) (slot_hi pd.keys ip.hi q0) := by
        intro q0 c0 hq0 hc0
        obtain ⟨d1, cd, r1, r2, r3, r4, _⟩ := hI.child hgp hpd hpty hc0
        have hd1 : d1 = d := by omega
        subst hd1
        have c1 : c0 ≠ n := by
          intro h
          rw [h] at hc0
          exact hq0 (hI.children_inj hgp hpd hpty hc0 hj)
        have c2 : c0 ≠ t.heap.length := by
          have := heap_get_lt r3
          omega
        have c3 : c0 ≠ p := by
          intro h
          rw [h, hgp] at r2
          have := congrArg Info.ht (Option.some.inj r2)
          simp only at this
          omega
        have c4 : c0 ∉ X := by
          intro hx
          obtain ⟨_, _, _, xd, _, _, _, s4, s5⟩ := hmoved c0 hx
          rw [r3] at s4
          cases s4
          rw [r4] at s5
          cases s5
          exact hpn rfl
        obtain ⟨v1, v2⟩ := hsame c0 c1 c2 c3 c4
        exact ⟨by rw [v2, r2], cd, by rw [v1, r3], r4⟩
      by_cases hq1 : q < j + 1
      · simp only [hq1, if_true] at hq
        by_cases hq2 : q = j
        · subst hq2
          rw [hj] at hq
          cases hq
          have a1 : q ≤ q := le_refl _
          have a2 : ¬ q < q := lt_irrefl _
          simp only [a1, a2, if_true, if_false]
          rw [← hlo]
          refine ⟨g2n, _, ?_, S.hp1.trans hpar⟩
          rw [h2o n hpn.symm, S.h1n]
        · have a1 : q ≤ j := by omega
          have a2 : q < j := by omega
          simp only [a1, a2, if_true]
          exact hold q c hq2 hq
      · by_cases hq2 : q = j + 1
        · subst hq2
          simp only [hq1, if_false, if_true] at hq
          cases hq
          have a1 : ¬ j + 1 ≤ j := by omega
          have a2 : ¬ j + 1 < j := by omega
          have a3 : ¬ j + 1 = j := by omega
          simp only [a1, a2, a3, if_true, if_false, Nat.add_sub_cancel]
          rw [← hhi]
          refine ⟨g2w, _, ?_, S.hp2.trans hpar⟩
          rw [h2o _ hpw.symm, S.h1w]
        · simp only [hq1, hq2, if_false] at hq
          have a1 : ¬ q ≤ j := by omega
          have a2 : ¬ q < j := by omega
          have a3 : ¬ q = j := by omega
          simp only [a1, a2, a3, hq2, if_false]
          exact hold (q - 1) c (by omega) hq
    · intro hne
      obtain ⟨pd0, _, _⟩ := hI.nodes p ip hgp
      obtain ⟨q, iq, qd, jq, _, v2, v3, v4, v5, _, _, _, _, v10, _⟩ := hI.parent hgp hpd hne
      have hqm : p ∈ qd.children := by
        obtain ⟨hl, he⟩ := List.getElem?_eq_some.1 v5
        exact he ▸ List.getElem_mem hl
      have c1 : q ≠ n := by
        intro h
        rw [h, hgn] at v2
        cases v2
        simp only at v10
        omega
      have c2 : q ≠ t.heap.length := by
        have := heap_get_lt v3
        omega
      have c3 : q ≠ p := by
        intro h
        rw [h, hgp] at v2
        cases v2
        omega
      have c4 : q ∉ X := by
        intro hx
        obtain ⟨d1, _, _, xd, s1, _, s3, _, _⟩ := hmoved q hx
        rw [v2] at s3
        cases s3
        simp only at v10
        omega
      obtain ⟨w1, w2⟩ := hsame q c1 c2 c3 c4
      exact ⟨q, iq, qd, by rw [w2, v2], by rw [w1, v3], v4, hqm⟩
    · exact okp.uproot
    · simp only [hklen, if_true]
      omega
    · intro hne
      have := okp.occ_lo hne
      simp only [hklen]
      simp only [hpe, if_false] at this
      omega
    · simp only [hklen]
      omega
  have hN1eta : ({ N1 with parent := some p } : bpnode K V) = N1 :=
    bpnode_parent_eta N1 _ (S.hp1.trans hpar)
  have hWeta : ({ W with parent := some p } : bpnode K V) = W :=
    bpnode_parent_eta W _ (S.hp2.trans hpar)
  have hwroot : some t.heap.length ≠ t.root := by
    intro hr
    obtain ⟨dd, hgr, _⟩ := hI.root_some _ hr.symm
    rw [hgw] at hgr
    cases hgr
  have hnodes := hI.split_nodes n hgn hnd sep N1 W X p _ ip
    (heap_set h1 p
      { pd with keys := insert_at pd.keys j sep,
                children := insert_at pd.children (j + 1) t.heap.length,
                num_keys := wrap16 (pd.num_keys + 1) }) t.root (some p) 1
    (by rw [h2o n hpn.symm, S.h1n, hN1eta])
    (by rw [h2o _ hpw.symm, S.h1w, hWeta])
    h2p
    (fun x x1 x2 x3 => by rw [h2o x x3, S.h1x x x1 x2])
    hpn hpw hpX hpty
    (by
      apply mem_insert_at.2
      right
      have hm : n ∈ pd.children := by
        obtain ⟨hl, he⟩ := List.getElem?_eq_some.1 hj
        exact he ▸ List.getElem_mem hl
      rw [← List.take_append_drop (j + 1) pd.children] at hm
      exact List.mem_append.1 hm)
    (mem_insert_at.2 (Or.inl rfl))
    hPok
    (by
      intro i hi
      rw [hgp] at hi
      cases hi
      exact ⟨rfl, hpht⟩)
    (by
      intro i pd2 _ hpd2
      rw [hpd] at hpd2
      cases hpd2
      refine ⟨rfl, ?_⟩
      intro a ha
      apply mem_insert_at.2
      right
      rw [← List.take_append_drop (j + 1) pd.children] at ha
      exact List.mem_append.1 ha)
    (by
      intro p1 hp1
      rw [hpar] at hp1
      cases hp1
      rfl)
    (fun a _ _ => Iff.rfl) hnroot hwroot
    (by
      intro a ha
      cases ha
      rfl)
    S.hty1 S.hty2 S.hs1 S.hs2 S.hN_nk S.hN_sorted S.hN_lob S.hN_hib S.hN_leaf S.hN_occ S.hN_min
    S.hN_one S.hW_nk S.hW_sorted S.hW_lob S.hW_hib S.hW_leaf S.hW_occ S.hW_min S.hW_one
    S.hX S.hXW S.hNc S.hWc S.hdisj S.hcover
  refine ⟨ip, pd, _, hgp, hpht, h1p, hpty, hins, g2p, ?_⟩
  have hLL2 : LeafLevel (heap_set h1 p
      { pd with keys := insert_at pd.keys j sep,
                children := insert_at pd.children (j + 1) t.heap.length,
                num_keys := wrap16 (pd.num_keys + 1) })
      (split_ghost g n t.heap.length d lo hi sep p ip) L1 kv := by
    refine (hLL ip hgp).frame_leaves ?_ ?_
    · intro x i xd hx hxd hxt
      have hxp : x ≠ p := by
        intro h
        rw [h, h1p] at hxd
        cases hxd
        rw [hpty] at hxt
        cases hxt
      exact ⟨rfl, xd, by rw [h2o x hxp, hxd], hxt, rfl, rfl, rfl⟩
    · intro x i xd hx hxd hxt
      have hxp : x ≠ p := by
        intro h
        rw [h, h2p] at hxd
        cases hxd
        simp only [hpty] at hxt
        cases hxt
      exact ⟨i, xd, hx, by rw [← h2o x hxp, hxd], hxt⟩
  refine ⟨hI.m3, hI.m16, hnodes, ?_, ?_, ?_, hLL2.chain, hLL2.last, hLL2.leaves, hLL2.kv_eq⟩
  · intro hr
    have := (hI.root_none hr).1 n
    rw [hgn] at this
    cases this
  · intro r hr
    obtain ⟨dd, q1, q2⟩ := hI.root_some r hr
    refine ⟨dd, ?_, q2⟩
    have r1 : r ≠ n := fun h => hnroot (by rw [hr, h])
    have r2 : r ≠ t.heap.length := fun h => hwroot (by rw [hr, h])
    by_cases r3 : r = p
    · rw [r3, g2p]
      rw [r3, hgp] at q1
      exact q1
    · rw [split_ghost_other g d lo hi sep ip r1 r2 r3, q1]
  · have := hI.depth_le
    simp only [heap_set_length, S.hlen]
    omega

end ins5

end BPlus

namespace BPlus

section ins6
variable {K V : Type} [LinearOrder K]

/-- The split node is the root: a new root is put above the two halves. -/
theorem InvX.commit_root {t : bptree K V} {g : Nat → Option (Info K)} {L : List Nat}
    {kv : List (K × V)} {n : Nat} (hI : InvX t g L kv (some n) 0 1)
    {d : Nat} {lo hi : Bound K} {nd : bpnode K V}
    (hgn : g n = some ⟨d, lo, hi⟩) (hnd : heap_get t.heap n = some nd)
    {sep : K} {N1 W : bpnode K V} {X : List Nat} {h1 : List (Option (bpnode K V))}
    (S : SplitOK t g n d lo hi nd sep N1 W X h1)
    (hpar : nd.parent = none) (L1 : List Nat)
    (hLL : LeafLevel h1
      (split_ghost g n t.heap.length d lo hi sep (t.heap.length + 1) ⟨d + 1, ⊥, ⊤⟩) L1 kv) :
    ∃ hp, new_root { t with heap := h1 } sep n t.heap.length =
        some { t with heap := hp, root := some (t.heap.length + 1), depth := t.depth + 1 } ∧
      hp.length = t.heap.length + 2 ∧ t.root = some n ∧
      heap_get hp (t.heap.length + 1) = some
        { type := bpnode_type.NODE_INNER, num_keys := 1, keys := [sep], parent := none,
          values := [], next := none, children := [n, t.heap.length] } ∧
      InvX { t with heap := hp, root := some (t.heap.length + 1), depth := t.depth + 1 }
        (split_ghost g n t.heap.length d lo hi sep (t.heap.length + 1) ⟨d + 1, ⊥, ⊤⟩)
        L1 kv none 0 0 := by
  obtain ⟨nd0, q0, okn⟩ := hI.nodes n _ hgn
  rw [hnd] at q0
  cases q0
  have hroot : t.root = some n := by
    by_contra hr
    obtain ⟨p0, ip, pd, j, u1, _⟩ := hI.parent hgn hnd (fun h => hr h.symm)
    rw [hpar] at u1
    cases u1
  obtain ⟨D, hgD, hD⟩ := hI.root_some n hroot
  rw [hgn] at hgD
  simp only [Option.some.injEq, Info.mk.injEq] at hgD
  obtain ⟨e1, e2, e3⟩ := hgD
  subst e1 e2 e3
  have hnl : n < t.heap.length := heap_get_lt hnd
  have hnw : n ≠ t.heap.length := by omega
  have hPn : t.heap.length + 1 ≠ n := by omega
  have hPw : t.heap.length + 1 ≠ t.heap.length := by omega
  have hgw : g t.heap.length = none := by
    cases hgw : g t.heap.length with
    | none => rfl
    | some i => exact absurd (hI.live_lt hgw) (by omega)
  have hgP : g (t.heap.length + 1) = none := by
    cases hgw : g (t.heap.length + 1) with
    | none => rfl
    | some i => exact absurd (hI.live_lt hgw) (by omega)
  have hmoved := S.moved hI hgn hnd
  have hPX : t.heap.length + 1 ∉ X := by
    intro hx
    obtain ⟨d1, lo1, hi1, xd, r1, _, r3, _, _⟩ := hmoved _ hx
    rw [hgP] at r3
    cases r3
  obtain ⟨hp, hnew, hplen, hpget⟩ := new_root_eq (t := { t with heap := h1 }) sep S.h1n S.h1w hnw
  simp only [S.hlen] at hnew hplen hpget
  have g2P := split_ghost_parent g d ⊥ ⊤ sep (⟨d + 1, ⊥, ⊤⟩ : Info K) hPn hPw
  have g2n := split_ghost_old g d ⊥ ⊤ sep (t.heap.length + 1) (⟨d + 1, ⊥, ⊤⟩ : Info K) hnw
  have g2w := split_ghost_new g n t.heap.length d ⊥ ⊤ sep (t.heap.length + 1)
    (⟨d + 1, ⊥, ⊤⟩ : Info K)
  have hpn : heap_get hp n = some { N1 with parent := some (t.heap.length + 1) } := by
    rw [hpget n]
    simp [hnw]
  have hpw : heap_get hp t.heap.length = some { W with parent := some (t.heap.length + 1) } := by
    rw [hpget]
    simp
  have hpP : heap_get hp (t.heap.length + 1) = some
      { type := bpnode_type.NODE_INNER, num_keys := 1, keys := [sep], parent := none,
        values := [], next := none, children := [n, t.heap.length] } := by
    rw [hpget]
    simp [hPn]
  have hpo : ∀ x, x ≠ n → x ≠ t.heap.length → x ≠ t.heap.length + 1 →
      heap_get hp x = heap_get h1 x := by
    intro x x1 x2 x3
    rw [hpget]
    simp [x1, x2, x3]
  have hm3 := hI.m3
  have hPok : NodeOK hp
      (split_ghost g n t.heap.length d ⊥ ⊤ sep (t.heap.length + 1) ⟨d + 1, ⊥, ⊤⟩) t.m
      (some (t.heap.length + 1)) none 0 0 (t.heap.length + 1) ⟨d + 1, ⊥, ⊤⟩
      { type := bpnode_type.NODE_INNER, num_keys := 1, keys := [sep], parent := none,
        values := [], next := none, children := [n, t.heap.length] } := by
    refine ⟨by simp, ?_, by simp, ?_, ?_, Or.inr rfl, ?_, ?_, ?_, ?_, ?_, ?_, ?_⟩
    · exact lt_of_lt_of_le (bot_lt_bnd sep) le_top
    · intro k _
      exact bot_le
    · intro k hk
      exact bnd_lt_top k
    · intro h
      cases h
    · intro _
      refine ⟨d, rfl, ?_⟩
      refine ⟨⟨g2n, _, hpn, rfl⟩, ?_⟩
      exact ⟨g2w, _, hpw, rfl⟩
    · intro h
      exact absurd rfl h
    · intro _
      rfl
    · simp
      omega
    · intro h
      exact absurd rfl h
    · simp
  have hnodes := hI.split_nodes n hgn hnd sep N1 W X (t.heap.length + 1) _ ⟨d + 1, ⊥, ⊤⟩
    hp (some (t.heap.length + 1)) none 0 hpn hpw hpP
    (fun x x1 x2 x3 => by rw [hpo x x1 x2 x3, S.h1x x x1 x2])
    hPn hPw hPX rfl (by simp) (by simp) hPok
    (by
      intro i hi
      rw [hgP] at hi
      cases hi)
    (by
      intro i pd2 hi
      rw [hgP] at hi
      cases hi)
    (by
      intro p1 hp1
      rw [hpar] at hp1
      cases hp1)
    (by
      intro a a1 a2
      rw [hroot]
      constructor
      · intro h
        cases h
        exact absurd rfl a2
      · intro h
        cases h
        exact absurd rfl a1)
    (by
      intro h
      cases h
      omega)
    (by
      intro h
      have := Option.some.inj h
      omega)
    (by
      intro a ha
      cases ha)
    S.hty1 S.hty2 S.hs1 S.hs2 S.hN_nk S.hN_sorted S.hN_lob S.hN_hib S.hN_leaf S.hN_occ S.hN_min
    S.hN_one S.hW_nk S.hW_sorted S.hW_lob S.hW_hib S.hW_leaf S.hW_occ S.hW_min S.hW_one
    S.hX S.hXW S.hNc S.hWc S.hdisj S.hcover
  have h1P : heap_get h1 (t.heap.length + 1) = none :=
    heap_get_length_none _ (by rw [S.hlen])
  have hLL2 : LeafLevel hp
      (split_ghost g n t.heap.length d ⊥ ⊤ sep (t.heap.length + 1) ⟨d + 1, ⊥, ⊤⟩) L1 kv := by
    refine hLL.frame_leaves ?_ ?_
    · intro x i xd hx hxd hxt
      have hxP : x ≠ t.heap.length + 1 := by
        intro h
        rw [h, h1P] at hxd
        cases hxd
      by_cases x1 : x = n
      · subst x1
        rw [S.h1n] at hxd
        cases hxd
        exact ⟨rfl, _, hpn, hxt, rfl, rfl, rfl⟩
      · by_cases x2 : x = t.heap.length
        · subst x2
          rw [S.h1w] at hxd
          cases hxd
          exact ⟨rfl, _, hpw, hxt, rfl, rfl, rfl⟩
        · exact ⟨rfl, xd, by rw [hpo x x1 x2 hxP, hxd], hxt, rfl, rfl, rfl⟩
    · intro x i xd hx hxd hxt
      have hxP : x ≠ t.heap.length + 1 := by
        intro h
        rw [h, hpP] at hxd
        cases hxd
        cases hxt
      by_cases x1 : x = n
      · subst x1
        rw [hpn] at hxd
        cases hxd
        exact ⟨i, N1, hx, S.h1n, hxt⟩
      · by_cases x2 : x = t.heap.length
        · subst x2
          rw [hpw] at hxd
          cases hxd
          exact ⟨i, W, hx, S.h1w, hxt⟩
        · exact ⟨i, xd, hx, by rw [← hpo x x1 x2 hxP, hxd], hxt⟩
  refine ⟨hp, hnew, hplen, hroot, hpP, ?_⟩
  refine ⟨hI.m3, hI.m16, hnodes, ?_, ?_, ?_, hLL2.chain, hLL2.last, hLL2.leaves, hLL2.kv_eq⟩
  · intro hr
    cases hr
  · intro r hr
    cases hr
    refine ⟨d + 1, g2P, ?_⟩
    simp only
    rw [hD]
    push_cast
    ring
  · have := hI.depth_le
    simp only [hplen]
    omega

end ins6

end BPlus

namespace BPlus

section ins7
variable {K V : Type} [LinearOrder K]

/-! ### Splitting an overfull inner node -/

theorem sorted_take_lt {ks : List K} (hs : ks.Pairwise (fun x y => x < y)) {k : Nat}
    (hk : k < ks.length) : ∀ x ∈ ks.take k, x < ks[k] := by
  intro x hx
  obtain ⟨q, hq, hqe⟩ := List.mem_iff_getElem.1 hx
  simp only [List.length_take] at hq
  rw [List.getElem_take] at hqe
  rw [← hqe]
  exact List.pairwise_iff_getElem.1 hs q k (by omega) hk (by omega)

theorem sorted_drop_gt {ks : List K} (hs : ks.Pairwise (fun x y => x < y)) {k : Nat}
    (hk : k < ks.length) : ∀ x ∈ ks.drop (k + 1), ks[k] < x := by
  intro x hx
  obtain ⟨q, hq, hqe⟩ := List.mem_iff_getElem.1 hx
  simp only [List.length_drop] at hq
  rw [List.getElem_drop] at hqe
  rw [← hqe]
  exact List.pairwise_iff_getElem.1 hs k (k + 1 + q) hk (by omega) (by omega)

theorem sorted_drop_ge {ks : List K} (hs : ks.Pairwise (fun x y => x < y)) {k : Nat}
    (hk : k < ks.length) : ∀ x ∈ ks.drop k, ks[k] ≤ x := by
  intro x hx
  rw [List.drop_eq_getElem_cons hk] at hx
  rcases List.mem_cons.1 hx with h | h
  · rw [h]
  · exact le_of_lt (sorted_drop_gt hs hk x h)

/-- An overfull inner node is split; the two halves are ready to be entered
into the parent. -/
theorem InvX.inner_split_ok {t : bptree K V} {g : Nat → Option (Info K)} {L : List Nat}
    {kv : List (K × V)} {n : Nat} (hI : InvX t g L kv (some n) 0 1)
    {d : Nat} {lo hi : Bound K} {nd : bpnode K V}
    (hgn : g n = some ⟨d, lo, hi⟩) (hnd : heap_get t.heap n = some nd)
    (hty : nd.type = bpnode_type.NODE_INNER) (hfull : nd.keys.length = t.m)
    (ins : bptree K V → Option Nat → K → Nat → Nat → Option (bptree K V)) :
    ∃ h1 sep N1 W X,
      inner_split_if_full ins t n = ins { t with heap := h1 } nd.parent sep n t.heap.length ∧
      SplitOK t g n d lo hi nd sep N1 W X h1 := by
  obtain ⟨nd0, q0, okn⟩ := hI.nodes n _ hgn
  rw [hnd] at q0
  cases q0
  obtain ⟨d1, hd1, hch⟩ := okn.down hty
  simp only at hd1 hch
  have hm3 := hI.m3
  have hm16 := hI.m16
  have hcl : nd.children.length = t.m + 1 := by rw [hch.length, hfull]
  have hnk : nd.num_keys = (t.m : Int) := by rw [okn.nk, hfull]
  have hk : t.m / 2 < nd.keys.length := by omega
  have hall : ∀ x ∈ nd.children.drop (t.m / 2 + 1), ∃ cd, heap_get t.heap x = some cd := by
    intro x hx
    obtain ⟨j, _, _, cd, q1, _⟩ := hch.mem (List.mem_of_mem_drop hx)
    exact ⟨cd, q1⟩
  have hnc : n ∉ nd.children := by
    intro hx
    obtain ⟨j, _, q1, _⟩ := hch.mem hx
    rw [hgn] at q1
    simp only [Option.some.injEq, Info.mk.injEq] at q1
    omega
  have hdyn : dyn_inner t.heap nd.parent = some nd.parent := by
    cases hp : nd.parent with
    | none => rfl
    | some p =>
      have hnroot : some n ≠ t.root := by
        intro hr
        have := okn.uproot hr
        rw [hp] at this
        cases this
      obtain ⟨p0, ip, pd, j, u1, _, hpd, hpty, _⟩ := hI.parent hgn hnd hnroot
      rw [hp] at u1
      cases u1
      exact dyn_inner_some hpd hpty
  obtain ⟨h1, up, hup, hrun, hlen, hget⟩ := inner_split_if_full_eq ins hnd hnk hfull hcl
    (by omega) hall (fun h => hnc (List.mem_of_mem_drop h)) hdyn
  have hupe : up = nd.keys[t.m / 2] := by
    rw [List.getElem?_eq_getElem hk] at hup
    exact (Option.some.inj hup).symm
  subst hupe
  have hnl : n < t.heap.length := heap_get_lt hnd
  have hnw : t.heap.length ≠ n := by omega
  have hnodup := hI.children_nodup hgn hnd hty
  rw [← List.take_append_drop (t.m / 2 + 1) nd.children] at hnodup
  refine ⟨h1, nd.keys[t.m / 2],
    { nd with keys := nd.keys.take (t.m / 2),
              children := nd.children.take (t.m / 2 + 1),
              num_keys := wrap16 ((t.m / 2 : Nat) : Int) },
    { type := bpnode_type.NODE_INNER,
      num_keys := wrap16 (nd.num_keys - ((t.m / 2 : Nat) : Int) - 1),
      keys := nd.keys.drop (t.m / 2 + 1), parent := nd.parent,
      values := [], next := none, children := nd.children.drop (t.m / 2 + 1) },
    nd.children.drop (t.m / 2 + 1), hrun, ?_⟩
  refine
    { hlen := hlen
      h1n := by rw [hget]; simp
      h1w := by rw [hget]; simp [hnw]
      h1x := by
        intro x x1 x2
        rw [hget]
        simp [x1, x2]
      hp1 := rfl
      hp2 := rfl
      hty1 := rfl
      hty2 := hty.symm
      hs1 := hI.lo_lt_keys hgn hnd hty _ (List.getElem_mem _)
      hs2 := okn.hib _ (List.getElem_mem _)
      hN_nk := by
        simp only [List.length_take]
        rw [wrap16_id (by omega) (by omega)]
        congr 1
        omega
      hN_sorted := okn.sorted.sublist (List.take_sublist _ _)
      hN_lob := fun k hk1 => okn.lob k (List.mem_of_mem_take hk1)
      hN_hib := fun k hk1 => bnd_lt_bnd.2 (sorted_take_lt okn.sorted hk k hk1)
      hN_leaf := by
        intro h
        rw [hty] at h
        cases h
      hN_occ := by simp only [List.length_take]; omega
      hN_min := by simp only [List.length_take]; omega
      hN_one := by simp only [List.length_take]; omega
      hW_nk := by
        simp only [List.length_drop, hnk]
        rw [wrap16_id (by omega) (by omega)]
        omega
      hW_sorted := okn.sorted.sublist (List.drop_sublist _ _)
      hW_lob := fun k hk1 => bnd_le_bnd.2 (le_of_lt (sorted_drop_gt okn.sorted hk k hk1))
      hW_hib := fun k hk1 => okn.hib k (List.mem_of_mem_drop hk1)
      hW_leaf := by
        intro h
        rw [hty] at h
        cases h
      hW_occ := by simp only [List.length_drop]; omega
      hW_min := by simp only [List.length_drop]; omega
      hW_one := by simp only [List.length_drop]; omega
      hX := by
        intro h
        rw [hty] at h
        cases h
      hXW := fun _ => rfl
      hNc := by
        intro d2 hd2 _
        have : d2 = d1 := by omega
        subst this
        exact hch.take_left (t.m / 2) hk
      hWc := by
        intro d2 hd2 _
        have : d2 = d1 := by omega
        subst this
        exact hch.drop_right (t.m / 2) hk
      hdisj := by
        intro c hc hc2
        exact (List.nodup_append.1 hnodup).2.2 hc hc2
      hcover := by
        intro c hc
        rw [← List.take_append_drop (t.m / 2 + 1) nd.children] at hc
        exact List.mem_append.1 hc }

/-- The leaf level is not affected by the split of an inner node. -/
theorem SplitOK.leaf_level_inner {t : bptree K V} {g : Nat → Option (Info K)} {L : List Nat}
    {kv : List (K × V)} {e : Option Nat} {sl sh : Nat} (hI : InvX t g L kv e sl sh)
    {n d : Nat} {lo hi : Bound K} {nd : bpnode K V} {sep : K} {N1 W : bpnode K V}
    {X : List Nat} {h1 : List (Option (bpnode K V))}
    (S : SplitOK t g n d lo hi nd sep N1 W X h1)
    (hgn : g n = some ⟨d, lo, hi⟩) (hnd : heap_get t.heap n = some nd)
    (hty : nd.type = bpnode_type.NODE_INNER) (P : Nat) (iP : Info K)
    (hP : ∀ i, g P = some i → i = iP) (hPn : g P = none → heap_get h1 P = none) :
    LeafLevel h1 (split_ghost g n t.heap.length d lo hi sep P iP) L kv := by
  have hnl : n < t.heap.length := heap_get_lt hnd
  have hg2 : ∀ x i xd, g x = some i → heap_get t.heap x = some xd →
      xd.type = bpnode_type.NODE_LEAF →
      x ≠ n ∧ x ≠ t.heap.length ∧ split_ghost g n t.heap.length d lo hi sep P iP x = g x := by
    intro x i xd hx hxd hxt
    have x1 : x ≠ n := by
      intro h
      rw [h, hnd] at hxd
      cases hxd
      rw [hty] at hxt
      cases hxt
    have x2 : x ≠ t.heap.length := by
      have := heap_get_lt hxd
      omega
    refine ⟨x1, x2, ?_⟩
    by_cases x3 : x = P
    · rw [x3, split_ghost_parent g d lo hi sep iP (x3 ▸ x1) (x3 ▸ x2)]
      rw [x3] at hx
      rw [hx, hP i hx]
    · exact split_ghost_other g d lo hi sep iP x1 x2 x3
  refine hI.leafLevel.frame_leaves ?_ ?_
  · intro x i xd hx hxd hxt
    obtain ⟨x1, x2, x3⟩ := hg2 x i xd hx hxd hxt
    refine ⟨x3, ?_⟩
    rw [S.h1x x x1 x2, hxd]
    by_cases hxX : x ∈ X
    · exact ⟨{ xd with parent := some t.heap.length },
        by simp only [Option.map_some', hxX, if_true], hxt, rfl, rfl, rfl⟩
    · exact ⟨xd, by simp only [Option.map_some', hxX, if_false], hxt, rfl, rfl, rfl⟩
  · intro x i xd hx hxd hxt
    have x1 : x ≠ n := by
      intro h
      rw [h, S.h1n] at hxd
      cases hxd
      rw [S.hty1, hty] at hxt
      cases hxt
    have x2 : x ≠ t.heap.length := by
      intro h
      rw [h, S.h1w] at hxd
      cases hxd
      rw [S.hty2, hty] at hxt
      cases hxt
    have hxd0 := hxd
    rw [S.h1x x x1 x2] at hxd
    cases hx0 : heap_get t.heap x with
    | none => rw [hx0] at hxd; cases hxd
    | some xd0 =>
      rw [hx0] at hxd
      have hty0 : xd0.type = bpnode_type.NODE_LEAF := by
        simp only [Option.map_some', Option.some.injEq] at hxd
        rw [← hxd] at hxt
        by_cases hxX : x ∈ X
        · simpa [hxX] using hxt
        · simpa [hxX] using hxt
      by_cases x3 : x = P
      · cases hgP : g P with
        | none =>
          rw [x3, hPn hgP] at hxd0
          cases hxd0
        | some i0 => exact ⟨i0, xd0, by rw [x3]; exact hgP, rfl, hty0⟩
      · rw [split_ghost_other g d lo hi sep iP x1 x2 x3] at hx
        exact ⟨i, xd0, hx, rfl, hty0⟩

end ins7

end BPlus

namespace BPlus

section ins8
variable {K V : Type} [LinearOrder K]

/-! ### Propagation of splits towards the root -/

theorem Grow.of_same (t t2 : bptree K V) {t1 : bptree K V} (hm : t2.m = t.m) (hc : t2.count = t.count)
    (hr : t2.root = t.root) (hd : t2.depth = t.depth) (hl : t.heap.length ≤ t2.heap.length)
    (G : Grow t2 t1) : Grow t t1 := by
  obtain ⟨g1, g2, g3, g4⟩ := G
  refine ⟨by rw [g1, hm], by rw [g2, hc], by omega, ?_⟩
  rcases g4 with ⟨a, b⟩ | ⟨a, r, nr, sep, c2, b1, b2, b3, b4, b5⟩
  · exact Or.inl ⟨by rw [a, hr], by rw [b, hd]⟩
  · exact Or.inr ⟨by rw [a, hd], r, nr, sep, c2, by rw [← hr, b1], b2, by omega, by omega, b5⟩

theorem Grow.same (t : bptree K V) : Grow t t :=
  ⟨rfl, rfl, le_refl _, Or.inl ⟨rfl, rfl⟩⟩

/-- The inner node `n`, possibly overfull, is brought back within bounds by
splits that climb towards the root. -/
theorem InvX.fix_up (L : List Nat) (kv : List (K × V)) :
    ∀ (fuel : Nat) (t : bptree K V) (g : Nat → Option (Info K)) (n : Nat) (i : Info K)
      (nd : bpnode K V),
      InvX t g L kv (some n) 0 1 → g n = some i → heap_get t.heap n = some nd →
      nd.type = bpnode_type.NODE_INNER → t.depth + 1 ≤ (fuel : Int) + i.ht →
      ∃ t1 g1, inner_split_if_full (insert_inner_node fuel) t n = some t1 ∧
        InvX t1 g1 L kv none 0 0 ∧ Grow t t1 := by
  intro fuel
  induction fuel with
  | zero =>
    intro t g n i nd hI hgn hnd hty hfuel
    have := hI.ht_le hgn
    omega
  | succ f ih =>
    intro t g n i nd hI hgn hnd hty hfuel
    obtain ⟨nd0, q0, okn⟩ := hI.nodes n _ hgn
    rw [hnd] at q0
    cases q0
    have hocc := okn.occ_hi
    simp only [if_true] at hocc
    by_cases hsmall : nd.keys.length < t.m
    · refine ⟨t, g, ?_, ?_, Grow.same t⟩
      · exact inner_split_if_full_small _ hnd (by rw [okn.nk]; exact_mod_cast hsmall)
      · refine hI.relax ?_
        intro i1 nd1 h1 h2
        rw [hnd] at h2
        cases h2
        refine ⟨hsmall, ?_, ?_⟩
        · intro hr
          simpa using okn.occ_lo hr
        · simpa using okn.occ_in
    · have hfull : nd.keys.length = t.m := by omega
      obtain ⟨d, lo, hi⟩ := i
      simp only at hfuel
      obtain ⟨h1, sep, N1, W, X, hrun, S⟩ :=
        hI.inner_split_ok hgn hnd hty hfull (insert_inner_node (f + 1))
      rw [hrun]
      have hnl : n < t.heap.length := heap_get_lt hnd
      cases hp : nd.parent with
      | none =>
        have hLL := S.leaf_level_inner hI hgn hnd hty (t.heap.length + 1) ⟨d + 1, ⊥, ⊤⟩
          (by
            intro i1 hi1
            exact absurd (hI.live_lt hi1) (by omega))
          (fun _ => heap_get_length_none _ (by rw [S.hlen]))
        obtain ⟨hp2, hnew, hplen, hroot, hpP, hI2⟩ := hI.commit_root hgn hnd S hp L hLL
        refine ⟨_, _, ?_, hI2, ?_⟩
        · simp only [insert_inner_node]
          exact hnew
        · refine ⟨rfl, rfl, by simp only [hplen]; omega, Or.inr ⟨rfl, ?_⟩⟩
          exact ⟨n, t.heap.length + 1, sep, t.heap.length, hroot, rfl, le_refl _, by omega, hpP⟩
      | some p =>
        obtain ⟨ip, pd, pd1, hgp, hpht, h1p, hpty, hins, g2p, hI2⟩ :=
          hI.commit_parent hgn hnd S hp L
            (fun ip hip => S.leaf_level_inner hI hgn hnd hty p ip
              (by
                intro i1 hi1
                rw [hip] at hi1
                cases hi1
                rfl)
              (by
                intro h
                rw [hip] at h
                cases h))
        have hpget : heap_get (heap_set h1 p pd1) p = some pd1 := heap_get_set_eq _ h1p
        have hpty1 : pd1.type = bpnode_type.NODE_INNER := by
          obtain ⟨pd2, r1, okp⟩ := hI2.nodes p ip g2p
          simp only at r1
          rw [hpget] at r1
          cases r1
          rcases okp.kind with hk | hk
          · have := (okp.leaf hk).1
            have := hI.ht_pos hgn
            simp only at this
            omega
          · exact hk
        obtain ⟨t1, g1, hrun1, hI1, G⟩ := ih { t with heap := heap_set h1 p pd1 } _ p ip pd1
          hI2 g2p hpget hpty1 (by simp only; omega)
        refine ⟨t1, g1, ?_, hI1, ?_⟩
        · simp only [insert_inner_node, h1p, hins]
          exact hrun1
        · exact Grow.of_same t { t with heap := heap_set h1 p pd1 } rfl rfl rfl rfl
            (by simp only [heap_set_length, S.hlen]; omega) G

end ins8

end BPlus

namespace BPlus

section ins9
variable {K V : Type} [LinearOrder K]

/-! ### Splitting an overfull leaf -/

/-- An overfull leaf is split; the two halves are ready to be entered into
the parent. -/
theorem InvX.leaf_split_ok {t : bptree K V} {g : Nat → Option (Info K)} {L : List Nat}
    {kv : List (K × V)} {n : Nat} (hI : InvX t g L kv (some n) 0 1)
    {d : Nat} {lo hi : Bound K} {nd : bpnode K V}
    (hgn : g n = some ⟨d, lo, hi⟩) (hnd : heap_get t.heap n = some nd)
    (hty : nd.type = bpnode_type.NODE_LEAF) (hfull : nd.keys.length = t.m) :
    ∃ h1 sep,
      leaf_split_if_full t n =
        insert_inner_node (t.heap.length + 1) { t with heap := h1 } nd.parent sep n
          t.heap.length ∧
      SplitOK t g n d lo hi nd sep
        { nd with keys := nd.keys.take (t.m / 2), values := nd.values.take (t.m / 2),
                  num_keys := wrap16 ((t.m / 2 : Nat) : Int), next := some t.heap.length }
        { type := bpnode_type.NODE_LEAF,
          num_keys := wrap16 (nd.num_keys - ((t.m / 2 : Nat) : Int)),
          keys := nd.keys.drop (t.m / 2), parent := nd.parent,
          values := nd.values.drop (t.m / 2), next := nd.next, children := [] }
        [] h1 := by
  obtain ⟨nd0, q0, okn⟩ := hI.nodes n _ hgn
  rw [hnd] at q0
  cases q0
  have hm3 := hI.m3
  have hm16 := hI.m16
  have hvl : nd.values.length = t.m := by rw [(okn.leaf hty).2, hfull]
  have hnk : nd.num_keys = (t.m : Int) := by rw [okn.nk, hfull]
  have hk : t.m / 2 < nd.keys.length := by omega
  have hdyn : dyn_inner t.heap nd.parent = some nd.parent := by
    cases hp : nd.parent with
    | none => rfl
    | some p =>
      have hnroot : some n ≠ t.root := by
        intro hr
        have := okn.uproot hr
        rw [hp] at this
        cases this
      obtain ⟨p0, ip, pd, j, u1, _, hpd, hpty, _⟩ := hI.parent hgn hnd hnroot
      rw [hp] at u1
      cases u1
      exact dyn_inner_some hpd hpty
  obtain ⟨h1, k0, hk0, hrun, hlen, hget⟩ := leaf_split_if_full_eq hnd hnk hfull hvl
    (by omega) hdyn
  have hk0e : k0 = nd.keys[t.m / 2] := by
    rw [List.getElem?_drop, List.getElem?_eq_getElem (by omega)] at hk0
    simpa using hk0.symm
  subst hk0e
  have hnl : n < t.heap.length := heap_get_lt hnd
  have hnw : t.heap.length ≠ n := by omega
  have h0 : 0 < nd.keys.length := by omega
  refine ⟨h1, nd.keys[t.m / 2], hrun, ?_⟩
  refine
    { hlen := hlen
      h1n := by rw [hget]; simp
      h1w := by rw [hget]; simp [hnw]
      h1x := by
        intro x x1 x2
        rw [hget]
        simp only [x1, x2, if_false, List.not_mem_nil]
        cases heap_get t.heap x <;> rfl
      hp1 := rfl
      hp2 := rfl
      hty1 := rfl
      hty2 := hty.symm
      hs1 := by
        refine lt_of_le_of_lt (okn.lob nd.keys[0] (List.getElem_mem _)) (bnd_lt_bnd.2 ?_)
        exact List.pairwise_iff_getElem.1 okn.sorted 0 (t.m / 2) h0 hk (by omega)
      hs2 := okn.hib _ (List.getElem_mem _)
      hN_nk := by
        simp only [List.length_take]
        rw [wrap16_id (by omega) (by omega)]
        congr 1
        omega
      hN_sorted := okn.sorted.sublist (List.take_sublist _ _)
      hN_lob := fun k hk1 => okn.lob k (List.mem_of_mem_take hk1)
      hN_hib := fun k hk1 => bnd_lt_bnd.2 (sorted_take_lt okn.sorted hk k hk1)
      hN_leaf := by
        intro _
        simp only [List.length_take]
        omega
      hN_occ := by simp only [List.length_take]; omega
      hN_min := by simp only [List.length_take]; omega
      hN_one := by simp only [List.length_take]; omega
      hW_nk := by
        simp only [List.length_drop, hnk]
        rw [wrap16_id (by omega) (by omega)]
        omega
      hW_sorted := okn.sorted.sublist (List.drop_sublist _ _)
      hW_lob := fun k hk1 => bnd_le_bnd.2 (sorted_drop_ge okn.sorted hk k hk1)
      hW_hib := fun k hk1 => okn.hib k (List.mem_of_mem_drop hk1)
      hW_leaf := by
        intro _
        simp only [List.length_drop]
        omega
      hW_occ := by simp only [List.length_drop]; omega
      hW_min := by simp only [List.length_drop]; omega
      hW_one := by simp only [List.length_drop]; omega
      hX := fun _ => rfl
      hXW := fun _ => rfl
      hNc := by
        intro d2 hd2 h
        rw [hty] at h
        cases h
      hWc := by
        intro d2 hd2 h
        rw [hty] at h
        cases h
      hdisj := fun c _ => List.not_mem_nil c
      hcover := fun c hc => Or.inl hc }

/-- The leaf level after the split of a leaf: the new leaf follows the old
one. -/
theorem SplitOK.leaf_level_leaf {t : bptree K V} {g : Nat → Option (Info K)} {L : List Nat}
    {kv : List (K × V)} {e : Option Nat} {sl sh : Nat} (hI : InvX t g L kv e sl sh)
    {n d : Nat} {lo hi : Bound K} {nd : bpnode K V} {sep : K} {N1 W : bpnode K V}
    {h1 : List (Option (bpnode K V))}
    (S : SplitOK t g n d lo hi nd sep N1 W [] h1)
    (hgn : g n = some ⟨d, lo, hi⟩) (hnd : heap_get t.heap n = some nd)
    (hty : nd.type = bpnode_type.NODE_LEAF) (k : Nat)
    (hNk : N1.keys = nd.keys.take k) (hNv : N1.values = nd.values.take k)
    (hNn : N1.next = some t.heap.length)
    (hWk : W.keys = nd.keys.drop k) (hWv : W.values = nd.values.drop k)
    (hWn : W.next = nd.next)
    (P : Nat) (iP : Info K)
    (hP : ∀ i, g P = some i → i = iP) (hPn : g P = none → heap_get h1 P = none) :
    ∃ L1, LeafLevel h1 (split_ghost g n t.heap.length d lo hi sep P iP) L1 kv := by
  obtain ⟨nd0, q0, okn⟩ := hI.nodes n _ hgn
  rw [hnd] at q0
  cases q0
  have hnl : n < t.heap.length := heap_get_lt hnd
  have hnw : n ≠ t.heap.length := by omega
  have hnL : n ∈ L := (hI.leaves n).2 ⟨_, nd, hgn, hnd, hty⟩
  obtain ⟨A, B, hL⟩ := List.append_of_mem hnL
  have hnodup := hI.leaf_nodup
  rw [hL] at hnodup
  have hnA : n ∉ A := by
    intro hm
    exact (List.nodup_append.1 hnodup).2.2 hm (by simp)
  have hnB : n ∉ B := (List.nodup_cons.1 (List.nodup_append.1 hnodup).2.1).1
  have hgw : g t.heap.length = none := by
    cases hgw : g t.heap.length with
    | none => rfl
    | some i => exact absurd (hI.live_lt hgw) (by omega)
  have hlive : ∀ a, a ∈ L → a ≠ t.heap.length := by
    intro a ha h
    obtain ⟨i, _, q1, _⟩ := (hI.leaves a).1 ha
    rw [h, hgw] at q1
    cases q1
  -- untouched nodes
  have hg2 : ∀ a, a ≠ n → a ≠ t.heap.length → ∀ i, g a = some i →
      split_ghost g n t.heap.length d lo hi sep P iP a = some i := by
    intro a a1 a2 i hgi
    by_cases a3 : a = P
    · rw [a3, split_ghost_parent g d lo hi sep iP (a3 ▸ a1) (a3 ▸ a2)]
      rw [a3] at hgi
      rw [hP i hgi]
    · rw [split_ghost_other g d lo hi sep iP a1 a2 a3, hgi]
  have hh1 : ∀ a, a ≠ n → a ≠ t.heap.length → heap_get h1 a = heap_get t.heap a := by
    intro a a1 a2
    rw [S.h1x a a1 a2]
    cases heap_get t.heap a <;> simp
  have g2n := split_ghost_old g d lo hi sep P iP hnw
  have g2w := split_ghost_new g n t.heap.length d lo hi sep P iP
  have hlink : ∀ a b, Linked t.heap g a b → a ≠ n →
      Linked h1 (split_ghost g n t.heap.length d lo hi sep P iP) a b := by
    intro a b hl han
    obtain ⟨ad, ia, ib, q1, q2, q3, q4, q5⟩ := hl
    have haw : a ≠ t.heap.length := by
      have := heap_get_lt q1
      omega
    have hbw : b ≠ t.heap.length := by
      intro h
      rw [h, hgw] at q4
      cases q4
    by_cases hbn : b = n
    · subst hbn
      rw [hgn] at q4
      cases q4
      exact ⟨ad, ia, _, by rw [hh1 a han haw, q1], q2, hg2 a han haw ia q3, g2n, q5⟩
    · exact ⟨ad, ia, ib, by rw [hh1 a han haw, q1], q2, hg2 a han haw ia q3,
        hg2 b hbn hbw ib q4, q5⟩
  have hchain := hI.chain
  rw [hL] at hchain
  obtain ⟨cA, cB, cJ⟩ := List.chain'_append.1 hchain
  have hzip : leaf_pairs h1 n ++ leaf_pairs h1 t.heap.length = leaf_pairs t.heap n := by
    simp only [leaf_pairs, S.h1n, S.h1w, hnd, hNk, hNv, hWk, hWv]
    rw [← List.zip_append (by
      have := (okn.leaf hty).2
      simp only [List.length_take]
      omega)]
    rw [List.take_append_drop, List.take_append_drop]
  refine ⟨A ++ n :: t.heap.length :: B, ?_, ?_, ?_, ?_⟩
  · -- the chain
    refine List.chain'_append.2 ⟨?_, ?_, ?_⟩
    · refine (List.Chain'.iff_mem.1 cA).imp ?_
      intro a b hab
      exact hlink a b hab.2.2 (fun h => hnA (h ▸ hab.1))
    · refine List.chain'_cons.2 ⟨?_, ?_⟩
      · exact ⟨_, _, _, S.h1n, hNn, g2n, g2w, rfl⟩
      · cases B with
        | nil => exact List.chain'_singleton _
        | cons c B1 =>
          obtain ⟨r1, r2⟩ := List.chain'_cons.1 cB
          refine List.chain'_cons.2 ⟨?_, ?_⟩
          · obtain ⟨ad, ia, ib, q1, q2, q3, q4, q5⟩ := r1
            rw [hnd] at q1
            cases q1
            rw [hgn] at q3
            cases q3
            have hcn : c ≠ n := fun h => hnB (by rw [← h]; simp)
            have hcw : c ≠ t.heap.length := hlive c (by rw [hL]; simp)
            exact ⟨_, _, ib, S.h1w, by rw [hWn, q2], g2w, hg2 c hcn hcw ib q4, q5⟩
          · refine (List.Chain'.iff_mem.1 r2).imp ?_
            intro a b hab
            exact hlink a b hab.2.2 (fun h => hnB (h ▸ hab.1))
    · intro x hx y hy
      simp only [List.head?_cons, Option.mem_def, Option.some.injEq] at hy
      subst hy
      have := cJ x hx n (by simp)
      exact hlink x n this (fun h => hnA (by
        rw [← h]
        exact List.mem_of_mem_getLast? hx))
  · -- the last leaf
    intro a ha
    cases B with
    | nil =>
      have : a = t.heap.length := by
        simpa [List.getLast?_append] using ha.symm
      subst this
      obtain ⟨ld, q1, q2⟩ := hI.last n (by rw [hL]; simp [List.getLast?_append])
      rw [hnd] at q1
      cases q1
      exact ⟨W, S.h1w, by rw [hWn, q2]⟩
    | cons c B1 =>
      have h2 : (c :: B1).getLast? = some a := by
        simpa [List.getLast?_append, List.getLast?_cons_cons] using ha
      have haB : a ∈ c :: B1 := List.mem_of_mem_getLast? h2
      obtain ⟨ld, q1, q2⟩ := hI.last a (by
        rw [hL]
        simpa [List.getLast?_append, List.getLast?_cons_cons] using h2)
      have han : a ≠ n := fun h => hnB (h ▸ haB)
      have haw : a ≠ t.heap.length := hlive a (by rw [hL]; simp [haB])
      exact ⟨ld, by rw [hh1 a han haw, q1], q2⟩
  · -- the leaves
    intro a
    constructor
    · intro ha
      have ha2 : a = t.heap.length ∨ a ∈ L := by
        rw [hL]
        simp only [List.mem_append, List.mem_cons] at ha ⊢
        tauto
      rcases ha2 with h | h
      · subst h
        exact ⟨_, W, g2w, S.h1w, by rw [S.hty2, hty]⟩
      · by_cases han : a = n
        · subst han
          exact ⟨_, N1, g2n, S.h1n, by rw [S.hty1, hty]⟩
        · obtain ⟨i, ad, q1, q2, q3⟩ := (hI.leaves a).1 h
          have haw := hlive a h
          exact ⟨i, ad, hg2 a han haw i q1, by rw [hh1 a han haw, q2], q3⟩
    · rintro ⟨i, ad, q1, q2, q3⟩
      by_cases haw : a = t.heap.length
      · rw [haw]
        simp
      · by_cases han : a = n
        · rw [han]
          simp
        · have hin : a ∈ L := by
            rw [hh1 a han haw] at q2
            by_cases a3 : a = P
            · cases hgP : g P with
              | none =>
                have := hPn hgP
                rw [← a3, hh1 a han haw, q2] at this
                cases this
              | some i0 => exact (hI.leaves a).2 ⟨i0, ad, by rw [a3]; exact hgP, q2, q3⟩
            · rw [split_ghost_other g d lo hi sep iP han haw a3] at q1
              exact (hI.leaves a).2 ⟨i, ad, q1, q2, q3⟩
          rw [hL] at hin
          simp only [List.mem_append, List.mem_cons] at hin ⊢
          tauto
  · -- the content
    rw [hI.kv_eq, hL]
    simp only [List.flatMap_append, List.flatMap_cons]
    have hA : A.flatMap (leaf_pairs h1) = A.flatMap (leaf_pairs t.heap) :=
      flatMap_pairs_frame (fun a ha => leaf_pairs_congr
        (hh1 a (fun h => hnA (h ▸ ha)) (hlive a (by rw [hL]; simp [ha]))))
    have hB : B.flatMap (leaf_pairs h1) = B.flatMap (leaf_pairs t.heap) :=
      flatMap_pairs_frame (fun a ha => leaf_pairs_congr
        (hh1 a (fun h => hnB (h ▸ ha)) (hlive a (by rw [hL]; simp [ha]))))
    rw [hA, hB, ← hzip]
    simp only [List.append_assoc]

end ins9

end BPlus

namespace BPlus

section ins10
variable {K V : Type} [LinearOrder K]

/-! ### The abstract content is sorted -/

theorem pairwise_zip_fst :
    ∀ (ks : List K) (vs : List V), ks.Pairwise (fun x y => x < y) →
      (ks.zip vs).Pairwise (fun x y => x.1 < y.1) := by
  intro ks
  induction ks with
  | nil => intro vs _; simp
  | cons k ks ih =>
    intro vs hs
    cases vs with
    | nil => simp
    | cons v vs =>
      simp only [List.zip_cons_cons]
      obtain ⟨h1, h2⟩ := List.pairwise_cons.1 hs
      refine List.pairwise_cons.2 ⟨?_, ih vs h2⟩
      intro x hx
      exact h1 x.1 (List.of_mem_zip hx).1

theorem InvX.kv_sorted {t : bptree K V} {g : Nat → Option (Info K)} {L : List Nat}
    {kv : List (K × V)} {e : Option Nat} {sl sh : Nat} (hI : InvX t g L kv e sl sh) :
    kv.Pairwise (fun x y => x.1 < y.1) := by
  rw [hI.kv_eq]
  refine List.pairwise_flatMap.2 ⟨?_, ?_⟩
  · intro a ha
    obtain ⟨i, nd, h1, h2, h3, ok⟩ := hI.leaf_info ha
    simp only [leaf_pairs, h2]
    exact pairwise_zip_fst _ _ ok.sorted
  · refine hI.leaf_order.imp ?_
    intro a b hab x hx y hy
    obtain ⟨ia, ib, q1, q2, q3⟩ := hab
    obtain ⟨na, r1, oka⟩ := hI.nodes a ia q1
    obtain ⟨nb, r2, okb⟩ := hI.nodes b ib q2
    have hxa := oka.hib _ (leaf_pairs_fst r1 hx)
    have hyb := okb.lob _ (leaf_pairs_fst r2 hy)
    exact bnd_lt_bnd.1 (lt_of_lt_of_le hxa (le_trans q3 hyb))

theorem kv_insert_length (k : K) (v : V) :
    ∀ (l : List (K × V)), l.Pairwise (fun x y => x.1 < y.1) →
      (kv_insert k v l).length = if (kv_lookup k l).isSome then l.length else l.length + 1 := by
  intro l
  induction l with
  | nil => intro _; simp [kv_insert, kv_lookup]
  | cons x l ih =>
    intro hs
    obtain ⟨k1, v1⟩ := x
    obtain ⟨h1, h2⟩ := List.pairwise_cons.1 hs
    simp only [kv_insert, kv_lookup]
    by_cases hlt : k < k1
    · have hne : ¬ k1 = k := fun h => lt_irrefl _ (h ▸ hlt)
      have hnone : kv_lookup k l = none := by
        apply kv_lookup_none
        intro y hy hyk
        have := h1 y hy
        simp only at this
        rw [hyk] at this
        exact lt_irrefl _ (lt_trans hlt this)
      simp [hlt, hne, hnone]
    · by_cases heq : k = k1
      · simp [hlt, heq]
      · have hne : ¬ k1 = k := fun h => heq h.symm
        simp only [hlt, heq, hne, if_false, List.length_cons, ih h2]
        split <;> rfl

theorem kv_erase_length (k : K) :
    ∀ (l : List (K × V)), l.Pairwise (fun x y => x.1 < y.1) →
      ((kv_erase k l).length : Int) =
        if (kv_lookup k l).isSome then (l.length : Int) - 1 else l.length := by
  intro l
  induction l with
  | nil => intro _; simp [kv_erase, kv_lookup]
  | cons x l ih =>
    intro hs
    obtain ⟨k1, v1⟩ := x
    obtain ⟨h1, h2⟩ := List.pairwise_cons.1 hs
    by_cases heq : k1 = k
    · have hid : kv_erase k l = l := by
        apply kv_erase_id
        intro y hy hyk
        have := h1 y hy
        simp only at this
        rw [hyk, heq] at this
        exact lt_irrefl _ this
      have : kv_erase k ((k1, v1) :: l) = kv_erase k l := by
        simp [kv_erase, heq]
      rw [this, hid]
      simp [kv_lookup, heq]
    · have : kv_erase k ((k1, v1) :: l) = (k1, v1) :: kv_erase k l := by
        simp [kv_erase, heq]
      rw [this]
      simp only [kv_lookup, heq, if_false, List.length_cons]
      push_cast
      rw [ih h2]
      split <;> ring

/-! ### A leaf that may be overfull -/

theorem InvX.leaf_fix {t : bptree K V} {g : Nat → Option (Info K)} {L : List Nat}
    {kv : List (K × V)} {b : Nat} (hI : InvX t g L kv (some b) 0 1)
    {i : Info K} {nd : bpnode K V}
    (hgb : g b = some i) (hnd : heap_get t.heap b = some nd)
    (hty : nd.type = bpnode_type.NODE_LEAF) :
    ∃ t1 g1 L1, leaf_split_if_full t b = some t1 ∧ InvX t1 g1 L1 kv none 0 0 ∧ Grow t t1 := by
  obtain ⟨nd0, q0, okn⟩ := hI.nodes b _ hgb
  rw [hnd] at q0
  cases q0
  have hocc := okn.occ_hi
  simp only [if_true] at hocc
  by_cases hsmall : nd.keys.length < t.m
  · refine ⟨t, g, L, ?_, ?_, Grow.same t⟩
    · exact leaf_split_if_full_small hnd (by rw [okn.nk]; exact_mod_cast hsmall)
    · refine hI.relax ?_
      intro i1 nd1 h1 h2
      rw [hnd] at h2
      cases h2
      refine ⟨hsmall, ?_, ?_⟩
      · intro hr
        simpa using okn.occ_lo hr
      · simpa using okn.occ_in
  · have hfull : nd.keys.length = t.m := by omega
    obtain ⟨d, lo, hi⟩ := i
    have hd : d = 1 := (okn.leaf hty).1
    obtain ⟨h1, sep, hrun, S⟩ := hI.leaf_split_ok hgb hnd hty hfull
    rw [hrun]
    have hnl : b < t.heap.length := heap_get_lt hnd
    cases hp : nd.parent with
    | none =>
      obtain ⟨L1, hLL⟩ := S.leaf_level_leaf hI hgb hnd hty (t.m / 2) rfl rfl rfl rfl rfl rfl
        (t.heap.length + 1) ⟨d + 1, ⊥, ⊤⟩
        (by
          intro i1 hi1
          exact absurd (hI.live_lt hi1) (by omega))
        (fun _ => heap_get_length_none _ (by rw [S.hlen]))
      obtain ⟨hp2, hnew, hplen, hroot, hpP, hI2⟩ := hI.commit_root hgb hnd S hp L1 hLL
      refine ⟨_, _, L1, ?_, hI2, ?_⟩
      · simp only [insert_inner_node]
        exact hnew
      · refine ⟨rfl, rfl, by simp only [hplen]; omega, Or.inr ⟨rfl, ?_⟩⟩
        exact ⟨b, t.heap.length + 1, sep, t.heap.length, hroot, rfl, le_refl _, by omega, hpP⟩
    | some p =>
      have hnroot : some b ≠ t.root := by
        intro hr
        have := okn.uproot hr
        rw [hp] at this
        cases this
      obtain ⟨p0, ip0, pd0, j, u1, hgp0, _⟩ := hI.parent hgb hnd hnroot
      rw [hp] at u1
      cases u1
      obtain ⟨L1, hLL⟩ := S.leaf_level_leaf hI hgb hnd hty (t.m / 2) rfl rfl rfl rfl rfl rfl
        p ip0
        (by
          intro i1 hi1
          rw [hgp0] at hi1
          cases hi1
          rfl)
        (by
          intro h
          rw [hgp0] at h
          cases h)
      obtain ⟨ip, pd, pd1, hgp, hpht, h1p, hpty, hins, g2p, hI2⟩ :=
        hI.commit_parent hgb hnd S hp L1
          (fun ip hip => by
            rw [hgp0] at hip
            cases hip
            exact hLL)
      have hpget : heap_get (heap_set h1 p pd1) p = some pd1 := heap_get_set_eq _ h1p
      have hpty1 : pd1.type = bpnode_type.NODE_INNER := by
        obtain ⟨pd2, r1, okp⟩ := hI2.nodes p ip g2p
        simp only at r1
        rw [hpget] at r1
        cases r1
        rcases okp.kind with hk | hk
        · have := (okp.leaf hk).1
          omega
        · exact hk
      have hdl := hI.depth_le
      obtain ⟨t1, g1, hrun1, hI1, G⟩ := InvX.fix_up L1 kv t.heap.length
        { t with heap := heap_set h1 p pd1 } _ p ip pd1
        hI2 g2p hpget hpty1 (by simp only; omega)
      refine ⟨t1, g1, L1, ?_, hI1, ?_⟩
      · simp only [insert_inner_node, h1p, hins]
        exact hrun1
      · exact Grow.of_same t { t with heap := heap_set h1 p pd1 } rfl rfl rfl rfl
          (by simp only [heap_set_length, S.hlen]; omega) G

end ins10

end BPlus

namespace BPlus

section ins11
variable {K V : Type} [LinearOrder K]

/-! ### `insert_key` keeps the invariant -/

/-- The first insertion creates a root leaf. -/
theorem InvX.first_insert {t : bptree K V} {g : Nat → Option (Info K)} {L : List Nat}
    {kv : List (K × V)} (hI : InvX t g L kv none 0 0) (hr : t.root = none) (k : K) (v : V) :
    kv = [] ∧
    InvX { t with
        heap := t.heap ++ [some
          { type := bpnode_type.NODE_LEAF, num_keys := 1, keys := [k], parent := none,
            values := [v], next := none, children := [] }],
        root := some t.heap.length, depth := 1, count := 1 }
      (fun x => if x = t.heap.length then some ⟨1, ⊥, ⊤⟩ else none) [t.heap.length]
      [(k, v)] none 0 0 := by
  have hg := (hI.root_none hr).1
  have hL : L = [] := by
    cases L with
    | nil => rfl
    | cons a L =>
      obtain ⟨i, _, q, _⟩ := (hI.leaves a).1 (by simp)
      rw [hg a] at q
      cases q
  have hkv : kv = [] := by
    rw [hI.kv_eq, hL]
    rfl
  have hm3 := hI.m3
  have hget : ∀ x : bpnode K V, heap_get (t.heap ++ [some x]) t.heap.length = some x := by
    intro x
    rw [heap_get_append]
    simp
  refine ⟨hkv, hI.m3, hI.m16, ?_, ?_, ?_, ?_, ?_, ?_, ?_, ?_⟩
  · intro a i ha
    by_cases hal : a = t.heap.length
    · subst hal
      simp only [if_true, Option.some.injEq] at ha
      subst ha
      refine ⟨_, hget _, ?_⟩
      refine ⟨by simp, ?_, by simp, ?_, ?_, Or.inl rfl, ?_, ?_, ?_, ?_, ?_, ?_, ?_⟩
      · exact lt_of_lt_of_le (bot_lt_bnd k) le_top
      · intro x _
        exact bot_le
      · intro x _
        exact bnd_lt_top x
      · intro _
        exact ⟨rfl, rfl⟩
      · intro h
        cases h
      · intro h
        exact absurd rfl h
      · intro _
        rfl
      · simp
        omega
      · intro h
        exact absurd rfl h
      · simp
    · simp [hal] at ha
  · intro h
    cases h
  · intro r h
    cases h
    exact ⟨1, by simp, by simp⟩
  · simp
  · exact List.chain'_singleton _
  · intro a ha
    simp only [List.getLast?_singleton, Option.some.injEq] at ha
    subst ha
    exact ⟨_, hget _, rfl⟩
  · intro a
    constructor
    · intro ha
      simp only [List.mem_singleton] at ha
      subst ha
      exact ⟨⟨1, ⊥, ⊤⟩, _, by simp, hget _, rfl⟩
    · rintro ⟨i, nd, q1, _⟩
      by_cases hal : a = t.heap.length
      · simp [hal]
      · simp [hal] at q1
  · simp [leaf_pairs, hget]

/-- Every insertion into a well-formed tree succeeds and yields a well-formed
tree whose content is the old content with the pair entered; the depth stays
or grows by one, and it grows only on the first insertion or when the root
has been split. -/
theorem Inv.insert_key_ok {t : bptree K V} {kv : List (K × V)} (hI : Inv t kv) (k : K) (v : V) :
    ∃ t1, insert_key t k v = some t1 ∧ Inv t1 (kv_insert k v kv) ∧ t1.m = t.m ∧
      t.heap.length ≤ t1.heap.length ∧
      (t1.depth = t.depth ∨ (t1.depth = t.depth + 1 ∧ (t.root = none ∨ RootSplit t t1))) := by
  obtain ⟨g, L, hX, hcount⟩ := hI
  have hsorted := hX.kv_sorted
  cases hr : t.root with
  | none =>
    obtain ⟨hkv, hI1⟩ := hX.first_insert hr k v
    subst hkv
    have hd := (hX.root_none hr).2
    refine ⟨_, by simp only [insert_key, hr], ⟨_, _, hI1, by simp [kv_insert]⟩, rfl, by simp,
      Or.inr ⟨by simp only [hd]; rfl, Or.inl rfl⟩⟩
  | some r =>
    obtain ⟨b, ib, nb, hfind, hgb, hnb, hty, hlo, hhi, hbL, okb⟩ := hX.find_leaf_eq k hr
    have hlook := hX.lookup_leaf hgb hbL hlo hhi
    have hvl := (okb.leaf hty).2
    rw [show leaf_pairs t.heap b = nb.keys.zip nb.values by simp [leaf_pairs, hnb],
      kv_lookup_zip k nb.keys nb.values hvl] at hlook
    by_cases hk : k ∈ nb.keys
    · -- the key is present: its value is overwritten
      have hidx : index_of k nb.keys < nb.values.length := by
        rw [hvl]
        exact (index_of_lt_iff k nb.keys).2 hk
      have hI1 := hX.upsert hgb hnb hty hbL hk v
      refine ⟨_, ?_, ⟨g, L, hI1, ?_⟩, rfl, by simp, Or.inl rfl⟩
      · simp only [insert_key, hr, hfind, hk, if_true, hnb, hidx]
      · simp only [if_pos hk] at hlook
        have hsome : (kv_lookup k kv).isSome = true := by
          rw [hlook, List.getElem?_eq_getElem hidx]
          rfl
        rw [kv_insert_length k v kv hsorted, hsome]
        simpa using hcount
    · -- the key is new
      obtain ⟨hrun, hI1⟩ := hX.insert_leaf hgb hnb hty hbL hlo hhi hk v
      obtain ⟨t1, g1, L1, hsplit, hI2, G⟩ := hI1.leaf_fix hgb (heap_get_set_eq _ hnb)
        (by simpa using hty)
      obtain ⟨G1, G2, G3, G4⟩ := G
      simp only [heap_set_length] at G1 G2 G3 G4
      refine ⟨{ t1 with count := t1.count + 1 }, ?_, ⟨g1, L1, ?_, ?_⟩, G1, G3, ?_⟩
      · simp only [hr] at hsplit
        simp only [insert_key, hr, hfind, hk, if_false, hrun, hsplit]
      · exact ⟨hI2.m3, hI2.m16, hI2.nodes, hI2.root_none, hI2.root_some, hI2.depth_le,
          hI2.chain, hI2.last, hI2.leaves, hI2.kv_eq⟩
      · simp only [if_neg hk] at hlook
        have hnone : (kv_lookup k kv).isSome = false := by
          rw [hlook]
          rfl
        rw [kv_insert_length k v kv hsorted, hnone]
        simp only [G2, hcount]
        simp
      · rcases G4 with ⟨_, h2⟩ | ⟨h1, r0, nr, sep, c2, q1, q2, q3, q4, q5⟩
        · exact Or.inl h2
        · exact Or.inr ⟨h1, Or.inr ⟨r0, nr, sep, c2, q1, q2, by simpa using q3,
            by simpa using q4, q5⟩⟩

end ins11

end BPlus

namespace BPlus

section del1
variable {K V : Type} [LinearOrder K]

/-! ### Slots after replacing or removing a separator -/

theorem slot_hi_set (ks : List K) (j : Nat) (s : K) (hi : Bound K) (hj : j < ks.length)
    (q : Nat) :
    slot_hi (ks.set j s) hi q = if q = j then bnd s else slot_hi ks hi q := by
  simp only [slot_hi, List.getElem?_set]
  by_cases h : j = q
  · subst h
    simp [hj]
  · have h2 : ¬ q = j := fun hh => h hh.symm
    simp [h, h2]

theorem slot_lo_set (lo : Bound K) (ks : List K) (j : Nat) (s : K) (hj : j < ks.length)
    (q : Nat) (hq : q ≤ ks.length) :
    slot_lo lo (ks.set j s) q = if q = j + 1 then bnd s else slot_lo lo ks q := by
  cases q with
  | zero => simp
  | succ r =>
    rw [slot_lo_eq lo _ r (by simp; omega), slot_hi_set ks j s lo hj r,
      slot_lo_eq lo ks r (by omega)]
    by_cases h : r = j
    · simp [h]
    · simp [h]

theorem slot_hi_eraseIdx (ks : List K) (j : Nat) (hi : Bound K) (q : Nat) :
    slot_hi (ks.eraseIdx j) hi q = if q < j then slot_hi ks hi q else slot_hi ks hi (q + 1) := by
  simp only [slot_hi, List.getElem?_eraseIdx]
  by_cases h : q < j
  · simp [h]
  · simp [h]

theorem slot_lo_eraseIdx (lo : Bound K) (ks : List K) (j : Nat) (hj : j < ks.length)
    (q : Nat) (hq : q + 1 ≤ ks.length) :
    slot_lo lo (ks.eraseIdx j) q =
      if q ≤ j then slot_lo lo ks q else slot_lo lo ks (q + 1) := by
  cases q with
  | zero => simp
  | succ r =>
    rw [slot_lo_eq lo _ r (by rw [List.length_eraseIdx_of_lt hj]; omega),
      slot_hi_eraseIdx ks j lo r]
    by_cases h : r < j
    · have h2 : r + 1 ≤ j := by omega
      simp only [h, h2, if_true]
      rw [slot_lo_eq lo ks r (by omega)]
    · have h2 : ¬ r + 1 ≤ j := by omega
      simp only [h, h2, if_false]
      rw [slot_lo_eq lo ks (r + 1) (by omega)]

/-- Replacing a separator by a key strictly between its neighbours keeps the
separators sorted. -/
theorem sorted_set {ks : List K} (hs : ks.Pairwise (fun x y => x < y)) {j : Nat} {s : K}
    {lo hi : Bound K} (hj : j < ks.length)
    (h1 : slot_lo lo ks j < bnd s) (h2 : bnd s < slot_hi ks hi (j + 1))
    (hlo : ∀ k ∈ ks, lo < bnd k) :
    (ks.set j s).Pairwise (fun x y => x < y) := by
  rw [List.pairwise_iff_getElem]
  intro a b ha0 hb0 hab
  have ha : a < ks.length := by simpa using ha0
  have hb : b < ks.length := by simpa using hb0
  rw [List.getElem_set, List.getElem_set]
  by_cases haj : j = a
  · subst haj
    have hbj : ¬ j = b := by omega
    simp only [if_true, hbj, if_false]
    have hj1 : j + 1 < ks.length := by omega
    rw [slot_hi_lt (List.getElem?_eq_getElem hj1), bnd_lt_bnd] at h2
    by_cases hb1 : b = j + 1
    · subst hb1
      exact h2
    · exact lt_trans h2 (List.pairwise_iff_getElem.1 hs (j + 1) b hj1 hb (by omega))
  · by_cases hbj : j = b
    · subst hbj
      simp only [haj, if_false, if_true]
      cases j with
      | zero => omega
      | succ j0 =>
        rw [slot_lo_succ lo ks j0 (by omega), bnd_lt_bnd] at h1
        by_cases ha1 : a = j0
        · subst ha1
          exact h1
        · exact lt_trans (List.pairwise_iff_getElem.1 hs a j0 ha (by omega) (by omega)) h1
    · simp only [haj, hbj, if_false]
      exact List.pairwise_iff_getElem.1 hs a b ha hb hab

theorem mem_set_imp {A : Type} {l : List A} {j : Nat} {s x : A} (h : x ∈ l.set j s) :
    x = s ∨ x ∈ l := by
  rcases List.mem_or_eq_of_mem_set h with h1 | h1
  · exact Or.inr h1
  · exact Or.inl h1

end del1

end BPlus

namespace BPlus

section del2
variable {K V : Type} [LinearOrder K]

/-! ### Moving the separator between two neighbouring children -/

theorem rebal_ghost_left (g : Nat → Option (Info K)) (a c d : Nat) (lo hi : Bound K) (s : K) :
    rebal_ghost g a c d lo hi s a = some ⟨d, lo, bnd s⟩ := by
  simp [rebal_ghost]

theorem rebal_ghost_right (g : Nat → Option (Info K)) {a c : Nat} (d : Nat) (lo hi : Bound K)
    (s : K) (hca : c ≠ a) :
    rebal_ghost g a c d lo hi s c = some ⟨d, bnd s, hi⟩ := by
  simp [rebal_ghost, hca]

theorem rebal_ghost_other (g : Nat → Option (Info K)) {a c : Nat} (d : Nat) (lo hi : Bound K)
    (s : K) {x : Nat} (hxa : x ≠ a) (hxc : x ≠ c) :
    rebal_ghost g a c d lo hi s x = g x := by
  simp [rebal_ghost, hxa, hxc]

theorem InvX.inner_ht {t : bptree K V} {g : Nat → Option (Info K)} {L : List Nat}
    {kv : List (K × V)} {e : Option Nat} {sl sh : Nat} (hI : InvX t g L kv e sl sh)
    {a : Nat} {i : Info K} {nd : bpnode K V} (ha : g a = some i)
    (hnd : heap_get t.heap a = some nd) (hty : nd.type = bpnode_type.NODE_INNER) :
    2 ≤ i.ht := by
  obtain ⟨nd0, q0, ok⟩ := hI.nodes a i ha
  rw [hnd] at q0
  cases q0
  obtain ⟨d1, hd1, hch⟩ := ok.down hty
  have hl := hch.length
  have h0 : 0 < nd.children.length := by omega
  obtain ⟨hgx, _⟩ := hch.get (List.getElem?_eq_getElem h0)
  have := hI.ht_pos hgx
  simp only at this
  omega

/-- The neighbouring children `a` and `c` of `q` exchange keys (and, for
inner nodes, the children `X`, which go to `dst`); the separator between them
becomes `s`.  Afterwards every node is within bounds. -/
theorem InvX.rebalance {t : bptree K V} {g : Nat → Option (Info K)} {L : List Nat}
    {kv : List (K × V)} {e : Option Nat} {sl sh : Nat} (hI : InvX t g L kv e sl sh)
    {q j a c : Nat} {iq : Info K} {qd ad cd : bpnode K V}
    (hgq : g q = some iq) (hqd : heap_get t.heap q = some qd)
    (hqty : qd.type = bpnode_type.NODE_INNER)
    (hja : qd.children[j]? = some a) (hjc : qd.children[j + 1]? = some c)
    (he : ∀ x, e = some x → x = a ∨ x = c ∨ x = q)
    (e2 : Option Nat) (he2 : (e2 = e ∧ e = some q) ∨ (e2 = none ∧ e ≠ some q))
    (had : heap_get t.heap a = some ad) (hcd : heap_get t.heap c = some cd)
    (d : Nat) (hd : iq.ht = d + 1)
    (s : K) (A1 C1 : bpnode K V) (X : List Nat) (dst : Nat)
    (h2 : List (Option (bpnode K V))) (kv2 : List (K × V))
    (h2len : h2.length = t.heap.length)
    (h2a : heap_get h2 a = some A1) (h2c : heap_get h2 c = some C1)
    (h2q : heap_get h2 q = some { qd with keys := qd.keys.set j s })
    (h2x : ∀ x, x ≠ a → x ≠ c → x ≠ q →
      heap_get h2 x = (heap_get t.heap x).map
        (fun xd => if x ∈ X then { xd with parent := some dst } else xd))
    (hAty : A1.type = ad.type) (hCty : C1.type = cd.type)
    (hAp : A1.parent = ad.parent) (hCp : C1.parent = cd.parent)
    (hs1 : slot_lo iq.lo qd.keys j < bnd s) (hs2 : bnd s < slot_hi qd.keys iq.hi (j + 1))
    (hA_nk : A1.num_keys = (A1.keys.length : Int))
    (hA_sorted : A1.keys.Pairwise (fun x y => x < y))
    (hA_lob : ∀ k ∈ A1.keys, slot_lo iq.lo qd.keys j ≤ bnd k)
    (hA_hib : ∀ k ∈ A1.keys, bnd k < bnd s)
    (hA_leaf : ad.type = bpnode_type.NODE_LEAF → A1.values.length = A1.keys.length)
    (hA_occ : A1.keys.length < t.m) (hA_min : (t.m - 1) / 2 ≤ A1.keys.length)
    (hA_one : 1 ≤ A1.keys.length)
    (hC_nk : C1.num_keys = (C1.keys.length : Int))
    (hC_sorted : C1.keys.Pairwise (fun x y => x < y))
    (hC_lob : ∀ k ∈ C1.keys, bnd s ≤ bnd k)
    (hC_hib : ∀ k ∈ C1.keys, bnd k < slot_hi qd.keys iq.hi (j + 1))
    (hC_leaf : cd.type = bpnode_type.NODE_LEAF → C1.values.length = C1.keys.length)
    (hC_occ : C1.keys.length < t.m) (hC_min : (t.m - 1) / 2 ≤ C1.keys.length)
    (hC_one : 1 ≤ C1.keys.length)
    (hXsrc : ∀ x ∈ X, ad.type = bpnode_type.NODE_INNER ∧ (x ∈ ad.children ∨ x ∈ cd.children))
    (hAc : ∀ d1, d = d1 + 1 → ad.type = bpnode_type.NODE_INNER →
      A1.children.length = A1.keys.length + 1 ∧
      ∀ idx x, A1.children[idx]? = some x →
        g x = some ⟨d1, slot_lo (slot_lo iq.lo qd.keys j) A1.keys idx,
            slot_hi A1.keys (bnd s) idx⟩ ∧
        ((x ∉ X ∧ x ∈ ad.children) ∨ (x ∈ X ∧ dst = a)))
    (hCc : ∀ d1, d = d1 + 1 → cd.type = bpnode_type.NODE_INNER →
      C1.children.length = C1.keys.length + 1 ∧
      ∀ idx x, C1.children[idx]? = some x →
        g x = some ⟨d1, slot_lo (bnd s) C1.keys idx,
            slot_hi C1.keys (slot_hi qd.keys iq.hi (j + 1)) idx⟩ ∧
        ((x ∉ X ∧ x ∈ cd.children) ∨ (x ∈ X ∧ dst = c)))
    (hcover : ∀ x, x ∈ ad.children ∨ x ∈ cd.children → x ∈ A1.children ∨ x ∈ C1.children)
    (hLL : LeafLevel h2
      (rebal_ghost g a c d (slot_lo iq.lo qd.keys j) (slot_hi qd.keys iq.hi (j + 1)) s) L kv2) :
    InvX { t with heap := h2 }
      (rebal_ghost g a c d (slot_lo iq.lo qd.keys j) (slot_hi qd.keys iq.hi (j + 1)) s)
      L kv2 e2 sl sh := by
  obtain ⟨qd0, q0, okq⟩ := hI.nodes q iq hgq
  rw [hqd] at q0
  cases q0
  obtain ⟨da, ad0, u1, hga, u3, hapar, hql⟩ := hI.child hgq hqd hqty hja
  rw [had] at u3
  cases u3
  obtain ⟨dc, cd0, v1, hgc, v3, hcpar, _⟩ := hI.child hgq hqd hqty hjc
  rw [hcd] at v3
  cases v3
  have hda : d = da := by omega
  subst hda
  have hdc : d = dc := by omega
  subst hdc
  have hjl : j + 1 < qd.children.length := (List.getElem?_eq_some.1 hjc).1
  have hjk : j < qd.keys.length := by omega
  have hshj : slot_hi qd.keys iq.hi j = bnd qd.keys[j] :=
    slot_hi_lt (List.getElem?_eq_getElem hjk)
  have hslj : slot_lo iq.lo qd.keys (j + 1) = bnd qd.keys[j] := slot_lo_succ _ _ _ hjk
  rw [hshj] at hga
  rw [hslj] at hgc
  obtain ⟨ad0, q0, oka⟩ := hI.nodes a _ hga
  rw [had] at q0
  cases q0
  obtain ⟨cd0, q0, okc⟩ := hI.nodes c _ hgc
  rw [hcd] at q0
  cases q0
  have hac : a ≠ c := by
    intro h
    rw [h] at hja
    have := hI.children_inj hgq hqd hqty hja hjc
    omega
  have haq : a ≠ q := by
    intro h
    rw [h, hgq] at hga
    have := congrArg Info.ht (Option.some.inj hga)
    simp only at this
    omega
  have hcq : c ≠ q := by
    intro h
    rw [h, hgq] at hgc
    have := congrArg Info.ht (Option.some.inj hgc)
    simp only at this
    omega
  have haroot : some a ≠ t.root := by
    intro hr
    have := oka.uproot hr
    rw [hapar] at this
    cases this
  have hcroot : some c ≠ t.root := by
    intro hr
    have := okc.uproot hr
    rw [hcpar] at this
    cases this
  have htyc : ad.type = bpnode_type.NODE_INNER → cd.type = bpnode_type.NODE_INNER := by
    intro h
    rcases okc.kind with hk | hk
    · have h1 := (okc.leaf hk).1
      have h2 := hI.inner_ht hga had h
      simp only at h1 h2
      omega
    · exact hk
  have htya : cd.type = bpnode_type.NODE_INNER → ad.type = bpnode_type.NODE_INNER := by
    intro h
    rcases oka.kind with hk | hk
    · have h1 := (oka.leaf hk).1
      have h2 := hI.inner_ht hgc hcd h
      simp only at h1 h2
      omega
    · exact hk
  -- the moved children
  have hXinfo : ∀ x ∈ X, ∃ d1 lo1 hi1 xd, d = d1 + 1 ∧
      g x = some ⟨d1, lo1, hi1⟩ ∧ heap_get t.heap x = some xd ∧
      (xd.parent = some a ∨ xd.parent = some c) := by
    intro x hx
    obtain ⟨hin, hsrc⟩ := hXsrc x hx
    rcases hsrc with hm | hm
    · obtain ⟨d1, hd1, hch⟩ := oka.down hin
      simp only at hd1 hch
      obtain ⟨_, _, hgx, xd, r1, r2⟩ := hch.mem hm
      exact ⟨d1, _, _, xd, hd1, hgx, r1, Or.inl r2⟩
    · obtain ⟨d1, hd1, hch⟩ := okc.down (htyc hin)
      simp only at hd1 hch
      obtain ⟨_, _, hgx, xd, r1, r2⟩ := hch.mem hm
      exact ⟨d1, _, _, xd, hd1, hgx, r1, Or.inr r2⟩
  have hlow : ∀ x d1 lo1 hi1, g x = some ⟨d1, lo1, hi1⟩ → d1 + 1 ≤ d →
      x ≠ a ∧ x ≠ c ∧ x ≠ q := by
    intro x d1 lo1 hi1 hgx hle
    refine ⟨?_, ?_, ?_⟩
    · intro h
      rw [h, hga] at hgx
      have := congrArg Info.ht (Option.some.inj hgx)
      simp only at this
      omega
    · intro h
      rw [h, hgc] at hgx
      have := congrArg Info.ht (Option.some.inj hgx)
      simp only at this
      omega
    · intro h
      rw [h, hgq] at hgx
      have := congrArg Info.ht (Option.some.inj hgx)
      simp only at this
      omega
  have hXn : ∀ x ∈ X, x ≠ a ∧ x ≠ c ∧ x ≠ q := by
    intro x hx
    obtain ⟨d1, lo1, hi1, xd, r1, r2, _, _⟩ := hXinfo x hx
    exact hlow x d1 lo1 hi1 r2 (by omega)
  have hsame : ∀ x, x ≠ a → x ≠ c → x ≠ q → x ∉ X →
      heap_get h2 x = heap_get t.heap x ∧
      rebal_ghost g a c d (slot_lo iq.lo qd.keys j) (slot_hi qd.keys iq.hi (j + 1)) s x = g x := by
    intro x x1 x2 x3 x4
    exact ⟨by rw [h2x x x1 x2 x3, option_map_id_if _ _ _ x4], rebal_ghost_other g d _ _ s x1 x2⟩
  have g2a := rebal_ghost_left g a c d (slot_lo iq.lo qd.keys j) (slot_hi qd.keys iq.hi (j + 1)) s
  have g2c := rebal_ghost_right g d (slot_lo iq.lo qd.keys j) (slot_hi qd.keys iq.hi (j + 1)) s
    (Ne.symm hac)
  have g2q : rebal_ghost g a c d (slot_lo iq.lo qd.keys j) (slot_hi qd.keys iq.hi (j + 1)) s q
      = some iq := by
    rw [rebal_ghost_other g d _ _ s (Ne.symm haq) (Ne.symm hcq), hgq]
  have he2a : e2 ≠ some a := by
    intro h
    rcases he2 with ⟨z1, z2⟩ | ⟨z1, _⟩
    · rw [z1, z2] at h
      cases h
      exact haq rfl
    · rw [z1] at h
      cases h
  have he2c : e2 ≠ some c := by
    intro h
    rcases he2 with ⟨z1, z2⟩ | ⟨z1, _⟩
    · rw [z1, z2] at h
      cases h
      exact hcq rfl
    · rw [z1] at h
      cases h
  have hslo_le : iq.lo ≤ slot_lo iq.lo qd.keys j := slot_lo_ge okq.lob j (by omega)
  have hshi_le : slot_hi qd.keys iq.hi (j + 1) ≤ iq.hi :=
    slot_hi_le (fun k hk => le_of_lt (okq.hib k hk)) (j + 1)
  have hmemq : ∀ y, y ∈ qd.children → ∃ ip1 pd1,
      rebal_ghost g a c d (slot_lo iq.lo qd.keys j) (slot_hi qd.keys iq.hi (j + 1)) s q
        = some ip1 ∧
      heap_get h2 q = some pd1 ∧ pd1.type = bpnode_type.NODE_INNER ∧ y ∈ pd1.children :=
    fun y hy => ⟨iq, _, g2q, h2q, hqty, hy⟩
  have hamem : a ∈ qd.children := by
    obtain ⟨hl, he⟩ := List.getElem?_eq_some.1 hja
    exact he ▸ List.getElem_mem hl
  have hcmem : c ∈ qd.children := by
    obtain ⟨hl, he⟩ := List.getElem?_eq_some.1 hjc
    exact he ▸ List.getElem_mem hl
  -- a child of one of the two nodes after the exchange
  have hchild : ∀ (P : Nat) (d1 : Nat) (x : Nat) (lo1 hi1 : Bound K), d = d1 + 1 →
      g x = some ⟨d1, lo1, hi1⟩ →
      ((x ∉ X ∧ ∃ xd, heap_get t.heap x = some xd ∧ xd.parent = some P) ∨ (x ∈ X ∧ dst = P)) →
      ChildOK h2
        (rebal_ghost g a c d (slot_lo iq.lo qd.keys j) (slot_hi qd.keys iq.hi (j + 1)) s)
        P d1 x lo1 hi1 := by
    intro P d1 x lo1 hi1 hd1 hgx hcase
    obtain ⟨x1, x2, x3⟩ := hlow x d1 lo1 hi1 hgx (by omega)
    refine ⟨by rw [rebal_ghost_other g d _ _ s x1 x2, hgx], ?_⟩
    rcases hcase with ⟨hxX, xd, r1, r2⟩ | ⟨hxX, hdst⟩
    · exact ⟨xd, by rw [(hsame x x1 x2 x3 hxX).1, r1], r2⟩
    · obtain ⟨_, _, _, xd, _, _, r3, _⟩ := hXinfo x hxX
      refine ⟨{ xd with parent := some dst }, ?_, by rw [hdst]⟩
      rw [h2x x x1 x2 x3, r3]
      simp [hxX]
  have hnodes := hI.rebuild h2
    (rebal_ghost g a c d (slot_lo iq.lo qd.keys j) (slot_hi qd.keys iq.hi (j + 1)) s)
    t.root e2 sl sh (fun x => x = a ∨ x = c ∨ x = q ∨ x ∈ X) ?_ ?_ ?_ ?_ ?_ ?_
  · have hLL2 := hLL
    refine ⟨hI.m3, hI.m16, hnodes, ?_, ?_, ?_, hLL.chain, hLL.last, hLL.leaves, hLL.kv_eq⟩
    · intro hr
      have := (hI.root_none hr).1 q
      rw [hgq] at this
      cases this
    · intro r hr
      obtain ⟨dd, q1, q2⟩ := hI.root_some r hr
      refine ⟨dd, ?_, q2⟩
      have r1 : r ≠ a := fun h => haroot (by rw [hr, h])
      have r2 : r ≠ c := fun h => hcroot (by rw [hr, h])
      rw [rebal_ghost_other g d _ _ s r1 r2, q1]
    · have := hI.depth_le
      simp only [h2len]
      exact this
  · intro x hx
    simp only [not_or] at hx
    exact hsame x hx.1 hx.2.1 hx.2.2.1 hx.2.2.2
  · intro y yd hD hgy hyd
    rcases hD with h | h | h | h
    · subst h
      rw [had] at hyd
      cases hyd
      right
      intro p hp
      rw [hapar] at hp
      cases hp
      exact Or.inr (Or.inr (Or.inl rfl))
    · subst h
      rw [hcd] at hyd
      cases hyd
      right
      intro p hp
      rw [hcpar] at hp
      cases hp
      exact Or.inr (Or.inr (Or.inl rfl))
    · subst h
      rw [hqd] at hyd
      cases hyd
      exact Or.inl ⟨by rw [g2q, hgq], _, h2q, rfl⟩
    · right
      intro p hp
      obtain ⟨_, _, _, xd, _, _, r3, r4⟩ := hXinfo y h
      rw [hyd] at r3
      cases r3
      rw [hp] at r4
      rcases r4 with r4 | r4
      · cases r4
        exact Or.inl rfl
      · cases r4
        exact Or.inr (Or.inl rfl)
  · intro p pd hD hgp hpd hpty y hy hDy
    simp only [not_or] at hDy
    rcases hD with h | h | h | h
    · subst h
      rw [had] at hpd
      cases hpd
      rcases hcover y (Or.inl hy) with hc | hc
      · exact ⟨_, _, g2a, h2a, by rw [hAty, hpty], hc⟩
      · exfalso
        obtain ⟨d1, hd1, hch⟩ := oka.down hpty
        simp only at hd1 hch
        obtain ⟨idx, hidx⟩ := List.mem_iff_getElem?.1 hc
        rcases ((hCc d1 hd1 (htyc hpty)).2 idx y hidx).2 with ⟨_, z⟩ | ⟨z, _⟩
        · obtain ⟨_, _, _, yd, w1, w2⟩ := hch.mem hy
          obtain ⟨d2, hd2, hch2⟩ := okc.down (htyc hpty)
          obtain ⟨_, _, _, yd2, w3, w4⟩ := hch2.mem z
          rw [w1] at w3
          cases w3
          rw [w2] at w4
          cases w4
          exact hac rfl
        · exact hDy.2.2.2 z
    · subst h
      rw [hcd] at hpd
      cases hpd
      rcases hcover y (Or.inr hy) with hc | hc
      · exfalso
        obtain ⟨d1, hd1, hch⟩ := okc.down hpty
        simp only at hd1 hch
        obtain ⟨idx, hidx⟩ := List.mem_iff_getElem?.1 hc
        rcases ((hAc d1 hd1 (htya hpty)).2 idx y hidx).2 with ⟨_, z⟩ | ⟨z, _⟩
        · obtain ⟨_, _, _, yd, w1, w2⟩ := hch.mem hy
          obtain ⟨d2, hd2, hch2⟩ := oka.down (htya hpty)
          obtain ⟨_, _, _, yd2, w3, w4⟩ := hch2.mem z
          rw [w1] at w3
          cases w3
          rw [w2] at w4
          cases w4
          exact hac rfl
        · exact hDy.2.2.2 z
      · exact ⟨_, _, g2c, h2c, by rw [hCty, hpty], hc⟩
    · subst h
      rw [hqd] at hpd
      cases hpd
      exact hmemq y hy
    · obtain ⟨x1, x2, x3⟩ := hXn p h
      refine ⟨(Option.ne_none_iff_exists.1 hgp).choose, { pd with parent := some dst }, ?_, ?_,
        hpty, hy⟩
      · rw [rebal_ghost_other g d _ _ s x1 x2]
        exact (Option.ne_none_iff_exists.1 hgp).choose_spec.symm
      · rw [h2x p x1 x2 x3, hpd]
        simp [h]
  · intro x _
    exact Iff.rfl
  · intro x hx
    simp only [not_or] at hx
    intro h
    rcases he x h with h1 | h1 | h1
    · exact hx.1 h1
    · exact hx.2.1 h1
    · exact hx.2.2.1 h1
  · intro y i hD hgy
    rcases hD with h | h | h | h
    · -- the left node
      subst h
      rw [g2a] at hgy
      cases hgy
      refine ⟨A1, h2a, ?_⟩
      refine ⟨hA_nk, lt_of_le_of_lt (le_refl _) hs1, hA_sorted, hA_lob, hA_hib,
        by simpa [hAty] using oka.kind, ?_, ?_, ?_, ?_, ?_, ?_, ?_⟩
      · intro hl
        have hl1 : ad.type = bpnode_type.NODE_LEAF := by simpa [hAty] using hl
        exact ⟨(oka.leaf hl1).1, hA_leaf hl1⟩
      · intro hin
        have hk : ad.type = bpnode_type.NODE_INNER := by simpa [hAty] using hin
        obtain ⟨d1, hd1, hch⟩ := oka.down hk
        simp only at hd1 hch
        refine ⟨d1, hd1, ?_⟩
        obtain ⟨hlen, hall⟩ := hAc d1 hd1 hk
        rw [ChildrenOK_iff]
        refine ⟨hlen, ?_⟩
        intro idx x hx
        obtain ⟨hgx, hcase⟩ := hall idx x hx
        refine hchild y d1 x _ _ hd1 hgx ?_
        rcases hcase with ⟨r1, r2⟩ | r
        · left
          obtain ⟨_, _, _, xd, w1, w2⟩ := hch.mem r2
          exact ⟨r1, xd, w1, w2⟩
        · exact Or.inr r
      · intro _
        exact ⟨q, hmemq y hamem⟩
      · intro h
        exact absurd h haroot
      · simpa [he2a] using hA_occ
      · intro _
        simpa [he2a] using hA_min
      · simpa [he2a] using hA_one
    · -- the right node
      subst h
      rw [g2c] at hgy
      cases hgy
      refine ⟨C1, h2c, ?_⟩
      refine ⟨hC_nk, hs2, hC_sorted, hC_lob, hC_hib,
        by simpa [hCty] using okc.kind, ?_, ?_, ?_, ?_, ?_, ?_, ?_⟩
      · intro hl
        have hl1 : cd.type = bpnode_type.NODE_LEAF := by simpa [hCty] using hl
        exact ⟨(okc.leaf hl1).1, hC_leaf hl1⟩
      · intro hin
        have hk : cd.type = bpnode_type.NODE_INNER := by simpa [hCty] using hin
        obtain ⟨d1, hd1, hch⟩ := okc.down hk
        simp only at hd1 hch
        refine ⟨d1, hd1, ?_⟩
        obtain ⟨hlen, hall⟩ := hCc d1 hd1 hk
        rw [ChildrenOK_iff]
        refine ⟨hlen, ?_⟩
        intro idx x hx
        obtain ⟨hgx, hcase⟩ := hall idx x hx
        refine hchild y d1 x _ _ hd1 hgx ?_
        rcases hcase with ⟨r1, r2⟩ | r
        · left
          obtain ⟨_, _, _, xd, w1, w2⟩ := hch.mem r2
          exact ⟨r1, xd, w1, w2⟩
        · exact Or.inr r
      · intro _
        exact ⟨q, hmemq y hcmem⟩
      · intro h
        exact absurd h hcroot
      · simpa [he2c] using hC_occ
      · intro _
        simpa [he2c] using hC_min
      · simpa [he2c] using hC_one
    · -- the parent
      have h1 := h.symm
      subst h1
      rw [g2q] at hgy
      cases hgy
      refine ⟨_, h2q, ?_⟩
      have hocc := okq.occ_hi
      have hocl := okq.occ_lo
      have hoci := okq.occ_in
      have hif : ∀ n0 : Nat, (if e2 = some q then n0 else 0) = (if e = some q then n0 else 0) := by
        intro n0
        rcases he2 with ⟨z1, z2⟩ | ⟨z1, z2⟩
        · rw [z1]
        · rw [z1]
          simp [z2]
      refine ⟨by simpa using okq.nk, okq.lohi, ?_, ?_, ?_, Or.inr hqty, ?_, ?_, ?_, okq.uproot,
        by simpa [hif] using hocc, by simpa [hif] using hocl, by simpa [hif] using hoci⟩
      · exact sorted_set okq.sorted hjk hs1 hs2 (hI.lo_lt_keys hgq hqd hqty)
      · intro k hk
        rcases mem_set_imp hk with h | h
        · rw [h]
          exact le_trans hslo_le (le_of_lt hs1)
        · exact okq.lob k h
      · intro k hk
        rcases mem_set_imp hk with h | h
        · rw [h]
          exact lt_of_lt_of_le hs2 hshi_le
        · exact okq.hib k h
      · intro hl
        simp only [hqty] at hl
        cases hl
      · intro _
        refine ⟨d, hd, ?_⟩
        simp only
        rw [ChildrenOK_iff]
        refine ⟨by simpa using hql, ?_⟩
        intro idx x hx
        have hidx : idx < qd.children.length := (List.getElem?_eq_some.1 hx).1
        rw [slot_lo_set _ _ _ _ hjk idx (by omega), slot_hi_set _ _ _ _ hjk]
        by_cases h1 : idx = j
        · subst h1
          rw [hja] at hx
          cases hx
          have : ¬ idx = idx + 1 := by omega
          simp only [this, if_false, if_true]
          exact ⟨g2a, A1, h2a, hAp.trans hapar⟩
        · by_cases h2 : idx = j + 1
          · subst h2
            rw [hjc] at hx
            cases hx
            simp only [h1, if_false, if_true]
            exact ⟨g2c, C1, h2c, hCp.trans hcpar⟩
          · simp only [h1, h2, if_false]
            obtain ⟨d1, xd, r1, r2, r3, r4, _⟩ := hI.child hgq hqd hqty hx
            have hd1 : d1 = d := by omega
            subst hd1
            have x1 : x ≠ a := by
              intro h
              rw [h] at hx
              exact h1 (hI.children_inj hgq hqd hqty hx hja)
            have x2 : x ≠ c := by
              intro h
              rw [h] at hx
              exact h2 (hI.children_inj hgq hqd hqty hx hjc)
            have x3 : x ≠ q := by
              intro h
              rw [h, hgq] at r2
              have := congrArg Info.ht (Option.some.inj r2)
              simp only at this
              omega
            have x4 : x ∉ X := by
              intro hxX
              obtain ⟨_, _, _, xd1, _, _, w3, w4⟩ := hXinfo x hxX
              rw [r3] at w3
              cases w3
              rw [r4] at w4
              rcases w4 with w4 | w4
              · cases w4
                exact haq rfl
              · cases w4
                exact hcq rfl
            obtain ⟨s1, s2⟩ := hsame x x1 x2 x3 x4
            exact ⟨by rw [s2, r2], xd, by rw [s1, r3], r4⟩
      · intro hne
        obtain ⟨pq, ipq, pqd, jq, _, w2, w3, w4, w5, _, _, _, _, w10, _⟩ :=
          hI.parent hgq hqd hne
        have hqm : q ∈ pqd.children := by
          obtain ⟨hl, he⟩ := List.getElem?_eq_some.1 w5
          exact he ▸ List.getElem_mem hl
        have c1 : pq ≠ a := by
          intro h
          rw [h, hga] at w2
          have := congrArg Info.ht (Option.some.inj w2)
          simp only at this
          omega
        have c2 : pq ≠ c := by
          intro h
          rw [h, hgc] at w2
          have := congrArg Info.ht (Option.some.inj w2)
          simp only at this
          omega
        have c3 : pq ≠ q := by
          intro h
          rw [h, hgq] at w2
          cases w2
          omega
        have c4 : pq ∉ X := by
          intro hx
          obtain ⟨d1, _, _, _, s1, s3, _, _⟩ := hXinfo pq hx
          rw [w2] at s3
          have := congrArg Info.ht (Option.some.inj s3)
          simp only at this
          omega
        obtain ⟨z1, z2⟩ := hsame pq c1 c2 c3 c4
        exact ⟨pq, ipq, pqd, by rw [z2, w2], by rw [z1, w3], w4, hqm⟩
    · -- a moved child
      obtain ⟨d1, lo1, hi1, xd, r1, r2, r3, r4⟩ := hXinfo y h
      obtain ⟨x1, x2, x3⟩ := hXn y h
      rw [rebal_ghost_other g d _ _ s x1 x2] at hgy
      obtain ⟨xd0, w1, okx⟩ := hI.nodes y i hgy
      rw [r3] at w1
      cases w1
      rw [r2] at hgy
      cases hgy
      have hxroot : some y ≠ t.root := by
        intro hr
        have := okx.uproot hr
        rw [this] at r4
        rcases r4 with r4 | r4 <;> cases r4
      have hdst : dst = a ∨ dst = c := by
        obtain ⟨hin, hsrc⟩ := hXsrc y h
        rcases hcover y hsrc with hm | hm
        · obtain ⟨idx, hidx⟩ := List.mem_iff_getElem?.1 hm
          rcases ((hAc d1 r1 hin).2 idx y hidx).2 with ⟨z, _⟩ | ⟨_, z⟩
          · exact absurd h z
          · exact Or.inl z
        · obtain ⟨idx, hidx⟩ := List.mem_iff_getElem?.1 hm
          rcases ((hCc d1 r1 (htyc hin)).2 idx y hidx).2 with ⟨z, _⟩ | ⟨_, z⟩
          · exact absurd h z
          · exact Or.inr z
      refine ⟨{ xd with parent := some dst }, ?_, ?_⟩
      · rw [h2x y x1 x2 x3, r3]
        simp [h]
      · refine NodeOK.reparent ?_ _ (fun hr => absurd hr hxroot)
        refine okx.frame_up (fun he1 => ?_) ?_ Iff.rfl ?_
        · rcases he y he1 with z | z | z
          · exact x1 z
          · exact x2 z
          · exact x3 z
        · intro d2 z lo2 hi2 hz hco
          obtain ⟨hgz, zd, s1, s2⟩ := hco
          have hzroot : some z ≠ t.root := by
            intro hr
            obtain ⟨zd0, t1, okz⟩ := hI.nodes z _ hgz
            rw [s1] at t1
            cases t1
            have := okz.uproot hr
            rw [s2] at this
            cases this
          obtain ⟨p1, ip1, pd1, jz, u1, u2, u3, u4, _, _, _, _, _, u10, _⟩ :=
            hI.parent hgz s1 hzroot
          rw [s2] at u1
          cases u1
          rw [r2] at u2
          cases u2
          simp only at u10
          have hzX : z ∉ X := by
            intro hzX
            obtain ⟨d4, _, _, _, t1, t3, _, _⟩ := hXinfo z hzX
            rw [hgz] at t3
            have := congrArg Info.ht (Option.some.inj t3)
            simp only at this
            omega
          obtain ⟨c1, c2, c3⟩ := hlow z d2 _ _ hgz (by omega)
          obtain ⟨v1, v2⟩ := hsame z c1 c2 c3 hzX
          exact ⟨by rw [v2, hgz], zd, by rw [v1, s1], s2⟩
        · intro _
          obtain ⟨hin, hsrc⟩ := hXsrc y h
          rcases hcover y hsrc with hm | hm
          · exact ⟨a, _, _, g2a, h2a, by rw [hAty, hin], hm⟩
          · exact ⟨c, _, _, g2c, h2c, by rw [hCty, htyc hin], hm⟩

end del2

end BPlus

namespace BPlus

section del3
variable {K V : Type} [LinearOrder K]

/-! ### Merging two neighbouring children -/

theorem merge_ghost_left (g : Nat → Option (Info K)) {a c : Nat} (d : Nat) (lo hi : Bound K)
    (hac : a ≠ c) : merge_ghost g a c d lo hi a = some ⟨d, lo, hi⟩ := by
  simp [merge_ghost, hac]

theorem merge_ghost_gone (g : Nat → Option (Info K)) (a c d : Nat) (lo hi : Bound K) :
    merge_ghost g a c d lo hi c = none := by
  simp [merge_ghost]

theorem merge_ghost_other (g : Nat → Option (Info K)) {a c : Nat} (d : Nat) (lo hi : Bound K)
    {x : Nat} (hxa : x ≠ a) (hxc : x ≠ c) : merge_ghost g a c d lo hi x = g x := by
  simp [merge_ghost, hxa, hxc]

/-- The right one, `c`, of two neighbouring children of `q` is merged into the
left one, `a`; the parent loses the separator between them and the child `c`,
and may become underfull. -/
theorem InvX.merge_nodes {t : bptree K V} {g : Nat → Option (Info K)} {L : List Nat}
    {kv : List (K × V)} {e : Option Nat} {sl sh : Nat} (hI : InvX t g L kv e sl sh)
    {q j a c : Nat} {iq : Info K} {qd ad cd : bpnode K V}
    (hgq : g q = some iq) (hqd : heap_get t.heap q = some qd)
    (hqty : qd.type = bpnode_type.NODE_INNER)
    (hja : qd.children[j]? = some a) (hjc : qd.children[j + 1]? = some c)
    (he : ∀ x, e = some x → x = a ∨ x = c)
    (had : heap_get t.heap a = some ad) (hcd : heap_get t.heap c = some cd)
    (d : Nat) (hd : iq.ht = d + 1)
    (A1 : bpnode K V) (X : List Nat)
    (h2 : List (Option (bpnode K V))) (L2 : List Nat)
    (h2len : h2.length = t.heap.length)
    (h2a : heap_get h2 a = some A1) (h2c : heap_get h2 c = none)
    (h2q : heap_get h2 q = some
      { qd with keys := qd.keys.eraseIdx j, children := qd.children.eraseIdx (j + 1),
                num_keys := wrap16 (qd.num_keys - 1) })
    (h2x : ∀ x, x ≠ a → x ≠ c → x ≠ q →
      heap_get h2 x = (heap_get t.heap x).map
        (fun xd => if x ∈ X then { xd with parent := some a } else xd))
    (hAty : A1.type = ad.type) (hAp : A1.parent = ad.parent)
    (hA_nk : A1.num_keys = (A1.keys.length : Int))
    (hA_sorted : A1.keys.Pairwise (fun x y => x < y))
    (hA_lob : ∀ k ∈ A1.keys, slot_lo iq.lo qd.keys j ≤ bnd k)
    (hA_hib : ∀ k ∈ A1.keys, bnd k < slot_hi qd.keys iq.hi (j + 1))
    (hA_leaf : ad.type = bpnode_type.NODE_LEAF → A1.values.length = A1.keys.length)
    (hA_occ : A1.keys.length < t.m) (hA_min : (t.m - 1) / 2 ≤ A1.keys.length)
    (hA_one : 1 ≤ A1.keys.length)
    (hXsrc : ∀ x ∈ X, ad.type = bpnode_type.NODE_INNER ∧ (x ∈ ad.children ∨ x ∈ cd.children))
    (hcX : cd.type = bpnode_type.NODE_INNER → ∀ x ∈ cd.children, x ∈ X)
    (hAc : ∀ d1, d = d1 + 1 → ad.type = bpnode_type.NODE_INNER →
      A1.children.length = A1.keys.length + 1 ∧
      ∀ idx x, A1.children[idx]? = some x →
        g x = some ⟨d1, slot_lo (slot_lo iq.lo qd.keys j) A1.keys idx,
            slot_hi A1.keys (slot_hi qd.keys iq.hi (j + 1)) idx⟩ ∧
        ((x ∉ X ∧ x ∈ ad.children) ∨ x ∈ X))
    (hcover : ad.type = bpnode_type.NODE_INNER →
      ∀ x, x ∈ ad.children ∨ x ∈ cd.children → x ∈ A1.children)
    (hLL : LeafLevel h2
      (merge_ghost g a c d (slot_lo iq.lo qd.keys j) (slot_hi qd.keys iq.hi (j + 1))) L2 kv) :
    InvX { t with heap := h2 }
      (merge_ghost g a c d (slot_lo iq.lo qd.keys j) (slot_hi qd.keys iq.hi (j + 1)))
      L2 kv (some q) 1 0 := by
  obtain ⟨qd0, q0, okq⟩ := hI.nodes q iq hgq
  rw [hqd] at q0
  cases q0
  obtain ⟨da, ad0, u1, hga, u3, hapar, hql⟩ := hI.child hgq hqd hqty hja
  rw [had] at u3
  cases u3
  obtain ⟨dc, cd0, v1, hgc, v3, hcpar, _⟩ := hI.child hgq hqd hqty hjc
  rw [hcd] at v3
  cases v3
  have hda : d = da := by omega
  subst hda
  have hdc : d = dc := by omega
  subst hdc
  have hjl : j + 1 < qd.children.length := (List.getElem?_eq_some.1 hjc).1
  have hjk : j < qd.keys.length := by omega
  have hshj : slot_hi qd.keys iq.hi j = bnd qd.keys[j] :=
    slot_hi_lt (List.getElem?_eq_getElem hjk)
  have hslj : slot_lo iq.lo qd.keys (j + 1) = bnd qd.keys[j] := slot_lo_succ _ _ _ hjk
  obtain ⟨ad0, q0, oka⟩ := hI.nodes a _ hga
  rw [had] at q0
  cases q0
  obtain ⟨cd0, q0, okc⟩ := hI.nodes c _ hgc
  rw [hcd] at q0
  cases q0
  have hac : a ≠ c := by
    intro h
    rw [h] at hja
    have := hI.children_inj hgq hqd hqty hja hjc
    omega
  have haq : a ≠ q := by
    intro h
    rw [h, hgq] at hga
    have := congrArg Info.ht (Option.some.inj hga)
    simp only at this
    omega
  have hcq : c ≠ q := by
    intro h
    rw [h, hgq] at hgc
    have := congrArg Info.ht (Option.some.inj hgc)
    simp only at this
    omega
  have haroot : some a ≠ t.root := by
    intro hr
    have := oka.uproot hr
    rw [hapar] at this
    cases this
  have hcroot : some c ≠ t.root := by
    intro hr
    have := okc.uproot hr
    rw [hcpar] at this
    cases this
  have htyc : ad.type = bpnode_type.NODE_INNER → cd.type = bpnode_type.NODE_INNER := by
    intro h
    rcases okc.kind with hk | hk
    · have h1 := (okc.leaf hk).1
      have h2 := hI.inner_ht hga had h
      simp only at h1 h2
      omega
    · exact hk
  have htya : cd.type = bpnode_type.NODE_INNER → ad.type = bpnode_type.NODE_INNER := by
    intro h
    rcases oka.kind with hk | hk
    · have h1 := (oka.leaf hk).1
      have h2 := hI.inner_ht hgc hcd h
      simp only at h1 h2
      omega
    · exact hk
  have hXinfo : ∀ x ∈ X, ∃ d1 lo1 hi1 xd, d = d1 + 1 ∧
      g x = some ⟨d1, lo1, hi1⟩ ∧ heap_get t.heap x = some xd ∧
      (xd.parent = some a ∨ xd.parent = some c) := by
    intro x hx
    obtain ⟨hin, hsrc⟩ := hXsrc x hx
    rcases hsrc with hm | hm
    · obtain ⟨d1, hd1, hch⟩ := oka.down hin
      simp only at hd1 hch
      obtain ⟨_, _, hgx, xd, r1, r2⟩ := hch.mem hm
      exact ⟨d1, _, _, xd, hd1, hgx, r1, Or.inl r2⟩
    · obtain ⟨d1, hd1, hch⟩ := okc.down (htyc hin)
      simp only at hd1 hch
      obtain ⟨_, _, hgx, xd, r1, r2⟩ := hch.mem hm
      exact ⟨d1, _, _, xd, hd1, hgx, r1, Or.inr r2⟩
  have hlow : ∀ x d1 lo1 hi1, g x = some ⟨d1, lo1, hi1⟩ → d1 + 1 ≤ d →
      x ≠ a ∧ x ≠ c ∧ x ≠ q := by
    intro x d1 lo1 hi1 hgx hle
    refine ⟨?_, ?_, ?_⟩
    · intro h
      rw [h, hga] at hgx
      have := congrArg Info.ht (Option.some.inj hgx)
      simp only at this
      omega
    · intro h
      rw [h, hgc] at hgx
      have := congrArg Info.ht (Option.some.inj hgx)
      simp only at this
      omega
    · intro h
      rw [h, hgq] at hgx
      have := congrArg Info.ht (Option.some.inj hgx)
      simp only at this
      omega
  have hXn : ∀ x ∈ X, x ≠ a ∧ x ≠ c ∧ x ≠ q := by
    intro x hx
    obtain ⟨d1, lo1, hi1, xd, r1, r2, _, _⟩ := hXinfo x hx
    exact hlow x d1 lo1 hi1 r2 (by omega)
  have hsame : ∀ x, x ≠ a → x ≠ c → x ≠ q → x ∉ X →
      heap_get h2 x = heap_get t.heap x ∧
      merge_ghost g a c d (slot_lo iq.lo qd.keys j) (slot_hi qd.keys iq.hi (j + 1)) x = g x := by
    intro x x1 x2 x3 x4
    exact ⟨by rw [h2x x x1 x2 x3, option_map_id_if _ _ _ x4], merge_ghost_other g d _ _ x1 x2⟩
  have g2a := merge_ghost_left g d (slot_lo iq.lo qd.keys j) (slot_hi qd.keys iq.hi (j + 1)) hac
  have g2c := merge_ghost_gone g a c d (slot_lo iq.lo qd.keys j) (slot_hi qd.keys iq.hi (j + 1))
  have g2q : merge_ghost g a c d (slot_lo iq.lo qd.keys j) (slot_hi qd.keys iq.hi (j + 1)) q
      = some iq := by
    rw [merge_ghost_other g d _ _ (Ne.symm haq) (Ne.symm hcq), hgq]
  have hea : e ≠ some q := by
    intro h
    rcases he q h with h1 | h1
    · exact haq h1.symm
    · exact hcq h1.symm
  have hqa : (some q : Option Nat) ≠ some a := fun h => haq (by cases h; rfl)
  have hmemq : ∀ y, y ∈ qd.children → y ≠ c → ∃ ip1 pd1,
      merge_ghost g a c d (slot_lo iq.lo qd.keys j) (slot_hi qd.keys iq.hi (j + 1)) q
        = some ip1 ∧
      heap_get h2 q = some pd1 ∧ pd1.type = bpnode_type.NODE_INNER ∧ y ∈ pd1.children := by
    intro y hy hyc
    refine ⟨iq, _, g2q, h2q, hqty, ?_⟩
    obtain ⟨idx, hidx⟩ := List.mem_iff_getElem?.1 hy
    refine List.mem_eraseIdx_iff_getElem?.2 ⟨idx, ?_, hidx⟩
    intro h
    rw [h, hjc] at hidx
    cases hidx
    exact hyc rfl
  have hamem : a ∈ qd.children := by
    obtain ⟨hl, he⟩ := List.getElem?_eq_some.1 hja
    exact he ▸ List.getElem_mem hl
  have hlohi : slot_lo iq.lo qd.keys j < slot_hi qd.keys iq.hi (j + 1) := by
    have h1 := oka.lohi
    have h2 := okc.lohi
    simp only at h1 h2
    rw [hshj] at h1
    rw [hslj] at h2
    exact lt_trans h1 h2
  have hchild : ∀ (d1 : Nat) (x : Nat) (lo1 hi1 : Bound K), d = d1 + 1 →
      g x = some ⟨d1, lo1, hi1⟩ →
      ((x ∉ X ∧ ∃ xd, heap_get t.heap x = some xd ∧ xd.parent = some a) ∨ x ∈ X) →
      ChildOK h2
        (merge_ghost g a c d (slot_lo iq.lo qd.keys j) (slot_hi qd.keys iq.hi (j + 1)))
        a d1 x lo1 hi1 := by
    intro d1 x lo1 hi1 hd1 hgx hcase
    obtain ⟨x1, x2, x3⟩ := hlow x d1 lo1 hi1 hgx (by omega)
    refine ⟨by rw [merge_ghost_other g d _ _ x1 x2, hgx], ?_⟩
    rcases hcase with ⟨hxX, xd, r1, r2⟩ | hxX
    · exact ⟨xd, by rw [(hsame x x1 x2 x3 hxX).1, r1], r2⟩
    · obtain ⟨_, _, _, xd, _, _, r3, _⟩ := hXinfo x hxX
      refine ⟨{ xd with parent := some a }, ?_, rfl⟩
      rw [h2x x x1 x2 x3, r3]
      simp [hxX]
  have hnodes := hI.rebuild h2
    (merge_ghost g a c d (slot_lo iq.lo qd.keys j) (slot_hi qd.keys iq.hi (j + 1)))
    t.root (some q) 1 0 (fun x => x = a ∨ x = c ∨ x = q ∨ x ∈ X) ?_ ?_ ?_ ?_ ?_ ?_
  · refine ⟨hI.m3, hI.m16, hnodes, ?_, ?_, ?_, hLL.chain, hLL.last, hLL.leaves, hLL.kv_eq⟩
    · intro hr
      have := (hI.root_none hr).1 q
      rw [hgq] at this
      cases this
    · intro r hr
      obtain ⟨dd, q1, q2⟩ := hI.root_some r hr
      refine ⟨dd, ?_, q2⟩
      have r1 : r ≠ a := fun h => haroot (by rw [hr, h])
      have r2 : r ≠ c := fun h => hcroot (by rw [hr, h])
      rw [merge_ghost_other g d _ _ r1 r2, q1]
    · have := hI.depth_le
      simp only [h2len]
      exact this
  · intro x hx
    simp only [not_or] at hx
    exact hsame x hx.1 hx.2.1 hx.2.2.1 hx.2.2.2
  · intro y yd hD hgy hyd
    rcases hD with h | h | h | h
    · subst h
      rw [had] at hyd
      cases hyd
      right
      intro p hp
      rw [hapar] at hp
      cases hp
      exact Or.inr (Or.inr (Or.inl rfl))
    · subst h
      rw [hcd] at hyd
      cases hyd
      right
      intro p hp
      rw [hcpar] at hp
      cases hp
      exact Or.inr (Or.inr (Or.inl rfl))
    · subst h
      rw [hqd] at hyd
      cases hyd
      exact Or.inl ⟨by rw [g2q, hgq], _, h2q, rfl⟩
    · right
      intro p hp
      obtain ⟨_, _, _, xd, _, _, r3, r4⟩ := hXinfo y h
      rw [hyd] at r3
      cases r3
      rw [hp] at r4
      rcases r4 with r4 | r4
      · cases r4
        exact Or.inl rfl
      · cases r4
        exact Or.inr (Or.inl rfl)
  · intro p pd hD hgp hpd hpty y hy hDy
    simp only [not_or] at hDy
    rcases hD with h | h | h | h
    · subst h
      rw [had] at hpd
      cases hpd
      exact ⟨_, _, g2a, h2a, by rw [hAty, hpty], hcover hpty y (Or.inl hy)⟩
    · subst h
      rw [hcd] at hpd
      cases hpd
      exact absurd (hcX hpty y hy) hDy.2.2.2
    · subst h
      rw [hqd] at hpd
      cases hpd
      exact hmemq y hy hDy.2.1
    · obtain ⟨x1, x2, x3⟩ := hXn p h
      refine ⟨(Option.ne_none_iff_exists.1 hgp).choose, { pd with parent := some a }, ?_, ?_,
        hpty, hy⟩
      · rw [merge_ghost_other g d _ _ x1 x2]
        exact (Option.ne_none_iff_exists.1 hgp).choose_spec.symm
      · rw [h2x p x1 x2 x3, hpd]
        simp [h]
  · intro x _
    exact Iff.rfl
  · intro x hx
    simp only [not_or] at hx
    intro h
    rcases he x h with h1 | h1
    · exact hx.1 h1
    · exact hx.2.1 h1
  · intro y i hD hgy
    rcases hD with h | h | h | h
    · -- the merged node
      have h1 := h.symm
      subst h1
      rw [g2a] at hgy
      cases hgy
      refine ⟨A1, h2a, ?_⟩
      refine ⟨hA_nk, hlohi, hA_sorted, hA_lob, hA_hib,
        by simpa [hAty] using oka.kind, ?_, ?_, ?_, ?_, ?_, ?_, ?_⟩
      · intro hl
        have hl1 : ad.type = bpnode_type.NODE_LEAF := by simpa [hAty] using hl
        exact ⟨(oka.leaf hl1).1, hA_leaf hl1⟩
      · intro hin
        have hk : ad.type = bpnode_type.NODE_INNER := by simpa [hAty] using hin
        obtain ⟨d1, hd1, hch⟩ := oka.down hk
        simp only at hd1 hch
        refine ⟨d1, hd1, ?_⟩
        obtain ⟨hlen, hall⟩ := hAc d1 hd1 hk
        rw [ChildrenOK_iff]
        refine ⟨hlen, ?_⟩
        intro idx x hx
        obtain ⟨hgx, hcase⟩ := hall idx x hx
        refine hchild d1 x _ _ hd1 hgx ?_
        rcases hcase with ⟨r1, r2⟩ | r
        · left
          obtain ⟨_, _, _, xd, w1, w2⟩ := hch.mem r2
          exact ⟨r1, xd, w1, w2⟩
        · exact Or.inr r
      · intro _
        exact ⟨q, hmemq a hamem hac⟩
      · intro h
        exact absurd h haroot
      · simpa [hqa] using hA_occ
      · intro _
        simpa [hqa] using hA_min
      · simpa [hqa] using hA_one
    · -- the absorbed node is gone
      have h1 := h.symm
      subst h1
      rw [g2c] at hgy
      cases hgy
    · -- the parent
      have h1 := h.symm
      subst h1
      rw [g2q] at hgy
      cases hgy
      refine ⟨_, h2q, ?_⟩
      have hocc := okq.occ_hi
      have hocl := okq.occ_lo
      have hoci := okq.occ_in
      simp only [hea, if_false] at hocc hocl hoci
      have hkl : (qd.keys.eraseIdx j).length = qd.keys.length - 1 :=
        List.length_eraseIdx_of_lt hjk
      have hcl : (qd.children.eraseIdx (j + 1)).length = qd.children.length - 1 :=
        List.length_eraseIdx_of_lt hjl
      have hm16 := hI.m16
      refine ⟨?_, okq.lohi, ?_, ?_, ?_, Or.inr hqty, ?_, ?_, ?_, okq.uproot, ?_, ?_, ?_⟩
      · simp only [hkl, okq.nk]
        rw [wrap16_id (by omega) (by omega)]
        omega
      · exact okq.sorted.sublist (List.eraseIdx_sublist _ _)
      · intro k hk
        exact okq.lob k (List.mem_of_mem_eraseIdx hk)
      · intro k hk
        exact okq.hib k (List.mem_of_mem_eraseIdx hk)
      · intro hl
        simp only [hqty] at hl
        cases hl
      · intro _
        refine ⟨d, hd, ?_⟩
        simp only
        rw [ChildrenOK_iff]
        refine ⟨by rw [hcl, hkl, hql]; omega, ?_⟩
        intro idx x hx
        have hidx : idx < (qd.children.eraseIdx (j + 1)).length := (List.getElem?_eq_some.1 hx).1
        rw [hcl] at hidx
        rw [List.getElem?_eraseIdx] at hx
        rw [slot_lo_eraseIdx _ _ _ hjk idx (by omega), slot_hi_eraseIdx]
        -- an old child other than the two merged nodes
        have hold : ∀ i0 x0, i0 ≠ j → i0 ≠ j + 1 → qd.children[i0]? = some x0 →
            ChildOK h2
              (merge_ghost g a c d (slot_lo iq.lo qd.keys j) (slot_hi qd.keys iq.hi (j + 1)))
              q d x0 (slot_lo iq.lo qd.keys i0) (slot_hi qd.keys iq.hi i0) := by
          intro i0 x0 n1 n2 hx0
          obtain ⟨d1, xd, r1, r2, r3, r4, _⟩ := hI.child hgq hqd hqty hx0
          have hd1 : d = d1 := by omega
          subst hd1
          have x1 : x0 ≠ a := by
            intro h
            rw [h] at hx0
            exact n1 (hI.children_inj hgq hqd hqty hx0 hja)
          have x2 : x0 ≠ c := by
            intro h
            rw [h] at hx0
            exact n2 (hI.children_inj hgq hqd hqty hx0 hjc)
          have x3 : x0 ≠ q := by
            intro h
            rw [h, hgq] at r2
            have := congrArg Info.ht (Option.some.inj r2)
            simp only at this
            omega
          have x4 : x0 ∉ X := by
            intro hxX
            obtain ⟨_, _, _, xd1, _, _, w3, w4⟩ := hXinfo x0 hxX
            rw [r3] at w3
            cases w3
            rw [r4] at w4
            rcases w4 with w4 | w4
            · cases w4
              exact haq rfl
            · cases w4
              exact hcq rfl
          obtain ⟨s1, s2⟩ := hsame x0 x1 x2 x3 x4
          exact ⟨by rw [s2, r2], xd, by rw [s1, r3], r4⟩
        by_cases h1 : idx < j + 1
        · simp only [h1, if_true] at hx
          by_cases h2 : idx = j
          · subst h2
            rw [hja] at hx
            cases hx
            have a1 : idx ≤ idx := le_refl _
            have a2 : ¬ idx < idx := lt_irrefl _
            simp only [a1, a2, if_true, if_false]
            exact ⟨g2a, A1, h2a, hAp.trans hapar⟩
          · have a1 : idx ≤ j := by omega
            have a2 : idx < j := by omega
            simp only [a1, a2, if_true]
            exact hold idx x h2 (by omega) hx
        · simp only [h1, if_false] at hx
          have a1 : ¬ idx ≤ j := by omega
          have a2 : ¬ idx < j := by omega
          simp only [a1, a2, if_false]
          exact hold (idx + 1) x (by omega) (by omega) hx
      · intro hne
        obtain ⟨pq, ipq, pqd, jq, _, w2, w3, w4, w5, _, _, _, _, w10, _⟩ :=
          hI.parent hgq hqd hne
        have hqm : q ∈ pqd.children := by
          obtain ⟨hl, he⟩ := List.getElem?_eq_some.1 w5
          exact he ▸ List.getElem_mem hl
        have c1 : pq ≠ a := by
          intro h
          rw [h, hga] at w2
          have := congrArg Info.ht (Option.some.inj w2)
          simp only at this
          omega
        have c2 : pq ≠ c := by
          intro h
          rw [h, hgc] at w2
          have := congrArg Info.ht (Option.some.inj w2)
          simp only at this
          omega
        have c3 : pq ≠ q := by
          intro h
          rw [h, hgq] at w2
          cases w2
          omega
        have c4 : pq ∉ X := by
          intro hx
          obtain ⟨d1, _, _, _, s1, s3, _, _⟩ := hXinfo pq hx
          rw [w2] at s3
          have := congrArg Info.ht (Option.some.inj s3)
          simp only at this
          omega
        obtain ⟨z1, z2⟩ := hsame pq c1 c2 c3 c4
        exact ⟨pq, ipq, pqd, by rw [z2, w2], by rw [z1, w3], w4, hqm⟩
      · simp only [hkl, if_true]
        omega
      · intro hne
        have := hocl hne
        simp only [hkl, if_true]
        omega
      · simp only [hkl, if_true]
        omega
    · -- a child of the merged node
      obtain ⟨d1, lo1, hi1, xd, r1, r2, r3, r4⟩ := hXinfo y h
      obtain ⟨x1, x2, x3⟩ := hXn y h
      rw [merge_ghost_other g d _ _ x1 x2] at hgy
      obtain ⟨xd0, w1, okx⟩ := hI.nodes y i hgy
      rw [r3] at w1
      cases w1
      rw [r2] at hgy
      cases hgy
      have hxroot : some y ≠ t.root := by
        intro hr
        have := okx.uproot hr
        rw [this] at r4
        rcases r4 with r4 | r4 <;> cases r4
      refine ⟨{ xd with parent := some a }, ?_, ?_⟩
      · rw [h2x y x1 x2 x3, r3]
        simp [h]
      · refine NodeOK.reparent ?_ _ (fun hr => absurd hr hxroot)
        refine okx.frame_up (fun he1 => ?_) ?_ Iff.rfl ?_
        · rcases he y he1 with z | z
          · exact x1 z
          · exact x2 z
        · intro d2 z lo2 hi2 hz hco
          obtain ⟨hgz, zd, s1, s2⟩ := hco
          have hzroot : some z ≠ t.root := by
            intro hr
            obtain ⟨zd0, t1, okz⟩ := hI.nodes z _ hgz
            rw [s1] at t1
            cases t1
            have := okz.uproot hr
            rw [s2] at this
            cases this
          obtain ⟨p1, ip1, pd1, jz, u1, u2, u3, u4, _, _, _, _, _, u10, _⟩ :=
            hI.parent hgz s1 hzroot
          rw [s2] at u1
          cases u1
          rw [r2] at u2
          cases u2
          simp only at u10
          have hzX : z ∉ X := by
            intro hzX
            obtain ⟨d4, _, _, _, t1, t3, _, _⟩ := hXinfo z hzX
            rw [hgz] at t3
            have := congrArg Info.ht (Option.some.inj t3)
            simp only at this
            omega
          obtain ⟨c1, c2, c3⟩ := hlow z d2 _ _ hgz (by omega)
          obtain ⟨v1, v2⟩ := hsame z c1 c2 c3 hzX
          exact ⟨by rw [v2, hgz], zd, by rw [v1, s1], s2⟩
        · intro _
          obtain ⟨hin, hsrc⟩ := hXsrc y h
          exact ⟨a, _, _, g2a, h2a, by rw [hAty, hin], hcover hin y hsrc⟩

end del3

end BPlus

namespace BPlus

section del4
variable {K V : Type} [LinearOrder K]

/-! ### Neighbouring leaves in the leaf list -/

theorem pairwise_mem_or {A : Type} {R : A → A → Prop} :
    ∀ {l : List A}, l.Pairwise R → ∀ {a b : A}, a ∈ l → b ∈ l → a = b ∨ R a b ∨ R b a := by
  intro l hl
  induction hl with
  | nil => intro a b ha; simp at ha
  | cons h1 _ ih =>
    intro a b ha hb
    rcases List.mem_cons.1 ha with ha1 | ha1
    · rcases List.mem_cons.1 hb with hb1 | hb1
      · exact Or.inl (ha1.trans hb1.symm)
      · exact Or.inr (Or.inl (ha1 ▸ h1 b hb1))
    · rcases List.mem_cons.1 hb with hb1 | hb1
      · exact Or.inr (Or.inr (hb1 ▸ h1 a ha1))
      · exact ih ha1 hb1

/-- Two leaves with the same lower end are the same leaf. -/
theorem InvX.lo_inj {t : bptree K V} {g : Nat → Option (Info K)} {L : List Nat}
    {kv : List (K × V)} {e : Option Nat} {sl sh : Nat} (hI : InvX t g L kv e sl sh)
    {a b : Nat} {ia ib : Info K} (ha : a ∈ L) (hb : b ∈ L)
    (hga : g a = some ia) (hgb : g b = some ib) (hlo : ia.lo = ib.lo) : a = b := by
  obtain ⟨_, _, q1, _, _, oka⟩ := hI.leaf_info ha
  obtain ⟨_, _, q2, _, _, okb⟩ := hI.leaf_info hb
  rw [hga] at q1
  cases q1
  rw [hgb] at q2
  cases q2
  rcases pairwise_mem_or hI.leaf_order ha hb with h | ⟨i1, i2, r1, r2, r3⟩ | ⟨i1, i2, r1, r2, r3⟩
  · exact h
  · rw [hga] at r1
    cases r1
    rw [hgb] at r2
    cases r2
    exact absurd (lt_of_lt_of_le oka.lohi r3) (by rw [hlo]; exact lt_irrefl _)
  · rw [hgb] at r1
    cases r1
    rw [hga] at r2
    cases r2
    exact absurd (lt_of_lt_of_le okb.lohi r3) (by rw [hlo]; exact lt_irrefl _)

/-- A leaf whose interval starts where the interval of `a` ends follows `a`
in the leaf list. -/
theorem InvX.adjacent {t : bptree K V} {g : Nat → Option (Info K)} {L : List Nat}
    {kv : List (K × V)} {e : Option Nat} {sl sh : Nat} (hI : InvX t g L kv e sl sh)
    {a c : Nat} {ia ic : Info K} (ha : a ∈ L) (hc : c ∈ L)
    (hga : g a = some ia) (hgc : g c = some ic) (hlo : ia.hi = ic.lo) :
    ∃ P S, L = P ++ a :: c :: S := by
  obtain ⟨_, _, q1, _, _, oka⟩ := hI.leaf_info ha
  obtain ⟨_, _, q2, _, _, okc⟩ := hI.leaf_info hc
  rw [hga] at q1
  cases q1
  rw [hgc] at q2
  cases q2
  obtain ⟨P, R, hL⟩ := List.append_of_mem ha
  have hchain := hI.chain
  rw [hL] at hchain
  obtain ⟨_, cR, _⟩ := List.chain'_append.1 hchain
  cases R with
  | nil =>
    exfalso
    have hc2 : c ∈ P ++ [a] := by rw [← hL]; exact hc
    rcases List.mem_append.1 hc2 with h | h
    · have hord := hI.leaf_order
      rw [hL] at hord
      obtain ⟨i1, i2, r1, r2, r3⟩ := (List.pairwise_append.1 hord).2.2 c h a (by simp)
      rw [hgc] at r1
      cases r1
      rw [hga] at r2
      cases r2
      have h1 := oka.lohi
      have h2 := okc.lohi
      rw [hlo] at h1
      exact absurd (lt_trans (lt_of_le_of_lt r3 h1) h2) (lt_irrefl _)
    · simp only [List.mem_singleton] at h
      subst h
      rw [hga] at hgc
      cases hgc
      have h1 := oka.lohi
      rw [hlo] at h1
      exact absurd h1 (lt_irrefl _)
  | cons y S =>
    obtain ⟨r1, _⟩ := List.chain'_cons.1 cR
    obtain ⟨ad, i1, i2, w1, w2, w3, w4, w5⟩ := r1
    rw [hga] at w3
    cases w3
    have hy : y ∈ L := by rw [hL]; simp
    have := hI.lo_inj hy hc w4 hgc (by rw [← w5, hlo])
    subst this
    exact ⟨P, S, hL⟩

/-- The leaf level after two neighbouring leaves have exchanged a key. -/
theorem InvX.rebalance_leaves {t : bptree K V} {g : Nat → Option (Info K)} {L : List Nat}
    {kv : List (K × V)} {e : Option Nat} {sl sh : Nat} (hI : InvX t g L kv e sl sh)
    {a c d : Nat} {lo mid hi : Bound K} {ad cd : bpnode K V}
    (hga : g a = some ⟨d, lo, mid⟩) (hgc : g c = some ⟨d, mid, hi⟩)
    (had : heap_get t.heap a = some ad) (hcd : heap_get t.heap c = some cd)
    (hat : ad.type = bpnode_type.NODE_LEAF) (hct : cd.type = bpnode_type.NODE_LEAF)
    (s : K) (A1 C1 : bpnode K V) (h2 : List (Option (bpnode K V)))
    (h2a : heap_get h2 a = some A1) (h2c : heap_get h2 c = some C1)
    (hleaf : ∀ x, x ≠ a → x ≠ c → ∀ nd, heap_get t.heap x = some nd →
      nd.type = bpnode_type.NODE_LEAF → heap_get h2 x = some nd)
    (hback : ∀ x, x ≠ a → x ≠ c → ∀ i nd1, g x = some i → heap_get h2 x = some nd1 →
      nd1.type = bpnode_type.NODE_LEAF →
      ∃ nd, heap_get t.heap x = some nd ∧ nd.type = bpnode_type.NODE_LEAF)
    (hAt : A1.type = bpnode_type.NODE_LEAF) (hCt : C1.type = bpnode_type.NODE_LEAF)
    (hAn : A1.next = ad.next) (hCn : C1.next = cd.next)
    (hpairs : A1.keys.zip A1.values ++ C1.keys.zip C1.values =
      ad.keys.zip ad.values ++ cd.keys.zip cd.values) :
    LeafLevel h2 (rebal_ghost g a c d lo hi s) L kv := by
  have haL : a ∈ L := (hI.leaves a).2 ⟨_, ad, hga, had, hat⟩
  have hcL : c ∈ L := (hI.leaves c).2 ⟨_, cd, hgc, hcd, hct⟩
  obtain ⟨P, S, hL⟩ := hI.adjacent haL hcL hga hgc rfl
  have hnodup := hI.leaf_nodup
  rw [hL] at hnodup
  have hac : a ≠ c := by
    intro h
    have := (List.nodup_cons.1 (List.nodup_append.1 hnodup).2.1).1
    rw [h] at this
    simp at this
  have haP : a ∉ P := fun hm => (List.nodup_append.1 hnodup).2.2 hm (by simp)
  have hcP : c ∉ P := fun hm => (List.nodup_append.1 hnodup).2.2 hm (by simp)
  have haS : a ∉ S := by
    have := (List.nodup_cons.1 (List.nodup_append.1 hnodup).2.1).1
    intro h
    exact this (by simp [h])
  have hcS : c ∉ S :=
    (List.nodup_cons.1 (List.nodup_cons.1 (List.nodup_append.1 hnodup).2.1).2).1
  have g2a := rebal_ghost_left g a c d lo hi s
  have g2c := rebal_ghost_right g d lo hi s (Ne.symm hac)
  have hother : ∀ x, x ∈ L → x ≠ a → x ≠ c → ∀ xd, heap_get t.heap x = some xd →
      heap_get h2 x = some xd := by
    intro x hxL hxa hxc xd hxd
    obtain ⟨_, xd0, _, q2, q3, _⟩ := hI.leaf_info hxL
    rw [hxd] at q2
    cases q2
    exact hleaf x hxa hxc xd hxd q3
  have hlink : ∀ x y, x ∈ L → x ≠ a → x ≠ c → y ≠ c → Linked t.heap g x y →
      Linked h2 (rebal_ghost g a c d lo hi s) x y := by
    intro x y hxL hxa hxc hyc hl
    obtain ⟨xd, ix, iy, q1, q2, q3, q4, q5⟩ := hl
    by_cases hya : y = a
    · subst hya
      rw [hga] at q4
      cases q4
      exact ⟨xd, ix, _, hother x hxL hxa hxc xd q1, q2,
        by rw [rebal_ghost_other g d lo hi s hxa hxc, q3], g2a, q5⟩
    · exact ⟨xd, ix, iy, hother x hxL hxa hxc xd q1, q2,
        by rw [rebal_ghost_other g d lo hi s hxa hxc, q3],
        by rw [rebal_ghost_other g d lo hi s hya hyc, q4], q5⟩
  have hchain := hI.chain
  rw [hL] at hchain
  obtain ⟨cP, cR, cJ⟩ := List.chain'_append.1 hchain
  obtain ⟨lac, cR2⟩ := List.chain'_cons.1 cR
  have hPL : ∀ x, x ∈ P → x ∈ L := fun x hx => by rw [hL]; simp [hx]
  have hSL : ∀ x, x ∈ S → x ∈ L := fun x hx => by rw [hL]; simp [hx]
  refine ⟨?_, ?_, ?_, ?_⟩
  · rw [hL]
    refine List.chain'_append.2 ⟨?_, ?_, ?_⟩
    · refine (List.Chain'.iff_mem.1 cP).imp ?_
      intro x y hxy
      exact hlink x y (hPL x hxy.1) (fun h => haP (h ▸ hxy.1)) (fun h => hcP (h ▸ hxy.1))
        (fun h => hcP (h ▸ hxy.2.1)) hxy.2.2
    · refine List.chain'_cons.2 ⟨?_, ?_⟩
      · obtain ⟨xd, ix, iy, q1, q2, q3, q4, q5⟩ := lac
        rw [had] at q1
        cases q1
        exact ⟨A1, _, _, h2a, by rw [hAn, q2], g2a, g2c, rfl⟩
      · cases S with
        | nil => exact List.chain'_singleton _
        | cons y S1 =>
          obtain ⟨r1, r2⟩ := List.chain'_cons.1 cR2
          refine List.chain'_cons.2 ⟨?_, ?_⟩
          · obtain ⟨xd, ix, iy, q1, q2, q3, q4, q5⟩ := r1
            rw [hcd] at q1
            cases q1
            rw [hgc] at q3
            cases q3
            have hya : y ≠ a := fun h => haS (by rw [← h]; simp)
            have hyc : y ≠ c := fun h => hcS (by rw [← h]; simp)
            exact ⟨C1, _, iy, h2c, by rw [hCn, q2], g2c,
              by rw [rebal_ghost_other g d lo hi s hya hyc, q4], q5⟩
          · refine (List.Chain'.iff_mem.1 r2).imp ?_
            intro x y hxy
            exact hlink x y (hSL x hxy.1) (fun h => haS (h ▸ hxy.1)) (fun h => hcS (h ▸ hxy.1))
              (fun h => hcS (h ▸ hxy.2.1)) hxy.2.2
    · intro x hx y hy
      simp only [List.head?_cons, Option.mem_def, Option.some.injEq] at hy
      subst hy
      have hxP : x ∈ P := List.mem_of_mem_getLast? hx
      exact hlink x a (hPL x hxP) (fun h => haP (h ▸ hxP)) (fun h => hcP (h ▸ hxP)) hac
        (cJ x hx a (by simp))
  · intro z hz
    obtain ⟨zd, q1, q2⟩ := hI.last z hz
    by_cases hzc : z = c
    · subst hzc
      rw [hcd] at q1
      cases q1
      exact ⟨C1, h2c, by rw [hCn, q2]⟩
    · have hzL : z ∈ L := List.mem_of_mem_getLast? hz
      have hza : z ≠ a := by
        intro h
        subst h
        rw [hL] at hz
        simp [List.getLast?_append, List.getLast?_cons_cons] at hz
        cases S with
        | nil =>
          simp at hz
          exact hac hz.symm
        | cons y S1 =>
          have : (y :: S1).getLast? = some z := by simpa using hz
          exact haS (List.mem_of_mem_getLast? this)
      exact ⟨zd, hother z hzL hza hzc zd q1, q2⟩
  · intro x
    rw [hI.leaves x]
    by_cases hxa : x = a
    · subst hxa
      exact ⟨fun _ => ⟨_, A1, g2a, h2a, hAt⟩, fun _ => ⟨_, ad, hga, had, hat⟩⟩
    · by_cases hxc : x = c
      · subst hxc
        exact ⟨fun _ => ⟨_, C1, g2c, h2c, hCt⟩, fun _ => ⟨_, cd, hgc, hcd, hct⟩⟩
      · rw [rebal_ghost_other g d lo hi s hxa hxc]
        constructor
        · rintro ⟨i, nd, q1, q2, q3⟩
          exact ⟨i, nd, q1, hleaf x hxa hxc nd q2 q3, q3⟩
        · rintro ⟨i, nd1, q1, q2, q3⟩
          obtain ⟨nd, r1, r2⟩ := hback x hxa hxc i nd1 q1 q2 q3
          exact ⟨i, nd, q1, r1, r2⟩
  · rw [hI.kv_eq, hL]
    simp only [List.flatMap_append, List.flatMap_cons]
    have hP : P.flatMap (leaf_pairs h2) = P.flatMap (leaf_pairs t.heap) :=
      flatMap_pairs_frame (fun x hx => by
        obtain ⟨_, xd, _, q2, _, _⟩ := hI.leaf_info (hPL x hx)
        simp only [leaf_pairs, q2,
          hother x (hPL x hx) (fun h => haP (h ▸ hx)) (fun h => hcP (h ▸ hx)) xd q2])
    have hS : S.flatMap (leaf_pairs h2) = S.flatMap (leaf_pairs t.heap) :=
      flatMap_pairs_frame (fun x hx => by
        obtain ⟨_, xd, _, q2, _, _⟩ := hI.leaf_info (hSL x hx)
        simp only [leaf_pairs, q2,
          hother x (hSL x hx) (fun h => haS (h ▸ hx)) (fun h => hcS (h ▸ hx)) xd q2])
    rw [hP, hS]
    have h1 : leaf_pairs h2 a ++ leaf_pairs h2 c = leaf_pairs t.heap a ++ leaf_pairs t.heap c := by
      simp only [leaf_pairs, h2a, h2c, had, hcd]
      exact hpairs
    rw [← List.append_assoc (leaf_pairs h2 a), h1]
    simp only [List.append_assoc]

/-- The leaf level after the right one of two neighbouring leaves has been
merged into the left one. -/
theorem InvX.merge_leaves {t : bptree K V} {g : Nat → Option (Info K)} {L : List Nat}
    {kv : List (K × V)} {e : Option Nat} {sl sh : Nat} (hI : InvX t g L kv e sl sh)
    {a c d : Nat} {lo mid hi : Bound K} {ad cd : bpnode K V}
    (hga : g a = some ⟨d, lo, mid⟩) (hgc : g c = some ⟨d, mid, hi⟩)
    (had : heap_get t.heap a = some ad) (hcd : heap_get t.heap c = some cd)
    (hat : ad.type = bpnode_type.NODE_LEAF) (hct : cd.type = bpnode_type.NODE_LEAF)
    (A1 : bpnode K V) (h2 : List (Option (bpnode K V)))
    (h2a : heap_get h2 a = some A1)
    (hleaf : ∀ x, x ≠ a → x ≠ c → ∀ nd, heap_get t.heap x = some nd →
      nd.type = bpnode_type.NODE_LEAF → heap_get h2 x = some nd)
    (hback : ∀ x, x ≠ a → x ≠ c → ∀ i nd1, g x = some i → heap_get h2 x = some nd1 →
      nd1.type = bpnode_type.NODE_LEAF →
      ∃ nd, heap_get t.heap x = some nd ∧ nd.type = bpnode_type.NODE_LEAF)
    (hAt : A1.type = bpnode_type.NODE_LEAF) (hAn : A1.next = cd.next)
    (hpairs : A1.keys.zip A1.values = ad.keys.zip ad.values ++ cd.keys.zip cd.values) :
    ∃ L2, LeafLevel h2 (merge_ghost g a c d lo hi) L2 kv := by
  have haL : a ∈ L := (hI.leaves a).2 ⟨_, ad, hga, had, hat⟩
  have hcL : c ∈ L := (hI.leaves c).2 ⟨_, cd, hgc, hcd, hct⟩
  obtain ⟨P, S, hL⟩ := hI.adjacent haL hcL hga hgc rfl
  have hnodup := hI.leaf_nodup
  rw [hL] at hnodup
  have hac : a ≠ c := by
    intro h
    have := (List.nodup_cons.1 (List.nodup_append.1 hnodup).2.1).1
    rw [h] at this
    simp at this
  have haP : a ∉ P := fun hm => (List.nodup_append.1 hnodup).2.2 hm (by simp)
  have hcP : c ∉ P := fun hm => (List.nodup_append.1 hnodup).2.2 hm (by simp)
  have haS : a ∉ S := by
    have := (List.nodup_cons.1 (List.nodup_append.1 hnodup).2.1).1
    intro h
    exact this (by simp [h])
  have hcS : c ∉ S :=
    (List.nodup_cons.1 (List.nodup_cons.1 (List.nodup_append.1 hnodup).2.1).2).1
  have g2a := merge_ghost_left g d lo hi hac
  have g2c := merge_ghost_gone g a c d lo hi
  have hother : ∀ x, x ∈ L → x ≠ a → x ≠ c → ∀ xd, heap_get t.heap x = some xd →
      heap_get h2 x = some xd := by
    intro x hxL hxa hxc xd hxd
    obtain ⟨_, xd0, _, q2, q3, _⟩ := hI.leaf_info hxL
    rw [hxd] at q2
    cases q2
    exact hleaf x hxa hxc xd hxd q3
  have hlink : ∀ x y, x ∈ L → x ≠ a → x ≠ c → y ≠ c → Linked t.heap g x y →
      Linked h2 (merge_ghost g a c d lo hi) x y := by
    intro x y hxL hxa hxc hyc hl
    obtain ⟨xd, ix, iy, q1, q2, q3, q4, q5⟩ := hl
    by_cases hya : y = a
    · subst hya
      rw [hga] at q4
      cases q4
      exact ⟨xd, ix, _, hother x hxL hxa hxc xd q1, q2,
        by rw [merge_ghost_other g d lo hi hxa hxc, q3], g2a, q5⟩
    · exact ⟨xd, ix, iy, hother x hxL hxa hxc xd q1, q2,
        by rw [merge_ghost_other g d lo hi hxa hxc, q3],
        by rw [merge_ghost_other g d lo hi hya hyc, q4], q5⟩
  have hchain := hI.chain
  rw [hL] at hchain
  obtain ⟨cP, cR, cJ⟩ := List.chain'_append.1 hchain
  obtain ⟨lac, cR2⟩ := List.chain'_cons.1 cR
  have hPL : ∀ x, x ∈ P → x ∈ L := fun x hx => by rw [hL]; simp [hx]
  have hSL : ∀ x, x ∈ S → x ∈ L := fun x hx => by rw [hL]; simp [hx]
  refine ⟨P ++ a :: S, ?_, ?_, ?_, ?_⟩
  · refine List.chain'_append.2 ⟨?_, ?_, ?_⟩
    · refine (List.Chain'.iff_mem.1 cP).imp ?_
      intro x y hxy
      exact hlink x y (hPL x hxy.1) (fun h => haP (h ▸ hxy.1)) (fun h => hcP (h ▸ hxy.1))
        (fun h => hcP (h ▸ hxy.2.1)) hxy.2.2
    · cases S with
      | nil => exact List.chain'_singleton _
      | cons y S1 =>
        obtain ⟨r1, r2⟩ := List.chain'_cons.1 cR2
        refine List.chain'_cons.2 ⟨?_, ?_⟩
        · obtain ⟨xd, ix, iy, q1, q2, q3, q4, q5⟩ := r1
          rw [hcd] at q1
          cases q1
          rw [hgc] at q3
          cases q3
          have hya : y ≠ a := fun h => haS (by rw [← h]; simp)
          have hyc : y ≠ c := fun h => hcS (by rw [← h]; simp)
          exact ⟨A1, _, iy, h2a, by rw [hAn, q2], g2a,
            by rw [merge_ghost_other g d lo hi hya hyc, q4], q5⟩
        · refine (List.Chain'.iff_mem.1 r2).imp ?_
          intro x y hxy
          exact hlink x y (hSL x hxy.1) (fun h => haS (h ▸ hxy.1)) (fun h => hcS (h ▸ hxy.1))
            (fun h => hcS (h ▸ hxy.2.1)) hxy.2.2
    · intro x hx y hy
      simp only [List.head?_cons, Option.mem_def, Option.some.injEq] at hy
      subst hy
      have hxP : x ∈ P := List.mem_of_mem_getLast? hx
      exact hlink x a (hPL x hxP) (fun h => haP (h ▸ hxP)) (fun h => hcP (h ▸ hxP)) hac
        (cJ x hx a (by simp))
  · intro z hz
    cases S with
    | nil =>
      have hza : z = a := by
        simpa [List.getLast?_append] using hz.symm
      subst hza
      obtain ⟨zd, q1, q2⟩ := hI.last c (by rw [hL]; simp [List.getLast?_append])
      rw [hcd] at q1
      cases q1
      exact ⟨A1, h2a, by rw [hAn, q2]⟩
    | cons y S1 =>
      have h2z : (y :: S1).getLast? = some z := by
        simpa [List.getLast?_append, List.getLast?_cons_cons] using hz
      have hzS : z ∈ y :: S1 := List.mem_of_mem_getLast? h2z
      obtain ⟨zd, q1, q2⟩ := hI.last z (by
        rw [hL]
        simpa [List.getLast?_append, List.getLast?_cons_cons] using h2z)
      exact ⟨zd, hother z (hSL z hzS) (fun h => haS (h ▸ hzS)) (fun h => hcS (h ▸ hzS)) zd q1, q2⟩
  · intro x
    have hmem : x ∈ P ++ a :: S ↔ x ∈ L ∧ x ≠ c := by
      rw [hL]
      simp only [List.mem_append, List.mem_cons]
      constructor
      · rintro (h | h | h)
        · exact ⟨Or.inl h, fun hh => hcP (hh ▸ h)⟩
        · exact ⟨Or.inr (Or.inl h), fun hh => hac (h.symm.trans hh)⟩
        · exact ⟨Or.inr (Or.inr (Or.inr h)), fun hh => hcS (hh ▸ h)⟩
      · rintro ⟨h | h | h | h, hne⟩
        · exact Or.inl h
        · exact Or.inr (Or.inl h)
        · exact absurd h hne
        · exact Or.inr (Or.inr h)
    rw [hmem, hI.leaves x]
    by_cases hxc : x = c
    · subst hxc
      constructor
      · rintro ⟨_, h⟩
        exact absurd rfl h
      · rintro ⟨i, nd, q1, _⟩
        rw [g2c] at q1
        cases q1
    · by_cases hxa : x = a
      · subst hxa
        exact ⟨fun _ => ⟨_, A1, g2a, h2a, hAt⟩, fun _ => ⟨⟨_, ad, hga, had, hat⟩, hxc⟩⟩
      · rw [merge_ghost_other g d lo hi hxa hxc]
        constructor
        · rintro ⟨⟨i, nd, q1, q2, q3⟩, _⟩
          exact ⟨i, nd, q1, hleaf x hxa hxc nd q2 q3, q3⟩
        · rintro ⟨i, nd1, q1, q2, q3⟩
          obtain ⟨nd, r1, r2⟩ := hback x hxa hxc i nd1 q1 q2 q3
          exact ⟨⟨i, nd, q1, r1, r2⟩, hxc⟩
  · rw [hI.kv_eq, hL]
    simp only [List.flatMap_append, List.flatMap_cons]
    have hP : P.flatMap (leaf_pairs h2) = P.flatMap (leaf_pairs t.heap) :=
      flatMap_pairs_frame (fun x hx => by
        obtain ⟨_, xd, _, q2, _, _⟩ := hI.leaf_info (hPL x hx)
        simp only [leaf_pairs, q2,
          hother x (hPL x hx) (fun h => haP (h ▸ hx)) (fun h => hcP (h ▸ hx)) xd q2])
    have hS : S.flatMap (leaf_pairs h2) = S.flatMap (leaf_pairs t.heap) :=
      flatMap_pairs_frame (fun x hx => by
        obtain ⟨_, xd, _, q2, _, _⟩ := hI.leaf_info (hSL x hx)
        simp only [leaf_pairs, q2,
          hother x (hSL x hx) (fun h => haS (h ▸ hx)) (fun h => hcS (h ▸ hx)) xd q2])
    rw [hP, hS]
    have h1 : leaf_pairs h2 a = leaf_pairs t.heap a ++ leaf_pairs t.heap c := by
      simp only [leaf_pairs, h2a, had, hcd]
      exact hpairs
    rw [h1]
    simp only [List.append_assoc]

end del4

end BPlus

namespace BPlus

section del5
variable {K V : Type} [LinearOrder K]

/-! ### Removing a key from its leaf -/

theorem InvX.erase_leaf {t : bptree K V} {g : Nat → Option (Info K)} {L : List Nat}
    {kv : List (K × V)} (hI : InvX t g L kv none 0 0)
    {b : Nat} {ib : Info K} {nb : bpnode K V} (hb : g b = some ib)
    (hnb : heap_get t.heap b = some nb) (hty : nb.type = bpnode_type.NODE_LEAF)
    (hbL : b ∈ L) {key : K} (hk : key ∈ nb.keys) :
    InvX { t with
          heap := heap_set t.heap b
              { nb with keys := nb.keys.eraseIdx (index_of key nb.keys),
                        values := nb.values.eraseIdx (index_of key nb.keys),
                        num_keys := wrap16 (nb.num_keys - 1) } } g L
      (kv_erase key kv) (some b) 1 0 := by
  obtain ⟨nb0, q0, okb⟩ := hI.nodes b ib hb
  rw [hnb] at q0
  cases q0
  have hvl := (okb.leaf hty).2
  have o1 := okb.occ_hi
  have o2 := okb.occ_lo
  have o3 := okb.occ_in
  simp only [reduceCtorEq, if_false] at o1 o2 o3
  have hpos : index_of key nb.keys < nb.keys.length := (index_of_lt_iff key nb.keys).2 hk
  have hm16 := hI.m16
  have hlen : (nb.keys.eraseIdx (index_of key nb.keys)).length = nb.keys.length - 1 :=
    List.length_eraseIdx_of_lt hpos
  have hlenv : (nb.values.eraseIdx (index_of key nb.keys)).length = nb.values.length - 1 :=
    List.length_eraseIdx_of_lt (by omega)
  have hU := hI.update_leaf hb hnb hty (fun a _ => by simp)
    { nb with keys := nb.keys.eraseIdx (index_of key nb.keys),
              values := nb.values.eraseIdx (index_of key nb.keys),
              num_keys := wrap16 (nb.num_keys - 1) } rfl rfl rfl (some b) 1 0
    (by
      show wrap16 (nb.num_keys - 1) = _
      rw [okb.nk, hlen, wrap16_id (by omega) (by omega)]
      omega)
    (okb.sorted.sublist (List.eraseIdx_sublist _ _))
    (fun k hkm => okb.lob k (List.mem_of_mem_eraseIdx hkm))
    (fun k hkm => okb.hib k (List.mem_of_mem_eraseIdx hkm))
    (by
      show (nb.values.eraseIdx _).length = (nb.keys.eraseIdx _).length
      rw [hlen, hlenv, hvl])
    (by
      show (nb.keys.eraseIdx _).length < _
      rw [hlen]; simp; omega)
    (by
      intro hr
      show _ ≤ (nb.keys.eraseIdx _).length + _
      rw [hlen]
      have := o2 hr
      simp; omega)
    (by
      show _ ≤ (nb.keys.eraseIdx _).length + _
      rw [hlen]; simp)
  obtain ⟨A, B, e1, hA, hB, e2⟩ := hI.kv_split hb hbL
  have e3 := e2 (heap_set t.heap b
    { nb with keys := nb.keys.eraseIdx (index_of key nb.keys),
              values := nb.values.eraseIdx (index_of key nb.keys),
              num_keys := wrap16 (nb.num_keys - 1) })
    (fun a ha => heap_get_set_ne _ (Ne.symm ha))
  have hlo := okb.lob key hk
  have hhi := okb.hib key hk
  have hkv : kv_erase key kv =
      L.flatMap (leaf_pairs (heap_set t.heap b
        { nb with keys := nb.keys.eraseIdx (index_of key nb.keys),
                  values := nb.values.eraseIdx (index_of key nb.keys),
                  num_keys := wrap16 (nb.num_keys - 1) })) := by
    have hAe : kv_erase key A = A := by
      apply kv_erase_id
      intro x hx hxk
      have := hA x hx
      rw [hxk] at this
      exact absurd (lt_of_lt_of_le this hlo) (lt_irrefl _)
    have hBe : kv_erase key B = B := by
      apply kv_erase_id
      intro x hx hxk
      have := hB x hx
      rw [hxk] at this
      exact absurd (lt_of_lt_of_le hhi this) (lt_irrefl _)
    rw [e3, e1, kv_erase_append, kv_erase_append, hAe, hBe]
    congr 2
    simp only [leaf_pairs, hnb, heap_get_set_eq _ hnb]
    exact kv_erase_zip key nb.keys nb.values hvl hk okb.sorted
  rw [hkv]
  exact hU

/-- When the root is a leaf it is the only leaf. -/
theorem InvX.root_leaf_only {t : bptree K V} {g : Nat → Option (Info K)} {L : List Nat}
    {kv : List (K × V)} {e : Option Nat} {sl sh : Nat} (hI : InvX t g L kv e sl sh)
    {b : Nat} {nb : bpnode K V} (hr : t.root = some b) (hnb : heap_get t.heap b = some nb)
    (hty : nb.type = bpnode_type.NODE_LEAF) : L = [b] := by
  obtain ⟨D, hgb, hD⟩ := hI.root_some b hr
  obtain ⟨nb0, q0, okb⟩ := hI.nodes b _ hgb
  rw [hnb] at q0
  cases q0
  have hD1 : D = 1 := (okb.leaf hty).1
  have hall : ∀ x ∈ L, x = b := by
    intro x hx
    by_contra hxb
    obtain ⟨i, xd, q1, q2, q3, _⟩ := hI.leaf_info hx
    obtain ⟨p, ip, pd, j, _, w2, _, _, _, _, _, _, _, w10, _⟩ :=
      hI.parent q1 q2 (fun h => hxb (by rw [hr] at h; cases h; rfl))
    have h1 := hI.ht_le w2
    have h2 := hI.ht_pos q1
    rw [hD, hD1] at h1
    have : (ip.ht : Int) = i.ht + 1 := by exact_mod_cast w10
    omega
  have hbL : b ∈ L := (hI.leaves b).2 ⟨_, nb, hgb, hnb, hty⟩
  have hnd := hI.leaf_nodup
  cases L with
  | nil => simp at hbL
  | cons x L1 =>
    have hx := hall x (by simp)
    subst hx
    cases L1 with
    | nil => rfl
    | cons y L2 =>
      have hy := hall y (by simp)
      subst hy
      simp at hnd

end del5

end BPlus

namespace BPlus

section del6
variable {K V : Type} [LinearOrder K]

/-! ### A node below its parent -/

/-- Nodes of the same height are of the same kind. -/
theorem InvX.same_kind {t : bptree K V} {g : Nat → Option (Info K)} {L : List Nat}
    {kv : List (K × V)} {e : Option Nat} {sl sh : Nat} (hI : InvX t g L kv e sl sh)
    {a c : Nat} {ia ic : Info K} {ad cd : bpnode K V}
    (hga : g a = some ia) (hgc : g c = some ic)
    (had : heap_get t.heap a = some ad) (hcd : heap_get t.heap c = some cd)
    (hht : ia.ht = ic.ht) : cd.type = ad.type := by
  obtain ⟨ad0, q0, oka⟩ := hI.nodes a _ hga
  rw [had] at q0
  cases q0
  obtain ⟨cd0, q0, okc⟩ := hI.nodes c _ hgc
  rw [hcd] at q0
  cases q0
  rcases oka.kind with h1 | h1 <;> rcases okc.kind with h2 | h2
  · rw [h1, h2]
  · have := (oka.leaf h1).1
    have := hI.inner_ht hgc hcd h2
    omega
  · have := (okc.leaf h2).1
    have := hI.inner_ht hga had h1
    omega
  · rw [h1, h2]

/-- A node that is not the root, with its parent and its position there. -/
theorem InvX.sib_ctx {t : bptree K V} {g : Nat → Option (Info K)} {L : List Nat}
    {kv : List (K × V)} {e : Option Nat} {sl sh : Nat} (hI : InvX t g L kv e sl sh)
    {n : Nat} {i : Info K} {nd : bpnode K V} (hgn : g n = some i)
    (hnd : heap_get t.heap n = some nd) {p : Nat} (hpar : nd.parent = some p)
    (he : ∀ x, e = some x → x = n) :
    ∃ ip pd j, SibCtx t.heap n p j nd pd ∧ g p = some ip ∧ ip.ht = i.ht + 1 ∧
      i.lo = slot_lo ip.lo pd.keys j ∧ i.hi = slot_hi pd.keys ip.hi j ∧
      j ≤ pd.keys.length ∧ 1 ≤ pd.keys.length := by
  obtain ⟨nd0, q0, okn⟩ := hI.nodes n _ hgn
  rw [hnd] at q0
  cases q0
  have hnroot : some n ≠ t.root := by
    intro hr
    have := okn.uproot hr
    rw [hpar] at this
    cases this
  obtain ⟨p0, ip, pd, j, u1, hgp, hpd, hpty, hj, hidx, hci, hpl, hpk, hpht, hlo, hhi⟩ :=
    hI.parent hgn hnd hnroot
  rw [hpar] at u1
  cases u1
  obtain ⟨pd0, q0, okp⟩ := hI.nodes p _ hgp
  rw [hpd] at q0
  cases q0
  have hnp : n ≠ p := by
    intro h
    rw [h, hgp] at hgn
    cases hgn
    omega
  have hjl := (List.getElem?_eq_some.1 hj).1
  have h1 : 1 ≤ pd.keys.length := by
    have := okp.occ_in
    have hep : e ≠ some p := fun h => hnp (he p h).symm
    simpa [hep] using this
  exact ⟨ip, pd, j, ⟨hnd, hpar, hpd, hpty, hpk, hpl, hj, hidx, hnp⟩, hgp, hpht, hlo, hhi,
    by omega, h1⟩

/-- A sibling of a node: it is live, of the same height and kind, within
bounds, and different from the node and from the parent. -/
theorem InvX.sibling {t : bptree K V} {g : Nat → Option (Info K)} {L : List Nat}
    {kv : List (K × V)} {e : Option Nat} {sl sh : Nat} (hI : InvX t g L kv e sl sh)
    {n p j : Nat} {i ip : Info K} {nd pd : bpnode K V} (hgn : g n = some i)
    (c : SibCtx t.heap n p j nd pd) (hgp : g p = some ip) (hht : ip.ht = i.ht + 1)
    (he : ∀ x, e = some x → x = n)
    {j1 s : Nat} (hj1 : pd.children[j1]? = some s) (hne : j1 ≠ j) :
    ∃ sd, heap_get t.heap s = some sd ∧
      g s = some ⟨i.ht, slot_lo ip.lo pd.keys j1, slot_hi pd.keys ip.hi j1⟩ ∧
      sd.type = nd.type ∧ s ≠ n ∧ s ≠ p ∧ sd.parent = some p ∧
      sd.num_keys = (sd.keys.length : Int) ∧
      sd.keys.length < t.m ∧ (t.m - 1) / 2 ≤ sd.keys.length ∧ 1 ≤ sd.keys.length ∧
      NodeOK t.heap g t.m t.root e sl sh s
        ⟨i.ht, slot_lo ip.lo pd.keys j1, slot_hi pd.keys ip.hi j1⟩ sd := by
  obtain ⟨d1, sd, r1, r2, r3, r4, _⟩ := hI.child hgp c.hp c.hpt hj1
  have hd1 : d1 = i.ht := by omega
  subst hd1
  obtain ⟨sd0, q0, oks⟩ := hI.nodes s _ r2
  rw [r3] at q0
  cases q0
  have hsn : s ≠ n := by
    intro h
    rw [h] at hj1
    exact hne (hI.children_inj hgp c.hp c.hpt hj1 c.hi)
  have hsp : s ≠ p := by
    intro h
    rw [h, hgp] at r2
    have := congrArg Info.ht (Option.some.inj r2)
    simp only at this
    omega
  have hes : e ≠ some s := fun h => hsn (he s h)
  have hsroot : some s ≠ t.root := by
    intro hr
    have := oks.uproot hr
    rw [r4] at this
    cases this
  have o1 := oks.occ_hi
  have o2 := oks.occ_lo hsroot
  have o3 := oks.occ_in
  simp only [hes, if_false, Nat.add_zero] at o1 o2 o3
  exact ⟨sd, r3, r2, hI.same_kind hgn r2 c.hn r3 rfl, hsn, hsp, r4, oks.nk, o1, o2, o3, oks⟩

/-- The count of the left neighbour as read by the repair procedures. -/
theorem left_count (h : List (Option (bpnode K V))) (pd : bpnode K V) (j : Nat) :
    (j = 0 → node_count h (left_of pd j) = some 0) ∧
    (∀ s sd, 0 < j → pd.children[j - 1]? = some s → heap_get h s = some sd →
      left_of pd j = some s ∧ node_count h (left_of pd j) = some sd.num_keys) := by
  constructor
  · intro h0
    simp [left_of, h0, node_count]
  · intro s sd hj hs hsd
    have h0 : ¬ j = 0 := by omega
    simp [left_of, h0, hs, node_count, hsd]

/-- The count of the right neighbour as read by the repair procedures. -/
theorem right_count (h : List (Option (bpnode K V))) (pd : bpnode K V) (j : Nat) :
    (j = pd.keys.length → node_count h (right_of pd j) = some 0) ∧
    (∀ s sd, j ≠ pd.keys.length → pd.children[j + 1]? = some s → heap_get h s = some sd →
      right_of pd j = some s ∧ node_count h (right_of pd j) = some sd.num_keys) := by
  constructor
  · intro h0
    simp [right_of, h0, node_count]
  · intro s sd hj hs hsd
    simp [right_of, hj, hs, node_count, hsd]

end del6

end BPlus

namespace BPlus

section del7
variable {K V : Type} [LinearOrder K]

/-- Without an exceptional node the slack plays no role. -/
theorem InvX.no_exc {t : bptree K V} {g : Nat → Option (Info K)} {L : List Nat}
    {kv : List (K × V)} {sl sh : Nat} (hI : InvX t g L kv none sl sh) (sl1 sh1 : Nat) :
    InvX t g L kv none sl1 sh1 := by
  refine ⟨hI.m3, hI.m16, ?_, hI.root_none, hI.root_some, hI.depth_le, hI.chain, hI.last,
    hI.leaves, hI.kv_eq⟩
  intro a i ha
  obtain ⟨nd, h1, ok⟩ := hI.nodes a i ha
  refine ⟨nd, h1, ok.reocc ?_ ?_ ?_⟩
  · simpa using ok.occ_hi
  · intro hr
    simpa using ok.occ_lo hr
  · simpa using ok.occ_in

/-! ### Refreshing the separator in front of a leaf -/

/-- The separator between the leaf `a` and its right neighbour `c` is
replaced by the first key of `c`. -/
theorem InvX.refresh {t : bptree K V} {g : Nat → Option (Info K)} {L : List Nat}
    {kv : List (K × V)} {e : Option Nat} {sl sh : Nat} (hI : InvX t g L kv e sl sh)
    {q j a c : Nat} {iq : Info K} {qd ad cd : bpnode K V}
    (hgq : g q = some iq) (hqd : heap_get t.heap q = some qd)
    (hqty : qd.type = bpnode_type.NODE_INNER)
    (hja : qd.children[j]? = some a) (hjc : qd.children[j + 1]? = some c)
    (he : ∀ x, e = some x → x = c ∨ x = q)
    (e2 : Option Nat) (he2 : (e2 = e ∧ e = some q) ∨ (e2 = none ∧ e ≠ some q))
    (had : heap_get t.heap a = some ad) (hcd : heap_get t.heap c = some cd)
    (hcty : cd.type = bpnode_type.NODE_LEAF)
    (hC_occ : cd.keys.length < t.m) (hC_min : (t.m - 1) / 2 ≤ cd.keys.length)
    {k0 : K} (hk0 : cd.keys[0]? = some k0) :
    InvX { t with heap := heap_set t.heap q { qd with keys := qd.keys.set j k0 } }
      (rebal_ghost g a c 1 (slot_lo iq.lo qd.keys j) (slot_hi qd.keys iq.hi (j + 1)) k0)
      L kv e2 sl sh := by
  obtain ⟨da, ad0, u1, hga, u3, hapar, hql⟩ := hI.child hgq hqd hqty hja
  rw [had] at u3
  cases u3
  obtain ⟨dc, cd0, v1, hgc, v3, hcpar, _⟩ := hI.child hgq hqd hqty hjc
  rw [hcd] at v3
  cases v3
  obtain ⟨ad0, q0, oka⟩ := hI.nodes a _ hga
  rw [had] at q0
  cases q0
  obtain ⟨cd0, q0, okc⟩ := hI.nodes c _ hgc
  rw [hcd] at q0
  cases q0
  have hdc1 : dc = 1 := (okc.leaf hcty).1
  subst hdc1
  have hda1 : da = 1 := by omega
  subst hda1
  have haty : ad.type = bpnode_type.NODE_LEAF := by
    rw [← hI.same_kind hga hgc had hcd rfl]
    exact hcty
  have hjl : j + 1 < qd.children.length := (List.getElem?_eq_some.1 hjc).1
  have hjk : j < qd.keys.length := by omega
  have hshj : slot_hi qd.keys iq.hi j = bnd qd.keys[j] :=
    slot_hi_lt (List.getElem?_eq_getElem hjk)
  have hslj : slot_lo iq.lo qd.keys (j + 1) = bnd qd.keys[j] := slot_lo_succ _ _ _ hjk
  rw [hshj] at hga
  rw [hslj] at hgc
  have hac : a ≠ c := by
    intro h
    rw [h] at hja
    have := hI.children_inj hgq hqd hqty hja hjc
    omega
  have haq : a ≠ q := by
    intro h
    rw [h, hgq] at hga
    have := congrArg Info.ht (Option.some.inj hga)
    simp only at this
    omega
  have hcq : c ≠ q := by
    intro h
    rw [h, hgq] at hgc
    have := congrArg Info.ht (Option.some.inj hgc)
    simp only at this
    omega
  have hql2 := heap_get_lt hqd
  have hea : e ≠ some a := by
    intro h
    rcases he a h with h1 | h1
    · exact hac h1
    · exact haq h1
  have hm3 := hI.m3
  have hk0m : k0 ∈ cd.keys := by
    obtain ⟨hl, he⟩ := List.getElem?_eq_some.1 hk0
    exact he ▸ List.getElem_mem hl
  have hk0l : 0 < cd.keys.length := (List.getElem?_eq_some.1 hk0).1
  have hk0e : cd.keys[0] = k0 := (List.getElem?_eq_some.1 hk0).2
  have haroot : some a ≠ t.root := by
    intro hr
    have := oka.uproot hr
    rw [hapar] at this
    cases this
  have oa1 := oka.occ_hi
  have oa2 := oka.occ_lo haroot
  have oa3 := oka.occ_in
  simp only [hea, if_false, Nat.add_zero] at oa1 oa2 oa3
  have hget : ∀ x, heap_get (heap_set t.heap q { qd with keys := qd.keys.set j k0 }) x =
      if x = q then some { qd with keys := qd.keys.set j k0 } else heap_get t.heap x :=
    fun x => heap_get_set_if _ x hql2
  have hlo_k0 : slot_hi qd.keys iq.hi j ≤ bnd k0 := by
    have := okc.lob k0 hk0m
    simp only at this
    rw [hshj]
    rw [hslj] at this
    exact this
  refine hI.rebalance hgq hqd hqty hja hjc
    (fun x hx => by
      rcases he x hx with h | h
      · exact Or.inr (Or.inl h)
      · exact Or.inr (Or.inr h))
    e2 he2 had hcd 1 v1 k0 ad cd [] a _ kv (by simp)
    (by rw [hget]; simp [haq, had])
    (by rw [hget]; simp [hcq, hcd])
    (by rw [hget]; simp)
    (by
      intro x x1 x2 x3
      rw [hget]
      simp only [x3, if_false, List.not_mem_nil]
      cases heap_get t.heap x <;> rfl)
    rfl rfl rfl rfl
    (by
      have := oka.lohi
      simp only at this
      exact lt_of_lt_of_le this hlo_k0)
    (okc.hib k0 hk0m)
    oka.nk oka.sorted oka.lob
    (fun k hk => lt_of_lt_of_le (oka.hib k hk) hlo_k0)
    (fun h => (oka.leaf h).2) oa1 oa2 oa3
    okc.nk okc.sorted
    (by
      intro k hk
      obtain ⟨idx, hidx, hke⟩ := List.mem_iff_getElem.1 hk
      rw [bnd_le_bnd, ← hke, ← hk0e]
      by_cases h0 : idx = 0
      · subst h0
        exact le_refl _
      · exact le_of_lt (List.pairwise_iff_getElem.1 okc.sorted 0 idx hk0l hidx (by omega)))
    okc.hib (fun h => (okc.leaf h).2) hC_occ hC_min (by omega)
    (by
      intro x hx
      simp at hx)
    (by
      intro d1 _ h
      rw [haty] at h
      cases h)
    (by
      intro d1 _ h
      rw [hcty] at h
      cases h)
    (fun x hx => hx)
    ?_
  refine hI.rebalance_leaves hga hgc had hcd haty hcty k0 ad cd _
    (by rw [hget]; simp [haq, had]) (by rw [hget]; simp [hcq, hcd]) ?_ ?_ haty hcty rfl rfl rfl
  · intro x _ _ xd hxd hxt
    have hxq : x ≠ q := by
      intro h
      rw [h, hqd] at hxd
      cases hxd
      rw [hqty] at hxt
      cases hxt
    rw [hget]
    simp [hxq, hxd]
  · intro x _ _ i xd1 _ hxd hxt
    have hxq : x ≠ q := by
      intro h
      rw [h, hget] at hxd
      simp only [if_true, Option.some.injEq] at hxd
      rw [← hxd] at hxt
      simp only [hqty] at hxt
      cases hxt
    rw [hget] at hxd
    simp only [hxq, if_false] at hxd
    exact ⟨xd1, hxd, hxt⟩

end del7

end BPlus

namespace BPlus

section del8
variable {K V : Type} [LinearOrder K]

/-! ### An underfull leaf borrows a key -/

theorem min_limits_cast (m : Nat) : min_limits m = (((m - 1) / 2 : Nat) : Int) := rfl

theorem zip_dropLast_append {ks : List K} {vs : List V} {kb : K} {vb : V}
    (hl : vs.length = ks.length) (hk : ks.getLast? = some kb) (hv : vs.getLast? = some vb)
    (ks2 : List K) (vs2 : List V) :
    ks.dropLast.zip vs.dropLast ++ (kb :: ks2).zip (vb :: vs2) = ks.zip vs ++ ks2.zip vs2 := by
  have h1 := List.dropLast_append_getLast? kb hk
  have h2 := List.dropLast_append_getLast? vb hv
  conv_rhs => rw [← h1, ← h2]
  rw [List.zip_append (by simp [hl])]
  simp

theorem zip_tail_append {ks : List K} {vs : List V} {k0 : K} {v0 : V}
    (hk : ks[0]? = some k0) (hv : vs[0]? = some v0)
    (ks2 : List K) (vs2 : List V) (hl2 : vs2.length = ks2.length) :
    (ks2 ++ [k0]).zip (vs2 ++ [v0]) ++ ks.tail.zip vs.tail = ks2.zip vs2 ++ ks.zip vs := by
  cases ks with
  | nil => simp at hk
  | cons k ks1 =>
    cases vs with
    | nil => simp at hv
    | cons v vs1 =>
      simp only [List.getElem?_cons_zero, Option.some.injEq] at hk hv
      subst hk
      subst hv
      rw [List.zip_append hl2.symm]
      simp

/-- The underfull leaf `n` takes the last key of its left neighbour. -/
theorem InvX.leaf_borrow_left_ok {t : bptree K V} {g : Nat → Option (Info K)} {L : List Nat}
    {kv : List (K × V)} {n : Nat} (hI : InvX t g L kv (some n) 1 0)
    {i ip : Info K} {nd pd : bpnode K V} {p j0 : Nat}
    (hgn : g n = some i) (hty : nd.type = bpnode_type.NODE_LEAF)
    (c : SibCtx t.heap n p (j0 + 1) nd pd) (hgp : g p = some ip) (hht : ip.ht = i.ht + 1)
    (hunder : nd.keys.length < (t.m - 1) / 2)
    {s : Nat} {sd : bpnode K V} (hs : pd.children[j0]? = some s)
    (hsd : heap_get t.heap s = some sd)
    {rc : Int} (hrc : node_count t.heap (right_of pd (j0 + 1)) = some rc)
    (hcond : min_limits t.m < sd.num_keys ∨ min_limits t.m < rc) (hle : rc ≤ sd.num_keys) :
    ∃ h1 g1, leaf_repair t n p (j0 + 1) = some { t with heap := h1 } ∧
      h1.length = t.heap.length ∧ InvX { t with heap := h1 } g1 L kv none 0 0 := by
  have he : ∀ x, (some n : Option Nat) = some x → x = n := fun x h => by cases h; rfl
  obtain ⟨sd0, q0, hgs, hsty, hsn, hsp, hspar, hsnk, so1, so2, so3, oks⟩ :=
    hI.sibling hgn c hgp hht he hs (by omega)
  rw [hsd] at q0
  cases q0
  obtain ⟨nd0, q0, okn⟩ := hI.nodes n _ hgn
  rw [c.hn] at q0
  cases q0
  have hi1 : i.ht = 1 := (okn.leaf hty).1
  have hnroot : some n ≠ t.root := by
    intro hr
    have := okn.uproot hr
    rw [c.hpar] at this
    cases this
  have no2 := okn.occ_lo hnroot
  simp only [if_true] at no2
  have hm3 := hI.m3
  have hm16 := hI.m16
  have hslen : (t.m - 1) / 2 < sd.keys.length := by
    rw [min_limits_cast, hsnk] at hcond
    rw [hsnk] at hle
    omega
  have hsl0 : sd.keys ≠ [] := by
    intro h
    rw [h] at hslen
    simp at hslen
  have hsvl : sd.values.length = sd.keys.length := (oks.leaf (hsty.trans hty)).2
  have hsv0 : sd.values ≠ [] := by
    intro h
    rw [h] at hsvl
    simp only [List.length_nil] at hsvl
    omega
  have hkb : sd.keys.getLast? = some (sd.keys.getLast hsl0) := List.getLast?_eq_getLast _ hsl0
  have hvb : sd.values.getLast? = some (sd.values.getLast hsv0) :=
    List.getLast?_eq_getLast _ hsv0
  obtain ⟨hlof, hlc⟩ := (left_count t.heap pd (j0 + 1)).2 s sd (by omega)
    (by simpa using hs) hsd
  obtain ⟨h1, hrun, hlen, hget⟩ := leaf_repair_borrow_left c hlof hsd (hsty.trans hty) hsn hsp
    hrc hcond hle hkb hvb
  simp only [Nat.add_sub_cancel] at hget
  obtain ⟨d0, nd0, _, hgn2, _, _, hpl⟩ := hI.child hgp c.hp c.hpt c.hi
  rw [hgn] at hgn2
  have hlo : i.lo = slot_lo ip.lo pd.keys (j0 + 1) := congrArg Info.lo (Option.some.inj hgn2)
  have hhi : i.hi = slot_hi pd.keys ip.hi (j0 + 1) := congrArg Info.hi (Option.some.inj hgn2)
  have hjl := (List.getElem?_eq_some.1 c.hi).1
  have hjk : j0 < pd.keys.length := by omega
  have hmid : slot_hi pd.keys ip.hi j0 = slot_lo ip.lo pd.keys (j0 + 1) := by
    rw [slot_hi_lt (List.getElem?_eq_getElem hjk), slot_lo_succ _ _ _ hjk]
  have hkbm : sd.keys.getLast hsl0 ∈ sd.keys := List.getLast_mem hsl0
  have hkb_hi : bnd (sd.keys.getLast hsl0) < slot_lo ip.lo pd.keys (j0 + 1) := by
    have := oks.hib _ hkbm
    simp only at this
    rw [hmid] at this
    exact this
  have hlast_idx : sd.keys.getLast hsl0 = sd.keys[sd.keys.length - 1] := by
    rw [List.getLast_eq_getElem]
  have hdl_lt : ∀ k ∈ sd.keys.dropLast, k < sd.keys.getLast hsl0 := by
    intro k hk
    rw [List.dropLast_eq_take] at hk
    rw [hlast_idx]
    exact sorted_take_lt oks.sorted (by omega) k hk
  have hnl := heap_get_lt c.hn
  have hnlo : ∀ k ∈ nd.keys, slot_lo ip.lo pd.keys (j0 + 1) ≤ bnd k := by
    intro k hk
    have := okn.lob k hk
    rw [hlo] at this
    exact this
  have hnhi : ∀ k ∈ nd.keys, bnd k < slot_hi pd.keys ip.hi (j0 + 1) := by
    intro k hk
    have := okn.hib k hk
    rw [hhi] at this
    exact this
  have hnvl : nd.values.length = nd.keys.length := (okn.leaf hty).2
  have hlohi_n : slot_lo ip.lo pd.keys (j0 + 1) < slot_hi pd.keys ip.hi (j0 + 1) := by
    have := okn.lohi
    rw [hlo, hhi] at this
    exact this
  have h0l : 0 < sd.keys.length := by omega
  have hfirst : sd.keys[0] < sd.keys.getLast hsl0 := by
    rw [hlast_idx]
    exact List.pairwise_iff_getElem.1 oks.sorted 0 (sd.keys.length - 1) (by omega) (by omega)
      (by omega)
  refine ⟨h1, rebal_ghost g s n i.ht (slot_lo ip.lo pd.keys j0)
    (slot_hi pd.keys ip.hi (j0 + 1)) (sd.keys.getLast hsl0), hrun, hlen, ?_⟩
  refine @InvX.no_exc _ _ _ _ _ _ _ 1 0 ?_ 0 0
  refine hI.rebalance hgp c.hp c.hpt hs c.hi
    (fun x hx => Or.inr (Or.inl (he x hx))) none
    (Or.inr ⟨rfl, fun h => c.hnp (by cases h; rfl)⟩)
    hsd c.hn i.ht hht (sd.keys.getLast hsl0)
    { sd with keys := sd.keys.dropLast, values := sd.values.dropLast,
              num_keys := wrap16 (sd.num_keys - 1) }
    { nd with keys := sd.keys.getLast hsl0 :: nd.keys,
              values := sd.values.getLast hsv0 :: nd.values,
              num_keys := wrap16 (nd.num_keys + 1) }
    [] s h1 kv hlen
    (by rw [hget]; simp [hsp])
    (by rw [hget]; simp [c.hnp, Ne.symm hsn])
    (by rw [hget]; simp)
    (by
      intro x x1 x2 x3
      rw [hget]
      simp only [x1, x2, x3, if_false, List.not_mem_nil]
      cases heap_get t.heap x <;> rfl)
    rfl rfl rfl rfl
    (by
      have h0 := oks.lob _ (List.getElem_mem h0l)
      simp only at h0
      exact lt_of_le_of_lt h0 (bnd_lt_bnd.2 hfirst))
    (lt_trans hkb_hi hlohi_n)
    (by
      simp only [List.length_dropLast, hsnk]
      rw [wrap16_id (by omega) (by omega)]
      omega)
    (oks.sorted.sublist (List.dropLast_sublist _))
    (fun k hk => oks.lob k (List.dropLast_subset _ hk))
    (fun k hk => bnd_lt_bnd.2 (hdl_lt k hk))
    (by
      intro _
      simp only [List.length_dropLast]
      omega)
    (by simp only [List.length_dropLast]; omega)
    (by simp only [List.length_dropLast]; omega)
    (by simp only [List.length_dropLast]; omega)
    (by
      simp only [List.length_cons, okn.nk]
      rw [wrap16_id (by omega) (by omega)]
      push_cast
      ring)
    (by
      refine List.pairwise_cons.2 ⟨?_, okn.sorted⟩
      intro k hk
      exact bnd_lt_bnd.1 (lt_of_lt_of_le hkb_hi (hnlo k hk)))
    (by
      intro k hk
      rcases List.mem_cons.1 hk with h | h
      · rw [h]
      · exact le_trans (le_of_lt hkb_hi) (hnlo k h))
    (by
      intro k hk
      rcases List.mem_cons.1 hk with h | h
      · rw [h]
        exact lt_trans hkb_hi hlohi_n
      · exact hnhi k h)
    (by
      intro _
      simp only [List.length_cons]
      omega)
    (by simp only [List.length_cons]; omega)
    (by simp only [List.length_cons]; omega)
    (by simp only [List.length_cons]; omega)
    (by
      intro x hx
      simp at hx)
    (by
      intro d1 _ h
      rw [hsty.trans hty] at h
      cases h)
    (by
      intro d1 _ h
      rw [hty] at h
      cases h)
    (fun x hx => hx)
    ?_
  have hgs2 : g s = some ⟨i.ht, slot_lo ip.lo pd.keys j0, slot_lo ip.lo pd.keys (j0 + 1)⟩ := by
    rw [hgs, hmid]
  have hgn3 : g n = some ⟨i.ht, slot_lo ip.lo pd.keys (j0 + 1),
      slot_hi pd.keys ip.hi (j0 + 1)⟩ := by
    rw [hgn, ← hlo, ← hhi]
  refine hI.rebalance_leaves hgs2 hgn3 hsd c.hn (hsty.trans hty) hty (sd.keys.getLast hsl0)
    { sd with keys := sd.keys.dropLast, values := sd.values.dropLast,
              num_keys := wrap16 (sd.num_keys - 1) }
    { nd with keys := sd.keys.getLast hsl0 :: nd.keys,
              values := sd.values.getLast hsv0 :: nd.values,
              num_keys := wrap16 (nd.num_keys + 1) } h1
    (by rw [hget]; simp [hsp]) (by rw [hget]; simp [c.hnp, Ne.symm hsn]) ?_ ?_
    (hsty.trans hty) hty rfl rfl ?_
  · intro x x1 x2 xd hxd hxt
    have hxq : x ≠ p := by
      intro h
      rw [h, c.hp] at hxd
      cases hxd
      rw [c.hpt] at hxt
      cases hxt
    rw [hget]
    simp [hxq, x1, x2, hxd]
  · intro x x1 x2 i0 xd1 _ hxd hxt
    have hxq : x ≠ p := by
      intro h
      rw [h, hget] at hxd
      simp only [if_true, Option.some.injEq] at hxd
      rw [← hxd] at hxt
      simp only [c.hpt] at hxt
      cases hxt
    rw [hget] at hxd
    simp only [hxq, x1, x2, if_false] at hxd
    exact ⟨xd1, hxd, hxt⟩
  · exact zip_dropLast_append hsvl hkb hvb nd.keys nd.values

end del8

end BPlus

namespace BPlus

section del9
variable {K V : Type} [LinearOrder K]

/-- The underfull leaf `n` takes the first key of its right neighbour. -/
theorem InvX.leaf_borrow_right_ok {t : bptree K V} {g : Nat → Option (Info K)} {L : List Nat}
    {kv : List (K × V)} {n : Nat} (hI : InvX t g L kv (some n) 1 0)
    {i ip : Info K} {nd pd : bpnode K V} {p j : Nat}
    (hgn : g n = some i) (hty : nd.type = bpnode_type.NODE_LEAF)
    (c : SibCtx t.heap n p j nd pd) (hgp : g p = some ip) (hht : ip.ht = i.ht + 1)
    (hunder : nd.keys.length < (t.m - 1) / 2)
    {s : Nat} {sd : bpnode K V} (hs : pd.children[j + 1]? = some s)
    (hsd : heap_get t.heap s = some sd)
    {lc : Int} (hlc : node_count t.heap (left_of pd j) = some lc) (hlc0 : 0 ≤ lc)
    (hcond : min_limits t.m < lc ∨ min_limits t.m < sd.num_keys) (hlt : lc < sd.num_keys) :
    ∃ h1 g1, leaf_repair t n p j = some { t with heap := h1 } ∧
      h1.length = t.heap.length ∧ InvX { t with heap := h1 } g1 L kv none 0 0 := by
  have he : ∀ x, (some n : Option Nat) = some x → x = n := fun x h => by cases h; rfl
  obtain ⟨sd0, q0, hgs, hsty, hsn, hsp, hspar, hsnk, so1, so2, so3, oks⟩ :=
    hI.sibling hgn c hgp hht he hs (by omega)
  rw [hsd] at q0
  cases q0
  obtain ⟨nd0, q0, okn⟩ := hI.nodes n _ hgn
  rw [c.hn] at q0
  cases q0
  have hi1 : i.ht = 1 := (okn.leaf hty).1
  have hnroot : some n ≠ t.root := by
    intro hr
    have := okn.uproot hr
    rw [c.hpar] at this
    cases this
  have no2 := okn.occ_lo hnroot
  simp only [if_true] at no2
  have hm3 := hI.m3
  have hm16 := hI.m16
  have hslen : (t.m - 1) / 2 < sd.keys.length := by
    rw [min_limits_cast, hsnk] at hcond
    rw [hsnk] at hlt
    omega
  have h0l : 0 < sd.keys.length := by omega
  have h1l : 1 < sd.keys.length := by omega
  have hsvl : sd.values.length = sd.keys.length := (oks.leaf (hsty.trans hty)).2
  have h0v : 0 < sd.values.length := by omega
  have hjl := (List.getElem?_eq_some.1 hs).1
  have hpl := c.hl
  have hjk : j < pd.keys.length := by omega
  obtain ⟨hrof, hrc⟩ := (right_count t.heap pd (j)).2 s sd (by omega) hs hsd
  obtain ⟨h1, hrun, hlen, hget⟩ := leaf_repair_borrow_right c hrof hsd (hsty.trans hty) hsn hsp
    hlc hcond hlt (List.getElem?_eq_getElem h0l) (List.getElem?_eq_getElem h0v)
    (List.getElem?_eq_getElem h1l)
  obtain ⟨d0, nd0, _, hgn2, _, _, _⟩ := hI.child hgp c.hp c.hpt c.hi
  rw [hgn] at hgn2
  have hlo : i.lo = slot_lo ip.lo pd.keys j := congrArg Info.lo (Option.some.inj hgn2)
  have hhi : i.hi = slot_hi pd.keys ip.hi j := congrArg Info.hi (Option.some.inj hgn2)
  have hmid : slot_hi pd.keys ip.hi j = slot_lo ip.lo pd.keys (j + 1) := by
    rw [slot_hi_lt (List.getElem?_eq_getElem hjk), slot_lo_succ _ _ _ hjk]
  have hnlo : ∀ k ∈ nd.keys, slot_lo ip.lo pd.keys j ≤ bnd k := by
    intro k hk
    have := okn.lob k hk
    rw [hlo] at this
    exact this
  have hnhi : ∀ k ∈ nd.keys, bnd k < slot_lo ip.lo pd.keys (j + 1) := by
    intro k hk
    have := okn.hib k hk
    rw [hhi, hmid] at this
    exact this
  have hnvl : nd.values.length = nd.keys.length := (okn.leaf hty).2
  have hlohi_n : slot_lo ip.lo pd.keys j < slot_lo ip.lo pd.keys (j + 1) := by
    have := okn.lohi
    rw [hlo, hhi, hmid] at this
    exact this
  have hk0lo : slot_lo ip.lo pd.keys (j + 1) ≤ bnd sd.keys[0] := by
    have := oks.lob _ (List.getElem_mem h0l)
    simp only at this
    exact this
  have hk01 : sd.keys[0] < sd.keys[1] :=
    List.pairwise_iff_getElem.1 oks.sorted 0 1 h0l h1l (by omega)
  have hk1hi : bnd sd.keys[1] < slot_hi pd.keys ip.hi (j + 1) := by
    have := oks.hib _ (List.getElem_mem h1l)
    simp only at this
    exact this
  have htail : sd.keys.tail = sd.keys.drop 1 := (List.drop_one _).symm
  refine ⟨h1, rebal_ghost g n s i.ht (slot_lo ip.lo pd.keys j)
    (slot_hi pd.keys ip.hi (j + 1)) sd.keys[1], hrun, hlen, ?_⟩
  refine @InvX.no_exc _ _ _ _ _ _ _ 1 0 ?_ 0 0
  refine hI.rebalance hgp c.hp c.hpt c.hi hs
    (fun x hx => Or.inl (he x hx)) none
    (Or.inr ⟨rfl, fun h => c.hnp (by cases h; rfl)⟩)
    c.hn hsd i.ht hht sd.keys[1]
    { nd with keys := nd.keys ++ [sd.keys[0]], values := nd.values ++ [sd.values[0]],
              num_keys := wrap16 (nd.num_keys + 1) }
    { sd with keys := sd.keys.tail, values := sd.values.tail,
              num_keys := wrap16 (sd.num_keys - 1) }
    [] s h1 kv hlen
    (by rw [hget]; simp [c.hnp, Ne.symm hsn])
    (by rw [hget]; simp [hsp])
    (by rw [hget]; simp)
    (by
      intro x x1 x2 x3
      rw [hget]
      simp only [x1, x2, x3, if_false, List.not_mem_nil]
      cases heap_get t.heap x <;> rfl)
    rfl rfl rfl rfl
    (lt_of_lt_of_le hlohi_n (le_trans hk0lo (le_of_lt (bnd_lt_bnd.2 hk01))))
    hk1hi
    (by
      simp only [List.length_append, List.length_singleton, okn.nk]
      rw [wrap16_id (by omega) (by omega)]
      push_cast
      ring)
    (by
      refine List.pairwise_append.2 ⟨okn.sorted, by simp, ?_⟩
      intro x hx y hy
      simp only [List.mem_singleton] at hy
      subst hy
      exact bnd_lt_bnd.1 (lt_of_lt_of_le (hnhi x hx) hk0lo))
    (by
      intro k hk
      rcases List.mem_append.1 hk with h | h
      · exact hnlo k h
      · simp only [List.mem_singleton] at h
        subst h
        exact le_trans (le_of_lt hlohi_n) hk0lo)
    (by
      intro k hk
      rcases List.mem_append.1 hk with h | h
      · exact lt_of_lt_of_le (hnhi k h) (le_trans hk0lo (le_of_lt (bnd_lt_bnd.2 hk01)))
      · simp only [List.mem_singleton] at h
        subst h
        exact bnd_lt_bnd.2 hk01)
    (by
      intro _
      simp only [List.length_append, List.length_singleton]
      omega)
    (by simp only [List.length_append, List.length_singleton]; omega)
    (by simp only [List.length_append, List.length_singleton]; omega)
    (by simp only [List.length_append, List.length_singleton]; omega)
    (by
      simp only [List.length_tail, hsnk]
      rw [wrap16_id (by omega) (by omega)]
      omega)
    (oks.sorted.sublist (List.tail_sublist _))
    (by
      intro k hk
      rw [htail] at hk
      exact bnd_le_bnd.2 (sorted_drop_ge oks.sorted h1l k hk))
    (fun k hk => oks.hib k (List.mem_of_mem_tail hk))
    (by
      intro _
      simp only [List.length_tail]
      omega)
    (by simp only [List.length_tail]; omega)
    (by simp only [List.length_tail]; omega)
    (by simp only [List.length_tail]; omega)
    (by
      intro x hx
      simp at hx)
    (by
      intro d1 _ h
      rw [hty] at h
      cases h)
    (by
      intro d1 _ h
      rw [hsty.trans hty] at h
      cases h)
    (fun x hx => hx)
    ?_
  have hgn3 : g n = some ⟨i.ht, slot_lo ip.lo pd.keys j, slot_lo ip.lo pd.keys (j + 1)⟩ := by
    rw [hgn, ← hmid, ← hlo, ← hhi]
  refine hI.rebalance_leaves hgn3 hgs c.hn hsd hty (hsty.trans hty) sd.keys[1]
    { nd with keys := nd.keys ++ [sd.keys[0]], values := nd.values ++ [sd.values[0]],
              num_keys := wrap16 (nd.num_keys + 1) }
    { sd with keys := sd.keys.tail, values := sd.values.tail,
              num_keys := wrap16 (sd.num_keys - 1) } h1
    (by rw [hget]; simp [c.hnp, Ne.symm hsn]) (by rw [hget]; simp [hsp]) ?_ ?_
    hty (hsty.trans hty) rfl rfl ?_
  · intro x x1 x2 xd hxd hxt
    have hxq : x ≠ p := by
      intro h
      rw [h, c.hp] at hxd
      cases hxd
      rw [c.hpt] at hxt
      cases hxt
    rw [hget]
    simp [hxq, x1, x2, hxd]
  · intro x x1 x2 i0 xd1 _ hxd hxt
    have hxq : x ≠ p := by
      intro h
      rw [h, hget] at hxd
      simp only [if_true, Option.some.injEq] at hxd
      rw [← hxd] at hxt
      simp only [c.hpt] at hxt
      cases hxt
    rw [hget] at hxd
    simp only [hxq, x1, x2, if_false] at hxd
    exact ⟨xd1, hxd, hxt⟩
  · exact zip_tail_append (List.getElem?_eq_getElem h0l) (List.getElem?_eq_getElem h0v)
      nd.keys nd.values hnvl

end del9

end BPlus

namespace BPlus

section del10
variable {K V : Type} [LinearOrder K]

theorem zip_append_eq {A B : Type} (ks1 ks2 : List A) (vs1 vs2 : List B)
    (h : vs1.length = ks1.length) :
    (ks1 ++ ks2).zip (vs1 ++ vs2) = ks1.zip vs1 ++ ks2.zip vs2 :=
  List.zip_append h.symm

/-- The underfull leaf `n` is appended to its left neighbour and freed; the
parent loses one separator and may now be underfull itself. -/
theorem InvX.leaf_merge_left_ok {t : bptree K V} {g : Nat → Option (Info K)} {L : List Nat}
    {kv : List (K × V)} {n : Nat} (hI : InvX t g L kv (some n) 1 0)
    {i ip : Info K} {nd pd : bpnode K V} {p j0 : Nat}
    (hgn : g n = some i) (hty : nd.type = bpnode_type.NODE_LEAF)
    (c : SibCtx t.heap n p (j0 + 1) nd pd) (hgp : g p = some ip) (hht : ip.ht = i.ht + 1)
    (hunder : nd.keys.length < (t.m - 1) / 2)
    {s : Nat} {sd : bpnode K V} (hs : pd.children[j0]? = some s)
    (hsd : heap_get t.heap s = some sd)
    {rc : Int} (hrc : node_count t.heap (right_of pd (j0 + 1)) = some rc)
    (hcond : ¬ (min_limits t.m < sd.num_keys ∨ min_limits t.m < rc))
    (hlt : rc < sd.num_keys) :
    ∃ h1 g1 L1 pd1, leaf_repair t n p (j0 + 1) =
        check_inner_node_size (t.heap.length + 1) { t with heap := h1 } p ∧
      h1.length = t.heap.length ∧ InvX { t with heap := h1 } g1 L1 kv (some p) 1 0 ∧
      g1 p = some ip ∧ heap_get h1 p = some pd1 ∧ pd1.type = bpnode_type.NODE_INNER ∧
      pd1.parent = pd.parent := by
  have he : ∀ x, (some n : Option Nat) = some x → x = n := fun x h => by cases h; rfl
  obtain ⟨sd0, q0, hgs, hsty, hsn, hsp, hspar, hsnk, so1, so2, so3, oks⟩ :=
    hI.sibling hgn c hgp hht he hs (by omega)
  rw [hsd] at q0
  cases q0
  obtain ⟨nd0, q0, okn⟩ := hI.nodes n _ hgn
  rw [c.hn] at q0
  cases q0
  have hi1 : i.ht = 1 := (okn.leaf hty).1
  have hnroot : some n ≠ t.root := by
    intro hr
    have := okn.uproot hr
    rw [c.hpar] at this
    cases this
  have hm3 := hI.m3
  have hm16 := hI.m16
  have hslen : sd.keys.length ≤ (t.m - 1) / 2 := by
    rw [min_limits_cast, hsnk] at hcond
    omega
  have hsvl : sd.values.length = sd.keys.length := (oks.leaf (hsty.trans hty)).2
  obtain ⟨hlof, hlc⟩ := (left_count t.heap pd (j0 + 1)).2 s sd (by omega)
    (by simpa using hs) hsd
  obtain ⟨h1, hrun, hlen, hget⟩ := leaf_repair_merge_left c hlof hsd (hsty.trans hty) hsn hsp
    hrc hcond hlt
  simp only [Nat.add_sub_cancel] at hget
  obtain ⟨d0, nd0, _, hgn2, _, _, hpl⟩ := hI.child hgp c.hp c.hpt c.hi
  rw [hgn] at hgn2
  have hlo : i.lo = slot_lo ip.lo pd.keys (j0 + 1) := congrArg Info.lo (Option.some.inj hgn2)
  have hhi : i.hi = slot_hi pd.keys ip.hi (j0 + 1) := congrArg Info.hi (Option.some.inj hgn2)
  have hjl := (List.getElem?_eq_some.1 c.hi).1
  have hjk : j0 < pd.keys.length := by omega
  have hmid : slot_hi pd.keys ip.hi j0 = slot_lo ip.lo pd.keys (j0 + 1) := by
    rw [slot_hi_lt (List.getElem?_eq_getElem hjk), slot_lo_succ _ _ _ hjk]
  have hnlo : ∀ k ∈ nd.keys, slot_lo ip.lo pd.keys (j0 + 1) ≤ bnd k := by
    intro k hk
    have := okn.lob k hk
    rw [hlo] at this
    exact this
  have hnhi : ∀ k ∈ nd.keys, bnd k < slot_hi pd.keys ip.hi (j0 + 1) := by
    intro k hk
    have := okn.hib k hk
    rw [hhi] at this
    exact this
  have hshi : ∀ k ∈ sd.keys, bnd k < slot_lo ip.lo pd.keys (j0 + 1) := by
    intro k hk
    have := oks.hib k hk
    simp only at this
    rw [hmid] at this
    exact this
  have hnvl : nd.values.length = nd.keys.length := (okn.leaf hty).2
  have hlohi_n : slot_lo ip.lo pd.keys (j0 + 1) < slot_hi pd.keys ip.hi (j0 + 1) := by
    have := okn.lohi
    rw [hlo, hhi] at this
    exact this
  have hlohi_s : slot_lo ip.lo pd.keys j0 < slot_lo ip.lo pd.keys (j0 + 1) := by
    have := oks.lohi
    simp only at this
    rw [hmid] at this
    exact this
  have hgs2 : g s = some ⟨i.ht, slot_lo ip.lo pd.keys j0, slot_lo ip.lo pd.keys (j0 + 1)⟩ := by
    rw [hgs, hmid]
  have hgn3 : g n = some ⟨i.ht, slot_lo ip.lo pd.keys (j0 + 1),
      slot_hi pd.keys ip.hi (j0 + 1)⟩ := by
    rw [hgn, ← hlo, ← hhi]
  have hps : p ≠ s := Ne.symm hsp
  have hpn : p ≠ n := Ne.symm c.hnp
  obtain ⟨L2, hLL⟩ := hI.merge_leaves hgs2 hgn3 hsd c.hn (hsty.trans hty) hty
    { sd with keys := sd.keys ++ nd.keys, values := sd.values ++ nd.values,
              num_keys := wrap16 (sd.num_keys + nd.num_keys), next := nd.next } h1
    (by rw [hget]; simp [hsn])
    (by
      intro x x1 x2 xd hxd hxt
      have hxq : x ≠ p := by
        intro h
        rw [h, c.hp] at hxd
        cases hxd
        rw [c.hpt] at hxt
        cases hxt
      rw [hget]
      simp [hxq, x1, x2, hxd])
    (by
      intro x x1 x2 i0 xd1 _ hxd hxt
      have hxq : x ≠ p := by
        intro h
        rw [h, hget] at hxd
        simp only [hpn, hps, if_false, if_true, Option.some.injEq] at hxd
        rw [← hxd] at hxt
        simp only [c.hpt] at hxt
        cases hxt
      rw [hget] at hxd
      simp only [hxq, x1, x2, if_false] at hxd
      exact ⟨xd1, hxd, hxt⟩)
    (hsty.trans hty) rfl (zip_append_eq _ _ _ _ hsvl)
  refine ⟨h1, merge_ghost g s n i.ht (slot_lo ip.lo pd.keys j0)
    (slot_hi pd.keys ip.hi (j0 + 1)), L2,
    { pd with children := pd.children.eraseIdx (j0 + 1), keys := pd.keys.eraseIdx j0,
              num_keys := wrap16 (pd.num_keys - 1) }, hrun, hlen, ?_, ?_, ?_, c.hpt, rfl⟩
  · refine hI.merge_nodes hgp c.hp c.hpt hs c.hi
      (fun x hx => Or.inr (he x hx)) hsd c.hn i.ht hht
      { sd with keys := sd.keys ++ nd.keys, values := sd.values ++ nd.values,
                num_keys := wrap16 (sd.num_keys + nd.num_keys), next := nd.next }
      [] h1 L2 hlen
      (by rw [hget]; simp [hsn])
      (by rw [hget]; simp)
      (by rw [hget]; simp [hpn, hps])
      (by
        intro x x1 x2 x3
        rw [hget]
        simp only [x1, x2, x3, if_false, List.not_mem_nil]
        cases heap_get t.heap x <;> rfl)
      rfl rfl
      (by
        simp only [List.length_append, hsnk, okn.nk]
        rw [wrap16_id (by omega) (by omega)]
        push_cast
        ring)
      (by
        refine List.pairwise_append.2 ⟨oks.sorted, okn.sorted, ?_⟩
        intro x hx y hy
        exact bnd_lt_bnd.1 (lt_of_lt_of_le (hshi x hx) (hnlo y hy)))
      (by
        intro k hk
        rcases List.mem_append.1 hk with h | h
        · exact oks.lob k h
        · exact le_trans (le_of_lt hlohi_s) (hnlo k h))
      (by
        intro k hk
        rcases List.mem_append.1 hk with h | h
        · exact lt_trans (hshi k h) hlohi_n
        · exact hnhi k h)
      (by
        intro _
        simp only [List.length_append]
        omega)
      (by simp only [List.length_append]; omega)
      (by simp only [List.length_append]; omega)
      (by simp only [List.length_append]; omega)
      (by
        intro x hx
        simp at hx)
      (by
        intro h
        rw [hty] at h
        cases h)
      (by
        intro d1 _ h
        rw [hsty.trans hty] at h
        cases h)
      (by
        intro h
        rw [hsty.trans hty] at h
        cases h)
      hLL
  · rw [merge_ghost_other g _ _ _ hps hpn]
    exact hgp
  · rw [hget]
    simp [hpn, hps]

end del10

end BPlus

namespace BPlus

section del11
variable {K V : Type} [LinearOrder K]

theorem heap_ext {h1 h2 : List (Option (bpnode K V))} (hl : h1.length = h2.length)
    (hg : ∀ x, heap_get h1 x = heap_get h2 x) : h1 = h2 := by
  refine List.ext_getElem hl ?_
  intro n q1 q2
  have := hg n
  simp only [heap_get, List.getD_eq_getElem?_getD, List.getElem?_eq_getElem q1,
    List.getElem?_eq_getElem q2, Option.getD_some] at this
  exact this

/-- The right neighbour of the underfull leaf `n` is appended to `n` and
freed; the parent loses one separator and may now be underfull itself. -/
theorem InvX.leaf_merge_right_ok {t : bptree K V} {g : Nat → Option (Info K)} {L : List Nat}
    {kv : List (K × V)} {n : Nat} (hI : InvX t g L kv (some n) 1 0)
    {i ip : Info K} {nd pd : bpnode K V} {p j : Nat}
    (hgn : g n = some i) (hty : nd.type = bpnode_type.NODE_LEAF)
    (c : SibCtx t.heap n p j nd pd) (hgp : g p = some ip) (hht : ip.ht = i.ht + 1)
    (hunder : nd.keys.length < (t.m - 1) / 2)
    {s : Nat} {sd : bpnode K V} (hs : pd.children[j + 1]? = some s)
    (hsd : heap_get t.heap s = some sd)
    {lc : Int} (hlc : node_count t.heap (left_of pd j) = some lc)
    (hcond : ¬ (min_limits t.m < lc ∨ min_limits t.m < sd.num_keys))
    (hle : ¬ sd.num_keys < lc) :
    ∃ h1 g1 L1 pd1, leaf_repair t n p j =
        check_inner_node_size (t.heap.length + 1) { t with heap := h1 } p ∧
      h1.length = t.heap.length ∧ InvX { t with heap := h1 } g1 L1 kv (some p) 1 0 ∧
      g1 p = some ip ∧ heap_get h1 p = some pd1 ∧ pd1.type = bpnode_type.NODE_INNER ∧
      pd1.parent = pd.parent := by
  have he : ∀ x, (some n : Option Nat) = some x → x = n := fun x h => by cases h; rfl
  obtain ⟨sd0, q0, hgs, hsty, hsn, hsp, hspar, hsnk, so1, so2, so3, oks⟩ :=
    hI.sibling hgn c hgp hht he hs (by omega)
  rw [hsd] at q0
  cases q0
  obtain ⟨nd0, q0, okn⟩ := hI.nodes n _ hgn
  rw [c.hn] at q0
  cases q0
  have hi1 : i.ht = 1 := (okn.leaf hty).1
  have hm3 := hI.m3
  have hm16 := hI.m16
  have hslen : sd.keys.length ≤ (t.m - 1) / 2 := by
    rw [min_limits_cast, hsnk] at hcond
    omega
  have hsvl : sd.values.length = sd.keys.length := (oks.leaf (hsty.trans hty)).2
  have hnvl : nd.values.length = nd.keys.length := (okn.leaf hty).2
  have hjl := (List.getElem?_eq_some.1 hs).1
  have hpl := c.hl
  have hjk : j < pd.keys.length := by omega
  obtain ⟨hrof, hrc⟩ := (right_count t.heap pd j).2 s sd (by omega) hs hsd
  have hkl : 0 < (nd.keys ++ sd.keys).length := by
    simp only [List.length_append]
    omega
  obtain ⟨h1, hrun, hlen, hget⟩ := leaf_repair_merge_right c hrof hsd (hsty.trans hty) hsn hsp
    hlc hcond hle (List.getElem?_eq_getElem hkl)
  obtain ⟨d0, nd0, _, hgn2, _, _, _⟩ := hI.child hgp c.hp c.hpt c.hi
  rw [hgn] at hgn2
  have hlo : i.lo = slot_lo ip.lo pd.keys j := congrArg Info.lo (Option.some.inj hgn2)
  have hhi : i.hi = slot_hi pd.keys ip.hi j := congrArg Info.hi (Option.some.inj hgn2)
  have hmid : slot_hi pd.keys ip.hi j = slot_lo ip.lo pd.keys (j + 1) := by
    rw [slot_hi_lt (List.getElem?_eq_getElem hjk), slot_lo_succ _ _ _ hjk]
  have hnlo : ∀ k ∈ nd.keys, slot_lo ip.lo pd.keys j ≤ bnd k := by
    intro k hk
    have := okn.lob k hk
    rw [hlo] at this
    exact this
  have hnhi : ∀ k ∈ nd.keys, bnd k < slot_lo ip.lo pd.keys (j + 1) := by
    intro k hk
    have := okn.hib k hk
    rw [hhi, hmid] at this
    exact this
  have hslo : ∀ k ∈ sd.keys, slot_lo ip.lo pd.keys (j + 1) ≤ bnd k := by
    intro k hk
    have := oks.lob k hk
    simp only at this
    exact this
  have hlohi_n : slot_lo ip.lo pd.keys j < slot_lo ip.lo pd.keys (j + 1) := by
    have := okn.lohi
    rw [hlo, hhi, hmid] at this
    exact this
  have hlohi_s : slot_lo ip.lo pd.keys (j + 1) < slot_hi pd.keys ip.hi (j + 1) := by
    have := oks.lohi
    simp only at this
    exact this
  have hgn3 : g n = some ⟨i.ht, slot_lo ip.lo pd.keys j, slot_lo ip.lo pd.keys (j + 1)⟩ := by
    rw [hgn, ← hmid, ← hlo, ← hhi]
  have hps : p ≠ s := Ne.symm hsp
  have hpn : p ≠ n := Ne.symm c.hnp
  have hns : n ≠ s := Ne.symm hsn
  have hpl1 := heap_get_lt c.hp
  -- the state before the separator to the left of `n` is refreshed
  have hgetv : ∀ x, heap_get (heap_set h1 p
        { pd with keys := pd.keys.eraseIdx j, children := pd.children.eraseIdx (j + 1),
                  num_keys := wrap16 (pd.num_keys - 1) }) x =
      if x = s then none
      else if x = n then some { nd with keys := nd.keys ++ sd.keys,
                                        values := nd.values ++ sd.values,
                                        num_keys := wrap16 (nd.num_keys + sd.num_keys),
                                        next := sd.next }
      else if x = p then some { pd with keys := pd.keys.eraseIdx j,
                                        children := pd.children.eraseIdx (j + 1),
                                        num_keys := wrap16 (pd.num_keys - 1) }
      else heap_get t.heap x := by
    intro x
    rw [heap_get_set, hlen, hget]
    by_cases hxp : x = p
    · subst hxp
      simp [hps, hpn, hpl1]
    · simp [hxp, Ne.symm hxp]
  obtain ⟨L2, hLL⟩ := hI.merge_leaves hgn3 hgs c.hn hsd hty (hsty.trans hty)
    { nd with keys := nd.keys ++ sd.keys, values := nd.values ++ sd.values,
              num_keys := wrap16 (nd.num_keys + sd.num_keys), next := sd.next }
    (heap_set h1 p
        { pd with keys := pd.keys.eraseIdx j, children := pd.children.eraseIdx (j + 1),
                  num_keys := wrap16 (pd.num_keys - 1) })
    (by rw [hgetv]; simp [hns])
    (by
      intro x x1 x2 xd hxd hxt
      have hxq : x ≠ p := by
        intro h
        rw [h, c.hp] at hxd
        cases hxd
        rw [c.hpt] at hxt
        cases hxt
      rw [hgetv]
      simp [hxq, x1, x2, hxd])
    (by
      intro x x1 x2 i0 xd1 _ hxd hxt
      have hxq : x ≠ p := by
        intro h
        rw [h, hgetv] at hxd
        simp only [hpn, hps, if_false, if_true, Option.some.injEq] at hxd
        rw [← hxd] at hxt
        simp only [c.hpt] at hxt
        cases hxt
      rw [hgetv] at hxd
      simp only [hxq, x1, x2, if_false] at hxd
      exact ⟨xd1, hxd, hxt⟩)
    hty rfl (zip_append_eq _ _ _ _ hnvl)
  have hI2 := hI.merge_nodes hgp c.hp c.hpt c.hi hs
      (fun x hx => Or.inl (he x hx)) c.hn hsd i.ht hht
      { nd with keys := nd.keys ++ sd.keys, values := nd.values ++ sd.values,
                num_keys := wrap16 (nd.num_keys + sd.num_keys), next := sd.next }
      [] (heap_set h1 p
        { pd with keys := pd.keys.eraseIdx j, children := pd.children.eraseIdx (j + 1),
                  num_keys := wrap16 (pd.num_keys - 1) }) L2
      (by simp [heap_set, hlen])
      (by rw [hgetv]; simp [hns])
      (by rw [hgetv]; simp)
      (by rw [hgetv]; simp [hpn, hps])
      (by
        intro x x1 x2 x3
        rw [hgetv]
        simp only [x1, x2, x3, if_false, List.not_mem_nil]
        cases heap_get t.heap x <;> rfl)
      rfl rfl
      (by
        simp only [List.length_append, hsnk, okn.nk]
        rw [wrap16_id (by omega) (by omega)]
        push_cast
        ring)
      (by
        refine List.pairwise_append.2 ⟨okn.sorted, oks.sorted, ?_⟩
        intro x hx y hy
        exact bnd_lt_bnd.1 (lt_of_lt_of_le (hnhi x hx) (hslo y hy)))
      (by
        intro k hk
        rcases List.mem_append.1 hk with h | h
        · exact hnlo k h
        · exact le_trans (le_of_lt hlohi_n) (hslo k h))
      (by
        intro k hk
        rcases List.mem_append.1 hk with h | h
        · exact lt_trans (hnhi k h) hlohi_s
        · exact oks.hib k h)
      (by
        intro _
        simp only [List.length_append]
        omega)
      (by simp only [List.length_append]; omega)
      (by simp only [List.length_append]; omega)
      (by simp only [List.length_append]; omega)
      (by
        intro x hx
        simp at hx)
      (by
        intro h
        rw [hsty.trans hty] at h
        cases h)
      (by
        intro d1 _ h
        rw [hty] at h
        cases h)
      (by
        intro h
        rw [hty] at h
        cases h)
      hLL
  have hg2p : merge_ghost g n s i.ht (slot_lo ip.lo pd.keys j)
      (slot_hi pd.keys ip.hi (j + 1)) p = some ip := by
    rw [merge_ghost_other g _ _ _ hpn hps]
    exact hgp
  by_cases hj0 : j = 0
  · have hh : heap_set h1 p
        { pd with keys := pd.keys.eraseIdx j, children := pd.children.eraseIdx (j + 1),
                  num_keys := wrap16 (pd.num_keys - 1) } = h1 := by
      refine heap_ext (by simp [heap_set]) ?_
      intro x
      rw [hgetv, hget]
      simp [hj0]
    rw [hh] at hI2
    refine ⟨h1, _, L2,
      { pd with keys := pd.keys.eraseIdx j,
                children := pd.children.eraseIdx (j + 1),
                num_keys := wrap16 (pd.num_keys - 1) }, hrun, hlen, hI2, hg2p, ?_, c.hpt, rfl⟩
    rw [hget]
    simp [hpn, hps, hj0]
  · obtain ⟨j1, hj1⟩ : ∃ j1, j = j1 + 1 := ⟨j - 1, by omega⟩
    subst hj1
    have hv : heap_get (heap_set h1 p
        { pd with keys := pd.keys.eraseIdx (j1 + 1),
                  children := pd.children.eraseIdx (j1 + 1 + 1),
                  num_keys := wrap16 (pd.num_keys - 1) }) p = some
        { pd with keys := pd.keys.eraseIdx (j1 + 1),
                  children := pd.children.eraseIdx (j1 + 1 + 1),
                  num_keys := wrap16 (pd.num_keys - 1) } := by
      rw [hgetv]
      simp [hpn, hps]
    have hcn : (pd.children.eraseIdx (j1 + 1 + 1))[j1 + 1]? = some n := by
      rw [List.getElem?_eraseIdx, if_pos (by omega)]
      exact c.hi
    have hl1 : j1 < pd.children.length := by omega
    have hcl : (pd.children.eraseIdx (j1 + 1 + 1))[j1]? = some pd.children[j1] := by
      rw [List.getElem?_eraseIdx, if_pos (by omega)]
      exact List.getElem?_eq_getElem hl1
    have hnv : heap_get (heap_set h1 p
        { pd with keys := pd.keys.eraseIdx (j1 + 1),
                  children := pd.children.eraseIdx (j1 + 1 + 1),
                  num_keys := wrap16 (pd.num_keys - 1) }) n = some
        { nd with keys := nd.keys ++ sd.keys, values := nd.values ++ sd.values,
                  num_keys := wrap16 (nd.num_keys + sd.num_keys), next := sd.next } := by
      rw [hgetv]
      simp [hns]
    obtain ⟨dl, ld, _, hgl, hld, _, _⟩ := hI2.child hg2p hv c.hpt hcl
    have hR := hI2.refresh hg2p hv c.hpt hcl hcn
      (fun x hx => Or.inr (by cases hx; rfl)) (some p) (Or.inl ⟨rfl, rfl⟩)
      hld hnv hty
      (by simp only [List.length_append]; omega)
      (by simp only [List.length_append]; omega)
      (List.getElem?_eq_getElem hkl)
    have hh : heap_set (heap_set h1 p
        { pd with keys := pd.keys.eraseIdx (j1 + 1),
                  children := pd.children.eraseIdx (j1 + 1 + 1),
                  num_keys := wrap16 (pd.num_keys - 1) }) p
        { pd with keys := (pd.keys.eraseIdx (j1 + 1)).set j1 (nd.keys ++ sd.keys)[0],
                  children := pd.children.eraseIdx (j1 + 1 + 1),
                  num_keys := wrap16 (pd.num_keys - 1) } = h1 := by
      refine heap_ext (by simp [heap_set]) ?_
      intro x
      rw [heap_get_set]
      simp only [heap_set, List.length_set]
      by_cases hxp : x = p
      · subst hxp
        rw [hget]
        simp [hpn, hps, hlen, hpl1]
      · have := hgetv x
        simp only [heap_set] at this
        rw [if_neg (fun h => hxp h.1.symm), this, hget]
        simp [hxp]
    simp only at hR
    rw [hh] at hR
    have hlp : pd.children[j1] ≠ p := by
      intro h
      rw [h, hg2p] at hgl
      have := congrArg Info.ht (Option.some.inj hgl)
      simp only at this
      omega
    refine ⟨h1, _, L2,
      { pd with keys := (pd.keys.eraseIdx (j1 + 1)).set j1 (nd.keys ++ sd.keys)[0],
                children := pd.children.eraseIdx (j1 + 1 + 1),
                num_keys := wrap16 (pd.num_keys - 1) }, hrun, hlen, hR, ?_, ?_, c.hpt, rfl⟩
    · rw [rebal_ghost_other _ _ _ _ _ (Ne.symm hlp) hpn]
      exact hg2p
    · rw [hget]
      simp [hpn, hps]

end del11

end BPlus

namespace BPlus

section del12
variable {K V : Type} [LinearOrder K]

/-! ### Slots of a concatenation -/

theorem slot_lo_append_left (lo : Bound K) (ks ks2 : List K) (idx : Nat)
    (h : idx ≤ ks.length) : slot_lo lo (ks ++ ks2) idx = slot_lo lo ks idx := by
  cases idx with
  | zero => simp
  | succ q =>
    rw [slot_lo_succ lo ks q (by omega), slot_lo_succ lo _ q (by simp; omega),
      List.getElem_append_left]

theorem slot_hi_append_left (ks ks2 : List K) (hi hi2 : Bound K) (idx : Nat)
    (h : idx < ks.length) : slot_hi (ks ++ ks2) hi idx = slot_hi ks hi2 idx := by
  rw [slot_hi_lt (List.getElem?_eq_getElem h),
    slot_hi_lt (k := ks[idx]) (by rw [List.getElem?_append_left h]; exact List.getElem?_eq_getElem h)]

theorem slot_hi_append_mid (ks ks2 : List K) (k : K) (hi : Bound K) :
    slot_hi (ks ++ k :: ks2) hi ks.length = bnd k := by
  refine slot_hi_lt ?_
  rw [List.getElem?_append_right (le_refl _)]
  simp

theorem slot_lo_append_right (lo : Bound K) (ks ks2 : List K) (k : K) (idx : Nat)
    (h : idx ≤ ks2.length) :
    slot_lo lo (ks ++ k :: ks2) (ks.length + 1 + idx) = slot_lo (bnd k) ks2 idx := by
  induction ks generalizing lo with
  | nil =>
    have : ([] : List K).length + 1 + idx = idx + 1 := by simp; omega
    rw [this]
    rfl
  | cons k1 ks ih =>
    have : (k1 :: ks).length + 1 + idx = (ks.length + 1 + idx) + 1 := by simp; omega
    rw [this, List.cons_append, slot_lo_cons_succ]
    exact ih _

theorem slot_hi_append_right (ks ks2 : List K) (k : K) (hi : Bound K) (idx : Nat) :
    slot_hi (ks ++ k :: ks2) hi (ks.length + 1 + idx) = slot_hi ks2 hi idx := by
  unfold slot_hi
  rw [List.getElem?_append_right (by omega)]
  have : ks.length + 1 + idx - ks.length = idx + 1 := by omega
  rw [this, List.getElem?_cons_succ]

/-- A change confined to inner nodes and to parent pointers leaves the leaf
level as it is. -/
theorem InvX.leaf_level_below {t : bptree K V} {g : Nat → Option (Info K)} {L : List Nat}
    {kv : List (K × V)} {e : Option Nat} {sl sh : Nat} (hI : InvX t g L kv e sl sh)
    (D X : List Nat) (dst : Option Nat) (h2 : List (Option (bpnode K V)))
    (g2 : Nat → Option (Info K))
    (hD : ∀ x ∈ D, ∀ xd, heap_get t.heap x = some xd → xd.type = bpnode_type.NODE_INNER)
    (hD2 : ∀ x ∈ D, ∀ xd, heap_get h2 x = some xd → xd.type = bpnode_type.NODE_INNER)
    (h2x : ∀ x, x ∉ D → heap_get h2 x = (heap_get t.heap x).map
        (fun xd => if x ∈ X then { xd with parent := dst } else xd))
    (hg : ∀ x, x ∉ D → g2 x = g x) :
    LeafLevel h2 g2 L kv := by
  refine hI.leafLevel.frame_leaves ?_ ?_
  · intro x i xd hx hxd hxt
    have hxD : x ∉ D := by
      intro h
      have := hD x h xd hxd
      rw [hxt] at this
      cases this
    refine ⟨hg x hxD, ?_⟩
    rw [h2x x hxD, hxd]
    by_cases hxX : x ∈ X
    · exact ⟨{ xd with parent := dst }, by simp only [Option.map_some', hxX, if_true], hxt,
        rfl, rfl, rfl⟩
    · exact ⟨xd, by simp only [Option.map_some', hxX, if_false], hxt, rfl, rfl, rfl⟩
  · intro x i xd1 hx hxd hxt
    have hxD : x ∉ D := by
      intro h
      have := hD2 x h xd1 hxd
      rw [hxt] at this
      cases this
    rw [hg x hxD] at hx
    rw [h2x x hxD] at hxd
    cases hxo : heap_get t.heap x with
    | none =>
      rw [hxo] at hxd
      cases hxd
    | some xd =>
      rw [hxo] at hxd
      refine ⟨i, xd, hx, rfl, ?_⟩
      simp only [Option.map_some', Option.some.injEq] at hxd
      rw [← hxd] at hxt
      by_cases hxX : x ∈ X
      · simpa [hxX] using hxt
      · simpa [hxX] using hxt

end del12

end BPlus

namespace BPlus

section del13
variable {K V : Type} [LinearOrder K]

/-- The underfull inner node `n` takes the separator above it and the first
child of its right neighbour; the neighbour's first key moves up. -/
theorem InvX.inner_borrow_right_ok (chk : bptree K V → Nat → Option (bptree K V))
    {t : bptree K V} {g : Nat → Option (Info K)} {L : List Nat}
    {kv : List (K × V)} {n : Nat} (hI : InvX t g L kv (some n) 1 0)
    {i ip : Info K} {nd pd : bpnode K V} {p j : Nat}
    (hgn : g n = some i) (hty : nd.type = bpnode_type.NODE_INNER)
    (c : SibCtx t.heap n p j nd pd) (hgp : g p = some ip) (hht : ip.ht = i.ht + 1)
    (hunder : nd.keys.length < (t.m - 1) / 2)
    {s : Nat} {sd : bpnode K V} (hs : pd.children[j + 1]? = some s)
    (hsd : heap_get t.heap s = some sd)
    {lc : Int} (hlc : node_count t.heap (left_of pd j) = some lc)
    (hcond : min_limits t.m < lc ∨ min_limits t.m < sd.num_keys) (hle : lc ≤ sd.num_keys) :
    ∃ h1 g1, inner_repair chk t n = some { t with heap := h1 } ∧
      h1.length = t.heap.length ∧ InvX { t with heap := h1 } g1 L kv none 0 0 := by
  have he : ∀ x, (some n : Option Nat) = some x → x = n := fun x h => by cases h; rfl
  obtain ⟨sd0, q0, hgs, hsty, hsn, hsp, hspar, hsnk, so1, so2, so3, oks⟩ :=
    hI.sibling hgn c hgp hht he hs (by omega)
  rw [hsd] at q0
  cases q0
  obtain ⟨nd0, q0, okn⟩ := hI.nodes n _ hgn
  rw [c.hn] at q0
  cases q0
  have hsty2 : sd.type = bpnode_type.NODE_INNER := hsty.trans hty
  obtain ⟨d1, hd1, hchn⟩ := okn.down hty
  have hnl := hchn.length
  obtain ⟨d2, hd2, hchs⟩ := oks.down hsty2
  have hsl := hchs.length
  simp only at hd2
  have hnroot : some n ≠ t.root := by
    intro hr
    have := okn.uproot hr
    rw [c.hpar] at this
    cases this
  have no2 := okn.occ_lo hnroot
  simp only [if_true] at no2
  have hm3 := hI.m3
  have hm16 := hI.m16
  have hslen : (t.m - 1) / 2 < sd.keys.length := by
    rw [min_limits_cast, hsnk] at hcond
    rw [hsnk] at hle
    omega
  have h0l : 0 < sd.keys.length := by omega
  have h0c : 0 < sd.children.length := by omega
  have hjl := (List.getElem?_eq_some.1 hs).1
  have hpl := c.hl
  have hjk : j < pd.keys.length := by omega
  obtain ⟨hrof, hrc⟩ := (right_count t.heap pd j).2 s sd (by omega) hs hsd
  obtain ⟨dc, cd, hdc, hgc0, hcd0, hc0par, _⟩ :=
    hI.child hgs hsd hsty2 (List.getElem?_eq_getElem h0c)
  simp only at hdc
  simp only [slot_lo_zero, slot_hi_lt (List.getElem?_eq_getElem h0l)] at hgc0
  have hcn : sd.children[0] ≠ n := by
    intro h
    rw [h, hgn] at hgc0
    have := congrArg Info.ht (Option.some.inj hgc0)
    simp only at this
    omega
  have hcs : sd.children[0] ≠ s := by
    intro h
    rw [h, hgs] at hgc0
    have := congrArg Info.ht (Option.some.inj hgc0)
    simp only at this
    omega
  have hcp : sd.children[0] ≠ p := by
    intro h
    rw [h, hgp] at hgc0
    have := congrArg Info.ht (Option.some.inj hgc0)
    simp only at this
    omega
  obtain ⟨h1, hrun, hlen, hget⟩ := inner_repair_borrow_right chk c hrof hsd hsty2 hsn hsp
    hlc hcond hle (List.getElem?_eq_getElem hjk) (List.getElem?_eq_getElem h0c)
    (List.getElem?_eq_getElem h0l) hcd0 hcn hcs hcp
  obtain ⟨d0, nd0, _, hgn2, _, _, _⟩ := hI.child hgp c.hp c.hpt c.hi
  rw [hgn] at hgn2
  have hlo : i.lo = slot_lo ip.lo pd.keys j := congrArg Info.lo (Option.some.inj hgn2)
  have hhi : i.hi = bnd pd.keys[j] := by
    rw [congrArg Info.hi (Option.some.inj hgn2)]
    exact slot_hi_lt (List.getElem?_eq_getElem hjk)
  have hmid : slot_lo ip.lo pd.keys (j + 1) = bnd pd.keys[j] := slot_lo_succ _ _ _ hjk
  rw [hmid] at hgc0 hgs
  have hnlo : ∀ k ∈ nd.keys, slot_lo ip.lo pd.keys j ≤ bnd k := by
    intro k hk
    have := okn.lob k hk
    rw [hlo] at this
    exact this
  have hnhi : ∀ k ∈ nd.keys, bnd k < bnd pd.keys[j] := by
    intro k hk
    have := okn.hib k hk
    rw [hhi] at this
    exact this
  have hlohi_n : slot_lo ip.lo pd.keys j < bnd pd.keys[j] := by
    have := okn.lohi
    rw [hlo, hhi] at this
    exact this
  -- the first child of `s` covers a proper interval
  obtain ⟨cd0, q0, okc0⟩ := hI.nodes _ _ hgc0
  have hk0lo : bnd pd.keys[j] < bnd sd.keys[0] := okc0.lohi
  have hps : p ≠ s := Ne.symm hsp
  have hpn : p ≠ n := Ne.symm c.hnp
  have hns : n ≠ s := Ne.symm hsn
  have htailk : sd.keys.tail = sd.keys.drop 1 := (List.drop_one _).symm
  have htailc : sd.children.tail = sd.children.drop 1 := (List.drop_one _).symm
  refine ⟨h1, rebal_ghost g n s i.ht (slot_lo ip.lo pd.keys j)
    (slot_hi pd.keys ip.hi (j + 1)) sd.keys[0], hrun, hlen, ?_⟩
  refine @InvX.no_exc _ _ _ _ _ _ _ 1 0 ?_ 0 0
  refine hI.rebalance hgp c.hp c.hpt c.hi hs
    (fun x hx => Or.inl (he x hx)) none
    (Or.inr ⟨rfl, fun h => c.hnp (by cases h; rfl)⟩)
    c.hn hsd i.ht hht sd.keys[0]
    { nd with keys := nd.keys ++ [pd.keys[j]], children := nd.children ++ [sd.children[0]],
              num_keys := wrap16 (nd.num_keys + 1) }
    { sd with keys := sd.keys.tail, children := sd.children.tail,
              num_keys := wrap16 (sd.num_keys - 1) }
    [sd.children[0]] n h1 kv hlen
    (by rw [hget]; simp [c.hnp, hns])
    (by rw [hget]; simp)
    (by rw [hget]; simp [hps])
    ?_ rfl rfl rfl rfl
    (lt_trans hlohi_n hk0lo)
    (oks.hib _ (List.getElem_mem h0l))
    ?_ ?_ ?_ ?_ ?_ ?_ ?_ ?_ ?_ ?_ ?_ ?_ ?_ ?_ ?_ ?_ ?_ ?_ ?_ ?_ ?_
  · intro x x1 x2 x3
    rw [hget]
    simp only [x1, x2, x3, if_false, List.mem_singleton]
    by_cases hx0 : x = sd.children[0]
    · simp only [hx0, if_true, hcd0, Option.map_some']
    · simp only [hx0, if_false]
      cases heap_get t.heap x <;> rfl
  · simp only [List.length_append, List.length_singleton, okn.nk]
    rw [wrap16_id (by omega) (by omega)]
    push_cast
    ring
  · refine List.pairwise_append.2 ⟨okn.sorted, by simp, ?_⟩
    intro x hx y hy
    simp only [List.mem_singleton] at hy
    subst hy
    exact bnd_lt_bnd.1 (hnhi x hx)
  · intro k hk
    rcases List.mem_append.1 hk with h | h
    · exact hnlo k h
    · simp only [List.mem_singleton] at h
      subst h
      exact le_of_lt hlohi_n
  · intro k hk
    rcases List.mem_append.1 hk with h | h
    · exact lt_trans (hnhi k h) hk0lo
    · simp only [List.mem_singleton] at h
      subst h
      exact hk0lo
  · intro h
    rw [hty] at h
    cases h
  · simp only [List.length_append, List.length_singleton]; omega
  · simp only [List.length_append, List.length_singleton]; omega
  · simp only [List.length_append, List.length_singleton]; omega
  · simp only [List.length_tail, hsnk]
    rw [wrap16_id (by omega) (by omega)]
    omega
  · exact oks.sorted.sublist (List.tail_sublist _)
  · intro k hk
    rw [htailk] at hk
    exact le_of_lt (bnd_lt_bnd.2 (sorted_drop_gt oks.sorted h0l k hk))
  · exact fun k hk => oks.hib k (List.mem_of_mem_tail hk)
  · intro h
    rw [hsty2] at h
    cases h
  · simp only [List.length_tail]; omega
  · simp only [List.length_tail]; omega
  · simp only [List.length_tail]; omega
  · intro x hx
    simp only [List.mem_singleton] at hx
    subst hx
    exact ⟨hty, Or.inr (List.getElem_mem h0c)⟩
  · intro d1a hd1a _
    refine ⟨by simp only [List.length_append, List.length_singleton]; omega, ?_⟩
    intro idx x hx
    by_cases hidx : idx < nd.children.length
    · rw [List.getElem?_append_left hidx] at hx
      obtain ⟨dx, xd, hdx, hgx, hxd, hxpar, _⟩ := hI.child hgn c.hn hty hx
      have hdd : dx = d1a := by omega
      subst hdd
      rw [hlo, hhi] at hgx
      refine ⟨?_, Or.inl ⟨?_, List.getElem?_mem hx⟩⟩
      · rw [hgx, slot_lo_append_left _ _ _ _ (by omega)]
        by_cases hik : idx < nd.keys.length
        · rw [slot_hi_append_left _ _ _ (bnd pd.keys[j]) _ hik]
        · have hie : idx = nd.keys.length := by omega
          rw [hie, slot_hi_append_mid, slot_hi_ge (le_refl _)]
      · intro hm
        simp only [List.mem_singleton] at hm
        rw [hm, hcd0] at hxd
        cases hxd
        rw [hc0par] at hxpar
        cases hxpar
        exact hsn rfl
    · have hxl := (List.getElem?_eq_some.1 hx).1
      simp only [List.length_append, List.length_singleton] at hxl
      have hie : idx = nd.children.length := by omega
      rw [hie, List.getElem?_append_right (le_refl _)] at hx
      simp only [Nat.sub_self, List.getElem?_cons_zero, Option.some.injEq] at hx
      subst hx
      have hdd : dc = d1a := by omega
      subst hdd
      refine ⟨?_, Or.inr ⟨by simp, rfl⟩⟩
      have e1 := slot_lo_append_right (slot_lo ip.lo pd.keys j) nd.keys [] pd.keys[j] 0
        (by simp)
      have e2 := slot_hi_append_right nd.keys [] pd.keys[j] (bnd sd.keys[0]) 0
      simp only [Nat.add_zero, slot_lo_zero] at e1 e2
      rw [hie, hnl, e1, e2, slot_hi_ge (by simp)]
      exact hgc0
  · intro d1a hd1a _
    refine ⟨by simp only [List.length_tail]; omega, ?_⟩
    intro idx x hx
    rw [htailc, List.getElem?_drop] at hx
    obtain ⟨dx, xd, hdx, hgx, hxd, hxpar, _⟩ := hI.child hgs hsd hsty2 hx
    simp only at hdx hgx
    have hdd : dx = d1a := by omega
    subst hdd
    refine ⟨?_, Or.inl ⟨?_, List.getElem?_mem hx⟩⟩
    · rw [hgx, htailk]
      have e1 := slot_lo_drop (bnd pd.keys[j]) sd.keys 0 idx h0l
        (by
          have := (List.getElem?_eq_some.1 hx).1
          omega)
      have e2 := slot_hi_drop (slot_hi pd.keys ip.hi (j + 1)) sd.keys 0 idx
      simp only [Nat.zero_add] at e1 e2
      rw [e1, e2]
    · intro hm
      simp only [List.mem_singleton] at hm
      rw [hm] at hx
      have := hI.children_inj hgs hsd hsty2 hx (List.getElem?_eq_getElem h0c)
      omega
  · intro x hx
    rcases hx with hx | hx
    · exact Or.inl (List.mem_append_left _ hx)
    · obtain ⟨q, hq, hqe⟩ := List.mem_iff_getElem.1 hx
      cases q with
      | zero =>
        left
        rw [← hqe]
        simp
      | succ q =>
        right
        rw [htailc, ← hqe]
        refine List.mem_iff_getElem.2 ⟨q, by simp; omega, ?_⟩
        simp [Nat.add_comm]
  · refine hI.leaf_level_below [n, s, p] [sd.children[0]] (some n) h1 _ ?_ ?_ ?_ ?_
    · intro x hx xd hxd
      simp only [List.mem_cons, List.mem_singleton, List.not_mem_nil, or_false] at hx
      rcases hx with h | h | h
      · rw [h, c.hn] at hxd
        cases hxd
        exact hty
      · rw [h, hsd] at hxd
        cases hxd
        exact hsty2
      · rw [h, c.hp] at hxd
        cases hxd
        exact c.hpt
    · intro x hx xd hxd
      simp only [List.mem_cons, List.mem_singleton, List.not_mem_nil, or_false] at hx
      rw [hget] at hxd
      rcases hx with h | h | h
      · simp only [h, hns, hpn.symm, if_false, if_true, Option.some.injEq] at hxd
        rw [← hxd]
        exact hty
      · simp only [h, if_true, Option.some.injEq] at hxd
        rw [← hxd]
        exact hsty2
      · simp only [h, hps, if_false, if_true, Option.some.injEq] at hxd
        rw [← hxd]
        exact c.hpt
    · intro x hx
      simp only [List.mem_cons, List.mem_singleton, List.not_mem_nil, or_false, not_or] at hx
      rw [hget]
      simp only [hx.1, hx.2.1, hx.2.2, if_false, List.mem_singleton]
      by_cases hx0 : x = sd.children[0]
      · simp only [hx0, if_true, hcd0, Option.map_some']
      · simp only [hx0, if_false]
        cases heap_get t.heap x <;> rfl
    · intro x hx
      simp only [List.mem_cons, List.mem_singleton, List.not_mem_nil, or_false, not_or] at hx
      exact rebal_ghost_other g _ _ _ _ hx.1 hx.2.1

end del13

end BPlus

namespace BPlus

section del14
variable {K V : Type} [LinearOrder K]

/-- The underfull inner node `n` takes the separator above it and the last
child of its left neighbour; the neighbour's last key moves up. -/
theorem InvX.inner_borrow_left_ok (chk : bptree K V → Nat → Option (bptree K V))
    {t : bptree K V} {g : Nat → Option (Info K)} {L : List Nat}
    {kv : List (K × V)} {n : Nat} (hI : InvX t g L kv (some n) 1 0)
    {i ip : Info K} {nd pd : bpnode K V} {p j0 : Nat}
    (hgn : g n = some i) (hty : nd.type = bpnode_type.NODE_INNER)
    (c : SibCtx t.heap n p (j0 + 1) nd pd) (hgp : g p = some ip) (hht : ip.ht = i.ht + 1)
    (hunder : nd.keys.length < (t.m - 1) / 2)
    {s : Nat} {sd : bpnode K V} (hs : pd.children[j0]? = some s)
    (hsd : heap_get t.heap s = some sd)
    {rc : Int} (hrc : node_count t.heap (right_of pd (j0 + 1)) = some rc) (hrc0 : 0 ≤ rc)
    (hcond : min_limits t.m < sd.num_keys ∨ min_limits t.m < rc) (hlt : rc < sd.num_keys) :
    ∃ h1 g1, inner_repair chk t n = some { t with heap := h1 } ∧
      h1.length = t.heap.length ∧ InvX { t with heap := h1 } g1 L kv none 0 0 := by
  have he : ∀ x, (some n : Option Nat) = some x → x = n := fun x h => by cases h; rfl
  obtain ⟨sd0, q0, hgs, hsty, hsn, hsp, hspar, hsnk, so1, so2, so3, oks⟩ :=
    hI.sibling hgn c hgp hht he hs (by omega)
  rw [hsd] at q0
  cases q0
  obtain ⟨nd0, q0, okn⟩ := hI.nodes n _ hgn
  rw [c.hn] at q0
  cases q0
  have hsty2 : sd.type = bpnode_type.NODE_INNER := hsty.trans hty
  obtain ⟨d1, hd1, hchn⟩ := okn.down hty
  have hnl := hchn.length
  obtain ⟨d2, hd2, hchs⟩ := oks.down hsty2
  have hsl := hchs.length
  simp only at hd2
  have hnroot : some n ≠ t.root := by
    intro hr
    have := okn.uproot hr
    rw [c.hpar] at this
    cases this
  have no2 := okn.occ_lo hnroot
  simp only [if_true] at no2
  have hm3 := hI.m3
  have hm16 := hI.m16
  have hslen : (t.m - 1) / 2 < sd.keys.length := by
    rw [min_limits_cast, hsnk] at hcond
    rw [hsnk] at hlt
    omega
  have h0l : 0 < sd.keys.length := by omega
  have hkl : sd.keys.length - 1 < sd.keys.length := by omega
  have hcl : sd.children.length - 1 < sd.children.length := by omega
  have hcl2 : sd.children.length - 1 = sd.keys.length := by omega
  have hjl := (List.getElem?_eq_some.1 c.hi).1
  have hpl := c.hl
  have hjk : j0 < pd.keys.length := by omega
  obtain ⟨hlof, hlc⟩ := (left_count t.heap pd (j0 + 1)).2 s sd (by omega)
    (by simpa using hs) hsd
  obtain ⟨dc, cd, hdc, hgcb, hcdb, hcbpar, _⟩ :=
    hI.child hgs hsd hsty2 (List.getElem?_eq_getElem hcl)
  simp only at hdc
  have hmid : slot_hi pd.keys ip.hi j0 = bnd pd.keys[j0] :=
    slot_hi_lt (List.getElem?_eq_getElem hjk)
  have hlast : slot_lo (slot_lo ip.lo pd.keys j0) sd.keys (sd.children.length - 1) =
      bnd sd.keys[sd.keys.length - 1] := by
    have := slot_lo_succ (slot_lo ip.lo pd.keys j0) sd.keys (sd.keys.length - 1) hkl
    have e : sd.keys.length - 1 + 1 = sd.children.length - 1 := by omega
    rw [e] at this
    exact this
  simp only [hlast, slot_hi_ge (show sd.keys.length ≤ sd.children.length - 1 by omega),
    hmid] at hgcb
  rw [hmid] at hgs
  have hcn : sd.children[sd.children.length - 1] ≠ n := by
    intro h
    rw [h, hgn] at hgcb
    have := congrArg Info.ht (Option.some.inj hgcb)
    simp only at this
    omega
  have hcs : sd.children[sd.children.length - 1] ≠ s := by
    intro h
    rw [h, hgs] at hgcb
    have := congrArg Info.ht (Option.some.inj hgcb)
    simp only at this
    omega
  have hcp : sd.children[sd.children.length - 1] ≠ p := by
    intro h
    rw [h, hgp] at hgcb
    have := congrArg Info.ht (Option.some.inj hgcb)
    simp only at this
    omega
  obtain ⟨h1, hrun, hlen, hget⟩ := inner_repair_borrow_left chk c hlof hsd hsty2 hsn hsp
    hrc hcond hlt (show pd.keys[j0 + 1 - 1]? = some pd.keys[j0] by simpa using List.getElem?_eq_getElem hjk)
    (by rw [List.getLast?_eq_getElem?]; exact List.getElem?_eq_getElem hcl)
    (by rw [List.getLast?_eq_getElem?]; exact List.getElem?_eq_getElem hkl)
    hcdb hcn hcs hcp
  simp only [Nat.add_sub_cancel] at hget
  obtain ⟨d0, nd0, _, hgn2, _, _, _⟩ := hI.child hgp c.hp c.hpt c.hi
  rw [hgn] at hgn2
  have hlo : i.lo = bnd pd.keys[j0] := by
    rw [congrArg Info.lo (Option.some.inj hgn2)]
    exact slot_lo_succ _ _ _ hjk
  have hhi : i.hi = slot_hi pd.keys ip.hi (j0 + 1) := congrArg Info.hi (Option.some.inj hgn2)
  have hnlo : ∀ k ∈ nd.keys, bnd pd.keys[j0] ≤ bnd k := by
    intro k hk
    have := okn.lob k hk
    rw [hlo] at this
    exact this
  have hnhi : ∀ k ∈ nd.keys, bnd k < slot_hi pd.keys ip.hi (j0 + 1) := by
    intro k hk
    have := okn.hib k hk
    rw [hhi] at this
    exact this
  have hlohi_n : bnd pd.keys[j0] < slot_hi pd.keys ip.hi (j0 + 1) := by
    have := okn.lohi
    rw [hlo, hhi] at this
    exact this
  have hkb_hi : bnd sd.keys[sd.keys.length - 1] < bnd pd.keys[j0] := by
    have := oks.hib _ (List.getElem_mem hkl)
    simp only [hmid] at this
    exact this
  have hfirst : sd.keys[0] < sd.keys[sd.keys.length - 1] :=
    List.pairwise_iff_getElem.1 oks.sorted 0 (sd.keys.length - 1) (by omega) (by omega)
      (by omega)
  have hdl_lt : ∀ k ∈ sd.keys.dropLast, k < sd.keys[sd.keys.length - 1] := by
    intro k hk
    rw [List.dropLast_eq_take] at hk
    exact sorted_take_lt oks.sorted (by omega) k hk
  -- the first child of `n` covers a proper interval
  have hn0 : 0 < nd.children.length := by omega
  obtain ⟨dn0, nd0, _, hgn0, _, _, _⟩ := hI.child hgn c.hn hty (List.getElem?_eq_getElem hn0)
  obtain ⟨cd0, q0, okc0⟩ := hI.nodes _ _ hgn0
  have hn0lohi := okc0.lohi
  simp only [slot_lo_zero, hlo] at hn0lohi
  have hkp_lt : ∀ k ∈ nd.keys, pd.keys[j0] < k := by
    intro k hk
    have hkl0 : 0 < nd.keys.length := List.length_pos_of_mem hk
    rw [slot_hi_lt (List.getElem?_eq_getElem hkl0)] at hn0lohi
    have h2 := sorted_drop_ge okn.sorted hkl0 k (by simpa using hk)
    exact lt_of_lt_of_le (bnd_lt_bnd.1 hn0lohi) h2
  have hps : p ≠ s := Ne.symm hsp
  have hpn : p ≠ n := Ne.symm c.hnp
  have hns : n ≠ s := Ne.symm hsn
  refine ⟨h1, rebal_ghost g s n i.ht (slot_lo ip.lo pd.keys j0)
    (slot_hi pd.keys ip.hi (j0 + 1)) sd.keys[sd.keys.length - 1], hrun, hlen, ?_⟩
  refine @InvX.no_exc _ _ _ _ _ _ _ 1 0 ?_ 0 0
  refine hI.rebalance hgp c.hp c.hpt hs c.hi
    (fun x hx => Or.inr (Or.inl (he x hx))) none
    (Or.inr ⟨rfl, fun h => c.hnp (by cases h; rfl)⟩)
    hsd c.hn i.ht hht sd.keys[sd.keys.length - 1]
    { sd with keys := sd.keys.dropLast, children := sd.children.dropLast,
              num_keys := wrap16 (sd.num_keys - 1) }
    { nd with keys := pd.keys[j0] :: nd.keys,
              children := sd.children[sd.children.length - 1] :: nd.children,
              num_keys := wrap16 (nd.num_keys + 1) }
    [sd.children[sd.children.length - 1]] n h1 kv hlen
    (by rw [hget]; simp)
    (by rw [hget]; simp [c.hnp, hns])
    (by rw [hget]; simp [hps])
    ?_ rfl rfl rfl rfl
    ?_
    (lt_trans hkb_hi hlohi_n)
    ?_ ?_ ?_ ?_ ?_ ?_ ?_ ?_ ?_ ?_ ?_ ?_ ?_ ?_ ?_ ?_ ?_ ?_ ?_ ?_ ?_
  · intro x x1 x2 x3
    rw [hget]
    simp only [x1, x2, x3, if_false, List.mem_singleton]
    by_cases hx0 : x = sd.children[sd.children.length - 1]
    · simp only [hx0, if_true, hcdb, Option.map_some']
    · simp only [hx0, if_false]
      cases heap_get t.heap x <;> rfl
  · have h0 := oks.lob _ (List.getElem_mem h0l)
    simp only at h0
    exact lt_of_le_of_lt h0 (bnd_lt_bnd.2 hfirst)
  · simp only [List.length_dropLast, hsnk]
    rw [wrap16_id (by omega) (by omega)]
    omega
  · exact oks.sorted.sublist (List.dropLast_sublist _)
  · exact fun k hk => oks.lob k (List.dropLast_subset _ hk)
  · exact fun k hk => bnd_lt_bnd.2 (hdl_lt k hk)
  · intro h
    rw [hsty2] at h
    cases h
  · simp only [List.length_dropLast]; omega
  · simp only [List.length_dropLast]; omega
  · simp only [List.length_dropLast]; omega
  · simp only [List.length_cons, okn.nk]
    rw [wrap16_id (by omega) (by omega)]
    push_cast
    ring
  · exact List.pairwise_cons.2 ⟨hkp_lt, okn.sorted⟩
  · intro k hk
    rcases List.mem_cons.1 hk with h | h
    · rw [h]
      exact le_of_lt hkb_hi
    · exact le_trans (le_of_lt hkb_hi) (hnlo k h)
  · intro k hk
    rcases List.mem_cons.1 hk with h | h
    · rw [h]
      exact hlohi_n
    · exact hnhi k h
  · intro h
    rw [hty] at h
    cases h
  · simp only [List.length_cons]; omega
  · simp only [List.length_cons]; omega
  · simp only [List.length_cons]; omega
  · intro x hx
    simp only [List.mem_singleton] at hx
    subst hx
    exact ⟨hsty2, Or.inl (List.getElem_mem hcl)⟩
  · intro d1a hd1a _
    refine ⟨by simp only [List.length_dropLast]; omega, ?_⟩
    intro idx x hx
    dsimp only at hx
    rw [List.dropLast_eq_take, List.getElem?_take] at hx
    have hidx : idx < sd.children.length - 1 := by
      by_contra hc
      rw [if_neg hc] at hx
      cases hx
    rw [if_pos hidx] at hx
    obtain ⟨dx, xd, hdx, hgx, hxd, hxpar, _⟩ := hI.child hgs hsd hsty2 hx
    simp only at hdx hgx
    have hdd : dx = d1a := by omega
    subst hdd
    refine ⟨?_, Or.inl ⟨?_, List.getElem?_mem hx⟩⟩
    · dsimp only
      rw [hgx, List.dropLast_eq_take,
        slot_lo_take _ sd.keys (sd.keys.length - 1) idx (by omega) (by omega),
        slot_hi_take (bnd pd.keys[j0]) sd.keys (sd.keys.length - 1) idx hkl (by omega)]
    · intro hm
      simp only [List.mem_singleton] at hm
      rw [hm] at hx
      have := hI.children_inj hgs hsd hsty2 hx (List.getElem?_eq_getElem hcl)
      omega
  · intro d1a hd1a _
    refine ⟨by simp only [List.length_cons]; omega, ?_⟩
    intro idx x hx
    cases idx with
    | zero =>
      simp only [List.getElem?_cons_zero, Option.some.injEq] at hx
      subst hx
      have hdd : dc = d1a := by omega
      subst hdd
      refine ⟨?_, Or.inr ⟨by simp, rfl⟩⟩
      rw [slot_lo_zero, slot_hi_lt (List.getElem?_cons_zero)]
      exact hgcb
    | succ q =>
      simp only [List.getElem?_cons_succ] at hx
      obtain ⟨dx, xd, hdx, hgx, hxd, hxpar, _⟩ := hI.child hgn c.hn hty hx
      have hdd : dx = d1a := by omega
      subst hdd
      rw [hlo, hhi] at hgx
      refine ⟨?_, Or.inl ⟨?_, List.getElem?_mem hx⟩⟩
      · rw [hgx, slot_lo_cons_succ, slot_hi_cons_succ]
      · intro hm
        simp only [List.mem_singleton] at hm
        rw [hm, hcdb] at hxd
        cases hxd
        rw [hcbpar] at hxpar
        cases hxpar
        exact hsn rfl
  · intro x hx
    rcases hx with hx | hx
    · obtain ⟨q, hq, hqe⟩ := List.mem_iff_getElem.1 hx
      by_cases hql : q < sd.children.length - 1
      · left
        rw [List.dropLast_eq_take, ← hqe]
        refine List.mem_iff_getElem.2 ⟨q, by simp; omega, ?_⟩
        simp
      · right
        have : q = sd.children.length - 1 := by omega
        subst this
        rw [← hqe]
        simp
    · exact Or.inr (List.mem_cons_of_mem _ hx)
  · refine hI.leaf_level_below [n, s, p] [sd.children[sd.children.length - 1]] (some n) h1 _
      ?_ ?_ ?_ ?_
    · intro x hx xd hxd
      simp only [List.mem_cons, List.mem_singleton, List.not_mem_nil, or_false] at hx
      rcases hx with h | h | h
      · rw [h, c.hn] at hxd
        cases hxd
        exact hty
      · rw [h, hsd] at hxd
        cases hxd
        exact hsty2
      · rw [h, c.hp] at hxd
        cases hxd
        exact c.hpt
    · intro x hx xd hxd
      simp only [List.mem_cons, List.mem_singleton, List.not_mem_nil, or_false] at hx
      rw [hget] at hxd
      rcases hx with h | h | h
      · simp only [h, hns, hpn.symm, if_false, if_true, Option.some.injEq] at hxd
        rw [← hxd]
        exact hty
      · simp only [h, if_true, Option.some.injEq] at hxd
        rw [← hxd]
        exact hsty2
      · simp only [h, hps, if_false, if_true, Option.some.injEq] at hxd
        rw [← hxd]
        exact c.hpt
    · intro x hx
      simp only [List.mem_cons, List.mem_singleton, List.not_mem_nil, or_false, not_or] at hx
      rw [hget]
      simp only [hx.1, hx.2.1, hx.2.2, if_false, List.mem_singleton]
      by_cases hx0 : x = sd.children[sd.children.length - 1]
      · simp only [hx0, if_true, hcdb, Option.map_some']
      · simp only [hx0, if_false]
        cases heap_get t.heap x <;> rfl
    · intro x hx
      simp only [List.mem_cons, List.mem_singleton, List.not_mem_nil, or_false, not_or] at hx
      exact rebal_ghost_other g _ _ _ _ hx.2.1 hx.1

end del14

end BPlus

namespace BPlus

section del15
variable {K V : Type} [LinearOrder K]

/-- Children of a child of `p` are live and differ from `p` and from every
child of `p`. -/
theorem InvX.grandchild {t : bptree K V} {g : Nat → Option (Info K)} {L : List Nat}
    {kv : List (K × V)} {e : Option Nat} {sl sh : Nat} (hI : InvX t g L kv e sl sh)
    {p j a : Nat} {ip : Info K} {pd ad : bpnode K V}
    (hgp : g p = some ip) (hpd : heap_get t.heap p = some pd)
    (hpty : pd.type = bpnode_type.NODE_INNER) (hja : pd.children[j]? = some a)
    (had : heap_get t.heap a = some ad) (haty : ad.type = bpnode_type.NODE_INNER)
    {x : Nat} (hx : x ∈ ad.children) :
    (∃ xd, heap_get t.heap x = some xd ∧ xd.parent = some a) ∧ x ≠ p ∧
      ∀ y ∈ pd.children, x ≠ y := by
  obtain ⟨d, ad0, hd, hga, had0, _, _⟩ := hI.child hgp hpd hpty hja
  rw [had] at had0
  cases had0
  obtain ⟨q, hq, hqe⟩ := List.mem_iff_getElem.1 hx
  have hxq : ad.children[q]? = some x := by rw [← hqe]; exact List.getElem?_eq_getElem hq
  obtain ⟨d1, xd, hd1, hgx, hxd, hxpar, _⟩ := hI.child hga had haty hxq
  simp only at hd1
  refine ⟨⟨xd, hxd, hxpar⟩, ?_, ?_⟩
  · intro h
    rw [h, hgp] at hgx
    have := congrArg Info.ht (Option.some.inj hgx)
    simp only at this
    omega
  · intro y hy h
    obtain ⟨q2, hq2, hqe2⟩ := List.mem_iff_getElem.1 hy
    have hyq : pd.children[q2]? = some y := by rw [← hqe2]; exact List.getElem?_eq_getElem hq2
    obtain ⟨d2, yd, hd2, hgy, _, _, _⟩ := hI.child hgp hpd hpty hyq
    rw [← h, hgx] at hgy
    have := congrArg Info.ht (Option.some.inj hgy)
    simp only at this
    omega

/-- Two neighbouring inner children `a` and `c` of `p` are merged into `a`,
with the separator between them pulled down from `p`. -/
theorem InvX.inner_merge_ok {t : bptree K V} {g : Nat → Option (Info K)} {L : List Nat}
    {kv : List (K × V)} {e : Option Nat} (hI : InvX t g L kv e 1 0)
    {p j a c : Nat} {ip : Info K} {pd ad cd : bpnode K V} {kp : K}
    (hgp : g p = some ip) (hpd : heap_get t.heap p = some pd)
    (hpty : pd.type = bpnode_type.NODE_INNER)
    (hja : pd.children[j]? = some a) (hjc : pd.children[j + 1]? = some c)
    (he : ∀ x, e = some x → x = a ∨ x = c)
    (had : heap_get t.heap a = some ad) (hcd : heap_get t.heap c = some cd)
    (haty : ad.type = bpnode_type.NODE_INNER) (hcty : cd.type = bpnode_type.NODE_INNER)
    (htot : ad.keys.length + cd.keys.length + 1 < t.m)
    (hmin : (t.m - 1) / 2 ≤ ad.keys.length + cd.keys.length + 1)
    (hkp : pd.keys[j]? = some kp)
    (h1 : List (Option (bpnode K V))) (hlen : h1.length = t.heap.length)
    (hget : ∀ x, heap_get h1 x =
        if x = c then none
        else if x = p then some { pd with keys := pd.keys.eraseIdx j,
                                          children := pd.children.eraseIdx (j + 1),
                                          num_keys := wrap16 (pd.num_keys - 1) }
        else if x = a then some { ad with keys := ad.keys ++ [kp] ++ cd.keys,
                                          children := ad.children ++ cd.children,
                                          num_keys := wrap16 (ad.num_keys + (cd.num_keys + 1)) }
        else (heap_get t.heap x).map (fun xd =>
          if x ∈ ad.children ++ cd.children then { xd with parent := some a } else xd)) :
    ∃ g1 pd1, InvX { t with heap := h1 } g1 L kv (some p) 1 0 ∧ g1 p = some ip ∧
      heap_get h1 p = some pd1 ∧ pd1.type = bpnode_type.NODE_INNER ∧
      pd1.parent = pd.parent := by
  obtain ⟨da, ad0, hda, hga, had0, hapar, hpl⟩ := hI.child hgp hpd hpty hja
  rw [had] at had0
  cases had0
  obtain ⟨dc, cd0, hdc, hgc, hcd0, hcpar, _⟩ := hI.child hgp hpd hpty hjc
  rw [hcd] at hcd0
  cases hcd0
  have hdd : da = dc := by omega
  subst hdd
  obtain ⟨ad0, q0, oka⟩ := hI.nodes a _ hga
  rw [had] at q0
  cases q0
  obtain ⟨cd0, q0, okc⟩ := hI.nodes c _ hgc
  rw [hcd] at q0
  cases q0
  obtain ⟨d1, hd1, hcha⟩ := oka.down haty
  have hal := hcha.length
  obtain ⟨d2, hd2, hchc⟩ := okc.down hcty
  have hcl := hchc.length
  simp only at hd1 hd2
  have hm3 := hI.m3
  have hm16 := hI.m16
  have hjl := (List.getElem?_eq_some.1 hjc).1
  have hjk : j < pd.keys.length := by omega
  have hkpe : kp = pd.keys[j] := by
    rw [List.getElem?_eq_getElem hjk] at hkp
    exact (Option.some.inj hkp).symm
  subst hkpe
  have hmid1 : slot_hi pd.keys ip.hi j = bnd pd.keys[j] :=
    slot_hi_lt (List.getElem?_eq_getElem hjk)
  have hmid2 : slot_lo ip.lo pd.keys (j + 1) = bnd pd.keys[j] := slot_lo_succ _ _ _ hjk
  rw [hmid1] at hga
  rw [hmid2] at hgc
  have hac : a ≠ c := by
    intro h
    rw [h] at hja
    have := hI.children_inj hgp hpd hpty hja hjc
    omega
  have hap : a ≠ p := by
    intro h
    rw [h, hgp] at hga
    have := congrArg Info.ht (Option.some.inj hga)
    simp only at this
    omega
  have hcp : c ≠ p := by
    intro h
    rw [h, hgp] at hgc
    have := congrArg Info.ht (Option.some.inj hgc)
    simp only at this
    omega
  have halob : ∀ k ∈ ad.keys, slot_lo ip.lo pd.keys j ≤ bnd k := fun k hk => by
    have := oka.lob k hk
    simp only at this
    exact this
  have hahib : ∀ k ∈ ad.keys, bnd k < bnd pd.keys[j] := fun k hk => by
    have := oka.hib k hk
    simp only [hmid1] at this
    exact this
  have hclob : ∀ k ∈ cd.keys, bnd pd.keys[j] ≤ bnd k := fun k hk => by
    have := okc.lob k hk
    simp only [hmid2] at this
    exact this
  have hchib : ∀ k ∈ cd.keys, bnd k < slot_hi pd.keys ip.hi (j + 1) := fun k hk => by
    have := okc.hib k hk
    simp only at this
    exact this
  have hlohi_a : slot_lo ip.lo pd.keys j < bnd pd.keys[j] := by
    have := oka.lohi
    simp only [hmid1] at this
    exact this
  have hlohi_c : bnd pd.keys[j] < slot_hi pd.keys ip.hi (j + 1) := by
    have := okc.lohi
    simp only [hmid2] at this
    exact this
  -- the first child of `c` covers a proper interval
  have hc0 : 0 < cd.children.length := by omega
  obtain ⟨dn0, nd0, _, hgc0, _, _, _⟩ := hI.child hgc hcd hcty (List.getElem?_eq_getElem hc0)
  obtain ⟨cd0, q0, okc0⟩ := hI.nodes _ _ hgc0
  have hc0lohi := okc0.lohi
  simp only [slot_lo_zero] at hc0lohi
  have hkp_lt : ∀ k ∈ cd.keys, pd.keys[j] < k := by
    intro k hk
    have hkl0 : 0 < cd.keys.length := List.length_pos_of_mem hk
    rw [slot_hi_lt (List.getElem?_eq_getElem hkl0)] at hc0lohi
    have h2 := sorted_drop_ge okc.sorted hkl0 k (by simpa using hk)
    exact lt_of_lt_of_le (bnd_lt_bnd.1 hc0lohi) h2
  have hkeys : ad.keys ++ [pd.keys[j]] ++ cd.keys = ad.keys ++ pd.keys[j] :: cd.keys := by simp
  have hpa : p ≠ a := Ne.symm hap
  have hpc : p ≠ c := Ne.symm hcp
  have hgX : ∀ x, x ∈ ad.children ++ cd.children → x ≠ a ∧ x ≠ c ∧ x ≠ p := by
    intro x hx
    rcases List.mem_append.1 hx with h | h
    · obtain ⟨_, r2, r3⟩ := hI.grandchild hgp hpd hpty hja had haty h
      exact ⟨r3 a (List.getElem?_mem hja), r3 c (List.getElem?_mem hjc), r2⟩
    · obtain ⟨_, r2, r3⟩ := hI.grandchild hgp hpd hpty hjc hcd hcty h
      exact ⟨r3 a (List.getElem?_mem hja), r3 c (List.getElem?_mem hjc), r2⟩
  refine ⟨merge_ghost g a c da (slot_lo ip.lo pd.keys j) (slot_hi pd.keys ip.hi (j + 1)),
    { pd with keys := pd.keys.eraseIdx j, children := pd.children.eraseIdx (j + 1),
              num_keys := wrap16 (pd.num_keys - 1) }, ?_, ?_, ?_, hpty, rfl⟩
  · refine hI.merge_nodes hgp hpd hpty hja hjc he had hcd da hda
      { ad with keys := ad.keys ++ [pd.keys[j]] ++ cd.keys,
                children := ad.children ++ cd.children,
                num_keys := wrap16 (ad.num_keys + (cd.num_keys + 1)) }
      (ad.children ++ cd.children) h1 L hlen
      (by rw [hget]; simp [hac, hap])
      (by rw [hget]; simp)
      (by rw [hget]; simp [hpc])
      ?_ rfl rfl ?_ ?_ ?_ ?_ ?_ ?_ ?_ ?_ ?_ ?_ ?_ ?_ ?_
    · intro x x1 x2 x3
      rw [hget]
      simp only [x1, x2, x3, if_false]
    · dsimp only
      rw [hkeys]
      simp only [List.length_append, List.length_cons, oka.nk, okc.nk]
      rw [wrap16_id (by omega) (by omega)]
      push_cast
      ring
    · dsimp only
      rw [hkeys]
      refine List.pairwise_append.2 ⟨oka.sorted, List.pairwise_cons.2 ⟨hkp_lt, okc.sorted⟩, ?_⟩
      intro x hx y hy
      rcases List.mem_cons.1 hy with h | h
      · rw [h]
        exact bnd_lt_bnd.1 (hahib x hx)
      · exact bnd_lt_bnd.1 (lt_of_lt_of_le (hahib x hx) (hclob y h))
    · intro k hk
      dsimp only at hk
      rw [hkeys] at hk
      rcases List.mem_append.1 hk with h | h
      · exact halob k h
      · rcases List.mem_cons.1 h with h | h
        · rw [h]
          exact le_of_lt hlohi_a
        · exact le_trans (le_of_lt hlohi_a) (hclob k h)
    · intro k hk
      dsimp only at hk
      rw [hkeys] at hk
      rcases List.mem_append.1 hk with h | h
      · exact lt_trans (hahib k h) hlohi_c
      · rcases List.mem_cons.1 h with h | h
        · rw [h]
          exact hlohi_c
        · exact hchib k h
    · intro h
      rw [haty] at h
      cases h
    · dsimp only
      rw [hkeys]
      simp only [List.length_append, List.length_cons]
      omega
    · dsimp only
      rw [hkeys]
      simp only [List.length_append, List.length_cons]
      omega
    · dsimp only
      rw [hkeys]
      simp only [List.length_append, List.length_cons]
      omega
    · intro x hx
      exact ⟨haty, List.mem_append.1 hx⟩
    · intro _ x hx
      exact List.mem_append_right _ hx
    · intro d1a hd1a _
      dsimp only
      rw [hkeys]
      refine ⟨by simp only [List.length_append, List.length_cons]; omega, ?_⟩
      intro idx x hx
      refine ⟨?_, Or.inr (List.getElem?_mem hx)⟩
      by_cases hidx : idx < ad.children.length
      · rw [List.getElem?_append_left hidx] at hx
        obtain ⟨dx, xd, hdx, hgx, hxd, hxpar, _⟩ := hI.child hga had haty hx
        simp only at hdx hgx
        have hdd : dx = d1a := by omega
        subst hdd
        rw [hgx, slot_lo_append_left _ _ _ _ (by omega)]
        by_cases hik : idx < ad.keys.length
        · rw [slot_hi_append_left _ _ _ (bnd pd.keys[j]) _ hik]
        · have hie : idx = ad.keys.length := by omega
          rw [hie, slot_hi_append_mid, slot_hi_ge (le_refl _)]
      · rw [List.getElem?_append_right (by omega)] at hx
        obtain ⟨dx, xd, hdx, hgx, hxd, hxpar, _⟩ := hI.child hgc hcd hcty hx
        simp only at hdx hgx
        have hdd : dx = d1a := by omega
        subst hdd
        have hxl := (List.getElem?_eq_some.1 hx).1
        have hie : idx = ad.keys.length + 1 + (idx - ad.children.length) := by omega
        rw [hgx]
        have e1 := slot_lo_append_right (slot_lo ip.lo pd.keys j) ad.keys cd.keys pd.keys[j]
          (idx - ad.children.length) (by omega)
        have e2 := slot_hi_append_right ad.keys cd.keys pd.keys[j]
          (slot_hi pd.keys ip.hi (j + 1)) (idx - ad.children.length)
        rw [← hie] at e1 e2
        rw [e1, e2]
    · intro _ x hx
      rcases hx with h | h
      · exact List.mem_append_left _ h
      · exact List.mem_append_right _ h
    · refine hI.leaf_level_below [a, c, p] (ad.children ++ cd.children) (some a) h1 _
        ?_ ?_ ?_ ?_
      · intro x hx xd hxd
        simp only [List.mem_cons, List.mem_singleton, List.not_mem_nil, or_false] at hx
        rcases hx with h | h | h
        · rw [h, had] at hxd
          cases hxd
          exact haty
        · rw [h, hcd] at hxd
          cases hxd
          exact hcty
        · rw [h, hpd] at hxd
          cases hxd
          exact hpty
      · intro x hx xd hxd
        simp only [List.mem_cons, List.mem_singleton, List.not_mem_nil, or_false] at hx
        rw [hget] at hxd
        rcases hx with h | h | h
        · simp only [h, hac, hap, if_false, if_true, Option.some.injEq] at hxd
          rw [← hxd]
          exact haty
        · simp only [h, if_true] at hxd
          cases hxd
        · simp only [h, hpc, if_false, if_true, Option.some.injEq] at hxd
          rw [← hxd]
          exact hpty
      · intro x hx
        simp only [List.mem_cons, List.mem_singleton, List.not_mem_nil, or_false, not_or] at hx
        rw [hget]
        simp only [hx.1, hx.2.1, hx.2.2, if_false]
      · intro x hx
        simp only [List.mem_cons, List.mem_singleton, List.not_mem_nil, or_false, not_or] at hx
        exact merge_ghost_other g _ _ _ hx.1 hx.2.1
  · rw [merge_ghost_other g _ _ _ hpa hpc]
    exact hgp
  · rw [hget]
    simp [hpc]

end del15

end BPlus

namespace BPlus

section del16
variable {K V : Type} [LinearOrder K]

/-- The underfull inner node `n` is appended to its left neighbour and freed;
the repair continues with the parent. -/
theorem InvX.inner_merge_left_ok (chk : bptree K V → Nat → Option (bptree K V))
    {t : bptree K V} {g : Nat → Option (Info K)} {L : List Nat}
    {kv : List (K × V)} {n : Nat} (hI : InvX t g L kv (some n) 1 0)
    {i ip : Info K} {nd pd : bpnode K V} {p j0 : Nat}
    (hgn : g n = some i) (hty : nd.type = bpnode_type.NODE_INNER)
    (c : SibCtx t.heap n p (j0 + 1) nd pd) (hgp : g p = some ip) (hht : ip.ht = i.ht + 1)
    (hunder : nd.keys.length < (t.m - 1) / 2)
    {s : Nat} {sd : bpnode K V} (hs : pd.children[j0]? = some s)
    (hsd : heap_get t.heap s = some sd)
    {rc : Int} (hrc : node_count t.heap (right_of pd (j0 + 1)) = some rc)
    (hcond : ¬ (min_limits t.m < sd.num_keys ∨ min_limits t.m < rc))
    (hlt : rc < sd.num_keys) :
    ∃ h1 g1 pd1, inner_repair chk t n = chk { t with heap := h1 } p ∧
      h1.length = t.heap.length ∧ InvX { t with heap := h1 } g1 L kv (some p) 1 0 ∧
      g1 p = some ip ∧ heap_get h1 p = some pd1 ∧ pd1.type = bpnode_type.NODE_INNER ∧
      pd1.parent = pd.parent := by
  have he : ∀ x, (some n : Option Nat) = some x → x = n := fun x h => by cases h; rfl
  obtain ⟨sd0, q0, hgs, hsty, hsn, hsp, hspar, hsnk, so1, so2, so3, oks⟩ :=
    hI.sibling hgn c hgp hht he hs (by omega)
  rw [hsd] at q0
  cases q0
  have hsty2 : sd.type = bpnode_type.NODE_INNER := hsty.trans hty
  have hm3 := hI.m3
  have hslen : sd.keys.length ≤ (t.m - 1) / 2 := by
    rw [min_limits_cast, hsnk] at hcond
    omega
  have hjl := (List.getElem?_eq_some.1 c.hi).1
  have hpl := c.hl
  have hjk : j0 < pd.keys.length := by omega
  obtain ⟨hlof, hlc⟩ := (left_count t.heap pd (j0 + 1)).2 s sd (by omega)
    (by simpa using hs) hsd
  have hG : ∀ x ∈ sd.children ++ nd.children,
      (∃ xd, heap_get t.heap x = some xd) ∧ x ≠ p ∧ ∀ y ∈ pd.children, x ≠ y := by
    intro x hx
    rcases List.mem_append.1 hx with h | h
    · obtain ⟨⟨xd, r1, _⟩, r2, r3⟩ := hI.grandchild hgp c.hp c.hpt hs hsd hsty2 h
      exact ⟨⟨xd, r1⟩, r2, r3⟩
    · obtain ⟨⟨xd, r1, _⟩, r2, r3⟩ := hI.grandchild hgp c.hp c.hpt c.hi c.hn hty h
      exact ⟨⟨xd, r1⟩, r2, r3⟩
  obtain ⟨h1, hrun, hlen, hget⟩ := inner_repair_merge_left chk c hlof hsd hsty2 hsn hsp
    hrc hcond hlt (show pd.keys[j0 + 1 - 1]? = some pd.keys[j0] by simpa using List.getElem?_eq_getElem hjk)
    (fun x hx => (hG x hx).1)
    (fun hm => (hG n hm).2.2 n c.mem_children rfl)
    (fun hm => (hG s hm).2.2 s (List.getElem?_mem hs) rfl)
    (fun hm => (hG p hm).2.1 rfl)
  simp only [Nat.add_sub_cancel] at hget
  obtain ⟨g1, pd1, r1, r2, r3, r4, r5⟩ := hI.inner_merge_ok hgp c.hp c.hpt hs c.hi
    (fun x hx => Or.inr (he x hx)) hsd c.hn hsty2 hty (by omega) (by omega)
    (List.getElem?_eq_getElem hjk) h1 hlen hget
  exact ⟨h1, g1, pd1, hrun, hlen, r1, r2, r3, r4, r5⟩

/-- The right neighbour of the underfull inner node `n` is appended to `n`
and freed; the repair continues with the parent. -/
theorem InvX.inner_merge_right_ok (chk : bptree K V → Nat → Option (bptree K V))
    {t : bptree K V} {g : Nat → Option (Info K)} {L : List Nat}
    {kv : List (K × V)} {n : Nat} (hI : InvX t g L kv (some n) 1 0)
    {i ip : Info K} {nd pd : bpnode K V} {p j : Nat}
    (hgn : g n = some i) (hty : nd.type = bpnode_type.NODE_INNER)
    (c : SibCtx t.heap n p j nd pd) (hgp : g p = some ip) (hht : ip.ht = i.ht + 1)
    (hunder : nd.keys.length < (t.m - 1) / 2)
    {s : Nat} {sd : bpnode K V} (hs : pd.children[j + 1]? = some s)
    (hsd : heap_get t.heap s = some sd)
    {lc : Int} (hlc : node_count t.heap (left_of pd j) = some lc)
    (hcond : ¬ (min_limits t.m < lc ∨ min_limits t.m < sd.num_keys))
    (hle : ¬ sd.num_keys < lc) :
    ∃ h1 g1 pd1, inner_repair chk t n = chk { t with heap := h1 } p ∧
      h1.length = t.heap.length ∧ InvX { t with heap := h1 } g1 L kv (some p) 1 0 ∧
      g1 p = some ip ∧ heap_get h1 p = some pd1 ∧ pd1.type = bpnode_type.NODE_INNER ∧
      pd1.parent = pd.parent := by
  have he : ∀ x, (some n : Option Nat) = some x → x = n := fun x h => by cases h; rfl
  obtain ⟨sd0, q0, hgs, hsty, hsn, hsp, hspar, hsnk, so1, so2, so3, oks⟩ :=
    hI.sibling hgn c hgp hht he hs (by omega)
  rw [hsd] at q0
  cases q0
  have hsty2 : sd.type = bpnode_type.NODE_INNER := hsty.trans hty
  have hm3 := hI.m3
  have hslen : sd.keys.length ≤ (t.m - 1) / 2 := by
    rw [min_limits_cast, hsnk] at hcond
    omega
  have hjl := (List.getElem?_eq_some.1 hs).1
  have hpl := c.hl
  have hjk : j < pd.keys.length := by omega
  obtain ⟨hrof, hrc⟩ := (right_count t.heap pd j).2 s sd (by omega) hs hsd
  have hG : ∀ x ∈ nd.children ++ sd.children,
      (∃ xd, heap_get t.heap x = some xd) ∧ x ≠ p ∧ ∀ y ∈ pd.children, x ≠ y := by
    intro x hx
    rcases List.mem_append.1 hx with h | h
    · obtain ⟨⟨xd, r1, _⟩, r2, r3⟩ := hI.grandchild hgp c.hp c.hpt c.hi c.hn hty h
      exact ⟨⟨xd, r1⟩, r2, r3⟩
    · obtain ⟨⟨xd, r1, _⟩, r2, r3⟩ := hI.grandchild hgp c.hp c.hpt hs hsd hsty2 h
      exact ⟨⟨xd, r1⟩, r2, r3⟩
  have hnodup := hI.children_nodup hgp c.hp c.hpt
  have cs : SibCtx t.heap s p (j + 1) sd pd :=
    ⟨hsd, hspar, c.hp, c.hpt, c.hk, c.hl, hs, index_of_eq_of_getElem? hnodup hs, hsp⟩
  obtain ⟨h1, hrun, hlen, hget⟩ := inner_repair_merge_right chk c cs hrof hsty2 hsn
    hlc hcond hle (List.getElem?_eq_getElem hjk)
    (fun x hx => (hG x hx).1)
    (fun hm => (hG n hm).2.2 n c.mem_children rfl)
    (fun hm => (hG s hm).2.2 s (List.getElem?_mem hs) rfl)
    (fun hm => (hG p hm).2.1 rfl)
  obtain ⟨nd0, q0, okn⟩ := hI.nodes n _ hgn
  rw [c.hn] at q0
  cases q0
  have hnroot : some n ≠ t.root := by
    intro hr
    have := okn.uproot hr
    rw [c.hpar] at this
    cases this
  have no2 := okn.occ_lo hnroot
  simp only [if_true] at no2
  obtain ⟨g1, pd1, r1, r2, r3, r4, r5⟩ := hI.inner_merge_ok hgp c.hp c.hpt c.hi hs
    (fun x hx => Or.inl (he x hx)) c.hn hsd hty hsty2 (by omega) (by omega)
    (List.getElem?_eq_getElem hjk) h1 hlen hget
  exact ⟨h1, g1, pd1, hrun, hlen, r1, r2, r3, r4, r5⟩

end del16

end BPlus

namespace BPlus

section del17
variable {K V : Type} [LinearOrder K]

/-- An inner root that has lost its last key is replaced by its only child. -/
theorem InvX.root_collapse {t : bptree K V} {g : Nat → Option (Info K)} {L : List Nat}
    {kv : List (K × V)} {n : Nat} (hI : InvX t g L kv (some n) 1 0)
    {i : Info K} {nd : bpnode K V}
    (hgn : g n = some i) (hnd : heap_get t.heap n = some nd)
    (hty : nd.type = bpnode_type.NODE_INNER)
    (hpar : nd.parent = none) (hk0 : nd.keys.length = 0) :
    ∃ c0 cd g1, nd.children = [c0] ∧ heap_get t.heap c0 = some cd ∧ c0 ≠ n ∧
      t.root = some n ∧
      InvX { t with heap := heap_set t.heap c0 { cd with parent := none },
                    root := some c0, depth := t.depth - 1 } g1 L kv none 0 0 := by
  obtain ⟨nd0, q0, okn⟩ := hI.nodes n _ hgn
  rw [hnd] at q0
  cases q0
  have hroot : t.root = some n := by
    by_contra hr
    obtain ⟨p0, ip, pd, j, u1, _⟩ := hI.parent hgn hnd (fun h => hr h.symm)
    rw [hpar] at u1
    cases u1
  obtain ⟨D, hgD, hD⟩ := hI.root_some n hroot
  rw [hgn] at hgD
  obtain ⟨d, hd, hch⟩ := okn.down hty
  have hcl := hch.length
  rw [hk0] at hcl
  obtain ⟨c0, hc0⟩ : ∃ c0, nd.children = [c0] := by
    match hcs : nd.children, hcl with
    | [c0], _ => exact ⟨c0, rfl⟩
  have hc0g : nd.children[0]? = some c0 := by rw [hc0]; rfl
  obtain ⟨hgc, cd, hcd, hcpar⟩ := hch.get hc0g
  have hkn : nd.keys = [] := List.length_eq_zero.1 hk0
  have hiD := Option.some.inj hgD
  rw [hkn, hiD] at hgc
  simp only [slot_lo_zero] at hgc
  rw [slot_hi_ge (by simp)] at hgc
  have hiht : i.ht = D := by rw [hiD]
  have hc0n : c0 ≠ n := by
    intro h
    rw [h, hgn] at hgc
    have := congrArg Info.ht (Option.some.inj hgc)
    simp only at this
    omega
  obtain ⟨cd0, q0, okc⟩ := hI.nodes c0 _ hgc
  rw [hcd] at q0
  cases q0
  have hcl0 := heap_get_lt hcd
  have hget : ∀ x, heap_get (heap_set t.heap c0 { cd with parent := none }) x =
      if x = c0 then some { cd with parent := none } else heap_get t.heap x := by
    intro x
    rw [heap_get_set]
    by_cases h : x = c0
    · simp [h, hcl0]
    · simp [h, Ne.symm h]
  have hg1 : ∀ x, x ≠ n → (fun y => if y = n then none else g y) x = g x := by
    intro x hx
    simp [hx]
  refine ⟨c0, cd, fun y => if y = n then none else g y, hc0, hcd, hc0n, hroot, ?_⟩
  have hLL : LeafLevel (heap_set t.heap c0 { cd with parent := none })
      (fun y => if y = n then none else g y) L kv := by
    refine hI.leaf_level_below [n] [c0] none _ _ ?_ ?_ ?_ ?_
    · intro x hx xd hxd
      simp only [List.mem_singleton] at hx
      rw [hx, hnd] at hxd
      cases hxd
      exact hty
    · intro x hx xd hxd
      simp only [List.mem_singleton] at hx
      rw [hx, hget, if_neg (Ne.symm hc0n), hnd] at hxd
      cases hxd
      exact hty
    · intro x hx
      simp only [List.mem_singleton] at hx
      rw [hget]
      by_cases h : x = c0
      · simp only [h, if_true, hcd, List.mem_singleton, Option.map_some']
      · simp only [h, if_false, List.mem_singleton]
        cases heap_get t.heap x <;> rfl
    · intro x hx
      simp only [List.mem_singleton] at hx
      exact hg1 x hx
  refine ⟨hI.m3, hI.m16, ?_, ?_, ?_, ?_, hLL.chain, hLL.last, hLL.leaves, hLL.kv_eq⟩
  · refine hI.rebuild _ _ (some c0) none 0 0 (fun x => x = n ∨ x = c0) ?_ ?_ ?_ ?_ ?_ ?_
    · intro a ha
      simp only [not_or] at ha
      exact ⟨by rw [hget, if_neg ha.2], hg1 a ha.1⟩
    · intro c cd1 hD _ hcd1
      right
      rcases hD with h | h
      · intro p hp
        rw [h, hnd] at hcd1
        cases hcd1
        rw [hpar] at hp
        cases hp
      · intro p hp
        rw [h, hcd] at hcd1
        cases hcd1
        rw [hcpar] at hp
        cases hp
        exact Or.inl rfl
    · intro p pd hD _ hpd hpty a ha hDa
      simp only [not_or] at hDa
      rcases hD with h | h
      · rw [h, hnd] at hpd
        cases hpd
        rw [hc0] at ha
        simp only [List.mem_singleton] at ha
        exact absurd ha hDa.2
      · rw [h, hcd] at hpd
        have e := Option.some.inj hpd
        rw [← e] at hpty ha
        refine ⟨(⟨d, ⊥, ⊤⟩ : Info K), { cd with parent := none }, ?_, ?_, hpty, ha⟩
        · rw [h]
          simp only [hc0n, if_false]
          exact hgc
        · rw [h, hget, if_pos rfl]
    · intro a ha
      simp only [not_or] at ha
      rw [hroot]
      constructor
      · intro h
        exact absurd (Option.some.inj h) ha.2
      · intro h
        exact absurd (Option.some.inj h) ha.1
    · intro a ha h
      simp only [not_or] at ha
      exact ha.1 (Option.some.inj h).symm
    · intro a ia hD hga
      rcases hD with h | h
      · rw [h] at hga
        simp at hga
      · subst h
        simp only [hc0n, if_false] at hga
        rw [hgc] at hga
        cases hga
        refine ⟨{ cd with parent := none }, by rw [hget, if_pos rfl], ?_⟩
        have o1 := okc.occ_hi
        have o3 := okc.occ_in
        have hne : ¬ ((some n : Option Nat) = some a) := fun h => hc0n (Option.some.inj h).symm
        simp only [hne, if_false] at o1 o3
        refine ⟨okc.nk, okc.lohi, okc.sorted, okc.lob, okc.hib, okc.kind, okc.leaf, ?_, ?_,
          fun _ => rfl, by simpa using o1, ?_, by simpa using o3⟩
        · intro ht
          obtain ⟨d2, hd2, hc2⟩ := okc.down ht
          refine ⟨d2, hd2, hc2.frame_children ?_⟩
          intro c lo1 hi1 hcm hco
          obtain ⟨r1, xd, r2, r3⟩ := hco
          have hcn : c ≠ n := by
            intro h
            rw [h, hnd] at r2
            cases r2
            rw [hpar] at r3
            cases r3
          have hca : c ≠ a := by
            intro h
            rw [h, hcd] at r2
            cases r2
            rw [hcpar] at r3
            cases r3
            exact hc0n rfl
          exact ⟨by simp only [hcn, if_false]; exact r1, xd, by rw [hget, if_neg hca]; exact r2,
            r3⟩
        · intro h
          exact absurd rfl h
        · intro h
          exact absurd rfl h
  · intro h
    cases h
  · intro r hr
    simp only [Option.some.injEq] at hr
    subst hr
    refine ⟨d, by simp only [hc0n, if_false]; exact hgc, ?_⟩
    simp only
    rw [hD]
    omega
  · have := hI.depth_le
    simp only [heap_set, List.length_set]
    omega

end del17

end BPlus

namespace BPlus

section del18
variable {K V : Type} [LinearOrder K]

/-- The neighbours of child number `j` and their key counts as read by the
repair procedures. -/
theorem InvX.census {t : bptree K V} {g : Nat → Option (Info K)} {L : List Nat}
    {kv : List (K × V)} {n : Nat} (hI : InvX t g L kv (some n) 1 0)
    {i ip : Info K} {nd pd : bpnode K V} {p j : Nat}
    (hgn : g n = some i)
    (c : SibCtx t.heap n p j nd pd) (hgp : g p = some ip) (hht : ip.ht = i.ht + 1) :
    ∃ lc rc : Int, node_count t.heap (left_of pd j) = some lc ∧
      node_count t.heap (right_of pd j) = some rc ∧ 0 ≤ lc ∧ 0 ≤ rc ∧
      (j = 0 → lc = 0) ∧ (j = pd.keys.length → rc = 0) ∧
      (∀ j0, j = j0 + 1 → ∃ s sd, pd.children[j0]? = some s ∧ heap_get t.heap s = some sd ∧
        lc = sd.num_keys ∧ 1 ≤ lc) ∧
      (j < pd.keys.length → ∃ s sd, pd.children[j + 1]? = some s ∧
        heap_get t.heap s = some sd ∧ rc = sd.num_keys ∧ 1 ≤ rc) := by
  have he : ∀ x, (some n : Option Nat) = some x → x = n := fun x h => by cases h; rfl
  have hjl := (List.getElem?_eq_some.1 c.hi).1
  have hpl := c.hl
  have hL : ∃ lc : Int, node_count t.heap (left_of pd j) = some lc ∧ 0 ≤ lc ∧
      (j = 0 → lc = 0) ∧
      (∀ j0, j = j0 + 1 → ∃ s sd, pd.children[j0]? = some s ∧ heap_get t.heap s = some sd ∧
        lc = sd.num_keys ∧ 1 ≤ lc) := by
    by_cases hj0 : j = 0
    · exact ⟨0, (left_count t.heap pd j).1 hj0, le_refl _, fun _ => rfl,
        fun j0 h => by omega⟩
    · obtain ⟨j0, hj⟩ : ∃ j0, j = j0 + 1 := ⟨j - 1, by omega⟩
      subst hj
      have hl1 : j0 < pd.children.length := by omega
      have hs := List.getElem?_eq_getElem hl1
      obtain ⟨sd, hsd, _, _, _, _, _, hsnk, _, _, so3, _⟩ :=
        hI.sibling hgn c hgp hht he hs (by omega)
      obtain ⟨_, hc⟩ := (left_count t.heap pd (j0 + 1)).2 _ sd (by omega)
        (by simpa using hs) hsd
      refine ⟨sd.num_keys, hc, by rw [hsnk]; omega, fun h => absurd h hj0, ?_⟩
      intro j1 hj1
      have hjj : j0 = j1 := by omega
      subst hjj
      exact ⟨_, sd, hs, hsd, rfl, by rw [hsnk]; omega⟩
  have hR : ∃ rc : Int, node_count t.heap (right_of pd j) = some rc ∧ 0 ≤ rc ∧
      (j = pd.keys.length → rc = 0) ∧
      (j < pd.keys.length → ∃ s sd, pd.children[j + 1]? = some s ∧
        heap_get t.heap s = some sd ∧ rc = sd.num_keys ∧ 1 ≤ rc) := by
    by_cases hj0 : j = pd.keys.length
    · exact ⟨0, (right_count t.heap pd j).1 hj0, le_refl _, fun _ => rfl,
        fun h => by omega⟩
    · have hl1 : j + 1 < pd.children.length := by omega
      have hs := List.getElem?_eq_getElem hl1
      obtain ⟨sd, hsd, _, _, _, _, _, hsnk, _, _, so3, _⟩ :=
        hI.sibling hgn c hgp hht he hs (by omega)
      obtain ⟨_, hc⟩ := (right_count t.heap pd j).2 _ sd hj0 hs hsd
      exact ⟨sd.num_keys, hc, by rw [hsnk]; omega, fun h => absurd h hj0,
        fun _ => ⟨_, sd, hs, hsd, rfl, by rw [hsnk]; omega⟩⟩
  obtain ⟨lc, l1, l2, l3, l4⟩ := hL
  obtain ⟨rc, r1, r2, r3, r4⟩ := hR
  exact ⟨lc, rc, l1, r1, l2, r2, l3, r3, l4, r4⟩

/-- The repair of an underfull non-root inner node either ends with a borrow
or merges and goes on with the parent. -/
theorem InvX.inner_repair_ok (chk : bptree K V → Nat → Option (bptree K V))
    {t : bptree K V} {g : Nat → Option (Info K)} {L : List Nat}
    {kv : List (K × V)} {n : Nat} (hI : InvX t g L kv (some n) 1 0)
    {i : Info K} {nd : bpnode K V} {p : Nat}
    (hgn : g n = some i) (hnd : heap_get t.heap n = some nd)
    (hty : nd.type = bpnode_type.NODE_INNER) (hpar : nd.parent = some p)
    (hunder : nd.keys.length < (t.m - 1) / 2) :
    (∃ h1 g1, inner_repair chk t n = some { t with heap := h1 } ∧
      h1.length = t.heap.length ∧ InvX { t with heap := h1 } g1 L kv none 0 0) ∨
    (∃ h1 g1 ip pd1, inner_repair chk t n = chk { t with heap := h1 } p ∧
      h1.length = t.heap.length ∧ InvX { t with heap := h1 } g1 L kv (some p) 1 0 ∧
      g1 p = some ip ∧ ip.ht = i.ht + 1 ∧ heap_get h1 p = some pd1 ∧
      pd1.type = bpnode_type.NODE_INNER) := by
  have he : ∀ x, (some n : Option Nat) = some x → x = n := fun x h => by cases h; rfl
  obtain ⟨ip, pd, j, c, hgp, hht, _, _, hjk, hk1⟩ := hI.sib_ctx hgn hnd hpar he
  obtain ⟨lc, rc, hlc, hrc, hlc0, hrc0, hl0, hr0, hleft, hright⟩ := hI.census hgn c hgp hht
  have hml : 0 ≤ min_limits t.m := by rw [min_limits_cast]; omega
  by_cases hcond : min_limits t.m < lc ∨ min_limits t.m < rc
  · left
    by_cases hle : lc ≤ rc
    · have hjlt : j < pd.keys.length := by
        by_contra hc
        have := hr0 (by omega)
        omega
      obtain ⟨s, sd, hs, hsd, hrs, _⟩ := hright hjlt
      subst hrs
      exact hI.inner_borrow_right_ok chk hgn hty c hgp hht hunder hs hsd hlc hcond hle
    · have hj0 : j ≠ 0 := by
        intro hc
        have := hl0 hc
        omega
      obtain ⟨j0, hj⟩ : ∃ j0, j = j0 + 1 := ⟨j - 1, by omega⟩
      obtain ⟨s, sd, hs, hsd, hls, _⟩ := hleft j0 hj
      subst hls
      subst hj
      exact hI.inner_borrow_left_ok chk hgn hty c hgp hht hunder hs hsd hrc hrc0 hcond
        (by omega)
  · right
    by_cases hlt : rc < lc
    · have hj0 : j ≠ 0 := by
        intro hc
        have := hl0 hc
        omega
      obtain ⟨j0, hj⟩ : ∃ j0, j = j0 + 1 := ⟨j - 1, by omega⟩
      obtain ⟨s, sd, hs, hsd, hls, _⟩ := hleft j0 hj
      subst hls
      subst hj
      obtain ⟨h1, g1, pd1, r1, r2, r3, r4, r5, r6, _⟩ :=
        hI.inner_merge_left_ok chk hgn hty c hgp hht hunder hs hsd hrc hcond hlt
      exact ⟨h1, g1, ip, pd1, r1, r2, r3, r4, hht, r5, r6⟩
    · have hjlt : j < pd.keys.length := by
        by_contra hc
        have h0 := hr0 (by omega)
        obtain ⟨j0, hj⟩ : ∃ j0, j = j0 + 1 := ⟨j - 1, by omega⟩
        obtain ⟨s, sd, hs, hsd, hls, h1⟩ := hleft j0 hj
        omega
      obtain ⟨s, sd, hs, hsd, hrs, _⟩ := hright hjlt
      subst hrs
      obtain ⟨h1, g1, pd1, r1, r2, r3, r4, r5, r6, _⟩ :=
        hI.inner_merge_right_ok chk hgn hty c hgp hht hunder hs hsd hlc hcond hlt
      exact ⟨h1, g1, ip, pd1, r1, r2, r3, r4, hht, r5, r6⟩

/-- The repair of an underfull non-root leaf either ends with a borrow or
merges and goes on with the parent. -/
theorem InvX.leaf_repair_ok
    {t : bptree K V} {g : Nat → Option (Info K)} {L : List Nat}
    {kv : List (K × V)} {n : Nat} (hI : InvX t g L kv (some n) 1 0)
    {i ip : Info K} {nd pd : bpnode K V} {p j : Nat}
    (hgn : g n = some i) (hty : nd.type = bpnode_type.NODE_LEAF)
    (c : SibCtx t.heap n p j nd pd) (hgp : g p = some ip) (hht : ip.ht = i.ht + 1)
    (hunder : nd.keys.length < (t.m - 1) / 2) :
    (∃ h1 g1, leaf_repair t n p j = some { t with heap := h1 } ∧
      h1.length = t.heap.length ∧ InvX { t with heap := h1 } g1 L kv none 0 0) ∨
    (∃ h1 g1 L1 pd1, leaf_repair t n p j =
        check_inner_node_size (t.heap.length + 1) { t with heap := h1 } p ∧
      h1.length = t.heap.length ∧ InvX { t with heap := h1 } g1 L1 kv (some p) 1 0 ∧
      g1 p = some ip ∧ heap_get h1 p = some pd1 ∧
      pd1.type = bpnode_type.NODE_INNER) := by
  obtain ⟨lc, rc, hlc, hrc, hlc0, hrc0, hl0, hr0, hleft, hright⟩ := hI.census hgn c hgp hht
  have hml : 0 ≤ min_limits t.m := by rw [min_limits_cast]; omega
  have hjk := c.lt
  by_cases hcond : min_limits t.m < lc ∨ min_limits t.m < rc
  · left
    by_cases hle : rc ≤ lc
    · have hj0 : j ≠ 0 := by
        intro hc
        have := hl0 hc
        omega
      obtain ⟨j0, hj⟩ : ∃ j0, j = j0 + 1 := ⟨j - 1, by omega⟩
      obtain ⟨s, sd, hs, hsd, hls, _⟩ := hleft j0 hj
      subst hls
      subst hj
      exact hI.leaf_borrow_left_ok hgn hty c hgp hht hunder hs hsd hrc hcond hle
    · have hjlt : j < pd.keys.length := by
        by_contra hc
        have := hr0 (by omega)
        omega
      obtain ⟨s, sd, hs, hsd, hrs, _⟩ := hright hjlt
      subst hrs
      exact hI.leaf_borrow_right_ok hgn hty c hgp hht hunder hs hsd hlc hlc0 hcond
        (by omega)
  · right
    by_cases hlt : rc < lc
    · have hj0 : j ≠ 0 := by
        intro hc
        have := hl0 hc
        omega
      obtain ⟨j0, hj⟩ : ∃ j0, j = j0 + 1 := ⟨j - 1, by omega⟩
      obtain ⟨s, sd, hs, hsd, hls, _⟩ := hleft j0 hj
      subst hls
      subst hj
      obtain ⟨h1, g1, L1, pd1, r1, r2, r3, r4, r5, r6, _⟩ :=
        hI.leaf_merge_left_ok hgn hty c hgp hht hunder hs hsd hrc hcond hlt
      exact ⟨h1, g1, L1, pd1, r1, r2, r3, r4, r5, r6⟩
    · have hk1 : 1 ≤ pd.keys.length := by
        have he : ∀ x, (some n : Option Nat) = some x → x = n := fun x h => by cases h; rfl
        obtain ⟨_, pd2, _, c2, _, _, _, _, _, h⟩ := hI.sib_ctx hgn c.hn c.hpar he
        have e := c2.hp
        rw [c.hp] at e
        rw [Option.some.inj e]
        exact h
      have hjlt : j < pd.keys.length := by
        by_contra hc
        have h0 := hr0 (by omega)
        obtain ⟨j0, hj⟩ : ∃ j0, j = j0 + 1 := ⟨j - 1, by omega⟩
        obtain ⟨s, sd, hs, hsd, hls, h1⟩ := hleft j0 hj
        omega
      obtain ⟨s, sd, hs, hsd, hrs, _⟩ := hright hjlt
      subst hrs
      obtain ⟨h1, g1, L1, pd1, r1, r2, r3, r4, r5, r6, _⟩ :=
        hI.leaf_merge_right_ok hgn hty c hgp hht hunder hs hsd hlc hcond hlt
      exact ⟨h1, g1, L1, pd1, r1, r2, r3, r4, r5, r6⟩

end del18

end BPlus

namespace BPlus

section del19
variable {K V : Type} [LinearOrder K]

theorem Shrink.same_tree (t : bptree K V) : Shrink t t :=
  ⟨rfl, rfl, rfl, Or.inl ⟨rfl, rfl⟩⟩

theorem Shrink.of_heap {t t1 : bptree K V} {h1 : List (Option (bpnode K V))}
    (hl : h1.length = t.heap.length) (hs : Shrink { t with heap := h1 } t1) : Shrink t t1 := by
  obtain ⟨s1, s2, s3, s4⟩ := hs
  refine ⟨s1, s2, by rw [s3]; exact hl, ?_⟩
  rcases s4 with s4 | ⟨s4, r, rd, c0, q1, q2⟩
  · exact Or.inl s4
  · exact Or.inr ⟨s4, r, rd, c0, q1, q2⟩

/-- The repair started at an underfull inner node `n` terminates, provided the
fuel covers the levels above `n`, and re-establishes the invariant. -/
theorem InvX.check_inner_ok (L : List Nat) (kv : List (K × V)) :
    ∀ (fuel : Nat) (t : bptree K V) (g : Nat → Option (Info K)) (n : Nat) (i : Info K)
      (nd : bpnode K V),
      InvX t g L kv (some n) 1 0 → g n = some i → heap_get t.heap n = some nd →
      nd.type = bpnode_type.NODE_INNER → t.depth + 1 ≤ (fuel : Int) + i.ht →
      ∃ t1 g1, check_inner_node_size fuel t n = some t1 ∧ InvX t1 g1 L kv none 0 0 ∧
        Shrink t t1 := by
  intro fuel
  induction fuel with
  | zero =>
    intro t g n i nd hI hgn hnd hty hfuel
    have := hI.ht_le hgn
    simp only [Nat.cast_zero] at hfuel
    omega
  | succ f ih =>
    intro t g n i nd hI hgn hnd hty hfuel
    obtain ⟨nd0, q0, okn⟩ := hI.nodes n _ hgn
    rw [hnd] at q0
    cases q0
    have o1 := okn.occ_hi
    have o2 := okn.occ_lo
    have o3 := okn.occ_in
    simp only [if_true] at o1 o2 o3
    have hm3 := hI.m3
    by_cases h1 : (((t.m - 1) / 2 : Nat) : Int) ≤ nd.num_keys
    · refine ⟨t, g, ?_, ?_, Shrink.same_tree t⟩
      · simp only [check_inner_node_size, hnd, h1, if_true]
      · refine hI.relax ?_
        intro i2 nd2 _ hnd2
        rw [hnd] at hnd2
        cases hnd2
        rw [okn.nk] at h1
        exact ⟨by omega, fun _ => by omega, by omega⟩
    · by_cases h2 : nd.num_keys = 0 ∧ nd.parent = none
      · obtain ⟨c0, cd, g1, hc0, hcd, hc0n, hroot, hI1⟩ :=
          hI.root_collapse hgn hnd hty h2.2 (by
            have := h2.1
            rw [okn.nk] at this
            omega)
        refine ⟨_, g1, ?_, hI1, rfl, rfl, by simp [heap_set], Or.inr ⟨rfl, n, nd, c0, hroot, ?_,
          hty, h2.1, ?_, hc0, rfl⟩⟩
        · simp only [check_inner_node_size, hnd]
          rw [if_neg h1, if_pos h2]
          simp only [hc0, List.getElem?_cons_zero, hcd]
        · simp only
          rw [heap_get_set_ne _ hc0n, hnd]
        · have := h2.1
          rw [okn.nk] at this
          exact List.length_eq_zero.1 (by omega)
      · by_cases h3 : nd.parent = none
        · refine ⟨t, g, ?_, ?_, Shrink.same_tree t⟩
          · simp only [check_inner_node_size, hnd]
            rw [if_neg h1, if_neg h2, if_pos h3]
          · refine hI.relax ?_
            intro i2 nd2 _ hnd2
            rw [hnd] at hnd2
            cases hnd2
            have hroot : t.root = some n := by
              by_contra hr
              obtain ⟨p0, ip, pd, j, u1, _⟩ := hI.parent hgn hnd (fun h => hr h.symm)
              rw [h3] at u1
              cases u1
            have hk : nd.num_keys ≠ 0 := fun h => h2 ⟨h, h3⟩
            rw [okn.nk] at hk
            exact ⟨by omega, fun h => absurd hroot.symm h, by omega⟩
        · obtain ⟨p, hp⟩ := Option.ne_none_iff_exists'.1 h3
          have hrun : check_inner_node_size (f + 1) t n =
              inner_repair (check_inner_node_size f) t n := by
            simp only [check_inner_node_size, hnd]
            rw [if_neg h1, if_neg h2, if_neg h3]
          rw [hrun]
          have hunder : nd.keys.length < (t.m - 1) / 2 := by
            rw [okn.nk] at h1
            omega
          rcases hI.inner_repair_ok (check_inner_node_size f) hgn hnd hty hp hunder with
            ⟨h1, g1, r1, r2, r3⟩ | ⟨h1, g1, ip, pd1, r1, r2, r3, r4, r5, r6, r7⟩
          · exact ⟨_, g1, r1, r3, rfl, rfl, r2, Or.inl ⟨rfl, rfl⟩⟩
          · rw [r1]
            obtain ⟨t1, g2, q1, q2, q3⟩ := ih { t with heap := h1 } g1 p ip pd1 r3 r4 r6 r7
              (by
                simp only
                push_cast at hfuel
                omega)
            exact ⟨t1, g2, q1, q2, Shrink.of_heap r2 q3⟩

end del19

end BPlus

namespace BPlus

section del20
variable {K V : Type} [LinearOrder K]

/-- What `remove_leaf_key` does after the key has been taken out of the leaf:
`nd1` is the leaf without the key and `h1` the heap holding it. -/
theorem remove_leaf_key_eq {t : bptree K V} {n : Nat} {nd : bpnode K V} {key : K}
    (hnd : heap_get t.heap n = some nd) (hk : key ∈ nd.keys)
    (hvl : nd.values.length = nd.keys.length)
    (nd1 : bpnode K V) (h1 : List (Option (bpnode K V)))
    (hnd1 : nd1 = { nd with keys := nd.keys.eraseIdx (index_of key nd.keys),
                            values := nd.values.eraseIdx (index_of key nd.keys),
                            num_keys := wrap16 (nd.num_keys - 1) })
    (hh1 : h1 = heap_set t.heap n nd1) :
    remove_leaf_key t n key =
      match dyn_inner h1 nd.parent with
      | none => none
      | some none => some { t with heap := h1 }
      | some (some p) =>
      match heap_get h1 p with
      | none => none
      | some pd =>
      match child_index pd n with
      | none => none
      | some i =>
      if min_limits t.m ≤ nd1.num_keys then
        if 0 < i then
          match nd1.keys[0]? with
          | none => none
          | some k0 =>
            match set_at pd.keys (i - 1) k0 with
            | none => none
            | some ks => some { t with heap := heap_set h1 p { pd with keys := ks } }
        else some { t with heap := h1 }
      else leaf_repair { t with heap := h1 } n p i := by
  have hpos : index_of key nd.keys < nd.keys.length := (index_of_lt_iff key nd.keys).2 hk
  have hc : ¬ (nd.keys.length ≤ index_of key nd.keys ∨
      nd.values.length ≤ index_of key nd.keys) := by omega
  subst hh1
  subst hnd1
  simp only [remove_leaf_key, hnd]
  rw [if_neg hc]
  rfl

theorem Shrink.heap_only (t : bptree K V) {h1 : List (Option (bpnode K V))}
    (hl : h1.length = t.heap.length) : Shrink t { t with heap := h1 } :=
  ⟨rfl, rfl, hl, Or.inl ⟨rfl, rfl⟩⟩

/-- Removing a key from its leaf, with all the repairs this triggers, keeps
the invariant; the content loses exactly that key. -/
theorem InvX.remove_leaf_ok {t : bptree K V} {g : Nat → Option (Info K)} {L : List Nat}
    {kv : List (K × V)} (hI : InvX t g L kv none 0 0)
    {b : Nat} {ib : Info K} {nb : bpnode K V} (hb : g b = some ib)
    (hnb : heap_get t.heap b = some nb) (hty : nb.type = bpnode_type.NODE_LEAF)
    (hbL : b ∈ L) {key : K} (hk : key ∈ nb.keys)
    (hbig : nb.parent = none → 2 ≤ nb.keys.length) :
    ∃ t1 g1 L1, remove_leaf_key t b key = some t1 ∧
      InvX t1 g1 L1 (kv_erase key kv) none 0 0 ∧ Shrink t t1 := by
  obtain ⟨nb0, q0, okb⟩ := hI.nodes b ib hb
  rw [hnb] at q0
  cases q0
  have hvl := (okb.leaf hty).2
  have hpos : index_of key nb.keys < nb.keys.length := (index_of_lt_iff key nb.keys).2 hk
  have hm3 := hI.m3
  have hE := hI.erase_leaf hb hnb hty hbL hk
  have hrun := remove_leaf_key_eq (t := t) hnb hk hvl _ _ rfl rfl
  have hkl0 : (nb.keys.eraseIdx (index_of key nb.keys)).length = nb.keys.length - 1 :=
    List.length_eraseIdx_of_lt hpos
  generalize hnd1 :
    ({ nb with keys := nb.keys.eraseIdx (index_of key nb.keys),
               values := nb.values.eraseIdx (index_of key nb.keys),
               num_keys := wrap16 (nb.num_keys - 1) } : bpnode K V) = nd1 at hE hrun
  have hb1 : heap_get (heap_set t.heap b nd1) b = some nd1 := heap_get_set_eq _ hnb
  have hlen1 : (heap_set t.heap b nd1).length = t.heap.length := by simp [heap_set]
  generalize hh1 : heap_set t.heap b nd1 = h1 at hE hrun hb1 hlen1
  have htyp1 : nd1.type = bpnode_type.NODE_LEAF := by rw [← hnd1]; exact hty
  have hpar1 : nd1.parent = nb.parent := by rw [← hnd1]
  have hkl1 : nd1.keys.length = nb.keys.length - 1 := by rw [← hnd1]; exact hkl0
  obtain ⟨nd0, q0, okn1⟩ := hE.nodes b ib hb
  simp only at q0
  rw [hb1] at q0
  cases q0
  have o1 := okn1.occ_hi
  simp only [if_true] at o1
  have he : ∀ x, (some b : Option Nat) = some x → x = b := fun x h => by cases h; rfl
  rw [hrun]
  cases hpar : nb.parent with
  | none =>
    refine ⟨{ t with heap := h1 }, g, L, rfl, ?_, Shrink.heap_only t hlen1⟩
    refine hE.relax ?_
    intro i2 nd2 _ hnd2
    simp only at hnd2
    rw [hb1] at hnd2
    cases hnd2
    have := hbig hpar
    have hroot : t.root = some b := by
      by_contra hr
      obtain ⟨p0, ip, pd, j, u1, _⟩ := hI.parent hb hnb (fun h => hr h.symm)
      rw [hpar] at u1
      cases u1
    dsimp only
    exact ⟨by omega, fun h => absurd hroot.symm h, by omega⟩
  | some p =>
    rw [hpar] at hpar1
    obtain ⟨ip, pd, j, c, hgp, hht, hlo, hhi, hjk, hk1⟩ := hE.sib_ctx hb hb1 hpar1 he
    have chp : heap_get h1 p = some pd := c.hp
    simp only [dyn_inner_some chp c.hpt, chp, c.child_index]
    by_cases hh : min_limits t.m ≤ nd1.num_keys
    · rw [if_pos hh]
      rw [min_limits_cast, okn1.nk] at hh
      by_cases hj : 0 < j
      · rw [if_pos hj]
        obtain ⟨j0, hj0⟩ : ∃ j0, j = j0 + 1 := ⟨j - 1, by omega⟩
        subst hj0
        have h0 : 0 < nd1.keys.length := by omega
        have hjl : j0 < pd.keys.length := by omega
        simp only [List.getElem?_eq_getElem h0, set_at, Nat.add_sub_cancel, if_pos hjl]
        have hcl : j0 < pd.children.length := by
          have := c.hl
          omega
        obtain ⟨da, ad, _, hga, had, _, _⟩ :=
          hE.child hgp chp c.hpt (List.getElem?_eq_getElem hcl)
        have hR := hE.refresh hgp chp c.hpt (List.getElem?_eq_getElem hcl) c.hi
          (fun x hx => Or.inl (he x hx)) none
          (Or.inr ⟨rfl, fun h => c.hnp (by cases h; rfl)⟩)
          had hb1 htyp1 (by dsimp only; omega) (by dsimp only; omega)
          (List.getElem?_eq_getElem h0)
        exact ⟨_, _, L, rfl, hR.no_exc 0 0, rfl, rfl, by simp [heap_set, hlen1],
          Or.inl ⟨rfl, rfl⟩⟩
      · rw [if_neg hj]
        refine ⟨{ t with heap := h1 }, g, L, rfl, ?_, Shrink.heap_only t hlen1⟩
        refine hE.relax ?_
        intro i2 nd2 _ hnd2
        simp only at hnd2
        rw [hb1] at hnd2
        cases hnd2
        dsimp only
        exact ⟨by omega, fun _ => by omega, by omega⟩
    · rw [if_neg hh]
      rw [min_limits_cast, okn1.nk] at hh
      rcases hE.leaf_repair_ok hb htyp1 c hgp hht (by dsimp only; omega) with
        ⟨h2, g2, r1, r2, r3⟩ | ⟨h2, g2, L2, pd2, r1, r2, r3, r4, r5, r6⟩
      · exact ⟨_, g2, L, r1, r3, rfl, rfl, by rw [r2]; exact hlen1, Or.inl ⟨rfl, rfl⟩⟩
      · rw [r1]
        obtain ⟨t1, g3, q1, q2, q3⟩ := InvX.check_inner_ok L2 (kv_erase key kv)
          (h1.length + 1) { t with heap := h2 } g2 p ip pd2 r3 r4 r5 r6
          (by
            have d1 := hI.depth_le
            dsimp only
            push_cast
            rw [hlen1]
            omega)
        exact ⟨t1, g3, L2, q1, q2, Shrink.of_heap (by rw [r2]; exact hlen1) q3⟩

end del20

end BPlus

namespace BPlus

section del21
variable {K V : Type} [LinearOrder K]

/-- Below every live node there is a leaf whose interval lies inside the
interval of the node. -/
theorem InvX.subtree_leaf {t : bptree K V} {g : Nat → Option (Info K)} {L : List Nat}
    {kv : List (K × V)} {e : Option Nat} {sl sh : Nat} (hI : InvX t g L kv e sl sh) :
    ∀ (d a : Nat) (i : Info K), g a = some i → i.ht = d →
      ∃ b ib, b ∈ L ∧ g b = some ib ∧ i.lo ≤ ib.lo ∧ ib.hi ≤ i.hi := by
  intro d
  induction d with
  | zero =>
    intro a i ha hd
    have := hI.ht_pos ha
    omega
  | succ d ih =>
    intro a i ha hd
    obtain ⟨nd, hnd, ok⟩ := hI.nodes a i ha
    rcases ok.kind with hty | hty
    · exact ⟨a, i, (hI.leaves a).2 ⟨i, nd, ha, hnd, hty⟩, ha, le_refl _, le_refl _⟩
    · obtain ⟨d1, hd1, hch⟩ := ok.down hty
      have hl := hch.length
      have h0 : 0 < nd.children.length := by omega
      obtain ⟨d2, cd, hd2, hgc, _, _, _⟩ := hI.child ha hnd hty (List.getElem?_eq_getElem h0)
      obtain ⟨b, ib, q1, q2, q3, q4⟩ := ih _ _ hgc (by simp only; omega)
      simp only [slot_lo_zero] at q3 q4
      exact ⟨b, ib, q1, q2, q3,
        le_trans q4 (slot_hi_le (fun k hk => le_of_lt (ok.hib k hk)) 0)⟩

theorem flatMap_length_ge_two {A B : Type} (f : A → List B) {l : List A} {a b : A}
    (ha : a ∈ l) (hb : b ∈ l) (hab : a ≠ b) (h1 : 1 ≤ (f a).length) (h2 : 1 ≤ (f b).length) :
    2 ≤ (l.flatMap f).length := by
  have hmem : ∀ (l2 : List A), b ∈ l2 → 1 ≤ (l2.flatMap f).length := by
    intro l2 hm
    obtain ⟨s, u, rfl⟩ := List.append_of_mem hm
    simp only [List.flatMap_append, List.flatMap_cons, List.length_append]
    omega
  obtain ⟨s, u, rfl⟩ := List.append_of_mem ha
  simp only [List.flatMap_append, List.flatMap_cons, List.length_append]
  rcases List.mem_append.1 hb with h | h
  · have := hmem s h
    omega
  · rcases List.mem_cons.1 h with h | h
    · exact absurd h.symm hab
    · have := hmem u h
      omega

/-- A tree whose root is an inner node holds at least two keys. -/
theorem InvX.inner_root_two {t : bptree K V} {g : Nat → Option (Info K)} {L : List Nat}
    {kv : List (K × V)} (hI : InvX t g L kv none 0 0) {r : Nat} {rd : bpnode K V}
    (hr : t.root = some r) (hrd : heap_get t.heap r = some rd)
    (hty : rd.type = bpnode_type.NODE_INNER) : 2 ≤ kv.length := by
  obtain ⟨D, hgr, hD⟩ := hI.root_some r hr
  obtain ⟨rd0, q0, okr⟩ := hI.nodes r _ hgr
  rw [hrd] at q0
  cases q0
  obtain ⟨d1, hd1, hch⟩ := okr.down hty
  have hl := hch.length
  have o3 := okr.occ_in
  simp only [reduceCtorEq, if_false, Nat.add_zero] at o3
  have h0 : 0 < rd.children.length := by omega
  have h1 : 1 < rd.children.length := by omega
  have hk0 : 0 < rd.keys.length := by omega
  obtain ⟨d2, cd0, hd2, hgc0, _, _, _⟩ := hI.child hgr hrd hty (List.getElem?_eq_getElem h0)
  obtain ⟨d3, cd1, hd3, hgc1, _, _, _⟩ := hI.child hgr hrd hty (List.getElem?_eq_getElem h1)
  obtain ⟨b0, ib0, p1, p2, p3, p4⟩ := hI.subtree_leaf _ _ _ hgc0 rfl
  obtain ⟨b1, ib1, q1, q2, q3, q4⟩ := hI.subtree_leaf _ _ _ hgc1 rfl
  simp only [slot_hi_lt (List.getElem?_eq_getElem hk0)] at p4
  have e1 : slot_lo (⊥ : Bound K) rd.keys (0 + 1) = bnd rd.keys[0] := slot_lo_succ _ _ _ hk0
  simp only [Nat.zero_add] at e1
  simp only [e1] at q3
  obtain ⟨_, nb0, r1, r2, r3, ok0⟩ := hI.leaf_info p1
  rw [p2] at r1
  cases r1
  obtain ⟨_, nb1, s1, s2, s3, ok1⟩ := hI.leaf_info q1
  rw [q2] at s1
  cases s1
  have hne : b0 ≠ b1 := by
    intro h
    rw [h, q2] at p2
    cases p2
    exact absurd (lt_of_lt_of_le ok1.lohi (le_trans p4 q3)) (lt_irrefl _)
  have hp0 : 1 ≤ (leaf_pairs t.heap b0).length := by
    have a1 := ok0.occ_in
    have a2 := (ok0.leaf r3).2
    simp only [reduceCtorEq, if_false, Nat.add_zero] at a1
    simp only [leaf_pairs, r2, List.length_zip]
    omega
  have hp1 : 1 ≤ (leaf_pairs t.heap b1).length := by
    have a1 := ok1.occ_in
    have a2 := (ok1.leaf s3).2
    simp only [reduceCtorEq, if_false, Nat.add_zero] at a1
    simp only [leaf_pairs, s2, List.length_zip]
    omega
  rw [hI.kv_eq]
  exact flatMap_length_ge_two _ p1 q1 hne hp0 hp1

end del21

end BPlus

namespace BPlus

section del22
variable {K V : Type} [LinearOrder K]

theorem kv_lookup_none_imp {k : K} :
    ∀ {l : List (K × V)}, kv_lookup k l = none → ∀ x ∈ l, x.1 ≠ k := by
  intro l
  induction l with
  | nil => intro _ x hx; simp at hx
  | cons y l ih =>
    obtain ⟨k1, v1⟩ := y
    intro h x hx
    simp only [kv_lookup] at h
    by_cases h1 : k1 = k
    · simp [h1] at h
    · simp only [h1, if_false] at h
      rcases List.mem_cons.1 hx with hx | hx
      · rw [hx]
        exact h1
      · exact ih h x hx

/-- The invariant of the empty tree. -/
theorem InvX.empty_tree (h : List (Option (bpnode K V))) (c : Int) (m : Nat) (h3 : 3 ≤ m)
    (h16 : m ≤ 32767) :
    InvX ({ heap := h, root := none, depth := 0, count := c, m := m } : bptree K V)
      (fun _ => none) [] [] none 0 0 := by
  refine ⟨h3, h16, ?_, ?_, ?_, ?_, ?_, ?_, ?_, ?_⟩
  · intro a i ha
    cases ha
  · intro _
    exact ⟨fun _ => rfl, rfl⟩
  · intro r hr
    cases hr
  · simp
  · exact List.chain'_nil
  · intro a ha
    simp at ha
  · intro a
    simp
  · rfl

/-- Every deletion from a well-formed tree succeeds and yields a well-formed
tree whose content is the old content without the key; the returned flag tells
whether the key was present; the depth stays or shrinks by one, and it shrinks
only when the last key goes or when the root has collapsed. -/
theorem Inv.delete_key_ok {t : bptree K V} {kv : List (K × V)} (hI : Inv t kv) (k : K) :
    ∃ t1, delete_key t k = some ((kv_lookup k kv).isSome, t1) ∧ Inv t1 (kv_erase k kv) ∧
      t1.m = t.m ∧ t1.heap.length = t.heap.length ∧
      (t1.depth = t.depth ∨
        (t1.depth = t.depth - 1 ∧ ((t.count = 1 ∧ t1.root = none) ∨ RootCollapse t t1))) := by
  obtain ⟨g, L, hX, hcount⟩ := hI
  have hsorted := hX.kv_sorted
  cases hr : t.root with
  | none =>
    have hg := (hX.root_none hr).1
    have hL : L = [] := by
      cases L with
      | nil => rfl
      | cons a L =>
        obtain ⟨i, _, q, _⟩ := (hX.leaves a).1 (by simp)
        rw [hg a] at q
        cases q
    have hkv : kv = [] := by
      rw [hX.kv_eq, hL]
      rfl
    subst hkv
    refine ⟨t, ?_, ⟨g, L, hX, hcount⟩, rfl, rfl, Or.inl rfl⟩
    simp only [delete_key, find_leaf, hr, kv_lookup, Option.isSome_none]
  | some r =>
    obtain ⟨b, ib, nb, hfind, hgb, hnb, hty, hlo, hhi, hbL, okb⟩ := hX.find_leaf_eq k hr
    have hlook := hX.lookup_leaf hgb hbL hlo hhi
    have hvl := (okb.leaf hty).2
    rw [show leaf_pairs t.heap b = nb.keys.zip nb.values by simp [leaf_pairs, hnb],
      kv_lookup_zip k nb.keys nb.values hvl] at hlook
    by_cases hk : k ∈ nb.keys
    · have hidx : index_of k nb.keys < nb.values.length := by
        rw [hvl]
        exact (index_of_lt_iff k nb.keys).2 hk
      simp only [if_pos hk] at hlook
      have hsome : (kv_lookup k kv).isSome = true := by
        rw [hlook, List.getElem?_eq_getElem hidx]
        rfl
      have hlen := kv_erase_length k kv hsorted
      rw [hsome, if_pos rfl] at hlen
      rw [hsome]
      by_cases hc1 : t.count = 1
      · -- the last key: the tree becomes empty
        obtain ⟨D, hgr, hD⟩ := hX.root_some r hr
        obtain ⟨rd, hrd, okr⟩ := hX.nodes r _ hgr
        have hrleaf : rd.type = bpnode_type.NODE_LEAF := by
          rcases okr.kind with h | h
          · exact h
          · have := hX.inner_root_two hr hrd h
            rw [hcount] at hc1
            omega
        have hD1 : D = 1 := (okr.leaf hrleaf).1
        have hkv0 : kv_erase k kv = [] := by
          apply List.eq_nil_of_length_eq_zero
          rw [hcount] at hc1
          omega
        rw [hkv0]
        refine ⟨{ t with heap := heap_free t.heap r, root := none, count := 0, depth := 0 },
          ?_, ⟨fun _ => none, [], InvX.empty_tree _ _ _ hX.m3 hX.m16, rfl⟩, rfl,
          by simp [heap_free], Or.inr ⟨by simp only [hD, hD1]; rfl, Or.inl ⟨hc1, rfl⟩⟩⟩
        simp only [delete_key, hfind, hk, if_true, hc1, hr, hrd]
      · have hbig : nb.parent = none → 2 ≤ nb.keys.length := by
          intro hpar
          have hroot : t.root = some b := by
            by_contra hr2
            obtain ⟨p0, ip, pd, j, u1, _⟩ := hX.parent hgb hnb (fun h => hr2 h.symm)
            rw [hpar] at u1
            cases u1
          have hL := hX.root_leaf_only hroot hnb hty
          have hkv := hX.kv_eq
          rw [hL] at hkv
          simp only [List.flatMap_cons, List.flatMap_nil, List.append_nil, leaf_pairs,
            hnb] at hkv
          have hl : kv.length = nb.keys.length := by
            rw [hkv, List.length_zip, hvl]
            simp
          have h1 : 1 ≤ nb.keys.length := List.length_pos_of_mem hk
          rw [hcount, hl] at hc1
          have : (nb.keys.length : Int) ≠ 1 := hc1
          omega
        obtain ⟨t1, g1, L1, hrun, hI1, S1, S2, S3, S4⟩ :=
          hX.remove_leaf_ok hgb hnb hty hbL hk hbig
        refine ⟨{ t1 with count := t1.count - 1 }, ?_, ⟨g1, L1, ?_, ?_⟩, S1, S3, ?_⟩
        · simp only [delete_key, hfind, hk, if_true, hc1, if_false, hrun]
        · exact ⟨hI1.m3, hI1.m16, hI1.nodes, hI1.root_none, hI1.root_some, hI1.depth_le,
            hI1.chain, hI1.last, hI1.leaves, hI1.kv_eq⟩
        · simp only [S2, hcount, hlen]
        · rcases S4 with ⟨_, h2⟩ | ⟨h1, q⟩
          · exact Or.inl h2
          · exact Or.inr ⟨h1, Or.inr q⟩
    · simp only [if_neg hk] at hlook
      have hnone : (kv_lookup k kv).isSome = false := by
        rw [hlook]
        rfl
      rw [hnone, kv_erase_id (kv_lookup_none_imp hlook)]
      refine ⟨t, ?_, ⟨g, L, hX, hcount⟩, rfl, rfl, Or.inl rfl⟩
      simp only [delete_key, hfind, hk, if_false]

end del22

end BPlus

namespace BPlus

section reach1
variable {K V : Type} [LinearOrder K]

/-! ### Trees reachable from the empty tree, fanout within the counter range -/

theorem Inv.empty (m : Nat) (h3 : 3 ≤ m) (h16 : m ≤ 32767) :
    Inv (bptree_new m : bptree K V) [] :=
  ⟨fun _ => none, [], InvX.empty_tree _ _ _ h3 h16, rfl⟩

theorem Inv.apply_op_ok {t : bptree K V} {kv : List (K × V)} (hI : Inv t kv) (op : Op K V) :
    ∃ t1, apply_op t op = some t1 ∧ Inv t1 (kv_apply kv op) ∧ t1.m = t.m := by
  cases op with
  | insert k v =>
    obtain ⟨t1, h1, h2, h3, _⟩ := hI.insert_key_ok k v
    exact ⟨t1, h1, h2, h3⟩
  | delete k =>
    obtain ⟨t1, h1, h2, h3, _⟩ := hI.delete_key_ok k
    exact ⟨t1, by simp [apply_op, h1], h2, h3⟩

theorem Inv.run_ops_ok (ops : List (Op K V)) :
    ∀ {t : bptree K V} {kv : List (K × V)}, Inv t kv →
      ∃ t1, run_ops t ops = some t1 ∧ Inv t1 (kv_run kv ops) ∧ t1.m = t.m := by
  induction ops with
  | nil =>
    intro t kv hI
    exact ⟨t, rfl, hI, rfl⟩
  | cons op ops ih =>
    intro t kv hI
    obtain ⟨t1, h1, h2, h3⟩ := hI.apply_op_ok op
    obtain ⟨t2, q1, q2, q3⟩ := ih h2
    exact ⟨t2, by simp only [run_ops, h1, q1], q2, by rw [q3, h3]⟩

/-- Every tree reachable for a fanout between 3 and 32767 satisfies the
invariant. -/
theorem reachable_inv {m : Nat} (h3 : 3 ≤ m) (h16 : m ≤ 32767) {t : bptree K V}
    (hr : Reachable m t) : ∃ kv, Inv t kv ∧ t.m = m := by
  obtain ⟨ops, hops⟩ := hr
  obtain ⟨t1, q1, q2, q3⟩ := Inv.run_ops_ok ops (Inv.empty (K := K) (V := V) m h3 h16)
  rw [hops] at q1
  cases q1
  exact ⟨_, q2, q3⟩

theorem kv_lookup_apply (kv : List (K × V)) (op : Op K V) (x : K) :
    kv_lookup x (kv_apply kv op) = ref_apply (fun y => kv_lookup y kv) op x := by
  cases op with
  | insert k v => simp only [kv_apply, ref_apply, kv_lookup_insert]
  | delete k => simp only [kv_apply, ref_apply, kv_lookup_erase]

theorem kv_lookup_run (ops : List (Op K V)) :
    ∀ (kv : List (K × V)) (x : K),
      kv_lookup x (kv_run kv ops) = ref_run (fun y => kv_lookup y kv) ops x := by
  induction ops with
  | nil => intro kv x; rfl
  | cons op ops ih =>
    intro kv x
    simp only [kv_run, ref_run]
    rw [ih]
    congr 1
    funext y
    exact kv_lookup_apply kv op y

theorem run_ops_append (ops1 ops2 : List (Op K V)) (t : bptree K V) :
    run_ops t (ops1 ++ ops2) =
      match run_ops t ops1 with
      | none => none
      | some t1 => run_ops t1 ops2 := by
  induction ops1 generalizing t with
  | nil => rfl
  | cons op ops ih =>
    simp only [List.cons_append, run_ops]
    cases apply_op t op with
    | none => rfl
    | some t1 => exact ih t1

theorem Reachable.step {m : Nat} {t t1 : bptree K V} (hr : Reachable m t) (op : Op K V)
    (h : apply_op t op = some t1) : Reachable m t1 := by
  obtain ⟨ops, hops⟩ := hr
  refine ⟨ops ++ [op], ?_⟩
  rw [run_ops_append, hops]
  simp only [run_ops, h]

end reach1

end BPlus

namespace BPlus

section reach2
variable {K V : Type} [LinearOrder K]

/-! ### Fanout beyond the range of the key counter -/

theorem wrap16_range (x : Int) : -32768 ≤ wrap16 x ∧ wrap16 x < 32768 := by
  unfold wrap16
  omega

theorem wrap16_add (a b : Int) : wrap16 (wrap16 a + b) = wrap16 (a + b) := by
  unfold wrap16
  omega

theorem wrap16_toNat_le (n : Nat) : (wrap16 (n : Int)).toNat ≤ n := by
  unfold wrap16
  omega

/-- The scan of `find_leaf` stays inside the key vector when the counter does
not exceed its length; an index it returns holds the key. -/
theorem find_leaf_scan_some (keys : List K) (key : K) :
    ∀ (fuel i : Nat), i + fuel ≤ keys.length →
      ∃ r, find_leaf_scan keys key fuel i = some r ∧
        ∀ idx, r = some idx → idx < i + fuel ∧ keys[idx]? = some key := by
  intro fuel
  induction fuel with
  | zero =>
    intro i _
    exact ⟨none, rfl, fun idx h => by cases h⟩
  | succ f ih =>
    intro i hi
    have hlt : i < keys.length := by omega
    simp only [find_leaf_scan, List.getElem?_eq_getElem hlt]
    by_cases hc : keys[i] = key
    · refine ⟨some i, by simp [hc], ?_⟩
      intro idx h
      cases h
      exact ⟨by omega, by rw [List.getElem?_eq_getElem hlt, hc]⟩
    · obtain ⟨r, h1, h2⟩ := ih (i + 1) (by omega)
      refine ⟨r, by simp [hc, h1], ?_⟩
      intro idx h
      obtain ⟨q1, q2⟩ := h2 idx h
      exact ⟨by omega, q2⟩

/-- The descent of `find_leaf` stops at once at a root leaf. -/
theorem find_leaf_root_leaf {t : bptree K V} {r : Nat} {nd : bpnode K V} (key : K)
    (hr : t.root = some r) (hnd : heap_get t.heap r = some nd)
    (hty : nd.type = bpnode_type.NODE_LEAF) :
    find_leaf t key =
      match find_leaf_scan nd.keys key nd.num_keys.toNat 0 with
      | none => none
      | some idx => some (idx, some r) := by
  have hl := heap_get_lt hnd
  obtain ⟨f, hf⟩ : ∃ f, t.heap.length = f + 1 := ⟨t.heap.length - 1, by omega⟩
  simp only [find_leaf, hr, hf, find_leaf_descend, hnd, hty, if_true]
  all_goals (cases find_leaf_scan nd.keys key nd.num_keys.toNat 0 <;> rfl)

theorem Inv2.empty_leaf (m : Nat) (hm : 32768 ≤ m) : Inv2 (bptree_new m : bptree K V) :=
  ⟨hm, Or.inl ⟨rfl, rfl, rfl⟩⟩

/-- Insertion into a tree with an oversized fanout: no step fails, the tree
stays a single leaf. -/
theorem Inv2.insert_ok {t : bptree K V} (hI : Inv2 t) (k : K) (v : V) :
    ∃ t1, insert_key t k v = some t1 ∧ Inv2 t1 ∧ t1.m = t.m ∧
      (t1.depth = t.depth ∨ (t1.depth = t.depth + 1 ∧ t.root = none)) := by
  obtain ⟨hm, hc⟩ := hI
  rcases hc with ⟨hr, hd, hcnt⟩ | ⟨r, nd, hr, hnd, hty, hpar, hvl, hnk, h1, hcnt, hd⟩
  · have hget : heap_get (t.heap ++ [some
          ({ type := bpnode_type.NODE_LEAF, num_keys := 1, keys := [k], parent := none,
             values := [v], next := none, children := [] } : bpnode K V)]) t.heap.length =
        some { type := bpnode_type.NODE_LEAF, num_keys := 1, keys := [k], parent := none,
               values := [v], next := none, children := [] } := by
      rw [heap_get_append]
      simp
    have hw : (1 : Int) = wrap16 (([k] : List K).length : Int) := by
      simp only [List.length_singleton]
      rw [wrap16_id (by norm_num) (by norm_num)]
      rfl
    exact ⟨{ t with
        heap := t.heap ++ [some
          { type := bpnode_type.NODE_LEAF, num_keys := 1, keys := [k], parent := none,
            values := [v], next := none, children := [] }],
        root := some t.heap.length, depth := 1, count := 1 },
      by simp only [insert_key, hr],
      ⟨hm, Or.inr ⟨t.heap.length, _, rfl, hget, rfl, rfl, rfl, hw, by simp, by simp, rfl⟩⟩,
      rfl, Or.inr ⟨by simp only [hd]; rfl, hr⟩⟩
  · have hfl := find_leaf_root_leaf k hr hnd hty
    have hle : 0 + nd.num_keys.toNat ≤ nd.keys.length := by
      rw [hnk]
      have := wrap16_toNat_le nd.keys.length
      omega
    obtain ⟨res, hs1, hs2⟩ := find_leaf_scan_some nd.keys k nd.num_keys.toNat 0 hle
    rw [hs1] at hfl
    simp only at hfl
    cases res with
    | some idx =>
      obtain ⟨q1, q2⟩ := hs2 idx rfl
      have hidx : idx < nd.values.length := by omega
      exact ⟨{ t with heap := heap_set t.heap r { nd with values := nd.values.set idx v } },
        by simp only [insert_key, hr, hfl, hnd, hidx, if_true],
        ⟨hm, Or.inr ⟨r, { nd with values := nd.values.set idx v }, hr, heap_get_set_eq _ hnd,
          hty, hpar, by simpa using hvl, hnk, h1, hcnt, hd⟩⟩, rfl, Or.inl rfl⟩
    | none =>
      have hpos := upper_pos_le k nd.keys
      have hc : ¬ (upper_pos k nd.keys < nd.keys.length ∧
          nd.values.length < upper_pos k nd.keys) := by omega
      have hlt : wrap16 (nd.num_keys + 1) < (t.m : Int) := by
        have := (wrap16_range (nd.num_keys + 1)).2
        omega
      obtain ⟨nd1, hnd1⟩ : ∃ nd1 : bpnode K V, nd1 =
          { nd with keys := insert_at nd.keys (upper_pos k nd.keys) k,
                    values := insert_at nd.values (upper_pos k nd.keys) v,
                    num_keys := wrap16 (nd.num_keys + 1) } := ⟨_, rfl⟩
      have hins : insert_leaf_node t r k v = some { t with heap := heap_set t.heap r nd1 } := by
        rw [hnd1]
        simp only [insert_leaf_node, hnd, hc, if_false,
          insert_at_values_eq nd.values (upper_pos k nd.keys) nd.keys.length v hvl hpos,
          leaf_split_if_full, heap_get_set_eq _ hnd, hlt, if_true]
      have hlen := length_insert_at nd.keys (upper_pos k nd.keys) k hpos
      have hlenv := length_insert_at nd.values (upper_pos k nd.keys) v (by omega)
      have e1 : nd1.keys.length = nd.keys.length + 1 := by rw [hnd1]; exact hlen
      have e2 : nd1.values.length = nd.values.length + 1 := by rw [hnd1]; exact hlenv
      have e3 : nd1.num_keys = wrap16 (nd.num_keys + 1) := by rw [hnd1]
      have e4 : nd1.type = bpnode_type.NODE_LEAF := by rw [hnd1]; exact hty
      have e5 : nd1.parent = none := by rw [hnd1]; exact hpar
      exact ⟨{ t with heap := heap_set t.heap r nd1, count := t.count + 1 },
        by simp only [insert_key, hr, hfl, hins],
        ⟨hm, Or.inr ⟨r, nd1, hr, heap_get_set_eq _ hnd, e4, e5, by omega,
          by rw [e3, e1, hnk, wrap16_add]; push_cast; rfl, by omega,
          by simp only [e1, hcnt]; push_cast; rfl, hd⟩⟩, rfl, Or.inl rfl⟩

/-- Deletion from a tree with an oversized fanout: no step fails, the tree
stays a single leaf or becomes empty. -/
theorem Inv2.delete_ok {t : bptree K V} (hI : Inv2 t) (k : K) :
    ∃ b t1, delete_key t k = some (b, t1) ∧ Inv2 t1 ∧ t1.m = t.m ∧
      (t1.depth = t.depth ∨ (t1.depth = t.depth - 1 ∧ t.count = 1 ∧ t1.root = none)) := by
  obtain ⟨hm, hc⟩ := hI
  rcases hc with ⟨hr, hd, hcnt⟩ | ⟨r, nd, hr, hnd, hty, hpar, hvl, hnk, h1, hcnt, hd⟩
  · exact ⟨false, t, by simp only [delete_key, find_leaf, hr],
      ⟨hm, Or.inl ⟨hr, hd, hcnt⟩⟩, rfl, Or.inl rfl⟩
  · have hfl := find_leaf_root_leaf k hr hnd hty
    have hle : 0 + nd.num_keys.toNat ≤ nd.keys.length := by
      rw [hnk]
      have := wrap16_toNat_le nd.keys.length
      omega
    obtain ⟨res, hs1, hs2⟩ := find_leaf_scan_some nd.keys k nd.num_keys.toNat 0 hle
    rw [hs1] at hfl
    simp only at hfl
    cases res with
    | none =>
      exact ⟨false, t, by simp only [delete_key, hfl],
        ⟨hm, Or.inr ⟨r, nd, hr, hnd, hty, hpar, hvl, hnk, h1, hcnt, hd⟩⟩, rfl, Or.inl rfl⟩
    | some idx =>
      obtain ⟨q1, q2⟩ := hs2 idx rfl
      have hk : k ∈ nd.keys := List.getElem?_mem q2
      by_cases hc1 : t.count = 1
      · refine ⟨true,
          { t with heap := heap_free t.heap r, root := none, count := 0, depth := 0 },
          by simp only [delete_key, hfl, hc1, if_true, hr, hnd],
          ⟨hm, Or.inl ⟨rfl, rfl, rfl⟩⟩, rfl, Or.inr ⟨by simp only [hd]; rfl, hc1, rfl⟩⟩
      · have hpos : index_of k nd.keys < nd.keys.length := (index_of_lt_iff k nd.keys).2 hk
        obtain ⟨nd1, hnd1⟩ : ∃ nd1 : bpnode K V, nd1 =
            { nd with keys := nd.keys.eraseIdx (index_of k nd.keys),
                      values := nd.values.eraseIdx (index_of k nd.keys),
                      num_keys := wrap16 (nd.num_keys - 1) } := ⟨_, rfl⟩
        have hrun := remove_leaf_key_eq (t := t) hnd hk hvl nd1 _ hnd1 rfl
        rw [hpar] at hrun
        simp only [dyn_inner] at hrun
        have hlen : (nd.keys.eraseIdx (index_of k nd.keys)).length = nd.keys.length - 1 :=
          List.length_eraseIdx_of_lt hpos
        have hlenv : (nd.values.eraseIdx (index_of k nd.keys)).length =
            nd.values.length - 1 := List.length_eraseIdx_of_lt (by omega)
        have h2 : 2 ≤ nd.keys.length := by
          rw [hcnt] at hc1
          have : (nd.keys.length : Int) ≠ 1 := hc1
          omega
        have e1 : nd1.keys.length = nd.keys.length - 1 := by rw [hnd1]; exact hlen
        have e2 : nd1.values.length = nd.values.length - 1 := by rw [hnd1]; exact hlenv
        have e3 : nd1.num_keys = wrap16 (nd.num_keys - 1) := by rw [hnd1]
        have e4 : nd1.type = bpnode_type.NODE_LEAF := by rw [hnd1]; exact hty
        have e5 : nd1.parent = none := by rw [hnd1]; exact hpar
        have e6 : nd1.num_keys = wrap16 (nd1.keys.length : Int) := by
          rw [e3, e1, hnk]
          have : ((nd.keys.length - 1 : Nat) : Int) = (nd.keys.length : Int) + (-1) := by
            omega
          rw [this, ← wrap16_add, sub_eq_add_neg]
        exact ⟨true, { t with heap := heap_set t.heap r nd1, count := t.count - 1 },
          by simp only [delete_key, hfl, hc1, if_false, hrun],
          ⟨hm, Or.inr ⟨r, nd1, hr, heap_get_set_eq _ hnd, e4, e5, by omega, e6, by omega,
            by simp only [e1, hcnt]; omega, hd⟩⟩, rfl, Or.inl rfl⟩

theorem Inv2.apply_op_total {t : bptree K V} (hI : Inv2 t) (op : Op K V) :
    ∃ t1, apply_op t op = some t1 ∧ Inv2 t1 ∧ t1.m = t.m := by
  cases op with
  | insert k v =>
    obtain ⟨t1, h1, h2, h3, _⟩ := hI.insert_ok k v
    exact ⟨t1, h1, h2, h3⟩
  | delete k =>
    obtain ⟨b, t1, h1, h2, h3, _⟩ := hI.delete_ok k
    exact ⟨t1, by simp [apply_op, h1], h2, h3⟩

theorem Inv2.run_ops_total (ops : List (Op K V)) :
    ∀ {t : bptree K V}, Inv2 t → ∃ t1, run_ops t ops = some t1 ∧ Inv2 t1 ∧ t1.m = t.m := by
  induction ops with
  | nil =>
    intro t hI
    exact ⟨t, rfl, hI, rfl⟩
  | cons op ops ih =>
    intro t hI
    obtain ⟨t1, h1, h2, h3⟩ := hI.apply_op_total op
    obtain ⟨t2, q1, q2, q3⟩ := ih h2
    exact ⟨t2, by simp only [run_ops, h1, q1], q2, by rw [q3, h3]⟩

/-- Every tree reachable for a fanout of 32768 or more is empty or a single
root leaf. -/
theorem reachable_inv2 {m : Nat} (hm : 32768 ≤ m) {t : bptree K V}
    (hr : Reachable m t) : Inv2 t ∧ t.m = m := by
  obtain ⟨ops, hops⟩ := hr
  obtain ⟨t1, q1, q2, q3⟩ := Inv2.run_ops_total ops (Inv2.empty_leaf (K := K) (V := V) m hm)
  rw [hops] at q1
  cases q1
  exact ⟨q2, q3⟩

/-- A reachable tree satisfies one of the two invariants. -/
theorem reachable_cases {m : Nat} (h3 : 3 ≤ m) {t : bptree K V} (hr : Reachable m t) :
    t.m = m ∧ ((∃ kv, Inv t kv) ∨ Inv2 t) := by
  by_cases h16 : m ≤ 32767
  · obtain ⟨kv, h1, h2⟩ := reachable_inv h3 h16 hr
    exact ⟨h2, Or.inl ⟨kv, h1⟩⟩
  · obtain ⟨h1, h2⟩ := reachable_inv2 (by omega) hr
    exact ⟨h2, Or.inr h1⟩

end reach2

end BPlus

namespace BPlus

/-! ### Single-leaf trees with a fanout of 32768 -/

theorem upper_pos_all {k : Nat} :
    ∀ {l : List Nat}, (∀ x ∈ l, ¬ k < x) → upper_pos k l = l.length := by
  intro l
  induction l with
  | nil => intro _; rfl
  | cons y ys ih =>
    intro h
    have h1 : ¬ k < y := h y (by simp)
    simp only [upper_pos, h1, if_false, List.length_cons]
    rw [ih (fun x hx => h x (List.mem_cons_of_mem _ hx))]

theorem upper_pos_append {k : Nat} (l1 l2 : List Nat) (h : ∀ x ∈ l1, ¬ k < x) :
    upper_pos k (l1 ++ l2) = l1.length + upper_pos k l2 := by
  induction l1 with
  | nil => simp
  | cons y ys ih =>
    have h1 : ¬ k < y := h y (by simp)
    rw [List.cons_append]
    simp only [upper_pos, h1, if_false, List.length_cons]
    rw [ih (fun x hx => h x (List.mem_cons_of_mem _ hx))]
    omega

theorem insert_at_length {A : Type} (l : List A) (x : A) : insert_at l l.length x = l ++ [x] := by
  simp [insert_at]

theorem insert_at_append {A : Type} (l1 l2 : List A) (x : A) :
    insert_at (l1 ++ l2) l1.length x = l1 ++ x :: l2 := by
  simp [insert_at]

theorem insert_at_replicate (n p : Nat) (hp : p ≤ n) :
    insert_at (List.replicate n 0) p 0 = List.replicate (n + 1) 0 := by
  apply List.eq_replicate_iff.2
  constructor
  · rw [length_insert_at _ _ _ (by simpa using hp)]
    simp
  · intro b hb
    rcases mem_insert_at_imp hb with h | h
    · exact h
    · exact List.eq_of_mem_replicate h

theorem leaf_tree_get (m : Nat) (ks vs : List Nat) :
    heap_get (leaf_tree m ks vs).heap 0 = some
      { type := bpnode_type.NODE_LEAF, num_keys := wrap16 ks.length,
        keys := ks, parent := none, values := vs, next := none, children := [] } := rfl

theorem find_leaf_root_scan {K V : Type} [LinearOrder K] {t : bptree K V} {r : Nat}
    {nd : bpnode K V} (key : K) {res : Option Nat}
    (hr : t.root = some r) (hnd : heap_get t.heap r = some nd)
    (hty : nd.type = bpnode_type.NODE_LEAF)
    (hs : find_leaf_scan nd.keys key nd.num_keys.toNat 0 = some res) :
    find_leaf t key = some (res, some r) := by
  have h := find_leaf_root_leaf key hr hnd hty
  rw [hs] at h
  exact h

theorem leaf_tree_root (m : Nat) (ks vs : List Nat) : (leaf_tree m ks vs).root = some 0 := rfl

theorem find_leaf_leaf_tree (m : Nat) (ks vs : List Nat) (k : Nat) {res : Option Nat}
    (hs : find_leaf_scan ks k (wrap16 ks.length).toNat 0 = some res) :
    find_leaf (leaf_tree m ks vs) k = some (res, some 0) :=
  find_leaf_root_scan k (leaf_tree_root m ks vs) (leaf_tree_get m ks vs) rfl hs

/-- Lookup in a single-leaf tree of a key that the scan does not find. -/
theorem find_key_leaf_tree_none (m : Nat) (ks vs : List Nat) (k : Nat)
    (hs : find_leaf_scan ks k (wrap16 ks.length).toNat 0 = some none) :
    find_key (leaf_tree m ks vs) k = some none := by
  have h := find_leaf_leaf_tree m ks vs k hs
  simp only [find_key, h]

/-- Lookup in a single-leaf tree of a key that the scan finds. -/
theorem find_key_leaf_tree_some (m : Nat) (ks vs : List Nat) (k : Nat) {idx : Nat}
    (hs : find_leaf_scan ks k (wrap16 ks.length).toNat 0 = some (some idx)) :
    find_key (leaf_tree m ks vs) k = (vs[idx]?).map some := by
  have h := find_leaf_leaf_tree m ks vs k hs
  simp only [find_key, h, leaf_tree_get]

/-- Insertion of a key that the scan does not find, fanout beyond the counter
range: the key is entered and the leaf is not split. -/
theorem insert_key_leaf_tree_new (m : Nat) (hm : 32768 ≤ m) (ks vs : List Nat) (k v : Nat)
    (hvl : vs.length = ks.length)
    (hs : find_leaf_scan ks k (wrap16 ks.length).toNat 0 = some none) :
    insert_key (leaf_tree m ks vs) k v =
      some (leaf_tree m (insert_at ks (upper_pos k ks) k) (insert_at vs (upper_pos k ks) v)) := by
  have h := find_leaf_leaf_tree m ks vs k hs
  have hpos := upper_pos_le k ks
  have hc : ¬ (upper_pos k ks < ks.length ∧ vs.length < upper_pos k ks) := by omega
  have hlt : wrap16 (wrap16 (ks.length : Int) + 1) < (m : Int) := by
    have := (wrap16_range (wrap16 (ks.length : Int) + 1)).2
    omega
  have hlen := length_insert_at ks (upper_pos k ks) k hpos
  have hroot : (leaf_tree m ks vs).root = some 0 := rfl
  simp only [insert_key, hroot, h, insert_leaf_node, leaf_tree_get, hc, if_false,
    insert_at_values_eq vs (upper_pos k ks) ks.length v hvl hpos, leaf_split_if_full]
  have hg : heap_get (heap_set (leaf_tree m ks vs).heap 0
      { type := bpnode_type.NODE_LEAF, num_keys := wrap16 (wrap16 (ks.length : Int) + 1),
        keys := insert_at ks (upper_pos k ks) k, parent := none,
        values := insert_at vs (upper_pos k ks) v, next := none, children := [] }) 0 = some
      { type := bpnode_type.NODE_LEAF, num_keys := wrap16 (wrap16 (ks.length : Int) + 1),
        keys := insert_at ks (upper_pos k ks) k, parent := none,
        values := insert_at vs (upper_pos k ks) v, next := none, children := [] } := rfl
  simp only [hg]
  have hm2 : (leaf_tree m ks vs).m = m := rfl
  rw [hm2, if_pos hlt]
  simp only [leaf_tree, hlen, heap_set, List.set_cons_zero, wrap16_add]
  push_cast
  rfl

/-- Deletion of a key that the scan finds in a single-leaf tree holding more
than one key. -/
theorem delete_key_leaf_tree (m : Nat) (ks vs : List Nat) (k : Nat) {idx : Nat}
    (hvl : vs.length = ks.length) (h2 : 2 ≤ ks.length) (hk : k ∈ ks)
    (hs : find_leaf_scan ks k (wrap16 ks.length).toNat 0 = some (some idx)) :
    delete_key (leaf_tree m ks vs) k =
      some (true, leaf_tree m (ks.eraseIdx (index_of k ks)) (vs.eraseIdx (index_of k ks))) := by
  have h := find_leaf_leaf_tree m ks vs k hs
  have hpos : index_of k ks < ks.length := (index_of_lt_iff k ks).2 hk
  have hrun := remove_leaf_key_eq (t := leaf_tree m ks vs) (leaf_tree_get m ks vs) hk hvl _ _
    rfl rfl
  simp only [dyn_inner] at hrun
  have hc1 : ¬ (leaf_tree m ks vs).count = 1 := by
    show ¬ ((ks.length : Nat) : Int) = 1
    omega
  have hlen : (ks.eraseIdx (index_of k ks)).length = ks.length - 1 :=
    List.length_eraseIdx_of_lt hpos
  simp only [delete_key, h, hc1, if_false, hrun]
  simp only [leaf_tree, hlen, heap_set, List.set_cons_zero]
  have e1 : wrap16 (wrap16 (ks.length : Int) - 1) = wrap16 ((ks.length - 1 : Nat) : Int) := by
    have : ((ks.length - 1 : Nat) : Int) = (ks.length : Int) + (-1) := by omega
    rw [this, ← wrap16_add, sub_eq_add_neg]
  have e2 : ((ks.length : Nat) : Int) - 1 = ((ks.length - 1 : Nat) : Int) := by omega
  rw [e1, e2]

/-- Deletion of a key that the scan does not find. -/
theorem delete_key_leaf_tree_none (m : Nat) (ks vs : List Nat) (k : Nat)
    (hs : find_leaf_scan ks k (wrap16 ks.length).toNat 0 = some none) :
    delete_key (leaf_tree m ks vs) k = some (false, leaf_tree m ks vs) := by
  have h := find_leaf_leaf_tree m ks vs k hs
  simp only [delete_key, h]

end BPlus

namespace BPlus

/-! ### The single-leaf families for fanout 32768 -/

theorem scan_fuel_zero (ks : List Nat) (k : Nat) {n : Int} (h : n ≤ 0) :
    find_leaf_scan ks k n.toNat 0 = some none := by
  have : n.toNat = 0 := by omega
  rw [this]
  rfl

theorem scan_range_new (n : Nat) (hn : n ≤ 32767) :
    find_leaf_scan (List.range n) n (wrap16 ((List.range n).length : Int)).toNat 0 =
      some none := by
  have h1 : (wrap16 ((List.range n).length : Int)).toNat = n := by
    rw [List.length_range, wrap16_id (by omega) (by omega)]
    simp
  rw [h1, find_leaf_scan_eq (List.range n) n n 0 (by simp)]
  simp

/-- Inserting the next key into the leaf `0, …, n - 1`: no split for fanout
32768 or more, also when the leaf reaches 32768 keys. -/
theorem insert_key_big (m : Nat) (hm : 32768 ≤ m) (n : Nat) (hn : n ≤ 32767) :
    insert_key (big m n) n 0 = some (big m (n + 1)) := by
  have h := insert_key_leaf_tree_new m hm (List.range n) (List.replicate n 0) n 0 (by simp)
    (scan_range_new n hn)
  have hu : upper_pos n (List.range n) = (List.range n).length :=
    upper_pos_all (fun x hx => by
      have := List.mem_range.1 hx
      omega)
  rw [hu, insert_at_length] at h
  have hu2 : (List.range n).length = n := List.length_range n
  rw [hu2, insert_at_replicate n n (le_refl _), ← List.range_succ] at h
  exact h

theorem ins_ops_succ (n : Nat) : ins_ops (n + 1) = ins_ops n ++ [Op.insert n 0] := by
  simp [ins_ops, List.range_succ]

theorem run_ops_snoc_insert {K V : Type} [LinearOrder K] {t t1 t2 : bptree K V}
    {ops : List (Op K V)} {k : K} {v : V} (h1 : run_ops t ops = some t1)
    (h2 : insert_key t1 k v = some t2) :
    run_ops t (ops ++ [Op.insert k v]) = some t2 := by
  rw [run_ops_append, h1]
  simp only [run_ops, apply_op, h2]

theorem run_ops_snoc {K V : Type} [LinearOrder K] {t t1 t2 : bptree K V} {ops : List (Op K V)}
    {op : Op K V} (h1 : run_ops t ops = some t1) (h2 : apply_op t1 op = some t2) :
    run_ops t (ops ++ [op]) = some t2 := by
  rw [run_ops_append, h1]
  simp only [run_ops, h2]

theorem insert_key_first (m : Nat) :
    insert_key (bptree_new m : bptree Nat Nat) 0 0 = some (big m 1) := rfl

/-- The insertions of `0, …, n` into the empty tree of fanout 32768 build the
single leaf `0, …, n`, for every `n` up to 32767. -/
theorem reach_big : ∀ (n : Nat), n ≤ 32767 →
    run_ops (bptree_new 32768) (ins_ops (n + 1)) = some (big 32768 (n + 1)) := by
  intro n
  induction n with
  | zero =>
    intro _
    have h : ins_ops (0 + 1) = [Op.insert 0 0] := rfl
    rw [h]
    simp only [run_ops, apply_op, insert_key_first]
  | succ n ih =>
    intro hn
    rw [ins_ops_succ]
    exact run_ops_snoc_insert (ih (by omega)) (insert_key_big 32768 (Nat.le_refl _) (n + 1) hn)

theorem range_big : List.range 32768 = List.replicate 1 0 ++ List.range' 1 32767 := by
  rw [List.range_eq_range', show (32768 : Nat) = 32767 + 1 from rfl, List.range'_succ]
  rfl

theorem big_eq_dup (m : Nat) : big m 32768 = dup m 1 := by
  unfold big dup
  rw [range_big]

theorem replicate_length_eq (n : Nat) (l : List Nat) (h : l.length = n) :
    (List.replicate n 0).length = l.length := by
  rw [List.length_replicate, h]

theorem dup_length (z : Nat) :
    (List.replicate z 0 ++ List.range' 1 32767).length = z + 32767 := by
  simp

theorem upper_pos_dup (z : Nat) :
    upper_pos 0 (List.replicate z 0 ++ List.range' 1 32767) = z := by
  rw [upper_pos_append _ _ (fun x hx => by rw [List.eq_of_mem_replicate hx]; omega)]
  rw [show (32767 : Nat) = 32766 + 1 from rfl, List.range'_succ]
  simp [upper_pos]

/-- Inserting the key `0` once more while the wrapped counter is not
positive adds another copy of the key. -/
theorem insert_key_dup (m : Nat) (hm : 32768 ≤ m) (z : Nat) (h1 : 1 ≤ z) (h2 : z ≤ 32769) :
    insert_key (dup m z) 0 0 = some (dup m (z + 1)) := by
  have hs : find_leaf_scan (List.replicate z 0 ++ List.range' 1 32767) 0
      (wrap16 ((List.replicate z 0 ++ List.range' 1 32767).length : Int)).toNat 0 =
      some none := by
    apply scan_fuel_zero
    rw [dup_length]
    unfold wrap16
    omega
  have h := insert_key_leaf_tree_new m hm (List.replicate z 0 ++ List.range' 1 32767)
    (List.replicate (z + 32767) 0) 0 0 (replicate_length_eq _ _ (dup_length z)) hs
  rw [upper_pos_dup] at h
  have e1 : insert_at (List.replicate z 0 ++ List.range' 1 32767) z 0 =
      List.replicate (z + 1) 0 ++ List.range' 1 32767 := by
    have := insert_at_append (List.replicate z 0) (List.range' 1 32767) 0
    rw [List.length_replicate] at this
    rw [this, List.replicate_succ', List.append_assoc]
    rfl
  have e2 : z + 32767 + 1 = z + 1 + 32767 := by omega
  rw [e1, insert_at_replicate _ _ (by omega), e2] at h
  unfold dup
  exact h

/-- The operations that build `dup 32768 (j + 1)`. -/
theorem reach_dup : ∀ (j : Nat), j ≤ 32769 →
    run_ops (bptree_new 32768) (ins_ops 32768 ++ List.replicate j (Op.insert 0 0)) =
      some (dup 32768 (j + 1)) := by
  intro j
  induction j with
  | zero =>
    intro _
    rw [List.replicate_zero, List.append_nil, ← big_eq_dup]
    exact reach_big 32767 (Nat.le_refl _)
  | succ j ih =>
    intro hj
    rw [List.replicate_succ', ← List.append_assoc]
    exact run_ops_snoc_insert (ih (by omega))
      (insert_key_dup 32768 (Nat.le_refl _) (j + 1) (by omega) hj)

theorem dup_head (z : Nat) (R : List Nat) : (List.replicate (z + 1) 0 ++ R)[0]? = some 0 := by
  rw [List.replicate_succ, List.cons_append, List.getElem?_cons_zero]

theorem dup_end_length (z : Nat) :
    (List.replicate z 0 ++ List.range' 1 32767 ++ [40000]).length = z + 32767 + 1 := by
  rw [List.length_append, dup_length, List.length_singleton]

theorem scan_dup_other (z : Nat) (k : Nat) (hk : ¬ (0 = k)) :
    find_leaf_scan (List.replicate (z + 1) 0 ++ List.range' 1 32767) k (0 + 1) 0 =
      some none := by
  simp only [find_leaf_scan, dup_head z, hk, if_false]

/-- When the wrapped counter of `dup` is 1, the scan for a key other than `0`
sees one key only, and the key is entered as new at the end. -/
theorem insert_key_dup_end_gen (z : Nat) (hz : z + 1 + 32767 = 65537) :
    insert_key (dup 32768 (z + 1)) 40000 0 = some (dup_end 32768 (z + 1)) := by
  have hw : (wrap16 ((List.replicate (z + 1) 0 ++ List.range' 1 32767).length : Int)).toNat =
      0 + 1 := by
    rw [dup_length, hz]
    unfold wrap16
    omega
  have hs : find_leaf_scan (List.replicate (z + 1) 0 ++ List.range' 1 32767) 40000
      (wrap16 ((List.replicate (z + 1) 0 ++ List.range' 1 32767).length : Int)).toNat 0 =
      some none := by
    rw [hw]
    exact scan_dup_other z 40000 (by decide)
  have h := insert_key_leaf_tree_new 32768 (Nat.le_refl _)
    (List.replicate (z + 1) 0 ++ List.range' 1 32767)
    (List.replicate (z + 1 + 32767) 0) 40000 0 (replicate_length_eq _ _ (dup_length _)) hs
  have hu : upper_pos 40000 (List.replicate (z + 1) 0 ++ List.range' 1 32767) =
      (List.replicate (z + 1) 0 ++ List.range' 1 32767).length :=
    upper_pos_all (fun x hx => by
      rcases List.mem_append.1 hx with h | h
      · rw [List.eq_of_mem_replicate h]
        omega
      · have := List.mem_range'_1.1 h
        omega)
  rw [hu, insert_at_length] at h
  rw [dup_length, insert_at_replicate _ _ (Nat.le_refl _)] at h
  unfold dup dup_end
  exact h

theorem insert_key_dup_end :
    insert_key (dup 32768 32770) 40000 0 = some (dup_end 32768 32770) :=
  insert_key_dup_end_gen 32769 rfl

/-- The operations that build `dup_end 32768 32770`. -/
theorem reach_dup_end :
    run_ops (bptree_new 32768)
        (ins_ops 32768 ++ List.replicate 32769 (Op.insert 0 0) ++ [Op.insert 40000 0]) =
      some (dup_end 32768 32770) :=
  run_ops_snoc_insert (reach_dup 32769 (Nat.le_refl _)) insert_key_dup_end

theorem replicate_head (n : Nat) :
    Option.map some (List.replicate (n + 1) 0)[0]? = some (some 0) := by
  rw [List.replicate_succ, List.getElem?_cons_zero]
  rfl

theorem dup_end_cons (z : Nat) :
    List.replicate (z + 1) 0 ++ List.range' 1 32767 ++ [40000] =
      0 :: (List.replicate z 0 ++ List.range' 1 32767 ++ [40000]) := by
  rw [List.replicate_succ, List.cons_append, List.cons_append]

theorem scan_dup_end (z f : Nat) :
    find_leaf_scan (List.replicate (z + 1) 0 ++ List.range' 1 32767 ++ [40000]) 0 (f + 1) 0 =
      some (some 0) := by
  rw [dup_end_cons]
  simp only [find_leaf_scan, List.getElem?_cons_zero, if_true]

/-- Deleting the key `0` from the leaf of `dup_end` removes one copy. -/
theorem delete_key_dup_end_gen (z : Nat) (hz : z + 1 + 32767 + 1 = 65538) :
    delete_key (dup_end 32768 (z + 1)) 0 = some (true, dup_end 32768 z) := by
  have hw : (wrap16 ((List.replicate (z + 1) 0 ++ List.range' 1 32767 ++ [40000]).length :
      Int)).toNat = 1 + 1 := by
    rw [dup_end_length, hz]
    unfold wrap16
    omega
  have hs : find_leaf_scan (List.replicate (z + 1) 0 ++ List.range' 1 32767 ++ [40000]) 0
      (wrap16 ((List.replicate (z + 1) 0 ++ List.range' 1 32767 ++ [40000]).length :
        Int)).toNat 0 = some (some 0) := by
    rw [hw]
    exact scan_dup_end z 1
  have hk : 0 ∈ List.replicate (z + 1) 0 ++ List.range' 1 32767 ++ [40000] := by
    rw [dup_end_cons]
    exact List.mem_cons_self _ _
  have h := delete_key_leaf_tree 32768
    (List.replicate (z + 1) 0 ++ List.range' 1 32767 ++ [40000])
    (List.replicate (z + 1 + 32767 + 1) 0) 0
    (replicate_length_eq _ _ (dup_end_length _)) (by rw [dup_end_length]; omega) hk hs
  have hi : index_of 0 (List.replicate (z + 1) 0 ++ List.range' 1 32767 ++ [40000]) = 0 := by
    rw [dup_end_cons]
    simp only [index_of, if_true]
  rw [hi] at h
  unfold dup_end
  rw [h, dup_end_cons, List.eraseIdx_cons_zero]
  have e : z + 1 + 32767 + 1 = (z + 32767 + 1) + 1 := by omega
  rw [e, List.replicate_succ, List.eraseIdx_cons_zero]

theorem delete_key_dup_end :
    delete_key (dup_end 32768 32770) 0 = some (true, dup_end 32768 32769) :=
  delete_key_dup_end_gen 32769 rfl

/-- After the deletion the key `0` is still found. -/
theorem find_key_dup_end_gen (z : Nat) (hz : z + 1 + 32767 + 1 = 65537) :
    find_key (dup_end 32768 (z + 1)) 0 = some (some 0) := by
  have hw : (wrap16 ((List.replicate (z + 1) 0 ++ List.range' 1 32767 ++ [40000]).length :
      Int)).toNat = 0 + 1 := by
    rw [dup_end_length, hz]
    unfold wrap16
    omega
  have hs : find_leaf_scan (List.replicate (z + 1) 0 ++ List.range' 1 32767 ++ [40000]) 0
      (wrap16 ((List.replicate (z + 1) 0 ++ List.range' 1 32767 ++ [40000]).length :
        Int)).toNat 0 = some (some 0) := by
    rw [hw]
    exact scan_dup_end z 0
  have h := find_key_leaf_tree_some 32768
    (List.replicate (z + 1) 0 ++ List.range' 1 32767 ++ [40000])
    (List.replicate (z + 1 + 32767 + 1) 0) 0 hs
  unfold dup_end
  rw [h]
  exact replicate_head (z + 1 + 32767)

theorem find_key_dup_end : find_key (dup_end 32768 32769) 0 = some (some 0) :=
  find_key_dup_end_gen 32768 rfl

/-- Before the deletion the key `0` is found as well. -/
theorem find_key_dup_end_two (z : Nat) (hz : z + 1 + 32767 + 1 = 65538) :
    find_key (dup_end 32768 (z + 1)) 0 = some (some 0) := by
  have hw : (wrap16 ((List.replicate (z + 1) 0 ++ List.range' 1 32767 ++ [40000]).length :
      Int)).toNat = 1 + 1 := by
    rw [dup_end_length, hz]
    unfold wrap16
    omega
  have hs : find_leaf_scan (List.replicate (z + 1) 0 ++ List.range' 1 32767 ++ [40000]) 0
      (wrap16 ((List.replicate (z + 1) 0 ++ List.range' 1 32767 ++ [40000]).length :
        Int)).toNat 0 = some (some 0) := by
    rw [hw]
    exact scan_dup_end z 1
  have h := find_key_leaf_tree_some 32768
    (List.replicate (z + 1) 0 ++ List.range' 1 32767 ++ [40000])
    (List.replicate (z + 1 + 32767 + 1) 0) 0 hs
  unfold dup_end
  rw [h]
  exact replicate_head (z + 1 + 32767)

theorem find_key_dup_end_before : find_key (dup_end 32768 32770) 0 = some (some 0) :=
  find_key_dup_end_two 32769 rfl

/-- In the leaf `0, …, 32767` of fanout 32768 the wrapped counter is negative:
no key is found. -/
theorem scan_big (k : Nat) :
    find_leaf_scan (List.range 32768) k (wrap16 ((List.range 32768).length : Int)).toNat 0 =
      some none := by
  apply scan_fuel_zero
  rw [List.length_range]
  unfold wrap16
  omega

theorem find_key_big (k : Nat) : find_key (big 32768 32768) k = some none :=
  find_key_leaf_tree_none 32768 _ _ k (scan_big k)

theorem delete_key_big (k : Nat) :
    delete_key (big 32768 32768) k = some (false, big 32768 32768) :=
  delete_key_leaf_tree_none 32768 _ _ k (scan_big k)

theorem insert_key_big_dup : insert_key (big 32768 32768) 0 0 = some (dup 32768 2) := by
  rw [big_eq_dup]
  exact insert_key_dup 32768 (Nat.le_refl _) 1 (Nat.le_refl _) (by omega)

end BPlus

namespace BPlus

section check
variable {K V : Type} [LinearOrder K]

/-! ### The diagnostic `check()` on well-formed trees -/

theorem check_list_true (chk : Nat → Option Bool) :
    ∀ (cs : List Nat), (∀ c ∈ cs, chk c = some true) → check_list chk cs = some true := by
  intro cs
  induction cs with
  | nil => intro _; rfl
  | cons c cs ih =>
    intro h
    simp only [check_list, h c (by simp)]
    exact ih (fun x hx => h x (List.mem_cons_of_mem _ hx))

/-- On a well-formed tree `check_node` returns for every live node, given
enough fuel for the levels below the node. -/
theorem InvX.check_node_ok {t : bptree K V} {g : Nat → Option (Info K)} {L : List Nat}
    {kv : List (K × V)} (hI : InvX t g L kv none 0 0) :
    ∀ (fuel a : Nat) (i : Info K) (nd : bpnode K V) (p : Option Nat),
      g a = some i → heap_get t.heap a = some nd → nd.parent = p → i.ht ≤ fuel →
      check_node t.heap t.m fuel p a = some true := by
  intro fuel
  induction fuel with
  | zero =>
    intro a i nd p ha _ _ hf
    have := hI.ht_pos ha
    omega
  | succ f ih =>
    intro a i nd p ha hnd hp hf
    obtain ⟨nd0, q0, ok⟩ := hI.nodes a i ha
    rw [hnd] at q0
    cases q0
    have o1 := ok.occ_hi
    simp only [reduceCtorEq, if_false, Nat.add_zero] at o1
    have hnk := ok.nk
    have c1 : ¬ (nd.parent ≠ p) := fun h => h hp
    have c2 : ¬ ((t.m : Int) ≤ nd.num_keys) := by
      rw [hnk]
      omega
    simp only [check_node, hnd]
    rw [if_neg c1, if_neg c2]
    rcases ok.kind with hty | hty
    · have c3 : ¬ (nd.type = bpnode_type.NODE_INNER) := by
        rw [hty]
        intro h
        cases h
      have c4 : ¬ ((nd.keys.length : Int) ≠ nd.num_keys) := fun h => h hnk.symm
      rw [if_neg c3, if_pos hty, if_neg c4]
    · obtain ⟨d, hd, hch⟩ := ok.down hty
      have hl := hch.length
      have c4 : ¬ ((nd.keys.length : Int) ≠ nd.num_keys ∨
          (nd.children.length : Int) ≠ nd.num_keys + 1) := by
        rw [hnk, hl]
        push_cast
        intro h
        rcases h with h | h
        · exact h rfl
        · exact h rfl
      rw [if_pos hty, if_neg c4]
      apply check_list_true
      intro c hc
      obtain ⟨j, hj, hgc, cd, hcd, hcp⟩ := hch.mem hc
      exact ih c _ cd (some a) hgc hcd hcp (by simp only; omega)

/-- On a well-formed tree `check()` returns without reporting a violation. -/
theorem Inv.check_ok {t : bptree K V} {kv : List (K × V)} (hI : Inv t kv) :
    check t = some true := by
  obtain ⟨g, L, hX, _⟩ := hI
  cases hr : t.root with
  | none => simp only [check, hr]
  | some r =>
    obtain ⟨D, hgr, hD⟩ := hX.root_some r hr
    obtain ⟨rd, hrd, okr⟩ := hX.nodes r _ hgr
    have hpar := okr.uproot hr.symm
    have hfuel : D ≤ t.heap.length + 1 := by
      have := hX.depth_le
      omega
    have hck := hX.check_node_ok (t.heap.length + 1) r _ rd none hgr hrd hpar hfuel
    simp only [check, hr, hrd, hck]
    by_cases hd : t.depth = 1
    · have hni : ¬ (rd.type = bpnode_type.NODE_INNER) := by
        intro hty
        have := hX.inner_ht hgr hrd hty
        simp only at this
        omega
      simp only [hd, if_true, hni, if_false]
    · simp only [hd, if_false]

/-- A root that is an inner node while the recorded depth is 1 makes `check()`
report a violation. -/
theorem check_inner_depth_one {t : bptree K V} {r : Nat} {rd : bpnode K V}
    (hr : t.root = some r) (hrd : heap_get t.heap r = some rd)
    (hty : rd.type = bpnode_type.NODE_INNER) (hd : t.depth = 1) : check t = some false := by
  simp only [check, hr, hd, if_true, hrd, hty]

/-- A root leaf that is consistent in itself passes `check()` whatever depth is
recorded. -/
theorem check_root_leaf {t : bptree K V} {r : Nat} {rd : bpnode K V}
    (hr : t.root = some r) (hrd : heap_get t.heap r = some rd)
    (hty : rd.type = bpnode_type.NODE_LEAF) (hpar : rd.parent = none)
    (hlt : rd.num_keys < (t.m : Int)) (hnk : (rd.keys.length : Int) = rd.num_keys) :
    check t = some true := by
  have c0 : ¬ (rd.type = bpnode_type.NODE_INNER) := by
    rw [hty]
    intro h
    cases h
  have c1 : ¬ (rd.parent ≠ none) := fun h => h hpar
  have c2 : ¬ ((t.m : Int) ≤ rd.num_keys) := by omega
  have c4 : ¬ ((rd.keys.length : Int) ≠ rd.num_keys) := fun h => h hnk
  have hck : check_node t.heap t.m (t.heap.length + 1) none r = some true := by
    simp only [check_node, hrd]
    rw [if_neg c1, if_neg c2, if_neg c0, if_pos hty, if_neg c4]
  simp only [check, hr, hrd, hck, c0, if_false]
  split <;> rfl

/-- A root leaf whose counter differs from the number of its keys makes
`check()` report a violation. -/
theorem check_root_leaf_bad {t : bptree K V} {r : Nat} {rd : bpnode K V}
    (hr : t.root = some r) (hrd : heap_get t.heap r = some rd)
    (hty : rd.type = bpnode_type.NODE_LEAF) (hpar : rd.parent = none)
    (hlt : rd.num_keys < (t.m : Int)) (hnk : (rd.keys.length : Int) ≠ rd.num_keys) :
    check t = some false := by
  have c0 : ¬ (rd.type = bpnode_type.NODE_INNER) := by
    rw [hty]
    intro h
    cases h
  have c1 : ¬ (rd.parent ≠ none) := fun h => h hpar
  have c2 : ¬ ((t.m : Int) ≤ rd.num_keys) := by omega
  have hck : check_node t.heap t.m (t.heap.length + 1) none r = some false := by
    simp only [check_node, hrd]
    rw [if_neg c1, if_neg c2, if_neg c0, if_pos hty, if_pos hnk]
  simp only [check, hr, hrd, hck, c0, if_false]
  split <;> rfl

end check

/-- The diagnostic reports a violation on a single leaf that holds 32768 keys
or more. -/
theorem check_leaf_tree_bad (m : Nat) (hm : 32768 ≤ m) (ks vs : List Nat)
    (hk : 32768 ≤ ks.length) : check (leaf_tree m ks vs) = some false := by
  have hw := wrap16_range (ks.length : Int)
  refine check_root_leaf_bad (leaf_tree_root _ _ _) (leaf_tree_get _ _ _) rfl rfl ?_ ?_
  · show wrap16 (ks.length : Int) < (m : Int)
    omega
  · show (ks.length : Int) ≠ wrap16 (ks.length : Int)
    omega

theorem check_big : check (big 32768 32768) = some false :=
  check_leaf_tree_bad 32768 (Nat.le_refl _) _ _ (le_of_eq (List.length_range 32768).symm)

end BPlus

namespace BPlus

section facts
variable {K V : Type} [LinearOrder K]

/-! ### Structural facts about the nodes of a well-formed tree -/

theorem desc_of_leaf {h : List (Option (bpnode K V))} {a b : Nat} {nd : bpnode K V}
    (hnd : heap_get h a = some nd) (hty : nd.type = bpnode_type.NODE_LEAF)
    (hd : Desc h a b) : b = a := by
  cases hd with
  | here => rfl
  | down h1 h2 _ _ =>
    rw [hnd] at h1
    cases h1
    rw [hty] at h2
    cases h2

theorem leaf_path_of_leaf {h : List (Option (bpnode K V))} {a n : Nat} {nd : bpnode K V}
    (hnd : heap_get h a = some nd) (hty : nd.type = bpnode_type.NODE_LEAF)
    (hp : LeafPath h a n) : n = 1 := by
  cases hp with
  | leaf _ _ => rfl
  | inner h1 h2 _ _ =>
    rw [hnd] at h1
    cases h1
    rw [hty] at h2
    cases h2

/-- Every node below a live node is live, its interval lies inside the interval
of that node and it is not higher. -/
theorem InvX.desc_live {t : bptree K V} {g : Nat → Option (Info K)} {L : List Nat}
    {kv : List (K × V)} {e : Option Nat} {sl sh : Nat} (hI : InvX t g L kv e sl sh)
    {a b : Nat} (hd : Desc t.heap a b) :
    ∀ ia, g a = some ia →
      ∃ ib, g b = some ib ∧ ia.lo ≤ ib.lo ∧ ib.hi ≤ ia.hi ∧ ib.ht ≤ ia.ht := by
  induction hd with
  | here a =>
    intro ia ha
    exact ⟨ia, ha, le_refl _, le_refl _, le_refl _⟩
  | down hnd hty hc _ ih =>
    intro ia ha
    obtain ⟨j, hj⟩ := List.mem_iff_getElem?.1 hc
    obtain ⟨nd0, q0, ok⟩ := hI.nodes _ ia ha
    rw [hnd] at q0
    cases q0
    obtain ⟨d, cd, hd1, hgc, _, _, hl⟩ := hI.child ha hnd hty hj
    obtain ⟨ib, hb, h1, h2, h3⟩ := ih _ hgc
    have hjl : j < _ := (List.getElem?_eq_some.1 hj).1
    refine ⟨ib, hb, le_trans (slot_lo_ge ok.lob j (by omega)) h1,
      le_trans h2 (slot_hi_le (fun k hk => le_of_lt (ok.hib k hk)) j), ?_⟩
    simp only at h3
    omega

/-- Every node of the tree is live and not higher than the recorded depth. -/
theorem InvX.intree_live {t : bptree K V} {g : Nat → Option (Info K)} {L : List Nat}
    {kv : List (K × V)} {e : Option Nat} {sl sh : Nat} (hI : InvX t g L kv e sl sh)
    {a : Nat} (ha : InTree t a) :
    ∃ i nd, g a = some i ∧ heap_get t.heap a = some nd ∧
      NodeOK t.heap g t.m t.root e sl sh a i nd ∧ (i.ht : Int) ≤ t.depth := by
  obtain ⟨r, hr, hd⟩ := ha
  obtain ⟨D, hgr, hD⟩ := hI.root_some r hr
  obtain ⟨i, hi, _, _, h3⟩ := hI.desc_live hd _ hgr
  obtain ⟨nd, hnd, ok⟩ := hI.nodes a i hi
  refine ⟨i, nd, hi, hnd, ok, ?_⟩
  simp only at h3
  omega

/-- A path from a live node down to a leaf has as many nodes as the height of
the node says. -/
theorem InvX.leaf_path {t : bptree K V} {g : Nat → Option (Info K)} {L : List Nat}
    {kv : List (K × V)} {e : Option Nat} {sl sh : Nat} (hI : InvX t g L kv e sl sh)
    {a n : Nat} (hp : LeafPath t.heap a n) : ∀ ia, g a = some ia → ia.ht = n := by
  induction hp with
  | leaf hnd hty =>
    intro ia ha
    obtain ⟨nd0, q0, ok⟩ := hI.nodes _ ia ha
    rw [hnd] at q0
    cases q0
    exact (ok.leaf hty).1
  | inner hnd hty hc _ ih =>
    intro ia ha
    obtain ⟨j, hj⟩ := List.mem_iff_getElem?.1 hc
    obtain ⟨d, cd, hd1, hgc, _, _, hl⟩ := hI.child ha hnd hty hj
    have := ih _ hgc
    simp only at this
    omega

/-- From every live node a path leads down to a leaf. -/
theorem InvX.leaf_path_exists {t : bptree K V} {g : Nat → Option (Info K)} {L : List Nat}
    {kv : List (K × V)} {e : Option Nat} {sl sh : Nat} (hI : InvX t g L kv e sl sh) :
    ∀ (d a : Nat) (i : Info K), g a = some i → i.ht = d → LeafPath t.heap a d := by
  intro d
  induction d with
  | zero =>
    intro a i ha hd
    have := hI.ht_pos ha
    omega
  | succ d ih =>
    intro a i ha hd
    obtain ⟨nd, hnd, ok⟩ := hI.nodes a i ha
    rcases ok.kind with hty | hty
    · have := (ok.leaf hty).1
      have hd0 : d = 0 := by omega
      subst hd0
      exact LeafPath.leaf hnd hty
    · obtain ⟨d1, hd1, hch⟩ := ok.down hty
      have hl := hch.length
      have h0 : 0 < nd.children.length := by omega
      obtain ⟨d2, cd, hd2, hgc, _, _, _⟩ := hI.child ha hnd hty (List.getElem?_eq_getElem h0)
      have hp := ih _ _ hgc (by simp only; omega)
      exact LeafPath.inner hnd hty (List.getElem_mem h0) hp

/-- Below every live node there is a leaf, and it holds a key. -/
theorem InvX.subtree_leaf_desc {t : bptree K V} {g : Nat → Option (Info K)} {L : List Nat}
    {kv : List (K × V)} (hI : InvX t g L kv none 0 0) :
    ∀ (d a : Nat) (i : Info K), g a = some i → i.ht = d →
      ∃ b bd, Desc t.heap a b ∧ heap_get t.heap b = some bd ∧
        bd.type = bpnode_type.NODE_LEAF ∧ 1 ≤ bd.keys.length ∧ b ∈ L := by
  intro d
  induction d with
  | zero =>
    intro a i ha hd
    have := hI.ht_pos ha
    omega
  | succ d ih =>
    intro a i ha hd
    obtain ⟨nd, hnd, ok⟩ := hI.nodes a i ha
    rcases ok.kind with hty | hty
    · have o3 := ok.occ_in
      simp only [reduceCtorEq, if_false, Nat.add_zero] at o3
      exact ⟨a, nd, Desc.here a, hnd, hty, o3, (hI.leaves a).2 ⟨i, nd, ha, hnd, hty⟩⟩
    · obtain ⟨d1, hd1, hch⟩ := ok.down hty
      have hl := hch.length
      have h0 : 0 < nd.children.length := by omega
      obtain ⟨d2, cd, hd2, hgc, _, _, _⟩ := hI.child ha hnd hty (List.getElem?_eq_getElem h0)
      obtain ⟨b, bd, q1, q2, q3, q4, q5⟩ := ih _ _ hgc (by simp only; omega)
      exact ⟨b, bd, Desc.down hnd hty (List.getElem_mem h0) q1, q2, q3, q4, q5⟩

/-! ### Facts of the invariant in the form used by the properties of the tree -/

/-- Occupancy and counters of a node of a well-formed tree. -/
theorem Inv.occupancy {t : bptree K V} {kv : List (K × V)} (hI : Inv t kv) {a : Nat}
    {nd : bpnode K V} (ha : InTree t a) (hnd : heap_get t.heap a = some nd) :
    1 ≤ nd.keys.length ∧ nd.keys.length ≤ t.m - 1 ∧
      (t.root ≠ some a → (t.m - 1) / 2 ≤ nd.keys.length) ∧
      nd.num_keys = (nd.keys.length : Int) ∧
      (nd.type = bpnode_type.NODE_LEAF ∨ nd.type = bpnode_type.NODE_INNER) ∧
      (nd.type = bpnode_type.NODE_INNER → nd.children.length = nd.keys.length + 1) ∧
      (nd.type = bpnode_type.NODE_LEAF → nd.values.length = nd.keys.length) := by
  obtain ⟨g, L, hX, _⟩ := hI
  obtain ⟨i, nd0, hi, q0, ok, _⟩ := hX.intree_live ha
  rw [hnd] at q0
  cases q0
  have o1 := ok.occ_hi
  have o2 := ok.occ_lo
  have o3 := ok.occ_in
  simp only [reduceCtorEq, if_false, Nat.add_zero] at o1 o2 o3
  refine ⟨o3, by omega, ?_, ok.nk, ok.kind, ?_, fun h => (ok.leaf h).2⟩
  · intro hne
    exact o2 (fun h => hne h.symm)
  · intro hty
    obtain ⟨d, _, hch⟩ := ok.down hty
    exact hch.length

/-- Parent pointers in a well-formed tree: the root has none, and every child
of a node of the tree is a node whose parent pointer is that node. -/
theorem Inv.parents {t : bptree K V} {kv : List (K × V)} (hI : Inv t kv) :
    (∀ r rd, t.root = some r → heap_get t.heap r = some rd → rd.parent = none) ∧
    (∀ a nd c, InTree t a → heap_get t.heap a = some nd →
      nd.type = bpnode_type.NODE_INNER → c ∈ nd.children →
        ∃ cd, heap_get t.heap c = some cd ∧ cd.parent = some a) := by
  obtain ⟨g, L, hX, _⟩ := hI
  constructor
  · intro r rd hr hrd
    obtain ⟨D, hgr, hD⟩ := hX.root_some r hr
    obtain ⟨rd0, q0, okr⟩ := hX.nodes r _ hgr
    rw [hrd] at q0
    cases q0
    exact okr.uproot hr.symm
  · intro a nd c ha hnd hty hc
    obtain ⟨i, nd0, hi, q0, ok, _⟩ := hX.intree_live ha
    obtain ⟨j, hj⟩ := List.mem_iff_getElem?.1 hc
    obtain ⟨d, cd, _, _, hcd, hcp, _⟩ := hX.child hi hnd hty hj
    exact ⟨cd, hcd, hcp⟩

/-- Keys of a node of a well-formed tree ascend strictly. -/
theorem Inv.node_sorted {t : bptree K V} {kv : List (K × V)} (hI : Inv t kv) {a : Nat}
    {nd : bpnode K V} (ha : InTree t a) (hnd : heap_get t.heap a = some nd) :
    nd.keys.Pairwise (fun x y => x < y) := by
  obtain ⟨g, L, hX, _⟩ := hI
  obtain ⟨i, nd0, hi, q0, ok, _⟩ := hX.intree_live ha
  rw [hnd] at q0
  cases q0
  exact ok.sorted

/-- Range invariant: the keys stored anywhere below child number `j` of an
inner node of a well-formed tree are not smaller than the separator before the
child and smaller than the separator after it. -/
theorem Inv.ranges {t : bptree K V} {kv : List (K × V)} (hI : Inv t kv) {a c b j : Nat}
    {nd bd : bpnode K V} {key : K} (ha : InTree t a) (hnd : heap_get t.heap a = some nd)
    (hty : nd.type = bpnode_type.NODE_INNER) (hj : nd.children[j]? = some c)
    (hd : Desc t.heap c b) (hbd : heap_get t.heap b = some bd) (hk : key ∈ bd.keys) :
    (∀ k, nd.keys[j]? = some k → key < k) ∧
    (∀ i k, j = i + 1 → nd.keys[i]? = some k → k ≤ key) := by
  obtain ⟨g, L, hX, _⟩ := hI
  obtain ⟨i, nd0, hi, q0, ok, _⟩ := hX.intree_live ha
  obtain ⟨d, cd, _, hgc, hcd, hcp, _⟩ := hX.child hi hnd hty hj
  obtain ⟨ib, hb, h1, h2, _⟩ := hX.desc_live hd _ hgc
  obtain ⟨bd0, q1, okb⟩ := hX.nodes b ib hb
  rw [hbd] at q1
  cases q1
  have hlo := le_trans h1 (okb.lob key hk)
  have hhi := lt_of_lt_of_le (okb.hib key hk) h2
  simp only at hlo hhi
  constructor
  · intro k hkk
    rw [slot_hi_lt hkk] at hhi
    exact bnd_lt_bnd.1 hhi
  · intro i0 k hji hkk
    subst hji
    obtain ⟨hl, he⟩ := List.getElem?_eq_some.1 hkk
    rw [slot_lo_succ _ _ _ hl, he] at hlo
    exact bnd_le_bnd.1 hlo

/-- Depth facts of a well-formed tree. -/
theorem Inv.depth_facts {t : bptree K V} {kv : List (K × V)} (hI : Inv t kv) :
    (t.root = none ↔ t.depth = 0) ∧
    (∀ r rd, t.root = some r → heap_get t.heap r = some rd →
      (rd.type = bpnode_type.NODE_LEAF ↔ t.depth = 1)) ∧
    (∀ r n, t.root = some r → LeafPath t.heap r n → (n : Int) = t.depth) ∧
    (∀ r, t.root = some r → ∃ n : Nat, LeafPath t.heap r n) := by
  obtain ⟨g, L, hX, _⟩ := hI
  refine ⟨?_, ?_, ?_, ?_⟩
  · constructor
    · intro h
      exact (hX.root_none h).2
    · intro h
      cases hr : t.root with
      | none => rfl
      | some r =>
        obtain ⟨D, hgr, hD⟩ := hX.root_some r hr
        have := hX.ht_pos hgr
        simp only at this
        omega
  · intro r rd hr hrd
    obtain ⟨D, hgr, hD⟩ := hX.root_some r hr
    obtain ⟨rd0, q0, okr⟩ := hX.nodes r _ hgr
    rw [hrd] at q0
    cases q0
    constructor
    · intro hty
      have := (okr.leaf hty).1
      simp only at this
      omega
    · intro hd
      rcases okr.kind with hty | hty
      · exact hty
      · have := hX.inner_ht hgr hrd hty
        simp only at this
        omega
  · intro r n hr hp
    obtain ⟨D, hgr, hD⟩ := hX.root_some r hr
    have := hX.leaf_path hp _ hgr
    simp only at this
    omega
  · intro r hr
    obtain ⟨D, hgr, hD⟩ := hX.root_some r hr
    exact ⟨D, hX.leaf_path_exists D r _ hgr rfl⟩

/-- Root facts of a well-formed tree. -/
theorem Inv.root_facts {t : bptree K V} {kv : List (K × V)} (hI : Inv t kv) :
    (∀ r rd, t.root = some r → heap_get t.heap r = some rd →
      rd.type = bpnode_type.NODE_INNER →
        1 ≤ rd.keys.length ∧ rd.children.length = rd.keys.length + 1 ∧
        ∀ c ∈ rd.children, ∃ b bd, Desc t.heap c b ∧ heap_get t.heap b = some bd ∧
          bd.type = bpnode_type.NODE_LEAF ∧ 1 ≤ bd.keys.length) ∧
    (t.count = 1 → ∃ r rd k, t.root = some r ∧ heap_get t.heap r = some rd ∧
      rd.type = bpnode_type.NODE_LEAF ∧ rd.keys = [k] ∧ ∀ a, InTree t a → a = r) ∧
    (t.count = 0 ↔ t.root = none) := by
  obtain ⟨g, L, hX, hc⟩ := hI
  refine ⟨?_, ?_, ?_⟩
  · intro r rd hr hrd hty
    obtain ⟨D, hgr, hD⟩ := hX.root_some r hr
    obtain ⟨rd0, q0, okr⟩ := hX.nodes r _ hgr
    rw [hrd] at q0
    cases q0
    have o3 := okr.occ_in
    simp only [reduceCtorEq, if_false, Nat.add_zero] at o3
    obtain ⟨d, _, hch⟩ := okr.down hty
    refine ⟨o3, hch.length, ?_⟩
    intro c hcm
    obtain ⟨j, hj⟩ := List.mem_iff_getElem?.1 hcm
    obtain ⟨d1, cd, _, hgc, _, _, _⟩ := hX.child hgr hrd hty hj
    obtain ⟨b, bd, q1, q2, q3, q4, _⟩ := hX.subtree_leaf_desc _ _ _ hgc rfl
    exact ⟨b, bd, q1, q2, q3, q4⟩
  · intro h1
    cases hr : t.root with
    | none =>
      exfalso
      have hkv : kv = [] := by
        rw [hX.kv_eq]
        have hL : L = [] := by
          apply List.eq_nil_iff_forall_not_mem.2
          intro a ha
          obtain ⟨i, nd, hi, _, _⟩ := (hX.leaves a).1 ha
          rw [(hX.root_none hr).1 a] at hi
          cases hi
        rw [hL]
        rfl
      rw [hkv] at hc
      simp only [List.length_nil] at hc
      omega
    | some r =>
      obtain ⟨D, hgr, hD⟩ := hX.root_some r hr
      obtain ⟨rd, hrd, okr⟩ := hX.nodes r _ hgr
      rcases okr.kind with hty | hty
      · have hL := hX.root_leaf_only hr hrd hty
        have hkv : kv = rd.keys.zip rd.values := by
          rw [hX.kv_eq, hL]
          simp only [List.flatMap_cons, List.flatMap_nil, List.append_nil, leaf_pairs, hrd]
        have hvl := (okr.leaf hty).2
        have hlen : rd.keys.length = 1 := by
          rw [hkv, List.length_zip, hvl, Nat.min_self] at hc
          omega
        obtain ⟨k, hk⟩ := List.length_eq_one.1 hlen
        refine ⟨r, rd, k, rfl, hrd, hty, hk, ?_⟩
        intro a ha
        obtain ⟨r1, hr1, hd⟩ := ha
        rw [hr] at hr1
        cases hr1
        exact desc_of_leaf hrd hty hd
      · have := hX.inner_root_two hr hrd hty
        omega
  · constructor
    · intro h0
      cases hr : t.root with
      | none => rfl
      | some r =>
        exfalso
        obtain ⟨D, hgr, hD⟩ := hX.root_some r hr
        obtain ⟨b, bd, _, q2, _, q4, q5⟩ := hX.subtree_leaf_desc _ _ _ hgr rfl
        obtain ⟨i, nb, hi, hnb, htb, okb⟩ := hX.leaf_info q5
        rw [q2] at hnb
        cases hnb
        have hvl := (okb.leaf htb).2
        obtain ⟨s, u, hL⟩ := List.append_of_mem q5
        have : 1 ≤ kv.length := by
          rw [hX.kv_eq, hL]
          simp only [List.flatMap_append, List.flatMap_cons, List.length_append, leaf_pairs, q2,
            List.length_zip, hvl, Nat.min_self]
          omega
        omega
    · intro hr
      have hkv : kv = [] := by
        rw [hX.kv_eq]
        have hL : L = [] := by
          apply List.eq_nil_iff_forall_not_mem.2
          intro a ha
          obtain ⟨i, nd, hi, _, _⟩ := (hX.leaves a).1 ha
          rw [(hX.root_none hr).1 a] at hi
          cases hi
        rw [hL]
        rfl
      rw [hkv] at hc
      simpa using hc

end facts

end BPlus

namespace BPlus

section walk
variable {K V : Type} [LinearOrder K]

/-! ### The walk along the leaf chain on a well-formed tree -/

theorem line_rest_eq (keys : List K) :
    ∀ (n i : Nat), i + n = keys.length → line_rest keys n i = some (keys.drop i) := by
  intro n
  induction n with
  | zero =>
    intro i hi
    have : keys.length ≤ i := by omega
    simp only [line_rest, List.drop_eq_nil_of_le this]
  | succ n ih =>
    intro i hi
    have hlt : i < keys.length := by omega
    simp only [line_rest, List.getElem?_eq_getElem hlt, ih (i + 1) (by omega)]
    rw [← List.drop_eq_getElem_cons hlt]

theorem line_keys_eq {nd : bpnode K V} (hnk : nd.num_keys = (nd.keys.length : Int))
    (h1 : 1 ≤ nd.keys.length) : line_keys nd = some nd.keys := by
  have h0 : 0 < nd.keys.length := by omega
  have hn : nd.num_keys.toNat - 1 = nd.keys.length - 1 := by
    rw [hnk]
    simp
  simp only [line_keys, List.getElem?_eq_getElem h0, hn,
    line_rest_eq nd.keys (nd.keys.length - 1) 1 (by omega)]
  rw [← List.drop_eq_getElem_cons h0]
  simp

theorem nodup_length_le_of_lt (l : List Nat) (n : Nat) (hn : l.Nodup) (hl : ∀ x ∈ l, x < n) :
    l.length ≤ n := by
  have h1 : l.toFinset ⊆ Finset.range n := by
    intro x hx
    exact Finset.mem_range.2 (hl x (List.mem_toFinset.1 hx))
  have h2 := Finset.card_le_card h1
  rw [List.toFinset_card_of_nodup hn, Finset.card_range] at h2
  exact h2

theorem InvX.leaves_le {t : bptree K V} {g : Nat → Option (Info K)} {L : List Nat}
    {kv : List (K × V)} {e : Option Nat} {sl sh : Nat} (hI : InvX t g L kv e sl sh) :
    L.length ≤ t.heap.length := by
  apply nodup_length_le_of_lt L _ hI.leaf_nodup
  intro x hx
  obtain ⟨i, nd, _, hnd, _, _⟩ := hI.leaf_info hx
  exact heap_get_lt hnd

/-- The walk along the forward links from a leaf visits the rest of the leaf
list in order and reads every key of each leaf. -/
theorem InvX.leaf_walk_eq {t : bptree K V} {g : Nat → Option (Info K)} {L : List Nat}
    {kv : List (K × V)} (hI : InvX t g L kv none 0 0) :
    ∀ (S P : List Nat) (a fuel : Nat), L = P ++ a :: S → S.length + 1 ≤ fuel →
      leaf_walk t.heap fuel (some a) =
        some ((a :: S).map (fun x => (x, node_keys t.heap x))) := by
  intro S
  induction S with
  | nil =>
    intro P a fuel hL hf
    obtain ⟨f, rfl⟩ : ∃ f, fuel = f + 1 := ⟨fuel - 1, by simp at hf; omega⟩
    have ha : a ∈ L := by rw [hL]; simp
    obtain ⟨i, nd, hi, hnd, hty, ok⟩ := hI.leaf_info ha
    have o3 := ok.occ_in
    simp only [reduceCtorEq, if_false, Nat.add_zero] at o3
    have hlast : L.getLast? = some a := by rw [hL]; simp
    obtain ⟨nd1, q1, hnext⟩ := hI.last a hlast
    rw [hnd] at q1
    cases q1
    simp only [leaf_walk, hnd, hty, if_true, line_keys_eq ok.nk o3, hnext, List.map_cons,
      List.map_nil, node_keys]
  | cons b S ih =>
    intro P a fuel hL hf
    obtain ⟨f, rfl⟩ : ∃ f, fuel = f + 1 := ⟨fuel - 1, by simp at hf; omega⟩
    have ha : a ∈ L := by rw [hL]; simp
    obtain ⟨i, nd, hi, hnd, hty, ok⟩ := hI.leaf_info ha
    have o3 := ok.occ_in
    simp only [reduceCtorEq, if_false, Nat.add_zero] at o3
    have hch := hI.chain
    rw [hL] at hch
    have hlink : Linked t.heap g a b := ((List.chain'_split.1 hch).2).rel_head
    obtain ⟨nd1, ia, ib, q1, hnext, _, _, _⟩ := hlink
    rw [hnd] at q1
    cases q1
    have hrec := ih (P ++ [a]) b f (by rw [hL]; simp) (by simp at hf ⊢; omega)
    simp only [leaf_walk, hnd, hty, if_true, line_keys_eq ok.nk o3, hnext, hrec, List.map_cons,
      node_keys]

/-- A leaf whose interval starts at minus infinity heads the leaf list. -/
theorem InvX.first_leaf {t : bptree K V} {g : Nat → Option (Info K)} {L : List Nat}
    {kv : List (K × V)} {e : Option Nat} {sl sh : Nat} (hI : InvX t g L kv e sl sh)
    {b : Nat} {ib : Info K} (hb : b ∈ L) (hg : g b = some ib) (hlo : ib.lo = ⊥) :
    ∃ S, L = b :: S := by
  obtain ⟨P, S, hL⟩ := List.append_of_mem hb
  cases P with
  | nil => exact ⟨S, hL⟩
  | cons p P =>
    exfalso
    have hp : p ∈ L := by rw [hL]; simp
    obtain ⟨ip, pd, hip, _, _, okp⟩ := hI.leaf_info hp
    have ho := hI.leaf_order
    rw [hL] at ho
    have hrel := (List.pairwise_append.1 ho).2.2 p (by simp) b (by simp)
    obtain ⟨ia, ic, q1, q2, q3⟩ := hrel
    rw [hip] at q1
    cases q1
    rw [hg] at q2
    cases q2
    rw [hlo] at q3
    exact absurd (lt_of_lt_of_le okp.lohi q3) (not_lt_bot)

/-- A leaf whose interval ends at plus infinity ends the leaf list. -/
theorem InvX.final_leaf {t : bptree K V} {g : Nat → Option (Info K)} {L : List Nat}
    {kv : List (K × V)} {e : Option Nat} {sl sh : Nat} (hI : InvX t g L kv e sl sh)
    {b : Nat} {ib : Info K} (hb : b ∈ L) (hg : g b = some ib) (hhi : ib.hi = ⊤) :
    ∃ P, L = P ++ [b] := by
  obtain ⟨P, S, hL⟩ := List.append_of_mem hb
  cases S with
  | nil => exact ⟨P, hL⟩
  | cons s S =>
    exfalso
    have hs : s ∈ L := by rw [hL]; simp
    obtain ⟨is, sd, his, _, _, oks⟩ := hI.leaf_info hs
    have ho := hI.leaf_order
    rw [hL] at ho
    have hrel := List.rel_of_pairwise_cons (List.pairwise_append.1 ho).2.1
      (List.mem_cons_self s S)
    obtain ⟨ia, ic, q1, q2, q3⟩ := hrel
    rw [hg] at q1
    cases q1
    rw [his] at q2
    cases q2
    rw [hhi] at q3
    exact absurd (lt_of_le_of_lt q3 oks.lohi) (not_top_lt)

/-- The descent along the first children ends in the leaf that starts the
interval of the node. -/
theorem InvX.leftmost_eq {t : bptree K V} {g : Nat → Option (Info K)} {L : List Nat}
    {kv : List (K × V)} {e : Option Nat} {sl sh : Nat} (hI : InvX t g L kv e sl sh) :
    ∀ (fuel a : Nat) (i : Info K), g a = some i → i.ht ≤ fuel →
      ∃ b ib, leftmost t.heap fuel a = some b ∧ g b = some ib ∧ ib.lo = i.lo ∧ b ∈ L := by
  intro fuel
  induction fuel with
  | zero =>
    intro a i ha hf
    have := hI.ht_pos ha
    omega
  | succ f ih =>
    intro a i ha hf
    obtain ⟨nd, hnd, ok⟩ := hI.nodes a i ha
    rcases ok.kind with hty | hty
    · have hne : ¬ (nd.type = bpnode_type.NODE_INNER) := by
        rw [hty]
        intro h
        cases h
      refine ⟨a, i, ?_, ha, rfl, (hI.leaves a).2 ⟨i, nd, ha, hnd, hty⟩⟩
      simp only [leftmost, hnd, hne, if_false]
    · obtain ⟨d1, hd1, hch⟩ := ok.down hty
      have hl := hch.length
      have h0 : 0 < nd.children.length := by omega
      have hget := List.getElem?_eq_getElem h0
      obtain ⟨d2, cd, hd2, hgc, _, _, _⟩ := hI.child ha hnd hty hget
      obtain ⟨b, ib, q1, q2, q3, q4⟩ := ih _ _ hgc (by simp only; omega)
      refine ⟨b, ib, ?_, q2, ?_, q4⟩
      · simp only [leftmost, hnd, hty, if_true, hget, q1]
      · rw [q3]
        simp only [slot_lo_zero]

/-- On a well-formed tree the walk of `dump_leaf_keys` returns; it visits the
leaves of the leaf list in order and reads all keys of each. -/
theorem InvX.dump_leaf_keys_eq {t : bptree K V} {g : Nat → Option (Info K)} {L : List Nat}
    {kv : List (K × V)} (hI : InvX t g L kv none 0 0) :
    dump_leaf_keys t = some (L.map (fun x => (x, node_keys t.heap x))) := by
  cases hr : t.root with
  | none =>
    have hL : L = [] := by
      apply List.eq_nil_iff_forall_not_mem.2
      intro a ha
      obtain ⟨i, nd, hi, _, _⟩ := (hI.leaves a).1 ha
      rw [(hI.root_none hr).1 a] at hi
      cases hi
    simp only [dump_leaf_keys, hr, hL, List.map_nil]
  | some r =>
    obtain ⟨D, hgr, hD⟩ := hI.root_some r hr
    have hdl := hI.depth_le
    obtain ⟨b, ib, q1, q2, q3, q4⟩ := hI.leftmost_eq (t.heap.length + 1) r _ hgr
      (by simp only; omega)
    obtain ⟨S, hL⟩ := hI.first_leaf q4 q2 q3
    have hlen := hI.leaves_le
    have hw := hI.leaf_walk_eq S [] b (t.heap.length + 1) (by simpa using hL)
      (by rw [hL] at hlen; simp at hlen; omega)
    simp only [dump_leaf_keys, hr, q1, hw, hL]

/-! ### The leaves in the order of the child lists -/

theorem seg_glue {L P1 I1 S1 P2 I2 S2 P S : List Nat} {x y : Nat} (hn : L.Nodup)
    (h1 : L = P1 ++ (I1 ++ [y]) ++ S1) (h2 : L = P2 ++ (x :: I2) ++ S2)
    (h3 : L = P ++ y :: x :: S) : S1 = (x :: I2) ++ S2 := by
  have e1 : (P1 ++ I1) ++ y :: S1 = P ++ y :: (x :: S) := by
    rw [← h3, h1]
    simp
  have n1 : (P1 ++ I1 ++ y :: S1).Nodup := by
    have : P1 ++ I1 ++ y :: S1 = L := by rw [h1]; simp
    rw [this]
    exact hn
  have hy1 : y ∉ P1 ++ I1 := by
    intro hm
    exact (List.nodup_append.1 n1).2.2 hm (List.mem_cons_self y S1)
  have hy2 : y ∉ S1 := (List.nodup_cons.1 (List.nodup_append.1 n1).2.1).1
  obtain ⟨a1, _, a3⟩ := (List.append_cons_inj_of_not_mem hy1 hy2).1 e1
  have e2 : P2 ++ x :: (I2 ++ S2) = (P ++ [y]) ++ x :: S := by
    have : P2 ++ x :: (I2 ++ S2) = L := by rw [h2]; simp
    rw [this, h3]
    simp
  have n2 : (P2 ++ x :: (I2 ++ S2)).Nodup := by
    have : P2 ++ x :: (I2 ++ S2) = L := by rw [h2]; simp
    rw [this]
    exact hn
  have hx1 : x ∉ P2 := by
    intro hm
    exact (List.nodup_append.1 n2).2.2 hm (List.mem_cons_self x _)
  have hx2 : x ∉ I2 ++ S2 := (List.nodup_cons.1 (List.nodup_append.1 n2).2.1).1
  obtain ⟨_, _, b3⟩ := (List.append_cons_inj_of_not_mem hx1 hx2).1 e2
  rw [a3, ← b3]
  rfl

/-- A stretch `I` of the leaf list that starts the interval at `lo` and ends it
at `hi`. -/
theorem InvX.inorder_seg {t : bptree K V} {g : Nat → Option (Info K)} {L : List Nat}
    {kv : List (K × V)} (hI : InvX t g L kv none 0 0) :
    ∀ (fuel a : Nat) (i : Info K), g a = some i → i.ht ≤ fuel →
      ∃ P I S, L = P ++ I ++ S ∧ inorder_leaves t.heap fuel a = some I ∧
        (∃ x I1 ix, I = x :: I1 ∧ g x = some ix ∧ ix.lo = i.lo) ∧
        (∃ y I2 iy, I = I2 ++ [y] ∧ g y = some iy ∧ iy.hi = i.hi) := by
  intro fuel
  induction fuel with
  | zero =>
    intro a i ha hf
    have := hI.ht_pos ha
    omega
  | succ f ih =>
    intro a i ha hf
    obtain ⟨nd, hnd, ok⟩ := hI.nodes a i ha
    rcases ok.kind with hty | hty
    · have hm : a ∈ L := (hI.leaves a).2 ⟨i, nd, ha, hnd, hty⟩
      obtain ⟨P, S, hL⟩ := List.append_of_mem hm
      refine ⟨P, [a], S, by rw [hL]; simp, ?_, ⟨a, [], i, rfl, ha, rfl⟩, ⟨a, [], i, rfl, ha, rfl⟩⟩
      simp only [inorder_leaves, hnd, hty, if_true]
    · have hne : ¬ (nd.type = bpnode_type.NODE_LEAF) := by
        rw [hty]
        intro h
        cases h
      obtain ⟨d1, hd1, hch⟩ := ok.down hty
      have hl := hch.length
      have key : ∀ (cs : List Nat) (j : Nat), cs ≠ [] →
          (∀ q c, cs[q]? = some c → nd.children[j + q]? = some c) →
          j + cs.length = nd.children.length →
          ∃ P I S, L = P ++ I ++ S ∧ collect (inorder_leaves t.heap f) cs = some I ∧
            (∃ x I1 ix, I = x :: I1 ∧ g x = some ix ∧ ix.lo = slot_lo i.lo nd.keys j) ∧
            (∃ y I2 iy, I = I2 ++ [y] ∧ g y = some iy ∧ iy.hi = i.hi) := by
        intro cs
        induction cs with
        | nil =>
          intro j hnil
          exact absurd rfl hnil
        | cons c cs ihc =>
          intro j _ hget hlen
          have hcj : nd.children[j]? = some c := by
            have := hget 0 c (by simp)
            simpa using this
          obtain ⟨d2, cd, hd2, hgc, _, _, _⟩ := hI.child ha hnd hty hcj
          obtain ⟨P1, I1, S1, p1, p2, ⟨x1, J1, ix1, p3, p4, p5⟩, ⟨y1, J2, iy1, p6, p7, p8⟩⟩ :=
            ih c _ hgc (by simp only; omega)
          simp only at p5 p8
          cases cs with
          | nil =>
            simp only [List.length_singleton] at hlen
            refine ⟨P1, I1, S1, p1, ?_, ⟨x1, J1, ix1, p3, p4, p5⟩, ⟨y1, J2, iy1, p6, p7, ?_⟩⟩
            · simp only [collect, p2, List.append_nil]
            · rw [p8, slot_hi_ge (by omega)]
          | cons c2 cs2 =>
            simp only [List.length_cons] at hlen
            have hjl : j < nd.keys.length := by omega
            obtain ⟨P2, I2, S2, r1, r2, ⟨x2, J3, ix2, r3, r4, r5⟩, ⟨y2, J4, iy2, r6, r7, r8⟩⟩ :=
              ihc (j + 1) (by simp)
                (by
                  intro q c0 hq
                  have := hget (q + 1) c0 (by simpa using hq)
                  rw [← this]
                  congr 1
                  omega)
                (by simp only [List.length_cons]; omega)
            rw [slot_lo_succ _ _ _ hjl] at r5
            rw [slot_hi_lt (List.getElem?_eq_getElem hjl)] at p8
            have hy1 : y1 ∈ L := by rw [p1, p6]; simp
            have hx2 : x2 ∈ L := by rw [r1, r3]; simp
            obtain ⟨P, S, hadj⟩ := hI.adjacent hy1 hx2 p7 r4 (by rw [p8, r5])
            have hS1 : S1 = (x2 :: J3) ++ S2 :=
              seg_glue hI.leaf_nodup (by rw [p1, p6]) (by rw [r1, r3]) hadj
            refine ⟨P1, I1 ++ I2, S2, ?_, ?_, ⟨x1, J1 ++ I2, ix1, ?_, p4, p5⟩,
              ⟨y2, I1 ++ J4, iy2, ?_, r7, r8⟩⟩
            · rw [p1, hS1, r3]
              simp
            · have hc2 : collect (inorder_leaves t.heap f) (c2 :: cs2) = some I2 := r2
              simp only [collect, p2]
              simp only [collect] at hc2
              rw [hc2]
            · rw [p3]
              simp
            · rw [r6]
              simp
      have hcs : nd.children ≠ [] := by
        intro h
        rw [h] at hl
        simp at hl
      obtain ⟨P, I, S, q1, q2, ⟨x, J1, ix, q3, q4, q5⟩, q6⟩ := key nd.children 0 hcs
        (by intro q c hq; simpa using hq) (by simp)
      refine ⟨P, I, S, q1, ?_, ⟨x, J1, ix, q3, q4, ?_⟩, q6⟩
      · simp only [inorder_leaves, hnd, hty, reduceCtorEq, if_false, if_true, q2]
      · rw [q5]
        simp only [slot_lo_zero]

/-- The leaves below the root, in the order of the child lists, are the leaf
list. -/
theorem InvX.inorder_eq {t : bptree K V} {g : Nat → Option (Info K)} {L : List Nat}
    {kv : List (K × V)} (hI : InvX t g L kv none 0 0) {r : Nat} (hr : t.root = some r) :
    inorder_leaves t.heap (t.heap.length + 1) r = some L := by
  obtain ⟨D, hgr, hD⟩ := hI.root_some r hr
  have hdl := hI.depth_le
  obtain ⟨P, I, S, q1, q2, ⟨x, J1, ix, q3, q4, q5⟩, ⟨y, J2, iy, q6, q7, q8⟩⟩ :=
    hI.inorder_seg (t.heap.length + 1) r _ hgr (by simp only; omega)
  simp only at q5 q8
  have hx : x ∈ L := by rw [q1, q3]; simp
  have hy : y ∈ L := by rw [q1, q6]; simp
  obtain ⟨S1, h1⟩ := hI.first_leaf hx q4 q5
  obtain ⟨P1, h2⟩ := hI.final_leaf hy q7 q8
  have hn := hI.leaf_nodup
  have hP : P = [] := by
    have e1 : P ++ x :: (J1 ++ S) = [] ++ x :: S1 := by
      have : P ++ x :: (J1 ++ S) = L := by rw [q1, q3]; simp
      rw [this, h1]
      rfl
    have n1 : (P ++ x :: (J1 ++ S)).Nodup := by
      have : P ++ x :: (J1 ++ S) = L := by rw [q1, q3]; simp
      rw [this]
      exact hn
    have hx1 : x ∉ P := by
      intro hm
      exact (List.nodup_append.1 n1).2.2 hm (List.mem_cons_self x _)
    have hx2 : x ∉ J1 ++ S := (List.nodup_cons.1 (List.nodup_append.1 n1).2.1).1
    exact ((List.append_cons_inj_of_not_mem hx1 hx2).1 e1).1
  have hS : S = [] := by
    have e1 : (P ++ J2) ++ y :: S = P1 ++ y :: [] := by
      have : (P ++ J2) ++ y :: S = L := by rw [q1, q6]; simp
      rw [this, h2]
    have n1 : ((P ++ J2) ++ y :: S).Nodup := by
      have : (P ++ J2) ++ y :: S = L := by rw [q1, q6]; simp
      rw [this]
      exact hn
    have hy1 : y ∉ P ++ J2 := by
      intro hm
      exact (List.nodup_append.1 n1).2.2 hm (List.mem_cons_self y _)
    have hy2 : y ∉ S := (List.nodup_cons.1 (List.nodup_append.1 n1).2.1).1
    exact ((List.append_cons_inj_of_not_mem hy1 hy2).1 e1).2.2
  rw [q2, q1, hP, hS]
  simp

/-! ### Keys read by the walk -/

theorem kv_lookup_eq_none_iff (k : K) (l : List (K × V)) :
    kv_lookup k l = none ↔ k ∉ l.map Prod.fst := by
  induction l with
  | nil => simp [kv_lookup]
  | cons p l ih =>
    obtain ⟨k1, v1⟩ := p
    simp only [kv_lookup, List.map_cons, List.mem_cons, not_or]
    by_cases h : k1 = k
    · simp [h]
    · simp only [h, if_false, ih]
      constructor
      · intro h2
        exact ⟨fun h3 => h h3.symm, h2⟩
      · intro h2
        exact h2.2

/-- The keys read by the walk, leaf after leaf, are the keys of the abstract
content. -/
theorem InvX.walk_keys {t : bptree K V} {g : Nat → Option (Info K)} {L : List Nat}
    {kv : List (K × V)} (hI : InvX t g L kv none 0 0) :
    (L.map (fun x => (x, node_keys t.heap x))).flatMap Prod.snd = kv.map Prod.fst := by
  rw [hI.kv_eq]
  have hall : ∀ a ∈ L, node_keys t.heap a = (leaf_pairs t.heap a).map Prod.fst := by
    intro a ha
    obtain ⟨i, nd, _, hnd, hty, ok⟩ := hI.leaf_info ha
    simp only [node_keys, leaf_pairs, hnd]
    rw [List.map_fst_zip]
    rw [(ok.leaf hty).2]
  have hgen : ∀ (l : List Nat), (∀ a ∈ l, node_keys t.heap a = (leaf_pairs t.heap a).map Prod.fst) →
      (l.map (fun x => (x, node_keys t.heap x))).flatMap Prod.snd =
        (l.flatMap (leaf_pairs t.heap)).map Prod.fst := by
    intro l
    induction l with
    | nil => intro _; rfl
    | cons a l ihl =>
      intro h
      simp only [List.map_cons, List.flatMap_cons, List.map_append]
      rw [h a (by simp), ihl (fun x hx => h x (List.mem_cons_of_mem _ hx))]
  exact hgen L hall

end walk

end BPlus

namespace BPlus

/-! ## Runs that keep the counter in the range of `int` -/

section reach3
variable {K V : Type} [LinearOrder K]

theorem run_ops_int_run_ops (ops : List (Op K V)) :
    ∀ {t t1 : bptree K V}, run_ops_int t ops = some t1 → run_ops t ops = some t1 := by
  induction ops with
  | nil =>
    intro t t1 h
    exact h
  | cons op ops ih =>
    intro t t1 h
    simp only [run_ops_int] at h
    simp only [run_ops]
    cases ha : apply_op t op with
    | none => rw [ha] at h; cases h
    | some t2 =>
      rw [ha] at h
      simp only at h
      by_cases hc : -2147483648 ≤ t2.count ∧ t2.count ≤ 2147483647
      · rw [if_pos hc] at h
        exact ih h
      · rw [if_neg hc] at h
        cases h

theorem run_ops_int_count (ops : List (Op K V)) :
    ∀ {t t1 : bptree K V}, run_ops_int t ops = some t1 →
      (-2147483648 ≤ t.count ∧ t.count ≤ 2147483647) →
      -2147483648 ≤ t1.count ∧ t1.count ≤ 2147483647 := by
  induction ops with
  | nil =>
    intro t t1 h hc
    cases h
    exact hc
  | cons op ops ih =>
    intro t t1 h _
    simp only [run_ops_int] at h
    cases ha : apply_op t op with
    | none => rw [ha] at h; cases h
    | some t2 =>
      rw [ha] at h
      simp only at h
      by_cases hc : -2147483648 ≤ t2.count ∧ t2.count ≤ 2147483647
      · rw [if_pos hc] at h
        exact ih h hc
      · rw [if_neg hc] at h
        cases h

/-- A run that keeps the counter in range is a run. -/
theorem ReachableInt.reachable {m : Nat} {t : bptree K V} (hr : ReachableInt m t) :
    Reachable m t := by
  obtain ⟨ops, h⟩ := hr
  exact ⟨ops, run_ops_int_run_ops ops h⟩

/-- After a run that keeps the counter in range the counter is in range. -/
theorem ReachableInt.count_le {m : Nat} {t : bptree K V} (hr : ReachableInt m t) :
    t.count ≤ 2147483647 := by
  obtain ⟨ops, h⟩ := hr
  exact (run_ops_int_count ops h ⟨by simp [bptree_new], by simp [bptree_new]⟩).2

/-- One more call that leaves the counter in range extends such a run. -/
theorem run_ops_int_snoc (ops : List (Op K V)) (op : Op K V) :
    ∀ {t t1 t2 : bptree K V}, run_ops_int t ops = some t1 → apply_op t1 op = some t2 →
      (-2147483648 ≤ t2.count ∧ t2.count ≤ 2147483647) →
      run_ops_int t (ops ++ [op]) = some t2 := by
  induction ops with
  | nil =>
    intro t t1 t2 h ha hc
    cases h
    simp only [List.nil_append, run_ops_int, ha, if_pos hc]
  | cons o ops ih =>
    intro t t1 t2 h ha hc
    simp only [run_ops_int] at h
    simp only [List.cons_append, run_ops_int]
    cases hb : apply_op t o with
    | none => rw [hb] at h; cases h
    | some t3 =>
      rw [hb] at h
      simp only at h ⊢
      by_cases hc3 : -2147483648 ≤ t3.count ∧ t3.count ≤ 2147483647
      · rw [if_pos hc3] at h
        rw [if_pos hc3]
        exact ih h ha hc
      · rw [if_neg hc3] at h
        cases h

end reach3

end BPlus

namespace BPlus

/-! ## The properties of the public calls on reachable trees -/

theorem tree_a_reachable : Reachable 4 tree_a := ⟨ops_a, rfl⟩

theorem big_reachable (n : Nat) (hn : n ≤ 32767) : Reachable 32768 (big 32768 (n + 1)) :=
  ⟨ins_ops (n + 1), reach_big n hn⟩

section claimsB
variable {K V : Type} [LinearOrder K]

/-- C1, amended (round trip of an insertion): for every fanout `m` with
`3 ≤ m ≤ 32767`, every tree reachable from the empty tree by insertions and
deletions, every key `k` and value `v`, `insert_key(k, v)` returns and afterwards
`find_key(k)` reports found with exactly `v`, whether `k` was new or present. -/
theorem insert_then_find {m : Nat} (h3 : 3 ≤ m) (h16 : m ≤ 32767) {t : bptree K V}
    (hr : Reachable m t) (k : K) (v : V) :
    ∃ t1, insert_key t k v = some t1 ∧ find_key t1 k = some (some v) := by
  obtain ⟨kv, hI, _⟩ := reachable_inv h3 h16 hr
  obtain ⟨t1, h1, h2, _⟩ := hI.insert_key_ok k v
  obtain ⟨g, L, hX, _⟩ := h2
  refine ⟨t1, h1, ?_⟩
  rw [hX.find_key_eq, kv_lookup_insert, if_pos rfl]

/-- C2, amended (deletion): for every fanout `m` with `3 ≤ m ≤ 32767`, every
reachable tree and every key `k`, `delete_key(k)` returns, its flag is true
exactly when `find_key(k)` reported found before the call, and after the call
`find_key(k)` reports not found. -/
theorem delete_then_find {m : Nat} (h3 : 3 ≤ m) (h16 : m ≤ 32767) {t : bptree K V}
    (hr : Reachable m t) (k : K) :
    ∃ b t1, delete_key t k = some (b, t1) ∧
      (b = true ↔ ∃ v, find_key t k = some (some v)) ∧ find_key t1 k = some none := by
  obtain ⟨kv, hI, _⟩ := reachable_inv h3 h16 hr
  obtain ⟨t1, h1, h2, _⟩ := hI.delete_key_ok k
  obtain ⟨g, L, hX, _⟩ := hI
  obtain ⟨g1, L1, hX1, _⟩ := h2
  refine ⟨_, t1, h1, ?_, ?_⟩
  · rw [hX.find_key_eq]
    cases kv_lookup k kv with
    | none => simp
    | some v => simp
  · rw [hX1.find_key_eq, kv_lookup_erase, if_pos rfl]

/-- C3, amended (refinement of a reference map): for every fanout `m` with
`3 ≤ m ≤ 32767` and every finite sequence of insertions and deletions applied to
the empty tree, the run returns a tree, and for every key `x` the answer of
`find_key(x)` is the entry of the reference map after the same calls (insert is
put, delete is erase): found with the reference value when the map has `x`, not
found otherwise.  As the sequence is arbitrary this holds after every call. -/
theorem find_refines_map {m : Nat} (h3 : 3 ≤ m) (h16 : m ≤ 32767) (ops : List (Op K V)) :
    ∃ t, run_ops (bptree_new m : bptree K V) ops = some t ∧
      ∀ x, find_key t x = some (ref_run ref_empty ops x) := by
  obtain ⟨t, h1, h2, _⟩ := Inv.run_ops_ok ops (Inv.empty (K := K) (V := V) m h3 h16)
  obtain ⟨g, L, hX, _⟩ := h2
  refine ⟨t, h1, ?_⟩
  intro x
  rw [hX.find_key_eq, kv_lookup_run]
  rfl

/-- C13 (no failing step): for every fanout `m ≥ 3` and every tree reachable
from the empty tree, `insert_key` and `delete_key` run to completion for every
key and value: no vector access, assertion, child search or sibling selection
of the run fails (a failing step is the result `none` of the model). -/
theorem insert_delete_total {m : Nat} (h3 : 3 ≤ m) {t : bptree K V} (hr : Reachable m t) :
    (∀ k v, ∃ t1, insert_key t k v = some t1) ∧
    (∀ k, ∃ b t1, delete_key t k = some (b, t1)) := by
  obtain ⟨_, hc⟩ := reachable_cases h3 hr
  rcases hc with ⟨kv, hI⟩ | hI
  · constructor
    · intro k v
      obtain ⟨t1, h1, _⟩ := hI.insert_key_ok k v
      exact ⟨t1, h1⟩
    · intro k
      obtain ⟨t1, h1, _⟩ := hI.delete_key_ok k
      exact ⟨_, t1, h1⟩
  · constructor
    · intro k v
      obtain ⟨t1, h1, _⟩ := hI.insert_ok k v
      exact ⟨t1, h1⟩
    · intro k
      obtain ⟨b, t1, h1, _⟩ := hI.delete_ok k
      exact ⟨b, t1, h1⟩

end claimsB

/-- Witness of C1 on the tree with the leaves `{1, 2}` and `{3, 4}`. -/
theorem insert_then_find_witness :
    ∃ t1, insert_key tree_a 5 50 = some t1 ∧ find_key t1 5 = some (some 50) :=
  insert_then_find (by decide) (by decide) tree_a_reachable 5 50

/-- Witness of C2 on the tree with the leaves `{1, 2}` and `{3, 4}`. -/
theorem delete_then_find_witness :
    ∃ b t1, delete_key tree_a 3 = some (b, t1) ∧
      (b = true ↔ ∃ v, find_key tree_a 3 = some (some v)) ∧ find_key t1 3 = some none :=
  delete_then_find (by decide) (by decide) tree_a_reachable 3

/-- Witness of C3 for fanout 4 and the insertions of 1, 2, 3, 4. -/
theorem find_refines_map_witness :
    ∃ t, run_ops (bptree_new 4 : bptree Nat Nat) ops_a = some t ∧
      ∀ x, find_key t x = some (ref_run ref_empty ops_a x) :=
  find_refines_map (by decide) (by decide) ops_a

/-- Witness of C13 on the tree with the leaves `{1, 2}` and `{3, 4}`. -/
theorem insert_delete_total_witness :
    (∀ k v, ∃ t1, insert_key tree_a k v = some t1) ∧
    (∀ k, ∃ b t1, delete_key tree_a k = some (b, t1)) :=
  insert_delete_total (by decide) tree_a_reachable

/-- C1, counterexample: with fanout 32768 the tree reached by inserting the keys
`0, …, 32766` accepts `insert_key(32767, 0)`, and afterwards `find_key(32767)`
reports not found. -/
theorem insert_then_find_fails :
    Reachable 32768 (big 32768 32767) ∧
    insert_key (big 32768 32767) 32767 0 = some (big 32768 32768) ∧
    find_key (big 32768 32768) 32767 = some none :=
  ⟨big_reachable 32766 (by omega), insert_key_big 32768 (Nat.le_refl _) 32767 (Nat.le_refl _),
    find_key_big 32767⟩

theorem ref_run_append {K V : Type} [LinearOrder K] (a b : List (Op K V)) :
    ∀ (f : K → Option V), ref_run f (a ++ b) = ref_run (ref_run f a) b := by
  induction a with
  | nil => intro f; rfl
  | cons op a ih =>
    intro f
    simp only [List.cons_append, ref_run]
    exact ih _

/-- The reference map after the insertions of the keys `0, …, n - 1`. -/
theorem ref_run_ins_ops (n : Nat) (f : Nat → Option Nat) (x : Nat) :
    ref_run f (ins_ops n) x = if x < n then some 0 else f x := by
  induction n with
  | zero => simp [ins_ops, ref_run]
  | succ n ih =>
    rw [ins_ops_succ, ref_run_append]
    simp only [ref_run, ref_apply]
    by_cases hx : x = n
    · subst hx
      simp
    · rw [if_neg hx, ih]
      by_cases h1 : x < n
      · rw [if_pos h1, if_pos (by omega)]
      · rw [if_neg h1, if_neg (by omega)]

/-- C3, counterexample: with fanout 32768, after the insertions of the keys
`0, …, 32767` into the empty tree `find_key(0)` reports not found, while the
reference map holds the key `0` with the value `0`. -/
theorem find_refines_map_fails :
    run_ops (bptree_new 32768) (ins_ops 32768) = some (big 32768 32768) ∧
    find_key (big 32768 32768) 0 = some none ∧
    ref_run ref_empty (ins_ops 32768) 0 = some 0 :=
  ⟨reach_big 32767 (Nat.le_refl _), find_key_big 0, by rw [ref_run_ins_ops]; rfl⟩

/-- C2, counterexample: with fanout 32768 a reachable tree holds the key `0`
several times; `delete_key(0)` returns true and afterwards `find_key(0)` still
reports found. -/
theorem delete_then_find_fails :
    Reachable 32768 (dup_end 32768 32770) ∧
    delete_key (dup_end 32768 32770) 0 = some (true, dup_end 32768 32769) ∧
    find_key (dup_end 32768 32769) 0 = some (some 0) :=
  ⟨⟨_, reach_dup_end⟩, delete_key_dup_end, find_key_dup_end⟩

end BPlus

namespace BPlus

/-! ## Structural invariants of reachable trees -/

theorem node_keys_leaf_tree (m : Nat) (ks vs : List Nat) :
    node_keys (leaf_tree m ks vs).heap 0 = ks := rfl

theorem in_tree_leaf_tree (m : Nat) (ks vs : List Nat) : InTree (leaf_tree m ks vs) 0 :=
  ⟨0, rfl, Desc.here 0⟩

theorem dup_reachable (j : Nat) (hj : j ≤ 32769) : Reachable 32768 (dup 32768 (j + 1)) :=
  ⟨_, reach_dup j hj⟩

theorem replicate_two_not_sorted (R : List Nat) :
    ¬ (List.replicate 2 0 ++ R).Pairwise (fun x y => x < y) := by
  intro h
  have h2 : (0 :: 0 :: R).Pairwise (fun x y => x < y) := h
  have := List.rel_of_pairwise_cons h2 (List.mem_cons_self 0 R)
  omega

theorem big_root_keys : (node_keys (big 32768 32768).heap 0).length = 32768 := by
  show (node_keys (leaf_tree 32768 (List.range 32768) (List.replicate 32768 0)).heap 0).length
    = 32768
  rw [node_keys_leaf_tree]
  exact List.length_range 32768

section claimsC
variable {K V : Type} [LinearOrder K]

/-- Depth facts of a tree with an oversized fanout. -/
theorem Inv2.depth_facts2 {t : bptree K V} (hI : Inv2 t) :
    (t.root = none ↔ t.depth = 0) ∧
    (∀ r rd, t.root = some r → heap_get t.heap r = some rd →
      (rd.type = bpnode_type.NODE_LEAF ↔ t.depth = 1)) ∧
    (∀ r n, t.root = some r → LeafPath t.heap r n → (n : Int) = t.depth) ∧
    (∀ r, t.root = some r → ∃ n : Nat, LeafPath t.heap r n) := by
  obtain ⟨_, hc⟩ := hI
  rcases hc with ⟨hr, hd, _⟩ | ⟨r, nd, hr, hnd, hty, _, _, _, _, _, hd⟩
  · refine ⟨⟨fun _ => hd, fun _ => hr⟩, ?_, ?_, ?_⟩
    · intro r rd h
      rw [hr] at h
      cases h
    · intro r n h
      rw [hr] at h
      cases h
    · intro r h
      rw [hr] at h
      cases h
  · refine ⟨⟨?_, ?_⟩, ?_, ?_, ?_⟩
    · intro h
      rw [hr] at h
      cases h
    · intro h
      omega
    · intro r1 rd h1 h2
      rw [hr] at h1
      cases h1
      rw [hnd] at h2
      cases h2
      exact ⟨fun _ => hd, fun _ => hty⟩
    · intro r1 n h1 hp
      rw [hr] at h1
      cases h1
      rw [leaf_path_of_leaf hnd hty hp, hd]
      rfl
    · intro r1 h1
      rw [hr] at h1
      cases h1
      exact ⟨1, LeafPath.leaf hnd hty⟩

/-- Root facts of a tree with an oversized fanout. -/
theorem Inv2.root_facts2 {t : bptree K V} (hI : Inv2 t) :
    (∀ r rd, t.root = some r → heap_get t.heap r = some rd →
      rd.type = bpnode_type.NODE_INNER →
        1 ≤ rd.keys.length ∧ rd.children.length = rd.keys.length + 1 ∧
        ∀ c ∈ rd.children, ∃ b bd, Desc t.heap c b ∧ heap_get t.heap b = some bd ∧
          bd.type = bpnode_type.NODE_LEAF ∧ 1 ≤ bd.keys.length) ∧
    (t.count = 1 → ∃ r rd k, t.root = some r ∧ heap_get t.heap r = some rd ∧
      rd.type = bpnode_type.NODE_LEAF ∧ rd.keys = [k] ∧ ∀ a, InTree t a → a = r) ∧
    (t.count = 0 ↔ t.root = none) := by
  obtain ⟨_, hc⟩ := hI
  rcases hc with ⟨hr, hd, hcnt⟩ | ⟨r, nd, hr, hnd, hty, _, _, _, h1, hcnt, hd⟩
  · refine ⟨?_, ?_, ⟨fun _ => hr, fun _ => hcnt⟩⟩
    · intro r rd h
      rw [hr] at h
      cases h
    · intro h
      omega
  · refine ⟨?_, ?_, ⟨?_, ?_⟩⟩
    · intro r1 rd h1 h2 h3
      rw [hr] at h1
      cases h1
      rw [hnd] at h2
      cases h2
      rw [hty] at h3
      cases h3
    · intro hc1
      have hlen : nd.keys.length = 1 := by omega
      obtain ⟨k, hk⟩ := List.length_eq_one.1 hlen
      refine ⟨r, nd, k, hr, hnd, hty, hk, ?_⟩
      intro a ha
      obtain ⟨r1, hr1, hdd⟩ := ha
      rw [hr] at hr1
      cases hr1
      exact desc_of_leaf hnd hty hdd
    · intro h0
      omega
    · intro h
      rw [hr] at h
      cases h

/-- C9 (depth invariant): for every fanout `m ≥ 3` and every reachable tree,
`get_depth()` is 0 exactly when the root is absent and 1 exactly when the root
is a leaf, every path from the root down to a leaf has exactly `get_depth()`
nodes (so all leaves lie at the same level), and such a path exists when the
tree is not empty. -/
theorem depth_invariant {m : Nat} (h3 : 3 ≤ m) {t : bptree K V} (hr : Reachable m t) :
    (t.root = none ↔ get_depth t = 0) ∧
    (∀ r rd, t.root = some r → heap_get t.heap r = some rd →
      (rd.type = bpnode_type.NODE_LEAF ↔ get_depth t = 1)) ∧
    (∀ r n, t.root = some r → LeafPath t.heap r n → (n : Int) = get_depth t) ∧
    (∀ r, t.root = some r → ∃ n : Nat, LeafPath t.heap r n) := by
  obtain ⟨_, hc⟩ := reachable_cases h3 hr
  rcases hc with ⟨kv, hI⟩ | hI
  · exact hI.depth_facts
  · exact hI.depth_facts2

/-- C10, amended (depth steps): for every fanout `m ≥ 3`, every reachable tree
and every single call, `get_depth()` changes by at most one.  It grows by one
only in an `insert_key` that either found the tree empty (the first leaf is
created) or split the root (a new inner root with one key above the old root);
it shrinks by one only in a `delete_key` that either removed the last key of the
tree (the root is discarded) or emptied an inner root by a merge (the root is
replaced by its only child). -/
theorem depth_step {m : Nat} (h3 : 3 ≤ m) {t : bptree K V} (hr : Reachable m t) :
    (∀ k v, ∃ t1, insert_key t k v = some t1 ∧
      (get_depth t1 = get_depth t ∨
        (get_depth t1 = get_depth t + 1 ∧ (t.root = none ∨ RootSplit t t1)))) ∧
    (∀ k, ∃ b t1, delete_key t k = some (b, t1) ∧
      (get_depth t1 = get_depth t ∨
        (get_depth t1 = get_depth t - 1 ∧
          ((get_count t = 1 ∧ t1.root = none) ∨ RootCollapse t t1)))) := by
  obtain ⟨_, hc⟩ := reachable_cases h3 hr
  rcases hc with ⟨kv, hI⟩ | hI
  · constructor
    · intro k v
      obtain ⟨t1, h1, _, _, _, h5⟩ := hI.insert_key_ok k v
      exact ⟨t1, h1, h5⟩
    · intro k
      obtain ⟨t1, h1, _, _, _, h5⟩ := hI.delete_key_ok k
      exact ⟨_, t1, h1, h5⟩
  · constructor
    · intro k v
      obtain ⟨t1, h1, _, _, h5⟩ := hI.insert_ok k v
      refine ⟨t1, h1, ?_⟩
      rcases h5 with h | ⟨h, h6⟩
      · exact Or.inl h
      · exact Or.inr ⟨h, Or.inl h6⟩
    · intro k
      obtain ⟨b, t1, h1, _, _, h5⟩ := hI.delete_ok k
      refine ⟨b, t1, h1, ?_⟩
      rcases h5 with h | ⟨h, h6, h7⟩
      · exact Or.inl h
      · exact Or.inr ⟨h, Or.inl ⟨h6, h7⟩⟩

/-- C8, amended (occupancy): for every fanout `m` with `3 ≤ m ≤ 32767` and every
reachable tree, every node of the tree holds at most `m - 1` keys, every node
other than the root holds at least `(m - 1) / 2` keys, every inner node has one
child more than keys, and every leaf has as many values as keys. -/
theorem occupancy_invariant {m : Nat} (h3 : 3 ≤ m) (h16 : m ≤ 32767) {t : bptree K V}
    (hr : Reachable m t) {a : Nat} {nd : bpnode K V} (ha : InTree t a)
    (hnd : heap_get t.heap a = some nd) :
    nd.keys.length ≤ m - 1 ∧
    (t.root ≠ some a → (m - 1) / 2 ≤ nd.keys.length) ∧
    (nd.type = bpnode_type.NODE_INNER → nd.children.length = nd.keys.length + 1) ∧
    (nd.type = bpnode_type.NODE_LEAF → nd.values.length = nd.keys.length) := by
  obtain ⟨kv, hI, hm⟩ := reachable_inv h3 h16 hr
  obtain ⟨_, q2, q3, _, _, q6, q7⟩ := hI.occupancy ha hnd
  rw [hm] at q2 q3
  exact ⟨q2, q3, q6, q7⟩

/-- C11, amended (`check()` passes): for every fanout `m` with `3 ≤ m ≤ 32767`
and every reachable tree, `check()` returns without reporting a violation; the
root has no parent, every child of a node of the tree has that node as its
parent, every node of the tree has a counter `num_keys` below `m` that equals
the number of its keys, every inner node has `num_keys + 1` children, and the
root is not an inner node while the depth is 1. -/
theorem check_passes {m : Nat} (h3 : 3 ≤ m) (h16 : m ≤ 32767) {t : bptree K V}
    (hr : Reachable m t) :
    check t = some true ∧
    (∀ r rd, t.root = some r → heap_get t.heap r = some rd → rd.parent = none) ∧
    (∀ a nd c, InTree t a → heap_get t.heap a = some nd →
      nd.type = bpnode_type.NODE_INNER → c ∈ nd.children →
        ∃ cd, heap_get t.heap c = some cd ∧ cd.parent = some a) ∧
    (∀ a nd, InTree t a → heap_get t.heap a = some nd →
      nd.num_keys < (m : Int) ∧ nd.num_keys = (nd.keys.length : Int) ∧
      (nd.type = bpnode_type.NODE_INNER →
        (nd.children.length : Int) = nd.num_keys + 1)) ∧
    (∀ r rd, t.root = some r → heap_get t.heap r = some rd →
      ¬ (rd.type = bpnode_type.NODE_INNER ∧ t.depth = 1)) := by
  obtain ⟨kv, hI, hm⟩ := reachable_inv h3 h16 hr
  refine ⟨hI.check_ok, hI.parents.1, hI.parents.2, ?_, ?_⟩
  · intro a nd ha hnd
    obtain ⟨_, q2, _, q4, _, q6, _⟩ := hI.occupancy ha hnd
    rw [hm] at q2
    refine ⟨by omega, q4, ?_⟩
    intro hty
    rw [q4, q6 hty]
    push_cast
    rfl
  · intro r rd hr1 hrd h
    have := (hI.depth_facts.2.1 r rd hr1 hrd).2 h.2
    rw [h.1] at this
    cases this

/-- C14, amended (range invariant): for every fanout `m` with `3 ≤ m ≤ 32767` and
every reachable tree, the keys of every node of the tree ascend strictly, and
for every inner node of the tree with child number `j`, every key stored
anywhere below that child is smaller than key number `j` of the node (when there
is one) and not smaller than key number `j - 1` (when `j > 0`). -/
theorem range_invariant {m : Nat} (h3 : 3 ≤ m) (h16 : m ≤ 32767) {t : bptree K V}
    (hr : Reachable m t) :
    (∀ a nd, InTree t a → heap_get t.heap a = some nd →
      nd.keys.Pairwise (fun x y => x < y)) ∧
    (∀ a nd j c b bd key, InTree t a → heap_get t.heap a = some nd →
      nd.type = bpnode_type.NODE_INNER → nd.children[j]? = some c →
      Desc t.heap c b → heap_get t.heap b = some bd → key ∈ bd.keys →
        (∀ k, nd.keys[j]? = some k → key < k) ∧
        (∀ i k, j = i + 1 → nd.keys[i]? = some k → k ≤ key)) := by
  obtain ⟨kv, hI, hm⟩ := reachable_inv h3 h16 hr
  constructor
  · intro a nd ha hnd
    exact hI.node_sorted ha hnd
  · intro a nd j c b bd key ha hnd hty hj hd hbd hk
    exact hI.ranges ha hnd hty hj hd hbd hk

end claimsC

/-- Witness of C9 on the tree with the leaves `{1, 2}` and `{3, 4}`. -/
theorem depth_invariant_witness :
    (tree_a.root = none ↔ get_depth tree_a = 0) ∧
    (∀ r rd, tree_a.root = some r → heap_get tree_a.heap r = some rd →
      (rd.type = bpnode_type.NODE_LEAF ↔ get_depth tree_a = 1)) ∧
    (∀ r n, tree_a.root = some r → LeafPath tree_a.heap r n → (n : Int) = get_depth tree_a) ∧
    (∀ r, tree_a.root = some r → ∃ n : Nat, LeafPath tree_a.heap r n) :=
  depth_invariant (m := 4) (by decide) (show Reachable 4 tree_a from ⟨ops_a, rfl⟩)

/-- Witness of C10 on the tree with the leaves `{1, 2}` and `{3, 4}`. -/
theorem depth_step_witness :
    (∀ k v, ∃ t1, insert_key tree_a k v = some t1 ∧
      (get_depth t1 = get_depth tree_a ∨
        (get_depth t1 = get_depth tree_a + 1 ∧ (tree_a.root = none ∨ RootSplit tree_a t1)))) ∧
    (∀ k, ∃ b t1, delete_key tree_a k = some (b, t1) ∧
      (get_depth t1 = get_depth tree_a ∨
        (get_depth t1 = get_depth tree_a - 1 ∧
          ((get_count tree_a = 1 ∧ t1.root = none) ∨ RootCollapse tree_a t1)))) :=
  depth_step (m := 4) (by decide) (show Reachable 4 tree_a from ⟨ops_a, rfl⟩)

/-- C10, counterexample: the first insertion into the empty tree of fanout 4
raises the depth from 0 to 1 although no node exists that could be split, and
the deletion of the only key lowers it from 1 to 0 although no merge takes
place (the tree has a single leaf). -/
theorem depth_step_without_split :
    insert_key (bptree_new 4) 1 10 = some tree_one ∧
    get_depth (bptree_new 4 : bptree Nat Nat) = 0 ∧ get_depth tree_one = 1 ∧
    (bptree_new 4 : bptree Nat Nat).heap = [] ∧
    ¬ RootSplit (bptree_new 4 : bptree Nat Nat) tree_one ∧
    (∃ t1, delete_key tree_one 1 = some (true, t1) ∧ get_depth t1 = 0 ∧
      ¬ RootCollapse tree_one t1) := by
  refine ⟨rfl, rfl, rfl, rfl, ?_, ?_⟩
  · rintro ⟨r, nr, sep, c2, h, _⟩
    cases h
  · refine ⟨_, rfl, rfl, ?_⟩
    rintro ⟨r, rd, c0, h1, h2, _⟩
    cases h1
    cases h2

/-- Witness of C8 at the root of the tree with the leaves `{1, 2}` and
`{3, 4}`. -/
theorem occupancy_invariant_witness :
    [3].length ≤ 4 - 1 ∧
    (tree_a.root ≠ some 2 → (4 - 1) / 2 ≤ [3].length) ∧
    (bpnode_type.NODE_INNER = bpnode_type.NODE_INNER → [0, 1].length = [3].length + 1) ∧
    (bpnode_type.NODE_INNER = bpnode_type.NODE_LEAF → ([] : List Nat).length = [3].length) :=
  occupancy_invariant (m := 4) (by decide) (by decide) (show Reachable 4 tree_a from ⟨ops_a, rfl⟩)
    (a := 2) ⟨2, rfl, Desc.here 2⟩ rfl

/-- C8, counterexample: with fanout 32768 the tree reached by inserting the keys
`0, …, 32767` has a node that holds 32768 keys, more than `m - 1`. -/
theorem occupancy_fails :
    Reachable 32768 (big 32768 32768) ∧ InTree (big 32768 32768) 0 ∧
    (node_keys (big 32768 32768).heap 0).length = 32768 ∧ (big 32768 32768).m = 32768 :=
  ⟨big_reachable 32767 (Nat.le_refl _), in_tree_leaf_tree _ _ _, big_root_keys, rfl⟩

/-- Witness of C11 on the tree with the leaves `{1, 2}` and `{3, 4}`. -/
theorem check_passes_witness : check tree_a = some true :=
  (check_passes (m := 4) (by decide) (by decide) (show Reachable 4 tree_a from ⟨ops_a, rfl⟩)).1

/-- C11, counterexample: with fanout 32768 `check()` reports a violation on the
tree reached by inserting the keys `0, …, 32767`. -/
theorem check_fails :
    Reachable 32768 (big 32768 32768) ∧ check (big 32768 32768) = some false :=
  ⟨big_reachable 32767 (Nat.le_refl _), check_big⟩

/-- Witness of C14 on the tree with the leaves `{1, 2}` and `{3, 4}`. -/
theorem range_invariant_witness :
    (∀ a nd, InTree tree_a a → heap_get tree_a.heap a = some nd →
      nd.keys.Pairwise (fun x y => x < y)) ∧
    (∀ a nd j c b bd key, InTree tree_a a → heap_get tree_a.heap a = some nd →
      nd.type = bpnode_type.NODE_INNER → nd.children[j]? = some c →
      Desc tree_a.heap c b → heap_get tree_a.heap b = some bd → key ∈ bd.keys →
        (∀ k, nd.keys[j]? = some k → key < k) ∧
        (∀ i k, j = i + 1 → nd.keys[i]? = some k → k ≤ key)) :=
  range_invariant (m := 4) (by decide) (by decide) (show Reachable 4 tree_a from ⟨ops_a, rfl⟩)

/-- C14, counterexample: with fanout 32768 a reachable tree has a root whose key
sequence starts `0, 0` and so does not ascend strictly. -/
theorem range_fails :
    Reachable 32768 (dup 32768 2) ∧ (dup 32768 2).root = some 0 ∧
    ¬ (node_keys (dup 32768 2).heap 0).Pairwise (fun x y => x < y) :=
  ⟨dup_reachable 1 (by omega), rfl, replicate_two_not_sorted _⟩

end BPlus

namespace BPlus

/-! ## Count, leaf chain and draining -/

theorem replicate_three_not_sorted (R : List Nat) :
    ¬ (List.replicate 3 0 ++ R).Pairwise (fun x y => x < y) := by
  intro h
  have h2 : (0 :: 0 :: (0 :: R)).Pairwise (fun x y => x < y) := h
  have := List.rel_of_pairwise_cons h2 (List.mem_cons_self 0 _)
  omega

/-- The walk over a tree whose root is a leaf with a counter below 2 reads the
first key only. -/
theorem dump_root_leaf_wrapped {K V : Type} [LinearOrder K] {t : bptree K V} {r : Nat}
    {nd : bpnode K V} {k0 : K} (hr : t.root = some r) (hrd : heap_get t.heap r = some nd)
    (hty : nd.type = bpnode_type.NODE_LEAF) (hnext : nd.next = none)
    (hk : nd.keys[0]? = some k0) (hw : nd.num_keys ≤ 1) :
    dump_leaf_keys t = some [(r, [k0])] := by
  have hn : nd.num_keys.toNat - 1 = 0 := by omega
  have hni : ¬ (nd.type = bpnode_type.NODE_INNER) := by
    rw [hty]
    intro h
    cases h
  simp only [dump_leaf_keys, hr, leftmost, hrd, hty, reduceCtorEq, if_false]
  simp only [leaf_walk, hrd, hty, if_true, line_keys, hk, hn, line_rest, hnext]

theorem dump_leaf_tree_wrapped (m : Nat) (ks vs : List Nat) (k0 : Nat) (rest : List Nat)
    (hks : ks = k0 :: rest) (hw : wrap16 (ks.length : Int) ≤ 1) :
    dump_leaf_keys (leaf_tree m ks vs) = some [(0, [k0])] := by
  refine dump_root_leaf_wrapped (leaf_tree_root m ks vs) (leaf_tree_get m ks vs) rfl rfl ?_ hw
  rw [hks]
  simp

theorem dump_big : dump_leaf_keys (big 32768 32768) = some [(0, [0])] := by
  have e : List.range (32767 + 1) = 0 :: List.map Nat.succ (List.range 32767) :=
    List.range_succ_eq_map 32767
  refine dump_leaf_tree_wrapped 32768 (List.range 32768) _ 0 _ e ?_
  rw [List.length_range]
  decide

theorem count_big : get_count (big 32768 32768) = 32768 := by
  show ((List.range 32768).length : Int) = 32768
  rw [List.length_range]
  rfl

section claimsD
variable {K V : Type} [LinearOrder K]

/-- What the walk of `dump_leaf_keys` yields on a well-formed tree. -/
theorem Inv.walk_facts {t : bptree K V} {kv : List (K × V)} (hI : Inv t kv) :
    ∃ walk, dump_leaf_keys t = some walk ∧ walk.flatMap Prod.snd = kv.map Prod.fst ∧
      (∀ r, t.root = some r →
        inorder_leaves t.heap (t.heap.length + 1) r = some (walk.map Prod.fst)) ∧
      (walk.map Prod.fst).Nodup ∧ (∀ p ∈ walk, p.2 = node_keys t.heap p.1) := by
  obtain ⟨g, L, hX, _⟩ := hI
  have hmap : (L.map (fun x => (x, node_keys t.heap x))).map Prod.fst = L := by
    rw [List.map_map]
    exact List.map_id _
  refine ⟨_, hX.dump_leaf_keys_eq, hX.walk_keys, ?_, ?_, ?_⟩
  · intro r hr
    rw [hmap]
    exact hX.inorder_eq hr
  · rw [hmap]
    exact hX.leaf_nodup
  · intro p hp
    obtain ⟨x, _, hx⟩ := List.mem_map.1 hp
    rw [← hx]

/-- The keys of the abstract content are the keys `find_key` reports. -/
theorem Inv.keys_facts {t : bptree K V} {kv : List (K × V)} (hI : Inv t kv) :
    (kv.map Prod.fst).Pairwise (fun x y => x < y) ∧
    (∀ k, k ∈ kv.map Prod.fst ↔ ∃ v, find_key t k = some (some v)) ∧
    (∀ k, find_key t k = some none ↔ kv_lookup k kv = none) ∧
    t.count = (kv.length : Int) := by
  obtain ⟨g, L, hX, hc⟩ := hI
  refine ⟨?_, ?_, ?_, hc⟩
  · exact (List.pairwise_map).2 hX.kv_sorted
  · intro k
    rw [hX.find_key_eq]
    have := kv_lookup_eq_none_iff k kv
    cases hl : kv_lookup k kv with
    | none =>
      rw [hl] at this
      simp only [true_iff] at this
      constructor
      · intro h
        exact absurd h this
      · rintro ⟨v, hv⟩
        cases hv
    | some v =>
      rw [hl] at this
      simp only [reduceCtorEq, false_iff, not_not] at this
      exact ⟨fun _ => ⟨v, rfl⟩, fun _ => this⟩
  · intro k
    rw [hX.find_key_eq]
    constructor
    · intro h
      exact Option.some.inj h
    · intro h
      rw [h]

/-- C6, amended (size invariant): for every fanout `m` with `3 ≤ m ≤ 32767` and
every tree reached from the empty tree by calls during which the counter stays
in the range of `int`, `get_count()` lies between 0 and `2^31 - 1`, the walk of
the leaf chain from the leftmost leaf returns, `get_count()` is the number of
keys it meets, these keys are pairwise distinct and are exactly the keys that
`find_key` reports as present; an `insert_key` of a key that was not present
raises the count by one as long as the count is below `2^31 - 1`, an
`insert_key` of a present key leaves it, a `delete_key` lowers it by one when it
returns true (the key was present) and leaves it otherwise; the tree after the
call is again reached by calls that keep the counter in range. -/
theorem count_invariant {m : Nat} (h3 : 3 ≤ m) (h16 : m ≤ 32767) {t : bptree K V}
    (hr : ReachableInt m t) :
    (0 ≤ get_count t ∧ get_count t ≤ 2147483647) ∧
    (∃ walk, dump_leaf_keys t = some walk ∧
      get_count t = ((walk.flatMap Prod.snd).length : Int) ∧
      (walk.flatMap Prod.snd).Nodup ∧
      ∀ k, k ∈ walk.flatMap Prod.snd ↔ ∃ v, find_key t k = some (some v)) ∧
    (∀ k v, find_key t k = some none → get_count t < 2147483647 →
      ∃ t1, insert_key t k v = some t1 ∧ ReachableInt m t1 ∧
        get_count t1 = get_count t + 1) ∧
    (∀ k v v0, find_key t k = some (some v0) →
      ∃ t1, insert_key t k v = some t1 ∧ ReachableInt m t1 ∧
        get_count t1 = get_count t) ∧
    (∀ k, ∃ b t1, delete_key t k = some (b, t1) ∧ ReachableInt m t1 ∧
      (b = true ↔ ∃ v, find_key t k = some (some v)) ∧
      (b = true → get_count t1 = get_count t - 1) ∧
      (b = false → get_count t1 = get_count t)) := by
  have hmax : t.count ≤ 2147483647 := hr.count_le
  obtain ⟨kv, hI, _⟩ := reachable_inv h3 h16 hr.reachable
  obtain ⟨ops, hops⟩ := hr
  obtain ⟨walk, w1, w2, _, _, _⟩ := hI.walk_facts
  obtain ⟨f1, f2, f3, f4⟩ := hI.keys_facts
  have hsorted : kv.Pairwise (fun x y => x.1 < y.1) := by
    obtain ⟨g, L, hX, _⟩ := hI
    exact hX.kv_sorted
  have h0 : 0 ≤ t.count := by
    rw [f4]
    exact Int.natCast_nonneg _
  refine ⟨⟨h0, hmax⟩, ⟨walk, w1, ?_, ?_, ?_⟩, ?_, ?_, ?_⟩
  · rw [w2, List.length_map]
    exact f4
  · rw [w2]
    exact f1.imp (fun h => ne_of_lt h)
  · intro k
    rw [w2]
    exact f2 k
  · intro k v hnone hlt
    obtain ⟨t1, h1, h2, _⟩ := hI.insert_key_ok k v
    have g4 := h2.keys_facts.2.2.2
    have hlen := kv_insert_length k v kv hsorted
    have := (f3 k).1 hnone
    rw [this] at hlen
    simp only [Option.isSome_none, Bool.false_eq_true, if_false] at hlen
    have hc : t1.count = t.count + 1 := by
      rw [g4, f4, hlen]
      push_cast
      rfl
    have hlt1 : t.count < 2147483647 := hlt
    exact ⟨t1, h1, ⟨ops ++ [Op.insert k v], run_ops_int_snoc ops _ hops h1
      ⟨by omega, by omega⟩⟩, hc⟩
  · intro k v v0 hv0
    obtain ⟨t1, h1, h2, _⟩ := hI.insert_key_ok k v
    have g4 := h2.keys_facts.2.2.2
    have hlen := kv_insert_length k v kv hsorted
    have hsome : (kv_lookup k kv).isSome = true := by
      cases hl : kv_lookup k kv with
      | none =>
        have := (f3 k).2 hl
        rw [this] at hv0
        cases hv0
      | some x => rfl
    rw [hsome] at hlen
    simp only [if_true] at hlen
    have hc : t1.count = t.count := by rw [g4, f4, hlen]
    exact ⟨t1, h1, ⟨ops ++ [Op.insert k v], run_ops_int_snoc ops _ hops h1
      ⟨by omega, by omega⟩⟩, hc⟩
  · intro k
    obtain ⟨t1, h1, h2, _⟩ := hI.delete_key_ok k
    have g4 := h2.keys_facts.2.2.2
    have hlen := kv_erase_length k kv hsorted
    have hfind : find_key t k = some (kv_lookup k kv) := by
      obtain ⟨g, L, hX, _⟩ := hI
      exact hX.find_key_eq k
    have h10 : 0 ≤ t1.count := by
      rw [g4]
      exact Int.natCast_nonneg _
    have h1le : t1.count ≤ t.count := by
      rw [g4, f4, hlen]
      split_ifs <;> omega
    refine ⟨_, t1, h1, ⟨ops ++ [Op.delete k], run_ops_int_snoc ops _ hops
      (by simp only [apply_op, h1, Option.map_some']) ⟨by omega, by omega⟩⟩, ?_, ?_, ?_⟩
    · rw [hfind]
      cases kv_lookup k kv with
      | none => simp
      | some v => simp
    · intro hb
      rw [hb] at hlen
      simp only [if_true] at hlen
      show t1.count = t.count - 1
      rw [g4, f4, hlen]
    · intro hb
      rw [hb] at hlen
      simp only [Bool.false_eq_true, if_false] at hlen
      show t1.count = t.count
      rw [g4, f4, hlen]

/-- C7, amended (ordering invariant): for every fanout `m` with `3 ≤ m ≤ 32767`
and every reachable tree, the walk from the leftmost leaf along the forward
links returns; the leaves it visits are pairwise distinct and are the leaves
below the root in the left-to-right order of the child lists; for each leaf it
reads the whole key sequence of the leaf; the concatenation of these sequences
ascends strictly and holds exactly the keys that `find_key` reports as
present. -/
theorem leaf_chain_order {m : Nat} (h3 : 3 ≤ m) (h16 : m ≤ 32767) {t : bptree K V}
    (hr : Reachable m t) :
    ∃ walk, dump_leaf_keys t = some walk ∧
      (∀ r, t.root = some r →
        inorder_leaves t.heap (t.heap.length + 1) r = some (walk.map Prod.fst)) ∧
      (walk.map Prod.fst).Nodup ∧
      (∀ p ∈ walk, p.2 = node_keys t.heap p.1) ∧
      (walk.flatMap Prod.snd).Pairwise (fun x y => x < y) ∧
      ∀ k, k ∈ walk.flatMap Prod.snd ↔ ∃ v, find_key t k = some (some v) := by
  obtain ⟨kv, hI, _⟩ := reachable_inv h3 h16 hr
  obtain ⟨walk, w1, w2, w3, w4, w5⟩ := hI.walk_facts
  obtain ⟨f1, f2, _, _⟩ := hI.keys_facts
  refine ⟨walk, w1, w3, w4, w5, ?_, ?_⟩
  · rw [w2]
    exact f1
  · intro k
    rw [w2]
    exact f2 k

end claimsD

/-- Witness of C6 on the tree with the leaves `{1, 2}` and `{3, 4}`, reached by
four insertions: the count 4 is the number of keys met by the walk. -/
theorem count_invariant_witness :
    ReachableInt 4 tree_a ∧ get_count tree_a = 4 ∧
    (0 ≤ get_count tree_a ∧ get_count tree_a ≤ 2147483647) ∧
    ∃ walk, dump_leaf_keys tree_a = some walk ∧
      get_count tree_a = ((walk.flatMap Prod.snd).length : Int) ∧
      (walk.flatMap Prod.snd).Nodup ∧
      ∀ k, k ∈ walk.flatMap Prod.snd ↔ ∃ v, find_key tree_a k = some (some v) :=
  ⟨⟨ops_a, rfl⟩, rfl,
    (count_invariant (m := 4) (by decide) (by decide)
      (show ReachableInt 4 tree_a from ⟨ops_a, rfl⟩)).1,
    (count_invariant (m := 4) (by decide) (by decide)
      (show ReachableInt 4 tree_a from ⟨ops_a, rfl⟩)).2.1⟩

/-- C6, counterexample: with fanout 32768 the tree reached by inserting the keys
`0, …, 32767` has `get_count() = 32768`, but the walk of the leaf chain meets one
key only and `find_key` reports no key at all as present. -/
theorem count_fails :
    Reachable 32768 (big 32768 32768) ∧ get_count (big 32768 32768) = 32768 ∧
    dump_leaf_keys (big 32768 32768) = some [(0, [0])] ∧
    ∀ k, find_key (big 32768 32768) k = some none :=
  ⟨big_reachable 32767 (Nat.le_refl _), count_big, dump_big, find_key_big⟩

/-- Witness of C7 on the tree with the leaves `{1, 2}` and `{3, 4}`. -/
theorem leaf_chain_order_witness :
    ∃ walk, dump_leaf_keys tree_a = some walk ∧
      (∀ r, tree_a.root = some r →
        inorder_leaves tree_a.heap (tree_a.heap.length + 1) r = some (walk.map Prod.fst)) ∧
      (walk.map Prod.fst).Nodup ∧
      (∀ p ∈ walk, p.2 = node_keys tree_a.heap p.1) ∧
      (walk.flatMap Prod.snd).Pairwise (fun x y => x < y) ∧
      ∀ k, k ∈ walk.flatMap Prod.snd ↔ ∃ v, find_key tree_a k = some (some v) :=
  leaf_chain_order (m := 4) (by decide) (by decide) (show Reachable 4 tree_a from ⟨ops_a, rfl⟩)

/-- C7, counterexample: with fanout 32768 a reachable tree consists of one leaf
whose key sequence starts `0, 0, 0`, so the keys along the leaf chain do not
ascend strictly and are not unique. -/
theorem leaf_chain_order_fails :
    Reachable 32768 (dup 32768 3) ∧ (dup 32768 3).root = some 0 ∧
    (∃ nd, heap_get (dup 32768 3).heap 0 = some nd ∧ nd.type = bpnode_type.NODE_LEAF ∧
      nd.next = none) ∧
    ¬ (node_keys (dup 32768 3).heap 0).Pairwise (fun x y => x < y) :=
  ⟨dup_reachable 2 (by omega), rfl, ⟨_, leaf_tree_get _ _ _, rfl, rfl⟩,
    replicate_three_not_sorted _⟩

end BPlus

namespace BPlus

/-! ## Draining, the diagnostic, small fanouts and the update of a value -/

section claimsE
variable {K V : Type} [LinearOrder K]

theorem insert_all_eq_run_ops (l : List (K × V)) :
    ∀ (t : bptree K V), insert_all t l = run_ops t (l.map (fun p => Op.insert p.1 p.2)) := by
  induction l with
  | nil => intro t; rfl
  | cons p l ih =>
    intro t
    obtain ⟨k, v⟩ := p
    simp only [insert_all, List.map_cons, run_ops, apply_op]
    cases insert_key t k v with
    | none => rfl
    | some t1 => exact ih t1

/-- A sequence of insertions into a well-formed tree returns a well-formed tree
that holds the old keys and the inserted ones. -/
theorem Inv.insert_all_ok (l : List (K × V)) :
    ∀ {t : bptree K V} {kv : List (K × V)}, Inv t kv →
      ∃ t1 kv1, insert_all t l = some t1 ∧ Inv t1 kv1 ∧
        ∀ k, (kv_lookup k kv1).isSome = true ↔
          (k ∈ l.map Prod.fst ∨ (kv_lookup k kv).isSome = true) := by
  induction l with
  | nil =>
    intro t kv hI
    exact ⟨t, kv, rfl, hI, fun k => by simp⟩
  | cons p l ih =>
    intro t kv hI
    obtain ⟨k0, v0⟩ := p
    obtain ⟨t1, h1, h2, _⟩ := hI.insert_key_ok k0 v0
    obtain ⟨t2, kv2, q1, q2, q3⟩ := ih h2
    refine ⟨t2, kv2, ?_, q2, ?_⟩
    · simp only [insert_all, h1]
      exact q1
    · intro k
      rw [q3 k, kv_lookup_insert]
      simp only [List.map_cons, List.mem_cons]
      by_cases hk : k = k0
      · simp [hk]
      · simp [hk]

theorem kv_nil_of_lookup {kv : List (K × V)} (h : ∀ k, kv_lookup k kv = none) : kv = [] := by
  cases kv with
  | nil => rfl
  | cons p l =>
    obtain ⟨k, v⟩ := p
    have := h k
    simp [kv_lookup] at this

/-- Deleting, in any order, exactly the keys a well-formed tree holds returns
true every time and leaves a tree without keys. -/
theorem Inv.delete_all_ok (P : List K) :
    ∀ {t : bptree K V} {kv : List (K × V)}, Inv t kv → P.Nodup →
      (∀ k, (kv_lookup k kv).isSome = true ↔ k ∈ P) →
      ∃ t2, delete_all t P = some (List.replicate P.length true, t2) ∧ Inv t2 [] := by
  induction P with
  | nil =>
    intro t kv hI _ hk
    have hkv : kv = [] := by
      apply kv_nil_of_lookup
      intro k
      have := hk k
      cases hl : kv_lookup k kv with
      | none => rfl
      | some v =>
        rw [hl] at this
        simp at this
    subst hkv
    exact ⟨t, rfl, hI⟩
  | cons p P ih =>
    intro t kv hI hn hk
    obtain ⟨t1, h1, h2, _⟩ := hI.delete_key_ok p
    have hp : (kv_lookup p kv).isSome = true := (hk p).2 (List.mem_cons_self p P)
    rw [hp] at h1
    have hn2 := List.nodup_cons.1 hn
    obtain ⟨t2, q1, q2⟩ := ih h2 hn2.2 (by
      intro k
      rw [kv_lookup_erase]
      by_cases hkp : k = p
      · subst hkp
        simp only [if_true, Option.isSome_none, Bool.false_eq_true, false_iff]
        exact hn2.1
      · simp only [hkp, if_false]
        rw [hk k]
        simp [hkp])
    refine ⟨t2, ?_, q2⟩
    simp only [delete_all, h1, q1, List.length_cons, List.replicate_succ]

/-- C12, amended (drain to empty): for every fanout `m` with `3 ≤ m ≤ 32767`,
every finite list of pairs with pairwise distinct keys and every permutation `P`
of these keys, inserting the pairs into the empty tree and then deleting the
keys in the order `P` makes every `delete_key` return true and ends in the
empty state: root absent, `get_count() = 0`, `get_depth() = 0`, and `find_key`
of any key reports not found. -/
theorem drain_to_empty {m : Nat} (h3 : 3 ≤ m) (h16 : m ≤ 32767) (l : List (K × V))
    (P : List K) (hn : (l.map Prod.fst).Nodup) (hp : P.Perm (l.map Prod.fst)) :
    ∃ t1 t2, insert_all (bptree_new m) l = some t1 ∧
      delete_all t1 P = some (List.replicate P.length true, t2) ∧
      t2.root = none ∧ get_count t2 = 0 ∧ get_depth t2 = 0 ∧
      ∀ k, find_key t2 k = some none := by
  obtain ⟨t1, kv1, q1, q2, q3⟩ :=
    Inv.insert_all_ok l (Inv.empty (K := K) (V := V) m h3 h16)
  have hP : P.Nodup := (List.Perm.nodup_iff hp).2 hn
  obtain ⟨t2, r1, r2⟩ := Inv.delete_all_ok P q2 hP (by
    intro k
    rw [q3 k, hp.mem_iff]
    simp [kv_lookup])
  have hc : t2.count = 0 := by
    have := r2.keys_facts.2.2.2
    simpa using this
  have hroot : t2.root = none := (r2.root_facts.2.2).1 hc
  refine ⟨t1, t2, q1, r1, hroot, hc, (r2.depth_facts.1).1 hroot, ?_⟩
  intro k
  exact (r2.keys_facts.2.2.1 k).2 rfl

/-- C21, amended (depth check of `check()`): in every tree state with a root,
`check()` reports a violation when the root is an inner node while the recorded
depth is 1; a root that is a leaf without parent whose counter is below the
fanout and equals the number of its keys passes `check()` whatever depth is
recorded, a depth greater than 1 included. -/
theorem check_depth_guard (t : bptree K V) {r : Nat} {rd : bpnode K V}
    (hr : t.root = some r) (hrd : heap_get t.heap r = some rd) :
    (rd.type = bpnode_type.NODE_INNER → t.depth = 1 → check t = some false) ∧
    (rd.type = bpnode_type.NODE_LEAF → rd.parent = none → rd.num_keys < (t.m : Int) →
      (rd.keys.length : Int) = rd.num_keys → check t = some true) :=
  ⟨fun hty hd => check_inner_depth_one hr hrd hty hd,
    fun hty hpar hlt hnk => check_root_leaf hr hrd hty hpar hlt hnk⟩

/-- C22 (fanout 2 is accepted and fails, fanout 3 does not fail): the
constructor returns the empty tree for `m = 2`; from it `insert_key(1)`,
`insert_key(2)` lead to two leaves `{1}` and `{2}`, and `delete_key(2)` then does
not complete: `min_limits` is 0, so the leaf left with no key counts as healthy,
and the refresh of the separator reads the first key of that empty leaf.  For
`m = 3` every sequence of calls from the empty tree completes. -/
theorem fanout_two_fails :
    (bptree_new 2 : bptree Nat Nat) =
      { heap := [], root := none, depth := 0, count := 0, m := 2 } ∧
    run_ops (bptree_new 2) [Op.insert 1 10, Op.insert 2 20] = some tree_two ∧
    min_limits 2 = 0 ∧
    find_leaf tree_two 2 = some (some 0, some 1) ∧
    remove_leaf_key tree_two 1 2 = none ∧
    delete_key tree_two 2 = none ∧
    run_ops (bptree_new 2) [Op.insert 1 10, Op.insert 2 20, Op.delete 2] = none ∧
    ∀ ops : List (Op K V), ∃ t, run_ops (bptree_new 3 : bptree K V) ops = some t := by
  refine ⟨rfl, rfl, rfl, rfl, rfl, rfl, rfl, ?_⟩
  intro ops
  obtain ⟨t, h1, _⟩ :=
    Inv.run_ops_ok ops (Inv.empty (K := K) (V := V) 3 (Nat.le_refl _) (by omega))
  exact ⟨t, h1⟩

end claimsE

/-- Witness of C12 for fanout 4: the keys 1, 2, 3, 4 are inserted and deleted
in the order 1, 2, 3, 4. -/
theorem drain_to_empty_witness :
    ∃ t1 t2, insert_all (bptree_new 4) [(1, 10), (2, 20), (3, 30), (4, 40)] = some t1 ∧
      delete_all t1 [1, 2, 3, 4] = some (List.replicate [1, 2, 3, 4].length true, t2) ∧
      t2.root = none ∧ get_count t2 = 0 ∧ get_depth t2 = 0 ∧
      ∀ k, find_key t2 k = some none :=
  drain_to_empty (m := 4) (by decide) (by decide) [(1, 10), (2, 20), (3, 30), (4, 40)]
    [1, 2, 3, 4] (by decide) (by decide)

/-- C12, counterexample: with fanout 32768, after the pairwise distinct keys
`0, …, 32767` have been inserted into the empty tree, the deletion of the key `0`
returns false and leaves the tree as it is. -/
theorem drain_fails :
    insert_all (bptree_new 32768) ((List.range 32768).map (fun i => (i, 0))) =
      some (big 32768 32768) ∧
    delete_key (big 32768 32768) 0 = some (false, big 32768 32768) := by
  refine ⟨?_, delete_key_big 0⟩
  rw [insert_all_eq_run_ops, List.map_map]
  exact reach_big 32767 (Nat.le_refl _)

/-- Witness of C21: the inner root with depth 1 is reported, the root leaf with
depth 2 is not. -/
theorem check_depth_guard_witness :
    check tree_flat = some false ∧ check tree_deep = some true :=
  ⟨(check_depth_guard tree_flat (r := 2) rfl rfl).1 rfl rfl,
    (check_depth_guard tree_deep (r := 0) rfl rfl).2 rfl rfl (by decide) rfl⟩

/-- C21, counterexample: a tree state whose root is a leaf while the recorded
depth is 2 passes `check()`. -/
theorem check_misses_depth :
    tree_deep.root = some 0 ∧
    (∃ rd, heap_get tree_deep.heap 0 = some rd ∧ rd.type = bpnode_type.NODE_LEAF) ∧
    get_depth tree_deep = 2 ∧ check tree_deep = some true :=
  ⟨rfl, ⟨_, rfl, rfl⟩, rfl, rfl⟩

end BPlus

namespace BPlus

/-! ## Overwriting the value of a present key -/

section claimsF
variable {K V : Type} [LinearOrder K]

theorem find_leaf_scan_get (keys : List K) (key : K) :
    ∀ (fuel i idx : Nat), find_leaf_scan keys key fuel i = some (some idx) →
      keys[idx]? = some key := by
  intro fuel
  induction fuel with
  | zero =>
    intro i idx h
    cases h
  | succ f ih =>
    intro i idx h
    simp only [find_leaf_scan] at h
    cases hk : keys[i]? with
    | none =>
      rw [hk] at h
      cases h
    | some x =>
      rw [hk] at h
      simp only at h
      by_cases hx : x = key
      · rw [if_pos hx] at h
        cases h
        rw [hk, hx]
      · rw [if_neg hx] at h
        exact ih _ _ h

/-- What a successful lookup says about the result of `find_leaf`. -/
theorem find_key_found {t : bptree K V} {k : K} {v0 : V}
    (h : find_key t k = some (some v0)) :
    ∃ idx a nd r, find_leaf t k = some (some idx, some a) ∧ heap_get t.heap a = some nd ∧
      nd.values[idx]? = some v0 ∧ nd.keys[idx]? = some k ∧ t.root = some r := by
  unfold find_key at h
  cases hf : find_leaf t k with
  | none => rw [hf] at h; cases h
  | some res =>
    obtain ⟨oi, onn⟩ := res
    rw [hf] at h
    cases oi with
    | none => cases h
    | some idx =>
      cases onn with
      | none => cases h
      | some a =>
        simp only at h
        cases ha : heap_get t.heap a with
        | none => rw [ha] at h; cases h
        | some nd =>
          rw [ha] at h
          simp only at h
          cases hv : nd.values[idx]? with
          | none => rw [hv] at h; cases h
          | some v =>
            rw [hv] at h
            cases h
            cases hr : t.root with
            | none =>
              simp only [find_leaf, hr] at hf
              cases hf
            | some r =>
              refine ⟨idx, a, nd, r, rfl, ha, hv, ?_, rfl⟩
              simp only [find_leaf, hr] at hf
              cases hd : find_leaf_descend t.heap k t.heap.length r with
              | none => rw [hd] at hf; cases hf
              | some n =>
                rw [hd] at hf
                simp only at hf
                cases hn : heap_get t.heap n with
                | none => rw [hn] at hf; cases hf
                | some nd1 =>
                  rw [hn] at hf
                  simp only at hf
                  cases hs : find_leaf_scan nd1.keys k nd1.num_keys.toNat 0 with
                  | none => rw [hs] at hf; cases hf
                  | some oidx =>
                    rw [hs] at hf
                    cases hf
                    rw [hn] at ha
                    cases ha
                    exact find_leaf_scan_get _ _ _ _ _ hs

/-- The descent of `find_leaf` does not look at the values. -/
theorem find_leaf_descend_values {h : List (Option (bpnode K V))} {a : Nat} {nd : bpnode K V}
    (hnd : heap_get h a = some nd) (vs : List V) (key : K) :
    ∀ (fuel n : Nat),
      find_leaf_descend (heap_set h a { nd with values := vs }) key fuel n =
        find_leaf_descend h key fuel n := by
  intro fuel
  induction fuel with
  | zero => intro n; rfl
  | succ f ih =>
    intro n
    simp only [find_leaf_descend]
    rw [heap_get_set_if _ _ (heap_get_lt hnd)]
    by_cases hna : n = a
    · subst hna
      rw [if_pos rfl, hnd]
      simp only [check_children_index_by_key, ih]
    · rw [if_neg hna]
      simp only [ih]

/-- The search of `find_leaf` does not look at the values. -/
theorem find_leaf_values {t : bptree K V} {a : Nat} {nd : bpnode K V}
    (hnd : heap_get t.heap a = some nd) (vs : List V) (key : K) :
    find_leaf { t with heap := heap_set t.heap a { nd with values := vs } } key =
      find_leaf t key := by
  have hlen : (heap_set t.heap a { nd with values := vs }).length = t.heap.length := by
    simp only [heap_set, List.length_set]
  cases hr : t.root with
  | none => simp only [find_leaf, hr]
  | some r =>
    simp only [find_leaf, hr, hlen, find_leaf_descend_values hnd]
    cases hd : find_leaf_descend t.heap key t.heap.length r with
    | none => rfl
    | some n =>
      simp only
      rw [heap_get_set_if _ _ (heap_get_lt hnd)]
      by_cases hna : n = a
      · subst hna
        rw [if_pos rfl, hnd]
      · rw [if_neg hna]

/-- Overwriting in any tree state: when `find_key` reports the key `k` as
present, `insert_key(k, v)` returns; count, depth, root and the number of
allocated nodes are unchanged, every node is unchanged apart from its values,
whose number is unchanged; afterwards `find_key(k)` yields `v` and the answer of
`find_key` for every other key is what it was. -/
theorem insert_key_found_frame (t : bptree K V) (k : K) (v v0 : V)
    (h : find_key t k = some (some v0)) :
    ∃ t1, insert_key t k v = some t1 ∧
      get_count t1 = get_count t ∧ get_depth t1 = get_depth t ∧ t1.root = t.root ∧
      t1.m = t.m ∧ t1.heap.length = t.heap.length ∧
      (∀ a, (heap_get t1.heap a).map strip_values =
        (heap_get t.heap a).map strip_values) ∧
      (∀ a nd nd1, heap_get t.heap a = some nd → heap_get t1.heap a = some nd1 →
        nd1.values.length = nd.values.length) ∧
      find_key t1 k = some (some v) ∧
      ∀ k1, k1 ≠ k → find_key t1 k1 = find_key t k1 := by
  obtain ⟨idx, a, nd, r, hf, hnd, hv, hkk, hr⟩ := find_key_found h
  have hidx : idx < nd.values.length := (List.getElem?_eq_some.1 hv).1
  have hal := heap_get_lt hnd
  refine ⟨{ t with heap := heap_set t.heap a { nd with values := nd.values.set idx v } },
    ?_, rfl, rfl, rfl, rfl, ?_, ?_, ?_, ?_, ?_⟩
  · simp only [insert_key, hr, hf, hnd, if_pos hidx]
  · simp only [heap_set, List.length_set]
  · intro x
    simp only
    rw [heap_get_set_if _ _ hal]
    by_cases hx : x = a
    · subst hx
      rw [if_pos rfl, hnd]
      rfl
    · rw [if_neg hx]
  · intro x xd xd1 h1 h2
    simp only at h2
    rw [heap_get_set_if _ _ hal] at h2
    by_cases hx : x = a
    · subst hx
      rw [if_pos rfl] at h2
      rw [hnd] at h1
      cases h1
      cases h2
      simp only [List.length_set]
    · rw [if_neg hx, h1] at h2
      cases h2
      rfl
  · simp only [find_key, find_leaf_values hnd, hf, heap_get_set_eq _ hnd]
    rw [List.getElem?_set_eq hidx]
    rfl
  · intro k1 hk1
    simp only [find_key, find_leaf_values hnd]
    cases hf1 : find_leaf t k1 with
    | none => rfl
    | some res =>
      obtain ⟨oi, onn⟩ := res
      cases oi with
      | none => rfl
      | some idx1 =>
        cases onn with
        | none => rfl
        | some b =>
          simp only
          rw [heap_get_set_if _ _ hal]
          by_cases hb : b = a
          · subst hb
            rw [if_pos rfl, hnd]
            simp only
            have hne : idx ≠ idx1 := by
              intro he
              subst he
              cases hv1 : nd.values[idx]? with
              | none => rw [hv1] at hv; cases hv
              | some w =>
                have h1 : find_key t k1 = some (some w) := by
                  simp only [find_key, hf1, hnd, hv1]
                  rfl
                obtain ⟨idx2, a2, nd2, r2, g1, g2, g3, g4, g5⟩ := find_key_found h1
                rw [hf1] at g1
                cases g1
                rw [hnd] at g2
                cases g2
                rw [hkk] at g4
                exact hk1 (Option.some.inj g4).symm
            rw [List.getElem?_set_ne hne]
          · rw [if_neg hb]

/-- A key stored in a leaf of a well-formed tree is reported by `find_key`. -/
theorem Inv.stored_found {t : bptree K V} {kv : List (K × V)} (hI : Inv t kv) {a : Nat}
    {nd : bpnode K V} {k : K} (ha : InTree t a) (hnd : heap_get t.heap a = some nd)
    (hty : nd.type = bpnode_type.NODE_LEAF) (hk : k ∈ nd.keys) :
    ∃ v, find_key t k = some (some v) := by
  apply (hI.keys_facts.2.1 k).1
  obtain ⟨g, L, hX, _⟩ := hI
  obtain ⟨i, nd0, hi, q0, ok, _⟩ := hX.intree_live ha
  rw [hnd] at q0
  cases q0
  have haL : a ∈ L := (hX.leaves a).2 ⟨i, nd, hi, hnd, hty⟩
  have hvl := (ok.leaf hty).2
  have hfst : (leaf_pairs t.heap a).map Prod.fst = nd.keys := by
    simp only [leaf_pairs, hnd]
    rw [List.map_fst_zip]
    rw [hvl]
  rw [← hfst] at hk
  obtain ⟨p, hp, hpk⟩ := List.mem_map.1 hk
  rw [hX.kv_eq]
  exact List.mem_map.2 ⟨p, List.mem_flatMap.2 ⟨a, haL, hp⟩, hpk⟩

/-- C4, amended (upsert): for every fanout `m` with `3 ≤ m ≤ 32767` and every
reachable tree that holds the key `k` in one of its leaves, `insert_key(k, v)`
returns and overwrites only the value stored for `k`: `get_count()`,
`get_depth()`, the root and the number of allocated nodes are unchanged (no node
is created or split); every node is unchanged apart from its values (same kind,
counter, keys, children, parent and forward link), and the number of its values
is unchanged; afterwards `find_key(k)` yields `v` and the answer of `find_key`
for every other key is what it was. -/
theorem upsert_present {m : Nat} (h3 : 3 ≤ m) (h16 : m ≤ 32767) {t : bptree K V}
    (hr : Reachable m t) {a : Nat} {nd : bpnode K V} {k : K} (ha : InTree t a)
    (hnd : heap_get t.heap a = some nd) (hty : nd.type = bpnode_type.NODE_LEAF)
    (hk : k ∈ nd.keys) (v : V) :
    ∃ t1, insert_key t k v = some t1 ∧
      get_count t1 = get_count t ∧ get_depth t1 = get_depth t ∧ t1.root = t.root ∧
      t1.m = t.m ∧ t1.heap.length = t.heap.length ∧
      (∀ x, (heap_get t1.heap x).map strip_values = (heap_get t.heap x).map strip_values) ∧
      (∀ x xd xd1, heap_get t.heap x = some xd → heap_get t1.heap x = some xd1 →
        xd1.values.length = xd.values.length) ∧
      find_key t1 k = some (some v) ∧
      ∀ k1, k1 ≠ k → find_key t1 k1 = find_key t k1 := by
  obtain ⟨kv, hI, _⟩ := reachable_inv h3 h16 hr
  obtain ⟨v0, hv0⟩ := hI.stored_found ha hnd hty hk
  exact insert_key_found_frame t k v v0 hv0

end claimsF

/-- Witness of C4 on the tree with the leaves `{1, 2}` and `{3, 4}`: the value of
the key 3, held by the leaf at address 1, is overwritten. -/
theorem upsert_present_witness :
    ∃ t1, insert_key tree_a 3 99 = some t1 ∧
      get_count t1 = get_count tree_a ∧ get_depth t1 = get_depth tree_a ∧
      t1.root = tree_a.root ∧ t1.m = tree_a.m ∧ t1.heap.length = tree_a.heap.length ∧
      (∀ x, (heap_get t1.heap x).map strip_values =
        (heap_get tree_a.heap x).map strip_values) ∧
      (∀ x xd xd1, heap_get tree_a.heap x = some xd → heap_get t1.heap x = some xd1 →
        xd1.values.length = xd.values.length) ∧
      find_key t1 3 = some (some 99) ∧
      ∀ k1, k1 ≠ 3 → find_key t1 k1 = find_key tree_a k1 :=
  upsert_present (m := 4) (by decide) (by decide) (show Reachable 4 tree_a from ⟨ops_a, rfl⟩)
    (a := 1) ⟨2, rfl, Desc.down (a := 2) (c := 1) rfl rfl (by decide) (Desc.here 1)⟩ rfl rfl
    (by decide) 99

theorem count_dup_two : get_count (dup 32768 2) = 32769 := by
  show ((List.replicate 2 0 ++ List.range' 1 32767).length : Int) = 32769
  rw [dup_length]
  rfl

theorem zero_mem_big : 0 ∈ node_keys (big 32768 32768).heap 0 := by
  show 0 ∈ node_keys (leaf_tree 32768 (List.range 32768) (List.replicate 32768 0)).heap 0
  rw [node_keys_leaf_tree]
  exact List.mem_range.2 (by omega)

/-- C4, counterexample: with fanout 32768 the tree reached by inserting the keys
`0, …, 32767` holds the key `0` in its only leaf, yet `insert_key(0, 0)` does not
overwrite: it stores the key a second time and raises `get_count()` from 32768 to
32769. -/
theorem upsert_fails :
    Reachable 32768 (big 32768 32768) ∧ InTree (big 32768 32768) 0 ∧
    0 ∈ node_keys (big 32768 32768).heap 0 ∧
    insert_key (big 32768 32768) 0 0 = some (dup 32768 2) ∧
    get_count (big 32768 32768) = 32768 ∧ get_count (dup 32768 2) = 32769 :=
  ⟨big_reachable 32767 (Nat.le_refl _), in_tree_leaf_tree _ _ _, zero_mem_big,
    insert_key_big_dup, count_big, count_dup_two⟩

end BPlus

namespace BPlus

/-! ## Splits -/

section claimsG
variable {K V : Type} [LinearOrder K]

/-- C15, amended (leaf split): for a fanout `m` with `3 ≤ m ≤ 32767` and a leaf
whose counter equals the number of its keys, `leaf_split_if_full` leaves a
leaf with fewer than `m` keys untouched; a leaf with exactly `m` keys keeps its
first `m / 2` keys and values, the remaining `m - m / 2` keys and values move,
in order, to a new leaf that takes over the forward link of the old leaf and
becomes its successor; the two key (value) sequences concatenated are the
sequence before the split, no other node changes, and the key handed to the
parent (`insert_inner_node`) is the first key of the new leaf. -/
theorem leaf_split_contract {t : bptree K V} {n : Nat} {nd : bpnode K V} {pp : Option Nat}
    (h3 : 3 ≤ t.m) (h16 : t.m ≤ 32767)
    (hn : heap_get t.heap n = some nd) (hnk : nd.num_keys = (nd.keys.length : Int))
    (hvl : nd.values.length = nd.keys.length)
    (hdyn : dyn_inner t.heap nd.parent = some pp) :
    (nd.keys.length < t.m → leaf_split_if_full t n = some t) ∧
    (nd.keys.length = t.m →
      ∃ h1 k0 nd1 wd,
        leaf_split_if_full t n =
          insert_inner_node (t.heap.length + 1) { t with heap := h1 } pp k0 n t.heap.length ∧
        h1.length = t.heap.length + 1 ∧
        heap_get h1 n = some nd1 ∧ heap_get h1 t.heap.length = some wd ∧
        nd1.keys = nd.keys.take (t.m / 2) ∧ nd1.values = nd.values.take (t.m / 2) ∧
        wd.keys = nd.keys.drop (t.m / 2) ∧ wd.values = nd.values.drop (t.m / 2) ∧
        nd1.keys.length = t.m / 2 ∧ wd.keys.length = t.m - t.m / 2 ∧
        nd1.keys ++ wd.keys = nd.keys ∧ nd1.values ++ wd.values = nd.values ∧
        nd1.next = some t.heap.length ∧ wd.next = nd.next ∧
        wd.type = bpnode_type.NODE_LEAF ∧ wd.parent = nd.parent ∧
        nd1.type = nd.type ∧ nd1.parent = nd.parent ∧
        nd1.num_keys = (nd1.keys.length : Int) ∧ wd.num_keys = (wd.keys.length : Int) ∧
        wd.keys[0]? = some k0 ∧
        ∀ x, x ≠ n → x ≠ t.heap.length → heap_get h1 x = heap_get t.heap x) := by
  constructor
  · intro hlt
    exact leaf_split_if_full_small hn (by rw [hnk]; exact_mod_cast hlt)
  · intro hfull
    obtain ⟨h1, k0, q1, q2, q3, q4⟩ := leaf_split_if_full_eq hn (by rw [hnk, hfull])
      hfull (by rw [hvl, hfull]) (by omega) hdyn
    have hnl : n ≠ t.heap.length := ne_of_lt (heap_get_lt hn)
    have hdiv : t.m / 2 ≤ t.m := Nat.div_le_self _ _
    refine ⟨h1, k0,
      { nd with keys := nd.keys.take (t.m / 2),
                values := nd.values.take (t.m / 2),
                num_keys := wrap16 ((t.m / 2 : Nat) : Int),
                next := some t.heap.length },
      { type := bpnode_type.NODE_LEAF,
        num_keys := wrap16 (nd.num_keys - ((t.m / 2 : Nat) : Int)),
        keys := nd.keys.drop (t.m / 2), parent := nd.parent,
        values := nd.values.drop (t.m / 2), next := nd.next, children := [] },
      q2, q3, ?_, ?_, rfl, rfl, rfl, rfl, ?_, ?_, ?_, ?_, rfl, rfl, rfl, rfl,
      rfl, rfl, ?_, ?_, q1, ?_⟩
    · rw [q4 n, if_pos rfl]
    · rw [q4 t.heap.length, if_neg (Ne.symm hnl), if_pos rfl]
    · simp only [List.length_take]
      omega
    · simp only [List.length_drop]
      omega
    · exact List.take_append_drop _ _
    · exact List.take_append_drop _ _
    · simp only [List.length_take]
      unfold wrap16
      omega
    · simp only [List.length_drop]
      rw [hnk]
      unfold wrap16
      omega
    · intro x hx1 hx2
      rw [q4 x, if_neg hx1, if_neg hx2]

end claimsG

/-- Witness of C15: in the tree of fanout 4 whose root leaf has received the keys
1, 2, 3, 4 the split keeps `{1, 2}`, moves `{3, 4}` to a new leaf and hands the
key 3 to `insert_inner_node`; the run of the four insertions ends with the root
separator 3, the leaves `{1, 2}` and `{3, 4}`, size 4 and depth 2. -/
theorem leaf_split_contract_witness :
    (∃ h1 k0 nd1 wd,
      leaf_split_if_full tree_full 0 =
        insert_inner_node (tree_full.heap.length + 1) { tree_full with heap := h1 } none k0 0
          tree_full.heap.length ∧
      heap_get h1 0 = some nd1 ∧ heap_get h1 tree_full.heap.length = some wd ∧
      nd1.keys = [1, 2] ∧ wd.keys = [3, 4] ∧ nd1.values = [10, 20] ∧ wd.values = [30, 40] ∧
      wd.keys[0]? = some k0) ∧
    run_ops (bptree_new 4) ops_a = some tree_a ∧ get_count tree_a = 4 ∧
    get_depth tree_a = 2 := by
  refine ⟨?_, rfl, rfl, rfl⟩
  obtain ⟨h1, k0, nd1, wd, q1, _, q3, q4, q5, q6, q7, q8, _, _, _, _, _, _, _, _, _, _, _, _,
      q9, _⟩ :=
    (leaf_split_contract (t := tree_full) (n := 0) (by decide) (by decide)
      rfl rfl rfl (show dyn_inner tree_full.heap none = some none from rfl)).2 rfl
  exact ⟨h1, k0, nd1, wd, q1, q3, q4, q5, q7, q6, q8, q9⟩

/-- C15, counterexample: with fanout 32768 the insertion of the key 32767 brings
the root leaf to exactly 32768 keys; `leaf_split_if_full` leaves this leaf as it
is and no new leaf is created. -/
theorem leaf_split_fails :
    Reachable 32768 (big 32768 32767) ∧
    insert_key (big 32768 32767) 32767 0 = some (big 32768 32768) ∧
    (node_keys (big 32768 32768).heap 0).length = 32768 ∧
    (big 32768 32768).m = 32768 ∧ (big 32768 32768).heap.length = 1 ∧
    leaf_split_if_full (big 32768 32768) 0 = some (big 32768 32768) := by
  refine ⟨big_reachable 32766 (by omega),
    insert_key_big 32768 (Nat.le_refl _) 32767 (Nat.le_refl _), big_root_keys, rfl, rfl, ?_⟩
  refine leaf_split_if_full_small (leaf_tree_get _ _ _) ?_
  have := wrap16_range ((List.range 32768).length : Int)
  show wrap16 ((List.range 32768).length : Int) < ((32768 : Nat) : Int)
  omega

end BPlus

namespace BPlus

/-! ## Borrowing between leaves -/

section claimsH
variable {K V : Type} [LinearOrder K]

theorem node_count_some {h : List (Option (bpnode K V))} {s : Nat} {sd : bpnode K V} {c : Int}
    (hsd : heap_get h s = some sd) (hc : node_count h (some s) = some c) : c = sd.num_keys := by
  simp only [node_count, hsd, Option.map_some'] at hc
  exact (Option.some.inj hc).symm

/-- The two borrow branches of the repair of an underfull leaf, in the state
right after the key has been erased. -/
theorem leaf_repair_borrow {t : bptree K V} {n p i : Nat} {nd pd : bpnode K V}
    {lc rc : Int} (c : SibCtx t.heap n p i nd pd)
    (hlc : node_count t.heap (left_of pd i) = some lc)
    (hrc : node_count t.heap (right_of pd i) = some rc)
    (hcond : min_limits t.m < lc ∨ min_limits t.m < rc) :
    (rc ≤ lc → ∀ s sd kb vb, left_of pd i = some s → heap_get t.heap s = some sd →
      sd.type = bpnode_type.NODE_LEAF → s ≠ n → s ≠ p →
      sd.keys.getLast? = some kb → sd.values.getLast? = some vb →
      ∃ h1 sd1 nd1 pd1, leaf_repair t n p i = some { t with heap := h1 } ∧
        heap_get h1 s = some sd1 ∧ heap_get h1 n = some nd1 ∧ heap_get h1 p = some pd1 ∧
        sd1.keys = sd.keys.dropLast ∧ sd1.values = sd.values.dropLast ∧
        nd1.keys = kb :: nd.keys ∧ nd1.values = vb :: nd.values ∧
        sd1.keys ++ nd1.keys = sd.keys ++ nd.keys ∧
        sd1.values ++ nd1.values = sd.values ++ nd.values ∧
        pd1.keys = pd.keys.set (i - 1) kb ∧ nd1.keys[0]? = some kb ∧
        pd1.children = pd.children ∧
        ∀ x, x ≠ s → x ≠ n → x ≠ p → heap_get h1 x = heap_get t.heap x) ∧
    (lc < rc → ∀ s sd k0 v0 k1, right_of pd i = some s → heap_get t.heap s = some sd →
      sd.type = bpnode_type.NODE_LEAF → s ≠ n → s ≠ p →
      sd.keys[0]? = some k0 → sd.values[0]? = some v0 → sd.keys[1]? = some k1 →
      ∃ h1 sd1 nd1 pd1, leaf_repair t n p i = some { t with heap := h1 } ∧
        heap_get h1 s = some sd1 ∧ heap_get h1 n = some nd1 ∧ heap_get h1 p = some pd1 ∧
        sd1.keys = sd.keys.tail ∧ sd1.values = sd.values.tail ∧
        nd1.keys = nd.keys ++ [k0] ∧ nd1.values = nd.values ++ [v0] ∧
        nd1.keys ++ sd1.keys = nd.keys ++ sd.keys ∧
        nd1.values ++ sd1.values = nd.values ++ sd.values ∧
        pd1.keys = pd.keys.set i k1 ∧ sd1.keys[0]? = some k1 ∧
        pd1.children = pd.children ∧
        ∀ x, x ≠ s → x ≠ n → x ≠ p → heap_get h1 x = heap_get t.heap x) := by
  constructor
  · intro hle s sd kb vb hl hsd hst hsn hsp hk hv
    rw [hl] at hlc
    have e := node_count_some hsd hlc
    subst e
    obtain ⟨h1, q1, _, q3⟩ := leaf_repair_borrow_left c hl hsd hst hsn hsp hrc hcond hle hk hv
    refine ⟨h1,
      { sd with keys := sd.keys.dropLast,
                values := sd.values.dropLast,
                num_keys := wrap16 (sd.num_keys - 1) },
      { nd with keys := kb :: nd.keys, values := vb :: nd.values,
                num_keys := wrap16 (nd.num_keys + 1) },
      { pd with keys := pd.keys.set (i - 1) kb },
      q1, ?_, ?_, ?_, rfl, rfl, rfl, rfl, ?_, ?_, rfl, ?_, rfl, ?_⟩
    · rw [q3 s, if_neg hsp, if_pos rfl]
    · rw [q3 n, if_neg c.hnp, if_neg (Ne.symm hsn), if_pos rfl]
    · rw [q3 p, if_pos rfl]
    · have e : sd.keys.dropLast ++ [kb] = sd.keys :=
        List.dropLast_append_getLast? kb (by rw [hk]; rfl)
      simp only
      rw [show sd.keys.dropLast ++ kb :: nd.keys = (sd.keys.dropLast ++ [kb]) ++ nd.keys by simp,
        e]
    · have e : sd.values.dropLast ++ [vb] = sd.values :=
        List.dropLast_append_getLast? vb (by rw [hv]; rfl)
      simp only
      rw [show sd.values.dropLast ++ vb :: nd.values =
        (sd.values.dropLast ++ [vb]) ++ nd.values by simp, e]
    · simp
    · intro x h1x h2x h3x
      rw [q3 x, if_neg h3x, if_neg h1x, if_neg h2x]
  · intro hlt s sd k0 v0 k1 hr hsd hst hsn hsp hk hv hk1
    rw [hr] at hrc
    have e := node_count_some hsd hrc
    subst e
    obtain ⟨h1, q1, _, q3⟩ := leaf_repair_borrow_right c hr hsd hst hsn hsp hlc hcond hlt hk hv
      hk1
    have hkeys : sd.keys = k0 :: sd.keys.tail := by
      cases hks : sd.keys with
      | nil => rw [hks] at hk; simp at hk
      | cons a l =>
        rw [hks] at hk
        simp at hk
        rw [hk]
        rfl
    have hvals : sd.values = v0 :: sd.values.tail := by
      cases hvs : sd.values with
      | nil => rw [hvs] at hv; simp at hv
      | cons a l =>
        rw [hvs] at hv
        simp at hv
        rw [hv]
        rfl
    refine ⟨h1,
      { sd with keys := sd.keys.tail,
                values := sd.values.tail,
                num_keys := wrap16 (sd.num_keys - 1) },
      { nd with keys := nd.keys ++ [k0], values := nd.values ++ [v0],
                num_keys := wrap16 (nd.num_keys + 1) },
      { pd with keys := pd.keys.set i k1 },
      q1, ?_, ?_, ?_, rfl, rfl, rfl, rfl, ?_, ?_, rfl, ?_, rfl, ?_⟩
    · rw [q3 s, if_neg hsp, if_pos rfl]
    · rw [q3 n, if_neg c.hnp, if_neg (Ne.symm hsn), if_pos rfl]
    · rw [q3 p, if_pos rfl]
    · simp only
      rw [List.append_assoc, List.singleton_append, ← hkeys]
    · simp only
      rw [List.append_assoc, List.singleton_append, ← hvals]
    · simp only
      rw [hkeys] at hk1
      simpa using hk1
    · intro x h1x h2x h3x
      rw [q3 x, if_neg h3x, if_neg h1x, if_neg h2x]

/-- The left neighbour of child number `i` is another node than that child. -/
theorem left_of_ne {pd : bpnode K V} {i n s : Nat} (hnd : pd.children.Nodup)
    (hi : pd.children[i]? = some n) (hl : left_of pd i = some s) : s ≠ n := by
  unfold left_of at hl
  by_cases h0 : i = 0
  · rw [if_pos h0] at hl
    cases hl
  · rw [if_neg h0] at hl
    intro e
    subst e
    obtain ⟨h1, e1⟩ := List.getElem?_eq_some.1 hi
    obtain ⟨h2, e2⟩ := List.getElem?_eq_some.1 hl
    have := (List.Nodup.getElem_inj_iff hnd).1 (e1.trans e2.symm)
    omega

/-- The right neighbour of child number `i` is another node than that child. -/
theorem right_of_ne {pd : bpnode K V} {i n s : Nat} (hnd : pd.children.Nodup)
    (hi : pd.children[i]? = some n) (hr : right_of pd i = some s) : s ≠ n := by
  unfold right_of at hr
  by_cases h0 : i = pd.keys.length
  · rw [if_pos h0] at hr
    cases hr
  · rw [if_neg h0] at hr
    intro e
    subst e
    obtain ⟨h1, e1⟩ := List.getElem?_eq_some.1 hi
    obtain ⟨h2, e2⟩ := List.getElem?_eq_some.1 hr
    have := (List.Nodup.getElem_inj_iff hnd).1 (e1.trans e2.symm)
    omega

theorem left_of_mem {pd : bpnode K V} {i s : Nat} (hl : left_of pd i = some s) :
    s ∈ pd.children := by
  unfold left_of at hl
  by_cases h0 : i = 0
  · rw [if_pos h0] at hl
    cases hl
  · rw [if_neg h0] at hl
    exact List.getElem?_mem hl

theorem right_of_mem {pd : bpnode K V} {i s : Nat} (hr : right_of pd i = some s) :
    s ∈ pd.children := by
  unfold right_of at hr
  by_cases h0 : i = pd.keys.length
  · rw [if_pos h0] at hr
    cases hr
  · rw [if_neg h0] at hr
    exact List.getElem?_mem hr

/-- The key count of a neighbour is not affected by an update of another node. -/
theorem node_count_set {h : List (Option (bpnode K V))} {n : Nat} (x : bpnode K V)
    {o : Option Nat} (ho : ∀ s, o = some s → s ≠ n) :
    node_count (heap_set h n x) o = node_count h o := by
  cases o with
  | none => rfl
  | some s =>
    simp only [node_count]
    rw [heap_get_set_ne x (Ne.symm (ho s rfl))]

/-- The position of a leaf under its parent is not affected by the erasure of a
key from the leaf. -/
theorem SibCtx.erase {t : bptree K V} {n p i : Nat} {nd pd : bpnode K V}
    (c : SibCtx t.heap n p i nd pd) (key : K) :
    SibCtx (heap_set t.heap n (leaf_erase nd key)) n p i (leaf_erase nd key) pd :=
  ⟨heap_get_set_eq _ c.hn, c.hpar, by rw [heap_get_set_ne _ c.hnp]; exact c.hp, c.hpt, c.hk,
    c.hl, c.hi, c.hidx, c.hnp⟩

/-- When the erasure of `key` leaves the leaf `n`, child number `i` of `p`, with
fewer than `min_limits` keys, `remove_leaf_key` goes on with the repair of
`n`. -/
theorem remove_leaf_key_repair {t : bptree K V} {n p i : Nat} {nd pd : bpnode K V} {key : K}
    (c : SibCtx t.heap n p i nd pd) (hk : key ∈ nd.keys)
    (hvl : nd.values.length = nd.keys.length)
    (hunder : wrap16 (nd.num_keys - 1) < min_limits t.m) :
    remove_leaf_key t n key =
      leaf_repair { t with heap := heap_set t.heap n (leaf_erase nd key) } n p i := by
  have c1 := c.erase key
  rw [remove_leaf_key_eq c.hn hk hvl (leaf_erase nd key) _ rfl rfl]
  have hnot : ¬ min_limits t.m ≤ (leaf_erase nd key).num_keys := not_le.2 hunder
  simp only [c.hpar, dyn_inner_some c1.hp c1.hpt, c1.hp, c.child_index, if_neg hnot]

/-- C17 (leaf borrow): let the leaf `n` be child number `i` of `p`, let `key` be
one of its keys, let the deletion of `key` leave it with fewer than `min_limits`
keys, let `lc` and `rc` be the key counts of its left and right neighbour under
`p` (0 for an absent one), and let one of them exceed `min_limits`.  Then
`remove_leaf_key` erases the key and borrows: if `rc ≤ lc`, from the left
neighbour `s`, whose last key and value become the first of `n`, and the
separator in front of `n` becomes that key, the first key of `n`; if `lc < rc`,
from the right neighbour `s`, whose first key and value become the last of `n`,
and the separator behind `n` becomes the new first key of `s`.  In both cases
exactly one pair moves, the keys (values) of the two leaves read from left to
right are what they were after the erasure, the children of `p` and every other
node are unchanged, and `remove_leaf_key` returns with this heap, without a
further repair step. -/
theorem leaf_borrow_contract {t : bptree K V} {n p i : Nat} {nd pd : bpnode K V} {key : K}
    {lc rc : Int} (c : SibCtx t.heap n p i nd pd) (hty : nd.type = bpnode_type.NODE_LEAF)
    (hk : key ∈ nd.keys) (hvl : nd.values.length = nd.keys.length)
    (hnodup : pd.children.Nodup) (hpc : p ∉ pd.children)
    (hunder : wrap16 (nd.num_keys - 1) < min_limits t.m)
    (hlc : node_count t.heap (left_of pd i) = some lc)
    (hrc : node_count t.heap (right_of pd i) = some rc)
    (hcond : min_limits t.m < lc ∨ min_limits t.m < rc) :
    (rc ≤ lc → ∀ s sd kb vb, left_of pd i = some s → heap_get t.heap s = some sd →
      sd.type = bpnode_type.NODE_LEAF →
      sd.keys.getLast? = some kb → sd.values.getLast? = some vb →
      ∃ h1 sd1 nd1 pd1, remove_leaf_key t n key = some { t with heap := h1 } ∧
        heap_get h1 s = some sd1 ∧ heap_get h1 n = some nd1 ∧ heap_get h1 p = some pd1 ∧
        sd1.keys = sd.keys.dropLast ∧ sd1.values = sd.values.dropLast ∧
        nd1.keys = kb :: nd.keys.eraseIdx (index_of key nd.keys) ∧
        nd1.values = vb :: nd.values.eraseIdx (index_of key nd.keys) ∧
        sd1.keys ++ nd1.keys = sd.keys ++ nd.keys.eraseIdx (index_of key nd.keys) ∧
        sd1.values ++ nd1.values = sd.values ++ nd.values.eraseIdx (index_of key nd.keys) ∧
        pd1.keys = pd.keys.set (i - 1) kb ∧ nd1.keys[0]? = some kb ∧
        pd1.children = pd.children ∧
        sd1.num_keys = wrap16 (sd.num_keys - 1) ∧
        nd1.num_keys = wrap16 (wrap16 (nd.num_keys - 1) + 1) ∧
        ∀ x, x ≠ s → x ≠ n → x ≠ p → heap_get h1 x = heap_get t.heap x) ∧
    (lc < rc → ∀ s sd k0 v0 k1, right_of pd i = some s → heap_get t.heap s = some sd →
      sd.type = bpnode_type.NODE_LEAF →
      sd.keys[0]? = some k0 → sd.values[0]? = some v0 → sd.keys[1]? = some k1 →
      ∃ h1 sd1 nd1 pd1, remove_leaf_key t n key = some { t with heap := h1 } ∧
        heap_get h1 s = some sd1 ∧ heap_get h1 n = some nd1 ∧ heap_get h1 p = some pd1 ∧
        sd1.keys = sd.keys.tail ∧ sd1.values = sd.values.tail ∧
        nd1.keys = nd.keys.eraseIdx (index_of key nd.keys) ++ [k0] ∧
        nd1.values = nd.values.eraseIdx (index_of key nd.keys) ++ [v0] ∧
        nd1.keys ++ sd1.keys = nd.keys.eraseIdx (index_of key nd.keys) ++ sd.keys ∧
        nd1.values ++ sd1.values = nd.values.eraseIdx (index_of key nd.keys) ++ sd.values ∧
        pd1.keys = pd.keys.set i k1 ∧ sd1.keys[0]? = some k1 ∧
        pd1.children = pd.children ∧
        sd1.num_keys = wrap16 (sd.num_keys - 1) ∧
        nd1.num_keys = wrap16 (wrap16 (nd.num_keys - 1) + 1) ∧
        ∀ x, x ≠ s → x ≠ n → x ≠ p → heap_get h1 x = heap_get t.heap x) := by
  have c1 := c.erase key
  have hrep := remove_leaf_key_repair c hk hvl hunder
  have hlc1 : node_count (heap_set t.heap n (leaf_erase nd key)) (left_of pd i) = some lc := by
    rw [node_count_set _ (fun s hs => left_of_ne hnodup c.hi hs)]
    exact hlc
  have hrc1 : node_count (heap_set t.heap n (leaf_erase nd key)) (right_of pd i) = some rc := by
    rw [node_count_set _ (fun s hs => right_of_ne hnodup c.hi hs)]
    exact hrc
  have hB := leaf_repair_borrow
    (t := { t with heap := heap_set t.heap n (leaf_erase nd key) }) c1 hlc1 hrc1 hcond
  constructor
  · intro hle s sd kb vb hl hsd hst hkb hvb
    have hsn : s ≠ n := left_of_ne hnodup c.hi hl
    have hsp : s ≠ p := fun e => hpc (e ▸ left_of_mem hl)
    have hsd1 : heap_get (heap_set t.heap n (leaf_erase nd key)) s = some sd := by
      rw [heap_get_set_ne _ (Ne.symm hsn)]
      exact hsd
    obtain ⟨h1, sd1, nd1, pd1, q1, q2, q3, q4, q5, q6, q7, q8, q9, q10, q11, q12, q13, q14⟩ :=
      hB.1 hle s sd kb vb hl hsd1 hst hsn hsp hkb hvb
    have hnum := leaf_repair_borrow_left
      (t := { t with heap := heap_set t.heap n (leaf_erase nd key) }) c1 hl hsd1 hst hsn hsp hrc1
      (by
        rw [hl] at hlc1
        rw [← node_count_some hsd1 hlc1]
        exact hcond)
      (by
        rw [hl] at hlc1
        rw [← node_count_some hsd1 hlc1]
        exact hle) hkb hvb
    obtain ⟨h2, r1, _, r3⟩ := hnum
    have hh : h2 = h1 := by
      rw [q1] at r1
      have := Option.some.inj r1
      exact (congrArg bptree.heap this).symm
    subst hh
    refine ⟨h2, sd1, nd1, pd1, hrep.trans q1, q2, q3, q4, q5, q6, q7, q8, q9, q10, q11, q12,
      q13, ?_, ?_, ?_⟩
    · have := r3 s
      rw [if_neg hsp, if_pos rfl, q2] at this
      rw [Option.some.inj this]
    · have := r3 n
      rw [if_neg c.hnp, if_neg (Ne.symm hsn), if_pos rfl, q3] at this
      rw [Option.some.inj this]
      rfl
    · intro x h1x h2x h3x
      rw [q14 x h1x h2x h3x, heap_get_set_ne _ (Ne.symm h2x)]
  · intro hlt s sd k0 v0 k1 hr hsd hst hk0 hv0 hk1
    have hsn : s ≠ n := right_of_ne hnodup c.hi hr
    have hsp : s ≠ p := fun e => hpc (e ▸ right_of_mem hr)
    have hsd1 : heap_get (heap_set t.heap n (leaf_erase nd key)) s = some sd := by
      rw [heap_get_set_ne _ (Ne.symm hsn)]
      exact hsd
    obtain ⟨h1, sd1, nd1, pd1, q1, q2, q3, q4, q5, q6, q7, q8, q9, q10, q11, q12, q13, q14⟩ :=
      hB.2 hlt s sd k0 v0 k1 hr hsd1 hst hsn hsp hk0 hv0 hk1
    have hnum := leaf_repair_borrow_right
      (t := { t with heap := heap_set t.heap n (leaf_erase nd key) }) c1 hr hsd1 hst hsn hsp hlc1
      (by
        rw [hr] at hrc1
        rw [← node_count_some hsd1 hrc1]
        exact hcond)
      (by
        rw [hr] at hrc1
        rw [← node_count_some hsd1 hrc1]
        exact hlt) hk0 hv0 hk1
    obtain ⟨h2, r1, _, r3⟩ := hnum
    have hh : h2 = h1 := by
      rw [q1] at r1
      have := Option.some.inj r1
      exact (congrArg bptree.heap this).symm
    subst hh
    refine ⟨h2, sd1, nd1, pd1, hrep.trans q1, q2, q3, q4, q5, q6, q7, q8, q9, q10, q11, q12,
      q13, ?_, ?_, ?_⟩
    · have := r3 s
      rw [if_neg hsp, if_pos rfl, q2] at this
      rw [Option.some.inj this]
    · have := r3 n
      rw [if_neg c.hnp, if_neg (Ne.symm hsn), if_pos rfl, q3] at this
      rw [Option.some.inj this]
      rfl
    · intro x h1x h2x h3x
      rw [q14 x h1x h2x h3x, heap_get_set_ne _ (Ne.symm h2x)]

end claimsH

/-- Witness of C17 (fanout 4).  In the tree with the leaves `{1, 2}` and `{3}` the
deletion of 3 empties the second leaf, which takes the key 2 from its left
neighbour, and the separator becomes 2.  In the tree with the leaves `{1}` and
`{3, 4}` the deletion of 1 empties the first leaf, which takes the key 3 from its
right neighbour, and the separator becomes 4. -/
theorem leaf_borrow_contract_witness :
    (Reachable 4 tree_left_rich ∧
      (∃ h1 sd1 nd1 pd1,
        remove_leaf_key tree_left_rich 1 3 = some { tree_left_rich with heap := h1 } ∧
        heap_get h1 0 = some sd1 ∧ heap_get h1 1 = some nd1 ∧ heap_get h1 2 = some pd1 ∧
        sd1.keys = [1] ∧ nd1.keys = [2] ∧ pd1.keys = [2]) ∧
      (delete_key tree_left_rich 3).map
        (fun r => (r.1, node_keys r.2.heap 0, node_keys r.2.heap 1, node_keys r.2.heap 2)) =
        some (true, [1], [2], [2])) ∧
    (Reachable 4 tree_right_rich ∧
      (∃ h1 sd1 nd1 pd1,
        remove_leaf_key tree_right_rich 0 1 = some { tree_right_rich with heap := h1 } ∧
        heap_get h1 1 = some sd1 ∧ heap_get h1 0 = some nd1 ∧ heap_get h1 2 = some pd1 ∧
        sd1.keys = [4] ∧ nd1.keys = [3] ∧ pd1.keys = [4]) ∧
      (delete_key tree_right_rich 1).map
        (fun r => (r.1, node_keys r.2.heap 0, node_keys r.2.heap 1, node_keys r.2.heap 2)) =
        some (true, [3], [4], [4])) := by
  have r1 : run_ops (bptree_new 4) (ops_a ++ [Op.delete 4]) = some tree_left_rich := rfl
  have r2 : run_ops (bptree_new 4) (ops_a ++ [Op.delete 2]) = some tree_right_rich := rfl
  refine ⟨⟨⟨_, r1⟩, ?_, rfl⟩, ⟨⟨_, r2⟩, ?_, rfl⟩⟩
  · obtain ⟨h1, sd1, nd1, pd1, q1, q2, q3, q4, q5, _, q7, _, _, _, q11, _⟩ :=
      (leaf_borrow_contract (t := tree_left_rich) (n := 1) (p := 2) (i := 1)
        ⟨rfl, rfl, rfl, rfl, rfl, rfl, rfl, rfl, by decide⟩ rfl
        (show (3 : Nat) ∈ [3] from by decide) rfl (by decide)
        (by decide) (by decide) rfl rfl
        (Or.inl (by decide))).1 (by decide) 0 _ 2 20 rfl rfl rfl rfl rfl
    exact ⟨h1, sd1, nd1, pd1, q1, q2, q3, q4, q5, q7, q11⟩
  · obtain ⟨h1, sd1, nd1, pd1, q1, q2, q3, q4, q5, _, q7, _, _, _, q11, _⟩ :=
      (leaf_borrow_contract (t := tree_right_rich) (n := 0) (p := 2) (i := 0)
        ⟨rfl, rfl, rfl, rfl, rfl, rfl, rfl, rfl, by decide⟩ rfl
        (show (1 : Nat) ∈ [1] from by decide) rfl (by decide)
        (by decide) (by decide) rfl rfl
        (Or.inr (by decide))).2 (by decide) 1 _ 3 30 4 rfl rfl rfl rfl rfl rfl
    exact ⟨h1, sd1, nd1, pd1, q1, q2, q3, q4, q5, q7, q11⟩

end BPlus

namespace BPlus

/-! ## Borrowing between inner nodes -/

section claimsI
variable {K V : Type} [LinearOrder K]

/-- For an underfull node that has a parent `check_inner_node_size` runs the
borrow-or-merge repair. -/
theorem check_inner_node_size_repair (fuel : Nat) {t : bptree K V} {n : Nat} {nd : bpnode K V}
    (hn : heap_get t.heap n = some nd) (hunder : nd.num_keys < min_limits t.m)
    (hpar : nd.parent ≠ none) :
    check_inner_node_size (fuel + 1) t n = inner_repair (check_inner_node_size fuel) t n := by
  unfold min_limits at hunder
  have c1 : ¬ ((((t.m - 1) / 2 : Nat) : Int) ≤ nd.num_keys) := not_le.2 hunder
  have c2 : ¬ (nd.num_keys = 0 ∧ nd.parent = none) := fun h => hpar h.2
  simp only [check_inner_node_size, hn]
  rw [if_neg c1, if_neg c2, if_neg hpar]

theorem list_head_tail {A : Type} {l : List A} {a : A} (h : l[0]? = some a) :
    l = a :: l.tail := by
  cases l with
  | nil => simp at h
  | cons b l =>
    simp at h
    rw [h]
    rfl

/-- C18 (inner borrow): let the inner node `n`, child number `i` of `p`, be
underfull, let `lc` and `rc` be the key counts of its left and right neighbour
under `p` (0 for an absent one), and let one of them exceed `min_limits`.  If
`lc ≤ rc`, `check_inner_node_size` borrows from the right neighbour `s`: `n`
gains the separator `p.keys[i]` as its last key and the first child of `s`, which
gets `n` as its parent, as its last child; `p.keys[i]` becomes the former first
key of `s`; `s` loses its first key and child.  If `rc < lc` it borrows from the
left neighbour, symmetrically with `p.keys[i - 1]` and the last key and child of
`s`.  The keys and the children of the two nodes and the separator between
them, read from left to right, are what they were; each of the two nodes keeps
one child more than keys; no other node changes and the repair returns. -/
theorem inner_borrow_contract (fuel : Nat) {t : bptree K V} {n p i : Nat}
    {nd pd : bpnode K V} {lc rc : Int} (c : SibCtx t.heap n p i nd pd)
    (hunder : nd.num_keys < min_limits t.m)
    (hncl : nd.children.length = nd.keys.length + 1)
    (hlc : node_count t.heap (left_of pd i) = some lc)
    (hrc : node_count t.heap (right_of pd i) = some rc)
    (hcond : min_limits t.m < lc ∨ min_limits t.m < rc) :
    (lc ≤ rc → ∀ s sd c0 cd kp k0, right_of pd i = some s → heap_get t.heap s = some sd →
      sd.type = bpnode_type.NODE_INNER → s ≠ n → s ≠ p →
      sd.children.length = sd.keys.length + 1 →
      pd.keys[i]? = some kp → sd.children[0]? = some c0 → sd.keys[0]? = some k0 →
      heap_get t.heap c0 = some cd → c0 ≠ n → c0 ≠ s → c0 ≠ p →
      ∃ h1 sd1 nd1 pd1, check_inner_node_size (fuel + 1) t n = some { t with heap := h1 } ∧
        heap_get h1 s = some sd1 ∧ heap_get h1 n = some nd1 ∧ heap_get h1 p = some pd1 ∧
        heap_get h1 c0 = some { cd with parent := some n } ∧
        nd1.keys = nd.keys ++ [kp] ∧ nd1.children = nd.children ++ [c0] ∧
        pd1.keys = pd.keys.set i k0 ∧ pd1.children = pd.children ∧
        sd1.keys = sd.keys.tail ∧ sd1.children = sd.children.tail ∧
        nd1.keys ++ [k0] ++ sd1.keys = nd.keys ++ [kp] ++ sd.keys ∧
        nd1.children ++ sd1.children = nd.children ++ sd.children ∧
        nd1.children.length = nd1.keys.length + 1 ∧
        sd1.children.length = sd1.keys.length + 1 ∧
        ∀ x, x ≠ s → x ≠ n → x ≠ p → x ≠ c0 → heap_get h1 x = heap_get t.heap x) ∧
    (rc < lc → ∀ s sd cb cd kp kb, left_of pd i = some s → heap_get t.heap s = some sd →
      sd.type = bpnode_type.NODE_INNER → s ≠ n → s ≠ p →
      sd.children.length = sd.keys.length + 1 →
      pd.keys[i - 1]? = some kp → sd.children.getLast? = some cb →
      sd.keys.getLast? = some kb →
      heap_get t.heap cb = some cd → cb ≠ n → cb ≠ s → cb ≠ p →
      ∃ h1 sd1 nd1 pd1, check_inner_node_size (fuel + 1) t n = some { t with heap := h1 } ∧
        heap_get h1 s = some sd1 ∧ heap_get h1 n = some nd1 ∧ heap_get h1 p = some pd1 ∧
        heap_get h1 cb = some { cd with parent := some n } ∧
        nd1.keys = kp :: nd.keys ∧ nd1.children = cb :: nd.children ∧
        pd1.keys = pd.keys.set (i - 1) kb ∧ pd1.children = pd.children ∧
        sd1.keys = sd.keys.dropLast ∧ sd1.children = sd.children.dropLast ∧
        sd1.keys ++ [kb] ++ nd1.keys = sd.keys ++ [kp] ++ nd.keys ∧
        sd1.children ++ nd1.children = sd.children ++ nd.children ∧
        nd1.children.length = nd1.keys.length + 1 ∧
        sd1.children.length = sd1.keys.length + 1 ∧
        ∀ x, x ≠ s → x ≠ n → x ≠ p → x ≠ cb → heap_get h1 x = heap_get t.heap x) := by
  have hpar : nd.parent ≠ none := by
    rw [c.hpar]
    intro h
    cases h
  have hrep := check_inner_node_size_repair fuel c.hn hunder hpar
  constructor
  · intro hle s sd c0 cd kp k0 hr hsd hst hsn hsp hscl hkp hc0 hk0 hcd hcn hcs hcp
    rw [hr] at hrc
    have e := node_count_some hsd hrc
    subst e
    obtain ⟨h1, q1, _, q3⟩ := inner_repair_borrow_right (check_inner_node_size fuel) c hr hsd
      hst hsn hsp hlc hcond hle hkp hc0 hk0 hcd hcn hcs hcp
    have hkeys := list_head_tail hk0
    have hch := list_head_tail hc0
    refine ⟨h1,
      { sd with keys := sd.keys.tail,
                children := sd.children.tail,
                num_keys := wrap16 (sd.num_keys - 1) },
      { nd with keys := nd.keys ++ [kp],
                children := nd.children ++ [c0],
                num_keys := wrap16 (nd.num_keys + 1) },
      { pd with keys := pd.keys.set i k0 },
      by rw [hrep]; exact q1, ?_, ?_, ?_, ?_, rfl, rfl, rfl, rfl, rfl, rfl, ?_, ?_, ?_, ?_, ?_⟩
    · rw [q3 s, if_pos rfl]
    · rw [q3 n, if_neg (Ne.symm hsn), if_neg c.hnp, if_pos rfl]
    · rw [q3 p, if_neg (Ne.symm hsp), if_pos rfl]
    · rw [q3 c0, if_neg hcs, if_neg hcp, if_neg hcn, if_pos rfl]
    · simp only
      rw [List.append_assoc (nd.keys ++ [kp]), List.singleton_append, ← hkeys]
    · simp only
      rw [List.append_assoc, List.singleton_append, ← hch]
    · simp only [List.length_append, List.length_singleton]
      omega
    · simp only [List.length_tail]
      have : 0 < sd.keys.length := by
        rw [hkeys]
        simp
      omega
    · intro x h1x h2x h3x h4x
      rw [q3 x, if_neg h1x, if_neg h3x, if_neg h2x, if_neg h4x]
  · intro hlt s sd cb cd kp kb hl hsd hst hsn hsp hscl hkp hcb hkb hcd hcn hcs hcp
    rw [hl] at hlc
    have e := node_count_some hsd hlc
    subst e
    obtain ⟨h1, q1, _, q3⟩ := inner_repair_borrow_left (check_inner_node_size fuel) c hl hsd
      hst hsn hsp hrc hcond hlt hkp hcb hkb hcd hcn hcs hcp
    have ek : sd.keys.dropLast ++ [kb] = sd.keys :=
      List.dropLast_append_getLast? kb (by rw [hkb]; rfl)
    have ec : sd.children.dropLast ++ [cb] = sd.children :=
      List.dropLast_append_getLast? cb (by rw [hcb]; rfl)
    refine ⟨h1,
      { sd with keys := sd.keys.dropLast,
                children := sd.children.dropLast,
                num_keys := wrap16 (sd.num_keys - 1) },
      { nd with keys := kp :: nd.keys,
                children := cb :: nd.children,
                num_keys := wrap16 (nd.num_keys + 1) },
      { pd with keys := pd.keys.set (i - 1) kb },
      by rw [hrep]; exact q1, ?_, ?_, ?_, ?_, rfl, rfl, rfl, rfl, rfl, rfl, ?_, ?_, ?_, ?_, ?_⟩
    · rw [q3 s, if_pos rfl]
    · rw [q3 n, if_neg (Ne.symm hsn), if_neg c.hnp, if_pos rfl]
    · rw [q3 p, if_neg (Ne.symm hsp), if_pos rfl]
    · rw [q3 cb, if_neg hcs, if_neg hcp, if_neg hcn, if_pos rfl]
    · simp only
      rw [ek]
      simp
    · simp only
      rw [show sd.children.dropLast ++ cb :: nd.children =
        (sd.children.dropLast ++ [cb]) ++ nd.children by simp, ec]
    · simp only [List.length_cons]
      omega
    · simp only [List.length_dropLast]
      have : 0 < sd.keys.length := by
        rw [← ek]
        simp
      omega
    · intro x h1x h2x h3x h4x
      rw [q3 x, if_neg h1x, if_neg h3x, if_neg h2x, if_neg h4x]

end claimsI

/-- Witness of C18 (fanout 4): the node without keys takes the separator 3 and
the first child of its right neighbour, whose first key 5 moves up; the node
without keys takes the separator 7 and the last child of its left neighbour,
whose last key 5 moves up. -/
theorem inner_borrow_contract_witness :
    (∃ h1 sd1 nd1 pd1, check_inner_node_size 8 tree_ir 4 = some { tree_ir with heap := h1 } ∧
      heap_get h1 5 = some sd1 ∧ heap_get h1 4 = some nd1 ∧ heap_get h1 6 = some pd1 ∧
      nd1.keys = [3] ∧ nd1.children = [0, 1] ∧ pd1.keys = [5] ∧
      sd1.keys = [7] ∧ sd1.children = [2, 3]) ∧
    (∃ h1 sd1 nd1 pd1, check_inner_node_size 8 tree_il 5 = some { tree_il with heap := h1 } ∧
      heap_get h1 4 = some sd1 ∧ heap_get h1 5 = some nd1 ∧ heap_get h1 6 = some pd1 ∧
      nd1.keys = [7] ∧ nd1.children = [2, 3] ∧ pd1.keys = [5] ∧
      sd1.keys = [3] ∧ sd1.children = [0, 1]) := by
  constructor
  · obtain ⟨h1, sd1, nd1, pd1, q1, q2, q3, q4, _, q6, q7, q8, _, q10, q11, _⟩ :=
      (inner_borrow_contract 7 (t := tree_ir) (n := 4) (p := 6) (i := 0)
        ⟨rfl, rfl, rfl, rfl, rfl, rfl, rfl, rfl, by decide⟩ (by decide) rfl rfl rfl
        (Or.inr (by decide))).1 (by decide) 5 _ 1 _ 3 5 rfl rfl rfl (by decide) (by decide)
        rfl rfl rfl rfl rfl (by decide) (by decide) (by decide)
    exact ⟨h1, sd1, nd1, pd1, q1, q2, q3, q4, q6, q7, q8, q10, q11⟩
  · obtain ⟨h1, sd1, nd1, pd1, q1, q2, q3, q4, _, q6, q7, q8, _, q10, q11, _⟩ :=
      (inner_borrow_contract 7 (t := tree_il) (n := 5) (p := 6) (i := 1)
        ⟨rfl, rfl, rfl, rfl, rfl, rfl, rfl, rfl, by decide⟩ (by decide) rfl rfl rfl
        (Or.inl (by decide))).2 (by decide) 4 _ 2 _ 7 5 rfl rfl rfl (by decide) (by decide)
        rfl rfl rfl rfl rfl (by decide) (by decide) (by decide)
    exact ⟨h1, sd1, nd1, pd1, q1, q2, q3, q4, q6, q7, q8, q10, q11⟩

end BPlus

namespace BPlus

/-! ## Merges -/

section claimsJ
variable {K V : Type} [LinearOrder K]

/-- C19, amended (merge tie-break): let the node `n`, child number `i` of `p`, be
left underfull, let `lc` and `rc` be the key counts of its left and right
neighbour under `p` (0 for an absent one), and let neither exceed `min_limits`,
so that no neighbour can lend.  Then the node is merged with its left neighbour
exactly when `rc < lc`; otherwise, a tie `lc = rc` included, it is merged with
its right neighbour.  For a leaf whose key `key` is deleted by `remove_leaf_key`:
if `rc < lc` the left neighbour receives the remaining keys and values and the
forward link of `n`, `n` is discarded and `p` loses the separator in front of
`n` and the child `n`; otherwise `n` receives the keys, the values and the
forward link of the right neighbour, which is discarded, and `p` loses the
separator behind `n` and that child.  For an inner node examined by
`check_inner_node_size`: if `rc < lc` the left neighbour receives the separator
in front of `n` and the keys and children of `n`, which is discarded; otherwise
`n` receives the separator behind it and the keys and children of the right
neighbour, which is discarded.  In every case the run goes on with
`check_inner_node_size` on the parent. -/
theorem merge_dispatch {t : bptree K V} {n p i : Nat} {nd pd : bpnode K V} {lc rc : Int}
    (c : SibCtx t.heap n p i nd pd)
    (hnodup : pd.children.Nodup) (hpc : p ∉ pd.children)
    (hlc : node_count t.heap (left_of pd i) = some lc)
    (hrc : node_count t.heap (right_of pd i) = some rc)
    (hcond : ¬ (min_limits t.m < lc ∨ min_limits t.m < rc)) :
    (∀ key, nd.type = bpnode_type.NODE_LEAF → key ∈ nd.keys →
      nd.values.length = nd.keys.length → wrap16 (nd.num_keys - 1) < min_limits t.m →
      (rc < lc → ∀ s sd, left_of pd i = some s → heap_get t.heap s = some sd →
        sd.type = bpnode_type.NODE_LEAF →
        ∃ h1 sd1 pd1,
          remove_leaf_key t n key =
            check_inner_node_size (t.heap.length + 1) { t with heap := h1 } p ∧
          heap_get h1 n = none ∧ heap_get h1 s = some sd1 ∧ heap_get h1 p = some pd1 ∧
          sd1.keys = sd.keys ++ nd.keys.eraseIdx (index_of key nd.keys) ∧
          sd1.values = sd.values ++ nd.values.eraseIdx (index_of key nd.keys) ∧
          sd1.next = nd.next ∧
          pd1.keys = pd.keys.eraseIdx (i - 1) ∧ pd1.children = pd.children.eraseIdx i ∧
          ∀ x, x ≠ n → x ≠ s → x ≠ p → heap_get h1 x = heap_get t.heap x) ∧
      (¬ rc < lc → ∀ s sd k0, right_of pd i = some s → heap_get t.heap s = some sd →
        sd.type = bpnode_type.NODE_LEAF →
        (nd.keys.eraseIdx (index_of key nd.keys) ++ sd.keys)[0]? = some k0 →
        ∃ h1 nd2 pd1,
          remove_leaf_key t n key =
            check_inner_node_size (t.heap.length + 1) { t with heap := h1 } p ∧
          heap_get h1 s = none ∧ heap_get h1 n = some nd2 ∧ heap_get h1 p = some pd1 ∧
          nd2.keys = nd.keys.eraseIdx (index_of key nd.keys) ++ sd.keys ∧
          nd2.values = nd.values.eraseIdx (index_of key nd.keys) ++ sd.values ∧
          nd2.next = sd.next ∧
          pd1.keys = (if 0 < i then (pd.keys.eraseIdx i).set (i - 1) k0
                      else pd.keys.eraseIdx i) ∧
          pd1.children = pd.children.eraseIdx (i + 1) ∧
          ∀ x, x ≠ n → x ≠ s → x ≠ p → heap_get h1 x = heap_get t.heap x)) ∧
    (∀ fuel, nd.type = bpnode_type.NODE_INNER → nd.num_keys < min_limits t.m →
      (rc < lc → ∀ s sd kp, left_of pd i = some s → heap_get t.heap s = some sd →
        sd.type = bpnode_type.NODE_INNER → pd.keys[i - 1]? = some kp →
        (∀ x ∈ sd.children ++ nd.children, ∃ cd, heap_get t.heap x = some cd) →
        n ∉ sd.children ++ nd.children → s ∉ sd.children ++ nd.children →
        p ∉ sd.children ++ nd.children →
        ∃ h1 sd1 pd1,
          check_inner_node_size (fuel + 1) t n =
            check_inner_node_size fuel { t with heap := h1 } p ∧
          heap_get h1 n = none ∧ heap_get h1 s = some sd1 ∧ heap_get h1 p = some pd1 ∧
          sd1.keys = sd.keys ++ [kp] ++ nd.keys ∧
          sd1.children = sd.children ++ nd.children ∧
          pd1.keys = pd.keys.eraseIdx (i - 1) ∧ pd1.children = pd.children.eraseIdx i ∧
          (∀ x ∈ sd.children ++ nd.children, ∃ cd, heap_get t.heap x = some cd ∧
            heap_get h1 x = some { cd with parent := some s }) ∧
          ∀ x, x ≠ n → x ≠ s → x ≠ p → x ∉ sd.children ++ nd.children →
            heap_get h1 x = heap_get t.heap x) ∧
      (¬ rc < lc → ∀ s sd kp, right_of pd i = some s → heap_get t.heap s = some sd →
        sd.type = bpnode_type.NODE_INNER → sd.parent = some p → pd.keys[i]? = some kp →
        (∀ x ∈ nd.children ++ sd.children, ∃ cd, heap_get t.heap x = some cd) →
        n ∉ nd.children ++ sd.children → s ∉ nd.children ++ sd.children →
        p ∉ nd.children ++ sd.children →
        ∃ h1 nd2 pd1,
          check_inner_node_size (fuel + 1) t n =
            check_inner_node_size fuel { t with heap := h1 } p ∧
          heap_get h1 s = none ∧ heap_get h1 n = some nd2 ∧ heap_get h1 p = some pd1 ∧
          nd2.keys = nd.keys ++ [kp] ++ sd.keys ∧
          nd2.children = nd.children ++ sd.children ∧
          pd1.keys = pd.keys.eraseIdx i ∧ pd1.children = pd.children.eraseIdx (i + 1) ∧
          (∀ x ∈ nd.children ++ sd.children, ∃ cd, heap_get t.heap x = some cd ∧
            heap_get h1 x = some { cd with parent := some n }) ∧
          ∀ x, x ≠ n → x ≠ s → x ≠ p → x ∉ nd.children ++ sd.children →
            heap_get h1 x = heap_get t.heap x)) := by
  constructor
  · intro key hty hk hvl hunder
    have c1 := c.erase key
    have hrep := remove_leaf_key_repair c hk hvl hunder
    have hlc1 : node_count (heap_set t.heap n (leaf_erase nd key)) (left_of pd i) =
        some lc := by
      rw [node_count_set _ (fun s hs => left_of_ne hnodup c.hi hs)]
      exact hlc
    have hrc1 : node_count (heap_set t.heap n (leaf_erase nd key)) (right_of pd i) =
        some rc := by
      rw [node_count_set _ (fun s hs => right_of_ne hnodup c.hi hs)]
      exact hrc
    constructor
    · intro hlt s sd hl hsd hst
      have hsn : s ≠ n := left_of_ne hnodup c.hi hl
      have hsp : s ≠ p := fun e => hpc (e ▸ left_of_mem hl)
      have hsd1 : heap_get (heap_set t.heap n (leaf_erase nd key)) s = some sd := by
        rw [heap_get_set_ne _ (Ne.symm hsn)]
        exact hsd
      have hlcs : lc = sd.num_keys := by
        rw [hl] at hlc1
        exact node_count_some hsd1 hlc1
      subst hlcs
      obtain ⟨h1, q1, q2, q3⟩ := leaf_repair_merge_left
        (t := { t with heap := heap_set t.heap n (leaf_erase nd key) })
        c1 hl hsd1 hst hsn hsp hrc1 hcond hlt
      have hlen : (heap_set t.heap n (leaf_erase nd key)).length = t.heap.length :=
        heap_set_length _ _ _
      have q1b : leaf_repair { t with heap := heap_set t.heap n (leaf_erase nd key) } n p i =
          check_inner_node_size (t.heap.length + 1) { t with heap := h1 } p := by
        rw [q1]
        show check_inner_node_size ((heap_set t.heap n (leaf_erase nd key)).length + 1) _ p = _
        rw [hlen]
      refine ⟨h1,
        { sd with keys := sd.keys ++ (leaf_erase nd key).keys,
                  values := sd.values ++ (leaf_erase nd key).values,
                  num_keys := wrap16 (sd.num_keys + (leaf_erase nd key).num_keys),
                  next := (leaf_erase nd key).next },
        { pd with children := pd.children.eraseIdx i,
                  keys := pd.keys.eraseIdx (i - 1),
                  num_keys := wrap16 (pd.num_keys - 1) },
        hrep.trans q1b, ?_, ?_, ?_, rfl, rfl, rfl, rfl, rfl, ?_⟩
      · rw [q3 n, if_pos rfl]
      · rw [q3 s, if_neg hsn, if_pos rfl]
      · rw [q3 p, if_neg (Ne.symm c.hnp), if_neg (Ne.symm hsp), if_pos rfl]
      · intro x h1x h2x h3x
        rw [q3 x, if_neg h1x, if_neg h2x, if_neg h3x, heap_get_set_ne _ (Ne.symm h1x)]
    · intro hle s sd k0 hr hsd hst hk0
      have hsn : s ≠ n := right_of_ne hnodup c.hi hr
      have hsp : s ≠ p := fun e => hpc (e ▸ right_of_mem hr)
      have hsd1 : heap_get (heap_set t.heap n (leaf_erase nd key)) s = some sd := by
        rw [heap_get_set_ne _ (Ne.symm hsn)]
        exact hsd
      have hrcs : rc = sd.num_keys := by
        rw [hr] at hrc1
        exact node_count_some hsd1 hrc1
      subst hrcs
      obtain ⟨h1, q1, q2, q3⟩ := leaf_repair_merge_right
        (t := { t with heap := heap_set t.heap n (leaf_erase nd key) })
        c1 hr hsd1 hst hsn hsp hlc1 hcond hle hk0
      have hlen : (heap_set t.heap n (leaf_erase nd key)).length = t.heap.length :=
        heap_set_length _ _ _
      have q1b : leaf_repair { t with heap := heap_set t.heap n (leaf_erase nd key) } n p i =
          check_inner_node_size (t.heap.length + 1) { t with heap := h1 } p := by
        rw [q1]
        show check_inner_node_size ((heap_set t.heap n (leaf_erase nd key)).length + 1) _ p = _
        rw [hlen]
      refine ⟨h1,
        { leaf_erase nd key with
            keys := (leaf_erase nd key).keys ++ sd.keys,
            values := (leaf_erase nd key).values ++ sd.values,
            num_keys := wrap16 ((leaf_erase nd key).num_keys + sd.num_keys),
            next := sd.next },
        { pd with children := pd.children.eraseIdx (i + 1),
                  keys := if 0 < i then (pd.keys.eraseIdx i).set (i - 1) k0
                          else pd.keys.eraseIdx i,
                  num_keys := wrap16 (pd.num_keys - 1) },
        hrep.trans q1b, ?_, ?_, ?_, rfl, rfl, rfl, rfl, rfl, ?_⟩
      · rw [q3 s, if_pos rfl]
      · rw [q3 n, if_neg (Ne.symm hsn), if_pos rfl]
      · rw [q3 p, if_neg (Ne.symm hsp), if_neg (Ne.symm c.hnp), if_pos rfl]
      · intro x h1x h2x h3x
        rw [q3 x, if_neg h2x, if_neg h1x, if_neg h3x, heap_get_set_ne _ (Ne.symm h1x)]
  · intro fuel hty hunder
    have hchk := check_inner_node_size_repair fuel c.hn hunder (by rw [c.hpar]; simp)
    constructor
    · intro hlt s sd kp hl hsd hst hkp hall hn1 hs1 hp1
      have hsn : s ≠ n := left_of_ne hnodup c.hi hl
      have hsp : s ≠ p := fun e => hpc (e ▸ left_of_mem hl)
      have hlcs : lc = sd.num_keys := by
        rw [hl] at hlc
        exact node_count_some hsd hlc
      subst hlcs
      obtain ⟨h1, q1, q2, q3⟩ := inner_repair_merge_left (check_inner_node_size fuel)
        c hl hsd hst hsn hsp hrc hcond hlt hkp hall hn1 hs1 hp1
      refine ⟨h1,
        { sd with keys := sd.keys ++ [kp] ++ nd.keys,
                  children := sd.children ++ nd.children,
                  num_keys := wrap16 (sd.num_keys + (nd.num_keys + 1)) },
        { pd with keys := pd.keys.eraseIdx (i - 1),
                  children := pd.children.eraseIdx i,
                  num_keys := wrap16 (pd.num_keys - 1) },
        hchk.trans q1, ?_, ?_, ?_, rfl, rfl, rfl, rfl, ?_, ?_⟩
      · rw [q3 n, if_pos rfl]
      · rw [q3 s, if_neg hsn, if_neg hsp, if_pos rfl]
      · rw [q3 p, if_neg (Ne.symm c.hnp), if_pos rfl]
      · intro x hx
        obtain ⟨cd, hcd⟩ := hall x hx
        refine ⟨cd, hcd, ?_⟩
        have e1 : x ≠ n := fun e => hn1 (e ▸ hx)
        have e2 : x ≠ p := fun e => hp1 (e ▸ hx)
        have e3 : x ≠ s := fun e => hs1 (e ▸ hx)
        rw [q3 x, if_neg e1, if_neg e2, if_neg e3, hcd]
        simp only [Option.map_some', hx, if_true]
      · intro x h1x h2x h3x h4x
        rw [q3 x, if_neg h1x, if_neg h3x, if_neg h2x]
        cases hx : heap_get t.heap x with
        | none => rfl
        | some cd => simp only [Option.map_some', h4x, if_false]
    · intro hle s sd kp hr hsd hst hspar hkp hall hn1 hs1 hp1
      have hsn : s ≠ n := right_of_ne hnodup c.hi hr
      have hsp : s ≠ p := fun e => hpc (e ▸ right_of_mem hr)
      have hrcs : rc = sd.num_keys := by
        rw [hr] at hrc
        exact node_count_some hsd hrc
      subst hrcs
      have hsi : pd.children[i + 1]? = some s := by
        unfold right_of at hr
        by_cases h0 : i = pd.keys.length
        · rw [if_pos h0] at hr
          cases hr
        · rw [if_neg h0] at hr
          exact hr
      have cs : SibCtx t.heap s p (i + 1) sd pd :=
        ⟨hsd, hspar, c.hp, c.hpt, c.hk, c.hl, hsi, index_of_eq_of_getElem? hnodup hsi, hsp⟩
      obtain ⟨h1, q1, q2, q3⟩ := inner_repair_merge_right (check_inner_node_size fuel)
        c cs hr hst hsn hlc hcond hle hkp hall hn1 hs1 hp1
      refine ⟨h1,
        { nd with keys := nd.keys ++ [kp] ++ sd.keys,
                  children := nd.children ++ sd.children,
                  num_keys := wrap16 (nd.num_keys + (sd.num_keys + 1)) },
        { pd with keys := pd.keys.eraseIdx i,
                  children := pd.children.eraseIdx (i + 1),
                  num_keys := wrap16 (pd.num_keys - 1) },
        hchk.trans q1, ?_, ?_, ?_, rfl, rfl, rfl, rfl, ?_, ?_⟩
      · rw [q3 s, if_pos rfl]
      · rw [q3 n, if_neg (Ne.symm hsn), if_neg c.hnp, if_pos rfl]
      · rw [q3 p, if_neg (Ne.symm hsp), if_pos rfl]
      · intro x hx
        obtain ⟨cd, hcd⟩ := hall x hx
        refine ⟨cd, hcd, ?_⟩
        have e1 : x ≠ n := fun e => hn1 (e ▸ hx)
        have e2 : x ≠ p := fun e => hp1 (e ▸ hx)
        have e3 : x ≠ s := fun e => hs1 (e ▸ hx)
        rw [q3 x, if_neg e3, if_neg e2, if_neg e1, hcd]
        simp only [Option.map_some', hx, if_true]
      · intro x h1x h2x h3x h4x
        rw [q3 x, if_neg h2x, if_neg h3x, if_neg h1x]
        cases hx : heap_get t.heap x with
        | none => rfl
        | some cd => simp only [Option.map_some', h4x, if_false]

/-- C20 (inner merge, both call shapes): let `R` be child number `j + 1` and `L`
child number `j` of `p`, both inner nodes with allocated children.  Then
`inner_merge_left(R, L)` returns `p`; it leaves `L` with the keys of `L`, the
separator `p.keys[j]` and the keys of `R`, and with the children of `L` followed
by those of `R`, all with `L` as parent; it removes `p.keys[j]` and child number
`j + 1` from `p`, and discards `R`; no other node changes.  This one result is
what the repair produces in both call shapes: when the underfull node is `R` and
the left neighbour is chosen (`inner_merge_left(n, left)`), and when the
underfull node is `L` and the right neighbour is chosen
(`inner_merge_left(right, n)`); in both the merged node has fewer than `m`
keys. -/
theorem inner_merge_symmetric {t : bptree K V} {R L p j : Nat} {rd ld pd : bpnode K V}
    {kp : K} (c : SibCtx t.heap R p (j + 1) rd pd) (cl : SibCtx t.heap L p j ld pd)
    (hrt : rd.type = bpnode_type.NODE_INNER) (hlt : ld.type = bpnode_type.NODE_INNER)
    (hLR : L ≠ R) (hkp : pd.keys[j]? = some kp)
    (hrk : rd.num_keys = (rd.keys.length : Int)) (hlk : ld.num_keys = (ld.keys.length : Int))
    (hall : ∀ x ∈ ld.children ++ rd.children, ∃ cd, heap_get t.heap x = some cd)
    (hR1 : R ∉ ld.children ++ rd.children) (hL1 : L ∉ ld.children ++ rd.children)
    (hp1 : p ∉ ld.children ++ rd.children) :
    ∃ h1 ld1 pd1, inner_merge_left t.heap R L = some (h1, p) ∧
      heap_get h1 L = some ld1 ∧ heap_get h1 p = some pd1 ∧ heap_get h1 R = none ∧
      ld1.keys = ld.keys ++ [kp] ++ rd.keys ∧ ld1.children = ld.children ++ rd.children ∧
      pd1.keys = pd.keys.eraseIdx j ∧ pd1.children = pd.children.eraseIdx (j + 1) ∧
      (∀ x ∈ ld1.children, ∃ cd, heap_get t.heap x = some cd ∧
        heap_get h1 x = some { cd with parent := some L }) ∧
      (∀ x, x ≠ R → x ≠ p → x ≠ L → x ∉ ld1.children → heap_get h1 x = heap_get t.heap x) ∧
      (∀ (chk : bptree K V → Nat → Option (bptree K V)) (lc rc : Int),
        rd.num_keys < min_limits t.m →
        node_count t.heap (left_of pd (j + 1)) = some lc →
        node_count t.heap (right_of pd (j + 1)) = some rc →
        ¬ (min_limits t.m < lc ∨ min_limits t.m < rc) → rc < lc →
        inner_repair chk t R = chk { t with heap := h1 } p ∧ ld1.keys.length < t.m) ∧
      (∀ (chk : bptree K V → Nat → Option (bptree K V)) (lc rc : Int),
        ld.num_keys < min_limits t.m →
        node_count t.heap (left_of pd j) = some lc →
        node_count t.heap (right_of pd j) = some rc →
        ¬ (min_limits t.m < lc ∨ min_limits t.m < rc) → ¬ rc < lc →
        inner_repair chk t L = chk { t with heap := h1 } p ∧ ld1.keys.length < t.m) := by
  have hLp : L ≠ p := cl.hnp
  obtain ⟨h1, e1, _, e3⟩ := inner_merge_left_eq c (Nat.succ_pos j) cl.hn hLR hLp
    (by simpa using hkp) hall hR1 hL1 hp1
  have hl : left_of pd (j + 1) = some L := by
    simp only [left_of, Nat.add_sub_cancel]
    rw [if_neg (Nat.succ_ne_zero j)]
    exact cl.hi
  have hjl : j < pd.keys.length := (List.getElem?_eq_some.1 hkp).1
  have hr : right_of pd j = some R := by
    simp only [right_of]
    rw [if_neg (ne_of_lt hjl)]
    exact c.hi
  have hmin : 2 * ((t.m - 1) / 2) ≤ t.m - 1 := by omega
  refine ⟨h1,
    { ld with keys := ld.keys ++ [kp] ++ rd.keys,
              children := ld.children ++ rd.children,
              num_keys := wrap16 (ld.num_keys + (rd.num_keys + 1)) },
    { pd with keys := pd.keys.eraseIdx (j + 1 - 1),
              children := pd.children.eraseIdx (j + 1),
              num_keys := wrap16 (pd.num_keys - 1) },
    e1, ?_, ?_, ?_, rfl, rfl, ?_, rfl, ?_, ?_, ?_, ?_⟩
  · rw [e3 L, if_neg hLR, if_neg hLp, if_pos rfl]
  · rw [e3 p, if_neg (Ne.symm c.hnp), if_pos rfl]
  · rw [e3 R, if_pos rfl]
  · simp only [Nat.add_sub_cancel]
  · intro x hx
    simp only at hx
    obtain ⟨cd, hcd⟩ := hall x hx
    have hxR : x ≠ R := fun h => hR1 (h ▸ hx)
    have hxp : x ≠ p := fun h => hp1 (h ▸ hx)
    have hxL : x ≠ L := fun h => hL1 (h ▸ hx)
    refine ⟨cd, hcd, ?_⟩
    rw [e3 x, if_neg hxR, if_neg hxp, if_neg hxL, hcd]
    simp only [Option.map_some', hx, if_true]
  · intro x h1x h2x h3x h4x
    simp only at h4x
    rw [e3 x, if_neg h1x, if_neg h2x, if_neg h3x]
    cases hx : heap_get t.heap x with
    | none => rfl
    | some cd => simp only [Option.map_some', h4x, if_false]
  · intro chk lc rc hunder hlc hrc hcond hlt2
    have hc2 : ¬ ((((t.m - 1) / 2 : Nat) : Int) < lc ∨ (((t.m - 1) / 2 : Nat) : Int) < rc) :=
      hcond
    rw [hl] at hlc
    constructor
    · simp only [inner_repair, c.get_sibling, hlc, hrc, hc2, if_false, hlt2, if_true, hl,
        dyn_inner_some cl.hn hlt, e1]
    · have e := node_count_some cl.hn hlc
      subst e
      unfold min_limits at hunder hcond
      simp only [List.length_append, List.length_singleton]
      omega
  · intro chk lc rc hunder hlc hrc hcond hle
    have hc2 : ¬ ((((t.m - 1) / 2 : Nat) : Int) < lc ∨ (((t.m - 1) / 2 : Nat) : Int) < rc) :=
      hcond
    rw [hr] at hrc
    constructor
    · simp only [inner_repair, cl.get_sibling, hlc, hrc, hc2, if_false, hle, hr,
        dyn_inner_some c.hn hrt, e1]
    · have e := node_count_some c.hn hrc
      subst e
      unfold min_limits at hunder hcond
      simp only [List.length_append, List.length_singleton]
      omega

end claimsJ

/-- Witness of C19 (fanout 4).  Leaves: in the tree with the leaves `{1}`, `{3}`,
`{5}` the deletion of 3 empties the middle leaf, both neighbours hold one key,
and the leaf absorbs its right neighbour, which is discarded; in the tree with
the leaves `{1}`, `{3}` the deletion of 3 empties the last leaf, which is
absorbed by its left neighbour.  Inner nodes: the node without keys at address 4
of `tree_ml` has a left neighbour only and is absorbed by it; the node without
keys at address 6 of `tree_mid` has a neighbour with one key on either side and
absorbs the right one. -/
theorem merge_dispatch_witness :
    (∃ h1 nd2 pd1,
      remove_leaf_key tree_tie 1 3 =
        check_inner_node_size (tree_tie.heap.length + 1) { tree_tie with heap := h1 } 2 ∧
      heap_get h1 3 = none ∧ heap_get h1 1 = some nd2 ∧ heap_get h1 2 = some pd1 ∧
      nd2.keys = [5] ∧ pd1.keys = [5] ∧ pd1.children = [0, 1] ∧
      heap_get h1 0 = heap_get tree_tie.heap 0) ∧
    (∃ h1 sd1 pd1,
      remove_leaf_key tree_pair 1 3 =
        check_inner_node_size (tree_pair.heap.length + 1) { tree_pair with heap := h1 } 2 ∧
      heap_get h1 1 = none ∧ heap_get h1 0 = some sd1 ∧ heap_get h1 2 = some pd1 ∧
      sd1.keys = [1] ∧ pd1.keys = [] ∧ pd1.children = [0]) ∧
    (∃ h1 sd1 pd1,
      check_inner_node_size 7 tree_ml 4 =
        check_inner_node_size 6 { tree_ml with heap := h1 } 5 ∧
      heap_get h1 4 = none ∧ heap_get h1 3 = some sd1 ∧ heap_get h1 5 = some pd1 ∧
      sd1.keys = [3, 7] ∧ sd1.children = [0, 1, 2] ∧ pd1.keys = [] ∧ pd1.children = [3]) ∧
    (∃ h1 nd2 pd1,
      check_inner_node_size 10 tree_mid 6 =
        check_inner_node_size 9 { tree_mid with heap := h1 } 8 ∧
      heap_get h1 7 = none ∧ heap_get h1 6 = some nd2 ∧ heap_get h1 8 = some pd1 ∧
      nd2.keys = [9, 11] ∧ nd2.children = [2, 3, 4] ∧ pd1.keys = [5] ∧
      pd1.children = [5, 6] ∧ heap_get h1 5 = heap_get tree_mid.heap 5) := by
  have hmem : ∀ (t : bptree Nat Nat) (a b c : Nat), (∃ cd, heap_get t.heap a = some cd) →
      (∃ cd, heap_get t.heap b = some cd) → (∃ cd, heap_get t.heap c = some cd) →
      ∀ x, x ∈ [a, b, c] → ∃ cd, heap_get t.heap x = some cd := by
    intro t a b c h0 h1 h2 x hx
    rcases List.mem_cons.1 hx with rfl | h
    · exact h0
    · rcases List.mem_cons.1 h with rfl | h3
      · exact h1
      · rcases List.mem_cons.1 h3 with rfl | h4
        · exact h2
        · cases h4
  refine ⟨?_, ?_, ?_, ?_⟩
  · obtain ⟨h1, nd2, pd1, q1, q2, q3, q4, q5, _, _, q8, q9, q10⟩ :=
      ((merge_dispatch (t := tree_tie) (n := 1) (p := 2) (i := 1)
        ⟨rfl, rfl, rfl, rfl, rfl, rfl, rfl, rfl, by decide⟩ (by decide) (by decide)
        rfl rfl (by decide)).1 3 rfl (by decide) rfl (by decide)).2 (by decide)
        3 _ 5 rfl rfl rfl rfl
    exact ⟨h1, nd2, pd1, q1, q2, q3, q4, q5, q8, q9,
      q10 0 (by decide) (by decide) (by decide)⟩
  · obtain ⟨h1, sd1, pd1, q1, q2, q3, q4, q5, _, _, q8, q9, _⟩ :=
      ((merge_dispatch (t := tree_pair) (n := 1) (p := 2) (i := 1)
        ⟨rfl, rfl, rfl, rfl, rfl, rfl, rfl, rfl, by decide⟩ (by decide) (by decide)
        rfl rfl (by decide)).1 3 rfl (by decide) rfl (by decide)).1 (by decide)
        0 _ rfl rfl rfl
    exact ⟨h1, sd1, pd1, q1, q2, q3, q4, q5, q8, q9⟩
  · obtain ⟨h1, sd1, pd1, q1, q2, q3, q4, q5, q6, q7, q8, _⟩ :=
      ((merge_dispatch (t := tree_ml) (n := 4) (p := 5) (i := 1)
        ⟨rfl, rfl, rfl, rfl, rfl, rfl, rfl, rfl, by decide⟩ (by decide) (by decide)
        rfl rfl (by decide)).2 6 rfl (by decide)).1 (by decide)
        3 _ 7 rfl rfl rfl rfl
        (hmem tree_ml 0 1 2 ⟨_, rfl⟩ ⟨_, rfl⟩ ⟨_, rfl⟩) (by decide) (by decide) (by decide)
    exact ⟨h1, sd1, pd1, q1, q2, q3, q4, q5, q6, q7, q8⟩
  · obtain ⟨h1, nd2, pd1, q1, q2, q3, q4, q5, q6, q7, q8, _, q10⟩ :=
      ((merge_dispatch (t := tree_mid) (n := 6) (p := 8) (i := 1)
        ⟨rfl, rfl, rfl, rfl, rfl, rfl, rfl, rfl, by decide⟩ (by decide) (by decide)
        rfl rfl (by decide)).2 9 rfl (by decide)).2 (by decide)
        7 _ 9 rfl rfl rfl rfl rfl
        (hmem tree_mid 2 3 4 ⟨_, rfl⟩ ⟨_, rfl⟩ ⟨_, rfl⟩) (by decide) (by decide) (by decide)
    exact ⟨h1, nd2, pd1, q1, q2, q3, q4, q5, q6, q7, q8,
      q10 5 (by decide) (by decide) (by decide) (by decide)⟩

/-- C19, counterexample: in the reachable tree of fanout 4 with the leaves `{1}`,
`{3}`, `{5}` the deletion of the key 3 empties the middle leaf; both neighbours
hold one key, so none can lend, and the counts are equal.  The left neighbour
stays as it is and the right neighbour is absorbed and discarded: the merge is
with the right neighbour. -/
theorem merge_tie_goes_right :
    run_ops (bptree_new 4) ops_tie = some tree_tie ∧
    node_count tree_tie.heap (some 0) = some 1 ∧ node_count tree_tie.heap (some 3) = some 1 ∧
    min_limits 4 = 1 ∧
    delete_key tree_tie 3 = some (true, tree_tie_after) ∧
    heap_get tree_tie_after.heap 0 = heap_get tree_tie.heap 0 ∧
    heap_get tree_tie_after.heap 3 = none ∧
    node_keys tree_tie_after.heap 1 = [5] :=
  ⟨rfl, rfl, rfl, rfl, rfl, rfl, rfl, rfl⟩

/-- Witness of C20 (fanout 4): the node without keys at address 4 is absorbed by
its left neighbour, and the node without keys at address 3 absorbs its right
neighbour; both times the call is `inner_merge_left(right node, left node)` and
the left node ends with the keys of both and the separator between them. -/
theorem inner_merge_symmetric_witness :
    (∃ h1 ld1, inner_merge_left tree_ml.heap 4 3 = some (h1, 5) ∧
      heap_get h1 3 = some ld1 ∧ ld1.keys = [3, 7] ∧ ld1.children = [0, 1, 2] ∧
      inner_repair (check_inner_node_size 7) tree_ml 4 =
        check_inner_node_size 7 { tree_ml with heap := h1 } 5) ∧
    (∃ h1 ld1, inner_merge_left tree_mr.heap 4 3 = some (h1, 5) ∧
      heap_get h1 3 = some ld1 ∧ ld1.keys = [5, 7] ∧ ld1.children = [0, 1, 2] ∧
      inner_repair (check_inner_node_size 7) tree_mr 3 =
        check_inner_node_size 7 { tree_mr with heap := h1 } 5) := by
  have hmem : ∀ (t : bptree Nat Nat), (∃ cd, heap_get t.heap 0 = some cd) →
      (∃ cd, heap_get t.heap 1 = some cd) → (∃ cd, heap_get t.heap 2 = some cd) →
      ∀ x, x ∈ [0, 1, 2] → ∃ cd, heap_get t.heap x = some cd := by
    intro t h0 h1 h2 x hx
    rcases List.mem_cons.1 hx with rfl | h
    · exact h0
    · rcases List.mem_cons.1 h with rfl | h3
      · exact h1
      · rcases List.mem_cons.1 h3 with rfl | h4
        · exact h2
        · cases h4
  constructor
  · obtain ⟨h1, ld1, pd1, q1, q2, _, _, q5, q6, _, _, _, _, q11, _⟩ :=
      inner_merge_symmetric (t := tree_ml) (R := 4) (L := 3) (p := 5) (j := 0)
        ⟨rfl, rfl, rfl, rfl, rfl, rfl, rfl, rfl, by decide⟩
        ⟨rfl, rfl, rfl, rfl, rfl, rfl, rfl, rfl, by decide⟩ rfl rfl (by decide) rfl rfl rfl
        (hmem tree_ml ⟨_, rfl⟩ ⟨_, rfl⟩ ⟨_, rfl⟩) (by decide) (by decide) (by decide)
    exact ⟨h1, ld1, q1, q2, q5, q6,
      (q11 (check_inner_node_size 7) 1 0 (by decide) rfl rfl (by decide) (by decide)).1⟩
  · obtain ⟨h1, ld1, pd1, q1, q2, _, _, q5, q6, _, _, _, _, _, q12⟩ :=
      inner_merge_symmetric (t := tree_mr) (R := 4) (L := 3) (p := 5) (j := 0)
        ⟨rfl, rfl, rfl, rfl, rfl, rfl, rfl, rfl, by decide⟩
        ⟨rfl, rfl, rfl, rfl, rfl, rfl, rfl, rfl, by decide⟩ rfl rfl (by decide) rfl rfl rfl
        (hmem tree_mr ⟨_, rfl⟩ ⟨_, rfl⟩ ⟨_, rfl⟩) (by decide) (by decide) (by decide)
    exact ⟨h1, ld1, q1, q2, q5, q6,
      (q12 (check_inner_node_size 7) 0 1 (by decide) rfl rfl (by decide) (by decide)).1⟩

end BPlus

namespace BPlus

/-! ## Deleting a key that no leaf holds -/

section claimsK
variable {K V : Type} [LinearOrder K]

/-- The descent of `find_leaf` ends at a leaf below the node it starts from. -/
theorem find_leaf_descend_desc {h : List (Option (bpnode K V))} {key : K} :
    ∀ (fuel n b : Nat), find_leaf_descend h key fuel n = some b →
      Desc h n b ∧ ∃ nd, heap_get h b = some nd ∧ nd.type = bpnode_type.NODE_LEAF := by
  intro fuel
  induction fuel with
  | zero =>
    intro n b hd
    cases hd
  | succ f ih =>
    intro n b hd
    simp only [find_leaf_descend] at hd
    cases hn : heap_get h n with
    | none => rw [hn] at hd; cases hd
    | some nd =>
      rw [hn] at hd
      simp only at hd
      by_cases hl : nd.type = bpnode_type.NODE_LEAF
      · rw [if_pos hl] at hd
        cases hd
        exact ⟨Desc.here n, nd, hn, hl⟩
      · rw [if_neg hl] at hd
        by_cases hi : nd.type = bpnode_type.NODE_INNER
        · rw [if_pos hi] at hd
          cases hc : check_children_index_by_key nd key with
          | none => rw [hc] at hd; cases hd
          | some i =>
            rw [hc] at hd
            simp only at hd
            cases hch : nd.children[i]? with
            | none => rw [hch] at hd; cases hd
            | some c =>
              rw [hch] at hd
              simp only at hd
              obtain ⟨q1, q2⟩ := ih c b hd
              exact ⟨Desc.down hn hi (List.getElem?_mem hch) q1, q2⟩
        · rw [if_neg hi] at hd
          cases hd

/-- When `find_leaf` reports a position, the key is stored in a leaf of the
tree. -/
theorem find_leaf_hit {t : bptree K V} {k : K} {idx : Nat} {n : Option Nat}
    (h : find_leaf t k = some (some idx, n)) :
    ∃ a nd, InTree t a ∧ heap_get t.heap a = some nd ∧ nd.type = bpnode_type.NODE_LEAF ∧
      k ∈ nd.keys := by
  cases hr : t.root with
  | none =>
    simp only [find_leaf, hr] at h
    cases h
  | some r =>
    simp only [find_leaf, hr] at h
    cases hd : find_leaf_descend t.heap k t.heap.length r with
    | none => rw [hd] at h; cases h
    | some a =>
      rw [hd] at h
      simp only at h
      obtain ⟨q1, nd, q2, q3⟩ := find_leaf_descend_desc _ _ _ hd
      rw [q2] at h
      simp only at h
      cases hs : find_leaf_scan nd.keys k nd.num_keys.toNat 0 with
      | none => rw [hs] at h; cases h
      | some oi =>
        rw [hs] at h
        simp only [Option.some.injEq, Prod.mk.injEq] at h
        obtain ⟨h1, _⟩ := h
        subst h1
        exact ⟨a, nd, ⟨r, hr, q1⟩, q2, q3, List.getElem?_mem (find_leaf_scan_get _ _ _ _ _ hs)⟩

/-- The lookup that starts a deletion returns on every tree built from the empty
tree by insertions and deletions. -/
theorem reachable_find_leaf {m : Nat} (h3 : 3 ≤ m) {t : bptree K V} (hr : Reachable m t)
    (k : K) : find_leaf t k ≠ none := by
  have hdel : ∃ b t1, delete_key t k = some (b, t1) := by
    rcases (reachable_cases h3 hr).2 with ⟨kv, hI⟩ | hI
    · obtain ⟨t1, q, _⟩ := hI.delete_key_ok k
      exact ⟨_, t1, q⟩
    · obtain ⟨b, t1, q, _⟩ := hI.delete_ok k
      exact ⟨b, t1, q⟩
  intro hn
  obtain ⟨b, t1, q⟩ := hdel
  simp only [delete_key, hn] at q
  cases q

/-- C5 (idempotent delete): let the key `k` be stored in no leaf of the tree
`t`.  Then in every state in which the lookup `find_leaf` returns, and so in
every tree built from the empty tree of a fanout `m ≥ 3` by insertions and
deletions, and in every tree without a root, `delete_key` returns false and the
returned tree state is the very same state: heap (every node with its keys,
values, children, parent and forward link), root, count and depth. -/
theorem delete_key_absent (t : bptree K V) (k : K)
    (habs : ∀ a nd, InTree t a → heap_get t.heap a = some nd →
      nd.type = bpnode_type.NODE_LEAF → k ∉ nd.keys) :
    (find_leaf t k ≠ none → delete_key t k = some (false, t)) ∧
    (∀ m, 3 ≤ m → Reachable m t → delete_key t k = some (false, t)) ∧
    (t.root = none → delete_key t k = some (false, t)) := by
  have main : find_leaf t k ≠ none → delete_key t k = some (false, t) := by
    intro hne
    cases hf : find_leaf t k with
    | none => exact absurd hf hne
    | some res =>
      obtain ⟨oi, onn⟩ := res
      cases oi with
      | none => simp only [delete_key, hf]
      | some idx =>
        obtain ⟨a, nd, q1, q2, q3, q4⟩ := find_leaf_hit hf
        exact absurd q4 (habs a nd q1 q2 q3)
  refine ⟨main, fun m h3 hr => main (reachable_find_leaf h3 hr k), fun hr => main ?_⟩
  simp only [find_leaf, hr]
  intro hc
  cases hc

/-- The counter of a tree built from the empty tree is not negative. -/
theorem reachable_count_nonneg {m : Nat} (h3 : 3 ≤ m) {t : bptree K V} (hr : Reachable m t) :
    0 ≤ t.count := by
  rcases (reachable_cases h3 hr).2 with ⟨kv, g, L, _, hc⟩ | ⟨_, hc⟩
  · rw [hc]
    exact Int.natCast_nonneg _
  · rcases hc with ⟨_, _, hcnt⟩ | ⟨r, nd, _, _, _, _, _, _, _, hcnt, _⟩
    · rw [hcnt]
    · rw [hcnt]
      exact Int.natCast_nonneg _

/-- C23 (root invariant behind the last-key shortcut): for every fanout `m ≥ 3`
and every tree reached from the empty tree by calls during which the counter
stays in the range of `int`: `get_count()` lies between 0 and `2^31 - 1`; an
inner root holds at least one key and one child more than keys, and below each
of its children there is a leaf with at least one key; whenever `get_count()`
is 1 the root is a leaf that holds exactly one key and is the only node of the
tree, and the `delete_key` of a present key then frees the root, which leaves
no node of the tree allocated, and returns the empty tree; and `get_count()` is
0 exactly when the root is absent. -/
theorem root_invariant {m : Nat} (h3 : 3 ≤ m) {t : bptree K V} (hr : ReachableInt m t) :
    (0 ≤ get_count t ∧ get_count t ≤ 2147483647) ∧
    (∀ r rd, t.root = some r → heap_get t.heap r = some rd →
      rd.type = bpnode_type.NODE_INNER →
        1 ≤ rd.keys.length ∧ rd.children.length = rd.keys.length + 1 ∧
        ∀ c ∈ rd.children, ∃ b bd, Desc t.heap c b ∧ heap_get t.heap b = some bd ∧
          bd.type = bpnode_type.NODE_LEAF ∧ 1 ≤ bd.keys.length) ∧
    (get_count t = 1 → ∃ r rd k, t.root = some r ∧ heap_get t.heap r = some rd ∧
      rd.type = bpnode_type.NODE_LEAF ∧ rd.keys = [k] ∧ (∀ a, InTree t a → a = r) ∧
      ∀ k1 v, find_key t k1 = some (some v) →
        delete_key t k1 = some (true, { t with heap := heap_free t.heap r, root := none,
                                               count := 0, depth := 0 }) ∧
        ∀ a, InTree t a → heap_get (heap_free t.heap r) a = none) ∧
    (get_count t = 0 ↔ t.root = none) := by
  have hmax : t.count ≤ 2147483647 := hr.count_le
  have h0 : 0 ≤ t.count := reachable_count_nonneg h3 hr.reachable
  have hfacts : (∀ r rd, t.root = some r → heap_get t.heap r = some rd →
      rd.type = bpnode_type.NODE_INNER →
        1 ≤ rd.keys.length ∧ rd.children.length = rd.keys.length + 1 ∧
        ∀ c ∈ rd.children, ∃ b bd, Desc t.heap c b ∧ heap_get t.heap b = some bd ∧
          bd.type = bpnode_type.NODE_LEAF ∧ 1 ≤ bd.keys.length) ∧
    (t.count = 1 → ∃ r rd k, t.root = some r ∧ heap_get t.heap r = some rd ∧
      rd.type = bpnode_type.NODE_LEAF ∧ rd.keys = [k] ∧ ∀ a, InTree t a → a = r) ∧
    (t.count = 0 ↔ t.root = none) := by
    rcases (reachable_cases h3 hr.reachable).2 with ⟨kv, hI⟩ | hI
    · exact hI.root_facts
    · exact hI.root_facts2
  obtain ⟨q1, q2, q3⟩ := hfacts
  refine ⟨⟨h0, hmax⟩, q1, ?_, q3⟩
  intro hc
  obtain ⟨r, rd, k, e1, e2, e3, e4, e5⟩ := q2 hc
  refine ⟨r, rd, k, e1, e2, e3, e4, e5, ?_⟩
  intro k1 v hf
  obtain ⟨idx, a, nd, r1, g1, _⟩ := find_key_found hf
  have hc1 : t.count = 1 := hc
  constructor
  · simp only [delete_key, g1, hc1, if_true, e1, e2]
  · intro a1 ha1
    rw [e5 a1 ha1, heap_get_free, if_pos rfl]

end claimsK

/-- Witness of C5 on the tree of fanout 4 with the leaves `{1, 2}` and `{3, 4}`:
the key 7 is in neither leaf, and `delete(7)` returns false and the same tree. -/
theorem delete_key_absent_witness :
    (∀ a nd, InTree tree_a a → heap_get tree_a.heap a = some nd →
      nd.type = bpnode_type.NODE_LEAF → 7 ∉ nd.keys) ∧
    Reachable 4 tree_a ∧ tree_a.root = some 2 ∧ node_keys tree_a.heap 0 = [1, 2] ∧
    node_keys tree_a.heap 1 = [3, 4] ∧
    delete_key tree_a 7 = some (false, tree_a) := by
  have habs : ∀ a nd, InTree tree_a a → heap_get tree_a.heap a = some nd →
      nd.type = bpnode_type.NODE_LEAF → 7 ∉ nd.keys := by
    intro a nd _ hnd hty
    have hlt : a < 3 := heap_get_lt hnd
    interval_cases a
    · have e : nd = _ := (Option.some.inj hnd).symm
      subst e
      decide
    · have e : nd = _ := (Option.some.inj hnd).symm
      subst e
      decide
    · have e : nd = _ := (Option.some.inj hnd).symm
      subst e
      cases hty
  exact ⟨habs, ⟨ops_a, rfl⟩, rfl, rfl, rfl,
    (delete_key_absent tree_a 7 habs).2.1 4 (by decide) ⟨ops_a, rfl⟩⟩

/-- Witness of C23: in the tree of fanout 4 with the leaves `{1, 2}` and `{3, 4}`
the root is an inner node with the key 3 and two children, each a leaf with a
key; in the tree with the single key 1 the count is 1, the root is a leaf with
one key and the only node, and `delete(1)` frees it. -/
theorem root_invariant_witness :
    (ReachableInt 4 tree_a ∧ tree_a.root = some 2 ∧ node_keys tree_a.heap 2 = [3] ∧
      1 ≤ [3].length ∧ [0, 1].length = [3].length + 1 ∧
      ∀ c ∈ [0, 1], ∃ b bd, Desc tree_a.heap c b ∧ heap_get tree_a.heap b = some bd ∧
        bd.type = bpnode_type.NODE_LEAF ∧ 1 ≤ bd.keys.length) ∧
    (ReachableInt 4 tree_one ∧ get_count tree_one = 1 ∧
      ∃ r rd k, tree_one.root = some r ∧ heap_get tree_one.heap r = some rd ∧
        rd.type = bpnode_type.NODE_LEAF ∧ rd.keys = [k] ∧ (∀ a, InTree tree_one a → a = r) ∧
        ∀ k1 v, find_key tree_one k1 = some (some v) →
          delete_key tree_one k1 =
            some (true, { tree_one with heap := heap_free tree_one.heap r, root := none,
                                        count := 0, depth := 0 }) ∧
          ∀ a, InTree tree_one a → heap_get (heap_free tree_one.heap r) a = none) :=
  ⟨⟨⟨ops_a, rfl⟩, rfl, rfl,
      (root_invariant (m := 4) (by decide)
        (show ReachableInt 4 tree_a from ⟨ops_a, rfl⟩)).2.1 2 _ rfl rfl rfl⟩,
    ⟨⟨[Op.insert 1 10], rfl⟩, rfl,
      (root_invariant (m := 4) (by decide)
        (show ReachableInt 4 tree_one from ⟨[Op.insert 1 10], rfl⟩)).2.2.1 rfl⟩⟩

end BPlus

